import Mathlib

/-! # Flux: lexer, parser and tree-walking evaluator

A shallow embedding of the Flux interpreter (`lexer.cpp`, `parser.cpp`,
`interpreter.cpp`, `main.cpp`) together with theorems about it.

Modelling conventions.

* Source text is a list of characters; every character stands for one byte of
  the C++ `std::string`, and only ASCII letters and digits count as letters and
  digits (the "C" locale).
* `int` and `size_t` counters (line, column, token position) are natural
  numbers; the inputs needed to overflow them are out of reach.
* A `double` is modelled by `Number`, after IEEE 754 binary64: a finite value
  is the rational that it is, and there are the negative zero, the two
  infinities and NaN with its sign bit.  `+ - * /` round the exact result to the
  nearest double, ties to even (`roundToDouble`); `std::fmod`, unary minus and
  `std::abs` are exact.  Where the C++ standard leaves the behaviour to the
  platform the model follows x86-64 with glibc: an invalid operation gives the
  NaN with the sign bit set (written `-nan`), a NaN operand is passed on (the
  left one first), and `strtod` reports `ERANGE` as described at `stod`.
* Shared pointers are indices: an environment reference is an index into the
  interpreter's list of frames, a callable reference an index into its list of
  function objects.
* Loops and recursion take a fuel argument; running out of fuel is the
  distinguished result `timeout`, never an error of the program.
* Reading a vector out of bounds or following a dangling reference (undefined
  behaviour in C++) is the distinguished result `fault`.
-/

namespace Flux

/-! ## Tokens (lexer.h) -/

/-- Token kinds, as in `enum class TokenType`. -/
inductive TokenType where
  | NUMBER | STRING | IDENTIFIER
  | LET | FUN | IF | ELSE | WHILE | FOR | TRUE | FALSE | NIL | RETURN | PRINT
  | PLUS | MINUS | MULTIPLY | DIVIDE | MODULO | ASSIGN
  | EQUAL | NOT_EQUAL | LESS | LESS_EQUAL | GREATER | GREATER_EQUAL
  | AND | OR | NOT
  | LEFT_PAREN | RIGHT_PAREN | LEFT_BRACE | RIGHT_BRACE | COMMA | SEMICOLON
  | NEWLINE | END_OF_FILE | INVALID
  deriving DecidableEq, Repr

/-- A token: kind, lexeme, line and column (`struct Token`). -/
structure Token where
  type : TokenType
  lexeme : String
  line : Nat
  column : Nat
  deriving DecidableEq, Repr

/-! ## Lexer (lexer.cpp) -/

/-- The scanner state of `class Lexer`, with the lines written to `std::cerr`. -/
structure Lexer where
  source : List Char
  current : Nat
  line : Nat
  column : Nat
  cerr : List String
  deriving DecidableEq, Repr

/-- The keyword table `Lexer::keywords`. -/
def Lexer.keywords : List (String × TokenType) :=
  [("let", .LET), ("fun", .FUN), ("if", .IF), ("else", .ELSE), ("while", .WHILE),
   ("for", .FOR), ("true", .TRUE), ("false", .FALSE), ("nil", .NIL),
   ("return", .RETURN), ("print", .PRINT), ("and", .AND), ("or", .OR), ("not", .NOT)]

/-- The constructor `Lexer::Lexer(source)`. -/
def Lexer.new (source : String) : Lexer :=
  { source := source.toList, current := 0, line := 1, column := 1, cerr := [] }

/-- `Lexer::isAtEnd`. -/
def Lexer.isAtEnd (lx : Lexer) : Bool :=
  decide (lx.current ≥ lx.source.length)

/-- `Lexer::advance`: the consumed character and the new state. -/
def Lexer.advance (lx : Lexer) : Char × Lexer :=
  if lx.isAtEnd then ('\x00', lx)
  else (lx.source.getD lx.current '\x00',
        { lx with column := lx.column + 1, current := lx.current + 1 })

/-- `Lexer::peek`. -/
def Lexer.peek (lx : Lexer) : Char :=
  if lx.isAtEnd then '\x00' else lx.source.getD lx.current '\x00'

/-- `Lexer::peekNext`. -/
def Lexer.peekNext (lx : Lexer) : Char :=
  if lx.current + 1 ≥ lx.source.length then '\x00'
  else lx.source.getD (lx.current + 1) '\x00'

/-- The loop of `Lexer::skipWhitespace`. -/
def Lexer.skipWhitespaceLoop : Nat → Lexer → Lexer
  | 0, lx => lx
  | fuel + 1, lx =>
    if !lx.isAtEnd then
      let c := lx.peek
      if c == ' ' || c == '\t' || c == '\r' then skipWhitespaceLoop fuel lx.advance.2
      else lx
    else lx

/-- `Lexer::skipWhitespace`. -/
def Lexer.skipWhitespace (lx : Lexer) : Lexer :=
  Lexer.skipWhitespaceLoop lx.source.length lx

/-- The loop of `Lexer::skipComment`. -/
def Lexer.skipCommentLoop : Nat → Lexer → Lexer
  | 0, lx => lx
  | fuel + 1, lx =>
    if !lx.isAtEnd && lx.peek != '\n' then skipCommentLoop fuel lx.advance.2 else lx

/-- `Lexer::skipComment`. -/
def Lexer.skipComment (lx : Lexer) : Lexer :=
  Lexer.skipCommentLoop lx.source.length lx

/-- `Lexer::makeToken`: a token at the current line and column. -/
def Lexer.makeToken (lx : Lexer) (type : TokenType) (lexeme : String) : Token :=
  { type := type, lexeme := lexeme, line := lx.line, column := lx.column }

/-- The loop of `Lexer::makeNumber`. -/
def Lexer.makeNumberLoop : Nat → Lexer → String → Lexer × String
  | 0, lx, number => (lx, number)
  | fuel + 1, lx, number =>
    if !lx.isAtEnd && (lx.peek.isDigit || lx.peek == '.') then
      makeNumberLoop fuel lx.advance.2 (number.push lx.advance.1)
    else (lx, number)

/-- `Lexer::makeNumber`. -/
def Lexer.makeNumber (lx : Lexer) : Lexer × Token :=
  let startColumn := lx.column
  let r := Lexer.makeNumberLoop lx.source.length lx ""
  (r.1, { type := .NUMBER, lexeme := r.2, line := r.1.line, column := startColumn })

/-- The loop of `Lexer::makeString`. -/
def Lexer.makeStringLoop : Nat → Lexer → String → Lexer × String
  | 0, lx, value => (lx, value)
  | fuel + 1, lx, value =>
    if !lx.isAtEnd && lx.peek != '"' then
      let lx1 := if lx.peek == '\n' then { lx with line := lx.line + 1, column := 1 } else lx
      makeStringLoop fuel lx1.advance.2 (value.push lx1.advance.1)
    else (lx, value)

/-- `Lexer::makeString`. -/
def Lexer.makeString (lx : Lexer) : Lexer × Token :=
  let startColumn := lx.column
  let lx0 := lx.advance.2
  let r := Lexer.makeStringLoop lx.source.length lx0 ""
  if r.1.isAtEnd then
    ({ r.1 with cerr := r.1.cerr ++ ["Unterminated string at line " ++ toString r.1.line] },
     { type := .INVALID, lexeme := r.2, line := r.1.line, column := startColumn })
  else
    (r.1.advance.2, { type := .STRING, lexeme := r.2, line := r.1.line, column := startColumn })

/-- The loop of `Lexer::makeIdentifier`. -/
def Lexer.makeIdentifierLoop : Nat → Lexer → String → Lexer × String
  | 0, lx, identifier => (lx, identifier)
  | fuel + 1, lx, identifier =>
    if !lx.isAtEnd && (lx.peek.isAlphanum || lx.peek == '_') then
      makeIdentifierLoop fuel lx.advance.2 (identifier.push lx.advance.1)
    else (lx, identifier)

/-- `Lexer::makeIdentifier`. -/
def Lexer.makeIdentifier (lx : Lexer) : Lexer × Token :=
  let startColumn := lx.column
  let r := Lexer.makeIdentifierLoop lx.source.length lx ""
  let type := match Lexer.keywords.lookup r.2 with
    | some t => t
    | none => TokenType.IDENTIFIER
  (r.1, { type := type, lexeme := r.2, line := r.1.line, column := startColumn })

/-- One of the four cases `=`, `!`, `<`, `>` of the switch in `Lexer::tokenize`:
advance, then pick the two-character or the one-character token. -/
def Lexer.scanOperator (lx : Lexer) (two : TokenType) (twoLexeme : String)
    (one : TokenType) (oneLexeme : String) : Lexer × Token :=
  let lx1 := lx.advance.2
  if lx1.peek == '=' then (lx1.advance.2, lx1.makeToken two twoLexeme)
  else (lx1, lx1.makeToken one oneLexeme)

/-- The switch of `Lexer::tokenize` on the character `c`; `none` is the
`continue` of the default case (an unexpected character). -/
def Lexer.scanToken (lx : Lexer) (c : Char) : Lexer × Option Token :=
  if c == '(' then (lx.advance.2, some (lx.makeToken .LEFT_PAREN "("))
  else if c == ')' then (lx.advance.2, some (lx.makeToken .RIGHT_PAREN ")"))
  else if c == '\x7b' then (lx.advance.2, some (lx.makeToken .LEFT_BRACE "\x7b"))
  else if c == '\x7d' then (lx.advance.2, some (lx.makeToken .RIGHT_BRACE "\x7d"))
  else if c == ',' then (lx.advance.2, some (lx.makeToken .COMMA ","))
  else if c == ';' then (lx.advance.2, some (lx.makeToken .SEMICOLON ";"))
  else if c == '+' then (lx.advance.2, some (lx.makeToken .PLUS "+"))
  else if c == '-' then (lx.advance.2, some (lx.makeToken .MINUS "-"))
  else if c == '*' then (lx.advance.2, some (lx.makeToken .MULTIPLY "*"))
  else if c == '/' then (lx.advance.2, some (lx.makeToken .DIVIDE "/"))
  else if c == '%' then (lx.advance.2, some (lx.makeToken .MODULO "%"))
  else if c == '\n' then
    ({ lx.advance.2 with line := lx.line + 1, column := 1 },
     some (lx.makeToken .NEWLINE "\\n"))
  else if c == '=' then
    let r := lx.scanOperator .EQUAL "==" .ASSIGN "="
    (r.1, some r.2)
  else if c == '!' then
    let r := lx.scanOperator .NOT_EQUAL "!=" .NOT "!"
    (r.1, some r.2)
  else if c == '<' then
    let r := lx.scanOperator .LESS_EQUAL "<=" .LESS "<"
    (r.1, some r.2)
  else if c == '>' then
    let r := lx.scanOperator .GREATER_EQUAL ">=" .GREATER ">"
    (r.1, some r.2)
  else if c == '"' then
    let r := lx.makeString
    (r.1, some r.2)
  else if c.isDigit then
    let r := lx.makeNumber
    (r.1, some r.2)
  else if c.isAlpha || c == '_' then
    let r := lx.makeIdentifier
    (r.1, some r.2)
  else
    ({ lx.advance.2 with
        cerr := lx.cerr ++ ["Unexpected character: " ++ c.toString ++ " at line " ++ toString lx.line] },
     none)

/-- The main loop of `Lexer::tokenize`. -/
def Lexer.tokenizeLoop : Nat → Lexer → List Token → Lexer × List Token
  | 0, lx, tokens => (lx, tokens)
  | fuel + 1, lx, tokens =>
    if lx.isAtEnd then (lx, tokens)
    else
      let lx1 := lx.skipWhitespace
      if lx1.isAtEnd then (lx1, tokens)
      else
        let c := lx1.peek
        if c == '/' && lx1.peekNext == '/' then
          tokenizeLoop fuel lx1.skipComment tokens
        else
          match lx1.scanToken c with
          | (lx2, none) => tokenizeLoop fuel lx2 tokens
          | (lx2, some token) =>
            if token.type != .INVALID then tokenizeLoop fuel lx2 (tokens ++ [token])
            else tokenizeLoop fuel lx2 tokens

/-- `Lexer::tokenize`: the final scanner state and the token list. -/
def Lexer.tokenize (lx : Lexer) : Lexer × List Token :=
  let r := Lexer.tokenizeLoop (lx.source.length + 1) lx []
  (r.1, r.2 ++ [{ type := .END_OF_FILE, lexeme := "", line := r.1.line, column := r.1.column }])

/-- The token list of a source string. -/
def lex (source : String) : List Token :=
  (Lexer.new source).tokenize.2

/-! ## Values (ast.h) -/

/-- A `double` (IEEE 754 binary64): a finite value other than -0.0, given by
the rational that it is, or -0.0, or an infinity, or NaN with its sign bit.
The arithmetic operations round to the nearest double, ties to even. -/
inductive Number where
  | real (q : ℚ)
  | negZero
  | inf (negative : Bool)
  | nan (negative : Bool)
  deriving DecidableEq

/-- The quotient `num / den` rounded to a whole number, ties to even. -/
def roundQuotient (num den : Nat) : Nat :=
  let q := num / den
  let r := num % den
  if 2 * r > den ∨ (2 * r = den ∧ q % 2 = 1) then q + 1 else q

/-- Number of binary digits of `n`, with `fuel` for them. -/
def bitLengthLoop : Nat → Nat → Nat
  | 0, _ => 0
  | fuel + 1, n => if n = 0 then 0 else bitLengthLoop fuel (n / 2) + 1

/-- Number of binary digits of `n`; 0 for 0. -/
def bitLength (n : Nat) : Nat := bitLengthLoop n n

/-- Whether `2^e ≤ n / d`. -/
def pow2Le (e : Int) (n d : Nat) : Bool :=
  if e ≥ 0 then decide (2 ^ e.toNat * d ≤ n) else decide (d ≤ n * 2 ^ (-e).toNat)

/-- The binary exponent of the positive rational `n / d`: the `b` with
`2^b ≤ n / d < 2^(b+1)`. -/
def binaryExponent (n d : Nat) : Int :=
  let g : Int := (bitLength n : Int) - (bitLength d : Int)
  if pow2Le g n d then g else g - 1

/-- The least number beyond the doubles, `2^1024`. -/
def doubleHuge : Nat := (2 ^ 128) ^ 8

/-- The zero with the given sign bit. -/
def Number.zero (negative : Bool) : Number :=
  if negative then .negZero else .real (mkRat 0 1)

/-- The exponent of the unit in the last place of the doubles with binary
exponent `b`: 52 binary places below `b`, and -1074 for the subnormal ones. -/
def doubleQuantum (b : Int) : Int :=
  if b < -1022 then -1074 else b - 52

/-- The exponent of the unit in the last place at the positive rational
`n / d`. -/
def doubleExponent (n d : Nat) : Int := doubleQuantum (binaryExponent n d)

/-- The positive rational `n / d` in units in the last place, rounded to a whole
number, ties to even. -/
def doubleMantissa (n d : Nat) : Nat :=
  let e := doubleExponent n d
  if e ≥ 0 then roundQuotient n (d * 2 ^ e.toNat)
  else roundQuotient (n * 2 ^ (-e).toNat) d

/-- The double nearest to the positive rational `n / d`, ties to even, with the
sign bit `negative`: the quotient is rounded to a whole number of units in the
last place; a result of `2^1024` or more is the infinity, a result of no unit
is the zero. -/
def roundToDouble (negative : Bool) (n d : Nat) : Number :=
  let e := doubleExponent n d
  let m := doubleMantissa n d
  if m = 0 then Number.zero negative
  else if e ≥ 0 ∧ doubleHuge ≤ m * 2 ^ e.toNat then .inf negative
  else .real (mkRat
    (if negative then -Int.ofNat (m * 2 ^ e.toNat) else Int.ofNat (m * 2 ^ e.toNat))
    (2 ^ (-e).toNat))

/-- The double nearest to the fraction `num / den`; an exact zero is `+0.0`. -/
def Number.ofFraction (num : Int) (den : Nat) : Number :=
  if num = 0 then .real (mkRat 0 1)
  else roundToDouble (decide (num < 0)) num.natAbs den

/-- The double nearest to a rational. -/
def Number.ofRat (q : ℚ) : Number := Number.ofFraction q.num q.den

/-- The sign bit. -/
def Number.negative : Number → Bool
  | .real q => decide (q.num < 0)
  | .negZero => true
  | .inf s => s
  | .nan s => s

/-- Whether the double is `+0.0` or `-0.0`. -/
def Number.isZero : Number → Bool
  | .real q => decide (q.num = 0)
  | .negZero => true
  | _ => false

/-- Numerator of a finite double (0 for the others). -/
def Number.num : Number → Int
  | .real q => q.num
  | _ => 0

/-- Denominator of a finite double (1 for the others). -/
def Number.den : Number → Nat
  | .real q => q.den
  | _ => 1

/-- Addition of doubles, `a + b`. -/
def Number.add : Number → Number → Number
  | .nan s, _ => .nan s
  | _, .nan s => .nan s
  | .inf s, .inf t => if s = t then .inf s else .nan true
  | .inf s, _ => .inf s
  | _, .inf t => .inf t
  | .negZero, .negZero => .negZero
  | .negZero, .real b => .real b
  | .real a, .negZero => .real a
  | .real a, .real b => Number.ofFraction (a.num * b.den + b.num * a.den) (a.den * b.den)

/-- Subtraction of doubles, `a - b`. -/
def Number.sub : Number → Number → Number
  | .nan s, _ => .nan s
  | _, .nan s => .nan s
  | .inf s, .inf t => if s = t then .nan true else .inf s
  | .inf s, _ => .inf s
  | _, .inf t => .inf (!t)
  | .negZero, .negZero => .real (mkRat 0 1)
  | .negZero, .real b => if b.num = 0 then .negZero else .real (mkRat (-b.num) b.den)
  | .real a, .negZero => .real a
  | .real a, .real b => Number.ofFraction (a.num * b.den - b.num * a.den) (a.den * b.den)

/-- Multiplication of doubles, `a * b`. -/
def Number.mul (a b : Number) : Number :=
  match a, b with
  | .nan s, _ => .nan s
  | _, .nan s => .nan s
  | _, _ =>
    let s := xor a.negative b.negative
    match a, b with
    | .inf _, _ => if b.isZero then .nan true else .inf s
    | _, .inf _ => if a.isZero then .nan true else .inf s
    | _, _ =>
      if a.isZero ∨ b.isZero then Number.zero s
      else roundToDouble s (a.num.natAbs * b.num.natAbs) (a.den * b.den)

/-- Division of doubles, `a / b`. -/
def Number.div (a b : Number) : Number :=
  match a, b with
  | .nan s, _ => .nan s
  | _, .nan s => .nan s
  | _, _ =>
    let s := xor a.negative b.negative
    match a, b with
    | .inf _, .inf _ => .nan true
    | .inf _, _ => .inf s
    | _, .inf _ => Number.zero s
    | _, _ =>
      if b.isZero then (if a.isZero then .nan true else .inf s)
      else if a.isZero then Number.zero s
      else roundToDouble s (a.num.natAbs * b.den) (a.den * b.num.natAbs)

/-- `std::fmod(a, b)`: the remainder of the division truncated towards zero,
with the sign of `a`; NaN for an infinite `a` and for a zero `b`. -/
def Number.fmod (a b : Number) : Number :=
  match a, b with
  | .nan s, _ => .nan s
  | _, .nan s => .nan s
  | .inf _, _ => .nan true
  | _, .inf _ => a
  | _, _ =>
    if b.isZero then .nan true
    else if a.isZero then a
    else
      let t : Int := Int.tdiv (a.num * b.den) (a.den * b.num)
      let r : Int := a.num * b.den - t * b.num * a.den
      if r = 0 then Number.zero a.negative
      else .real (mkRat r (a.den * b.den))

/-- Unary minus on doubles: the sign bit is flipped. -/
def Number.neg : Number → Number
  | .real a => if a.num = 0 then .negZero else .real (mkRat (-a.num) a.den)
  | .negZero => .real (mkRat 0 1)
  | .inf s => .inf (!s)
  | .nan s => .nan (!s)

/-- `std::abs` on doubles: the sign bit is cleared. -/
def Number.abs : Number → Number
  | .real a => .real (mkRat (Int.ofNat a.num.natAbs) a.den)
  | .negZero => .real (mkRat 0 1)
  | .inf _ => .inf false
  | .nan _ => .nan false

/-- `<` on doubles (false when an operand is NaN). -/
def Number.lt : Number → Number → Bool
  | .nan _, _ => false
  | _, .nan _ => false
  | .inf s, .inf t => s && !t
  | .inf s, _ => s
  | _, .inf t => !t
  | a, b => decide (a.num * b.den < b.num * a.den)

/-- `==` on doubles (false when an operand is NaN; the two zeros are equal). -/
def Number.eq : Number → Number → Bool
  | .nan _, _ => false
  | _, .nan _ => false
  | .inf s, .inf t => s == t
  | .inf _, _ => false
  | _, .inf _ => false
  | a, b => decide (a.num = b.num) && decide (a.den = b.den)

/-- `<=` on doubles (false when an operand is NaN). -/
def Number.le (a b : Number) : Bool := Number.lt a b || Number.eq a b

/-- The double with the value of a natural number that is a double (as is every
natural number up to `2^53`). -/
def Number.ofNat (n : Nat) : Number := .real (mkRat (Int.ofNat n) 1)

/-- The rationals that are the value of a finite double: `M * 2^k` in absolute
value with a mantissa `M` below `2^53` and an exponent `k` from -1074 to 971. -/
def Number.representable (v : ℚ) : Prop :=
  ∃ (M : Nat) (k : Int), M < 2 ^ 53 ∧ -1074 ≤ k ∧ k ≤ 971 ∧ |v| = (M : ℚ) * (2 : ℚ) ^ k

/-- `FluxValue`: the variant of double, string, bool, nullptr and a shared
pointer to a callable (an index into the interpreter's function objects). -/
inductive Value where
  | number (n : Number)
  | string (s : String)
  | bool (b : Bool)
  | nil
  | callable (ref : Nat)
  deriving DecidableEq

/-! ## Number conversion and printing -/

/-- The exceptions of `std::stod`; both are `std::logic_error`s. -/
inductive StodError where
  | invalid_argument
  | out_of_range
  deriving DecidableEq, Repr

/-- Value of a string of decimal digits. -/
def digitsValue (cs : List Char) : Nat :=
  cs.foldl (fun acc c => acc * 10 + (c.toNat - 48)) 0

/-- The rounding boundary above `DBL_MAX`, `2^1024 - 2^970`: a decimal value at
or above it converts to infinity and `strtod` reports `ERANGE`. -/
def doubleOverflow : Nat := (2 ^ 128) ^ 8 - (2 ^ 97) ^ 10

/-- The reciprocal of the least positive double, `2^1074`. -/
def doubleUnits : Nat := (2 ^ 179) ^ 6

/-- `std::stod` on the lexemes that `Lexer::makeNumber` produces: the longest
initial part `digits [. digits]` is converted to the nearest double and the
rest of the lexeme is ignored; no digit at all is `invalid_argument`, and
`out_of_range` is thrown where `strtod` reports `ERANGE`: when the value rounds
to infinity, and when it is tiny (it stays below `2^(-1022)` when rounded to 53
binary digits, that is, it is below `2^(-1022) - 2^(-1076)`) and no double is
exactly it.  (Signs, exponents, hexadecimal and the words `inf` and `nan`,
which cannot occur in a NUMBER lexeme, are not modelled.) -/
def stod (lexeme : String) : Except StodError Number :=
  let cs := lexeme.toList
  let intPart := cs.takeWhile Char.isDigit
  let rest := cs.dropWhile Char.isDigit
  let fracPart := match rest with
    | '.' :: more => more.takeWhile Char.isDigit
    | _ => []
  if intPart.isEmpty && fracPart.isEmpty then .error .invalid_argument
  else
    let n := digitsValue (intPart ++ fracPart)
    let d := 10 ^ fracPart.length
    if n ≥ doubleOverflow * d then .error .out_of_range
    else if n * (4 * doubleUnits) < (2 ^ 54 - 1) * d ∧ (n * doubleUnits) % d ≠ 0 then
      .error .out_of_range
    else .ok (Number.ofFraction (Int.ofNat n) d)

/-- Number of decimal digits of a natural number. -/
def digitCount (n : Nat) : Nat := (Nat.toDigits 10 n).length

/-- Whether `10^e ≤ n / d`. -/
def pow10Le (e : Int) (n d : Nat) : Bool :=
  if e ≥ 0 then decide (10 ^ e.toNat * d ≤ n) else decide (d ≤ n * 10 ^ (-e).toNat)

/-- The decimal exponent of the positive rational `n / d`: the largest `x` with
`10^x ≤ n / d`. -/
def decimalExponent (n d : Nat) : Int :=
  let g : Int := (digitCount n : Int) - (digitCount d : Int)
  if pow10Le (g + 1) n d then g + 1 else if pow10Le g n d then g else g - 1

/-- The rational `n / d` scaled by `10^(5 - x)` and rounded to an integer, ties
to even: the six significant digits of `%g`. -/
def sixDigits (n d : Nat) (x : Int) : Nat :=
  let num := if x ≤ 5 then n * 10 ^ (5 - x).toNat else n
  let den := if x ≤ 5 then d else d * 10 ^ (x - 5).toNat
  let q := num / den
  let r := num % den
  if 2 * r > den ∨ (2 * r = den ∧ q % 2 = 1) then q + 1 else q

/-- Remove trailing zeros from a digit string. -/
def stripZeros (cs : List Char) : List Char :=
  (cs.reverse.dropWhile (· == '0')).reverse

/-- The text of the positive rational `n / d` under `%g` with precision 6. -/
def formatPositive (n d : Nat) : String :=
  let x0 := decimalExponent n d
  let m0 := sixDigits n d x0
  let x := if m0 ≥ 1000000 then x0 + 1 else x0
  let m := if m0 ≥ 1000000 then 100000 else m0
  let ds := Nat.toDigits 10 m
  if x < -4 ∨ x ≥ 6 then
    let frac := stripZeros (ds.drop 1)
    let mant := if frac.isEmpty then ds.take 1 else ds.take 1 ++ ['.'] ++ frac
    let ex := Nat.toDigits 10 x.natAbs
    let ex2 := if ex.length < 2 then '0' :: ex else ex
    String.mk (mant ++ ['e', if x < 0 then '-' else '+'] ++ ex2)
  else if x ≥ 0 then
    let frac := stripZeros (ds.drop (x.toNat + 1))
    if frac.isEmpty then String.mk (ds.take (x.toNat + 1))
    else String.mk (ds.take (x.toNat + 1) ++ ['.'] ++ frac)
  else
    String.mk (['0', '.'] ++ List.replicate ((-x).toNat - 1) '0' ++ stripZeros ds)

/-- The text that `std::ostringstream << double` produces (format `%g`,
precision 6), with the sign of a negative zero and of a NaN as glibc writes
them. -/
def formatDouble : Number → String
  | .nan s => if s then "-nan" else "nan"
  | .inf s => if s then "-inf" else "inf"
  | .negZero => "-0"
  | .real q =>
    if q.num = 0 then "0"
    else if q.num < 0 then "-" ++ formatPositive q.num.natAbs q.den
    else formatPositive q.num.natAbs q.den

/-! ## Syntax trees (ast.h) -/

/-- Expression nodes. -/
inductive Expr where
  | literal (value : Value)
  | identifier (name : String)
  | binary (left : Expr) (op : String) (right : Expr)
  | unary (op : String) (operand : Expr)
  | call (callee : Expr) (arguments : List Expr)

/-- Statement nodes.  The body of a function declaration is the statement list
of its `BlockStatement`. -/
inductive Stmt where
  | expression (expression : Expr)
  | varDeclaration (name : String) (init : Option Expr)
  | block (statements : List Stmt)
  | ifStatement (condition : Expr) (thenBranch : Stmt) (elseBranch : Option Stmt)
  | whileStatement (condition : Expr) (body : Stmt)
  | functionDeclaration (name : String) (parameters : List String) (body : List Stmt)
  | returnStatement (value : Option Expr)
  | print (expression : Expr)

/-- The root node: the statements of a program. -/
structure Program where
  statements : List Stmt

/-! ## Parser (parser.cpp) -/

/-- The state of `class Parser`, with the lines written to `std::cerr`. -/
structure Parser where
  tokens : List Token
  current : Nat
  cerr : List String

/-- The exceptions that can be thrown while parsing: the `std::runtime_error`
of `Parser::error`, and the two `std::logic_error`s of `std::stod`. -/
inductive ParseException where
  | runtime_error (what : String)
  | invalid_argument (what : String)
  | out_of_range (what : String)
  deriving DecidableEq, Repr

/-- Result of a parsing step: a value and the new state, an exception thrown
in a state, an out-of-bounds read of the token vector, or no fuel left. -/
inductive ParseResult (α : Type) where
  | ok (a : α) (p : Parser)
  | exception (e : ParseException) (p : Parser)
  | fault
  | timeout

/-- A parsing step. -/
def ParserM (α : Type) : Type := Parser → ParseResult α

/-- Sequencing of parsing steps: an exception, a fault or a timeout ends the
sequence. -/
def ParserM.bind {α β : Type} (m : ParserM α) (f : α → ParserM β) : ParserM β :=
  fun p => match m p with
    | .ok a p1 => f a p1
    | .exception e p1 => .exception e p1
    | .fault => .fault
    | .timeout => .timeout

instance : Monad ParserM where
  pure a := fun p => .ok a p
  bind := ParserM.bind

/-- Throw an exception in the current state. -/
def ParserM.throw {α : Type} (e : ParseException) : ParserM α :=
  fun p => .exception e p

/-- The step that has run out of fuel. -/
def ParserM.timeout {α : Type} : ParserM α :=
  fun _ => .timeout

/-- `Parser::peek`: `tokens[current]`. -/
def Parser.peek : ParserM Token :=
  fun p => match p.tokens[p.current]? with
    | some t => .ok t p
    | none => .fault

/-- `Parser::previous`: `tokens[current - 1]`. -/
def Parser.previous : ParserM Token :=
  fun p =>
    if p.current = 0 then .fault
    else match p.tokens[p.current - 1]? with
      | some t => .ok t p
      | none => .fault

/-- `Parser::isAtEnd`. -/
def Parser.isAtEnd : ParserM Bool := do
  let t ← Parser.peek
  return t.type == .END_OF_FILE

/-- `Parser::advance`. -/
def Parser.advance : ParserM Token := do
  if !(← Parser.isAtEnd) then
    (fun p => .ok () { p with current := p.current + 1 })
  Parser.previous

/-- `Parser::check`. -/
def Parser.check (type : TokenType) : ParserM Bool := do
  if (← Parser.isAtEnd) then return false
  let t ← Parser.peek
  return t.type == type

/-- `Parser::match`. -/
def Parser.match_ : List TokenType → ParserM Bool
  | [] => pure false
  | type :: rest => do
    if (← Parser.check type) then
      let _ ← Parser.advance
      return true
    Parser.match_ rest

/-- `Parser::error`: throws a `std::runtime_error` with the line of the current
token. -/
def Parser.error {α : Type} (message : String) : ParserM α := do
  let t ← Parser.peek
  ParserM.throw (.runtime_error ("Parse error at line " ++ toString t.line ++ ": " ++ message))

/-- The loop of `Parser::synchronize`. -/
def Parser.synchronizeLoop : Nat → ParserM Unit
  | 0 => ParserM.timeout
  | fuel + 1 => do
    if !(← Parser.isAtEnd) then
      if (← Parser.previous).type == .SEMICOLON then return ()
      let t ← Parser.peek
      match t.type with
      | .FUN | .LET | .IF | .WHILE | .RETURN | .PRINT => return ()
      | _ =>
        let _ ← Parser.advance
        Parser.synchronizeLoop fuel
    else return ()

/-- `Parser::synchronize`. -/
def Parser.synchronize (fuel : Nat) : ParserM Unit := do
  let _ ← Parser.advance
  Parser.synchronizeLoop fuel

/-- The `do ... while (match(COMMA))` loop of `Parser::functionDeclaration`. -/
def Parser.parametersLoop : Nat → List String → ParserM (List String)
  | 0, _ => ParserM.timeout
  | fuel + 1, parameters => do
    if !(← Parser.check .IDENTIFIER) then
      Parser.error "Expected parameter name"
    else
      let t ← Parser.advance
      if (← Parser.match_ [.COMMA]) then Parser.parametersLoop fuel (parameters ++ [t.lexeme])
      else return parameters ++ [t.lexeme]

/-- The number literal of `Parser::primary`: `std::stod(previous().lexeme)`. -/
def Parser.numberLiteral : ParserM Expr := do
  let t ← Parser.previous
  match stod t.lexeme with
  | .ok value => return .literal (.number value)
  | .error .invalid_argument => ParserM.throw (.invalid_argument "stod")
  | .error .out_of_range => ParserM.throw (.out_of_range "stod")

mutual

/-- `Parser::declaration`. -/
def Parser.declaration : Nat → ParserM Stmt
  | 0 => ParserM.timeout
  | fuel + 1 => do
    if (← Parser.match_ [.LET]) then Parser.varDeclaration fuel
    else if (← Parser.match_ [.FUN]) then Parser.functionDeclaration fuel
    else Parser.statement fuel

/-- `Parser::varDeclaration`. -/
def Parser.varDeclaration : Nat → ParserM Stmt
  | 0 => ParserM.timeout
  | fuel + 1 => do
    if !(← Parser.check .IDENTIFIER) then
      Parser.error "Expected variable name"
    else
      let name := (← Parser.advance).lexeme
      if (← Parser.match_ [.ASSIGN]) then
        let init ← Parser.expression fuel
        let _ ← Parser.match_ [.SEMICOLON, .NEWLINE]
        return .varDeclaration name (some init)
      else
        let _ ← Parser.match_ [.SEMICOLON, .NEWLINE]
        return .varDeclaration name none

/-- `Parser::functionDeclaration`.  The body is read by `blockStatement`
directly: the opening brace is not consumed here. -/
def Parser.functionDeclaration : Nat → ParserM Stmt
  | 0 => ParserM.timeout
  | fuel + 1 => do
    if !(← Parser.check .IDENTIFIER) then
      Parser.error "Expected function name"
    else
      let name := (← Parser.advance).lexeme
      if !(← Parser.match_ [.LEFT_PAREN]) then
        Parser.error "Expected '(' after function name"
      else
        let parameters ←
          if !(← Parser.check .RIGHT_PAREN) then Parser.parametersLoop fuel []
          else pure []
        if !(← Parser.match_ [.RIGHT_PAREN]) then
          Parser.error "Expected ')' after parameters"
        else
          let body ← Parser.blockStatement fuel
          return .functionDeclaration name parameters body

/-- `Parser::statement`. -/
def Parser.statement : Nat → ParserM Stmt
  | 0 => ParserM.timeout
  | fuel + 1 => do
    if (← Parser.match_ [.IF]) then Parser.ifStatement fuel
    else if (← Parser.match_ [.WHILE]) then Parser.whileStatement fuel
    else if (← Parser.match_ [.RETURN]) then Parser.returnStatement fuel
    else if (← Parser.match_ [.PRINT]) then Parser.printStatement fuel
    else if (← Parser.match_ [.LEFT_BRACE]) then
      return .block (← Parser.blockStatement fuel)
    else Parser.expressionStatement fuel

/-- `Parser::ifStatement`. -/
def Parser.ifStatement : Nat → ParserM Stmt
  | 0 => ParserM.timeout
  | fuel + 1 => do
    if !(← Parser.match_ [.LEFT_PAREN]) then
      Parser.error "Expected '(' after 'if'"
    else
      let condition ← Parser.expression fuel
      if !(← Parser.match_ [.RIGHT_PAREN]) then
        Parser.error "Expected ')' after if condition"
      else
        let thenBranch ← Parser.statement fuel
        if (← Parser.match_ [.ELSE]) then
          let elseBranch ← Parser.statement fuel
          return .ifStatement condition thenBranch (some elseBranch)
        else
          return .ifStatement condition thenBranch none

/-- `Parser::whileStatement`. -/
def Parser.whileStatement : Nat → ParserM Stmt
  | 0 => ParserM.timeout
  | fuel + 1 => do
    if !(← Parser.match_ [.LEFT_PAREN]) then
      Parser.error "Expected '(' after 'while'"
    else
      let condition ← Parser.expression fuel
      if !(← Parser.match_ [.RIGHT_PAREN]) then
        Parser.error "Expected ')' after while condition"
      else
        let body ← Parser.statement fuel
        return .whileStatement condition body

/-- `Parser::returnStatement`. -/
def Parser.returnStatement : Nat → ParserM Stmt
  | 0 => ParserM.timeout
  | fuel + 1 => do
    if !(← Parser.check .SEMICOLON) && !(← Parser.check .NEWLINE) then
      let value ← Parser.expression fuel
      let _ ← Parser.match_ [.SEMICOLON, .NEWLINE]
      return .returnStatement (some value)
    else
      let _ ← Parser.match_ [.SEMICOLON, .NEWLINE]
      return .returnStatement none

/-- `Parser::printStatement`. -/
def Parser.printStatement : Nat → ParserM Stmt
  | 0 => ParserM.timeout
  | fuel + 1 => do
    let expr ← Parser.expression fuel
    let _ ← Parser.match_ [.SEMICOLON, .NEWLINE]
    return .print expr

/-- `Parser::blockStatement`: the statements up to the closing brace, which is
consumed. -/
def Parser.blockStatement : Nat → ParserM (List Stmt)
  | 0 => ParserM.timeout
  | fuel + 1 => do
    let statements ← Parser.blockLoop fuel []
    if !(← Parser.match_ [.RIGHT_BRACE]) then
      Parser.error "Expected '\x7d' after block"
    else
      return statements

/-- The `while` loop of `Parser::blockStatement`. -/
def Parser.blockLoop : Nat → List Stmt → ParserM (List Stmt)
  | 0, _ => ParserM.timeout
  | fuel + 1, statements => do
    if !(← Parser.check .RIGHT_BRACE) && !(← Parser.isAtEnd) then
      if (← Parser.match_ [.NEWLINE]) then Parser.blockLoop fuel statements
      else
        let stmt ← Parser.declaration fuel
        Parser.blockLoop fuel (statements ++ [stmt])
    else return statements

/-- `Parser::expressionStatement`. -/
def Parser.expressionStatement : Nat → ParserM Stmt
  | 0 => ParserM.timeout
  | fuel + 1 => do
    let expr ← Parser.expression fuel
    let _ ← Parser.match_ [.SEMICOLON, .NEWLINE]
    return .expression expr

/-- `Parser::expression`. -/
def Parser.expression : Nat → ParserM Expr
  | 0 => ParserM.timeout
  | fuel + 1 => Parser.assignment fuel

/-- `Parser::assignment`. -/
def Parser.assignment : Nat → ParserM Expr
  | 0 => ParserM.timeout
  | fuel + 1 => do
    let expr ← Parser.logicalOr fuel
    if (← Parser.match_ [.ASSIGN]) then
      let value ← Parser.assignment fuel
      match expr with
      | .identifier name => return .binary (.identifier name) "=" value
      | _ => Parser.error "Invalid assignment target"
    else
      return expr

/-- `Parser::logicalOr`. -/
def Parser.logicalOr : Nat → ParserM Expr
  | 0 => ParserM.timeout
  | fuel + 1 => do
    let expr ← Parser.logicalAnd fuel
    Parser.logicalOrLoop fuel expr

/-- The `while` loop of `Parser::logicalOr`. -/
def Parser.logicalOrLoop : Nat → Expr → ParserM Expr
  | 0, _ => ParserM.timeout
  | fuel + 1, expr => do
    if (← Parser.match_ [.OR]) then
      let op := (← Parser.previous).lexeme
      let right ← Parser.logicalAnd fuel
      Parser.logicalOrLoop fuel (.binary expr op right)
    else return expr

/-- `Parser::logicalAnd`. -/
def Parser.logicalAnd : Nat → ParserM Expr
  | 0 => ParserM.timeout
  | fuel + 1 => do
    let expr ← Parser.equality fuel
    Parser.logicalAndLoop fuel expr

/-- The `while` loop of `Parser::logicalAnd`. -/
def Parser.logicalAndLoop : Nat → Expr → ParserM Expr
  | 0, _ => ParserM.timeout
  | fuel + 1, expr => do
    if (← Parser.match_ [.AND]) then
      let op := (← Parser.previous).lexeme
      let right ← Parser.equality fuel
      Parser.logicalAndLoop fuel (.binary expr op right)
    else return expr

/-- `Parser::equality`. -/
def Parser.equality : Nat → ParserM Expr
  | 0 => ParserM.timeout
  | fuel + 1 => do
    let expr ← Parser.comparison fuel
    Parser.equalityLoop fuel expr

/-- The `while` loop of `Parser::equality`. -/
def Parser.equalityLoop : Nat → Expr → ParserM Expr
  | 0, _ => ParserM.timeout
  | fuel + 1, expr => do
    if (← Parser.match_ [.NOT_EQUAL, .EQUAL]) then
      let op := (← Parser.previous).lexeme
      let right ← Parser.comparison fuel
      Parser.equalityLoop fuel (.binary expr op right)
    else return expr

/-- `Parser::comparison`. -/
def Parser.comparison : Nat → ParserM Expr
  | 0 => ParserM.timeout
  | fuel + 1 => do
    let expr ← Parser.term fuel
    Parser.comparisonLoop fuel expr

/-- The `while` loop of `Parser::comparison`. -/
def Parser.comparisonLoop : Nat → Expr → ParserM Expr
  | 0, _ => ParserM.timeout
  | fuel + 1, expr => do
    if (← Parser.match_ [.GREATER, .GREATER_EQUAL, .LESS, .LESS_EQUAL]) then
      let op := (← Parser.previous).lexeme
      let right ← Parser.term fuel
      Parser.comparisonLoop fuel (.binary expr op right)
    else return expr

/-- `Parser::term`. -/
def Parser.term : Nat → ParserM Expr
  | 0 => ParserM.timeout
  | fuel + 1 => do
    let expr ← Parser.factor fuel
    Parser.termLoop fuel expr

/-- The `while` loop of `Parser::term`. -/
def Parser.termLoop : Nat → Expr → ParserM Expr
  | 0, _ => ParserM.timeout
  | fuel + 1, expr => do
    if (← Parser.match_ [.MINUS, .PLUS]) then
      let op := (← Parser.previous).lexeme
      let right ← Parser.factor fuel
      Parser.termLoop fuel (.binary expr op right)
    else return expr

/-- `Parser::factor`. -/
def Parser.factor : Nat → ParserM Expr
  | 0 => ParserM.timeout
  | fuel + 1 => do
    let expr ← Parser.unary fuel
    Parser.factorLoop fuel expr

/-- The `while` loop of `Parser::factor`. -/
def Parser.factorLoop : Nat → Expr → ParserM Expr
  | 0, _ => ParserM.timeout
  | fuel + 1, expr => do
    if (← Parser.match_ [.DIVIDE, .MULTIPLY, .MODULO]) then
      let op := (← Parser.previous).lexeme
      let right ← Parser.unary fuel
      Parser.factorLoop fuel (.binary expr op right)
    else return expr

/-- `Parser::unary`. -/
def Parser.unary : Nat → ParserM Expr
  | 0 => ParserM.timeout
  | fuel + 1 => do
    if (← Parser.match_ [.NOT, .MINUS]) then
      let op := (← Parser.previous).lexeme
      let right ← Parser.unary fuel
      return .unary op right
    else Parser.call fuel

/-- `Parser::call`. -/
def Parser.call : Nat → ParserM Expr
  | 0 => ParserM.timeout
  | fuel + 1 => do
    let expr ← Parser.primary fuel
    Parser.callLoop fuel expr

/-- The `while` loop of `Parser::call`. -/
def Parser.callLoop : Nat → Expr → ParserM Expr
  | 0, _ => ParserM.timeout
  | fuel + 1, expr => do
    if (← Parser.match_ [.LEFT_PAREN]) then
      let args ← Parser.arguments fuel
      if !(← Parser.match_ [.RIGHT_PAREN]) then
        Parser.error "Expected ')' after arguments"
      else
        Parser.callLoop fuel (.call expr args)
    else return expr

/-- `Parser::primary`. -/
def Parser.primary : Nat → ParserM Expr
  | 0 => ParserM.timeout
  | fuel + 1 => do
    if (← Parser.match_ [.TRUE]) then return .literal (.bool true)
    else if (← Parser.match_ [.FALSE]) then return .literal (.bool false)
    else if (← Parser.match_ [.NIL]) then return .literal .nil
    else if (← Parser.match_ [.NUMBER]) then Parser.numberLiteral
    else if (← Parser.match_ [.STRING]) then
      return .literal (.string (← Parser.previous).lexeme)
    else if (← Parser.match_ [.IDENTIFIER]) then
      return .identifier (← Parser.previous).lexeme
    else if (← Parser.match_ [.LEFT_PAREN]) then
      let expr ← Parser.expression fuel
      if !(← Parser.match_ [.RIGHT_PAREN]) then
        Parser.error "Expected ')' after expression"
      else
        return expr
    else Parser.error "Expected expression"

/-- `Parser::arguments`. -/
def Parser.arguments : Nat → ParserM (List Expr)
  | 0 => ParserM.timeout
  | fuel + 1 => do
    if !(← Parser.check .RIGHT_PAREN) then Parser.argumentsLoop fuel []
    else return []

/-- The `do ... while (match(COMMA))` loop of `Parser::arguments`. -/
def Parser.argumentsLoop : Nat → List Expr → ParserM (List Expr)
  | 0, _ => ParserM.timeout
  | fuel + 1, args => do
    let arg ← Parser.expression fuel
    if (← Parser.match_ [.COMMA]) then Parser.argumentsLoop fuel (args ++ [arg])
    else return args ++ [arg]

end

/-- The `while` loop of `Parser::program`: a `std::runtime_error` thrown by
`declaration` is caught, reported and followed by `synchronize`; any other
exception leaves the loop. -/
def Parser.programLoop : Nat → List Stmt → ParserM (List Stmt)
  | 0, _ => ParserM.timeout
  | fuel + 1, statements => do
    if !(← Parser.isAtEnd) then
      if (← Parser.match_ [.NEWLINE]) then Parser.programLoop fuel statements
      else
        fun p => match Parser.declaration fuel p with
          | .ok stmt p1 => Parser.programLoop fuel (statements ++ [stmt]) p1
          | .exception (.runtime_error what) p1 =>
            (do
              Parser.synchronize fuel
              Parser.programLoop fuel statements)
              { p1 with cerr := p1.cerr ++ ["Parse error: " ++ what] }
          | .exception e p1 => .exception e p1
          | .fault => .fault
          | .timeout => .timeout
    else return statements

/-- `Parser::program`. -/
def Parser.program (fuel : Nat) : ParserM Program := do
  let statements ← Parser.programLoop fuel []
  return { statements := statements }

/-- The constructor `Parser::Parser(tokens)`. -/
def Parser.new (tokens : List Token) : Parser :=
  { tokens := tokens, current := 0, cerr := [] }

/-- `Parser::parse` on a fresh parser for `tokens`. -/
def Parser.parse (fuel : Nat) (tokens : List Token) : ParseResult Program :=
  Parser.program fuel (Parser.new tokens)

/-! ## Environments (interpreter.cpp) -/

/-- A frame: the `unordered_map` of its bindings, as an association list with
unique keys, and the reference to the enclosing frame. -/
structure Environment where
  enclosing : Option Nat
  values : List (String × Value)

/-- `values[name] = value` on the map of a frame: overwrite the entry of `name`
or add one. -/
def mapSet : List (String × Value) → String → Value → List (String × Value)
  | [], name, value => [(name, value)]
  | (k, v) :: rest, name, value =>
    if k = name then (k, value) :: rest else (k, v) :: mapSet rest name value

/-- `values.find(name)` on the map of a frame. -/
def mapFind : List (String × Value) → String → Option Value
  | [], _ => none
  | (k, v) :: rest, name => if k = name then some v else mapFind rest name

/-- Result of an operation on a chain of frames: a value, a
`std::runtime_error`, a dangling reference, or a chain that does not end. -/
inductive EnvResult (α : Type) where
  | ok (a : α)
  | runtime_error (what : String)
  | fault
  | timeout
  deriving DecidableEq

/-- The frames of an interpreter: `heap[ref]` is the frame behind the shared
pointer `ref`. -/
abbrev Heap : Type := List Environment

/-- `Environment::define` on the frame `ref`. -/
def Environment.define (heap : Heap) (ref : Nat) (name : String) (value : Value) :
    EnvResult Heap :=
  match heap[ref]? with
  | none => .fault
  | some env => .ok (heap.set ref { env with values := mapSet env.values name value })

/-- `Environment::get` on the frame `ref`, following at most `fuel` frames. -/
def Environment.getFrom (heap : Heap) : Nat → Nat → String → EnvResult Value
  | 0, _, _ => .timeout
  | fuel + 1, ref, name =>
    match heap[ref]? with
    | none => .fault
    | some env =>
      match mapFind env.values name with
      | some value => .ok value
      | none =>
        match env.enclosing with
        | some parent => Environment.getFrom heap fuel parent name
        | none => .runtime_error ("Undefined variable '" ++ name ++ "'")

/-- `Environment::get`: a chain without repetition has at most `heap.length`
frames. -/
def Environment.get (heap : Heap) (ref : Nat) (name : String) : EnvResult Value :=
  Environment.getFrom heap heap.length ref name

/-- `Environment::assign` on the frame `ref`, following at most `fuel` frames. -/
def Environment.assignFrom (heap : Heap) : Nat → Nat → String → Value → EnvResult Heap
  | 0, _, _, _ => .timeout
  | fuel + 1, ref, name, value =>
    match heap[ref]? with
    | none => .fault
    | some env =>
      match mapFind env.values name with
      | some _ => .ok (heap.set ref { env with values := mapSet env.values name value })
      | none =>
        match env.enclosing with
        | some parent => Environment.assignFrom heap fuel parent name value
        | none => .runtime_error ("Undefined variable '" ++ name ++ "'")

/-- `Environment::assign`. -/
def Environment.assign (heap : Heap) (ref : Nat) (name : String) (value : Value) :
    EnvResult Heap :=
  Environment.assignFrom heap heap.length ref name value

/-! ## Callables and the interpreter state (interpreter.h) -/

/-- A function object: a `FluxFunction` (its declaration and the reference to
the captured environment) or a `NativeFunction` (its name and arity; the
function it wraps is found by name in `Interpreter.callNative`). -/
inductive FluxCallable where
  | function (name : String) (parameters : List String) (body : List Stmt) (closure : Nat)
  | native (name : String) (paramCount : Nat)

/-- `FluxCallable::arity`. -/
def FluxCallable.arity : FluxCallable → Nat
  | .function _ parameters _ _ => parameters.length
  | .native _ paramCount => paramCount

/-- `FluxCallable::toString`. -/
def FluxCallable.toString : FluxCallable → String
  | .function name _ _ _ => "<fn " ++ name ++ ">"
  | .native name _ => "<native fn " ++ name ++ ">"

/-- The host behind the native functions: the successive readings of the clock
and the square root of the math library. -/
structure Host where
  clock : Nat → Number
  sqrt : Number → Number

/-- The state of `class Interpreter`: the frames and function objects that
shared pointers refer to, the `globals` and `environment` references,
`lastValue`, the lines written to `std::cout` and `std::cerr`, and the host with
the number of clock readings taken. -/
structure Interpreter where
  heap : Heap
  callables : List FluxCallable
  globals : Nat
  environment : Nat
  lastValue : Value
  cout : List String
  cerr : List String
  host : Host
  clockReads : Nat

/-- What is thrown during evaluation: a `std::runtime_error`, or the
`ReturnException` of a `return` statement. -/
inductive Exception where
  | runtime_error (what : String)
  | ReturnException (value : Value)
  deriving DecidableEq

/-- `std::exception::what()`. -/
def Exception.what : Exception → String
  | .runtime_error what => what
  | .ReturnException _ => "std::exception"

/-- Result of an evaluation step: a value and the new state, an exception thrown
in a state, undefined behaviour, or no fuel left. -/
inductive Outcome (α : Type) where
  | ok (a : α) (st : Interpreter)
  | exception (e : Exception) (st : Interpreter)
  | fault
  | timeout

/-- An evaluation step. -/
def InterpM (α : Type) : Type := Interpreter → Outcome α

/-- Sequencing of evaluation steps: an exception, a fault or a timeout ends the
sequence. -/
def InterpM.bind {α β : Type} (m : InterpM α) (f : α → InterpM β) : InterpM β :=
  fun st => match m st with
    | .ok a st1 => f a st1
    | .exception e st1 => .exception e st1
    | .fault => .fault
    | .timeout => .timeout

instance : Monad InterpM where
  pure a := fun st => .ok a st
  bind := InterpM.bind

/-- Throw a `std::runtime_error`. -/
def InterpM.runtimeError {α : Type} (what : String) : InterpM α :=
  fun st => .exception (.runtime_error what) st

/-- Run `op` on the current environment (`environment->op(...)`) and store the
new frames. -/
def InterpM.onEnvironment (op : Heap → Nat → EnvResult Heap) : InterpM Unit :=
  fun st => match op st.heap st.environment with
    | .ok heap => .ok () { st with heap := heap }
    | .runtime_error what => .exception (.runtime_error what) st
    | .fault => .fault
    | .timeout => .timeout

/-- `environment->define(name, value)`. -/
def Interpreter.define (name : String) (value : Value) : InterpM Unit :=
  InterpM.onEnvironment (fun heap ref => Environment.define heap ref name value)

/-- `environment->assign(name, value)`. -/
def Interpreter.assign (name : String) (value : Value) : InterpM Unit :=
  InterpM.onEnvironment (fun heap ref => Environment.assign heap ref name value)

/-- `environment->get(name)`. -/
def Interpreter.lookup (name : String) : InterpM Value :=
  fun st => match Environment.get st.heap st.environment name with
    | .ok value => .ok value st
    | .runtime_error what => .exception (.runtime_error what) st
    | .fault => .fault
    | .timeout => .timeout

/-- The assignment `lastValue = value` that ends every expression visitor, with
`Interpreter::evaluate` returning `lastValue`. -/
def Interpreter.setLastValue (value : Value) : InterpM Value :=
  fun st => .ok value { st with lastValue := value }

/-- `Interpreter::isTruthy`. -/
def Interpreter.isTruthy : Value → Bool
  | .nil => false
  | .bool b => b
  | _ => true

/-- `Interpreter::isEqual`: `operator==` of the variant. -/
def Interpreter.isEqual : Value → Value → Bool
  | .number a, .number b => Number.eq a b
  | .string a, .string b => decide (a = b)
  | .bool a, .bool b => decide (a = b)
  | .nil, .nil => true
  | .callable a, .callable b => decide (a = b)
  | _, _ => false

/-- `Interpreter::stringify`; `none` for a dangling callable reference. -/
def Interpreter.stringify (st : Interpreter) : Value → Option String
  | .nil => some "nil"
  | .string s => some s
  | .number n => some (formatDouble n)
  | .bool b => some (if b then "true" else "false")
  | .callable ref => (st.callables[ref]?).map FluxCallable.toString

/-- `Interpreter::checkNumberOperand`. -/
def Interpreter.checkNumberOperand (op : String) : Value → InterpM Unit
  | .number _ => pure ()
  | _ => InterpM.runtimeError ("Operand must be a number for " ++ op)

/-- `Interpreter::checkNumberOperands`. -/
def Interpreter.checkNumberOperands (op : String) : Value → Value → InterpM Unit
  | .number _, .number _ => pure ()
  | _, _ => InterpM.runtimeError ("Operands must be numbers for " ++ op)

/-- `std::get<double>` after a successful operand check. -/
def Value.getDouble : Value → Number
  | .number n => n
  | _ => .nan false

/-- The body of `Interpreter::visit(BinaryExpression&)` after both operands
have been evaluated; `leftNode` is `node.left`. -/
def Interpreter.visitBinary (leftNode : Expr) (op : String) (left right : Value) :
    InterpM Value :=
  if op = "=" then
    match leftNode with
    | .identifier name => do
      Interpreter.assign name right
      Interpreter.setLastValue right
    | _ => InterpM.runtimeError "Invalid assignment target"
  else if op = "+" then
    match left, right with
    | .number a, .number b => Interpreter.setLastValue (.number (Number.add a b))
    | .string a, .string b => Interpreter.setLastValue (.string (a ++ b))
    | _, _ => InterpM.runtimeError "Operands must be two numbers or two strings"
  else if op = "-" then do
    Interpreter.checkNumberOperands op left right
    Interpreter.setLastValue (.number (Number.sub left.getDouble right.getDouble))
  else if op = "*" then do
    Interpreter.checkNumberOperands op left right
    Interpreter.setLastValue (.number (Number.mul left.getDouble right.getDouble))
  else if op = "/" then do
    Interpreter.checkNumberOperands op left right
    if Number.eq right.getDouble (Number.ofNat 0) then InterpM.runtimeError "Division by zero"
    else Interpreter.setLastValue (.number (Number.div left.getDouble right.getDouble))
  else if op = "%" then do
    Interpreter.checkNumberOperands op left right
    Interpreter.setLastValue (.number (Number.fmod left.getDouble right.getDouble))
  else if op = ">" then do
    Interpreter.checkNumberOperands op left right
    Interpreter.setLastValue (.bool (Number.lt right.getDouble left.getDouble))
  else if op = ">=" then do
    Interpreter.checkNumberOperands op left right
    Interpreter.setLastValue (.bool (Number.le right.getDouble left.getDouble))
  else if op = "<" then do
    Interpreter.checkNumberOperands op left right
    Interpreter.setLastValue (.bool (Number.lt left.getDouble right.getDouble))
  else if op = "<=" then do
    Interpreter.checkNumberOperands op left right
    Interpreter.setLastValue (.bool (Number.le left.getDouble right.getDouble))
  else if op = "!=" then
    Interpreter.setLastValue (.bool (!Interpreter.isEqual left right))
  else if op = "==" then
    Interpreter.setLastValue (.bool (Interpreter.isEqual left right))
  else if op = "and" then
    if !Interpreter.isTruthy left then Interpreter.setLastValue left
    else Interpreter.setLastValue right
  else if op = "or" then
    if Interpreter.isTruthy left then Interpreter.setLastValue left
    else Interpreter.setLastValue right
  else InterpM.runtimeError ("Unknown binary operator: " ++ op)

/-- The body of `Interpreter::visit(UnaryExpression&)` after the operand has
been evaluated. -/
def Interpreter.visitUnary (op : String) (right : Value) : InterpM Value :=
  if op = "-" then do
    Interpreter.checkNumberOperand op right
    Interpreter.setLastValue (.number (Number.neg right.getDouble))
  else if op = "not" ∨ op = "!" then
    Interpreter.setLastValue (.bool (!Interpreter.isTruthy right))
  else InterpM.runtimeError ("Unknown unary operator: " ++ op)

/-- `NativeFunction::call` for the three functions of
`Interpreter::defineNativeFunctions`. -/
def Interpreter.callNative (name : String) (arguments : List Value) : InterpM Value :=
  fun st =>
    if name = "clock" then
      .ok (.number (st.host.clock st.clockReads)) { st with clockReads := st.clockReads + 1 }
    else if name = "sqrt" then
      match arguments.head? with
      | none => .fault
      | some (.number x) => .ok (.number (st.host.sqrt x)) st
      | some _ => .exception (.runtime_error "sqrt() requires a number argument") st
    else if name = "abs" then
      match arguments.head? with
      | none => .fault
      | some (.number x) => .ok (.number (Number.abs x)) st
      | some _ => .exception (.runtime_error "abs() requires a number argument") st
    else .fault

/-- The loop `for (arg : node.arguments) arguments.push_back(evaluate(arg))`. -/
def Interpreter.evaluateArguments (evaluate : Expr → InterpM Value) :
    List Expr → List Value → InterpM (List Value)
  | [], arguments => pure arguments
  | arg :: rest, arguments => do
    let value ← evaluate arg
    Interpreter.evaluateArguments evaluate rest (arguments ++ [value])

/-- The loop `for (statement : statements) execute(statement)`. -/
def Interpreter.executeStatements (execute : Stmt → InterpM Unit) :
    List Stmt → InterpM Unit
  | [] => pure ()
  | statement :: rest => do
    execute statement
    Interpreter.executeStatements execute rest

/-- `Interpreter::executeBlock`: run the statements with `env` as the current
environment and restore the previous one on normal completion and when an
exception passes through. -/
def Interpreter.executeBlock (execute : Stmt → InterpM Unit) (statements : List Stmt)
    (env : Nat) : InterpM Unit :=
  fun st =>
    let previous := st.environment
    match Interpreter.executeStatements execute statements { st with environment := env } with
    | .ok _ st1 => .ok () { st1 with environment := previous }
    | .exception e st1 => .exception e { st1 with environment := previous }
    | .fault => .fault
    | .timeout => .timeout

/-- `std::make_shared<Environment>(parent)`: a new empty frame; the result is
its reference. -/
def Interpreter.newEnvironment (parent : Nat) : InterpM Nat :=
  fun st => .ok st.heap.length
    { st with heap := st.heap ++ [{ enclosing := some parent, values := [] }] }

/-- The loop `for (i < parameters.size()) environment->define(parameters[i],
arguments[i])` of `FluxFunction::call`, on the frame `env`. -/
def Interpreter.bindParameters (env : Nat) : List String → List Value → InterpM Unit
  | [], _ => pure ()
  | _ :: _, [] => fun _ => .fault
  | parameter :: parameters, argument :: arguments => do
    InterpM.onEnvironment (fun heap _ => Environment.define heap env parameter argument)
    Interpreter.bindParameters env parameters arguments

/-- `FluxFunction::call`, given the executor of statements: a new frame on the
closure, the parameters bound in it, the body run by `executeBlock` in that
frame; a `ReturnException` is caught and its value returned, normal completion
returns nil. -/
def Interpreter.callFunction (execute : Stmt → InterpM Unit) (parameters : List String)
    (body : List Stmt) (closure : Nat) (arguments : List Value) : InterpM Value :=
  fun st =>
    match (do
      let environment ← Interpreter.newEnvironment closure
      Interpreter.bindParameters environment parameters arguments
      Interpreter.executeBlock execute body environment : InterpM Unit) st with
    | .ok _ st1 => .ok .nil st1
    | .exception (.ReturnException value) st1 => .ok value st1
    | .exception e st1 => .exception e st1
    | .fault => .fault
    | .timeout => .timeout

/-- `FluxCallable::call`. -/
def Interpreter.callCallable (execute : Stmt → InterpM Unit) (callable : FluxCallable)
    (arguments : List Value) : InterpM Value :=
  match callable with
  | .function _ parameters body closure =>
    Interpreter.callFunction execute parameters body closure arguments
  | .native name _ => Interpreter.callNative name arguments

/-- The part of `Interpreter::visit(CallExpression&)` after the callee and the
arguments have been evaluated. -/
def Interpreter.visitCall (execute : Stmt → InterpM Unit) (callee : Value)
    (arguments : List Value) : InterpM Value :=
  match callee with
  | .callable ref => fun st =>
    match st.callables[ref]? with
    | none => .fault
    | some callable =>
      if arguments.length ≠ callable.arity then
        .exception (.runtime_error ("Expected " ++ toString callable.arity ++
          " arguments but got " ++ toString arguments.length)) st
      else
        (do
          let value ← Interpreter.callCallable execute callable arguments
          Interpreter.setLastValue value : InterpM Value) st
  | _ => InterpM.runtimeError "Can only call functions"

/-- `Interpreter::visit(FunctionDeclaration&)`: a new function object that holds
the current environment reference, bound to the name in the current frame. -/
def Interpreter.visitFunctionDeclaration (name : String) (parameters : List String)
    (body : List Stmt) : InterpM Unit :=
  fun st =>
    let function := st.callables.length
    Interpreter.define name (.callable function)
      { st with callables := st.callables ++ [.function name parameters body st.environment] }

/-- `Interpreter::visit(PrintStatement&)` after the expression has been
evaluated. -/
def Interpreter.visitPrint (value : Value) : InterpM Unit :=
  fun st => match st.stringify value with
    | some text => .ok () { st with cout := st.cout ++ [text] }
    | none => .fault

mutual

/-- `Interpreter::evaluate`, with the expression visitors. -/
def Interpreter.evaluate : Nat → Expr → InterpM Value
  | 0, _ => fun _ => .timeout
  | _ + 1, .literal value => Interpreter.setLastValue value
  | _ + 1, .identifier name => do
    let value ← Interpreter.lookup name
    Interpreter.setLastValue value
  | fuel + 1, .binary left op right => do
    let l ← Interpreter.evaluate fuel left
    let r ← Interpreter.evaluate fuel right
    Interpreter.visitBinary left op l r
  | fuel + 1, .unary op operand => do
    let r ← Interpreter.evaluate fuel operand
    Interpreter.visitUnary op r
  | fuel + 1, .call callee arguments => do
    let c ← Interpreter.evaluate fuel callee
    let args ← Interpreter.evaluateArguments (Interpreter.evaluate fuel) arguments []
    Interpreter.visitCall (Interpreter.execute fuel) c args

/-- `Interpreter::execute`, with the statement visitors. -/
def Interpreter.execute : Nat → Stmt → InterpM Unit
  | 0, _ => fun _ => .timeout
  | fuel + 1, .expression expression => do
    let _ ← Interpreter.evaluate fuel expression
    pure ()
  | fuel + 1, .varDeclaration name init => do
    let value ← match init with
      | some e => Interpreter.evaluate fuel e
      | none => pure .nil
    Interpreter.define name value
  | fuel + 1, .block statements => do
    let env ← (fun st => Interpreter.newEnvironment st.environment st : InterpM Nat)
    Interpreter.executeBlock (Interpreter.execute fuel) statements env
  | fuel + 1, .ifStatement condition thenBranch elseBranch => do
    let c ← Interpreter.evaluate fuel condition
    if Interpreter.isTruthy c then Interpreter.execute fuel thenBranch
    else match elseBranch with
      | some s => Interpreter.execute fuel s
      | none => pure ()
  | fuel + 1, .whileStatement condition body =>
    Interpreter.whileLoop fuel condition body
  | _ + 1, .functionDeclaration name parameters body =>
    Interpreter.visitFunctionDeclaration name parameters body
  | fuel + 1, .returnStatement value => do
    let v ← match value with
      | some e => Interpreter.evaluate fuel e
      | none => pure .nil
    fun st => .exception (.ReturnException v) st
  | fuel + 1, .print expression => do
    let value ← Interpreter.evaluate fuel expression
    Interpreter.visitPrint value

/-- The loop of `Interpreter::visit(WhileStatement&)`. -/
def Interpreter.whileLoop : Nat → Expr → Stmt → InterpM Unit
  | 0, _, _ => fun _ => .timeout
  | fuel + 1, condition, body => do
    let c ← Interpreter.evaluate fuel condition
    if Interpreter.isTruthy c then
      Interpreter.execute fuel body
      Interpreter.whileLoop fuel condition body
    else pure ()

end

/-- `Interpreter::defineNativeFunctions`. -/
def Interpreter.nativeFunctions : List FluxCallable :=
  [.native "clock" 0, .native "sqrt" 1, .native "abs" 1]

/-- The constructor `Interpreter::Interpreter()`: one global frame, which is
the current environment, with the native functions bound in it. -/
def Interpreter.new (host : Host) : Interpreter :=
  { heap := [{ enclosing := none,
               values := [("clock", .callable 0), ("sqrt", .callable 1), ("abs", .callable 2)] }],
    callables := Interpreter.nativeFunctions,
    globals := 0,
    environment := 0,
    lastValue := .number (Number.ofNat 0),
    cout := [],
    cerr := [],
    host := host,
    clockReads := 0 }

/-- `Interpreter::visit(Program&)`. -/
def Interpreter.visitProgram (fuel : Nat) (program : Program) : InterpM Unit :=
  Interpreter.executeStatements (Interpreter.execute fuel) program.statements

/-- `Interpreter::interpret`: every `std::exception` is caught and reported. -/
def Interpreter.interpret (fuel : Nat) (program : Program) : InterpM Unit :=
  fun st => match Interpreter.visitProgram fuel program st with
    | .ok _ st1 => .ok () st1
    | .exception e st1 => .ok () { st1 with cerr := st1.cerr ++ ["Runtime error: " ++ e.what] }
    | .fault => .fault
    | .timeout => .timeout

/-! ## The driver (main.cpp) -/

/-- `FluxInterpreter::run`: tokenize, parse, interpret; the diagnostics of the
lexer and the parser go to `std::cerr`, and an exception that leaves the parser
is reported as `Error: ...`. -/
def run (fuel : Nat) (source : String) : InterpM Unit :=
  fun st =>
    let lexed := (Lexer.new source).tokenize
    let st1 := { st with cerr := st.cerr ++ lexed.1.cerr }
    match Parser.parse fuel lexed.2 with
    | .ok program p => Interpreter.interpret fuel program { st1 with cerr := st1.cerr ++ p.cerr }
    | .exception e p =>
      let what := match e with
        | .runtime_error what => what
        | .invalid_argument what => what
        | .out_of_range what => what
      .ok () { st1 with cerr := st1.cerr ++ p.cerr ++ ["Error: " ++ what] }
    | .fault => .fault
    | .timeout => .timeout

/-! ## Observations on results -/

/-- What a finished parse shows: the number of statements of the program, the
final token position and the diagnostics; `none` if the parse did not return. -/
def ParseResult.summary : ParseResult Program → Option (Nat × Nat × List String)
  | .ok program p => some (program.statements.length, p.current, p.cerr)
  | _ => none

/-- What a finished run shows: the lines on `std::cout`, the lines on
`std::cerr` and the current environment reference; `none` if the run did not
return normally. -/
def Outcome.summary {α : Type} : Outcome α → Option (List String × List String × Nat)
  | .ok _ st => some (st.cout, st.cerr, st.environment)
  | _ => none

/-- A host for closed runs: the clock counts its readings and the square root
is not available. -/
def Host.simple : Host :=
  { clock := fun n => Number.ofNat n, sqrt := fun _ => .nan true }

/-- The tokens of scenario 3,
`fun fib(n) { if (n < 2) return n; return fib(n - 1) + fib(n - 2); } print fib(10)`. -/
def fibTokens : List Token :=
  [⟨.FUN, "fun", 1, 1⟩,
   ⟨.IDENTIFIER, "fib", 1, 5⟩,
   ⟨.LEFT_PAREN, "(", 1, 8⟩,
   ⟨.IDENTIFIER, "n", 1, 9⟩,
   ⟨.RIGHT_PAREN, ")", 1, 10⟩,
   ⟨.LEFT_BRACE, "\x7b", 1, 12⟩,
   ⟨.IF, "if", 1, 14⟩,
   ⟨.LEFT_PAREN, "(", 1, 17⟩,
   ⟨.IDENTIFIER, "n", 1, 18⟩,
   ⟨.LESS, "<", 1, 21⟩,
   ⟨.NUMBER, "2", 1, 22⟩,
   ⟨.RIGHT_PAREN, ")", 1, 23⟩,
   ⟨.RETURN, "return", 1, 25⟩,
   ⟨.IDENTIFIER, "n", 1, 32⟩,
   ⟨.SEMICOLON, ";", 1, 33⟩,
   ⟨.RETURN, "return", 1, 35⟩,
   ⟨.IDENTIFIER, "fib", 1, 42⟩,
   ⟨.LEFT_PAREN, "(", 1, 45⟩,
   ⟨.IDENTIFIER, "n", 1, 46⟩,
   ⟨.MINUS, "-", 1, 48⟩,
   ⟨.NUMBER, "1", 1, 50⟩,
   ⟨.RIGHT_PAREN, ")", 1, 51⟩,
   ⟨.PLUS, "+", 1, 53⟩,
   ⟨.IDENTIFIER, "fib", 1, 55⟩,
   ⟨.LEFT_PAREN, "(", 1, 58⟩,
   ⟨.IDENTIFIER, "n", 1, 59⟩,
   ⟨.MINUS, "-", 1, 61⟩,
   ⟨.NUMBER, "2", 1, 63⟩,
   ⟨.RIGHT_PAREN, ")", 1, 64⟩,
   ⟨.SEMICOLON, ";", 1, 65⟩,
   ⟨.RIGHT_BRACE, "\x7d", 1, 67⟩,
   ⟨.PRINT, "print", 1, 69⟩,
   ⟨.IDENTIFIER, "fib", 1, 75⟩,
   ⟨.LEFT_PAREN, "(", 1, 78⟩,
   ⟨.NUMBER, "10", 1, 79⟩,
   ⟨.RIGHT_PAREN, ")", 1, 81⟩,
   ⟨.END_OF_FILE, "", 1, 82⟩]

/-- The source text of scenario 4. -/
def counterSource : String :=
  "fun make() \x7b let x = 0; fun inc() \x7b x = x + 1; return x \x7d return inc \x7d let c = make(); print c(); print c(); print c()"

/-- The tokens of scenario 4. -/
def counterTokens : List Token :=
  [⟨.FUN, "fun", 1, 1⟩,
   ⟨.IDENTIFIER, "make", 1, 5⟩,
   ⟨.LEFT_PAREN, "(", 1, 9⟩,
   ⟨.RIGHT_PAREN, ")", 1, 10⟩,
   ⟨.LEFT_BRACE, "\x7b", 1, 12⟩,
   ⟨.LET, "let", 1, 14⟩,
   ⟨.IDENTIFIER, "x", 1, 18⟩,
   ⟨.ASSIGN, "=", 1, 21⟩,
   ⟨.NUMBER, "0", 1, 22⟩,
   ⟨.SEMICOLON, ";", 1, 23⟩,
   ⟨.FUN, "fun", 1, 25⟩,
   ⟨.IDENTIFIER, "inc", 1, 29⟩,
   ⟨.LEFT_PAREN, "(", 1, 32⟩,
   ⟨.RIGHT_PAREN, ")", 1, 33⟩,
   ⟨.LEFT_BRACE, "\x7b", 1, 35⟩,
   ⟨.IDENTIFIER, "x", 1, 37⟩,
   ⟨.ASSIGN, "=", 1, 40⟩,
   ⟨.IDENTIFIER, "x", 1, 41⟩,
   ⟨.PLUS, "+", 1, 43⟩,
   ⟨.NUMBER, "1", 1, 45⟩,
   ⟨.SEMICOLON, ";", 1, 46⟩,
   ⟨.RETURN, "return", 1, 48⟩,
   ⟨.IDENTIFIER, "x", 1, 55⟩,
   ⟨.RIGHT_BRACE, "\x7d", 1, 57⟩,
   ⟨.RETURN, "return", 1, 59⟩,
   ⟨.IDENTIFIER, "inc", 1, 66⟩,
   ⟨.RIGHT_BRACE, "\x7d", 1, 70⟩,
   ⟨.LET, "let", 1, 72⟩,
   ⟨.IDENTIFIER, "c", 1, 76⟩,
   ⟨.ASSIGN, "=", 1, 79⟩,
   ⟨.IDENTIFIER, "make", 1, 80⟩,
   ⟨.LEFT_PAREN, "(", 1, 84⟩,
   ⟨.RIGHT_PAREN, ")", 1, 85⟩,
   ⟨.SEMICOLON, ";", 1, 86⟩,
   ⟨.PRINT, "print", 1, 88⟩,
   ⟨.IDENTIFIER, "c", 1, 94⟩,
   ⟨.LEFT_PAREN, "(", 1, 95⟩,
   ⟨.RIGHT_PAREN, ")", 1, 96⟩,
   ⟨.SEMICOLON, ";", 1, 97⟩,
   ⟨.PRINT, "print", 1, 99⟩,
   ⟨.IDENTIFIER, "c", 1, 105⟩,
   ⟨.LEFT_PAREN, "(", 1, 106⟩,
   ⟨.RIGHT_PAREN, ")", 1, 107⟩,
   ⟨.SEMICOLON, ";", 1, 108⟩,
   ⟨.PRINT, "print", 1, 110⟩,
   ⟨.IDENTIFIER, "c", 1, 116⟩,
   ⟨.LEFT_PAREN, "(", 1, 117⟩,
   ⟨.RIGHT_PAREN, ")", 1, 118⟩,
   ⟨.END_OF_FILE, "", 1, 119⟩]

/-- Every enclosing reference points to an older frame. -/
def Heap.WellFormed (heap : Heap) : Prop :=
  ∀ (ref : Nat) (env : Environment), heap[ref]? = some env →
    ∀ parent : Nat, env.enclosing = some parent → parent < ref

/-- The references on the chain that starts at `ref`, innermost first, following
at most `fuel` frames. -/
def Environment.chainFrom (heap : Heap) : Nat → Nat → List Nat
  | 0, _ => []
  | fuel + 1, ref =>
    match heap[ref]? with
    | none => []
    | some env =>
      match env.enclosing with
      | some parent => ref :: Environment.chainFrom heap fuel parent
      | none => [ref]

/-- The chain of frames of the environment `ref`, innermost first. -/
def Environment.chain (heap : Heap) (ref : Nat) : List Nat :=
  Environment.chainFrom heap heap.length ref

/-- The value that the frame `ref` itself binds to `name`, if any. -/
def Environment.binding (heap : Heap) (name : String) (ref : Nat) : Option Value :=
  match heap[ref]? with
  | some env => mapFind env.values name
  | none => none

/-- The reference that the frame `ref` holds to its enclosing frame. -/
def Environment.parent (heap : Heap) (ref : Nat) : Option Nat :=
  match heap[ref]? with
  | some env => env.enclosing
  | none => none

/-- Three frames for examples: the global frame binds `x` and `y`, frame 1 (inside
the global frame) binds `y`, frame 2 (inside frame 1) binds `z`. -/
def exampleHeap : Heap :=
  [{ enclosing := none, values := [("x", .string "global x"), ("y", .string "global y")] },
   { enclosing := some 0, values := [("y", .string "inner y")] },
   { enclosing := some 1, values := [("z", .string "innermost z")] }]

/-- The state in which an evaluation step ended, when it ended with a value or
with an exception (a runtime error or a return). -/
def Outcome.finalState? {α : Type} : Outcome α → Option Interpreter
  | .ok _ st => some st
  | .exception _ st => some st
  | .fault => none
  | .timeout => none

/-- On every exit path, the outcome leaves the `environment` and `globals`
references as they are in `st`. -/
def Outcome.Restores {α : Type} (o : Outcome α) (st : Interpreter) : Prop :=
  ∀ st', o.finalState? = some st' →
    st'.environment = st.environment ∧ st'.globals = st.globals

/-- The step leaves the `environment` and `globals` references as it found
them, on every exit path and from every state. -/
def InterpM.Preserves {α : Type} (m : InterpM α) : Prop :=
  ∀ st, (m st).Restores st

/-- The property `P` holds of the state in which the step ended, on each of its
exit paths: normal completion, and an exception (a runtime error or a return)
passing out.  Nothing is said when the step did not end (`timeout`) or has no
defined behaviour (`fault`). -/
def Outcome.AtExit {α : Type} (o : Outcome α) (P : Interpreter → Prop) : Prop :=
  match o with
  | .ok _ st => P st
  | .exception _ st => P st
  | .fault => True
  | .timeout => True

/-- A program with a runtime error deep inside: the function `f` prints inside a
nested block and then reads an undefined variable inside a further block in a
loop. -/
def errorInBlockProgram : Program :=
  { statements :=
      [.functionDeclaration "f" ["a"]
        [.block
          [.print (.identifier "a"),
           .whileStatement (.literal (.bool true))
             (.block [.expression (.identifier "nope")])]],
       .block [.expression (.call (.identifier "f") [.literal (.string "in")])],
       .print (.literal (.string "not reached"))] }

/-- The bindings of a call frame after `define` has been called for each
parameter and its argument in declaration order, starting from `values`. -/
def Interpreter.parameterFrame :
    List (String × Value) → List String → List Value → List (String × Value)
  | values, [], _ => values
  | values, _ :: _, [] => values
  | values, parameter :: parameters, argument :: arguments =>
    Interpreter.parameterFrame (mapSet values parameter argument) parameters arguments

/-- The state in which the body of a user function starts: one new frame on the
closure that holds the parameter bindings, which is the current environment. -/
def Interpreter.enterCall (st : Interpreter) (parameters : List String) (closure : Nat)
    (arguments : List Value) : Interpreter :=
  { st with
    heap := st.heap ++
      [{ enclosing := some closure,
         values := Interpreter.parameterFrame [] parameters arguments }],
    environment := st.heap.length }

/-- A function with the parameter name `a` twice, which returns `a`, called with
two different arguments. -/
def duplicateParameterProgram : Program :=
  { statements :=
      [.functionDeclaration "f" ["a", "a"] [.returnStatement (some (.identifier "a"))],
       .print (.call (.identifier "f") [.literal (.string "first"), .literal (.string "second")])] }

/-- The state in which the statements of a block start: one new frame on the
current environment, which becomes the current environment. -/
def Interpreter.enterBlock (st : Interpreter) : Interpreter :=
  { st with
    heap := st.heap ++ [{ enclosing := some st.environment, values := [] }],
    environment := st.heap.length }

/-- A return deep inside a callee: `inner` returns from a block inside an `if`
inside a `while`; every statement placed after the return would print; `outer`
calls `inner`, prints the value it gets and returns a second value, which the
program prints. -/
def nestedReturnProgram : Program :=
  { statements :=
      [.functionDeclaration "inner" []
        [.whileStatement (.literal (.bool true))
          (.block
            [.ifStatement (.literal (.bool true))
              (.block
                [.block
                  [.returnStatement (some (.literal (.string "deep"))),
                   .print (.literal (.string "after return"))],
                 .print (.literal (.string "after the inner block"))])
              none,
             .print (.literal (.string "after the if"))]),
         .print (.literal (.string "after the loop"))],
       .functionDeclaration "outer" []
        [.varDeclaration "r" (some (.call (.identifier "inner") [])),
         .print (.identifier "r"),
         .returnStatement (some (.literal (.string "outer done"))),
         .print (.literal (.string "after the outer return"))],
       .print (.call (.identifier "outer") [])] }

/-- The value with which a step ended normally. -/
def Outcome.value? {α : Type} : Outcome α → Option α
  | .ok a _ => some a
  | _ => none

/-- The enclosing function `make` declares `x` with the value `a`, declares
`inner`, which returns `x`, then changes `x` to `b` with the statement `change`
and returns `inner`; the program stores the returned function in `c`. -/
def captureStatements (a : Value) (change : Stmt) : List Stmt :=
  [.functionDeclaration "make" []
    [.varDeclaration "x" (some (.literal a)),
     .functionDeclaration "inner" [] [.returnStatement (some (.identifier "x"))],
     change,
     .returnStatement (some (.identifier "inner"))],
   .varDeclaration "c" (some (.call (.identifier "make") []))]

/-- The program of the scope property: `let x = a`, then a block that declares
`x` again with `b` and prints it, then a print of `x` after the block. -/
def shadowProgram (a b : Value) : Program :=
  { statements :=
      [.varDeclaration "x" (some (.literal a)),
       .block [.varDeclaration "x" (some (.literal b)), .print (.identifier "x")],
       .print (.identifier "x")] }

/-- The precedence level of a binary operator token, from 2 (`or`) to 7
(`*`, `/`, `%`), as in the grammar table; `none` for every other token. -/
def binaryLevel : TokenType → Option Nat
  | .OR => some 2
  | .AND => some 3
  | .EQUAL => some 4
  | .NOT_EQUAL => some 4
  | .LESS => some 5
  | .LESS_EQUAL => some 5
  | .GREATER => some 5
  | .GREATER_EQUAL => some 5
  | .PLUS => some 6
  | .MINUS => some 6
  | .MULTIPLY => some 7
  | .DIVIDE => some 7
  | .MODULO => some 7
  | _ => none

/-- The production of a precedence level: 2 `logicalOr`, 3 `logicalAnd`,
4 `equality`, 5 `comparison`, 6 `term`, 7 `factor`, and `unary` above. -/
def Parser.level : Nat → Nat → ParserM Expr
  | 2 => Parser.logicalOr
  | 3 => Parser.logicalAnd
  | 4 => Parser.equality
  | 5 => Parser.comparison
  | 6 => Parser.term
  | 7 => Parser.factor
  | _ => Parser.unary

/-- The `while` loop of the production of a precedence level. -/
def Parser.levelLoop : Nat → Nat → Expr → ParserM Expr
  | 2 => Parser.logicalOrLoop
  | 3 => Parser.logicalAndLoop
  | 4 => Parser.equalityLoop
  | 5 => Parser.comparisonLoop
  | 6 => Parser.termLoop
  | _ => Parser.factorLoop

/-- The token kinds that the loop of a precedence level matches. -/
def Parser.levelOps : Nat → List TokenType
  | 2 => [.OR]
  | 3 => [.AND]
  | 4 => [.NOT_EQUAL, .EQUAL]
  | 5 => [.GREATER, .GREATER_EQUAL, .LESS, .LESS_EQUAL]
  | 6 => [.MINUS, .PLUS]
  | 7 => [.DIVIDE, .MULTIPLY, .MODULO]
  | _ => []

/-- With enough fuel the parsing step `f`, started in the state `p`, has the
result `r`: there is a bound from which on every fuel gives `r`. -/
def Parser.Eventually {α : Type} (f : Nat → ParserM α) (p : Parser) (r : ParseResult α) :
    Prop :=
  ∃ k, ∀ n, f (n + k) p = r

/-- The tokens of `1 + 2 * 3`. -/
def sumProductTokens : List Token :=
  [⟨.NUMBER, "1", 1, 1⟩, ⟨.PLUS, "+", 1, 3⟩, ⟨.NUMBER, "2", 1, 5⟩, ⟨.MULTIPLY, "*", 1, 7⟩,
   ⟨.NUMBER, "3", 1, 9⟩, ⟨.END_OF_FILE, "", 1, 10⟩]

/-- The expression that `Parser::primary` makes of an operand that is a single
token: a literal or an identifier. -/
def operandExpr (t : Token) : Option Expr :=
  match t.type with
  | .TRUE => some (.literal (.bool true))
  | .FALSE => some (.literal (.bool false))
  | .NIL => some (.literal .nil)
  | .NUMBER =>
    match stod t.lexeme with
    | .ok value => some (.literal (.number value))
    | .error _ => none
  | .STRING => some (.literal (.string t.lexeme))
  | .IDENTIFIER => some (.identifier t.lexeme)
  | _ => none

/-- The syntax tree that scenario 4 is meant to have. -/
def counterProgram : Program :=
  { statements :=
      [.functionDeclaration "make" []
        [.varDeclaration "x" (some (.literal (.number (Number.ofNat 0)))),
         .functionDeclaration "inc" []
           [.expression (.binary (.identifier "x") "="
              (.binary (.identifier "x") "+" (.literal (.number (Number.ofNat 1))))),
            .returnStatement (some (.identifier "x"))],
         .returnStatement (some (.identifier "inc"))],
       .varDeclaration "c" (some (.call (.identifier "make") [])),
       .print (.call (.identifier "c") []),
       .print (.call (.identifier "c") []),
       .print (.call (.identifier "c") [])] }

/-- The references of an interpreter state are in order: every enclosing
reference points to an older frame, the current environment is a frame, and
every function object has captured a frame. -/
def Interpreter.Valid (st : Interpreter) : Prop :=
  Heap.WellFormed st.heap ∧ st.environment < st.heap.length ∧
  ∀ (name : String) (parameters : List String) (body : List Stmt) (closure : Nat),
    FluxCallable.function name parameters body closure ∈ st.callables →
    closure < st.heap.length

/-- From every valid state the step leads to valid states only, on every exit
path; it never removes a frame and leaves the current environment as it was. -/
def InterpM.Sound {α : Type} (m : InterpM α) : Prop :=
  ∀ st st', Interpreter.Valid st → (m st).finalState? = some st' →
    Interpreter.Valid st' ∧ st.heap.length ≤ st'.heap.length ∧
    st'.environment = st.environment

/-- A state for examples: the frames of `exampleHeap` and, after the native
functions, the function object `inner`, which returns `y` and has captured
frame 2. -/
def exampleClosureState : Interpreter :=
  { Interpreter.new Host.simple with
    heap := exampleHeap,
    callables := Interpreter.nativeFunctions ++
      [.function "inner" [] [.returnStatement (some (.identifier "y"))] 2] }

/-- Every frame of `heap` is still a frame of `heap'`, with the same enclosing
reference and with at least the names it bound. -/
def Heap.Extends (heap heap' : Heap) : Prop :=
  heap.length ≤ heap'.length ∧
  ∀ r, r < heap.length →
    Environment.parent heap' r = Environment.parent heap r ∧
    ∀ name, (Environment.binding heap name r).isSome →
      (Environment.binding heap' name r).isSome

/-- The step never removes a frame, never changes an enclosing reference and
never removes a binding, on every exit path. -/
def InterpM.Grows {α : Type} (m : InterpM α) : Prop :=
  ∀ st st', (m st).finalState? = some st' → Heap.Extends st.heap st'.heap

/-- Three prints: a sum of two numbers, a sum of two strings, and a sum of a
number and a string. -/
def plusProgram : Program :=
  { statements :=
      [.print (.binary (.literal (.number (Number.ofNat 1))) "+"
        (.literal (.number (Number.ofNat 2)))),
       .print (.binary (.literal (.string "ab")) "+" (.literal (.string "cd"))),
       .print (.binary (.literal (.number (Number.ofNat 1))) "+" (.literal (.string "a")))] }

/-- The arithmetic and relational operators that take two numbers. -/
def Interpreter.numberOperators : List String :=
  ["-", "*", "/", "%", "<", "<=", ">", ">="]

/-- The message of the runtime error that an evaluation step has raised, if it
has raised one. -/
def Outcome.error? {α : Type} : Outcome α → Option String
  | .exception (.runtime_error what) _ => some what
  | _ => none

/-- `std::variant::index()` of a `FluxValue`: 0 double, 1 string, 2 bool,
3 nullptr, 4 callable. -/
def Value.index : Value → Nat
  | .number _ => 0
  | .string _ => 1
  | .bool _ => 2
  | .nil => 3
  | .callable _ => 4

/-- The program `print "f"(1 / 0)`: the callee is a string and the evaluation of
the argument raises an error. -/
def callStringProgram : Program :=
  { statements :=
      [.print (.call (.literal (.string "f"))
        [.binary (.literal (.number (Number.ofNat 1))) "/"
          (.literal (.number (Number.ofNat 0)))])] }

/-- The token of a step of the scanner, if there is one, is not an end-of-file
token. -/
def Lexer.NoEof (r : Lexer × Option Token) : Prop :=
  ∀ token, r.2 = some token → token.type ≠ .END_OF_FILE

/-- The scanner has moved forward on the same source. -/
def Lexer.Advances (lx lx' : Lexer) : Prop :=
  lx'.source = lx.source ∧ lx.current ≤ lx'.current

/-- The scanner has consumed at least one character of the same source. -/
def Lexer.Progress (lx : Lexer) (r : Lexer × Option Token) : Prop :=
  r.1.source = lx.source ∧ lx.current < r.1.current

/-- The characters for which the switch of `Lexer::tokenize` makes a token or
starts one: the cases of the switch, the digits, the letters and `_`. -/
def Lexer.startsToken (c : Char) : Bool :=
  c == '(' || c == ')' || c == '\x7b' || c == '\x7d' || c == ',' || c == ';' || c == '+' ||
  c == '-' || c == '*' || c == '/' || c == '%' || c == '\n' || c == '=' || c == '!' ||
  c == '<' || c == '>' || c == '"' || c.isDigit || (c.isAlpha || c == '_')

/-- The 1-based column, within its line, of the character at position `index`
of the source: one more than the number of characters between the last newline
before it (or the start of the source) and the position. -/
def sourceColumn (source : String) (index : Nat) : Nat :=
  (((source.toList.take index).reverse).takeWhile (fun c => c != '\n')).length + 1

/-! ## Errors that leave the parser -/

/-- A number literal too large for a double: 310 nines. -/
def hugeNumberSource : String := String.mk (List.replicate 310 '9')

/-- The exception that a parse ends with, if it ends with one. -/
def ParseResult.escaped? {α : Type} : ParseResult α → Option ParseException
  | .exception e _ => some e
  | _ => none

/-- The error of a conversion, if it failed. -/
def stodError? : Except StodError Number → Option StodError
  | .error e => some e
  | .ok _ => none

/-- The step never throws. -/
def ParserM.NoThrow {α : Type} (m : ParserM α) : Prop :=
  ∀ p e p1, m p ≠ .exception e p1

/-- The step never ends with a `std::runtime_error`. -/
def ParserM.Catches {α : Type} (m : ParserM α) : Prop :=
  ∀ p what p1, m p ≠ .exception (.runtime_error what) p1

/-- A program that declares a function and prints it and a native function. -/
def printFunctionsProgram : Program :=
  { statements := [.functionDeclaration "twice" ["x"] [.returnStatement
      (some (.binary (.identifier "x") "*" (.literal (.number (Number.ofNat 2)))))],
      .print (.identifier "twice"), .print (.identifier "clock")] }

/-! ## Evaluating an expression twice -/

mutual

/-- No literal of the expression holds a function object; the parser builds
literals from NUMBER, STRING, `true`, `false` and `nil` only. -/
def Expr.plain : Expr → Bool
  | .literal (.callable _) => false
  | .literal _ => true
  | .identifier _ => true
  | .binary left _ right => left.plain && right.plain
  | .unary _ operand => operand.plain
  | .call callee arguments => callee.plain && Expr.plainList arguments

/-- Every expression of the list is plain. -/
def Expr.plainList : List Expr → Bool
  | [] => true
  | e :: es => e.plain && Expr.plainList es

end

mutual

/-- No literal of the statement holds a function object. -/
def Stmt.plain : Stmt → Bool
  | .expression e => e.plain
  | .varDeclaration _ init =>
    match init with
    | some e => e.plain
    | none => true
  | .block statements => Stmt.plainList statements
  | .ifStatement condition thenBranch elseBranch =>
    condition.plain && thenBranch.plain &&
      (match elseBranch with
        | some s => s.plain
        | none => true)
  | .whileStatement condition body => condition.plain && body.plain
  | .functionDeclaration _ _ body => Stmt.plainList body
  | .returnStatement value =>
    match value with
    | some e => e.plain
    | none => true
  | .print e => e.plain

/-- Every statement of the list is plain. -/
def Stmt.plainList : List Stmt → Bool
  | [] => true
  | s :: ss => s.plain && Stmt.plainList ss

end

/-- The value, if it is a function object, is one of the first `functions`
function objects. -/
def Value.inRange (functions : Nat) : Value → Bool
  | .callable ref => decide (ref < functions)
  | _ => true

/-- The references held by the frame point to the first `frames` frames and the
first `functions` function objects. -/
def Environment.closed (frames functions : Nat) (env : Environment) : Bool :=
  (match env.enclosing with
    | some parent => decide (parent < frames)
    | none => true) &&
  env.values.all fun kv => kv.2.inRange functions

/-- The function object has captured one of the first `frames` frames, and its
body is plain. -/
def FluxCallable.closed (frames : Nat) : FluxCallable → Bool
  | .function _ _ body closure => decide (closure < frames) && Stmt.plainList body
  | .native _ _ => true

/-- Every reference held in the state points into the state, as shared pointers
do, and the function bodies are plain. -/
def Interpreter.closed (st : Interpreter) : Bool :=
  st.heap.all (Environment.closed st.heap.length st.callables.length) &&
  st.callables.all (FluxCallable.closed st.heap.length) &&
  decide (st.environment < st.heap.length)

/-- How the references of a second run correspond to those of a first run: the
first `frames` frames and the first `functions` function objects are the same in
both, and a later one of the first run is `frameGap` resp. `functionGap` places
further up in the second. -/
structure Shift where
  frames : Nat
  frameGap : Nat
  functions : Nat
  functionGap : Nat

/-- The frame of the second run for a frame of the first. -/
def Shift.frame (σ : Shift) (ref : Nat) : Nat :=
  if ref < σ.frames then ref else ref + σ.frameGap

/-- The function object of the second run for one of the first. -/
def Shift.function (σ : Shift) (ref : Nat) : Nat :=
  if ref < σ.functions then ref else ref + σ.functionGap

/-- The value of the second run for a value of the first: the same value, a
function object being the corresponding one. -/
def Value.shift (σ : Shift) : Value → Value
  | .callable ref => .callable (σ.function ref)
  | .number n => .number n
  | .string s => .string s
  | .bool b => .bool b
  | .nil => .nil

/-- The frame of the second run for a frame of the first. -/
def Environment.shift (σ : Shift) (env : Environment) : Environment :=
  { enclosing := env.enclosing.map σ.frame,
    values := env.values.map fun kv => (kv.1, kv.2.shift σ) }

/-- The function object of the second run for one of the first. -/
def FluxCallable.shift (σ : Shift) : FluxCallable → FluxCallable
  | .function name parameters body closure => .function name parameters body (σ.frame closure)
  | .native name paramCount => .native name paramCount

/-- The exception of the second run for one of the first. -/
def Exception.shift (σ : Shift) : Exception → Exception
  | .runtime_error what => .runtime_error what
  | .ReturnException value => .ReturnException (value.shift σ)

/-- The frames `heap'` of a second run correspond to the frames `heap` of a
first run: frame by frame they hold the corresponding contents. -/
def Heap.Similar (σ : Shift) (heap heap' : Heap) : Prop :=
  (∀ i, heap'[σ.frame i]? = (heap[i]?).map (Environment.shift σ)) ∧
  heap'.length = heap.length + σ.frameGap ∧ σ.frames ≤ heap.length

/-- The state `s'` of a second run corresponds to the state `s` of a first run:
frame by frame and function object by function object it holds the
corresponding contents, the current environment is the corresponding frame, the
clock has been read as often, and the function bodies of `s` are plain.
(`lastValue` and the output are not compared.) -/
def Interpreter.Similar (σ : Shift) (s s' : Interpreter) : Prop :=
  Heap.Similar σ s.heap s'.heap ∧
  (∀ c, s'.callables[σ.function c]? = (s.callables[c]?).map (FluxCallable.shift σ)) ∧
  s'.callables.length = s.callables.length + σ.functionGap ∧
  σ.functions ≤ s.callables.length ∧
  s'.environment = σ.frame s.environment ∧
  s'.clockReads = s.clockReads ∧ s'.host = s.host ∧
  ∀ (c : Nat) (name : String) (parameters : List String) (body : List Stmt) (closure : Nat),
    s.callables[c]? = some (.function name parameters body closure) →
    Stmt.plainList body = true

/-- The outcome of a step of the second run corresponds to the outcome of the
step of the first run: the same kind of exit, with the corresponding result
(`f` of the result of the first run) and corresponding states.  Nothing is
required when the first run did not end or has no defined behaviour. -/
def Outcome.Similar {α : Type} (σ : Shift) (f : α → α) (r r' : Outcome α) : Prop :=
  match r with
  | .ok a s =>
    match r' with
    | .ok a' s' => a' = f a ∧ Interpreter.Similar σ s s'
    | _ => False
  | .exception e s =>
    match r' with
    | .exception e' s' => e' = e.shift σ ∧ Interpreter.Similar σ s s'
    | _ => False
  | .fault => True
  | .timeout => True

/-- The step `m'` does in corresponding states what the step `m` does. -/
def InterpM.Simulates {α : Type} (σ : Shift) (f : α → α) (m m' : InterpM α) : Prop :=
  ∀ s s', Interpreter.Similar σ s s' → Outcome.Similar σ f (m s) (m' s')

/-- The function objects of `st` are those of `st'`, in the same places, and the
host is the same. -/
def Interpreter.Keeps (st st' : Interpreter) : Prop :=
  (∃ more, st'.callables = st.callables ++ more) ∧ st'.host = st.host

/-- The step changes no function object and not the host, on every exit path. -/
def InterpM.Keeps {α : Type} (m : InterpM α) : Prop :=
  ∀ st st', (m st).finalState? = some st' → Interpreter.Keeps st st'

/-- The correspondence between a run from `st` and a run of the same steps
from `st1`, a state reached from `st`: what exists in `st` is shared, and what
the first run creates after it corresponds to what the second creates after
`st1`. -/
def Interpreter.shiftTo (st st1 : Interpreter) : Shift :=
  { frames := st.heap.length,
    frameGap := st1.heap.length - st.heap.length,
    functions := st.callables.length,
    functionGap := st1.callables.length - st.callables.length }

/-- The contents of a frame. -/
def Environment.data (env : Environment) : Option Nat × List (String × Value) :=
  (env.enclosing, env.values)

/-- Whether the frame `ref` has the same contents in `st1` as in `st`. -/
def Interpreter.frameKept (st st1 : Interpreter) (ref : Nat) : Bool :=
  decide ((st1.heap[ref]?).map Environment.data = (st.heap[ref]?).map Environment.data)

/-- Evaluate `e` in `st` and once more in the state reached: the two values,
whether they are equal under `==`, whether the frames on the chain of the
current environment are unchanged by the first evaluation, whether all frames of
`st` are unchanged by it, and whether it left the clock unread. -/
def Interpreter.evaluateTwice (fuel : Nat) (e : Expr) (st : Interpreter) :
    Option (Value × Value × Bool × Bool × Bool × Bool) :=
  match Interpreter.evaluate fuel e st with
  | .ok v st1 =>
    match Interpreter.evaluate fuel e st1 with
    | .ok v' _ =>
      some (v, v', Interpreter.isEqual v v',
        (Environment.chainFrom st.heap st.heap.length st.environment).all (st.frameKept st1),
        (List.range st.heap.length).all (st.frameKept st1),
        decide (st1.clockReads = st.clockReads))
    | _ => none
  | _ => none

/-- A state for examples: `make` returns a new function each time, `stamp`
reads the clock, `counter` is a function that counts its calls in the frame 1
that it has captured. -/
def evaluateTwiceState : Interpreter :=
  { Interpreter.new Host.simple with
    heap := [{ enclosing := none,
               values := [("clock", .callable 0), ("sqrt", .callable 1), ("abs", .callable 2),
                 ("make", .callable 3), ("stamp", .callable 4), ("counter", .callable 5)] },
             { enclosing := some 0, values := [("x", .number (Number.ofNat 0))] }],
    callables := Interpreter.nativeFunctions ++
      [.function "make" [] [.functionDeclaration "inner" [] [],
          .returnStatement (some (.identifier "inner"))] 0,
       .function "stamp" [] [.returnStatement (some (.call (.identifier "clock") []))] 0,
       .function "inc" [] [.expression (.binary (.identifier "x") "="
            (.binary (.identifier "x") "+" (.literal (.number (Number.ofNat 1))))),
          .returnStatement (some (.identifier "x"))] 1] }

/-- The state that the evaluation of `make()` leads to from
`evaluateTwiceState`: the frame of the call and the function `inner` are new. -/
def evaluateTwiceAfterMake : Interpreter :=
  { evaluateTwiceState with
    heap := evaluateTwiceState.heap ++
      [{ enclosing := some 0, values := [("inner", .callable 6)] }],
    callables := evaluateTwiceState.callables ++ [.function "inner" [] [] 2],
    lastValue := .callable 6 }

/-- The expression `abs(2 - 9) * 3`. -/
def absExpression : Expr :=
  .binary (.call (.identifier "abs")
    [.binary (.literal (.number (Number.ofNat 2))) "-" (.literal (.number (Number.ofNat 9)))])
    "*" (.literal (.number (Number.ofNat 3)))

/-- Every function object held in a frame is one of the first `functions`
function objects. -/
def Heap.InRange (functions : Nat) (heap : Heap) : Prop :=
  ∀ env ∈ heap, ∀ kv ∈ env.values, kv.2.inRange functions = true

/-- Every function object held in a frame exists, and every function body is
plain. -/
def Interpreter.Stored (st : Interpreter) : Prop :=
  Heap.InRange st.callables.length st.heap ∧
  ∀ (name : String) (parameters : List String) (body : List Stmt) (closure : Nat),
    FluxCallable.function name parameters body closure ∈ st.callables →
    Stmt.plainList body = true

/-- The value carried by the exception, if it is a function object, is one of
the first `functions` function objects. -/
def Exception.inRange (functions : Nat) : Exception → Bool
  | .runtime_error _ => true
  | .ReturnException value => value.inRange functions

/-- From a state where every stored function object exists and `pre` holds of
the number of function objects, the step leads to such states only, never
removes a function object, and its result satisfies `post`, on every exit
path. -/
def InterpM.Ranged {α : Type} (pre : Nat → Prop) (post : α → Nat → Prop) (m : InterpM α) :
    Prop :=
  ∀ st, Interpreter.Stored st → pre st.callables.length →
    match m st with
    | .ok a st' =>
      Interpreter.Stored st' ∧ st.callables.length ≤ st'.callables.length ∧
        post a st'.callables.length
    | .exception e st' =>
      Interpreter.Stored st' ∧ st.callables.length ≤ st'.callables.length ∧
        e.inRange st'.callables.length = true
    | .fault => True
    | .timeout => True

/-- Every result of the step satisfies `P`. -/
def ParserM.Yields {α : Type} (P : α → Prop) (m : ParserM α) : Prop :=
  ∀ p a p1, m p = .ok a p1 → P a

/-- With `fuel`, every production of the parser yields plain syntax trees only;
a loop does so when the tree or list it starts from is plain. -/
structure Parser.PlainAt (fuel : Nat) : Prop where
  declaration : ParserM.Yields (fun s => s.plain = true) (Parser.declaration fuel)
  varDeclaration : ParserM.Yields (fun s => s.plain = true) (Parser.varDeclaration fuel)
  functionDeclaration :
    ParserM.Yields (fun s => s.plain = true) (Parser.functionDeclaration fuel)
  statement : ParserM.Yields (fun s => s.plain = true) (Parser.statement fuel)
  ifStatement : ParserM.Yields (fun s => s.plain = true) (Parser.ifStatement fuel)
  whileStatement : ParserM.Yields (fun s => s.plain = true) (Parser.whileStatement fuel)
  returnStatement : ParserM.Yields (fun s => s.plain = true) (Parser.returnStatement fuel)
  printStatement : ParserM.Yields (fun s => s.plain = true) (Parser.printStatement fuel)
  blockStatement :
    ParserM.Yields (fun ss => Stmt.plainList ss = true) (Parser.blockStatement fuel)
  blockLoop : ∀ acc, Stmt.plainList acc = true →
    ParserM.Yields (fun ss => Stmt.plainList ss = true) (Parser.blockLoop fuel acc)
  expressionStatement :
    ParserM.Yields (fun s => s.plain = true) (Parser.expressionStatement fuel)
  expression : ParserM.Yields (fun e => e.plain = true) (Parser.expression fuel)
  assignment : ParserM.Yields (fun e => e.plain = true) (Parser.assignment fuel)
  logicalOr : ParserM.Yields (fun e => e.plain = true) (Parser.logicalOr fuel)
  logicalOrLoop : ∀ e, e.plain = true →
    ParserM.Yields (fun e => e.plain = true) (Parser.logicalOrLoop fuel e)
  logicalAnd : ParserM.Yields (fun e => e.plain = true) (Parser.logicalAnd fuel)
  logicalAndLoop : ∀ e, e.plain = true →
    ParserM.Yields (fun e => e.plain = true) (Parser.logicalAndLoop fuel e)
  equality : ParserM.Yields (fun e => e.plain = true) (Parser.equality fuel)
  equalityLoop : ∀ e, e.plain = true →
    ParserM.Yields (fun e => e.plain = true) (Parser.equalityLoop fuel e)
  comparison : ParserM.Yields (fun e => e.plain = true) (Parser.comparison fuel)
  comparisonLoop : ∀ e, e.plain = true →
    ParserM.Yields (fun e => e.plain = true) (Parser.comparisonLoop fuel e)
  term : ParserM.Yields (fun e => e.plain = true) (Parser.term fuel)
  termLoop : ∀ e, e.plain = true →
    ParserM.Yields (fun e => e.plain = true) (Parser.termLoop fuel e)
  factor : ParserM.Yields (fun e => e.plain = true) (Parser.factor fuel)
  factorLoop : ∀ e, e.plain = true →
    ParserM.Yields (fun e => e.plain = true) (Parser.factorLoop fuel e)
  unary : ParserM.Yields (fun e => e.plain = true) (Parser.unary fuel)
  call : ParserM.Yields (fun e => e.plain = true) (Parser.call fuel)
  callLoop : ∀ e, e.plain = true →
    ParserM.Yields (fun e => e.plain = true) (Parser.callLoop fuel e)
  primary : ParserM.Yields (fun e => e.plain = true) (Parser.primary fuel)
  arguments : ParserM.Yields (fun es => Expr.plainList es = true) (Parser.arguments fuel)
  argumentsLoop : ∀ acc, Expr.plainList acc = true →
    ParserM.Yields (fun es => Expr.plainList es = true) (Parser.argumentsLoop fuel acc)

/-! ## Positions of the parser -/

/-- Whether the last token of the list is END_OF_FILE. -/
def endsWithEof (ts : List Token) : Bool :=
  match ts.getLast? with
  | some t => t.type == .END_OF_FILE
  | none => false

/-- A parser on the tokens `ts`, which end with END_OF_FILE, at a position that
is an index of `ts` and at least `c`. -/
def Parser.From (ts : List Token) (c : Nat) (p : Parser) : Prop :=
  p.tokens = ts ∧ c ≤ p.current ∧ p.current < ts.length ∧ endsWithEof ts = true

/-- From a position of at least `c` within the tokens `ts`, the step makes no
access outside the tokens (it does not end in a fault); when it returns, the
position is within the tokens and at least `d`, when it throws, within the
tokens and at least `e`; the tokens stay what they are.  It runs out of fuel
only if `T` holds: with `T` false the step ends, with `T` true nothing is said
about that. -/
def ParserM.Runs {α : Type} (T : Prop) (ts : List Token) (c : Nat) (m : ParserM α)
    (d e : Nat) : Prop :=
  ∀ p, Parser.From ts c p → match m p with
    | .ok _ p1 => Parser.From ts d p1
    | .exception _ p1 => Parser.From ts e p1
    | .fault => False
    | .timeout => T

/-- With `fuel`, every production of the parser runs within the tokens, from
any position `c`; a production that returns has consumed a token where the
position it returns with is given as `c + 1`.  Fuel is enough when it is at
least twenty times the number of tokens from `c` on plus the number of
productions that may follow one another without a token being consumed. -/
structure Parser.RunsAt (T : Prop) (fuel : Nat) : Prop where
  declaration : ∀ (ts : List Token) (c : Nat),
    (T ∨ 20 * ts.length + 13 ≤ fuel + 20 * c) →
      ParserM.Runs T ts c (Parser.declaration fuel) (c + 1) c
  varDeclaration : ∀ (ts : List Token) (c : Nat),
    (T ∨ 20 * ts.length + 0 ≤ fuel + 20 * (c + 1)) →
      ParserM.Runs T ts (c + 1) (Parser.varDeclaration fuel) (c + 1) (c + 1)
  functionDeclaration : ∀ (ts : List Token) (c : Nat),
    (T ∨ 20 * ts.length + 0 ≤ fuel + 20 * (c + 1)) →
      ParserM.Runs T ts (c + 1) (Parser.functionDeclaration fuel) (c + 1) (c + 1)
  statement : ∀ (ts : List Token) (c : Nat),
    (T ∨ 20 * ts.length + 12 ≤ fuel + 20 * c) →
      ParserM.Runs T ts c (Parser.statement fuel) (c + 1) c
  ifStatement : ∀ (ts : List Token) (c : Nat),
    (T ∨ 20 * ts.length + 0 ≤ fuel + 20 * c) →
      ParserM.Runs T ts c (Parser.ifStatement fuel) (c) c
  whileStatement : ∀ (ts : List Token) (c : Nat),
    (T ∨ 20 * ts.length + 0 ≤ fuel + 20 * c) →
      ParserM.Runs T ts c (Parser.whileStatement fuel) (c) c
  returnStatement : ∀ (ts : List Token) (c : Nat),
    (T ∨ 20 * ts.length + 11 ≤ fuel + 20 * c) →
      ParserM.Runs T ts c (Parser.returnStatement fuel) (c) c
  printStatement : ∀ (ts : List Token) (c : Nat),
    (T ∨ 20 * ts.length + 11 ≤ fuel + 20 * c) →
      ParserM.Runs T ts c (Parser.printStatement fuel) (c + 1) c
  blockStatement : ∀ (ts : List Token) (c : Nat),
    (T ∨ 20 * ts.length + 15 ≤ fuel + 20 * c) →
      ParserM.Runs T ts c (Parser.blockStatement fuel) (c) c
  blockLoop : ∀ (ts : List Token) (c : Nat),
    (T ∨ 20 * ts.length + 14 ≤ fuel + 20 * c) →
      ∀ acc, ParserM.Runs T ts c (Parser.blockLoop fuel acc) (c) c
  expressionStatement : ∀ (ts : List Token) (c : Nat),
    (T ∨ 20 * ts.length + 11 ≤ fuel + 20 * c) →
      ParserM.Runs T ts c (Parser.expressionStatement fuel) (c + 1) c
  expression : ∀ (ts : List Token) (c : Nat),
    (T ∨ 20 * ts.length + 10 ≤ fuel + 20 * c) →
      ParserM.Runs T ts c (Parser.expression fuel) (c + 1) c
  assignment : ∀ (ts : List Token) (c : Nat),
    (T ∨ 20 * ts.length + 9 ≤ fuel + 20 * c) →
      ParserM.Runs T ts c (Parser.assignment fuel) (c + 1) c
  logicalOr : ∀ (ts : List Token) (c : Nat),
    (T ∨ 20 * ts.length + 8 ≤ fuel + 20 * c) →
      ParserM.Runs T ts c (Parser.logicalOr fuel) (c + 1) c
  logicalOrLoop : ∀ (ts : List Token) (c : Nat),
    (T ∨ 20 * ts.length + 0 ≤ fuel + 20 * c) →
      ∀ acc, ParserM.Runs T ts c (Parser.logicalOrLoop fuel acc) (c) c
  logicalAnd : ∀ (ts : List Token) (c : Nat),
    (T ∨ 20 * ts.length + 7 ≤ fuel + 20 * c) →
      ParserM.Runs T ts c (Parser.logicalAnd fuel) (c + 1) c
  logicalAndLoop : ∀ (ts : List Token) (c : Nat),
    (T ∨ 20 * ts.length + 0 ≤ fuel + 20 * c) →
      ∀ acc, ParserM.Runs T ts c (Parser.logicalAndLoop fuel acc) (c) c
  equality : ∀ (ts : List Token) (c : Nat),
    (T ∨ 20 * ts.length + 6 ≤ fuel + 20 * c) →
      ParserM.Runs T ts c (Parser.equality fuel) (c + 1) c
  equalityLoop : ∀ (ts : List Token) (c : Nat),
    (T ∨ 20 * ts.length + 0 ≤ fuel + 20 * c) →
      ∀ acc, ParserM.Runs T ts c (Parser.equalityLoop fuel acc) (c) c
  comparison : ∀ (ts : List Token) (c : Nat),
    (T ∨ 20 * ts.length + 5 ≤ fuel + 20 * c) →
      ParserM.Runs T ts c (Parser.comparison fuel) (c + 1) c
  comparisonLoop : ∀ (ts : List Token) (c : Nat),
    (T ∨ 20 * ts.length + 0 ≤ fuel + 20 * c) →
      ∀ acc, ParserM.Runs T ts c (Parser.comparisonLoop fuel acc) (c) c
  term : ∀ (ts : List Token) (c : Nat),
    (T ∨ 20 * ts.length + 4 ≤ fuel + 20 * c) →
      ParserM.Runs T ts c (Parser.term fuel) (c + 1) c
  termLoop : ∀ (ts : List Token) (c : Nat),
    (T ∨ 20 * ts.length + 0 ≤ fuel + 20 * c) →
      ∀ acc, ParserM.Runs T ts c (Parser.termLoop fuel acc) (c) c
  factor : ∀ (ts : List Token) (c : Nat),
    (T ∨ 20 * ts.length + 3 ≤ fuel + 20 * c) →
      ParserM.Runs T ts c (Parser.factor fuel) (c + 1) c
  factorLoop : ∀ (ts : List Token) (c : Nat),
    (T ∨ 20 * ts.length + 0 ≤ fuel + 20 * c) →
      ∀ acc, ParserM.Runs T ts c (Parser.factorLoop fuel acc) (c) c
  unary : ∀ (ts : List Token) (c : Nat),
    (T ∨ 20 * ts.length + 2 ≤ fuel + 20 * c) →
      ParserM.Runs T ts c (Parser.unary fuel) (c + 1) c
  call : ∀ (ts : List Token) (c : Nat),
    (T ∨ 20 * ts.length + 1 ≤ fuel + 20 * c) →
      ParserM.Runs T ts c (Parser.call fuel) (c + 1) c
  callLoop : ∀ (ts : List Token) (c : Nat),
    (T ∨ 20 * ts.length + 0 ≤ fuel + 20 * c) →
      ∀ acc, ParserM.Runs T ts c (Parser.callLoop fuel acc) (c) c
  primary : ∀ (ts : List Token) (c : Nat),
    (T ∨ 20 * ts.length + 0 ≤ fuel + 20 * c) →
      ParserM.Runs T ts c (Parser.primary fuel) (c + 1) c
  arguments : ∀ (ts : List Token) (c : Nat),
    (T ∨ 20 * ts.length + 12 ≤ fuel + 20 * c) →
      ParserM.Runs T ts c (Parser.arguments fuel) (c) c
  argumentsLoop : ∀ (ts : List Token) (c : Nat),
    (T ∨ 20 * ts.length + 11 ≤ fuel + 20 * c) →
      ∀ acc, ParserM.Runs T ts c (Parser.argumentsLoop fuel acc) (c) c

/-! ## Fuel -/

/-- The step `m'` does what `m` does wherever `m` does not run out of fuel. -/
def ParserM.Le {α : Type} (m m' : ParserM α) : Prop :=
  ∀ p, m p = .timeout ∨ m' p = m p

/-- One more unit of fuel changes no result of a production that `fuel` was
enough for. -/
structure Parser.StableAt (fuel : Nat) : Prop where
  declaration : ParserM.Le (Parser.declaration fuel) (Parser.declaration (fuel + 1))
  varDeclaration : ParserM.Le (Parser.varDeclaration fuel) (Parser.varDeclaration (fuel + 1))
  functionDeclaration : ParserM.Le (Parser.functionDeclaration fuel) (Parser.functionDeclaration (fuel + 1))
  statement : ParserM.Le (Parser.statement fuel) (Parser.statement (fuel + 1))
  ifStatement : ParserM.Le (Parser.ifStatement fuel) (Parser.ifStatement (fuel + 1))
  whileStatement : ParserM.Le (Parser.whileStatement fuel) (Parser.whileStatement (fuel + 1))
  returnStatement : ParserM.Le (Parser.returnStatement fuel) (Parser.returnStatement (fuel + 1))
  printStatement : ParserM.Le (Parser.printStatement fuel) (Parser.printStatement (fuel + 1))
  blockStatement : ParserM.Le (Parser.blockStatement fuel) (Parser.blockStatement (fuel + 1))
  blockLoop : ∀ acc, ParserM.Le (Parser.blockLoop fuel acc) (Parser.blockLoop (fuel + 1) acc)
  expressionStatement : ParserM.Le (Parser.expressionStatement fuel) (Parser.expressionStatement (fuel + 1))
  expression : ParserM.Le (Parser.expression fuel) (Parser.expression (fuel + 1))
  assignment : ParserM.Le (Parser.assignment fuel) (Parser.assignment (fuel + 1))
  logicalOr : ParserM.Le (Parser.logicalOr fuel) (Parser.logicalOr (fuel + 1))
  logicalOrLoop : ∀ acc, ParserM.Le (Parser.logicalOrLoop fuel acc) (Parser.logicalOrLoop (fuel + 1) acc)
  logicalAnd : ParserM.Le (Parser.logicalAnd fuel) (Parser.logicalAnd (fuel + 1))
  logicalAndLoop : ∀ acc, ParserM.Le (Parser.logicalAndLoop fuel acc) (Parser.logicalAndLoop (fuel + 1) acc)
  equality : ParserM.Le (Parser.equality fuel) (Parser.equality (fuel + 1))
  equalityLoop : ∀ acc, ParserM.Le (Parser.equalityLoop fuel acc) (Parser.equalityLoop (fuel + 1) acc)
  comparison : ParserM.Le (Parser.comparison fuel) (Parser.comparison (fuel + 1))
  comparisonLoop : ∀ acc, ParserM.Le (Parser.comparisonLoop fuel acc) (Parser.comparisonLoop (fuel + 1) acc)
  term : ParserM.Le (Parser.term fuel) (Parser.term (fuel + 1))
  termLoop : ∀ acc, ParserM.Le (Parser.termLoop fuel acc) (Parser.termLoop (fuel + 1) acc)
  factor : ParserM.Le (Parser.factor fuel) (Parser.factor (fuel + 1))
  factorLoop : ∀ acc, ParserM.Le (Parser.factorLoop fuel acc) (Parser.factorLoop (fuel + 1) acc)
  unary : ParserM.Le (Parser.unary fuel) (Parser.unary (fuel + 1))
  call : ParserM.Le (Parser.call fuel) (Parser.call (fuel + 1))
  callLoop : ∀ acc, ParserM.Le (Parser.callLoop fuel acc) (Parser.callLoop (fuel + 1) acc)
  primary : ParserM.Le (Parser.primary fuel) (Parser.primary (fuel + 1))
  arguments : ParserM.Le (Parser.arguments fuel) (Parser.arguments (fuel + 1))
  argumentsLoop : ∀ acc, ParserM.Le (Parser.argumentsLoop fuel acc) (Parser.argumentsLoop (fuel + 1) acc)

/-! ## Recovery -/

/-- The test of the loop of `Parser::synchronize` at the position `q`, which is
not the first: the loop ends at END_OF_FILE, after a SEMICOLON and before one of
the keywords `fun`, `let`, `if`, `while`, `return`, `print`. -/
def Parser.synchronizeStops (ts : List Token) (q : Nat) : Bool :=
  match ts[q]? with
  | none => false
  | some t =>
    t.type == .END_OF_FILE ||
    (match ts[q - 1]? with
      | some t0 => q != 0 && t0.type == .SEMICOLON
      | none => false) ||
    (match t.type with
      | .FUN | .LET | .IF | .WHILE | .RETURN | .PRINT => true
      | _ => false)

/-- The result with `f` applied to the value that is returned. -/
def ParseResult.mapOk {α β : Type} (f : α → β) : ParseResult α → ParseResult β
  | .ok a p => .ok (f a) p
  | .exception e p => .exception e p
  | .fault => .fault
  | .timeout => .timeout

/-- The step `m` does what `m0` does and puts `acc` before the list returned. -/
def ParserM.Appends {α : Type} (acc : List α) (m m0 : ParserM (List α)) : Prop :=
  ∀ p, m p = (m0 p).mapOk (fun rest => acc ++ rest)

/-- The tokens of `let = ; print 1`. -/
def recoveryTokens : List Token :=
  [⟨.LET, "let", 1, 1⟩, ⟨.ASSIGN, "=", 1, 6⟩, ⟨.SEMICOLON, ";", 1, 7⟩,
    ⟨.PRINT, "print", 1, 9⟩, ⟨.NUMBER, "1", 1, 15⟩, ⟨.END_OF_FILE, "", 1, 16⟩]

/-- The tokens of `let print 1`. -/
def skippedPrintTokens : List Token :=
  [⟨.LET, "let", 1, 1⟩, ⟨.PRINT, "print", 1, 5⟩, ⟨.NUMBER, "1", 1, 11⟩,
    ⟨.END_OF_FILE, "", 1, 12⟩]

/-! ## The text of a number, read back -/

/-- The text of the six digits `m` at the decimal exponent `x`: the part of
`formatPositive` that lays the digits out. -/
def formatDigits (m : Nat) (x : Int) : String :=
  let ds := Nat.toDigits 10 m
  if x < -4 ∨ x ≥ 6 then
    let frac := stripZeros (ds.drop 1)
    let mant := if frac.isEmpty then ds.take 1 else ds.take 1 ++ ['.'] ++ frac
    let ex := Nat.toDigits 10 x.natAbs
    let ex2 := if ex.length < 2 then '0' :: ex else ex
    String.mk (mant ++ ['e', if x < 0 then '-' else '+'] ++ ex2)
  else if x ≥ 0 then
    let frac := stripZeros (ds.drop (x.toNat + 1))
    if frac.isEmpty then String.mk (ds.take (x.toNat + 1))
    else String.mk (ds.take (x.toNat + 1) ++ ['.'] ++ frac)
  else
    String.mk (['0', '.'] ++ List.replicate ((-x).toNat - 1) '0' ++ stripZeros ds)

/-- The condition of the round trip on a text: a digit followed by digits and
dots only, which is what `Lexer::makeNumber` reads as one NUMBER token. -/
def validNumberText (cs : List Char) : Bool :=
  match cs with
  | [] => false
  | c :: rest => c.isDigit && rest.all (fun ch => ch.isDigit || ch == '.')

/-- The positive rational `n / d` rounded to six significant decimal digits,
ties to even. -/
def roundSix (n d : Nat) : ℚ :=
  (sixDigits n d (decimalExponent n d) : ℚ) * (10 : ℚ) ^ (decimalExponent n d - 5)

/-! # Theorems -/

/-! ## The parser on function declarations -/

/-- C1 (the code departs from the claim): a function declaration with an empty
body that is followed directly by END_OF_FILE does not parse.  For every name
and all token positions, parsing `fun NAME ( ) { }` reports
`Expected '}' after block` and returns a program without statements: the
opening brace is read as a nested block statement, whose closing brace is then
missing for the body.  With a second closing brace the declaration does parse,
and its body is the one statement `Block []`.  The same happens on the tokens of
scenario 3, which give a program of zero statements instead of two. -/
theorem functionDeclaration_closed_body_is_rejected :
    (∀ (fuel : Nat) (name : String) (l1 l2 l3 l4 l5 l6 l7 c1 c2 c3 c4 c5 c6 c7 : Nat),
      Parser.parse (fuel + 20)
        [⟨.FUN, "fun", l1, c1⟩, ⟨.IDENTIFIER, name, l2, c2⟩, ⟨.LEFT_PAREN, "(", l3, c3⟩,
         ⟨.RIGHT_PAREN, ")", l4, c4⟩, ⟨.LEFT_BRACE, "\x7b", l5, c5⟩,
         ⟨.RIGHT_BRACE, "\x7d", l6, c6⟩, ⟨.END_OF_FILE, "", l7, c7⟩] =
      .ok { statements := [] }
        { tokens :=
            [⟨.FUN, "fun", l1, c1⟩, ⟨.IDENTIFIER, name, l2, c2⟩, ⟨.LEFT_PAREN, "(", l3, c3⟩,
             ⟨.RIGHT_PAREN, ")", l4, c4⟩, ⟨.LEFT_BRACE, "\x7b", l5, c5⟩,
             ⟨.RIGHT_BRACE, "\x7d", l6, c6⟩, ⟨.END_OF_FILE, "", l7, c7⟩],
          current := 6,
          cerr := ["Parse error: " ++
            ("Parse error at line " ++ toString l7 ++ ": " ++ "Expected '\x7d' after block")] }) ∧
    (∀ (fuel : Nat) (name : String)
      (l1 l2 l3 l4 l5 l6 l7 l8 c1 c2 c3 c4 c5 c6 c7 c8 : Nat),
      Parser.parse (fuel + 20)
        [⟨.FUN, "fun", l1, c1⟩, ⟨.IDENTIFIER, name, l2, c2⟩, ⟨.LEFT_PAREN, "(", l3, c3⟩,
         ⟨.RIGHT_PAREN, ")", l4, c4⟩, ⟨.LEFT_BRACE, "\x7b", l5, c5⟩,
         ⟨.RIGHT_BRACE, "\x7d", l6, c6⟩, ⟨.RIGHT_BRACE, "\x7d", l7, c7⟩,
         ⟨.END_OF_FILE, "", l8, c8⟩] =
      .ok { statements := [.functionDeclaration name [] [.block []]] }
        { tokens :=
            [⟨.FUN, "fun", l1, c1⟩, ⟨.IDENTIFIER, name, l2, c2⟩, ⟨.LEFT_PAREN, "(", l3, c3⟩,
             ⟨.RIGHT_PAREN, ")", l4, c4⟩, ⟨.LEFT_BRACE, "\x7b", l5, c5⟩,
             ⟨.RIGHT_BRACE, "\x7d", l6, c6⟩, ⟨.RIGHT_BRACE, "\x7d", l7, c7⟩,
             ⟨.END_OF_FILE, "", l8, c8⟩],
          current := 7,
          cerr := [] }) ∧
    lex "fun fib(n) \x7b if (n < 2) return n; return fib(n - 1) + fib(n - 2); \x7d print fib(10)"
      = fibTokens ∧
    (Parser.parse 60 fibTokens).summary =
      some (0, 36, ["Parse error: Parse error at line 1: Expected '\x7d' after block"]) := by
  refine ⟨fun _ _ _ _ _ _ _ _ _ _ _ _ _ _ _ _ => rfl,
    fun _ _ _ _ _ _ _ _ _ _ _ _ _ _ _ _ _ _ => rfl, ?_, ?_⟩
  · decide!
  · decide!

/-- C2 (the code departs from the claim): the tokens of scenario 4 do not parse.
The parser reports `Expected '}' after block` and returns an empty program, so
running the source text in a fresh interpreter prints nothing: no `1`, `2`,
`3`, and one parse error on `std::cerr`.  The evaluator is not the cause: on
the syntax tree that the text is meant to have it prints `1`, `2`, `3`. -/
theorem counter_scenario_prints_nothing :
    lex counterSource = counterTokens ∧
    (Parser.parse 60 counterTokens).summary =
      some (0, 48, ["Parse error: Parse error at line 1: Expected '\x7d' after block"]) ∧
    (run 60 counterSource (Interpreter.new Host.simple)).summary =
      some ([], ["Parse error: Parse error at line 1: Expected '\x7d' after block"], 0) ∧
    (Interpreter.interpret 40 counterProgram (Interpreter.new Host.simple)).summary =
      some (["1", "2", "3"], [], 0) := by
  refine ⟨?_, ?_, ?_, ?_⟩
  · decide!
  · decide!
  · decide!
  · decide!

/-! ## Environments -/

theorem mapFind_mapSet_self (m : List (String × Value)) (name : String) (value : Value) :
    mapFind (mapSet m name value) name = some value := by
  induction m with
  | nil => simp [mapSet, mapFind]
  | cons kv rest ih =>
    obtain ⟨k, v⟩ := kv
    by_cases h : k = name
    · simp [mapSet, mapFind, h]
    · simp [mapSet, mapFind, h, ih]

theorem mapFind_mapSet_other (m : List (String × Value)) (name other : String) (value : Value)
    (h : other ≠ name) : mapFind (mapSet m name value) other = mapFind m other := by
  induction m with
  | nil => simp [mapSet, mapFind, h.symm]
  | cons kv rest ih =>
    obtain ⟨k, v⟩ := kv
    by_cases hk : k = name
    · subst hk
      simp [mapSet, mapFind, h.symm]
    · by_cases ho : k = other
      · subst ho
        simp [mapSet, mapFind, h]
      · simp [mapSet, mapFind, hk, ho, ih]

/-- With enough fuel, `getFrom` returns the first binding on the chain. -/
theorem Environment.getFrom_eq_findSome (heap : Heap) (hwf : Heap.WellFormed heap)
    (name : String) :
    ∀ (fuel ref : Nat), ref < fuel → ref < heap.length →
      Environment.getFrom heap fuel ref name =
        match (Environment.chainFrom heap fuel ref).findSome? (Environment.binding heap name) with
        | some value => .ok value
        | none => .runtime_error ("Undefined variable '" ++ name ++ "'") := by
  intro fuel
  induction fuel with
  | zero => intro ref h; omega
  | succ fuel ih =>
    intro ref hfuel href
    obtain ⟨env, henv⟩ : ∃ env, heap[ref]? = some env := by
      simp [List.getElem?_eq_getElem href]
    cases hfind : mapFind env.values name with
    | some value =>
      cases hpar : env.enclosing with
      | none => simp [Environment.getFrom, Environment.chainFrom, henv, hfind, hpar,
          Environment.binding]
      | some parent => simp [Environment.getFrom, Environment.chainFrom, henv, hfind, hpar,
          Environment.binding]
    | none =>
      cases hpar : env.enclosing with
      | none => simp [Environment.getFrom, Environment.chainFrom, henv, hfind, hpar,
          Environment.binding]
      | some parent =>
        have hlt : parent < ref := hwf ref env henv parent hpar
        have := ih parent (by omega) (by omega)
        simp [Environment.getFrom, Environment.chainFrom, henv, hfind, hpar,
          Environment.binding, this]

/-- With enough fuel, the chain starts at `ref`, follows the enclosing
references and ends at a frame without enclosing frame. -/
theorem Environment.chainFrom_linked (heap : Heap) (hwf : Heap.WellFormed heap) :
    ∀ (fuel ref : Nat), ref < fuel → ref < heap.length →
      (Environment.chainFrom heap fuel ref).head? = some ref ∧
      List.Chain' (fun a b => Environment.parent heap a = some b)
        (Environment.chainFrom heap fuel ref) ∧
      ∀ last, (Environment.chainFrom heap fuel ref).getLast? = some last →
        Environment.parent heap last = none := by
  intro fuel
  induction fuel with
  | zero => intro ref h; omega
  | succ fuel ih =>
    intro ref hfuel href
    obtain ⟨env, henv⟩ : ∃ env, heap[ref]? = some env := by
      simp [List.getElem?_eq_getElem href]
    cases hpar : env.enclosing with
    | none =>
      simp [Environment.chainFrom, henv, hpar, Environment.parent]
    | some parent =>
      have hlt : parent < ref := hwf ref env henv parent hpar
      obtain ⟨h1, h2, h3⟩ := ih parent (by omega) (by omega)
      have hne : Environment.chainFrom heap fuel parent ≠ [] := by
        intro h
        rw [h] at h1
        simp at h1
      refine ⟨by simp [Environment.chainFrom, henv, hpar], ?_, ?_⟩
      · simp only [Environment.chainFrom, henv, hpar]
        rw [List.chain'_cons']
        refine ⟨?_, h2⟩
        intro y hy
        rw [h1] at hy
        simp at hy
        subst hy
        simp [Environment.parent, henv, hpar]
      · intro last hlast
        apply h3
        simp only [Environment.chainFrom, henv, hpar] at hlast
        obtain ⟨c, cs, hcs⟩ := List.exists_cons_of_ne_nil hne
        rw [hcs] at hlast ⊢
        simpa [List.getLast?_cons_cons] using hlast

/-- Overwriting the values of one frame keeps every enclosing reference, so the
chains stay the same. -/
theorem Environment.chainFrom_set (heap : Heap) (i : Nat) (env : Environment)
    (values : List (String × Value)) (henv : heap[i]? = some env) :
    ∀ (fuel ref : Nat),
      Environment.chainFrom (heap.set i { env with values := values }) fuel ref =
        Environment.chainFrom heap fuel ref := by
  intro fuel
  induction fuel with
  | zero => intro ref; rfl
  | succ fuel ih =>
    intro ref
    have hi : i < heap.length := by
      rcases Nat.lt_or_ge i heap.length with h | h
      · exact h
      · rw [List.getElem?_eq_none h] at henv
        cases henv
    by_cases hri : ref = i
    · subst hri
      simp [Environment.chainFrom, henv, List.getElem?_set_self, hi, ih]
    · have : (heap.set i { env with values := values })[ref]? = heap[ref]? := by
        rw [List.getElem?_set_ne (Ne.symm hri)]
      simp only [Environment.chainFrom, this, ih]

/-- With enough fuel, `assignFrom` overwrites the binding in the first frame of
the chain that binds the name, and a lookup from the same frame then finds the
new value. -/
theorem Environment.assignFrom_found (heap : Heap) (hwf : Heap.WellFormed heap)
    (name : String) (value : Value) :
    ∀ (fuel ref i : Nat), ref < fuel → ref < heap.length →
      (Environment.chainFrom heap fuel ref).find?
        (fun r => (Environment.binding heap name r).isSome) = some i →
      ∃ env, heap[i]? = some env ∧
        Environment.assignFrom heap fuel ref name value =
          .ok (heap.set i { env with values := mapSet env.values name value }) ∧
        Environment.getFrom (heap.set i { env with values := mapSet env.values name value })
          fuel ref name = .ok value := by
  intro fuel
  induction fuel with
  | zero => intro ref i h; omega
  | succ fuel ih =>
    intro ref i hfuel href hfound
    obtain ⟨env, henv⟩ : ∃ env, heap[ref]? = some env := by
      simp [List.getElem?_eq_getElem href]
    cases hfind : mapFind env.values name with
    | some old =>
      have hi : i = ref := by
        cases hpar : env.enclosing <;>
          simp [Environment.chainFrom, henv, hpar, Environment.binding, hfind] at hfound <;>
          omega
      subst hi
      refine ⟨env, henv, ?_, ?_⟩
      · simp [Environment.assignFrom, henv, hfind]
      · simp [Environment.getFrom, List.getElem?_set_self, href, mapFind_mapSet_self]
    | none =>
      cases hpar : env.enclosing with
      | none =>
        simp [Environment.chainFrom, henv, hpar, Environment.binding, hfind] at hfound
      | some parent =>
        have hlt : parent < ref := hwf ref env henv parent hpar
        simp only [Environment.chainFrom, henv, hpar] at hfound
        rw [List.find?_cons_of_neg] at hfound
        swap
        · simp [Environment.binding, henv, hfind]
        obtain ⟨envi, henvi, hassign, hget⟩ := ih parent i (by omega) (by omega) hfound
        refine ⟨envi, henvi, ?_, ?_⟩
        · simp [Environment.assignFrom, henv, hfind, hpar, hassign]
        · have hne : i ≠ ref := by
            intro h
            subst h
            have hb := List.find?_some hfound
            simp [Environment.binding, henv, hfind] at hb
          have hsame : (heap.set i { envi with values := mapSet envi.values name value })[ref]?
              = some env := by
            rw [List.getElem?_set_ne hne]
            exact henv
          simp [Environment.getFrom, hsame, hfind, hpar, hget]

theorem exampleHeap_wellFormed : Heap.WellFormed exampleHeap := by
  intro ref env henv parent hpar
  rcases ref with _ | _ | _ | ref
  · simp [exampleHeap] at henv
    subst henv
    simp at hpar
  · simp [exampleHeap] at henv
    subst henv
    simp at hpar
    omega
  · simp [exampleHeap] at henv
    subst henv
    simp at hpar
    omega
  · simp [exampleHeap] at henv

/-- C9: in a well-formed heap the chain of the environment `ref` starts at
`ref`, follows the enclosing references and ends at a frame without enclosing
frame; `Environment::get` returns the value that the innermost frame of this
chain binding `name` gives it, and it raises `Undefined variable 'NAME'` exactly
when no frame of the chain binds `name`.  Every heap the interpreter builds is
well-formed (`Interpreter.valid_reachable`). -/
theorem Environment.get_returns_innermost_binding (heap : Heap)
    (hwf : Heap.WellFormed heap) (ref : Nat) (href : ref < heap.length) (name : String) :
    (Environment.chain heap ref).head? = some ref ∧
    List.Chain' (fun a b => Environment.parent heap a = some b) (Environment.chain heap ref) ∧
    (∀ last, (Environment.chain heap ref).getLast? = some last →
      Environment.parent heap last = none) ∧
    (∀ value,
      (Environment.chain heap ref).findSome? (Environment.binding heap name) = some value →
      Environment.get heap ref name = .ok value) ∧
    (Environment.get heap ref name = .runtime_error ("Undefined variable '" ++ name ++ "'") ↔
      ∀ r ∈ Environment.chain heap ref, Environment.binding heap name r = none) := by
  obtain ⟨h1, h2, h3⟩ := Environment.chainFrom_linked heap hwf heap.length ref href href
  have hget := Environment.getFrom_eq_findSome heap hwf name heap.length ref href href
  refine ⟨h1, h2, h3, ?_, ?_⟩
  · intro value hv
    unfold Environment.get
    unfold Environment.chain at hv
    rw [hget, hv]
  · unfold Environment.get Environment.chain
    rw [hget]
    cases hf : (Environment.chainFrom heap heap.length ref).findSome?
        (Environment.binding heap name) with
    | none =>
      simp only [true_iff]
      intro r hr
      exact (List.findSome?_eq_none_iff.mp hf) r hr
    | some value =>
      constructor
      · intro h
        cases h
      · intro h
        rw [List.findSome?_eq_none_iff.mpr h] at hf
        cases hf

/-- C9, on the example frames: from frame 2 the name `y` resolves to the binding
of frame 1, not to the global one. -/
theorem Environment.get_returns_innermost_binding_witness :
    Environment.get exampleHeap 2 "y" = .ok (.string "inner y") :=
  (Environment.get_returns_innermost_binding exampleHeap exampleHeap_wellFormed 2
    (by decide) "y").2.2.2.1 (.string "inner y") (by decide)

/-- C10: in a well-formed heap, when some frame of the chain of `ref` binds
`name`, `Environment::assign` succeeds; the new heap has the same frames with
the same enclosing references, the innermost frame `i` of the chain that binds
`name` now binds it to the value, every other binding of every frame (other
names in frame `i`, all names in all other frames, outer bindings of `name`
included) is unchanged, and `Environment::get` then returns the value.  Every
heap the interpreter builds is well-formed (`Interpreter.valid_reachable`). -/
theorem Environment.assign_overwrites_innermost_binding (heap : Heap)
    (hwf : Heap.WellFormed heap) (ref : Nat) (href : ref < heap.length) (name : String)
    (value : Value)
    (hbound : ∃ r ∈ Environment.chain heap ref, (Environment.binding heap name r).isSome) :
    ∃ (i : Nat) (heap' : Heap),
      (Environment.chain heap ref).find?
        (fun r => (Environment.binding heap name r).isSome) = some i ∧
      Environment.assign heap ref name value = .ok heap' ∧
      heap'.length = heap.length ∧
      (∀ r, Environment.parent heap' r = Environment.parent heap r) ∧
      Environment.binding heap' name i = some value ∧
      (∀ r other, (r ≠ i ∨ other ≠ name) →
        Environment.binding heap' other r = Environment.binding heap other r) ∧
      Environment.get heap' ref name = .ok value := by
  obtain ⟨r0, hr0, hb0⟩ := hbound
  cases hfound : (Environment.chain heap ref).find?
      (fun r => (Environment.binding heap name r).isSome) with
  | none =>
    have := List.find?_eq_none.mp hfound r0 hr0
    simp [hb0] at this
  | some i =>
    obtain ⟨env, henv, hassign, hget⟩ :=
      Environment.assignFrom_found heap hwf name value heap.length ref i href href hfound
    have hi : i < heap.length := by
      rcases Nat.lt_or_ge i heap.length with h | h
      · exact h
      · rw [List.getElem?_eq_none h] at henv
        cases henv
    refine ⟨i, heap.set i { env with values := mapSet env.values name value }, rfl, hassign,
      by simp, ?_, ?_, ?_, ?_⟩
    · intro r
      by_cases hri : r = i
      · subst hri
        simp [Environment.parent, List.getElem?_set_self, hi, henv]
      · simp [Environment.parent, List.getElem?_set_ne (Ne.symm hri)]
    · simp [Environment.binding, List.getElem?_set_self, hi, mapFind_mapSet_self]
    · intro r other hor
      by_cases hri : r = i
      · subst hri
        have hne : other ≠ name := by
          rcases hor with h | h
          · exact absurd rfl h
          · exact h
        simp [Environment.binding, List.getElem?_set_self, hi, henv,
          mapFind_mapSet_other _ _ _ _ hne]
      · simp [Environment.binding, List.getElem?_set_ne (Ne.symm hri)]
    · unfold Environment.get
      rw [List.length_set]
      exact hget

/-- C10, on the example frames: assigning `y` from frame 2 overwrites the
binding of frame 1 and leaves the global `y` alone. -/
theorem Environment.assign_overwrites_innermost_binding_witness :
    ∃ (i : Nat) (heap' : Heap),
      (Environment.chain exampleHeap 2).find?
        (fun r => (Environment.binding exampleHeap "y" r).isSome) = some i ∧
      Environment.assign exampleHeap 2 "y" (.bool true) = .ok heap' ∧
      heap'.length = exampleHeap.length ∧
      (∀ r, Environment.parent heap' r = Environment.parent exampleHeap r) ∧
      Environment.binding heap' "y" i = some (.bool true) ∧
      (∀ r other, (r ≠ i ∨ other ≠ "y") →
        Environment.binding heap' other r = Environment.binding exampleHeap other r) ∧
      Environment.get heap' 2 "y" = .ok (.bool true) :=
  Environment.assign_overwrites_innermost_binding exampleHeap exampleHeap_wellFormed 2
    (by decide) "y" (.bool true) ⟨1, by decide, by decide⟩

/-! ## The current environment is restored -/

theorem InterpM.preserves_pure {α : Type} (a : α) : InterpM.Preserves (pure a : InterpM α) := by
  intro st st' h
  change some st = some st' at h
  cases h
  exact ⟨rfl, rfl⟩

theorem InterpM.preserves_ite {α : Type} (c : Prop) [Decidable c] (a b : InterpM α)
    (ha : InterpM.Preserves a) (hb : InterpM.Preserves b) :
    InterpM.Preserves (if c then a else b) := by
  split
  · exact ha
  · exact hb

theorem InterpM.preserves_bind {α β : Type} (m : InterpM α) (f : α → InterpM β)
    (hm : InterpM.Preserves m) (hf : ∀ a, InterpM.Preserves (f a)) :
    InterpM.Preserves (m >>= f) := by
  intro st st' h
  have hm' := hm st
  change (InterpM.bind m f st).finalState? = some st' at h
  unfold InterpM.bind at h
  cases hr : m st with
  | ok a st1 =>
    rw [hr] at h hm'
    have h1 := hm' st1 rfl
    have h2 := hf a st1 st' h
    exact ⟨h2.1.trans h1.1, h2.2.trans h1.2⟩
  | exception e st1 =>
    rw [hr] at h hm'
    simp only [Outcome.finalState?, Option.some.injEq] at h
    subst h
    exact hm' st1 rfl
  | fault => rw [hr] at h; cases h
  | timeout => rw [hr] at h; cases h

theorem InterpM.preserves_runtimeError {α : Type} (what : String) :
    InterpM.Preserves (InterpM.runtimeError what : InterpM α) := by
  intro st st' h
  simp [InterpM.runtimeError, Outcome.finalState?] at h
  subst h
  exact ⟨rfl, rfl⟩

theorem InterpM.preserves_onEnvironment (op : Heap → Nat → EnvResult Heap) :
    InterpM.Preserves (InterpM.onEnvironment op) := by
  intro st st' h
  unfold InterpM.onEnvironment at h
  cases hr : op st.heap st.environment <;> rw [hr] at h <;>
    simp [Outcome.finalState?] at h <;> subst h <;> exact ⟨rfl, rfl⟩

theorem Interpreter.preserves_setLastValue (value : Value) :
    InterpM.Preserves (Interpreter.setLastValue value) := by
  intro st st' h
  simp [Interpreter.setLastValue, Outcome.finalState?] at h
  subst h
  exact ⟨rfl, rfl⟩

theorem Interpreter.preserves_lookup (name : String) :
    InterpM.Preserves (Interpreter.lookup name) := by
  intro st st' h
  unfold Interpreter.lookup at h
  cases hr : Environment.get st.heap st.environment name <;> rw [hr] at h <;>
    simp [Outcome.finalState?] at h <;> subst h <;> exact ⟨rfl, rfl⟩

theorem Interpreter.preserves_define (name : String) (value : Value) :
    InterpM.Preserves (Interpreter.define name value) :=
  InterpM.preserves_onEnvironment _

theorem Interpreter.preserves_assign (name : String) (value : Value) :
    InterpM.Preserves (Interpreter.assign name value) :=
  InterpM.preserves_onEnvironment _

theorem Interpreter.preserves_checkNumberOperand (op : String) (v : Value) :
    InterpM.Preserves (Interpreter.checkNumberOperand op v) := by
  cases v <;> exact InterpM.preserves_pure ()

theorem Interpreter.preserves_checkNumberOperands (op : String) (l r : Value) :
    InterpM.Preserves (Interpreter.checkNumberOperands op l r) := by
  cases l <;> cases r <;> exact InterpM.preserves_pure ()

theorem Interpreter.preserves_checked (op : String) (l r : Value) (f : Unit → InterpM Value)
    (hf : ∀ u, InterpM.Preserves (f u)) :
    InterpM.Preserves (Interpreter.checkNumberOperands op l r >>= f) :=
  InterpM.preserves_bind _ _ (Interpreter.preserves_checkNumberOperands _ _ _) hf

theorem Interpreter.preserves_visitBinary (leftNode : Expr) (op : String) (l r : Value) :
    InterpM.Preserves (Interpreter.visitBinary leftNode op l r) := by
  unfold Interpreter.visitBinary
  repeat' apply InterpM.preserves_ite
  all_goals first
    | exact Interpreter.preserves_setLastValue _
    | exact InterpM.preserves_runtimeError _
    | exact Interpreter.preserves_checked _ _ _ _ (fun _ => Interpreter.preserves_setLastValue _)
    | exact Interpreter.preserves_checked _ _ _ _ (fun _ =>
        InterpM.preserves_ite _ _ _ (InterpM.preserves_runtimeError _)
          (Interpreter.preserves_setLastValue _))
    | skip
  · cases leftNode <;> first
      | exact InterpM.preserves_runtimeError _
      | exact InterpM.preserves_bind _ _ (Interpreter.preserves_assign _ _)
          (fun _ => Interpreter.preserves_setLastValue _)
  · cases l <;> cases r <;> first
      | exact Interpreter.preserves_setLastValue _
      | exact InterpM.preserves_runtimeError _

theorem Interpreter.preserves_visitUnary (op : String) (r : Value) :
    InterpM.Preserves (Interpreter.visitUnary op r) := by
  unfold Interpreter.visitUnary
  repeat' apply InterpM.preserves_ite
  all_goals first
    | exact Interpreter.preserves_setLastValue _
    | exact InterpM.preserves_runtimeError _
    | exact InterpM.preserves_bind _ _ (Interpreter.preserves_checkNumberOperand _ _)
        (fun _ => Interpreter.preserves_setLastValue _)

theorem Interpreter.preserves_callNative (name : String) (arguments : List Value) :
    InterpM.Preserves (Interpreter.callNative name arguments) := by
  intro st st' h
  unfold Interpreter.callNative at h
  repeat' split at h
  all_goals
    simp [Outcome.finalState?] at h
  all_goals
    subst h
    exact ⟨rfl, rfl⟩

theorem Interpreter.preserves_visitPrint (value : Value) :
    InterpM.Preserves (Interpreter.visitPrint value) := by
  intro st st' h
  unfold Interpreter.visitPrint at h
  split at h <;> simp [Outcome.finalState?] at h
  subst h
  exact ⟨rfl, rfl⟩

theorem Interpreter.preserves_newEnvironment (parent : Nat) :
    InterpM.Preserves (Interpreter.newEnvironment parent) := by
  intro st st' h
  simp [Interpreter.newEnvironment, Outcome.finalState?] at h
  subst h
  exact ⟨rfl, rfl⟩

theorem Interpreter.preserves_visitFunctionDeclaration (name : String)
    (parameters : List String) (body : List Stmt) :
    InterpM.Preserves (Interpreter.visitFunctionDeclaration name parameters body) := by
  intro st st' h
  exact Interpreter.preserves_define name (.callable st.callables.length)
    { st with callables := st.callables ++ [.function name parameters body st.environment] }
    st' h

theorem Interpreter.preserves_bindParameters (env : Nat) :
    ∀ (parameters : List String) (arguments : List Value),
      InterpM.Preserves (Interpreter.bindParameters env parameters arguments) := by
  intro parameters
  induction parameters with
  | nil =>
    intro arguments
    cases arguments <;> exact InterpM.preserves_pure ()
  | cons p ps ih =>
    intro arguments
    cases arguments with
    | nil =>
      intro st st' h
      simp [Interpreter.bindParameters, Outcome.finalState?] at h
    | cons a as =>
      exact InterpM.preserves_bind _ _ (InterpM.preserves_onEnvironment _) (fun _ => ih as)

theorem Interpreter.preserves_evaluateArguments (evaluate : Expr → InterpM Value)
    (hev : ∀ e, InterpM.Preserves (evaluate e)) :
    ∀ (args : List Expr) (acc : List Value),
      InterpM.Preserves (Interpreter.evaluateArguments evaluate args acc) := by
  intro args
  induction args with
  | nil => intro acc; exact InterpM.preserves_pure acc
  | cons a rest ih =>
    intro acc
    exact InterpM.preserves_bind _ _ (hev a) (fun _ => ih _)

theorem Interpreter.preserves_executeStatements (execute : Stmt → InterpM Unit)
    (hex : ∀ s, InterpM.Preserves (execute s)) :
    ∀ (statements : List Stmt),
      InterpM.Preserves (Interpreter.executeStatements execute statements) := by
  intro statements
  induction statements with
  | nil => exact InterpM.preserves_pure ()
  | cons s rest ih => exact InterpM.preserves_bind _ _ (hex s) (fun _ => ih)

/-- `executeBlock` puts the previous environment reference back on every exit
path, whatever the statements do to it. -/
theorem Interpreter.executeBlock_environment (execute : Stmt → InterpM Unit)
    (statements : List Stmt) (env : Nat) (st st' : Interpreter)
    (h : (Interpreter.executeBlock execute statements env st).finalState? = some st') :
    st'.environment = st.environment := by
  unfold Interpreter.executeBlock at h
  cases hr : Interpreter.executeStatements execute statements { st with environment := env } <;>
    simp [hr, Outcome.finalState?] at h
  all_goals
    subst h
    rfl

theorem Interpreter.preserves_executeBlock (execute : Stmt → InterpM Unit)
    (hex : ∀ s, InterpM.Preserves (execute s)) (statements : List Stmt) (env : Nat) :
    InterpM.Preserves (Interpreter.executeBlock execute statements env) := by
  intro st st' h
  refine ⟨Interpreter.executeBlock_environment execute statements env st st' h, ?_⟩
  have hin := Interpreter.preserves_executeStatements execute hex statements
    { st with environment := env }
  unfold Interpreter.executeBlock at h
  cases hr : Interpreter.executeStatements execute statements { st with environment := env } <;>
    simp [hr, Outcome.finalState?] at h
  all_goals
    rw [hr] at hin
    subst h
    exact (hin _ rfl).2

theorem Interpreter.preserves_callFunction (execute : Stmt → InterpM Unit)
    (hex : ∀ s, InterpM.Preserves (execute s)) (parameters : List String) (body : List Stmt)
    (closure : Nat) (arguments : List Value) :
    InterpM.Preserves (Interpreter.callFunction execute parameters body closure arguments) := by
  have hinner : InterpM.Preserves (do
      let environment ← Interpreter.newEnvironment closure
      Interpreter.bindParameters environment parameters arguments
      Interpreter.executeBlock execute body environment : InterpM Unit) :=
    InterpM.preserves_bind _ _ (Interpreter.preserves_newEnvironment _) (fun _ =>
      InterpM.preserves_bind _ _ (Interpreter.preserves_bindParameters _ _ _) (fun _ =>
        Interpreter.preserves_executeBlock execute hex body _))
  intro st st' h
  have hin := hinner st
  unfold Interpreter.callFunction at h
  split at h <;> rename_i heq <;> rw [heq] at hin <;>
    simp [Outcome.finalState?] at h
  all_goals
    subst h
    exact hin _ rfl

theorem Interpreter.preserves_visitCall (execute : Stmt → InterpM Unit)
    (hex : ∀ s, InterpM.Preserves (execute s)) (callee : Value) (arguments : List Value) :
    InterpM.Preserves (Interpreter.visitCall execute callee arguments) := by
  unfold Interpreter.visitCall
  split
  · intro st st' h
    simp only at h
    split at h
    · cases h
    · rename_i callable _
      split at h
      · simp [Outcome.finalState?] at h
        subst h
        exact ⟨rfl, rfl⟩
      · have hc : InterpM.Preserves (Interpreter.callCallable execute callable arguments) := by
          unfold Interpreter.callCallable
          split
          · exact Interpreter.preserves_callFunction execute hex _ _ _ _
          · exact Interpreter.preserves_callNative _ _
        exact InterpM.preserves_bind _ _ hc (fun _ => Interpreter.preserves_setLastValue _) st st' h
  · exact InterpM.preserves_runtimeError _

/-- Every evaluation of an expression, every execution of a statement and every
loop leaves the `environment` and `globals` references as it found them, on
every exit path. -/
theorem Interpreter.preserves_all :
    ∀ fuel : Nat,
      (∀ e, InterpM.Preserves (Interpreter.evaluate fuel e)) ∧
      (∀ s, InterpM.Preserves (Interpreter.execute fuel s)) ∧
      (∀ c b, InterpM.Preserves (Interpreter.whileLoop fuel c b)) := by
  intro fuel
  induction fuel with
  | zero =>
    refine ⟨?_, ?_, ?_⟩
    · intro e st st' h
      simp [Interpreter.evaluate, Outcome.finalState?] at h
    · intro s st st' h
      simp [Interpreter.execute, Outcome.finalState?] at h
    · intro c b st st' h
      simp [Interpreter.whileLoop, Outcome.finalState?] at h
  | succ fuel ih =>
    obtain ⟨ihe, ihs, ihw⟩ := ih
    refine ⟨?_, ?_, ?_⟩
    · intro e
      cases e with
      | literal value =>
        simp only [Interpreter.evaluate]
        exact Interpreter.preserves_setLastValue _
      | identifier name =>
        simp only [Interpreter.evaluate]
        exact InterpM.preserves_bind _ _ (Interpreter.preserves_lookup _)
          (fun _ => Interpreter.preserves_setLastValue _)
      | binary left op right =>
        simp only [Interpreter.evaluate]
        exact InterpM.preserves_bind _ _ (ihe _) (fun _ =>
          InterpM.preserves_bind _ _ (ihe _) (fun _ => Interpreter.preserves_visitBinary _ _ _ _))
      | unary op operand =>
        simp only [Interpreter.evaluate]
        exact InterpM.preserves_bind _ _ (ihe _) (fun _ => Interpreter.preserves_visitUnary _ _)
      | call callee arguments =>
        simp only [Interpreter.evaluate]
        exact InterpM.preserves_bind _ _ (ihe _) (fun _ =>
          InterpM.preserves_bind _ _ (Interpreter.preserves_evaluateArguments _ ihe _ _)
            (fun _ => Interpreter.preserves_visitCall _ ihs _ _))
    · intro s
      cases s with
      | expression e =>
        simp only [Interpreter.execute]
        exact InterpM.preserves_bind _ _ (ihe _) (fun _ => InterpM.preserves_pure ())
      | varDeclaration name init =>
        simp only [Interpreter.execute]
        cases init with
        | none =>
          exact InterpM.preserves_bind _ _ (InterpM.preserves_pure _)
            (fun _ => Interpreter.preserves_define _ _)
        | some e =>
          exact InterpM.preserves_bind _ _ (ihe e) (fun _ => Interpreter.preserves_define _ _)
      | block statements =>
        simp only [Interpreter.execute]
        refine InterpM.preserves_bind _ _ ?_ (fun _ =>
          Interpreter.preserves_executeBlock _ ihs _ _)
        intro st
        exact Interpreter.preserves_newEnvironment _ st
      | ifStatement condition thenBranch elseBranch =>
        simp only [Interpreter.execute]
        refine InterpM.preserves_bind _ _ (ihe _) (fun c => ?_)
        split
        · exact ihs _
        · cases elseBranch with
          | none => exact InterpM.preserves_pure ()
          | some s => exact ihs s
      | whileStatement condition body =>
        simp only [Interpreter.execute]
        exact ihw _ _
      | functionDeclaration name parameters body =>
        simp only [Interpreter.execute]
        exact Interpreter.preserves_visitFunctionDeclaration _ _ _
      | returnStatement value =>
        simp only [Interpreter.execute]
        have hthrow : ∀ v : Value, InterpM.Preserves
            (fun st => Outcome.exception (Exception.ReturnException v) st : InterpM Unit) := by
          intro v st st' h
          change some st = some st' at h
          cases h
          exact ⟨rfl, rfl⟩
        cases value with
        | none => exact InterpM.preserves_bind _ _ (InterpM.preserves_pure _) hthrow
        | some e => exact InterpM.preserves_bind _ _ (ihe e) hthrow
      | print e =>
        simp only [Interpreter.execute]
        exact InterpM.preserves_bind _ _ (ihe _) (fun _ => Interpreter.preserves_visitPrint _)
    · intro c b
      simp only [Interpreter.whileLoop]
      refine InterpM.preserves_bind _ _ (ihe _) (fun v => ?_)
      split
      · exact InterpM.preserves_bind _ _ (ihs _) (fun _ => ihw _ _)
      · exact InterpM.preserves_pure ()

theorem Outcome.atExit_of_finalState {α : Type} (o : Outcome α) (P : Interpreter → Prop)
    (h : ∀ st', o.finalState? = some st' → P st') : o.AtExit P := by
  cases o with
  | ok a st => exact h st rfl
  | exception e st => exact h st rfl
  | fault => trivial
  | timeout => trivial

/-- C6: `executeBlock` leaves the current-environment reference as it found it
on every exit path (normal completion, a runtime error, a return), for every
statement list, every environment passed to it and every way of executing the
statements; so do the execution of every statement (block statements included)
and the evaluation of every expression (calls included); after `interpret`
returns, with or without a runtime error, the current environment is the one
before, and for a fresh interpreter it is the global environment.  The example
program, which fails inside nested blocks of a function call, ends in the
global frame 0. -/
theorem Interpreter.environment_restored_on_every_exit :
    (∀ (execute : Stmt → InterpM Unit) (statements : List Stmt) (env : Nat) (st : Interpreter),
      (Interpreter.executeBlock execute statements env st).AtExit
        (fun st' => st'.environment = st.environment)) ∧
    (∀ (fuel : Nat) (s : Stmt) (st : Interpreter),
      (Interpreter.execute fuel s st).AtExit (fun st' => st'.environment = st.environment)) ∧
    (∀ (fuel : Nat) (e : Expr) (st : Interpreter),
      (Interpreter.evaluate fuel e st).AtExit (fun st' => st'.environment = st.environment)) ∧
    (∀ (fuel : Nat) (program : Program) (st : Interpreter),
      (Interpreter.interpret fuel program st).AtExit
        (fun st' => st'.environment = st.environment)) ∧
    (∀ (fuel : Nat) (program : Program) (host : Host),
      (Interpreter.interpret fuel program (Interpreter.new host)).AtExit
        (fun st' => st'.environment = st'.globals)) ∧
    (Interpreter.interpret 30 errorInBlockProgram (Interpreter.new Host.simple)).summary =
      some (["in"], ["Runtime error: Undefined variable 'nope'"], 0) := by
  have hinterp : ∀ (fuel : Nat) (program : Program) (st st' : Interpreter),
      (Interpreter.interpret fuel program st).finalState? = some st' →
        st'.environment = st.environment ∧ st'.globals = st.globals := by
    intro fuel program st st' h
    have hp := Interpreter.preserves_executeStatements (Interpreter.execute fuel)
      (Interpreter.preserves_all fuel).2.1 program.statements st
    unfold Interpreter.interpret Interpreter.visitProgram at h
    cases hr : Interpreter.executeStatements (Interpreter.execute fuel) program.statements st with
    | ok a st1 =>
      rw [hr] at hp
      simp [hr, Outcome.finalState?] at h
      subst h
      exact hp st1 rfl
    | exception e st1 =>
      rw [hr] at hp
      simp [hr, Outcome.finalState?] at h
      subst h
      exact hp st1 rfl
    | fault => simp [hr, Outcome.finalState?] at h
    | timeout => simp [hr, Outcome.finalState?] at h
  refine ⟨?_, ?_, ?_, ?_, ?_, ?_⟩
  · intro execute statements env st
    exact Outcome.atExit_of_finalState _ _
      (Interpreter.executeBlock_environment execute statements env st)
  · intro fuel s st
    exact Outcome.atExit_of_finalState _ _
      (fun st' h => ((Interpreter.preserves_all fuel).2.1 s st st' h).1)
  · intro fuel e st
    exact Outcome.atExit_of_finalState _ _
      (fun st' h => ((Interpreter.preserves_all fuel).1 e st st' h).1)
  · intro fuel program st
    exact Outcome.atExit_of_finalState _ _ (fun st' h => (hinterp fuel program st st' h).1)
  · intro fuel program host
    refine Outcome.atExit_of_finalState _ _ (fun st' h => ?_)
    obtain ⟨h1, h2⟩ := hinterp fuel program (Interpreter.new host) st' h
    rw [h1, h2]
    rfl
  · decide!

/-! ## Calls of user functions -/

theorem Interpreter.parameterFrame_absent (name : String) :
    ∀ (parameters : List String) (arguments : List Value) (values : List (String × Value)),
      name ∉ parameters →
      mapFind (Interpreter.parameterFrame values parameters arguments) name =
        mapFind values name := by
  intro parameters
  induction parameters with
  | nil => intro arguments values _; rfl
  | cons p ps ih =>
    intro arguments values hnot
    cases arguments with
    | nil => rfl
    | cons a as =>
      have hp : name ≠ p := fun h => hnot (h ▸ List.mem_cons_self _ _)
      have hps : name ∉ ps := fun h => hnot (List.mem_cons_of_mem _ h)
      simp only [Interpreter.parameterFrame]
      rw [ih as _ hps, mapFind_mapSet_other _ _ _ _ hp]

theorem Interpreter.parameterFrame_last (name : String) (value : Value) :
    ∀ (parameters : List String) (arguments : List Value) (values : List (String × Value))
      (i : Nat), parameters[i]? = some name → arguments[i]? = some value →
      (∀ j, i < j → parameters[j]? ≠ some name) →
      mapFind (Interpreter.parameterFrame values parameters arguments) name = some value := by
  intro parameters
  induction parameters with
  | nil => intro arguments values i h; simp at h
  | cons p ps ih =>
    intro arguments values i hp ha hlast
    cases arguments with
    | nil => simp at ha
    | cons a as =>
      simp only [Interpreter.parameterFrame]
      cases i with
      | zero =>
        simp at hp ha
        subst hp
        subst ha
        have hnot : p ∉ ps := by
          intro hmem
          obtain ⟨j, hj, hjp⟩ := List.getElem_of_mem hmem
          have := hlast (j + 1) (by omega)
          simp [List.getElem?_eq_getElem hj, hjp] at this
        rw [Interpreter.parameterFrame_absent p ps as _ hnot, mapFind_mapSet_self]
      | succ k =>
        simp at hp ha
        apply ih as _ k hp ha
        intro j hj
        have := hlast (j + 1) (by omega)
        simpa using this

theorem Interpreter.bindParameters_eq (enclosing : Option Nat) :
    ∀ (parameters : List String) (arguments : List Value) (values : List (String × Value))
      (heap0 : Heap) (st : Interpreter),
      arguments.length = parameters.length →
      st.heap = heap0 ++ [{ enclosing := enclosing, values := values }] →
      Interpreter.bindParameters heap0.length parameters arguments st =
        .ok () { st with heap := heap0 ++
          [{ enclosing := enclosing,
             values := Interpreter.parameterFrame values parameters arguments }] } := by
  intro parameters
  induction parameters with
  | nil =>
    intro arguments values heap0 st hlen hheap
    cases arguments with
    | nil =>
      simp only [Interpreter.bindParameters, Interpreter.parameterFrame]
      rw [← hheap]
      rfl
    | cons a as => simp at hlen
  | cons p ps ih =>
    intro arguments values heap0 st hlen hheap
    cases arguments with
    | nil => simp at hlen
    | cons a as =>
      have hlen' : as.length = ps.length := by simpa using hlen
      have hdef : Environment.define st.heap heap0.length p a =
          .ok (heap0 ++ [{ enclosing := enclosing, values := mapSet values p a }]) := by
        simp [Environment.define, hheap]
      have hstep : InterpM.onEnvironment
          (fun heap _ => Environment.define heap heap0.length p a) st =
          .ok () { st with
            heap := heap0 ++ [{ enclosing := enclosing, values := mapSet values p a }] } := by
        simp [InterpM.onEnvironment, hdef]
      simp only [Interpreter.bindParameters, Interpreter.parameterFrame]
      change InterpM.bind _ _ st = _
      unfold InterpM.bind
      rw [hstep]
      exact ih as (mapSet values p a) heap0 _ hlen' rfl

theorem Interpreter.callFunction_eq (execute : Stmt → InterpM Unit) (parameters : List String)
    (body : List Stmt) (closure : Nat) (arguments : List Value) (st : Interpreter)
    (hlen : arguments.length = parameters.length) :
    Interpreter.callFunction execute parameters body closure arguments st =
      match Interpreter.executeStatements execute body
          (Interpreter.enterCall st parameters closure arguments) with
      | .ok _ st1 => .ok .nil { st1 with environment := st.environment }
      | .exception (.ReturnException value) st1 =>
        .ok value { st1 with environment := st.environment }
      | .exception e st1 => .exception e { st1 with environment := st.environment }
      | .fault => .fault
      | .timeout => .timeout := by
  have hbind := Interpreter.bindParameters_eq (some closure) parameters arguments [] st.heap
    { st with heap := st.heap ++ [{ enclosing := some closure, values := [] }] } hlen rfl
  have hinner : (do
      let environment ← Interpreter.newEnvironment closure
      Interpreter.bindParameters environment parameters arguments
      Interpreter.executeBlock execute body environment : InterpM Unit) st =
      Interpreter.executeBlock execute body st.heap.length
        { st with heap := st.heap ++
          [{ enclosing := some closure,
             values := Interpreter.parameterFrame [] parameters arguments }] } := by
    change InterpM.bind _ _ st = _
    unfold InterpM.bind
    simp only [Interpreter.newEnvironment]
    change InterpM.bind _ _ _ = _
    unfold InterpM.bind
    rw [hbind]
  unfold Interpreter.callFunction
  rw [hinner]
  unfold Interpreter.executeBlock
  change (match (match Interpreter.executeStatements execute body
      (Interpreter.enterCall st parameters closure arguments) with
    | .ok _ st1 => Outcome.ok () { st1 with environment := st.environment }
    | .exception e st1 => .exception e { st1 with environment := st.environment }
    | .fault => .fault
    | .timeout => .timeout) with
    | .ok _ st1 => Outcome.ok Value.nil st1
    | .exception (.ReturnException value) st1 => .ok value st1
    | .exception e st1 => .exception e st1
    | .fault => .fault
    | .timeout => .timeout) = _
  cases Interpreter.executeStatements execute body
      (Interpreter.enterCall st parameters closure arguments) with
  | ok a st1 => rfl
  | exception e st1 => cases e <;> rfl
  | fault => rfl
  | timeout => rfl

/-- C4 (amended): a call of a user function with as many arguments as
parameters is the execution of the body's statements in the state
`enterCall`: one new frame, whose parent is the captured environment and which
is the current environment, and no further frame for the body.  A body that
completes normally makes the call yield nil, a return makes it yield the
returned value, a runtime error passes through; in each case the caller's
environment is current again.  In the new frame a parameter name is bound to
the argument at the last position where the name occurs in the parameter list
(so, for pairwise different names, each parameter to its argument).  A `let`
as a statement of the body overwrites or adds a binding in that same frame. -/
theorem Interpreter.call_runs_body_in_parameter_frame (execute : Stmt → InterpM Unit)
    (parameters : List String) (body : List Stmt) (closure : Nat) (arguments : List Value)
    (st : Interpreter) (hlen : arguments.length = parameters.length) :
    (Interpreter.callFunction execute parameters body closure arguments st =
      match Interpreter.executeStatements execute body
          (Interpreter.enterCall st parameters closure arguments) with
      | .ok _ st1 => .ok .nil { st1 with environment := st.environment }
      | .exception (.ReturnException value) st1 =>
        .ok value { st1 with environment := st.environment }
      | .exception e st1 => .exception e { st1 with environment := st.environment }
      | .fault => .fault
      | .timeout => .timeout) ∧
    (Interpreter.enterCall st parameters closure arguments).heap.length = st.heap.length + 1 ∧
    (∀ r, r < st.heap.length →
      (Interpreter.enterCall st parameters closure arguments).heap[r]? = st.heap[r]?) ∧
    Environment.parent (Interpreter.enterCall st parameters closure arguments).heap
      (Interpreter.enterCall st parameters closure arguments).environment = some closure ∧
    (∀ (i : Nat) (name : String) (value : Value),
      parameters[i]? = some name → arguments[i]? = some value →
      (∀ j, i < j → parameters[j]? ≠ some name) →
      Environment.binding (Interpreter.enterCall st parameters closure arguments).heap name
        (Interpreter.enterCall st parameters closure arguments).environment = some value) ∧
    (parameters.Nodup → ∀ (i : Nat) (name : String) (value : Value),
      parameters[i]? = some name → arguments[i]? = some value →
      Environment.binding (Interpreter.enterCall st parameters closure arguments).heap name
        (Interpreter.enterCall st parameters closure arguments).environment = some value) ∧
    (∀ (fuel : Nat) (name : String) (value : Value),
      Interpreter.execute (fuel + 2) (.varDeclaration name (some (.literal value)))
          (Interpreter.enterCall st parameters closure arguments) =
        .ok ()
          { Interpreter.enterCall st parameters closure arguments with
            heap := st.heap ++
              [{ enclosing := some closure,
                 values := mapSet (Interpreter.parameterFrame [] parameters arguments)
                   name value }],
            lastValue := value }) := by
  have hbinding : ∀ (name : String),
      Environment.binding (Interpreter.enterCall st parameters closure arguments).heap name
        (Interpreter.enterCall st parameters closure arguments).environment =
      mapFind (Interpreter.parameterFrame [] parameters arguments) name := by
    intro name
    simp [Environment.binding, Interpreter.enterCall]
  have hlast : ∀ (i : Nat) (name : String) (value : Value),
      parameters[i]? = some name → arguments[i]? = some value →
      (∀ j, i < j → parameters[j]? ≠ some name) →
      Environment.binding (Interpreter.enterCall st parameters closure arguments).heap name
        (Interpreter.enterCall st parameters closure arguments).environment = some value := by
    intro i name value hp ha hl
    rw [hbinding]
    exact Interpreter.parameterFrame_last name value parameters arguments [] i hp ha hl
  refine ⟨Interpreter.callFunction_eq execute parameters body closure arguments st hlen,
    by simp [Interpreter.enterCall], ?_, by simp [Environment.parent, Interpreter.enterCall],
    hlast, ?_, ?_⟩
  · intro r hr
    simp [Interpreter.enterCall, List.getElem?_append_left hr]
  · intro hnodup i name value hp ha
    apply hlast i name value hp ha
    intro j hij hj
    have hi : i < parameters.length := by
      rcases Nat.lt_or_ge i parameters.length with h | h
      · exact h
      · rw [List.getElem?_eq_none h] at hp
        cases hp
    have hjl : j < parameters.length := by
      rcases Nat.lt_or_ge j parameters.length with h | h
      · exact h
      · rw [List.getElem?_eq_none h] at hj
        cases hj
    rw [List.getElem?_eq_getElem hi] at hp
    rw [List.getElem?_eq_getElem hjl] at hj
    have heq : parameters[i] = parameters[j] := by
      simp only [Option.some.injEq] at hp hj
      rw [hp, hj]
    have := (List.Nodup.getElem_inj_iff hnodup).mp heq
    omega
  · intro fuel name value
    simp only [Interpreter.execute, Interpreter.evaluate]
    change InterpM.bind _ _ _ = _
    simp [InterpM.bind, Interpreter.setLastValue, Interpreter.define, InterpM.onEnvironment,
      Environment.define, Interpreter.enterCall]

/-- C4, on an example: the call of a two-parameter function with two arguments
is the execution of its body in the state `enterCall`. -/
theorem Interpreter.call_runs_body_in_parameter_frame_witness :
    Interpreter.callFunction (Interpreter.execute 5) ["a", "b"]
        [.returnStatement (some (.identifier "b"))] 0 [.string "x", .string "y"]
        (Interpreter.new Host.simple) =
      match Interpreter.executeStatements (Interpreter.execute 5)
          [.returnStatement (some (.identifier "b"))]
          (Interpreter.enterCall (Interpreter.new Host.simple) ["a", "b"] 0
            [.string "x", .string "y"]) with
      | .ok _ st1 => .ok .nil { st1 with environment := (Interpreter.new Host.simple).environment }
      | .exception (.ReturnException value) st1 =>
        .ok value { st1 with environment := (Interpreter.new Host.simple).environment }
      | .exception e st1 =>
        .exception e { st1 with environment := (Interpreter.new Host.simple).environment }
      | .fault => .fault
      | .timeout => .timeout :=
  (Interpreter.call_runs_body_in_parameter_frame (Interpreter.execute 5) ["a", "b"]
    [.returnStatement (some (.identifier "b"))] 0 [.string "x", .string "y"]
    (Interpreter.new Host.simple) rfl).1

/-- C4 as stated fails for a repeated parameter name: with parameters `a, a` and
the arguments `first`, `second`, the first parameter is not bound to the first
argument; the call frame binds `a` to `second`, and that is what the function
returns and the program prints. -/
theorem Interpreter.duplicate_parameter_takes_last_argument :
    Environment.binding
      (Interpreter.enterCall (Interpreter.new Host.simple) ["a", "a"] 0
        [.string "first", .string "second"]).heap "a"
      (Interpreter.enterCall (Interpreter.new Host.simple) ["a", "a"] 0
        [.string "first", .string "second"]).environment = some (.string "second") ∧
    Environment.binding
      (Interpreter.enterCall (Interpreter.new Host.simple) ["a", "a"] 0
        [.string "first", .string "second"]).heap "a"
      (Interpreter.enterCall (Interpreter.new Host.simple) ["a", "a"] 0
        [.string "first", .string "second"]).environment ≠ some (.string "first") ∧
    (Interpreter.interpret 30 duplicateParameterProgram (Interpreter.new Host.simple)).summary =
      some (["second"], [], 0) := by
  refine ⟨by decide!, by decide!, by decide!⟩

/-! ## Return -/

theorem Interpreter.executeStatements_append_exception (execute : Stmt → InterpM Unit)
    (s : Stmt) (rest : List Stmt) (x : Exception) :
    ∀ (before : List Stmt) (st st0 st1 : Interpreter),
      Interpreter.executeStatements execute before st = .ok () st0 →
      execute s st0 = .exception x st1 →
      Interpreter.executeStatements execute (before ++ s :: rest) st = .exception x st1 := by
  intro before
  induction before with
  | nil =>
    intro st st0 st1 hpre hs
    change Outcome.ok () st = Outcome.ok () st0 at hpre
    cases hpre
    change InterpM.bind _ _ st = _
    unfold InterpM.bind
    rw [hs]
  | cons b bs ih =>
    intro st st0 st1 hpre hs
    change InterpM.bind _ _ st = _ at hpre
    unfold InterpM.bind at hpre
    change InterpM.bind _ _ st = _
    unfold InterpM.bind
    cases hb : execute b st with
    | ok a st2 =>
      rw [hb] at hpre
      simp only []
      exact ih st2 st0 st1 hpre hs
    | exception e st2 => rw [hb] at hpre; cases hpre
    | fault => rw [hb] at hpre; cases hpre
    | timeout => rw [hb] at hpre; cases hpre

/-- C5: `return e` raises the return signal with the value of `e` (nil without
an expression); a statement list stops at the statement that raised it, so no
later statement runs; a block, an `if` and a `while` pass the signal on
unchanged (the block restoring the environment); the call of the user function
whose body raised it ends normally with the carried value, so the caller goes
on with that value.  In the example program the return sits in a block inside
an `if` inside a `while` of `inner`: nothing after it prints, `outer` receives
`deep`, continues, and returns in turn. -/
theorem Interpreter.return_unwinds_to_the_call :
    (∀ (fuel : Nat) (e : Expr) (st st1 : Interpreter) (v : Value),
      Interpreter.evaluate fuel e st = .ok v st1 →
      Interpreter.execute (fuel + 1) (.returnStatement (some e)) st =
        .exception (.ReturnException v) st1) ∧
    (∀ (fuel : Nat) (st : Interpreter),
      Interpreter.execute (fuel + 1) (.returnStatement none) st =
        .exception (.ReturnException .nil) st) ∧
    (∀ (execute : Stmt → InterpM Unit) (before : List Stmt) (s : Stmt) (rest : List Stmt)
      (st st0 st1 : Interpreter) (v : Value),
      Interpreter.executeStatements execute before st = .ok () st0 →
      execute s st0 = .exception (.ReturnException v) st1 →
      Interpreter.executeStatements execute (before ++ s :: rest) st =
        .exception (.ReturnException v) st1) ∧
    (∀ (fuel : Nat) (statements : List Stmt) (st st1 : Interpreter) (v : Value),
      Interpreter.executeStatements (Interpreter.execute fuel) statements st.enterBlock =
        .exception (.ReturnException v) st1 →
      Interpreter.execute (fuel + 1) (.block statements) st =
        .exception (.ReturnException v) { st1 with environment := st.environment }) ∧
    (∀ (fuel : Nat) (condition : Expr) (thenBranch : Stmt) (elseBranch : Option Stmt)
      (st st1 st2 : Interpreter) (c v : Value),
      Interpreter.evaluate fuel condition st = .ok c st1 → Interpreter.isTruthy c = true →
      Interpreter.execute fuel thenBranch st1 = .exception (.ReturnException v) st2 →
      Interpreter.execute (fuel + 1) (.ifStatement condition thenBranch elseBranch) st =
        .exception (.ReturnException v) st2) ∧
    (∀ (fuel : Nat) (condition : Expr) (thenBranch elseBranch : Stmt)
      (st st1 st2 : Interpreter) (c v : Value),
      Interpreter.evaluate fuel condition st = .ok c st1 → Interpreter.isTruthy c = false →
      Interpreter.execute fuel elseBranch st1 = .exception (.ReturnException v) st2 →
      Interpreter.execute (fuel + 1) (.ifStatement condition thenBranch (some elseBranch)) st =
        .exception (.ReturnException v) st2) ∧
    (∀ (fuel : Nat) (condition : Expr) (body : Stmt) (st st1 st2 : Interpreter) (c v : Value),
      Interpreter.evaluate fuel condition st = .ok c st1 → Interpreter.isTruthy c = true →
      Interpreter.execute fuel body st1 = .exception (.ReturnException v) st2 →
      Interpreter.whileLoop (fuel + 1) condition body st =
        .exception (.ReturnException v) st2) ∧
    (∀ (fuel : Nat) (condition : Expr) (body : Stmt) (st st1 st2 st3 : Interpreter)
      (c v : Value),
      Interpreter.evaluate fuel condition st = .ok c st1 → Interpreter.isTruthy c = true →
      Interpreter.execute fuel body st1 = .ok () st2 →
      Interpreter.whileLoop fuel condition body st2 = .exception (.ReturnException v) st3 →
      Interpreter.whileLoop (fuel + 1) condition body st =
        .exception (.ReturnException v) st3) ∧
    (∀ (fuel : Nat) (condition : Expr) (body : Stmt) (st : Interpreter),
      Interpreter.execute (fuel + 1) (.whileStatement condition body) st =
        Interpreter.whileLoop fuel condition body st) ∧
    (∀ (execute : Stmt → InterpM Unit) (parameters : List String) (body : List Stmt)
      (closure : Nat) (arguments : List Value) (st st1 : Interpreter) (v : Value),
      arguments.length = parameters.length →
      Interpreter.executeStatements execute body
          (Interpreter.enterCall st parameters closure arguments) =
        .exception (.ReturnException v) st1 →
      Interpreter.callFunction execute parameters body closure arguments st =
        .ok v { st1 with environment := st.environment }) ∧
    (Interpreter.interpret 40 nestedReturnProgram (Interpreter.new Host.simple)).summary =
      some (["deep", "outer done"], [], 0) := by
  refine ⟨?_, ?_, ?_, ?_, ?_, ?_, ?_, ?_, ?_, ?_, ?_⟩
  · intro fuel e st st1 v he
    simp only [Interpreter.execute]
    change InterpM.bind _ _ st = _
    unfold InterpM.bind
    rw [he]
  · intro fuel st
    rfl
  · intro execute before s rest st st0 st1 v hpre hs
    exact Interpreter.executeStatements_append_exception execute s rest _ before st st0 st1 hpre hs
  · intro fuel statements st st1 v h
    simp only [Interpreter.execute]
    change InterpM.bind _ _ st = _
    unfold InterpM.bind
    simp only [Interpreter.newEnvironment, Interpreter.executeBlock]
    change (match Interpreter.executeStatements (Interpreter.execute fuel) statements
      st.enterBlock with
      | .ok _ st1 => Outcome.ok () { st1 with environment := st.environment }
      | .exception e st1 => .exception e { st1 with environment := st.environment }
      | .fault => .fault
      | .timeout => .timeout) = _
    rw [h]
  · intro fuel condition thenBranch elseBranch st st1 st2 c v hc ht hs
    simp only [Interpreter.execute]
    change InterpM.bind _ _ st = _
    unfold InterpM.bind
    rw [hc]
    simp only [ht, if_true]
    exact hs
  · intro fuel condition thenBranch elseBranch st st1 st2 c v hc ht hs
    simp only [Interpreter.execute]
    change InterpM.bind _ _ st = _
    unfold InterpM.bind
    rw [hc]
    simp only [ht]
    exact hs
  · intro fuel condition body st st1 st2 c v hc ht hs
    simp only [Interpreter.whileLoop]
    change InterpM.bind _ _ st = _
    unfold InterpM.bind
    rw [hc]
    simp only [ht, if_true]
    change InterpM.bind _ _ st1 = _
    unfold InterpM.bind
    rw [hs]
  · intro fuel condition body st st1 st2 st3 c v hc ht hs hw
    simp only [Interpreter.whileLoop]
    change InterpM.bind _ _ st = _
    unfold InterpM.bind
    rw [hc]
    simp only [ht, if_true]
    change InterpM.bind _ _ st1 = _
    unfold InterpM.bind
    rw [hs]
    exact hw
  · intro fuel condition body st
    simp only [Interpreter.execute]
  · intro execute parameters body closure arguments st st1 v hlen h
    rw [Interpreter.callFunction_eq execute parameters body closure arguments st hlen, h]
  · decide!

/-- C5, on an example: a return statement whose expression evaluates to a
string raises the return signal with that string. -/
theorem Interpreter.return_unwinds_to_the_call_witness :
    Interpreter.execute 6 (.returnStatement (some (.literal (.string "v"))))
        (Interpreter.new Host.simple) =
      .exception (.ReturnException (.string "v"))
        { Interpreter.new Host.simple with lastValue := .string "v" } :=
  Interpreter.return_unwinds_to_the_call.1 5 (.literal (.string "v"))
    (Interpreter.new Host.simple) _ (.string "v") rfl

/-! ## Closures -/

/-- Frames added at the end of the heap do not change what a lookup from an
older frame finds. -/
theorem Environment.getFrom_append (heap extra : Heap) (hwf : Heap.WellFormed heap)
    (name : String) :
    ∀ (fuel fuel' ref : Nat), ref < fuel → ref < fuel' → ref < heap.length →
      Environment.getFrom (heap ++ extra) fuel ref name =
        Environment.getFrom heap fuel' ref name := by
  intro fuel
  induction fuel with
  | zero => intro fuel' ref h; omega
  | succ fuel ih =>
    intro fuel' ref hfuel hfuel' href
    cases fuel' with
    | zero => omega
    | succ fuel' =>
      obtain ⟨env, henv⟩ : ∃ env, heap[ref]? = some env := by
        simp [List.getElem?_eq_getElem href]
      have henv' : (heap ++ extra)[ref]? = some env := by
        rw [List.getElem?_append_left href]
        exact henv
      cases hfind : mapFind env.values name with
      | some value => simp [Environment.getFrom, henv, henv', hfind]
      | none =>
        cases hpar : env.enclosing with
        | none => simp [Environment.getFrom, henv, henv', hfind, hpar]
        | some parent =>
          have hlt : parent < ref := hwf ref env henv parent hpar
          have := ih fuel' parent (by omega) (by omega) (by omega)
          simp [Environment.getFrom, henv, henv', hfind, hpar, this]

/-- A lookup from a new frame that does not bind the name itself is the lookup
from its enclosing frame in the heap as it is now. -/
theorem Environment.get_through_new_frame (heap : Heap) (hwf : Heap.WellFormed heap)
    (closure : Nat) (hc : closure < heap.length) (values : List (String × Value))
    (name : String) (hfind : mapFind values name = none) :
    Environment.get (heap ++ [{ enclosing := some closure, values := values }]) heap.length name =
      Environment.get heap closure name := by
  unfold Environment.get
  have h := Environment.getFrom_append heap [{ enclosing := some closure, values := values }]
    hwf name heap.length heap.length closure hc hc hc
  simp [Environment.getFrom, hfind, h]

/-- C7: executing a function declaration stores a function object that holds
the reference of the current environment (not a copy of its bindings) and binds
it to the function name in the current frame.  A call of a function object
whose body returns `x`, a name that is not one of its parameters, yields the
value that `x` has in the chain of the captured frame in the state of the call,
whatever happened since the declaration.  Hence, when `make` declares `inner`,
then changes its variable `x` from `a` to `b`, by an assignment or by a second
`let`, and returns `inner`, a later call of the returned function yields `b`,
the final value of `x`, for all values `a` and `b`. -/
theorem Interpreter.closure_sees_final_bindings :
    (∀ (fuel : Nat) (name : String) (parameters : List String) (body : List Stmt)
      (st : Interpreter),
      Interpreter.execute (fuel + 1) (.functionDeclaration name parameters body) st =
        Interpreter.define name (.callable st.callables.length)
          { st with callables :=
              st.callables ++ [.function name parameters body st.environment] }) ∧
    (∀ (fuel : Nat) (a b : Value) (host : Host),
      ((Interpreter.executeStatements (Interpreter.execute (fuel + 5))
          (captureStatements a
            (.expression (.binary (.identifier "x") "=" (.literal b)))) >>=
        fun _ => Interpreter.evaluate (fuel + 5) (.call (.identifier "c") []))
        (Interpreter.new host)).value? = some b) ∧
    (∀ (fuel : Nat) (a b : Value) (host : Host),
      ((Interpreter.executeStatements (Interpreter.execute (fuel + 5))
          (captureStatements a (.varDeclaration "x" (some (.literal b)))) >>=
        fun _ => Interpreter.evaluate (fuel + 5) (.call (.identifier "c") []))
        (Interpreter.new host)).value? = some b) ∧
    (∀ (fuel : Nat) (st : Interpreter) (ref : Nat) (name : String) (parameters : List String)
      (closure : Nat) (arguments : List Value) (x : String) (value : Value),
      Heap.WellFormed st.heap → closure < st.heap.length →
      st.callables[ref]? = some
        (.function name parameters [.returnStatement (some (.identifier x))] closure) →
      arguments.length = parameters.length → x ∉ parameters →
      Environment.get st.heap closure x = .ok value →
      (Interpreter.visitCall (Interpreter.execute (fuel + 2)) (.callable ref) arguments
        st).value? = some value) := by
  refine ⟨?_, ?_, ?_, ?_⟩
  · intro fuel name parameters body st
    rfl
  · intro fuel a b host
    simp [captureStatements, Interpreter.executeStatements, Interpreter.execute,
      Interpreter.evaluate, Interpreter.evaluateArguments, Interpreter.visitCall,
      Interpreter.callCallable, Interpreter.callFunction, Interpreter.bindParameters,
      Interpreter.executeBlock, Interpreter.newEnvironment,
      Interpreter.visitFunctionDeclaration, Interpreter.define, Interpreter.assign,
      Interpreter.lookup, Interpreter.setLastValue, Interpreter.visitBinary,
      InterpM.onEnvironment, Environment.define, Environment.get, Environment.getFrom,
      Environment.assign, Environment.assignFrom, mapSet, mapFind, Interpreter.new,
      Interpreter.nativeFunctions, FluxCallable.arity, Outcome.value?, bind, InterpM.bind, pure]
  · intro fuel a b host
    simp [captureStatements, Interpreter.executeStatements, Interpreter.execute,
      Interpreter.evaluate, Interpreter.evaluateArguments, Interpreter.visitCall,
      Interpreter.callCallable, Interpreter.callFunction, Interpreter.bindParameters,
      Interpreter.executeBlock, Interpreter.newEnvironment,
      Interpreter.visitFunctionDeclaration, Interpreter.define, Interpreter.lookup,
      Interpreter.setLastValue, InterpM.onEnvironment, Environment.define, Environment.get,
      Environment.getFrom, mapSet, mapFind, Interpreter.new, Interpreter.nativeFunctions,
      FluxCallable.arity, Outcome.value?, bind, InterpM.bind, pure]
  · intro fuel st ref name parameters closure arguments x value hwf hc hget hlen hx hval
    have hframe := Environment.get_through_new_frame st.heap hwf closure hc
      (Interpreter.parameterFrame [] parameters arguments) x
      (by rw [Interpreter.parameterFrame_absent x parameters arguments [] hx]; rfl)
    rw [hval] at hframe
    have hcall := Interpreter.callFunction_eq (Interpreter.execute (fuel + 2)) parameters
      [.returnStatement (some (.identifier x))] closure arguments st hlen
    simp [Interpreter.visitCall, hget, FluxCallable.arity, hlen, Interpreter.callCallable,
      hcall, Interpreter.executeStatements, Interpreter.execute, Interpreter.evaluate,
      Interpreter.lookup, Interpreter.enterCall, hframe, Interpreter.setLastValue,
      Outcome.value?, bind, InterpM.bind, pure]

/-- C7, on an example: the function object `inner` has captured frame 2 of the
example frames; its call yields the value that `y` has on the chain of frame 2
in the state of the call. -/
theorem Interpreter.closure_sees_final_bindings_witness :
    (Interpreter.visitCall (Interpreter.execute 2) (.callable 3) []
      exampleClosureState).value? = some (.string "inner y") :=
  Interpreter.closure_sees_final_bindings.2.2.2 0 exampleClosureState 3 "inner" [] 2 []
    "y" (.string "inner y") exampleHeap_wellFormed (by decide) rfl rfl (by simp) (by decide)

/-! ## Block scope -/

/-- C8: let `st1` be the state after `let x = a` in the current frame of any
state, and `inner` the state inside a following block right after its
`let x = b`.  The declaration in the block has added the binding to the block's
own new frame and left every older frame as it was; the rest of the block runs
in `inner`, where `x` evaluates to `b`; once the block has ended the frames are
those of `inner` with the environment of before, where `x` evaluates to `a`
again.  On the program `let x = "A" { let x = "B" print x } print x` the output
is `B` then `A`. -/
theorem Interpreter.block_declaration_shadows (fuel : Nat) (x : String) (a b : Value)
    (st : Interpreter) (env : Environment) (henv : st.heap[st.environment]? = some env) :
    let st1 : Interpreter :=
      { st with
        heap := st.heap.set st.environment { env with values := mapSet env.values x a },
        lastValue := a }
    let inner : Interpreter :=
      { st1 with
        heap := st1.heap ++ [{ enclosing := some st.environment, values := [(x, b)] }],
        environment := st.heap.length,
        lastValue := b }
    Interpreter.execute (fuel + 2) (.varDeclaration x (some (.literal a))) st = .ok () st1 ∧
    Interpreter.execute (fuel + 2) (.varDeclaration x (some (.literal b))) st1.enterBlock =
      .ok () inner ∧
    (∀ r, r < st1.heap.length → inner.heap[r]? = st1.heap[r]?) ∧
    (∀ rest : List Stmt,
      Interpreter.execute (fuel + 3) (.block (.varDeclaration x (some (.literal b)) :: rest)) st1 =
        match Interpreter.executeStatements (Interpreter.execute (fuel + 2)) rest inner with
        | .ok _ st2 => .ok () { st2 with environment := st.environment }
        | .exception e st2 => .exception e { st2 with environment := st.environment }
        | .fault => .fault
        | .timeout => .timeout) ∧
    Interpreter.evaluate (fuel + 1) (.identifier x) inner = .ok b inner ∧
    Interpreter.execute (fuel + 3) (.block [.varDeclaration x (some (.literal b))]) st1 =
      .ok () { inner with environment := st.environment } ∧
    Interpreter.evaluate (fuel + 1) (.identifier x) { inner with environment := st.environment } =
      .ok a { inner with environment := st.environment, lastValue := a } ∧
    (Interpreter.interpret 10 (shadowProgram (.string "A") (.string "B"))
        (Interpreter.new Host.simple)).summary = some (["B", "A"], [], 0) := by
  have hlt : st.environment < st.heap.length := by
    rcases Nat.lt_or_ge st.environment st.heap.length with h | h
    · exact h
    · rw [List.getElem?_eq_none h] at henv
      cases henv
  intro st1 inner
  have h1 : Interpreter.execute (fuel + 2) (.varDeclaration x (some (.literal a))) st =
      .ok () st1 := by
    simp [Interpreter.execute, Interpreter.evaluate, Interpreter.setLastValue,
      Interpreter.define, InterpM.onEnvironment, Environment.define, henv, bind, InterpM.bind,
      st1]
  have h2 : Interpreter.execute (fuel + 2) (.varDeclaration x (some (.literal b)))
      st1.enterBlock = .ok () inner := by
    simp [Interpreter.execute, Interpreter.evaluate, Interpreter.setLastValue,
      Interpreter.define, InterpM.onEnvironment, Environment.define, bind, InterpM.bind,
      Interpreter.enterBlock, st1, inner, mapSet]
  have h4 : ∀ rest : List Stmt,
      Interpreter.execute (fuel + 3) (.block (.varDeclaration x (some (.literal b)) :: rest)) st1 =
        match Interpreter.executeStatements (Interpreter.execute (fuel + 2)) rest inner with
        | .ok _ st2 => .ok () { st2 with environment := st.environment }
        | .exception e st2 => .exception e { st2 with environment := st.environment }
        | .fault => .fault
        | .timeout => .timeout := by
    intro rest
    have hstep : Interpreter.executeStatements (Interpreter.execute (fuel + 2))
        (.varDeclaration x (some (.literal b)) :: rest) st1.enterBlock =
        Interpreter.executeStatements (Interpreter.execute (fuel + 2)) rest inner := by
      change InterpM.bind _ _ _ = _
      unfold InterpM.bind
      rw [h2]
    simp only [Interpreter.execute]
    change InterpM.bind _ _ st1 = _
    unfold InterpM.bind
    simp only [Interpreter.newEnvironment, Interpreter.executeBlock]
    change (match Interpreter.executeStatements (Interpreter.execute (fuel + 2))
        (.varDeclaration x (some (.literal b)) :: rest) st1.enterBlock with
      | .ok _ st2 => Outcome.ok () { st2 with environment := st1.environment }
      | .exception e st2 => .exception e { st2 with environment := st1.environment }
      | .fault => .fault
      | .timeout => .timeout) = _
    rw [hstep]
  refine ⟨h1, h2, ?_, h4, ?_, ?_, ?_, ?_⟩
  · intro r hr
    simp only [inner]
    rw [List.getElem?_append_left hr]
  · simp [Interpreter.evaluate, Interpreter.lookup, Interpreter.setLastValue, Environment.get,
      Environment.getFrom, bind, InterpM.bind, inner, st1, mapFind]
  · rw [h4 []]
    rfl
  · simp [Interpreter.evaluate, Interpreter.lookup, Interpreter.setLastValue, Environment.get,
      Environment.getFrom, bind, InterpM.bind, inner, st1, mapFind, hlt,
      List.getElem?_append_left, mapFind_mapSet_self]
  · decide!

/-- C8, on an example: in a fresh interpreter the global frame is current, so
the theorem applies to `let x = "A"` followed by a block with `let x = "B"`. -/
theorem Interpreter.block_declaration_shadows_witness :
    Interpreter.evaluate 1 (.identifier "x")
        { Interpreter.new Host.simple with
          heap :=
            (Interpreter.new Host.simple).heap.set 0
              { enclosing := none,
                values := mapSet [("clock", .callable 0), ("sqrt", .callable 1),
                  ("abs", .callable 2)] "x" (.string "A") } ++
            [{ enclosing := some 0, values := [("x", .string "B")] }],
          environment := 1,
          lastValue := .string "B" } =
      .ok (.string "B")
        { Interpreter.new Host.simple with
          heap :=
            (Interpreter.new Host.simple).heap.set 0
              { enclosing := none,
                values := mapSet [("clock", .callable 0), ("sqrt", .callable 1),
                  ("abs", .callable 2)] "x" (.string "A") } ++
            [{ enclosing := some 0, values := [("x", .string "B")] }],
          environment := 1,
          lastValue := .string "B" } :=
  (Interpreter.block_declaration_shadows 0 "x" (.string "A") (.string "B")
    (Interpreter.new Host.simple)
    { enclosing := none,
      values := [("clock", .callable 0), ("sqrt", .callable 1), ("abs", .callable 2)] }
    rfl).2.2.2.2.1

/-! ## Precedence of binary operators -/

theorem Parser.peek_at (ts : List Token) (j : Nat) (cerr : List String) (t : Token)
    (h : ts[j]? = some t) :
    Parser.peek ⟨ts, j, cerr⟩ = .ok t ⟨ts, j, cerr⟩ := by
  simp [Parser.peek, h]

theorem Parser.check_at (ts : List Token) (j : Nat) (cerr : List String) (t : Token)
    (h : ts[j]? = some t) (type : TokenType) :
    Parser.check type ⟨ts, j, cerr⟩ =
      .ok (t.type != .END_OF_FILE && t.type == type) ⟨ts, j, cerr⟩ := by
  by_cases hend : t.type = .END_OF_FILE
  · simp [Parser.check, Parser.isAtEnd, Parser.peek, h, hend, bind, ParserM.bind, pure]
  · simp [Parser.check, Parser.isAtEnd, Parser.peek, h, hend, bind, ParserM.bind, pure]

theorem Parser.previous_after (ts : List Token) (j : Nat) (cerr : List String) (t : Token)
    (h : ts[j]? = some t) :
    Parser.previous ⟨ts, j + 1, cerr⟩ = .ok t ⟨ts, j + 1, cerr⟩ := by
  simp [Parser.previous, h]

theorem Parser.match_miss (ts : List Token) (j : Nat) (cerr : List String) (t : Token)
    (h : ts[j]? = some t) :
    ∀ types : List TokenType, (t.type = .END_OF_FILE ∨ t.type ∉ types) →
      Parser.match_ types ⟨ts, j, cerr⟩ = .ok false ⟨ts, j, cerr⟩ := by
  intro types
  induction types with
  | nil => intro _; rfl
  | cons ty rest ih =>
    intro hmiss
    have hrest : t.type = .END_OF_FILE ∨ t.type ∉ rest := by
      rcases hmiss with h1 | h1
      · exact Or.inl h1
      · exact Or.inr (fun hm => h1 (List.mem_cons_of_mem _ hm))
    have hcheck : Parser.check ty ⟨ts, j, cerr⟩ = .ok false ⟨ts, j, cerr⟩ := by
      rw [Parser.check_at ts j cerr t h]
      rcases hmiss with h1 | h1
      · simp [h1]
      · have : t.type ≠ ty := fun hty => h1 (hty ▸ List.mem_cons_self _ _)
        simp [this]
    simp only [Parser.match_]
    change ParserM.bind _ _ _ = _
    unfold ParserM.bind
    rw [hcheck]
    exact ih hrest

theorem Parser.match_hit (ts : List Token) (j : Nat) (cerr : List String) (t : Token)
    (h : ts[j]? = some t) (hend : t.type ≠ .END_OF_FILE) :
    ∀ types : List TokenType, t.type ∈ types →
      Parser.match_ types ⟨ts, j, cerr⟩ = .ok true ⟨ts, j + 1, cerr⟩ := by
  intro types
  induction types with
  | nil => intro hm; simp at hm
  | cons ty rest ih =>
    intro hm
    by_cases hty : t.type = ty
    · subst hty
      have hcheck : Parser.check t.type ⟨ts, j, cerr⟩ = .ok true ⟨ts, j, cerr⟩ := by
        rw [Parser.check_at ts j cerr t h]
        simp [hend]
      have hadv : Parser.advance ⟨ts, j, cerr⟩ = .ok t ⟨ts, j + 1, cerr⟩ := by
        simp [Parser.advance, Parser.isAtEnd, Parser.peek, Parser.previous, h, hend, bind,
          ParserM.bind, pure]
      simp only [Parser.match_]
      change ParserM.bind _ _ _ = _
      unfold ParserM.bind
      rw [hcheck]
      simp only [if_true]
      change ParserM.bind _ _ _ = _
      unfold ParserM.bind
      rw [hadv]
      rfl
    · have hcheck : Parser.check ty ⟨ts, j, cerr⟩ = .ok false ⟨ts, j, cerr⟩ := by
        rw [Parser.check_at ts j cerr t h]
        simp [hty]
      have hrest : t.type ∈ rest := by
        rcases List.mem_cons.mp hm with h1 | h1
        · exact absurd h1 hty
        · exact h1
      simp only [Parser.match_]
      change ParserM.bind _ _ _ = _
      unfold ParserM.bind
      rw [hcheck]
      exact ih hrest

theorem Parser.mem_levelOps (t : TokenType) (l : Nat) (h2 : 2 ≤ l) (h7 : l ≤ 7) :
    t ∈ Parser.levelOps l ↔ binaryLevel t = some l := by
  interval_cases l <;> cases t <;> simp [Parser.levelOps, binaryLevel]

theorem binaryLevel_range (t : TokenType) (l : Nat) (h : binaryLevel t = some l) :
    2 ≤ l ∧ l ≤ 7 := by
  cases t <;> simp [binaryLevel] at h <;> omega

theorem binaryLevel_not_end (t : TokenType) (l : Nat) (h : binaryLevel t = some l) :
    t ≠ .END_OF_FILE := by
  intro ht
  subst ht
  simp [binaryLevel] at h

/-- The production of a level is the production of the next level followed by
the loop of the level. -/
theorem Parser.level_entry (l : Nat) (h2 : 2 ≤ l) (h7 : l ≤ 7) (n : Nat) (p p1 : Parser)
    (e : Expr) (h : Parser.level (l + 1) n p = .ok e p1) :
    Parser.level l (n + 1) p = Parser.levelLoop l n e p1 := by
  interval_cases l <;>
    (simp only [Parser.level, Parser.levelLoop, Parser.logicalOr, Parser.logicalAnd,
        Parser.equality, Parser.comparison, Parser.term, Parser.factor] at h ⊢
     change ParserM.bind _ _ _ = _
     unfold ParserM.bind
     rw [h])

/-- The loop of a level stops at a token that is not one of its operators. -/
theorem Parser.levelLoop_done (l : Nat) (h2 : 2 ≤ l) (h7 : l ≤ 7) (n : Nat)
    (ts : List Token) (j : Nat) (cerr : List String) (t : Token) (e : Expr)
    (ht : ts[j]? = some t) (hmiss : t.type = .END_OF_FILE ∨ t.type ∉ Parser.levelOps l) :
    Parser.levelLoop l (n + 1) e ⟨ts, j, cerr⟩ = .ok e ⟨ts, j, cerr⟩ := by
  interval_cases l <;>
    (simp only [Parser.levelLoop, Parser.logicalOrLoop, Parser.logicalAndLoop,
        Parser.equalityLoop, Parser.comparisonLoop, Parser.termLoop, Parser.factorLoop]
     simp only [Parser.levelOps] at hmiss
     change ParserM.bind _ _ _ = _
     unfold ParserM.bind
     rw [Parser.match_miss ts j cerr t ht _ hmiss]
     rfl)

/-- The loop of a level, at one of its operators, reads the right operand with
the production of the next level and goes on with the binary node. -/
theorem Parser.levelLoop_step (l : Nat) (h2 : 2 ≤ l) (h7 : l ≤ 7) (n : Nat)
    (ts : List Token) (j : Nat) (cerr : List String) (o : Token) (e1 e2 : Expr) (p2 : Parser)
    (ho : ts[j]? = some o) (hop : o.type ∈ Parser.levelOps l)
    (hright : Parser.level (l + 1) n ⟨ts, j + 1, cerr⟩ = .ok e2 p2) :
    Parser.levelLoop l (n + 1) e1 ⟨ts, j, cerr⟩ =
      Parser.levelLoop l n (.binary e1 o.lexeme e2) p2 := by
  have hend : o.type ≠ .END_OF_FILE :=
    binaryLevel_not_end _ l ((Parser.mem_levelOps _ l h2 h7).mp hop)
  interval_cases l <;>
    (simp only [Parser.level, Parser.levelLoop, Parser.logicalOrLoop, Parser.logicalAndLoop,
        Parser.equalityLoop, Parser.comparisonLoop, Parser.termLoop, Parser.factorLoop]
        at hright ⊢
     simp only [Parser.levelOps] at hop
     change ParserM.bind _ _ _ = _
     unfold ParserM.bind
     rw [Parser.match_hit ts j cerr o ho hend _ hop]
     simp only [if_true]
     change ParserM.bind _ _ _ = _
     unfold ParserM.bind
     rw [Parser.previous_after ts j cerr o ho]
     change ParserM.bind _ _ _ = _
     unfold ParserM.bind
     rw [hright])

theorem Parser.level_passthrough (l : Nat) (h2 : 2 ≤ l) (h7 : l ≤ 7) (p : Parser)
    (ts : List Token) (j : Nat) (cerr : List String) (t : Token) (e : Expr)
    (h : Parser.Eventually (Parser.level (l + 1)) p (.ok e ⟨ts, j, cerr⟩))
    (ht : ts[j]? = some t) (hmiss : t.type = .END_OF_FILE ∨ t.type ∉ Parser.levelOps l) :
    Parser.Eventually (Parser.level l) p (.ok e ⟨ts, j, cerr⟩) := by
  obtain ⟨k, hk⟩ := h
  refine ⟨k + 2, fun n => ?_⟩
  have h1 := hk (n + 1)
  rw [show n + 1 + k = n + k + 1 by omega] at h1
  rw [show n + (k + 2) = (n + k + 1) + 1 by omega,
    Parser.level_entry l h2 h7 _ p _ e h1,
    Parser.levelLoop_done l h2 h7 (n + k) ts j cerr t e ht hmiss]

theorem Parser.level_binary (l : Nat) (h2 : 2 ≤ l) (h7 : l ≤ 7) (p : Parser)
    (ts : List Token) (j m : Nat) (cerr : List String) (o t : Token) (e1 e2 : Expr)
    (h1 : Parser.Eventually (Parser.level (l + 1)) p (.ok e1 ⟨ts, j, cerr⟩))
    (ho : ts[j]? = some o) (hop : o.type ∈ Parser.levelOps l)
    (hr : Parser.Eventually (Parser.level (l + 1)) ⟨ts, j + 1, cerr⟩ (.ok e2 ⟨ts, m, cerr⟩))
    (ht : ts[m]? = some t) (hmiss : t.type = .END_OF_FILE ∨ t.type ∉ Parser.levelOps l) :
    Parser.Eventually (Parser.level l) p (.ok (.binary e1 o.lexeme e2) ⟨ts, m, cerr⟩) := by
  obtain ⟨k1, hk1⟩ := h1
  obtain ⟨k2, hk2⟩ := hr
  refine ⟨k1 + k2 + 3, fun n => ?_⟩
  have ha := hk1 (n + k2 + 2)
  rw [show n + k2 + 2 + k1 = n + k1 + k2 + 1 + 1 by omega] at ha
  have hb := hk2 (n + k1 + 1)
  rw [show n + k1 + 1 + k2 = n + k1 + k2 + 1 by omega] at hb
  rw [show n + (k1 + k2 + 3) = (n + k1 + k2 + 1 + 1) + 1 by omega,
    Parser.level_entry l h2 h7 _ p _ e1 ha,
    Parser.levelLoop_step l h2 h7 _ ts j cerr o e1 e2 _ ho hop hb,
    Parser.levelLoop_done l h2 h7 (n + k1 + k2) ts m cerr t _ ht hmiss]

/-- A result of a higher level is the result of every lower level whose
operators the next token does not belong to. -/
theorem Parser.level_climb (p : Parser) (ts : List Token) (j : Nat) (cerr : List String)
    (t : Token) (e : Expr) (ht : ts[j]? = some t) :
    ∀ (d lo : Nat), 2 ≤ lo → lo + d ≤ 8 →
      (∀ l, lo ≤ l → l < lo + d → t.type = .END_OF_FILE ∨ t.type ∉ Parser.levelOps l) →
      Parser.Eventually (Parser.level (lo + d)) p (.ok e ⟨ts, j, cerr⟩) →
      Parser.Eventually (Parser.level lo) p (.ok e ⟨ts, j, cerr⟩) := by
  intro d
  induction d with
  | zero => intro lo _ _ _ h; exact h
  | succ d ih =>
    intro lo h2 h8 hmiss h
    have hnext : Parser.Eventually (Parser.level (lo + 1)) p (.ok e ⟨ts, j, cerr⟩) := by
      apply ih (lo + 1) (by omega) (by omega)
      · intro l hl1 hl2
        exact hmiss l (by omega) (by omega)
      · rw [show lo + 1 + d = lo + (d + 1) by omega]
        exact h
    exact Parser.level_passthrough lo h2 (by omega) p ts j cerr t e hnext ht
      (hmiss lo (by omega) (by omega))

theorem Parser.expression_of_logicalOr (p : Parser) (ts : List Token) (j : Nat)
    (cerr : List String) (t : Token) (e : Expr)
    (h : Parser.Eventually (Parser.level 2) p (.ok e ⟨ts, j, cerr⟩))
    (ht : ts[j]? = some t) (hmiss : t.type = .END_OF_FILE ∨ t.type ≠ .ASSIGN) :
    Parser.Eventually Parser.expression p (.ok e ⟨ts, j, cerr⟩) := by
  obtain ⟨k, hk⟩ := h
  refine ⟨k + 2, fun n => ?_⟩
  have h1 := hk n
  simp only [Parser.level] at h1
  have hm : Parser.match_ [.ASSIGN] ⟨ts, j, cerr⟩ = .ok false ⟨ts, j, cerr⟩ := by
    apply Parser.match_miss ts j cerr t ht
    rcases hmiss with h0 | h0
    · exact Or.inl h0
    · exact Or.inr (by simpa using h0)
  rw [show n + (k + 2) = (n + k) + 1 + 1 by omega]
  simp only [Parser.expression, Parser.assignment]
  change ParserM.bind _ _ _ = _
  unfold ParserM.bind
  rw [h1]
  simp only []
  change ParserM.bind _ _ _ = _
  unfold ParserM.bind
  rw [hm]
  rfl

theorem Parser.not_mem_levelOps_of_level (t : TokenType) (lt l : Nat)
    (h : binaryLevel t = some lt) (hne : lt ≠ l) (h2 : 2 ≤ l) (h7 : l ≤ 7) :
    t ∉ Parser.levelOps l := by
  intro hm
  have := (Parser.mem_levelOps t l h2 h7).mp hm
  rw [h] at this
  exact hne (Option.some.inj this)

/-- The operand `e`, read by `unary` up to a token that is an operator of level
`lt` (or the end of the input), is also what every level above `lt` reads. -/
theorem Parser.operand_at_level (p : Parser) (ts : List Token) (j : Nat) (cerr : List String)
    (t : Token) (e : Expr) (ht : ts[j]? = some t)
    (h : Parser.Eventually Parser.unary p (.ok e ⟨ts, j, cerr⟩))
    (lo : Nat) (h2 : 2 ≤ lo) (h8 : lo ≤ 8)
    (hmiss : ∀ l, lo ≤ l → l < 8 → t.type = .END_OF_FILE ∨ t.type ∉ Parser.levelOps l) :
    Parser.Eventually (Parser.level lo) p (.ok e ⟨ts, j, cerr⟩) := by
  apply Parser.level_climb p ts j cerr t e ht (8 - lo) lo h2 (by omega)
  · intro l hl1 hl2
    exact hmiss l hl1 (by omega)
  · rw [show lo + (8 - lo) = 8 by omega]
    exact h

/-- Let the tokens from position `i` be an operand `a`, a binary operator `o1`,
an operand `b`, a binary operator `o2`, an operand `c` and then the end of the
input, where an operand is whatever `unary` reads.  If `o1` is at a strictly
lower level than `o2`, `expression` yields `Binary(a, o1, Binary(b, o2, c))`; if
it is at a strictly higher level, `Binary(Binary(a, o1, b), o2, c)`. -/
theorem Parser.precedence_general (ts : List Token) (cerr : List String)
    (i j k m : Nat) (o1 o2 t : Token) (ea eb ec : Expr) (l1 l2 : Nat)
    (ha : Parser.Eventually Parser.unary ⟨ts, i, cerr⟩ (.ok ea ⟨ts, j, cerr⟩))
    (ho1 : ts[j]? = some o1) (hl1 : binaryLevel o1.type = some l1)
    (hb : Parser.Eventually Parser.unary ⟨ts, j + 1, cerr⟩ (.ok eb ⟨ts, k, cerr⟩))
    (ho2 : ts[k]? = some o2) (hl2 : binaryLevel o2.type = some l2)
    (hc : Parser.Eventually Parser.unary ⟨ts, k + 1, cerr⟩ (.ok ec ⟨ts, m, cerr⟩))
    (ht : ts[m]? = some t) (hend : t.type = .END_OF_FILE) :
    (l1 < l2 →
      Parser.Eventually Parser.expression ⟨ts, i, cerr⟩
        (.ok (.binary ea o1.lexeme (.binary eb o2.lexeme ec)) ⟨ts, m, cerr⟩)) ∧
    (l2 < l1 →
      Parser.Eventually Parser.expression ⟨ts, i, cerr⟩
        (.ok (.binary (.binary ea o1.lexeme eb) o2.lexeme ec) ⟨ts, m, cerr⟩)) := by
  obtain ⟨h12, h17⟩ := binaryLevel_range _ _ hl1
  obtain ⟨h22, h27⟩ := binaryLevel_range _ _ hl2
  have hop1 : o1.type ∈ Parser.levelOps l1 := (Parser.mem_levelOps _ l1 h12 h17).mpr hl1
  have hop2 : o2.type ∈ Parser.levelOps l2 := (Parser.mem_levelOps _ l2 h22 h27).mpr hl2
  refine ⟨?_, ?_⟩
  · intro hlt
    -- `a` is the left operand of level `l1`
    have ha1 : Parser.Eventually (Parser.level (l1 + 1)) ⟨ts, i, cerr⟩ (.ok ea ⟨ts, j, cerr⟩) :=
      Parser.operand_at_level _ ts j cerr o1 ea ho1 ha (l1 + 1) (by omega) (by omega)
        (fun l hl hl8 => Or.inr
          (Parser.not_mem_levelOps_of_level _ l1 l hl1 (by omega) (by omega) (by omega)))
    -- `b o2 c` is a binary node of level `l2`
    have hb2 : Parser.Eventually (Parser.level (l2 + 1)) ⟨ts, j + 1, cerr⟩
        (.ok eb ⟨ts, k, cerr⟩) :=
      Parser.operand_at_level _ ts k cerr o2 eb ho2 hb (l2 + 1) (by omega) (by omega)
        (fun l hl hl8 => Or.inr
          (Parser.not_mem_levelOps_of_level _ l2 l hl2 (by omega) (by omega) (by omega)))
    have hc2 : Parser.Eventually (Parser.level (l2 + 1)) ⟨ts, k + 1, cerr⟩
        (.ok ec ⟨ts, m, cerr⟩) :=
      Parser.operand_at_level _ ts m cerr t ec ht hc (l2 + 1) (by omega) (by omega)
        (fun l _ _ => Or.inl hend)
    have hbc : Parser.Eventually (Parser.level l2) ⟨ts, j + 1, cerr⟩
        (.ok (.binary eb o2.lexeme ec) ⟨ts, m, cerr⟩) :=
      Parser.level_binary l2 h22 h27 _ ts k m cerr o2 t eb ec hb2 ho2 hop2 hc2 ht (Or.inl hend)
    -- which is the right operand of level `l1`
    have hbc1 : Parser.Eventually (Parser.level (l1 + 1)) ⟨ts, j + 1, cerr⟩
        (.ok (.binary eb o2.lexeme ec) ⟨ts, m, cerr⟩) := by
      apply Parser.level_climb _ ts m cerr t _ ht (l2 - (l1 + 1)) (l1 + 1) (by omega) (by omega)
      · intro l _ _
        exact Or.inl hend
      · rw [show l1 + 1 + (l2 - (l1 + 1)) = l2 by omega]
        exact hbc
    have hall : Parser.Eventually (Parser.level l1) ⟨ts, i, cerr⟩
        (.ok (.binary ea o1.lexeme (.binary eb o2.lexeme ec)) ⟨ts, m, cerr⟩) :=
      Parser.level_binary l1 h12 h17 _ ts j m cerr o1 t ea _ ha1 ho1 hop1 hbc1 ht (Or.inl hend)
    have htop : Parser.Eventually (Parser.level 2) ⟨ts, i, cerr⟩
        (.ok (.binary ea o1.lexeme (.binary eb o2.lexeme ec)) ⟨ts, m, cerr⟩) := by
      apply Parser.level_climb _ ts m cerr t _ ht (l1 - 2) 2 (by omega) (by omega)
      · intro l _ _
        exact Or.inl hend
      · rw [show 2 + (l1 - 2) = l1 by omega]
        exact hall
    exact Parser.expression_of_logicalOr _ ts m cerr t _ htop ht (Or.inl hend)
  · intro hlt
    -- `a o1 b` is a binary node of level `l1`, ended by `o2`
    have ha1 : Parser.Eventually (Parser.level (l1 + 1)) ⟨ts, i, cerr⟩ (.ok ea ⟨ts, j, cerr⟩) :=
      Parser.operand_at_level _ ts j cerr o1 ea ho1 ha (l1 + 1) (by omega) (by omega)
        (fun l hl hl8 => Or.inr
          (Parser.not_mem_levelOps_of_level _ l1 l hl1 (by omega) (by omega) (by omega)))
    have hb1 : Parser.Eventually (Parser.level (l1 + 1)) ⟨ts, j + 1, cerr⟩
        (.ok eb ⟨ts, k, cerr⟩) :=
      Parser.operand_at_level _ ts k cerr o2 eb ho2 hb (l1 + 1) (by omega) (by omega)
        (fun l hl hl8 => Or.inr
          (Parser.not_mem_levelOps_of_level _ l2 l hl2 (by omega) (by omega) (by omega)))
    have hab : Parser.Eventually (Parser.level l1) ⟨ts, i, cerr⟩
        (.ok (.binary ea o1.lexeme eb) ⟨ts, k, cerr⟩) :=
      Parser.level_binary l1 h12 h17 _ ts j k cerr o1 o2 ea eb ha1 ho1 hop1 hb1 ho2
        (Or.inr (Parser.not_mem_levelOps_of_level _ l2 l1 hl2 (by omega) h12 h17))
    -- which is the left operand of level `l2`
    have hab2 : Parser.Eventually (Parser.level (l2 + 1)) ⟨ts, i, cerr⟩
        (.ok (.binary ea o1.lexeme eb) ⟨ts, k, cerr⟩) := by
      apply Parser.level_climb _ ts k cerr o2 _ ho2 (l1 - (l2 + 1)) (l2 + 1) (by omega)
        (by omega)
      · intro l hl hl'
        exact Or.inr
          (Parser.not_mem_levelOps_of_level _ l2 l hl2 (by omega) (by omega) (by omega))
      · rw [show l2 + 1 + (l1 - (l2 + 1)) = l1 by omega]
        exact hab
    have hc2 : Parser.Eventually (Parser.level (l2 + 1)) ⟨ts, k + 1, cerr⟩
        (.ok ec ⟨ts, m, cerr⟩) :=
      Parser.operand_at_level _ ts m cerr t ec ht hc (l2 + 1) (by omega) (by omega)
        (fun l _ _ => Or.inl hend)
    have hall : Parser.Eventually (Parser.level l2) ⟨ts, i, cerr⟩
        (.ok (.binary (.binary ea o1.lexeme eb) o2.lexeme ec) ⟨ts, m, cerr⟩) :=
      Parser.level_binary l2 h22 h27 _ ts k m cerr o2 t _ ec hab2 ho2 hop2 hc2 ht (Or.inl hend)
    have htop : Parser.Eventually (Parser.level 2) ⟨ts, i, cerr⟩
        (.ok (.binary (.binary ea o1.lexeme eb) o2.lexeme ec) ⟨ts, m, cerr⟩) := by
      apply Parser.level_climb _ ts m cerr t _ ht (l2 - 2) 2 (by omega) (by omega)
      · intro l _ _
        exact Or.inl hend
      · rw [show 2 + (l2 - 2) = l2 by omega]
        exact hall
    exact Parser.expression_of_logicalOr _ ts m cerr t _ htop ht (Or.inl hend)

/-- A literal or identifier token that is not followed by `(` is read by `unary`
as the operand `operandExpr` describes. -/
theorem Parser.unary_of_operand (ts : List Token) (i : Nat) (cerr : List String)
    (a next : Token) (ea : Expr) (ha : ts[i]? = some a) (hnext : ts[i + 1]? = some next)
    (hn : next.type ≠ .LEFT_PAREN) (he : operandExpr a = some ea) :
    Parser.Eventually Parser.unary ⟨ts, i, cerr⟩ (.ok ea ⟨ts, i + 1, cerr⟩) := by
  refine ⟨4, fun n => ?_⟩
  have hcall : Parser.match_ [.LEFT_PAREN] ⟨ts, i + 1, cerr⟩ = .ok false ⟨ts, i + 1, cerr⟩ :=
    Parser.match_miss _ (i + 1) cerr next hnext [.LEFT_PAREN] (Or.inr (by simpa using hn))
  have hmiss : ∀ types : List TokenType, a.type ∉ types →
      Parser.match_ types ⟨ts, i, cerr⟩ = .ok false ⟨ts, i, cerr⟩ :=
    fun types h => Parser.match_miss _ i cerr _ ha types (Or.inr h)
  have hhit : a.type ≠ .END_OF_FILE →
      Parser.match_ [a.type] ⟨ts, i, cerr⟩ = .ok true ⟨ts, i + 1, cerr⟩ :=
    fun h => Parser.match_hit _ i cerr _ ha h [a.type] (by simp)
  have hprev := Parser.previous_after ts i cerr a ha
  obtain ⟨ty, lexeme, line, column⟩ := a
  cases ty <;> simp only [operandExpr] at he <;> try (cases he)
  case NUMBER =>
    cases hs : stod lexeme with
    | error err => rw [hs] at he; cases he
    | ok value =>
      rw [hs] at he
      cases he
      simp [Parser.unary, Parser.call, Parser.callLoop, Parser.primary, Parser.numberLiteral,
        hmiss, hhit, hcall, hprev, hs, bind, ParserM.bind, pure]
  all_goals
    simp [Parser.unary, Parser.call, Parser.callLoop, Parser.primary, hmiss, hhit, hcall,
      hprev, bind, ParserM.bind, pure]

/-- C3: for all one-token operands `a`, `b`, `c` (literals and identifiers) and
binary operators `o1`, `o2` with `o1` at a strictly lower precedence level than
`o2`, the tokens `a o1 b o2 c` parse to `Binary(a, o1, Binary(b, o2, c))` and the
tokens `a o2 b o1 c` parse to `Binary(Binary(a, o2, b), o1, c)`, each node with
the operator's lexeme, whenever the fuel is large enough.  The same holds when
the operands are arbitrary token sequences that `unary` reads (grouped and
prefixed expressions, calls).  The source text `print 1 + 2 * 3` lexes, parses
and runs to the output `7`. -/
theorem Parser.precedence_of_binary_operators :
    (∀ (a b c o1 o2 eof : Token) (ea eb ec : Expr) (l1 l2 : Nat) (cerr : List String),
      operandExpr a = some ea → operandExpr b = some eb → operandExpr c = some ec →
      binaryLevel o1.type = some l1 → binaryLevel o2.type = some l2 →
      eof.type = .END_OF_FILE → l1 < l2 →
      Parser.Eventually Parser.expression ⟨[a, o1, b, o2, c, eof], 0, cerr⟩
        (.ok (.binary ea o1.lexeme (.binary eb o2.lexeme ec))
          ⟨[a, o1, b, o2, c, eof], 5, cerr⟩) ∧
      Parser.Eventually Parser.expression ⟨[a, o2, b, o1, c, eof], 0, cerr⟩
        (.ok (.binary (.binary ea o2.lexeme eb) o1.lexeme ec)
          ⟨[a, o2, b, o1, c, eof], 5, cerr⟩)) ∧
    (∀ (ts : List Token) (cerr : List String) (i j k m : Nat) (o1 o2 t : Token)
      (ea eb ec : Expr) (l1 l2 : Nat),
      Parser.Eventually Parser.unary ⟨ts, i, cerr⟩ (.ok ea ⟨ts, j, cerr⟩) →
      ts[j]? = some o1 → binaryLevel o1.type = some l1 →
      Parser.Eventually Parser.unary ⟨ts, j + 1, cerr⟩ (.ok eb ⟨ts, k, cerr⟩) →
      ts[k]? = some o2 → binaryLevel o2.type = some l2 →
      Parser.Eventually Parser.unary ⟨ts, k + 1, cerr⟩ (.ok ec ⟨ts, m, cerr⟩) →
      ts[m]? = some t → t.type = .END_OF_FILE →
      (l1 < l2 →
        Parser.Eventually Parser.expression ⟨ts, i, cerr⟩
          (.ok (.binary ea o1.lexeme (.binary eb o2.lexeme ec)) ⟨ts, m, cerr⟩)) ∧
      (l2 < l1 →
        Parser.Eventually Parser.expression ⟨ts, i, cerr⟩
          (.ok (.binary (.binary ea o1.lexeme eb) o2.lexeme ec) ⟨ts, m, cerr⟩))) ∧
    lex "print 1 + 2 * 3" =
      [⟨.PRINT, "print", 1, 1⟩, ⟨.NUMBER, "1", 1, 7⟩, ⟨.PLUS, "+", 1, 9⟩, ⟨.NUMBER, "2", 1, 11⟩,
       ⟨.MULTIPLY, "*", 1, 13⟩, ⟨.NUMBER, "3", 1, 15⟩, ⟨.END_OF_FILE, "", 1, 16⟩] ∧
    (run 40 "print 1 + 2 * 3" (Interpreter.new Host.simple)).summary = some (["7"], [], 0) := by
  refine ⟨?_, ?_, by decide!, by decide!⟩
  · intro a b c o1 o2 eof ea eb ec l1 l2 cerr ha hb hc hl1 hl2 heof hlt
    have hp1 : o1.type ≠ .LEFT_PAREN := by
      intro h
      rw [h] at hl1
      simp [binaryLevel] at hl1
    have hp2 : o2.type ≠ .LEFT_PAREN := by
      intro h
      rw [h] at hl2
      simp [binaryLevel] at hl2
    have hp3 : eof.type ≠ .LEFT_PAREN := by
      rw [heof]
      decide
    constructor
    · exact (Parser.precedence_general [a, o1, b, o2, c, eof] cerr 0 1 3 5 o1 o2 eof ea eb ec
        l1 l2
        (Parser.unary_of_operand _ 0 cerr a o1 ea rfl rfl hp1 ha) rfl hl1
        (Parser.unary_of_operand _ 2 cerr b o2 eb rfl rfl hp2 hb) rfl hl2
        (Parser.unary_of_operand _ 4 cerr c eof ec rfl rfl hp3 hc) rfl heof).1 hlt
    · exact (Parser.precedence_general [a, o2, b, o1, c, eof] cerr 0 1 3 5 o2 o1 eof ea eb ec
        l2 l1
        (Parser.unary_of_operand _ 0 cerr a o2 ea rfl rfl hp2 ha) rfl hl2
        (Parser.unary_of_operand _ 2 cerr b o1 eb rfl rfl hp1 hb) rfl hl1
        (Parser.unary_of_operand _ 4 cerr c eof ec rfl rfl hp3 hc) rfl heof).2 hlt
  · intro ts cerr i j k m o1 o2 t ea eb ec l1 l2 ha ho1 hl1 hb ho2 hl2 hc ht hend
    exact Parser.precedence_general ts cerr i j k m o1 o2 t ea eb ec l1 l2 ha ho1 hl1 hb ho2
      hl2 hc ht hend

/-- C3, on the tokens of `1 + 2 * 3`: the parse is `1 + (2 * 3)`. -/
theorem Parser.precedence_of_binary_operators_witness :
    Parser.Eventually Parser.expression ⟨sumProductTokens, 0, []⟩
      (.ok (.binary (.literal (.number (Number.ofNat 1))) "+"
          (.binary (.literal (.number (Number.ofNat 2))) "*"
            (.literal (.number (Number.ofNat 3)))))
        ⟨sumProductTokens, 5, []⟩) :=
  (Parser.precedence_of_binary_operators.1
    ⟨.NUMBER, "1", 1, 1⟩ ⟨.NUMBER, "2", 1, 5⟩ ⟨.NUMBER, "3", 1, 9⟩
    ⟨.PLUS, "+", 1, 3⟩ ⟨.MULTIPLY, "*", 1, 7⟩ ⟨.END_OF_FILE, "", 1, 10⟩ _ _ _ 6 7 []
    rfl rfl rfl rfl rfl rfl (by decide)).1

/-! ## Reachable states are well-formed -/

theorem Heap.wellFormed_set (heap : Heap) (i : Nat) (env : Environment)
    (values : List (String × Value)) (henv : heap[i]? = some env)
    (hwf : Heap.WellFormed heap) :
    Heap.WellFormed (heap.set i { env with values := values }) := by
  intro ref e he parent hp
  by_cases hri : ref = i
  · subst hri
    have hlt : ref < heap.length := by
      rcases Nat.lt_or_ge ref heap.length with h | h
      · exact h
      · rw [List.getElem?_eq_none h] at henv
        cases henv
    rw [List.getElem?_set_self hlt] at he
    cases he
    exact hwf ref env henv parent hp
  · rw [List.getElem?_set_ne (Ne.symm hri)] at he
    exact hwf ref e he parent hp

theorem Heap.wellFormed_append (heap : Heap) (parent : Nat) (values : List (String × Value))
    (hwf : Heap.WellFormed heap) (hp : parent < heap.length) :
    Heap.WellFormed (heap ++ [{ enclosing := some parent, values := values }]) := by
  intro ref e he q hq
  rcases Nat.lt_or_ge ref heap.length with h | h
  · rw [List.getElem?_append_left h] at he
    exact hwf ref e he q hq
  · rcases Nat.eq_or_lt_of_le h with h1 | h1
    · subst h1
      simp at he
      subst he
      simp at hq
      omega
    · have : (heap ++ [{ enclosing := some parent, values := values }])[ref]? = none := by
        apply List.getElem?_eq_none
        simp
        omega
      rw [this] at he
      cases he

theorem Environment.assignFrom_shape (heap : Heap) (name : String) (value : Value) :
    ∀ (fuel ref : Nat) (heap' : Heap),
      Environment.assignFrom heap fuel ref name value = .ok heap' →
      ∃ (i : Nat) (env : Environment), heap[i]? = some env ∧
        heap' = heap.set i { env with values := mapSet env.values name value } := by
  intro fuel
  induction fuel with
  | zero => intro ref heap' h; simp [Environment.assignFrom] at h
  | succ fuel ih =>
    intro ref heap' h
    simp only [Environment.assignFrom] at h
    cases henv : heap[ref]? with
    | none => simp [henv] at h
    | some env =>
      simp only [henv] at h
      cases hfind : mapFind env.values name with
      | some old =>
        simp only [hfind] at h
        cases h
        exact ⟨ref, env, henv, rfl⟩
      | none =>
        simp only [hfind] at h
        cases hpar : env.enclosing with
        | none => simp [hpar] at h
        | some parent =>
          simp only [hpar] at h
          exact ih parent heap' h

theorem Interpreter.valid_set (st : Interpreter) (i : Nat) (env : Environment)
    (values : List (String × Value)) (henv : st.heap[i]? = some env) (hv : st.Valid) :
    Interpreter.Valid { st with heap := st.heap.set i { env with values := values } } := by
  obtain ⟨hwf, he, hc⟩ := hv
  refine ⟨Heap.wellFormed_set _ i env values henv hwf, by simpa using he, ?_⟩
  intro name parameters body closure hm
  simpa using hc name parameters body closure hm

theorem InterpM.sound_pure {α : Type} (a : α) : InterpM.Sound (pure a : InterpM α) := by
  intro st st' hv h
  change some st = some st' at h
  cases h
  exact ⟨hv, Nat.le_refl _, rfl⟩

theorem InterpM.sound_ite {α : Type} (c : Prop) [Decidable c] (a b : InterpM α)
    (ha : InterpM.Sound a) (hb : InterpM.Sound b) :
    InterpM.Sound (if c then a else b) := by
  split
  · exact ha
  · exact hb

theorem InterpM.sound_bind {α β : Type} (m : InterpM α) (f : α → InterpM β)
    (hm : InterpM.Sound m) (hf : ∀ a, InterpM.Sound (f a)) :
    InterpM.Sound (m >>= f) := by
  intro st st' hv h
  have hm' := hm st
  change (InterpM.bind m f st).finalState? = some st' at h
  unfold InterpM.bind at h
  cases hr : m st with
  | ok a st1 =>
    rw [hr] at h hm'
    obtain ⟨hv1, hl1, he1⟩ := hm' st1 hv rfl
    obtain ⟨hv2, hl2, he2⟩ := hf a st1 st' hv1 h
    exact ⟨hv2, Nat.le_trans hl1 hl2, he2.trans he1⟩
  | exception e st1 =>
    rw [hr] at h hm'
    simp only [Outcome.finalState?, Option.some.injEq] at h
    subst h
    exact hm' st1 hv rfl
  | fault => rw [hr] at h; cases h
  | timeout => rw [hr] at h; cases h

theorem InterpM.sound_runtimeError {α : Type} (what : String) :
    InterpM.Sound (InterpM.runtimeError what : InterpM α) := by
  intro st st' hv h
  change some st = some st' at h
  cases h
  exact ⟨hv, Nat.le_refl _, rfl⟩

theorem Interpreter.sound_setLastValue (value : Value) :
    InterpM.Sound (Interpreter.setLastValue value) := by
  intro st st' hv h
  change some { st with lastValue := value } = some st' at h
  cases h
  exact ⟨hv, Nat.le_refl _, rfl⟩

theorem Interpreter.sound_lookup (name : String) :
    InterpM.Sound (Interpreter.lookup name) := by
  intro st st' hv h
  unfold Interpreter.lookup at h
  cases hr : Environment.get st.heap st.environment name <;> rw [hr] at h <;>
    simp [Outcome.finalState?] at h <;> subst h <;> exact ⟨hv, Nat.le_refl _, rfl⟩

theorem Interpreter.sound_defineAt (ref : Nat) (name : String) (value : Value) :
    InterpM.Sound (InterpM.onEnvironment (fun heap _ => Environment.define heap ref name value)) := by
  intro st st' hv h
  unfold InterpM.onEnvironment Environment.define at h
  cases henv : st.heap[ref]? with
  | none => simp [henv, Outcome.finalState?] at h
  | some env =>
    simp [henv, Outcome.finalState?] at h
    subst h
    exact ⟨Interpreter.valid_set st ref env _ henv hv, by simp, rfl⟩

theorem Interpreter.sound_define (name : String) (value : Value) :
    InterpM.Sound (Interpreter.define name value) := by
  intro st st' hv h
  exact Interpreter.sound_defineAt st.environment name value st st' hv h

theorem Interpreter.sound_assign (name : String) (value : Value) :
    InterpM.Sound (Interpreter.assign name value) := by
  intro st st' hv h
  unfold Interpreter.assign InterpM.onEnvironment Environment.assign at h
  cases hr : Environment.assignFrom st.heap st.heap.length st.environment name value with
  | ok heap' =>
    obtain ⟨i, env, henv, hheap⟩ := Environment.assignFrom_shape _ _ _ _ _ _ hr
    simp [hr, Outcome.finalState?] at h
    subst h
    subst hheap
    exact ⟨Interpreter.valid_set st i env _ henv hv, by simp, rfl⟩
  | runtime_error what =>
    simp [hr, Outcome.finalState?] at h
    subst h
    exact ⟨hv, Nat.le_refl _, rfl⟩
  | fault => simp [hr, Outcome.finalState?] at h
  | timeout => simp [hr, Outcome.finalState?] at h

theorem Interpreter.sound_checkNumberOperand (op : String) (v : Value) :
    InterpM.Sound (Interpreter.checkNumberOperand op v) := by
  cases v <;> exact InterpM.sound_pure ()

theorem Interpreter.sound_checkNumberOperands (op : String) (l r : Value) :
    InterpM.Sound (Interpreter.checkNumberOperands op l r) := by
  cases l <;> cases r <;> exact InterpM.sound_pure ()

theorem Interpreter.sound_checked (op : String) (l r : Value) (f : Unit → InterpM Value)
    (hf : ∀ u, InterpM.Sound (f u)) :
    InterpM.Sound (Interpreter.checkNumberOperands op l r >>= f) :=
  InterpM.sound_bind _ _ (Interpreter.sound_checkNumberOperands _ _ _) hf

theorem Interpreter.sound_visitBinary (leftNode : Expr) (op : String) (l r : Value) :
    InterpM.Sound (Interpreter.visitBinary leftNode op l r) := by
  unfold Interpreter.visitBinary
  repeat' apply InterpM.sound_ite
  all_goals first
    | exact Interpreter.sound_setLastValue _
    | exact InterpM.sound_runtimeError _
    | exact Interpreter.sound_checked _ _ _ _ (fun _ => Interpreter.sound_setLastValue _)
    | exact Interpreter.sound_checked _ _ _ _ (fun _ =>
        InterpM.sound_ite _ _ _ (InterpM.sound_runtimeError _)
          (Interpreter.sound_setLastValue _))
    | skip
  · cases leftNode <;> first
      | exact InterpM.sound_runtimeError _
      | exact InterpM.sound_bind _ _ (Interpreter.sound_assign _ _)
          (fun _ => Interpreter.sound_setLastValue _)
  · cases l <;> cases r <;> first
      | exact Interpreter.sound_setLastValue _
      | exact InterpM.sound_runtimeError _

theorem Interpreter.sound_visitUnary (op : String) (r : Value) :
    InterpM.Sound (Interpreter.visitUnary op r) := by
  unfold Interpreter.visitUnary
  repeat' apply InterpM.sound_ite
  all_goals first
    | exact Interpreter.sound_setLastValue _
    | exact InterpM.sound_runtimeError _
    | exact InterpM.sound_bind _ _ (Interpreter.sound_checkNumberOperand _ _)
        (fun _ => Interpreter.sound_setLastValue _)

theorem Interpreter.sound_callNative (name : String) (arguments : List Value) :
    InterpM.Sound (Interpreter.callNative name arguments) := by
  intro st st' hv h
  unfold Interpreter.callNative at h
  repeat' split at h
  all_goals
    simp [Outcome.finalState?] at h
  all_goals
    subst h
    exact ⟨hv, Nat.le_refl _, rfl⟩

theorem Interpreter.sound_visitPrint (value : Value) :
    InterpM.Sound (Interpreter.visitPrint value) := by
  intro st st' hv h
  unfold Interpreter.visitPrint at h
  split at h <;> simp [Outcome.finalState?] at h
  subst h
  exact ⟨hv, Nat.le_refl _, rfl⟩

theorem Interpreter.sound_visitFunctionDeclaration (name : String)
    (parameters : List String) (body : List Stmt) :
    InterpM.Sound (Interpreter.visitFunctionDeclaration name parameters body) := by
  intro st st' hv h
  have hv1 : Interpreter.Valid
      { st with callables := st.callables ++ [.function name parameters body st.environment] } := by
    obtain ⟨hwf, he, hc⟩ := hv
    refine ⟨hwf, he, ?_⟩
    intro n ps b cl hm
    rcases List.mem_append.mp hm with h1 | h1
    · exact hc n ps b cl h1
    · simp at h1
      obtain ⟨_, _, _, h4⟩ := h1
      rw [h4]
      exact he
  exact Interpreter.sound_define name (.callable st.callables.length)
    { st with callables := st.callables ++ [.function name parameters body st.environment] }
    st' hv1 h

theorem Interpreter.sound_bindParameters (env : Nat) :
    ∀ (parameters : List String) (arguments : List Value),
      InterpM.Sound (Interpreter.bindParameters env parameters arguments) := by
  intro parameters
  induction parameters with
  | nil =>
    intro arguments
    cases arguments <;> exact InterpM.sound_pure ()
  | cons p ps ih =>
    intro arguments
    cases arguments with
    | nil =>
      intro st st' _ h
      simp [Interpreter.bindParameters, Outcome.finalState?] at h
    | cons a as =>
      exact InterpM.sound_bind _ _ (Interpreter.sound_defineAt _ _ _) (fun _ => ih as)

theorem Interpreter.sound_evaluateArguments (evaluate : Expr → InterpM Value)
    (hev : ∀ e, InterpM.Sound (evaluate e)) :
    ∀ (args : List Expr) (acc : List Value),
      InterpM.Sound (Interpreter.evaluateArguments evaluate args acc) := by
  intro args
  induction args with
  | nil => intro acc; exact InterpM.sound_pure acc
  | cons a rest ih =>
    intro acc
    exact InterpM.sound_bind _ _ (hev a) (fun _ => ih _)

theorem Interpreter.sound_executeStatements (execute : Stmt → InterpM Unit)
    (hex : ∀ s, InterpM.Sound (execute s)) :
    ∀ (statements : List Stmt),
      InterpM.Sound (Interpreter.executeStatements execute statements) := by
  intro statements
  induction statements with
  | nil => exact InterpM.sound_pure ()
  | cons s rest ih => exact InterpM.sound_bind _ _ (hex s) (fun _ => ih)

/-- A block on a new frame whose parent is an existing frame. -/
theorem Interpreter.sound_blockOn (execute : Stmt → InterpM Unit)
    (hex : ∀ s, InterpM.Sound (execute s)) (statements : List Stmt)
    (parameters : List String) (arguments : List Value) (parent : Nat)
    (st st' : Interpreter) (hv : st.Valid) (hp : parent < st.heap.length)
    (h : ((do
      let environment ← Interpreter.newEnvironment parent
      Interpreter.bindParameters environment parameters arguments
      Interpreter.executeBlock execute statements environment : InterpM Unit) st).finalState?
        = some st') :
    Interpreter.Valid st' ∧ st.heap.length ≤ st'.heap.length ∧
      st'.environment = st.environment := by
  -- the state after the allocation of the frame
  have hv1 : Interpreter.Valid
      { st with heap := st.heap ++ [{ enclosing := some parent, values := [] }] } := by
    obtain ⟨hwf, he, hc⟩ := hv
    refine ⟨Heap.wellFormed_append _ parent [] hwf hp, by simp; omega, ?_⟩
    intro n ps b cl hm
    have := hc n ps b cl hm
    simp
    omega
  change (InterpM.bind _ _ st).finalState? = some st' at h
  unfold InterpM.bind at h
  simp only [Interpreter.newEnvironment] at h
  change (InterpM.bind _ _ _).finalState? = some st' at h
  unfold InterpM.bind at h
  have hbp := Interpreter.sound_bindParameters st.heap.length parameters arguments
    { st with heap := st.heap ++ [{ enclosing := some parent, values := [] }] }
  cases hr : Interpreter.bindParameters st.heap.length parameters arguments
      { st with heap := st.heap ++ [{ enclosing := some parent, values := [] }] } with
  | ok u st2 =>
    rw [hr] at h hbp
    obtain ⟨hv2, hl2, he2⟩ := hbp st2 hv1 rfl
    simp only [] at h
    have hl2' : st.heap.length + 1 ≤ st2.heap.length := by simpa using hl2
    have hv2' : Interpreter.Valid { st2 with environment := st.heap.length } := by
      obtain ⟨hwf, _, hc⟩ := hv2
      exact ⟨hwf, by simp; omega, hc⟩
    have hin := Interpreter.sound_executeStatements execute hex statements
      { st2 with environment := st.heap.length }
    unfold Interpreter.executeBlock at h
    have henv2 : st2.environment = st.environment := he2
    cases hs : Interpreter.executeStatements execute statements
        { st2 with environment := st.heap.length } with
    | ok u3 st3 =>
      rw [hs] at hin
      obtain ⟨hv3, hl3, _⟩ := hin st3 hv2' rfl
      simp [hs, Outcome.finalState?] at h
      subst h
      have hl3' : st2.heap.length ≤ st3.heap.length := by simpa using hl3
      obtain ⟨hwf3, _, hc3⟩ := hv3
      refine ⟨⟨hwf3, ?_, hc3⟩, by simp; omega, by simp [henv2]⟩
      have := hv.2.1
      simp [henv2]
      omega
    | exception e st3 =>
      rw [hs] at hin
      obtain ⟨hv3, hl3, _⟩ := hin st3 hv2' rfl
      simp [hs, Outcome.finalState?] at h
      subst h
      have hl3' : st2.heap.length ≤ st3.heap.length := by simpa using hl3
      obtain ⟨hwf3, _, hc3⟩ := hv3
      refine ⟨⟨hwf3, ?_, hc3⟩, by simp; omega, by simp [henv2]⟩
      have := hv.2.1
      simp [henv2]
      omega
    | fault => simp [hs, Outcome.finalState?] at h
    | timeout => simp [hs, Outcome.finalState?] at h
  | exception e st2 =>
    rw [hr] at h hbp
    obtain ⟨hv2, hl2, he2⟩ := hbp st2 hv1 rfl
    simp only [Outcome.finalState?, Option.some.injEq] at h
    subst h
    have hl2' : st.heap.length + 1 ≤ st2.heap.length := by simpa using hl2
    exact ⟨hv2, by omega, he2⟩
  | fault => rw [hr] at h; cases h
  | timeout => rw [hr] at h; cases h


theorem Interpreter.sound_callFunction (execute : Stmt → InterpM Unit)
    (hex : ∀ s, InterpM.Sound (execute s)) (parameters : List String) (body : List Stmt)
    (closure : Nat) (arguments : List Value) (st st' : Interpreter) (hv : st.Valid)
    (hp : closure < st.heap.length)
    (h : (Interpreter.callFunction execute parameters body closure arguments st).finalState?
      = some st') :
    Interpreter.Valid st' ∧ st.heap.length ≤ st'.heap.length ∧
      st'.environment = st.environment := by
  have hin := Interpreter.sound_blockOn execute hex body parameters arguments closure st
  unfold Interpreter.callFunction at h
  split at h <;> rename_i heq <;> rw [heq] at hin <;>
    simp [Outcome.finalState?] at h
  all_goals
    subst h
    exact hin _ hv hp rfl

theorem Interpreter.sound_visitCall (execute : Stmt → InterpM Unit)
    (hex : ∀ s, InterpM.Sound (execute s)) (callee : Value) (arguments : List Value) :
    InterpM.Sound (Interpreter.visitCall execute callee arguments) := by
  unfold Interpreter.visitCall
  split
  · intro st st' hv h
    simp only at h
    split at h
    · cases h
    · rename_i callable hget
      split at h
      · simp [Outcome.finalState?] at h
        subst h
        exact ⟨hv, Nat.le_refl _, rfl⟩
      · have hc : ∀ st1 st2 : Interpreter, st1.Valid → st1 = st →
            (Interpreter.callCallable execute callable arguments st1).finalState? = some st2 →
            Interpreter.Valid st2 ∧ st1.heap.length ≤ st2.heap.length ∧
              st2.environment = st1.environment := by
          intro st1 st2 hv1 hst h1
          subst hst
          cases callable with
          | function name parameters body closure =>
            exact Interpreter.sound_callFunction execute hex _ _ _ _ st1 st2 hv1
              (hv1.2.2 name parameters body closure (List.mem_iff_getElem?.mpr ⟨_, hget⟩)) h1
          | native name paramCount =>
            exact Interpreter.sound_callNative _ _ st1 st2 hv1 h1
        change (InterpM.bind _ _ st).finalState? = some st' at h
        unfold InterpM.bind at h
        cases hr : Interpreter.callCallable execute callable arguments st with
        | ok a st1 =>
          rw [hr] at h
          have h1 := hc st st1 hv rfl (by rw [hr]; rfl)
          obtain ⟨hv2, hl2, he2⟩ := Interpreter.sound_setLastValue a st1 st' h1.1 h
          exact ⟨hv2, Nat.le_trans h1.2.1 hl2, he2.trans h1.2.2⟩
        | exception e st1 =>
          rw [hr] at h
          simp only [Outcome.finalState?, Option.some.injEq] at h
          subst h
          exact hc st st1 hv rfl (by rw [hr]; rfl)
        | fault => rw [hr] at h; cases h
        | timeout => rw [hr] at h; cases h
  · exact InterpM.sound_runtimeError _

/-- Every evaluation of an expression, every execution of a statement and every
loop leads from valid states to valid states, on every exit path. -/
theorem Interpreter.sound_all :
    ∀ fuel : Nat,
      (∀ e, InterpM.Sound (Interpreter.evaluate fuel e)) ∧
      (∀ s, InterpM.Sound (Interpreter.execute fuel s)) ∧
      (∀ c b, InterpM.Sound (Interpreter.whileLoop fuel c b)) := by
  intro fuel
  induction fuel with
  | zero =>
    refine ⟨?_, ?_, ?_⟩
    · intro e st st' _ h
      simp [Interpreter.evaluate, Outcome.finalState?] at h
    · intro s st st' _ h
      simp [Interpreter.execute, Outcome.finalState?] at h
    · intro c b st st' _ h
      simp [Interpreter.whileLoop, Outcome.finalState?] at h
  | succ fuel ih =>
    obtain ⟨ihe, ihs, ihw⟩ := ih
    refine ⟨?_, ?_, ?_⟩
    · intro e
      cases e with
      | literal value =>
        simp only [Interpreter.evaluate]
        exact Interpreter.sound_setLastValue _
      | identifier name =>
        simp only [Interpreter.evaluate]
        exact InterpM.sound_bind _ _ (Interpreter.sound_lookup _)
          (fun _ => Interpreter.sound_setLastValue _)
      | binary left op right =>
        simp only [Interpreter.evaluate]
        exact InterpM.sound_bind _ _ (ihe _) (fun _ =>
          InterpM.sound_bind _ _ (ihe _) (fun _ => Interpreter.sound_visitBinary _ _ _ _))
      | unary op operand =>
        simp only [Interpreter.evaluate]
        exact InterpM.sound_bind _ _ (ihe _) (fun _ => Interpreter.sound_visitUnary _ _)
      | call callee arguments =>
        simp only [Interpreter.evaluate]
        exact InterpM.sound_bind _ _ (ihe _) (fun _ =>
          InterpM.sound_bind _ _ (Interpreter.sound_evaluateArguments _ ihe _ _)
            (fun _ => Interpreter.sound_visitCall _ ihs _ _))
    · intro s
      cases s with
      | expression e =>
        simp only [Interpreter.execute]
        exact InterpM.sound_bind _ _ (ihe _) (fun _ => InterpM.sound_pure ())
      | varDeclaration name init =>
        simp only [Interpreter.execute]
        cases init with
        | none =>
          exact InterpM.sound_bind _ _ (InterpM.sound_pure _)
            (fun _ => Interpreter.sound_define _ _)
        | some e =>
          exact InterpM.sound_bind _ _ (ihe e) (fun _ => Interpreter.sound_define _ _)
      | block statements =>
        simp only [Interpreter.execute]
        intro st st' hv h
        exact Interpreter.sound_blockOn (Interpreter.execute fuel) ihs statements [] []
          st.environment st st' hv hv.2.1 h
      | ifStatement condition thenBranch elseBranch =>
        simp only [Interpreter.execute]
        refine InterpM.sound_bind _ _ (ihe _) (fun c => ?_)
        split
        · exact ihs _
        · cases elseBranch with
          | none => exact InterpM.sound_pure ()
          | some s => exact ihs s
      | whileStatement condition body =>
        simp only [Interpreter.execute]
        exact ihw _ _
      | functionDeclaration name parameters body =>
        simp only [Interpreter.execute]
        exact Interpreter.sound_visitFunctionDeclaration _ _ _
      | returnStatement value =>
        simp only [Interpreter.execute]
        have hthrow : ∀ v : Value, InterpM.Sound
            (fun st => Outcome.exception (Exception.ReturnException v) st : InterpM Unit) := by
          intro v st st' hv h
          change some st = some st' at h
          cases h
          exact ⟨hv, Nat.le_refl _, rfl⟩
        cases value with
        | none => exact InterpM.sound_bind _ _ (InterpM.sound_pure _) hthrow
        | some e => exact InterpM.sound_bind _ _ (ihe e) hthrow
      | print e =>
        simp only [Interpreter.execute]
        exact InterpM.sound_bind _ _ (ihe _) (fun _ => Interpreter.sound_visitPrint _)
    · intro c b
      simp only [Interpreter.whileLoop]
      refine InterpM.sound_bind _ _ (ihe _) (fun v => ?_)
      split
      · exact InterpM.sound_bind _ _ (ihs _) (fun _ => ihw _ _)
      · exact InterpM.sound_pure ()

theorem Interpreter.valid_new (host : Host) : (Interpreter.new host).Valid := by
  refine ⟨?_, by simp [Interpreter.new], ?_⟩
  · intro ref env he parent hp
    simp only [Interpreter.new] at he
    cases ref with
    | zero =>
      simp at he
      subst he
      simp at hp
    | succ n => simp at he
  · intro name parameters body closure hm
    simp [Interpreter.new, Interpreter.nativeFunctions] at hm

theorem Interpreter.sound_interpret (fuel : Nat) (program : Program) :
    InterpM.Sound (Interpreter.interpret fuel program) := by
  intro st st' hv h
  have hp := Interpreter.sound_executeStatements (Interpreter.execute fuel)
    (Interpreter.sound_all fuel).2.1 program.statements st
  unfold Interpreter.interpret Interpreter.visitProgram at h
  cases hr : Interpreter.executeStatements (Interpreter.execute fuel) program.statements st with
  | ok u st1 =>
    rw [hr] at hp
    simp [hr, Outcome.finalState?] at h
    subst h
    exact hp st1 hv rfl
  | exception e st1 =>
    rw [hr] at hp
    simp [hr, Outcome.finalState?] at h
    subst h
    exact hp st1 hv rfl
  | fault => simp [hr, Outcome.finalState?] at h
  | timeout => simp [hr, Outcome.finalState?] at h


/-- Every state that `interpret` reaches from a new interpreter is valid: the
heap is well-formed, the current environment is one of its frames and every
function object has captured one of its frames.  The assumptions of the
theorems on `Environment::get` and `Environment::assign` hold there. -/
theorem Interpreter.valid_reachable (fuel : Nat) (program : Program) (host : Host) :
    (Interpreter.interpret fuel program (Interpreter.new host)).AtExit Interpreter.Valid :=
  Outcome.atExit_of_finalState _ _ (fun st' h =>
    (Interpreter.sound_interpret fuel program (Interpreter.new host) st'
      (Interpreter.valid_new host) h).1)

/-! ## Assignment to an unbound name -/

/-- With enough fuel, `assignFrom` raises the error when no frame of the chain
binds the name. -/
theorem Environment.assignFrom_unbound (heap : Heap) (hwf : Heap.WellFormed heap)
    (name : String) (value : Value) :
    ∀ (fuel ref : Nat), ref < fuel → ref < heap.length →
      (∀ r ∈ Environment.chainFrom heap fuel ref, Environment.binding heap name r = none) →
      Environment.assignFrom heap fuel ref name value =
        .runtime_error ("Undefined variable '" ++ name ++ "'") := by
  intro fuel
  induction fuel with
  | zero => intro ref h; omega
  | succ fuel ih =>
    intro ref hfuel href hnone
    obtain ⟨env, henv⟩ : ∃ env, heap[ref]? = some env := by
      simp [List.getElem?_eq_getElem href]
    cases hpar : env.enclosing with
    | none =>
      have h1 := hnone ref (by simp [Environment.chainFrom, henv, hpar])
      simp only [Environment.binding, henv] at h1
      simp [Environment.assignFrom, henv, h1, hpar]
    | some parent =>
      have hlt : parent < ref := hwf ref env henv parent hpar
      have h1 := hnone ref (by simp [Environment.chainFrom, henv, hpar])
      simp only [Environment.binding, henv] at h1
      have h2 := ih parent (by omega) (by omega) (by
        intro r hr
        exact hnone r (by simp [Environment.chainFrom, henv, hpar, hr]))
      simp [Environment.assignFrom, henv, h1, hpar, h2]

/-- A successful `assignFrom` has overwritten one binding that existed. -/
theorem Environment.assignFrom_bound (heap : Heap) (name : String) (value : Value) :
    ∀ (fuel ref : Nat) (heap' : Heap),
      Environment.assignFrom heap fuel ref name value = .ok heap' →
      ∃ (i : Nat) (env : Environment), heap[i]? = some env ∧
        (mapFind env.values name).isSome ∧
        heap' = heap.set i { env with values := mapSet env.values name value } := by
  intro fuel
  induction fuel with
  | zero => intro ref heap' h; simp [Environment.assignFrom] at h
  | succ fuel ih =>
    intro ref heap' h
    simp only [Environment.assignFrom] at h
    cases henv : heap[ref]? with
    | none => simp [henv] at h
    | some env =>
      simp only [henv] at h
      cases hfind : mapFind env.values name with
      | some old =>
        simp only [hfind] at h
        cases h
        exact ⟨ref, env, henv, by simp [hfind], rfl⟩
      | none =>
        simp only [hfind] at h
        cases hpar : env.enclosing with
        | none => simp [hpar] at h
        | some parent =>
          simp only [hpar] at h
          exact ih parent heap' h

/-- C11: in a well-formed heap, when no frame of the chain of `ref` binds
`name`, `Environment::assign` raises `Undefined variable 'NAME'`; the
interpreter state after the failed assignment is the state before it (every
frame is unchanged), and `Environment::get` fails with the same error before
and after.  The error is raised only then.  In general an assignment never
creates a binding: after a successful `assign` every frame binds exactly the
names it bound before. -/
theorem Environment.assign_unbound_raises (heap : Heap) (hwf : Heap.WellFormed heap)
    (ref : Nat) (href : ref < heap.length) (name : String) (value : Value) :
    ((∀ r ∈ Environment.chain heap ref, Environment.binding heap name r = none) →
      Environment.assign heap ref name value =
        .runtime_error ("Undefined variable '" ++ name ++ "'") ∧
      Environment.get heap ref name =
        .runtime_error ("Undefined variable '" ++ name ++ "'") ∧
      ∀ st : Interpreter, st.heap = heap → st.environment = ref →
        Interpreter.assign name value st =
          .exception (.runtime_error ("Undefined variable '" ++ name ++ "'")) st ∧
        Interpreter.lookup name st =
          .exception (.runtime_error ("Undefined variable '" ++ name ++ "'")) st) ∧
    (Environment.assign heap ref name value =
        .runtime_error ("Undefined variable '" ++ name ++ "'") →
      ∀ r ∈ Environment.chain heap ref, Environment.binding heap name r = none) ∧
    (∀ heap' : Heap, Environment.assign heap ref name value = .ok heap' →
      ∀ (r : Nat) (other : String),
        (Environment.binding heap' other r).isSome = (Environment.binding heap other r).isSome) := by
  have hraise : (∀ r ∈ Environment.chain heap ref, Environment.binding heap name r = none) →
      Environment.assign heap ref name value =
        .runtime_error ("Undefined variable '" ++ name ++ "'") ∧
      Environment.get heap ref name =
        .runtime_error ("Undefined variable '" ++ name ++ "'") := by
    intro hnone
    refine ⟨Environment.assignFrom_unbound heap hwf name value heap.length ref href href hnone,
      ?_⟩
    unfold Environment.get
    rw [Environment.getFrom_eq_findSome heap hwf name heap.length ref href href]
    have : (Environment.chainFrom heap heap.length ref).findSome?
        (Environment.binding heap name) = none := by
      rw [List.findSome?_eq_none_iff]
      exact hnone
    rw [this]
  refine ⟨?_, ?_, ?_⟩
  · intro hnone
    obtain ⟨h1, h2⟩ := hraise hnone
    refine ⟨h1, h2, ?_⟩
    intro st hheap henv
    subst hheap
    subst henv
    constructor
    · simp [Interpreter.assign, InterpM.onEnvironment, h1]
    · simp [Interpreter.lookup, h2]
  · intro herr r hr
    cases hb : Environment.binding heap name r with
    | none => rfl
    | some old =>
      exfalso
      cases hfound : (Environment.chain heap ref).find?
          (fun r => (Environment.binding heap name r).isSome) with
      | none =>
        rw [List.find?_eq_none] at hfound
        have := hfound r hr
        simp [hb] at this
      | some i =>
        obtain ⟨env, _, hassign, _⟩ :=
          Environment.assignFrom_found heap hwf name value heap.length ref i href href hfound
        unfold Environment.assign at herr
        rw [hassign] at herr
        cases herr
  · intro heap' hok r other
    obtain ⟨i, env, henv, hbound, hheap⟩ :=
      Environment.assignFrom_bound heap name value heap.length ref heap' hok
    subst hheap
    have hi : i < heap.length := by
      rcases Nat.lt_or_ge i heap.length with h | h
      · exact h
      · rw [List.getElem?_eq_none h] at henv
        cases henv
    by_cases hri : r = i
    · subst hri
      simp only [Environment.binding, List.getElem?_set_self hi, henv]
      by_cases hn : other = name
      · subst hn
        rw [mapFind_mapSet_self]
        simp [hbound]
      · rw [mapFind_mapSet_other _ _ _ _ hn]
    · simp only [Environment.binding, List.getElem?_set_ne (Ne.symm hri)]

/-- C11, on the example frames: no frame on the chain of frame 2 binds `w`, so
the assignment raises the error. -/
theorem Environment.assign_unbound_raises_witness :
    Environment.assign exampleHeap 2 "w" (.bool true) =
      .runtime_error "Undefined variable 'w'" :=
  ((Environment.assign_unbound_raises exampleHeap exampleHeap_wellFormed 2 (by decide) "w"
    (.bool true)).1 (by decide)).1

/-! ## Frames and bindings are never removed -/

theorem Heap.extends_refl (heap : Heap) : Heap.Extends heap heap :=
  ⟨Nat.le_refl _, fun _ _ => ⟨rfl, fun _ h => h⟩⟩

theorem Heap.extends_trans (a b c : Heap) (hab : Heap.Extends a b) (hbc : Heap.Extends b c) :
    Heap.Extends a c := by
  refine ⟨Nat.le_trans hab.1 hbc.1, ?_⟩
  intro r hr
  obtain ⟨h1, h2⟩ := hab.2 r hr
  obtain ⟨h3, h4⟩ := hbc.2 r (Nat.lt_of_lt_of_le hr hab.1)
  exact ⟨h3.trans h1, fun name h => h4 name (h2 name h)⟩

theorem Heap.extends_set (heap : Heap) (i : Nat) (env : Environment) (name : String)
    (value : Value) (henv : heap[i]? = some env) :
    Heap.Extends heap (heap.set i { env with values := mapSet env.values name value }) := by
  have hi : i < heap.length := by
    rcases Nat.lt_or_ge i heap.length with h | h
    · exact h
    · rw [List.getElem?_eq_none h] at henv
      cases henv
  refine ⟨by simp, ?_⟩
  intro r _
  by_cases hri : r = i
  · subst hri
    refine ⟨by simp [Environment.parent, List.getElem?_set_self hi, henv], ?_⟩
    intro other hother
    simp only [Environment.binding, List.getElem?_set_self hi, henv] at hother ⊢
    by_cases hn : other = name
    · subst hn
      rw [mapFind_mapSet_self]
      rfl
    · rw [mapFind_mapSet_other _ _ _ _ hn]
      exact hother
  · refine ⟨by simp [Environment.parent, List.getElem?_set_ne (Ne.symm hri)], ?_⟩
    intro other hother
    simpa [Environment.binding, List.getElem?_set_ne (Ne.symm hri)] using hother

theorem Heap.extends_append (heap extra : Heap) : Heap.Extends heap (heap ++ extra) := by
  refine ⟨by simp, ?_⟩
  intro r hr
  refine ⟨by simp [Environment.parent, List.getElem?_append_left hr], ?_⟩
  intro other hother
  simpa [Environment.binding, List.getElem?_append_left hr] using hother

theorem InterpM.grows_pure {α : Type} (a : α) : InterpM.Grows (pure a : InterpM α) := by
  intro st st' h
  change some st = some st' at h
  cases h
  exact Heap.extends_refl _

theorem InterpM.grows_ite {α : Type} (c : Prop) [Decidable c] (a b : InterpM α)
    (ha : InterpM.Grows a) (hb : InterpM.Grows b) :
    InterpM.Grows (if c then a else b) := by
  split
  · exact ha
  · exact hb

theorem InterpM.grows_bind {α β : Type} (m : InterpM α) (f : α → InterpM β)
    (hm : InterpM.Grows m) (hf : ∀ a, InterpM.Grows (f a)) :
    InterpM.Grows (m >>= f) := by
  intro st st' h
  have hm' := hm st
  change (InterpM.bind m f st).finalState? = some st' at h
  unfold InterpM.bind at h
  cases hr : m st with
  | ok a st1 =>
    rw [hr] at h hm'
    exact Heap.extends_trans _ _ _ (hm' st1 rfl) (hf a st1 st' h)
  | exception e st1 =>
    rw [hr] at h hm'
    simp only [Outcome.finalState?, Option.some.injEq] at h
    subst h
    exact hm' st1 rfl
  | fault => rw [hr] at h; cases h
  | timeout => rw [hr] at h; cases h

theorem InterpM.grows_runtimeError {α : Type} (what : String) :
    InterpM.Grows (InterpM.runtimeError what : InterpM α) := by
  intro st st' h
  change some st = some st' at h
  cases h
  exact Heap.extends_refl _

theorem Interpreter.grows_setLastValue (value : Value) :
    InterpM.Grows (Interpreter.setLastValue value) := by
  intro st st' h
  change some { st with lastValue := value } = some st' at h
  cases h
  exact Heap.extends_refl _

theorem Interpreter.grows_lookup (name : String) :
    InterpM.Grows (Interpreter.lookup name) := by
  intro st st' h
  unfold Interpreter.lookup at h
  cases hr : Environment.get st.heap st.environment name <;> rw [hr] at h <;>
    simp [Outcome.finalState?] at h <;> subst h <;> exact Heap.extends_refl _

theorem Interpreter.grows_defineAt (ref : Nat) (name : String) (value : Value) :
    InterpM.Grows (InterpM.onEnvironment (fun heap _ => Environment.define heap ref name value)) := by
  intro st st' h
  unfold InterpM.onEnvironment Environment.define at h
  cases henv : st.heap[ref]? with
  | none => simp [henv, Outcome.finalState?] at h
  | some env =>
    simp [henv, Outcome.finalState?] at h
    subst h
    exact Heap.extends_set st.heap ref env name value henv

theorem Interpreter.grows_define (name : String) (value : Value) :
    InterpM.Grows (Interpreter.define name value) := by
  intro st st' h
  exact Interpreter.grows_defineAt st.environment name value st st' h

theorem Interpreter.grows_assign (name : String) (value : Value) :
    InterpM.Grows (Interpreter.assign name value) := by
  intro st st' h
  unfold Interpreter.assign InterpM.onEnvironment Environment.assign at h
  cases hr : Environment.assignFrom st.heap st.heap.length st.environment name value with
  | ok heap' =>
    obtain ⟨i, env, henv, hheap⟩ := Environment.assignFrom_shape _ _ _ _ _ _ hr
    simp [hr, Outcome.finalState?] at h
    subst h
    subst hheap
    exact Heap.extends_set st.heap i env name value henv
  | runtime_error what =>
    simp [hr, Outcome.finalState?] at h
    subst h
    exact Heap.extends_refl _
  | fault => simp [hr, Outcome.finalState?] at h
  | timeout => simp [hr, Outcome.finalState?] at h

theorem Interpreter.grows_checkNumberOperand (op : String) (v : Value) :
    InterpM.Grows (Interpreter.checkNumberOperand op v) := by
  cases v <;> exact InterpM.grows_pure ()

theorem Interpreter.grows_checkNumberOperands (op : String) (l r : Value) :
    InterpM.Grows (Interpreter.checkNumberOperands op l r) := by
  cases l <;> cases r <;> exact InterpM.grows_pure ()

theorem Interpreter.grows_checked (op : String) (l r : Value) (f : Unit → InterpM Value)
    (hf : ∀ u, InterpM.Grows (f u)) :
    InterpM.Grows (Interpreter.checkNumberOperands op l r >>= f) :=
  InterpM.grows_bind _ _ (Interpreter.grows_checkNumberOperands _ _ _) hf

theorem Interpreter.grows_visitBinary (leftNode : Expr) (op : String) (l r : Value) :
    InterpM.Grows (Interpreter.visitBinary leftNode op l r) := by
  unfold Interpreter.visitBinary
  repeat' apply InterpM.grows_ite
  all_goals first
    | exact Interpreter.grows_setLastValue _
    | exact InterpM.grows_runtimeError _
    | exact Interpreter.grows_checked _ _ _ _ (fun _ => Interpreter.grows_setLastValue _)
    | exact Interpreter.grows_checked _ _ _ _ (fun _ =>
        InterpM.grows_ite _ _ _ (InterpM.grows_runtimeError _)
          (Interpreter.grows_setLastValue _))
    | skip
  · cases leftNode <;> first
      | exact InterpM.grows_runtimeError _
      | exact InterpM.grows_bind _ _ (Interpreter.grows_assign _ _)
          (fun _ => Interpreter.grows_setLastValue _)
  · cases l <;> cases r <;> first
      | exact Interpreter.grows_setLastValue _
      | exact InterpM.grows_runtimeError _

theorem Interpreter.grows_visitUnary (op : String) (r : Value) :
    InterpM.Grows (Interpreter.visitUnary op r) := by
  unfold Interpreter.visitUnary
  repeat' apply InterpM.grows_ite
  all_goals first
    | exact Interpreter.grows_setLastValue _
    | exact InterpM.grows_runtimeError _
    | exact InterpM.grows_bind _ _ (Interpreter.grows_checkNumberOperand _ _)
        (fun _ => Interpreter.grows_setLastValue _)

theorem Interpreter.grows_callNative (name : String) (arguments : List Value) :
    InterpM.Grows (Interpreter.callNative name arguments) := by
  intro st st' h
  unfold Interpreter.callNative at h
  repeat' split at h
  all_goals
    simp [Outcome.finalState?] at h
  all_goals
    subst h
    exact Heap.extends_refl _

theorem Interpreter.grows_visitPrint (value : Value) :
    InterpM.Grows (Interpreter.visitPrint value) := by
  intro st st' h
  unfold Interpreter.visitPrint at h
  split at h <;> simp [Outcome.finalState?] at h
  subst h
  exact Heap.extends_refl _

theorem Interpreter.grows_newEnvironment (parent : Nat) :
    InterpM.Grows (Interpreter.newEnvironment parent) := by
  intro st st' h
  simp [Interpreter.newEnvironment, Outcome.finalState?] at h
  subst h
  exact Heap.extends_append _ _

theorem Interpreter.grows_visitFunctionDeclaration (name : String)
    (parameters : List String) (body : List Stmt) :
    InterpM.Grows (Interpreter.visitFunctionDeclaration name parameters body) := by
  intro st st' h
  exact Interpreter.grows_define name (.callable st.callables.length)
    { st with callables := st.callables ++ [.function name parameters body st.environment] }
    st' h

theorem Interpreter.grows_bindParameters (env : Nat) :
    ∀ (parameters : List String) (arguments : List Value),
      InterpM.Grows (Interpreter.bindParameters env parameters arguments) := by
  intro parameters
  induction parameters with
  | nil =>
    intro arguments
    cases arguments <;> exact InterpM.grows_pure ()
  | cons p ps ih =>
    intro arguments
    cases arguments with
    | nil =>
      intro st st' h
      simp [Interpreter.bindParameters, Outcome.finalState?] at h
    | cons a as =>
      exact InterpM.grows_bind _ _ (Interpreter.grows_defineAt _ _ _) (fun _ => ih as)

theorem Interpreter.grows_evaluateArguments (evaluate : Expr → InterpM Value)
    (hev : ∀ e, InterpM.Grows (evaluate e)) :
    ∀ (args : List Expr) (acc : List Value),
      InterpM.Grows (Interpreter.evaluateArguments evaluate args acc) := by
  intro args
  induction args with
  | nil => intro acc; exact InterpM.grows_pure acc
  | cons a rest ih =>
    intro acc
    exact InterpM.grows_bind _ _ (hev a) (fun _ => ih _)

theorem Interpreter.grows_executeStatements (execute : Stmt → InterpM Unit)
    (hex : ∀ s, InterpM.Grows (execute s)) :
    ∀ (statements : List Stmt),
      InterpM.Grows (Interpreter.executeStatements execute statements) := by
  intro statements
  induction statements with
  | nil => exact InterpM.grows_pure ()
  | cons s rest ih => exact InterpM.grows_bind _ _ (hex s) (fun _ => ih)

theorem Interpreter.grows_executeBlock (execute : Stmt → InterpM Unit)
    (hex : ∀ s, InterpM.Grows (execute s)) (statements : List Stmt) (env : Nat) :
    InterpM.Grows (Interpreter.executeBlock execute statements env) := by
  intro st st' h
  have hin := Interpreter.grows_executeStatements execute hex statements
    { st with environment := env }
  unfold Interpreter.executeBlock at h
  cases hr : Interpreter.executeStatements execute statements { st with environment := env } with
  | ok u st1 =>
    rw [hr] at hin
    simp [hr, Outcome.finalState?] at h
    subst h
    exact hin st1 rfl
  | exception e st1 =>
    rw [hr] at hin
    simp [hr, Outcome.finalState?] at h
    subst h
    exact hin st1 rfl
  | fault => simp [hr, Outcome.finalState?] at h
  | timeout => simp [hr, Outcome.finalState?] at h

theorem Interpreter.grows_callFunction (execute : Stmt → InterpM Unit)
    (hex : ∀ s, InterpM.Grows (execute s)) (parameters : List String) (body : List Stmt)
    (closure : Nat) (arguments : List Value) :
    InterpM.Grows (Interpreter.callFunction execute parameters body closure arguments) := by
  have hinner : InterpM.Grows (do
      let environment ← Interpreter.newEnvironment closure
      Interpreter.bindParameters environment parameters arguments
      Interpreter.executeBlock execute body environment : InterpM Unit) :=
    InterpM.grows_bind _ _ (Interpreter.grows_newEnvironment _) (fun _ =>
      InterpM.grows_bind _ _ (Interpreter.grows_bindParameters _ _ _) (fun _ =>
        Interpreter.grows_executeBlock execute hex body _))
  intro st st' h
  have hin := hinner st
  unfold Interpreter.callFunction at h
  split at h <;> rename_i heq <;> rw [heq] at hin <;>
    simp [Outcome.finalState?] at h
  all_goals
    subst h
    exact hin _ rfl

theorem Interpreter.grows_visitCall (execute : Stmt → InterpM Unit)
    (hex : ∀ s, InterpM.Grows (execute s)) (callee : Value) (arguments : List Value) :
    InterpM.Grows (Interpreter.visitCall execute callee arguments) := by
  unfold Interpreter.visitCall
  split
  · intro st st' h
    simp only at h
    split at h
    · cases h
    · rename_i callable _
      split at h
      · simp [Outcome.finalState?] at h
        subst h
        exact Heap.extends_refl _
      · have hc : InterpM.Grows (Interpreter.callCallable execute callable arguments) := by
          unfold Interpreter.callCallable
          split
          · exact Interpreter.grows_callFunction execute hex _ _ _ _
          · exact Interpreter.grows_callNative _ _
        exact InterpM.grows_bind _ _ hc (fun _ => Interpreter.grows_setLastValue _) st st' h
  · exact InterpM.grows_runtimeError _

/-- Every evaluation of an expression, every execution of a statement and every
loop keeps all frames, their enclosing references and their bound names. -/
theorem Interpreter.grows_all :
    ∀ fuel : Nat,
      (∀ e, InterpM.Grows (Interpreter.evaluate fuel e)) ∧
      (∀ s, InterpM.Grows (Interpreter.execute fuel s)) ∧
      (∀ c b, InterpM.Grows (Interpreter.whileLoop fuel c b)) := by
  intro fuel
  induction fuel with
  | zero =>
    refine ⟨?_, ?_, ?_⟩
    · intro e st st' h
      simp [Interpreter.evaluate, Outcome.finalState?] at h
    · intro s st st' h
      simp [Interpreter.execute, Outcome.finalState?] at h
    · intro c b st st' h
      simp [Interpreter.whileLoop, Outcome.finalState?] at h
  | succ fuel ih =>
    obtain ⟨ihe, ihs, ihw⟩ := ih
    refine ⟨?_, ?_, ?_⟩
    · intro e
      cases e with
      | literal value =>
        simp only [Interpreter.evaluate]
        exact Interpreter.grows_setLastValue _
      | identifier name =>
        simp only [Interpreter.evaluate]
        exact InterpM.grows_bind _ _ (Interpreter.grows_lookup _)
          (fun _ => Interpreter.grows_setLastValue _)
      | binary left op right =>
        simp only [Interpreter.evaluate]
        exact InterpM.grows_bind _ _ (ihe _) (fun _ =>
          InterpM.grows_bind _ _ (ihe _) (fun _ => Interpreter.grows_visitBinary _ _ _ _))
      | unary op operand =>
        simp only [Interpreter.evaluate]
        exact InterpM.grows_bind _ _ (ihe _) (fun _ => Interpreter.grows_visitUnary _ _)
      | call callee arguments =>
        simp only [Interpreter.evaluate]
        exact InterpM.grows_bind _ _ (ihe _) (fun _ =>
          InterpM.grows_bind _ _ (Interpreter.grows_evaluateArguments _ ihe _ _)
            (fun _ => Interpreter.grows_visitCall _ ihs _ _))
    · intro s
      cases s with
      | expression e =>
        simp only [Interpreter.execute]
        exact InterpM.grows_bind _ _ (ihe _) (fun _ => InterpM.grows_pure ())
      | varDeclaration name init =>
        simp only [Interpreter.execute]
        cases init with
        | none =>
          exact InterpM.grows_bind _ _ (InterpM.grows_pure _)
            (fun _ => Interpreter.grows_define _ _)
        | some e =>
          exact InterpM.grows_bind _ _ (ihe e) (fun _ => Interpreter.grows_define _ _)
      | block statements =>
        simp only [Interpreter.execute]
        refine InterpM.grows_bind _ _ ?_ (fun _ =>
          Interpreter.grows_executeBlock _ ihs _ _)
        intro st
        exact Interpreter.grows_newEnvironment _ st
      | ifStatement condition thenBranch elseBranch =>
        simp only [Interpreter.execute]
        refine InterpM.grows_bind _ _ (ihe _) (fun c => ?_)
        split
        · exact ihs _
        · cases elseBranch with
          | none => exact InterpM.grows_pure ()
          | some s => exact ihs s
      | whileStatement condition body =>
        simp only [Interpreter.execute]
        exact ihw _ _
      | functionDeclaration name parameters body =>
        simp only [Interpreter.execute]
        exact Interpreter.grows_visitFunctionDeclaration _ _ _
      | returnStatement value =>
        simp only [Interpreter.execute]
        have hthrow : ∀ v : Value, InterpM.Grows
            (fun st => Outcome.exception (Exception.ReturnException v) st : InterpM Unit) := by
          intro v st st' h
          change some st = some st' at h
          cases h
          exact Heap.extends_refl _
        cases value with
        | none => exact InterpM.grows_bind _ _ (InterpM.grows_pure _) hthrow
        | some e => exact InterpM.grows_bind _ _ (ihe e) hthrow
      | print e =>
        simp only [Interpreter.execute]
        exact InterpM.grows_bind _ _ (ihe _) (fun _ => Interpreter.grows_visitPrint _)
    · intro c b
      simp only [Interpreter.whileLoop]
      refine InterpM.grows_bind _ _ (ihe _) (fun v => ?_)
      split
      · exact InterpM.grows_bind _ _ (ihs _) (fun _ => ihw _ _)
      · exact InterpM.grows_pure ()


theorem Environment.chainFrom_mem_lt (heap : Heap) :
    ∀ (fuel ref r : Nat), r ∈ Environment.chainFrom heap fuel ref → r < heap.length := by
  intro fuel
  induction fuel with
  | zero => intro ref r h; simp [Environment.chainFrom] at h
  | succ fuel ih =>
    intro ref r h
    simp only [Environment.chainFrom] at h
    cases henv : heap[ref]? with
    | none => simp [henv] at h
    | some env =>
      have href : ref < heap.length := by
        rcases Nat.lt_or_ge ref heap.length with h1 | h1
        · exact h1
        · rw [List.getElem?_eq_none h1] at henv
          cases henv
      simp only [henv] at h
      cases hpar : env.enclosing with
      | none =>
        simp [hpar] at h
        omega
      | some parent =>
        simp only [hpar, List.mem_cons] at h
        rcases h with h | h
        · omega
        · exact ih parent r h

/-- The chain of an existing frame is the same in every heap that extends a
well-formed heap. -/
theorem Environment.chainFrom_extends (heap heap' : Heap) (hwf : Heap.WellFormed heap)
    (hext : Heap.Extends heap heap') :
    ∀ (fuel fuel' ref : Nat), ref < fuel → ref < fuel' → ref < heap.length →
      Environment.chainFrom heap' fuel' ref = Environment.chainFrom heap fuel ref := by
  intro fuel
  induction fuel with
  | zero => intro fuel' ref h; omega
  | succ fuel ih =>
    intro fuel' ref hfuel hfuel' href
    cases fuel' with
    | zero => omega
    | succ fuel' =>
      obtain ⟨env, henv⟩ : ∃ env, heap[ref]? = some env := by
        simp [List.getElem?_eq_getElem href]
      obtain ⟨env', henv'⟩ : ∃ env', heap'[ref]? = some env' := by
        simp [List.getElem?_eq_getElem (Nat.lt_of_lt_of_le href hext.1)]
      have hpar := (hext.2 ref href).1
      simp only [Environment.parent, henv, henv'] at hpar
      cases hp : env.enclosing with
      | none =>
        rw [hp] at hpar
        simp [Environment.chainFrom, henv, henv', hp, hpar]
      | some parent =>
        rw [hp] at hpar
        have hlt : parent < ref := hwf ref env henv parent hp
        have := ih fuel' parent (by omega) (by omega) (by omega)
        simp [Environment.chainFrom, henv, henv', hp, hpar, this]

/-- A name that is bound on the chain of a frame stays bound on it. -/
theorem Environment.bound_extends (heap heap' : Heap) (hwf : Heap.WellFormed heap)
    (hext : Heap.Extends heap heap') (ref : Nat) (href : ref < heap.length) (name : String)
    (hbound : ∃ r ∈ Environment.chain heap ref, (Environment.binding heap name r).isSome) :
    ∃ r ∈ Environment.chain heap' ref, (Environment.binding heap' name r).isSome := by
  obtain ⟨r, hr, hb⟩ := hbound
  have hchain : Environment.chain heap' ref = Environment.chain heap ref :=
    Environment.chainFrom_extends heap heap' hwf hext heap.length heap'.length ref href
      (Nat.lt_of_lt_of_le href hext.1) href
  refine ⟨r, by rw [hchain]; exact hr, ?_⟩
  exact (hext.2 r (Environment.chainFrom_mem_lt heap _ _ r hr)).2 name hb

/-- In a well-formed heap, assigning a name that is bound on the chain succeeds,
and a lookup then finds the value. -/
theorem Environment.assign_then_get (heap : Heap) (hwf : Heap.WellFormed heap) (ref : Nat)
    (href : ref < heap.length) (name : String) (value : Value)
    (hbound : ∃ r ∈ Environment.chain heap ref, (Environment.binding heap name r).isSome) :
    ∃ heap', Environment.assign heap ref name value = .ok heap' ∧
      Environment.get heap' ref name = .ok value := by
  cases hfound : (Environment.chain heap ref).find?
      (fun r => (Environment.binding heap name r).isSome) with
  | none =>
    exfalso
    rw [List.find?_eq_none] at hfound
    obtain ⟨r, hr, hb⟩ := hbound
    exact hfound r hr hb
  | some i =>
    obtain ⟨env, henv, hassign, hget⟩ :=
      Environment.assignFrom_found heap hwf name value heap.length ref i href href hfound
    refine ⟨_, hassign, ?_⟩
    unfold Environment.get
    simpa using hget

/-- In a well-formed heap, a name that is bound on the chain has a value. -/
theorem Environment.get_of_bound (heap : Heap) (hwf : Heap.WellFormed heap) (ref : Nat)
    (href : ref < heap.length) (name : String)
    (hbound : ∃ r ∈ Environment.chain heap ref, (Environment.binding heap name r).isSome) :
    ∃ old, Environment.get heap ref name = .ok old := by
  unfold Environment.get
  rw [Environment.getFrom_eq_findSome heap hwf name heap.length ref href href]
  cases hfind : (Environment.chainFrom heap heap.length ref).findSome?
      (Environment.binding heap name) with
  | some value => exact ⟨value, rfl⟩
  | none =>
    exfalso
    rw [List.findSome?_eq_none_iff] at hfind
    obtain ⟨r, hr, hb⟩ := hbound
    rw [hfind r hr] at hb
    cases hb

/-! ## The assignment expression -/

/-- C12: in a valid state in which `name` is bound on the chain of the current
environment, the left operand `name` evaluates to the old value; when the
right-hand side then evaluates to `v`, the expression `name = rhs` evaluates to
`v`, the state after it is the state after the right-hand side with the heap
that `Environment::assign` returns, and in that state the expression `name`
evaluates to `v`, with every amount of fuel from 1 on. -/
theorem Interpreter.assignment_yields_value (fuel : Nat) (name : String) (rhs : Expr)
    (st : Interpreter) (hv : st.Valid)
    (hbound : ∃ r ∈ Environment.chain st.heap st.environment,
      (Environment.binding st.heap name r).isSome) :
    ∃ old : Value,
      Interpreter.evaluate (fuel + 1) (.identifier name) st =
        .ok old { st with lastValue := old } ∧
      ∀ (v : Value) (st1 : Interpreter),
        Interpreter.evaluate (fuel + 1) rhs { st with lastValue := old } = .ok v st1 →
        ∃ heap' : Heap,
          Environment.assign st1.heap st1.environment name v = .ok heap' ∧
          Interpreter.evaluate (fuel + 2) (.binary (.identifier name) "=" rhs) st =
            .ok v { st1 with heap := heap', lastValue := v } ∧
          ({ st1 with heap := heap', lastValue := v } : Interpreter).environment =
            st.environment ∧
          ∀ k : Nat,
            Interpreter.evaluate (k + 1) (.identifier name)
                { st1 with heap := heap', lastValue := v } =
              .ok v { st1 with heap := heap', lastValue := v } := by
  obtain ⟨hwf, henv, hcl⟩ := hv
  obtain ⟨old, hold⟩ := Environment.get_of_bound st.heap hwf st.environment henv name hbound
  have hleft : ∀ k : Nat, Interpreter.evaluate (k + 1) (.identifier name) st =
      .ok old { st with lastValue := old } := by
    intro k
    simp [Interpreter.evaluate, Interpreter.lookup, hold, Interpreter.setLastValue, bind,
      InterpM.bind]
  refine ⟨old, hleft fuel, ?_⟩
  intro v st1 hrhs
  have hv0 : Interpreter.Valid { st with lastValue := old } := ⟨hwf, henv, hcl⟩
  have hfin : (Interpreter.evaluate (fuel + 1) rhs { st with lastValue := old }).finalState? =
      some st1 := by rw [hrhs]; rfl
  obtain ⟨hv1, _, he1⟩ :=
    (Interpreter.sound_all (fuel + 1)).1 rhs { st with lastValue := old } st1 hv0 hfin
  have hext : Heap.Extends st.heap st1.heap :=
    (Interpreter.grows_all (fuel + 1)).1 rhs { st with lastValue := old } st1 hfin
  have he1' : st1.environment = st.environment := he1
  have hbound1 := Environment.bound_extends st.heap st1.heap hwf hext st.environment henv name
    hbound
  rw [← he1'] at hbound1
  obtain ⟨heap', hassign, hget⟩ :=
    Environment.assign_then_get st1.heap hv1.1 st1.environment hv1.2.1 name v hbound1
  refine ⟨heap', hassign, ?_, he1', ?_⟩
  · rw [show Interpreter.evaluate (fuel + 2) (.binary (.identifier name) "=" rhs) =
        (Interpreter.evaluate (fuel + 1) (.identifier name) >>= fun l =>
          Interpreter.evaluate (fuel + 1) rhs >>= fun r =>
            Interpreter.visitBinary (.identifier name) "=" l r) from rfl]
    simp only [bind, InterpM.bind, hleft fuel, hrhs]
    simp [Interpreter.visitBinary, Interpreter.assign, InterpM.onEnvironment,
      hassign, Interpreter.setLastValue, bind, InterpM.bind]
  · intro k
    simp [Interpreter.evaluate, Interpreter.lookup, hget, Interpreter.setLastValue, bind,
      InterpM.bind]


theorem exampleClosureState_valid : exampleClosureState.Valid := by
  refine ⟨exampleHeap_wellFormed, by decide, ?_⟩
  intro name parameters body closure hm
  simp [exampleClosureState, Interpreter.new, Interpreter.nativeFunctions] at hm
  obtain ⟨_, _, _, h⟩ := hm
  subst h
  decide

/-- C12, on an example: `x` is bound in the global frame of the example state;
the expression `x = "new"` evaluates to `"new"`. -/
theorem Interpreter.assignment_yields_value_witness :
    (Interpreter.evaluate 2 (.binary (.identifier "x") "=" (.literal (.string "new")))
      exampleClosureState).value? = some (.string "new") := by
  obtain ⟨old, _, h⟩ := Interpreter.assignment_yields_value 0 "x" (.literal (.string "new"))
    exampleClosureState exampleClosureState_valid ⟨0, by decide, by decide⟩
  obtain ⟨heap', _, he, _, _⟩ := h (.string "new") _ rfl
  rw [he]
  rfl

/-! ## Rounding to a double -/

theorem bitLengthLoop_spec (fuel : Nat) :
    ∀ n, 0 < n → n ≤ fuel →
      2 ^ (bitLengthLoop fuel n - 1) ≤ n ∧ n < 2 ^ bitLengthLoop fuel n ∧
        1 ≤ bitLengthLoop fuel n := by
  induction fuel with
  | zero => intro n h1 h2; omega
  | succ f ih =>
    intro n h1 h2
    rw [bitLengthLoop, if_neg (by omega)]
    by_cases h : n / 2 = 0
    · have hn : n = 1 := by omega
      have h0 : bitLengthLoop f (n / 2) = 0 := by
        rw [h]
        cases f with
        | zero => rfl
        | succ f => rw [bitLengthLoop, if_pos rfl]
      rw [h0, hn]
      decide
    · obtain ⟨a, b, c⟩ := ih (n / 2) (by omega) (by omega)
      refine ⟨?_, ?_, by omega⟩
      · rw [Nat.add_sub_cancel]
        have : 2 ^ bitLengthLoop f (n / 2) = 2 ^ (bitLengthLoop f (n / 2) - 1) * 2 := by
          rw [← Nat.pow_succ]
          congr 1
          omega
        omega
      · rw [Nat.pow_succ]
        omega

theorem bitLength_spec (n : Nat) (h : 0 < n) :
    2 ^ (bitLength n - 1) ≤ n ∧ n < 2 ^ bitLength n ∧ 1 ≤ bitLength n :=
  bitLengthLoop_spec n n h (Nat.le_refl _)

theorem pow2Le_iff (e : Int) (n d : Nat) :
    pow2Le e n d = true ↔ (2 : ℚ) ^ e * d ≤ n := by
  unfold pow2Le
  by_cases he : e ≥ 0
  · rw [if_pos he, decide_eq_true_iff]
    obtain ⟨k, rfl⟩ := Int.eq_ofNat_of_zero_le he
    rw [Int.toNat_ofNat, zpow_natCast]
    constructor
    · intro h
      have : ((2 ^ k * d : Nat) : ℚ) ≤ (n : ℚ) := by exact_mod_cast h
      simpa using this
    · intro h
      have : ((2 ^ k * d : Nat) : ℚ) ≤ (n : ℚ) := by simpa using h
      exact_mod_cast this
  · rw [if_neg he, decide_eq_true_iff]
    have hneg : e = -((-e).toNat : Int) := by omega
    generalize (-e).toNat = k at hneg
    rw [hneg, zpow_neg, zpow_natCast]
    have hpos : (0 : ℚ) < 2 ^ k := by positivity
    constructor
    · intro h
      have h1 : (d : ℚ) ≤ (n : ℚ) * 2 ^ k := by exact_mod_cast h
      rw [inv_mul_le_iff₀ hpos]
      linarith
    · intro h
      rw [inv_mul_le_iff₀ hpos] at h
      have h1 : (d : ℚ) ≤ (n : ℚ) * 2 ^ k := by linarith
      exact_mod_cast h1

/-- The exponent that `binaryExponent` gives is the binary exponent. -/
theorem binaryExponent_spec (n d : Nat) (hn : 0 < n) (hd : 0 < d) :
    (2 : ℚ) ^ binaryExponent n d * d ≤ n ∧
      (n : ℚ) < (2 : ℚ) ^ (binaryExponent n d + 1) * d := by
  obtain ⟨a1, a2, a3⟩ := bitLength_spec n hn
  obtain ⟨b1, b2, b3⟩ := bitLength_spec d hd
  have ha1 : (2 : ℚ) ^ ((bitLength n : Int) - 1) ≤ n := by
    have : ((2 ^ (bitLength n - 1) : Nat) : ℚ) ≤ (n : ℚ) := by exact_mod_cast a1
    rw [show ((bitLength n : Int) - 1) = ((bitLength n - 1 : Nat) : Int) by omega, zpow_natCast]
    simpa using this
  have ha2 : (n : ℚ) < (2 : ℚ) ^ (bitLength n : Int) := by
    have : (n : ℚ) < ((2 ^ bitLength n : Nat) : ℚ) := by exact_mod_cast a2
    rw [zpow_natCast]
    simpa using this
  have hb1 : (2 : ℚ) ^ ((bitLength d : Int) - 1) ≤ d := by
    have : ((2 ^ (bitLength d - 1) : Nat) : ℚ) ≤ (d : ℚ) := by exact_mod_cast b1
    rw [show ((bitLength d : Int) - 1) = ((bitLength d - 1 : Nat) : Int) by omega, zpow_natCast]
    simpa using this
  have hb2 : (d : ℚ) < (2 : ℚ) ^ (bitLength d : Int) := by
    have : (d : ℚ) < ((2 ^ bitLength d : Nat) : ℚ) := by exact_mod_cast b2
    rw [zpow_natCast]
    simpa using this
  have hdq : (0 : ℚ) < d := by exact_mod_cast hd
  set g : Int := (bitLength n : Int) - (bitLength d : Int) with hg
  have hhigh : (n : ℚ) < (2 : ℚ) ^ (g + 1) * d := by
    have e1 : (2 : ℚ) ^ (g + 1) * (2 : ℚ) ^ ((bitLength d : Int) - 1) =
        (2 : ℚ) ^ (bitLength n : Int) := by
      rw [← zpow_add₀ (by norm_num : (2 : ℚ) ≠ 0)]
      congr 1
      omega
    calc (n : ℚ) < (2 : ℚ) ^ (bitLength n : Int) := ha2
      _ = (2 : ℚ) ^ (g + 1) * (2 : ℚ) ^ ((bitLength d : Int) - 1) := e1.symm
      _ ≤ (2 : ℚ) ^ (g + 1) * d := by
        apply mul_le_mul_of_nonneg_left hb1
        positivity
  have hlow : (2 : ℚ) ^ (g - 1) * d ≤ n := by
    have e1 : (2 : ℚ) ^ (g - 1) * (2 : ℚ) ^ (bitLength d : Int) =
        (2 : ℚ) ^ ((bitLength n : Int) - 1) := by
      rw [← zpow_add₀ (by norm_num : (2 : ℚ) ≠ 0)]
      congr 1
      omega
    calc (2 : ℚ) ^ (g - 1) * d ≤ (2 : ℚ) ^ (g - 1) * (2 : ℚ) ^ (bitLength d : Int) := by
          apply mul_le_mul_of_nonneg_left (le_of_lt hb2)
          positivity
      _ = (2 : ℚ) ^ ((bitLength n : Int) - 1) := e1
      _ ≤ n := ha1
  unfold binaryExponent
  simp only []
  rw [← hg]
  by_cases hgp : pow2Le g n d = true
  · rw [if_pos hgp]
    exact ⟨(pow2Le_iff _ _ _).mp hgp, hhigh⟩
  · rw [if_neg hgp]
    refine ⟨hlow, ?_⟩
    rw [pow2Le_iff] at hgp
    rw [show g - 1 + 1 = g by omega]
    linarith

/-- The binary exponent is determined by the value of the fraction. -/
theorem binaryExponent_unique (n d : Nat) (hn : 0 < n) (hd : 0 < d) (b : Int)
    (h1 : (2 : ℚ) ^ b * d ≤ n) (h2 : (n : ℚ) < (2 : ℚ) ^ (b + 1) * d) :
    binaryExponent n d = b := by
  obtain ⟨e1, e2⟩ := binaryExponent_spec n d hn hd
  have hdq : (0 : ℚ) < d := by exact_mod_cast hd
  have h3 : (2 : ℚ) ^ b < (2 : ℚ) ^ (binaryExponent n d + 1) := by
    have := lt_of_le_of_lt h1 e2
    exact lt_of_mul_lt_mul_right this (le_of_lt hdq)
  have h4 : (2 : ℚ) ^ binaryExponent n d < (2 : ℚ) ^ (b + 1) := by
    have := lt_of_le_of_lt e1 h2
    exact lt_of_mul_lt_mul_right this (le_of_lt hdq)
  have h5 := (zpow_lt_zpow_iff_right₀ (by norm_num : (1 : ℚ) < 2)).mp h3
  have h6 := (zpow_lt_zpow_iff_right₀ (by norm_num : (1 : ℚ) < 2)).mp h4
  omega

theorem binaryExponent_scale (n d k : Nat) (hn : 0 < n) (hd : 0 < d) (hk : 0 < k) :
    binaryExponent (n * k) (d * k) = binaryExponent n d := by
  obtain ⟨e1, e2⟩ := binaryExponent_spec n d hn hd
  have hkq : (0 : ℚ) < k := by exact_mod_cast hk
  apply binaryExponent_unique _ _ (Nat.mul_pos hn hk) (Nat.mul_pos hd hk)
  · push_cast
    calc (2 : ℚ) ^ binaryExponent n d * (d * k) = ((2 : ℚ) ^ binaryExponent n d * d) * k := by ring
      _ ≤ n * k := mul_le_mul_of_nonneg_right e1 (le_of_lt hkq)
  · push_cast
    calc (n : ℚ) * k < ((2 : ℚ) ^ (binaryExponent n d + 1) * d) * k :=
          mul_lt_mul_of_pos_right e2 hkq
      _ = _ := by ring

theorem roundQuotient_scale (num den k : Nat) (hk : 0 < k) :
    roundQuotient (num * k) (den * k) = roundQuotient num den := by
  unfold roundQuotient
  simp only []
  rw [Nat.mul_div_mul_right _ _ hk, Nat.mul_mod_mul_right]
  have h1 : (2 * (num % den * k) > den * k) ↔ (2 * (num % den) > den) := by
    constructor
    · intro h
      have : den * k < (2 * (num % den)) * k := by linarith
      exact Nat.lt_of_mul_lt_mul_right this
    · intro h
      have : den * k < (2 * (num % den)) * k := Nat.mul_lt_mul_of_pos_right h hk
      linarith
  have h2 : (2 * (num % den * k) = den * k) ↔ (2 * (num % den) = den) := by
    constructor
    · intro h
      have : (2 * (num % den)) * k = den * k := by linarith
      exact Nat.eq_of_mul_eq_mul_right hk this
    · intro h
      calc 2 * (num % den * k) = (2 * (num % den)) * k := by ring
        _ = den * k := by rw [h]
  simp only [h1, h2]

/-- What `roundQuotient` gives is a whole number nearest to the quotient, and
is the quotient when that is a whole number. -/
theorem roundQuotient_spec (num den : Nat) (hden : 0 < den) :
    |(roundQuotient num den : ℚ) - (num : ℚ) / den| ≤ 1 / 2 ∧
    (∀ s : Nat, (s : ℚ) = (num : ℚ) / den → roundQuotient num den = s) ∧
    (∀ lo hi : Nat, (lo : ℚ) ≤ (num : ℚ) / den → (num : ℚ) / den < hi →
      lo ≤ roundQuotient num den ∧ roundQuotient num den ≤ hi) ∧
    (|(roundQuotient num den : ℚ) - (num : ℚ) / den| = 1 / 2 → roundQuotient num den % 2 = 0) := by
  have hdenq : (0 : ℚ) < den := by exact_mod_cast hden
  have hdenne : (den : ℚ) ≠ 0 := ne_of_gt hdenq
  set S : ℚ := (num : ℚ) / den with hS
  have hnum : (num : ℚ) = S * den := by rw [hS]; field_simp
  have hdiv : den * (num / den) + num % den = num := Nat.div_add_mod num den
  have hmod : num % den < den := Nat.mod_lt _ hden
  have hdivq : (den : ℚ) * ((num / den : Nat) : ℚ) + ((num % den : Nat) : ℚ) = S * den := by
    rw [← hnum]
    exact_mod_cast hdiv
  have hmodq : ((num % den : Nat) : ℚ) < den := by exact_mod_cast hmod
  have hmod0 : (0 : ℚ) ≤ ((num % den : Nat) : ℚ) := by positivity
  have hq : ((num / den : Nat) : ℚ) = S - ((num % den : Nat) : ℚ) / den := by
    field_simp
    linarith
  have hsix : roundQuotient num den =
      (if 2 * (num % den) > den ∨ (2 * (num % den) = den ∧ num / den % 2 = 1)
        then num / den + 1 else num / den) := rfl
  refine ⟨?_, ?_, ?_, ?_⟩
  · rw [hsix]
    split
    · rename_i hc
      have hc2 : den ≤ 2 * (num % den) := by omega
      have hc2q : (den : ℚ) ≤ 2 * ((num % den : Nat) : ℚ) := by exact_mod_cast hc2
      push_cast
      rw [hq, abs_le]
      constructor
      · have : (0 : ℚ) ≤ 1 - ((num % den : Nat) : ℚ) / den := by
          rw [sub_nonneg, div_le_one hdenq]
          exact le_of_lt hmodq
        linarith
      · have : (1 : ℚ) / 2 ≤ ((num % den : Nat) : ℚ) / den := by
          rw [le_div_iff₀ hdenq]
          linarith
        linarith
    · rename_i hc
      have hc2 : 2 * (num % den) ≤ den := by omega
      have hc2q : 2 * ((num % den : Nat) : ℚ) ≤ (den : ℚ) := by exact_mod_cast hc2
      rw [hq, abs_le]
      constructor
      · have : ((num % den : Nat) : ℚ) / den ≤ 1 / 2 := by
          rw [div_le_iff₀ hdenq]
          linarith
        linarith
      · have : (0 : ℚ) ≤ ((num % den : Nat) : ℚ) / den := by positivity
        linarith
  · intro s hs
    have h1 : num = s * den := by
      have : (num : ℚ) = ((s * den : Nat) : ℚ) := by
        rw [hnum, ← hs]
        push_cast
        rfl
      exact_mod_cast this
    have h2 : num / den = s := by rw [h1]; exact Nat.mul_div_cancel _ hden
    have h3 : num % den = 0 := by rw [h1]; exact Nat.mul_mod_left _ _
    rw [hsix, h3, h2]
    have : ¬ (2 * 0 > den ∨ 2 * 0 = den ∧ s % 2 = 1) := by omega
    rw [if_neg this]
  · intro lo hi hlo hhi
    have h1 : lo * den ≤ num := by
      have : ((lo * den : Nat) : ℚ) ≤ (num : ℚ) := by
        rw [hnum]
        push_cast
        exact mul_le_mul_of_nonneg_right hlo (le_of_lt hdenq)
      exact_mod_cast this
    have h2 : num < hi * den := by
      have : (num : ℚ) < ((hi * den : Nat) : ℚ) := by
        rw [hnum]
        push_cast
        exact mul_lt_mul_of_pos_right hhi hdenq
      exact_mod_cast this
    have h3 : lo ≤ num / den := (Nat.le_div_iff_mul_le hden).mpr h1
    have h4 : num / den < hi := (Nat.div_lt_iff_lt_mul hden).mpr h2
    rw [hsix]
    split <;> omega
  · rw [hsix]
    split
    · rename_i hc
      intro h
      push_cast at h
      rw [hq] at h
      have hpos : (0 : ℚ) ≤ S - ((num % den : Nat) : ℚ) / den + 1 - S := by
        have : ((num % den : Nat) : ℚ) / den ≤ 1 := by
          rw [div_le_one hdenq]; exact le_of_lt hmodq
        linarith
      rw [abs_of_nonneg hpos] at h
      have h2 : ((num % den : Nat) : ℚ) / den = 1 / 2 := by linarith
      rw [div_eq_iff hdenne] at h2
      have h3 : 2 * (num % den) = den := by
        have : (2 : ℚ) * ((num % den : Nat) : ℚ) = den := by linarith
        exact_mod_cast this
      rcases hc with hc | hc
      · omega
      · omega
    · rename_i hc
      intro h
      rw [hq] at h
      have hneg : S - ((num % den : Nat) : ℚ) / den - S ≤ 0 := by
        have : (0 : ℚ) ≤ ((num % den : Nat) : ℚ) / den := by positivity
        linarith
      rw [abs_of_nonpos hneg] at h
      have h2 : ((num % den : Nat) : ℚ) / den = 1 / 2 := by linarith
      rw [div_eq_iff hdenne] at h2
      have h3 : 2 * (num % den) = den := by
        have : (2 : ℚ) * ((num % den : Nat) : ℚ) = den := by linarith
        exact_mod_cast this
      have : ¬ (num / den % 2 = 1) := fun h4 => hc (Or.inr ⟨h3, h4⟩)
      omega

theorem doubleExponent_scale (n d k : Nat) (hn : 0 < n) (hd : 0 < d) (hk : 0 < k) :
    doubleExponent (n * k) (d * k) = doubleExponent n d := by
  unfold doubleExponent
  rw [binaryExponent_scale n d k hn hd hk]

theorem doubleMantissa_scale (n d k : Nat) (hn : 0 < n) (hd : 0 < d) (hk : 0 < k) :
    doubleMantissa (n * k) (d * k) = doubleMantissa n d := by
  unfold doubleMantissa
  simp only []
  rw [doubleExponent_scale n d k hn hd hk]
  split
  · rw [show d * k * 2 ^ (doubleExponent n d).toNat = d * 2 ^ (doubleExponent n d).toNat * k by ring]
    exact roundQuotient_scale _ _ _ hk
  · rw [show n * k * 2 ^ (-doubleExponent n d).toNat = n * 2 ^ (-doubleExponent n d).toNat * k by
      ring]
    exact roundQuotient_scale _ _ _ hk

theorem roundToDouble_scale (s : Bool) (n d k : Nat) (hn : 0 < n) (hd : 0 < d) (hk : 0 < k) :
    roundToDouble s (n * k) (d * k) = roundToDouble s n d := by
  unfold roundToDouble
  simp only []
  rw [doubleExponent_scale n d k hn hd hk, doubleMantissa_scale n d k hn hd hk]

/-- Rounding depends on the value of the fraction only. -/
theorem roundToDouble_congr (s : Bool) (n d n' d' : Nat) (hn : 0 < n) (hd : 0 < d)
    (hn' : 0 < n') (hd' : 0 < d') (h : n * d' = n' * d) :
    roundToDouble s n d = roundToDouble s n' d' := by
  rw [← roundToDouble_scale s n d d' hn hd hd', ← roundToDouble_scale s n' d' d hn' hd' hd, h,
    Nat.mul_comm d d']

theorem Number.ofFraction_congr (num num' : Int) (den den' : Nat) (hd : 0 < den)
    (hd' : 0 < den') (h : num * den' = num' * den) :
    Number.ofFraction num den = Number.ofFraction num' den' := by
  unfold Number.ofFraction
  have hdz : (0 : Int) < den := by exact_mod_cast hd
  have hdz' : (0 : Int) < den' := by exact_mod_cast hd'
  by_cases h0 : num = 0
  · have h0' : num' = 0 := by
      rw [h0, zero_mul] at h
      rcases mul_eq_zero.mp h.symm with h1 | h1
      · exact h1
      · omega
    rw [if_pos h0, if_pos h0']
  · have h0' : num' ≠ 0 := by
      intro h1
      rw [h1, zero_mul] at h
      rcases mul_eq_zero.mp h with h2 | h2
      · exact h0 h2
      · omega
    rw [if_neg h0, if_neg h0']
    have hsign : decide (num < 0) = decide (num' < 0) := by
      by_cases hneg : num < 0
      · have : num' < 0 := by
          by_contra hc
          have h1 : num * den' < 0 := mul_neg_of_neg_of_pos hneg hdz'
          have h2 : 0 ≤ num' * den := mul_nonneg (by omega) (le_of_lt hdz)
          omega
        simp [hneg, this]
      · have : ¬ num' < 0 := by
          intro hc
          have h1 : num' * den < 0 := mul_neg_of_neg_of_pos hc hdz
          have h2 : 0 ≤ num * den' := mul_nonneg (by omega) (le_of_lt hdz')
          omega
        simp [hneg, this]
    rw [hsign]
    apply roundToDouble_congr _ _ _ _ _ (Int.natAbs_pos.mpr h0) hd (Int.natAbs_pos.mpr h0') hd'
    have := congrArg Int.natAbs h
    rw [Int.natAbs_mul, Int.natAbs_mul, Int.natAbs_ofNat, Int.natAbs_ofNat] at this
    exact this

theorem Number.ofFraction_eq_ofRat (num : Int) (den : Nat) (hden : 0 < den) :
    Number.ofFraction num den = Number.ofRat (mkRat num den) := by
  unfold Number.ofRat
  apply Number.ofFraction_congr _ _ _ _ hden (mkRat num den).den_pos
  have h := Rat.num_div_den (mkRat num den)
  have hq : (mkRat num den : ℚ) = (num : ℚ) / (den : ℚ) := Rat.mkRat_eq_div _ _
  have hd1 : ((mkRat num den).den : ℚ) ≠ 0 := by
    exact_mod_cast (mkRat num den).den_pos.ne'
  have hd2 : (den : ℚ) ≠ 0 := by exact_mod_cast hden.ne'
  have h3 : ((mkRat num den).num : ℚ) / ((mkRat num den).den : ℚ) = (num : ℚ) / (den : ℚ) := by
    rw [h, hq]
  rw [div_eq_div_iff hd1 hd2] at h3
  have h4 : ((num * ((mkRat num den).den : Int) : Int) : ℚ) =
      (((mkRat num den).num * (den : Int) : Int) : ℚ) := by
    push_cast
    linarith
  exact_mod_cast h4

/-- The sum of two finite doubles is the double nearest to the sum of their
values. -/
theorem Number.add_real (p q : ℚ) :
    Number.add (.real p) (.real q) = Number.ofRat (p + q) := by
  rw [show Number.add (.real p) (.real q) =
    Number.ofFraction (p.num * q.den + q.num * p.den) (p.den * q.den) from rfl,
    Number.ofFraction_eq_ofRat _ _ (Nat.mul_pos p.den_pos q.den_pos), Rat.add_def']

/-- The rounded mantissa is the whole number nearest to the quotient in units in
the last place, ties to even. -/
theorem doubleMantissa_spec (n d : Nat) (hd : 0 < d) :
    |(doubleMantissa n d : ℚ) - (n : ℚ) / d * (2 : ℚ) ^ (-doubleExponent n d)| ≤ 1 / 2 ∧
    (∀ s : Nat, (s : ℚ) = (n : ℚ) / d * (2 : ℚ) ^ (-doubleExponent n d) →
      doubleMantissa n d = s) ∧
    (∀ lo hi : Nat, (lo : ℚ) ≤ (n : ℚ) / d * (2 : ℚ) ^ (-doubleExponent n d) →
      (n : ℚ) / d * (2 : ℚ) ^ (-doubleExponent n d) < hi →
      lo ≤ doubleMantissa n d ∧ doubleMantissa n d ≤ hi) ∧
    (|(doubleMantissa n d : ℚ) - (n : ℚ) / d * (2 : ℚ) ^ (-doubleExponent n d)| = 1 / 2 →
      doubleMantissa n d % 2 = 0) := by
  have hdq : (d : ℚ) ≠ 0 := by exact_mod_cast hd.ne'
  unfold doubleMantissa
  simp only []
  by_cases he : doubleExponent n d ≥ 0
  · rw [if_pos he]
    obtain ⟨k, hk⟩ := Int.eq_ofNat_of_zero_le he
    have key : (n : ℚ) / ((d * 2 ^ (doubleExponent n d).toNat : Nat) : ℚ) =
        (n : ℚ) / d * (2 : ℚ) ^ (-doubleExponent n d) := by
      rw [hk, Int.toNat_ofNat, zpow_neg, zpow_natCast]
      push_cast
      field_simp
    rw [← key]
    exact roundQuotient_spec _ _ (Nat.mul_pos hd (by positivity))
  · rw [if_neg he]
    have hneg : -doubleExponent n d = (((-doubleExponent n d).toNat : Nat) : Int) := by omega
    have key : ((n * 2 ^ (-doubleExponent n d).toNat : Nat) : ℚ) / (d : ℚ) =
        (n : ℚ) / d * (2 : ℚ) ^ (-doubleExponent n d) := by
      rw [hneg, zpow_natCast, Int.toNat_ofNat]
      push_cast
      field_simp
    rw [← key]
    exact roundQuotient_spec _ _ hd

/-- No whole number is nearer to the quotient than the rounded mantissa. -/
theorem doubleMantissa_nearest (n d : Nat) (hd : 0 < d) (k : Nat) :
    |(doubleMantissa n d : ℚ) - (n : ℚ) / d * (2 : ℚ) ^ (-doubleExponent n d)| ≤
      |(k : ℚ) - (n : ℚ) / d * (2 : ℚ) ^ (-doubleExponent n d)| := by
  have h := (doubleMantissa_spec n d hd).1
  by_cases hk : k = doubleMantissa n d
  · rw [hk]
  · have h1 : (1 : ℚ) ≤ |(k : ℚ) - (doubleMantissa n d : ℚ)| := by
      rcases Nat.lt_or_gt_of_ne hk with h2 | h2
      · have : (k : ℚ) + 1 ≤ (doubleMantissa n d : ℚ) := by exact_mod_cast h2
        rw [abs_of_nonpos (by linarith)]
        linarith
      · have : (doubleMantissa n d : ℚ) + 1 ≤ (k : ℚ) := by exact_mod_cast h2
        rw [abs_of_nonneg (by linarith)]
        linarith
    have h3 := abs_sub_le (k : ℚ) ((n : ℚ) / d * (2 : ℚ) ^ (-doubleExponent n d))
      (doubleMantissa n d : ℚ)
    rw [abs_sub_comm ((n : ℚ) / d * (2 : ℚ) ^ (-doubleExponent n d))
      (doubleMantissa n d : ℚ)] at h3
    linarith

theorem doubleExponent_le (n d : Nat) :
    -1074 ≤ doubleExponent n d ∧
    (-1022 ≤ binaryExponent n d → doubleExponent n d = binaryExponent n d - 52) ∧
    (binaryExponent n d < -1022 → doubleExponent n d = -1074) := by
  unfold doubleExponent doubleQuantum
  refine ⟨?_, ?_, ?_⟩
  · split <;> omega
  · intro h
    rw [if_neg (by omega)]
  · intro h
    rw [if_pos h]

/-- The fraction between two powers of two, in units in the last place. -/
theorem doubleScaled_range (n d : Nat) (hn : 0 < n) (hd : 0 < d) :
    (-1022 ≤ binaryExponent n d →
      (2 : ℚ) ^ (52 : Int) ≤ (n : ℚ) / d * (2 : ℚ) ^ (-doubleExponent n d) ∧
      (n : ℚ) / d * (2 : ℚ) ^ (-doubleExponent n d) < (2 : ℚ) ^ (53 : Int)) ∧
    (binaryExponent n d < -1022 →
      (n : ℚ) / d * (2 : ℚ) ^ (-doubleExponent n d) < (2 : ℚ) ^ (52 : Int)) := by
  obtain ⟨e1, e2⟩ := binaryExponent_spec n d hn hd
  obtain ⟨q1, q2, q3⟩ := doubleExponent_le n d
  have hdq : (0 : ℚ) < d := by exact_mod_cast hd
  have h1 : (2 : ℚ) ^ binaryExponent n d ≤ (n : ℚ) / d := by
    rw [le_div_iff₀ hdq]; exact e1
  have h2 : (n : ℚ) / d < (2 : ℚ) ^ (binaryExponent n d + 1) := by
    rw [div_lt_iff₀ hdq]; exact e2
  have hpos : (0 : ℚ) < (2 : ℚ) ^ (-doubleExponent n d) := by positivity
  constructor
  · intro hb
    rw [q2 hb]
    rw [q2 hb] at hpos
    constructor
    · calc (2 : ℚ) ^ (52 : Int)
          = (2 : ℚ) ^ binaryExponent n d * (2 : ℚ) ^ (-(binaryExponent n d - 52)) := by
            rw [← zpow_add₀ (by norm_num : (2 : ℚ) ≠ 0)]
            congr 1
            omega
        _ ≤ _ := mul_le_mul_of_nonneg_right h1 (le_of_lt hpos)
    · calc (n : ℚ) / d * (2 : ℚ) ^ (-(binaryExponent n d - 52))
          < (2 : ℚ) ^ (binaryExponent n d + 1) * (2 : ℚ) ^ (-(binaryExponent n d - 52)) :=
            mul_lt_mul_of_pos_right h2 hpos
        _ = (2 : ℚ) ^ (53 : Int) := by
            rw [← zpow_add₀ (by norm_num : (2 : ℚ) ≠ 0)]
            congr 1
            omega
  · intro hb
    rw [q3 hb]
    rw [q3 hb] at hpos
    calc (n : ℚ) / d * (2 : ℚ) ^ (-(-1074 : Int))
        < (2 : ℚ) ^ (binaryExponent n d + 1) * (2 : ℚ) ^ (-(-1074 : Int)) :=
          mul_lt_mul_of_pos_right h2 hpos
      _ = (2 : ℚ) ^ (binaryExponent n d + 1 + 1074) := by
          rw [← zpow_add₀ (by norm_num : (2 : ℚ) ≠ 0)]
          congr 1
      _ ≤ (2 : ℚ) ^ (52 : Int) :=
          (zpow_le_zpow_iff_right₀ (by norm_num : (1 : ℚ) < 2)).mpr (by omega)

/-- The rounded mantissa has 53 binary digits, or is `2^53`; below the normal
range it has fewer. -/
theorem doubleMantissa_range (n d : Nat) (hn : 0 < n) (hd : 0 < d) :
    (-1022 ≤ binaryExponent n d →
      2 ^ 52 ≤ doubleMantissa n d ∧ doubleMantissa n d ≤ 2 ^ 53) ∧
    (binaryExponent n d < -1022 → doubleMantissa n d ≤ 2 ^ 52) := by
  obtain ⟨r1, r2⟩ := doubleScaled_range n d hn hd
  obtain ⟨_, _, s3, _⟩ := doubleMantissa_spec n d hd
  constructor
  · intro hb
    obtain ⟨a, b⟩ := r1 hb
    exact s3 (2 ^ 52) (2 ^ 53) (by push_cast; exact_mod_cast a) (by push_cast; exact_mod_cast b)
  · intro hb
    exact (s3 0 (2 ^ 52) (by
      push_cast
      have hdq : (0 : ℚ) < d := by exact_mod_cast hd
      positivity) (by push_cast; exact_mod_cast r2 hb)).2

theorem doubleHuge_eq : doubleHuge = 2 ^ 1024 := by
  unfold doubleHuge
  rw [← pow_mul]

/-- The value of the rounded mantissa at its exponent, as `roundToDouble` builds
it. -/
theorem doubleValue_eq (s : Bool) (m : Nat) (e : Int) :
    (mkRat (if s then -Int.ofNat (m * 2 ^ e.toNat) else Int.ofNat (m * 2 ^ e.toNat))
      (2 ^ (-e).toNat) : ℚ) = (if s then -1 else 1) * ((m : ℚ) * (2 : ℚ) ^ e) := by
  rw [Rat.mkRat_eq_div]
  by_cases he : e ≥ 0
  · obtain ⟨k, hk⟩ := Int.eq_ofNat_of_zero_le he
    have h1 : e.toNat = k := by omega
    have h2 : (-e).toNat = 0 := by omega
    rw [h1, h2, hk, zpow_natCast]
    cases s <;> simp
  · have hneg : e = -(((-e).toNat : Nat) : Int) := by omega
    have h1 : e.toNat = 0 := by omega
    rw [h1]
    generalize (-e).toNat = k at hneg
    rw [hneg, zpow_neg, zpow_natCast]
    cases s <;> simp [div_eq_mul_inv]

theorem roundToDouble_eq (s : Bool) (n d : Nat) :
    roundToDouble s n d =
      if doubleMantissa n d = 0 then Number.zero s
      else if doubleExponent n d ≥ 0 ∧
          doubleHuge ≤ doubleMantissa n d * 2 ^ (doubleExponent n d).toNat then .inf s
      else .real ((if s then -1 else 1) *
        ((doubleMantissa n d : ℚ) * (2 : ℚ) ^ doubleExponent n d)) := by
  unfold roundToDouble
  simp only []
  rw [doubleValue_eq]

theorem two_zpow_natCast (k : Nat) : (2 : ℚ) ^ ((k : Nat) : Int) = ((2 ^ k : Nat) : ℚ) := by
  rw [zpow_natCast, Nat.cast_pow, Nat.cast_ofNat]

theorem two_pow_le_mul_iff (K m k : Nat) :
    2 ^ K ≤ m * 2 ^ k ↔ (2 : ℚ) ^ ((K : Nat) : Int) ≤ (m : ℚ) * (2 : ℚ) ^ ((k : Nat) : Int) := by
  rw [two_zpow_natCast, two_zpow_natCast, ← Nat.cast_mul, Nat.cast_le]

/-- The test for overflow in `roundToDouble`, on the value. -/
theorem doubleOverflows_iff (m : Nat) (e : Int) (hm : m ≤ 2 ^ 53) :
    (e ≥ 0 ∧ doubleHuge ≤ m * 2 ^ e.toNat) ↔
      (2 : ℚ) ^ (1024 : Int) ≤ (m : ℚ) * (2 : ℚ) ^ e := by
  rw [doubleHuge_eq]
  have hmq : (m : ℚ) ≤ (2 : ℚ) ^ (53 : Int) := by
    have h1 : (m : ℚ) ≤ ((2 ^ 53 : Nat) : ℚ) := Nat.cast_le.mpr hm
    rw [← two_zpow_natCast] at h1
    exact h1
  by_cases he : e ≥ 0
  · obtain ⟨k, hk⟩ := Int.eq_ofNat_of_zero_le he
    have h1 : e.toNat = k := by omega
    rw [h1, hk]
    constructor
    · rintro ⟨_, h⟩
      exact (two_pow_le_mul_iff 1024 m k).mp h
    · intro h
      exact ⟨by omega, (two_pow_le_mul_iff 1024 m k).mpr h⟩
  · constructor
    · rintro ⟨h, _⟩
      exact absurd h he
    · intro h
      exfalso
      have h2 : (2 : ℚ) ^ e ≤ (2 : ℚ) ^ (0 : Int) :=
        (zpow_le_zpow_iff_right₀ (by norm_num : (1 : ℚ) < 2)).mpr (by omega)
      have h3 : (m : ℚ) * (2 : ℚ) ^ e ≤ (2 : ℚ) ^ (53 : Int) * (2 : ℚ) ^ (0 : Int) :=
        mul_le_mul hmq h2 (by positivity) (by positivity)
      have h4 : (2 : ℚ) ^ (53 : Int) * (2 : ℚ) ^ (0 : Int) < (2 : ℚ) ^ (1024 : Int) := by
        rw [← zpow_add₀ (by norm_num : (2 : ℚ) ≠ 0)]
        exact (zpow_lt_zpow_iff_right₀ (by norm_num : (1 : ℚ) < 2)).mpr (by norm_num)
      linarith

theorem doubleMantissa_le (n d : Nat) (hn : 0 < n) (hd : 0 < d) :
    doubleMantissa n d ≤ 2 ^ 53 := by
  obtain ⟨r1, r2⟩ := doubleMantissa_range n d hn hd
  by_cases hb : -1022 ≤ binaryExponent n d
  · exact (r1 hb).2
  · exact Nat.le_trans (r2 (by omega)) (Nat.pow_le_pow_right (by norm_num) (by norm_num))

theorem doubleValue_error (n d : Nat) (hd : 0 < d) :
    |(doubleMantissa n d : ℚ) * (2 : ℚ) ^ doubleExponent n d - (n : ℚ) / d| ≤
      (2 : ℚ) ^ doubleExponent n d / 2 := by
  have h := (doubleMantissa_spec n d hd).1
  have hP : (0 : ℚ) < (2 : ℚ) ^ doubleExponent n d := by positivity
  have hinv : (2 : ℚ) ^ (-doubleExponent n d) * (2 : ℚ) ^ doubleExponent n d = 1 := by
    rw [← zpow_add₀ (by norm_num : (2 : ℚ) ≠ 0), neg_add_cancel, zpow_zero]
  have h1 : (doubleMantissa n d : ℚ) * (2 : ℚ) ^ doubleExponent n d - (n : ℚ) / d =
      ((doubleMantissa n d : ℚ) - (n : ℚ) / d * (2 : ℚ) ^ (-doubleExponent n d)) *
        (2 : ℚ) ^ doubleExponent n d := by
    rw [sub_mul, mul_assoc, hinv, mul_one]
  rw [h1, abs_mul, abs_of_pos hP]
  calc _ ≤ 1 / 2 * (2 : ℚ) ^ doubleExponent n d := mul_le_mul_of_nonneg_right h (le_of_lt hP)
    _ = _ := by ring

/-- No whole number of units in the last place is nearer to the fraction than
the value that `roundToDouble` builds. -/
theorem doubleValue_nearest_unit (n d : Nat) (hd : 0 < d) (k : Nat) :
    |(doubleMantissa n d : ℚ) * (2 : ℚ) ^ doubleExponent n d - (n : ℚ) / d| ≤
      |(k : ℚ) * (2 : ℚ) ^ doubleExponent n d - (n : ℚ) / d| := by
  have h := doubleMantissa_nearest n d hd k
  have hP : (0 : ℚ) < (2 : ℚ) ^ doubleExponent n d := by positivity
  have hinv : (2 : ℚ) ^ (-doubleExponent n d) * (2 : ℚ) ^ doubleExponent n d = 1 := by
    rw [← zpow_add₀ (by norm_num : (2 : ℚ) ≠ 0), neg_add_cancel, zpow_zero]
  have h1 : ∀ x : ℚ, x * (2 : ℚ) ^ doubleExponent n d - (n : ℚ) / d =
      (x - (n : ℚ) / d * (2 : ℚ) ^ (-doubleExponent n d)) * (2 : ℚ) ^ doubleExponent n d := by
    intro x
    rw [sub_mul, mul_assoc, hinv, mul_one]
  rw [h1, h1, abs_mul, abs_mul, abs_of_pos hP]
  exact mul_le_mul_of_nonneg_right h (le_of_lt hP)

/-- The value that `roundToDouble` builds is a double unless it is `2^1024` or
more. -/
theorem doubleValue_representable (n d : Nat) (hn : 0 < n) (hd : 0 < d)
    (hno : ¬ (2 : ℚ) ^ (1024 : Int) ≤
      (doubleMantissa n d : ℚ) * (2 : ℚ) ^ doubleExponent n d) :
    Number.representable ((doubleMantissa n d : ℚ) * (2 : ℚ) ^ doubleExponent n d) := by
  obtain ⟨q1, q2, q3⟩ := doubleExponent_le n d
  obtain ⟨r1, r2⟩ := doubleMantissa_range n d hn hd
  have hle := doubleMantissa_le n d hn hd
  have hP : (0 : ℚ) < (2 : ℚ) ^ doubleExponent n d := by positivity
  have habs : |(doubleMantissa n d : ℚ) * (2 : ℚ) ^ doubleExponent n d| =
      (doubleMantissa n d : ℚ) * (2 : ℚ) ^ doubleExponent n d :=
    abs_of_nonneg (by positivity)
  -- a mantissa of at least `2^52` at an exponent of at least `x` reaches `2^(52 + x)`
  have hbig : ∀ (M : Nat) (x : Int), 2 ^ M ≤ doubleMantissa n d → x ≤ doubleExponent n d →
      (M : Int) + x = 1024 →
      (2 : ℚ) ^ (1024 : Int) ≤ (doubleMantissa n d : ℚ) * (2 : ℚ) ^ doubleExponent n d := by
    intro M x h1 h2 h3
    have h4 : (2 : ℚ) ^ ((M : Nat) : Int) ≤ (doubleMantissa n d : ℚ) := by
      rw [two_zpow_natCast]
      exact Nat.cast_le.mpr h1
    have h5 : (2 : ℚ) ^ x ≤ (2 : ℚ) ^ doubleExponent n d :=
      (zpow_le_zpow_iff_right₀ (by norm_num : (1 : ℚ) < 2)).mpr h2
    calc (2 : ℚ) ^ (1024 : Int) = (2 : ℚ) ^ ((M : Nat) : Int) * (2 : ℚ) ^ x := by
          rw [← zpow_add₀ (by norm_num : (2 : ℚ) ≠ 0), h3]
      _ ≤ _ := mul_le_mul h4 h5 (by positivity) (by positivity)
  by_cases hm : doubleMantissa n d < 2 ^ 53
  · refine ⟨doubleMantissa n d, doubleExponent n d, hm, q1, ?_, habs⟩
    by_contra hc
    have he : 972 ≤ doubleExponent n d := by omega
    have hb : -1022 ≤ binaryExponent n d := by
      by_contra hb
      have := q3 (by omega)
      omega
    exact hno (hbig 52 972 (r1 hb).1 he (by norm_num))
  · have hm2 : doubleMantissa n d = 2 ^ 53 := by omega
    refine ⟨2 ^ 52, doubleExponent n d + 1, by norm_num, by omega, ?_, ?_⟩
    · by_contra hc
      have he : 971 ≤ doubleExponent n d := by omega
      exact hno (hbig 53 971 (by omega) he (by norm_num))
    · rw [habs, hm2, zpow_add₀ (by norm_num : (2 : ℚ) ≠ 0)]
      push_cast
      ring

/-- No double is nearer to the fraction than the value that `roundToDouble`
builds. -/
theorem doubleValue_nearest (n d : Nat) (hn : 0 < n) (hd : 0 < d) (w : ℚ)
    (hw : Number.representable w) :
    |(doubleMantissa n d : ℚ) * (2 : ℚ) ^ doubleExponent n d - (n : ℚ) / d| ≤
      |w - (n : ℚ) / d| := by
  obtain ⟨M, k, hM, hk1, hk2, hwabs⟩ := hw
  obtain ⟨q1, q2, q3⟩ := doubleExponent_le n d
  have hdq : (0 : ℚ) < d := by exact_mod_cast hd
  have hnq : (0 : ℚ) < n := by exact_mod_cast hn
  have hr : (0 : ℚ) < (n : ℚ) / d := by positivity
  by_cases hpos : w ≤ 0
  · have h0 := doubleValue_nearest_unit n d hd 0
    rw [Nat.cast_zero, zero_mul, zero_sub, abs_neg, abs_of_pos hr] at h0
    calc _ ≤ (n : ℚ) / d := h0
      _ ≤ |w - (n : ℚ) / d| := by
        rw [abs_of_nonpos (by linarith)]
        linarith
  · have hwpos : 0 < w := not_le.mp hpos
    rw [abs_of_pos hwpos] at hwabs
    by_cases hke : doubleExponent n d ≤ k
    · obtain ⟨j, hj⟩ : ∃ j : Nat, k - doubleExponent n d = (j : Int) :=
        ⟨(k - doubleExponent n d).toNat, by omega⟩
      have h0 := doubleValue_nearest_unit n d hd (M * 2 ^ j)
      have hval : ((M * 2 ^ j : Nat) : ℚ) * (2 : ℚ) ^ doubleExponent n d = w := by
        rw [hwabs, Nat.cast_mul, ← two_zpow_natCast, mul_assoc,
          ← zpow_add₀ (by norm_num : (2 : ℚ) ≠ 0), ← hj]
        congr 2
        omega
      rw [hval] at h0
      exact h0
    · have hb : -1022 ≤ binaryExponent n d := by
        by_contra hb
        have := q3 (by omega)
        omega
      have he := q2 hb
      obtain ⟨e1, e2⟩ := binaryExponent_spec n d hn hd
      have hlow : (2 : ℚ) ^ binaryExponent n d ≤ (n : ℚ) / d := by
        rw [le_div_iff₀ hdq]; exact e1
      have h0 := doubleValue_nearest_unit n d hd (2 ^ 52)
      have hval : ((2 ^ 52 : Nat) : ℚ) * (2 : ℚ) ^ doubleExponent n d =
          (2 : ℚ) ^ binaryExponent n d := by
        rw [← two_zpow_natCast, ← zpow_add₀ (by norm_num : (2 : ℚ) ≠ 0), he]
        congr 1
        omega
      have habs : |(2 : ℚ) ^ binaryExponent n d - (n : ℚ) / d| =
          -((2 : ℚ) ^ binaryExponent n d - (n : ℚ) / d) := abs_of_nonpos (by linarith)
      rw [hval, habs] at h0
      have hMq : (M : ℚ) ≤ (2 : ℚ) ^ (53 : Int) := by
        have h1 : (M : ℚ) ≤ ((2 ^ 53 : Nat) : ℚ) := Nat.cast_le.mpr (le_of_lt hM)
        rw [← two_zpow_natCast] at h1
        exact h1
      have hk : (2 : ℚ) ^ k ≤ (2 : ℚ) ^ (doubleExponent n d - 1) :=
        (zpow_le_zpow_iff_right₀ (by norm_num : (1 : ℚ) < 2)).mpr (by omega)
      have hwle : w ≤ (2 : ℚ) ^ binaryExponent n d := by
        calc w = (M : ℚ) * (2 : ℚ) ^ k := hwabs
          _ ≤ (2 : ℚ) ^ (53 : Int) * (2 : ℚ) ^ (doubleExponent n d - 1) :=
            mul_le_mul hMq hk (by positivity) (by positivity)
          _ = (2 : ℚ) ^ binaryExponent n d := by
            rw [← zpow_add₀ (by norm_num : (2 : ℚ) ≠ 0), he]
            congr 1
            omega
      calc _ ≤ -((2 : ℚ) ^ binaryExponent n d - (n : ℚ) / d) := h0
        _ ≤ |w - (n : ℚ) / d| := by
          rw [abs_of_nonpos (by linarith)]
          linarith

/-- What `roundToDouble` returns when it returns a finite number. -/
theorem roundToDouble_real (s : Bool) (n d : Nat) (hn : 0 < n) (hd : 0 < d) (v : ℚ)
    (h : roundToDouble s n d = .real v) :
    v = (if s then -1 else 1) * ((doubleMantissa n d : ℚ) * (2 : ℚ) ^ doubleExponent n d) ∧
    ¬ (2 : ℚ) ^ (1024 : Int) ≤ (doubleMantissa n d : ℚ) * (2 : ℚ) ^ doubleExponent n d := by
  rw [roundToDouble_eq] at h
  by_cases hm : doubleMantissa n d = 0
  · rw [if_pos hm] at h
    cases s with
    | true => cases h
    | false =>
      have hv : v = 0 := by
        have := Number.real.inj h
        rw [← this]
        rfl
      rw [hm, hv]
      refine ⟨by simp, ?_⟩
      rw [Nat.cast_zero, zero_mul]
      exact not_le.mpr (by positivity)
  · rw [if_neg hm] at h
    by_cases ho : doubleExponent n d ≥ 0 ∧
        doubleHuge ≤ doubleMantissa n d * 2 ^ (doubleExponent n d).toNat
    · rw [if_pos ho] at h
      cases h
    · rw [if_neg ho] at h
      refine ⟨(Number.real.inj h).symm, ?_⟩
      rw [← doubleOverflows_iff _ _ (doubleMantissa_le n d hn hd)]
      exact ho

/-- A fraction that is a double is returned as it is. -/
theorem roundToDouble_exact (s : Bool) (n d : Nat) (hn : 0 < n) (hd : 0 < d)
    (h : Number.representable ((n : ℚ) / d)) :
    roundToDouble s n d = .real ((if s then -1 else 1) * ((n : ℚ) / d)) := by
  obtain ⟨M, k, hM, hk1, hk2, hrabs⟩ := h
  obtain ⟨q1, q2, q3⟩ := doubleExponent_le n d
  have hdq : (0 : ℚ) < d := by exact_mod_cast hd
  have hnq : (0 : ℚ) < n := by exact_mod_cast hn
  have hr : (0 : ℚ) < (n : ℚ) / d := by positivity
  rw [abs_of_pos hr] at hrabs
  obtain ⟨e1, e2⟩ := binaryExponent_spec n d hn hd
  have hlow : (2 : ℚ) ^ binaryExponent n d ≤ (n : ℚ) / d := by
    rw [le_div_iff₀ hdq]; exact e1
  have hMq : (M : ℚ) < (2 : ℚ) ^ (53 : Int) := by
    have h1 : (M : ℚ) < ((2 ^ 53 : Nat) : ℚ) := Nat.cast_lt.mpr hM
    rw [← two_zpow_natCast] at h1
    exact h1
  have hkpos : (0 : ℚ) < (2 : ℚ) ^ k := by positivity
  have hbk : binaryExponent n d < 53 + k := by
    have : (2 : ℚ) ^ binaryExponent n d < (2 : ℚ) ^ (53 + k) := by
      calc (2 : ℚ) ^ binaryExponent n d ≤ (n : ℚ) / d := hlow
        _ = (M : ℚ) * (2 : ℚ) ^ k := hrabs
        _ < (2 : ℚ) ^ (53 : Int) * (2 : ℚ) ^ k := mul_lt_mul_of_pos_right hMq hkpos
        _ = (2 : ℚ) ^ (53 + k) := (zpow_add₀ (by norm_num : (2 : ℚ) ≠ 0) _ _).symm
    exact (zpow_lt_zpow_iff_right₀ (by norm_num : (1 : ℚ) < 2)).mp this
  have hek : doubleExponent n d ≤ k := by
    by_cases hb : -1022 ≤ binaryExponent n d
    · rw [q2 hb]; omega
    · rw [q3 (by omega)]; exact hk1
  obtain ⟨j, hj⟩ : ∃ j : Nat, k - doubleExponent n d = (j : Int) :=
    ⟨(k - doubleExponent n d).toNat, by omega⟩
  have hS : ((M * 2 ^ j : Nat) : ℚ) =
      (n : ℚ) / d * (2 : ℚ) ^ (-doubleExponent n d) := by
    rw [hrabs, Nat.cast_mul, ← two_zpow_natCast, mul_assoc,
      ← zpow_add₀ (by norm_num : (2 : ℚ) ≠ 0), ← hj, sub_eq_add_neg]
  have hm := (doubleMantissa_spec n d hd).2.1 _ hS
  have hval : (doubleMantissa n d : ℚ) * (2 : ℚ) ^ doubleExponent n d = (n : ℚ) / d := by
    rw [hm, hS, mul_assoc, ← zpow_add₀ (by norm_num : (2 : ℚ) ≠ 0), neg_add_cancel, zpow_zero,
      mul_one]
  have hm0 : doubleMantissa n d ≠ 0 := by
    intro h0
    rw [h0, Nat.cast_zero, zero_mul] at hval
    rw [← hval] at hr
    exact lt_irrefl _ hr
  have hno : ¬ (doubleExponent n d ≥ 0 ∧
      doubleHuge ≤ doubleMantissa n d * 2 ^ (doubleExponent n d).toNat) := by
    rw [doubleOverflows_iff _ _ (doubleMantissa_le n d hn hd), hval, hrabs, not_le]
    have hk' : (2 : ℚ) ^ k ≤ (2 : ℚ) ^ (971 : Int) :=
      (zpow_le_zpow_iff_right₀ (by norm_num : (1 : ℚ) < 2)).mpr hk2
    calc (M : ℚ) * (2 : ℚ) ^ k < (2 : ℚ) ^ (53 : Int) * (2 : ℚ) ^ k :=
          mul_lt_mul_of_pos_right hMq hkpos
      _ ≤ (2 : ℚ) ^ (53 : Int) * (2 : ℚ) ^ (971 : Int) :=
          mul_le_mul_of_nonneg_left hk' (by positivity)
      _ = (2 : ℚ) ^ (1024 : Int) := by
          rw [← zpow_add₀ (by norm_num : (2 : ℚ) ≠ 0)]
          norm_num
  rw [roundToDouble_eq, if_neg hm0, if_neg hno, hval]

theorem Number.natAbs_div_den (r : ℚ) : ((r.num.natAbs : Nat) : ℚ) / (r.den : ℚ) = |r| := by
  have hd : (0 : ℚ) < r.den := by exact_mod_cast r.den_pos
  rw [Nat.cast_natAbs, Int.cast_abs]
  conv_rhs => rw [← Rat.num_div_den r, abs_div, abs_of_pos hd]

theorem Number.sign_mul_abs (r : ℚ) :
    (if decide (r.num < 0) = true then -1 else 1) * |r| = r := by
  by_cases h : r.num < 0
  · have hr : r < 0 := Rat.num_neg.mp h
    simp only [h, decide_True, if_true]
    rw [abs_of_neg hr]
    ring
  · have hr : 0 ≤ r := Rat.num_nonneg.mp (by omega)
    simp only [h, decide_False, Bool.false_eq_true, if_false]
    rw [abs_of_nonneg hr]
    ring

theorem Number.representable_zero : Number.representable 0 :=
  ⟨0, 0, by norm_num, by norm_num, by norm_num, by simp⟩

theorem Number.representable_neg (v : ℚ) (h : Number.representable v) :
    Number.representable (-v) := by
  obtain ⟨M, k, h1, h2, h3, h4⟩ := h
  exact ⟨M, k, h1, h2, h3, by rw [abs_neg]; exact h4⟩

theorem Number.representable_abs (v : ℚ) (h : Number.representable v) :
    Number.representable |v| := by
  obtain ⟨M, k, h1, h2, h3, h4⟩ := h
  exact ⟨M, k, h1, h2, h3, by rw [abs_abs]; exact h4⟩

theorem Number.ofRat_of_ne_zero (r : ℚ) (h : r ≠ 0) :
    Number.ofRat r = roundToDouble (decide (r.num < 0)) r.num.natAbs r.den := by
  unfold Number.ofRat Number.ofFraction
  rw [if_neg (fun h0 => h (Rat.zero_of_num_zero h0))]

/-- A rational that is a double is its own nearest double. -/
theorem Number.ofRat_of_representable (r : ℚ) (h : Number.representable r) :
    Number.ofRat r = .real r := by
  by_cases h0 : r = 0
  · rw [h0]; rfl
  · have hnum : r.num ≠ 0 := fun hc => h0 (Rat.zero_of_num_zero hc)
    rw [Number.ofRat_of_ne_zero r h0,
      roundToDouble_exact _ _ _ (Int.natAbs_pos.mpr hnum) r.den_pos
        (by rw [Number.natAbs_div_den]; exact Number.representable_abs r h),
      Number.natAbs_div_den, Number.sign_mul_abs]

/-- The finite results of rounding: the result is a double, no double is nearer
to the rational, and the sign is kept. -/
theorem Number.ofRat_real (r v : ℚ) (h : Number.ofRat r = .real v) :
    Number.representable v ∧
    (∀ w, Number.representable w → |v - r| ≤ |w - r|) ∧
    (0 ≤ r → 0 ≤ v) ∧ (r ≤ 0 → v ≤ 0) := by
  by_cases h0 : r = 0
  · rw [h0] at h ⊢
    have hv : v = 0 := (Number.real.inj h).symm
    rw [hv]
    exact ⟨Number.representable_zero, fun w _ => by simp, fun _ => le_refl _,
      fun _ => le_refl _⟩
  · have hnum : r.num ≠ 0 := fun hc => h0 (Rat.zero_of_num_zero hc)
    have hn : 0 < r.num.natAbs := Int.natAbs_pos.mpr hnum
    rw [Number.ofRat_of_ne_zero r h0] at h
    obtain ⟨hv, hno⟩ := roundToDouble_real _ _ _ hn r.den_pos v h
    have hrep := doubleValue_representable _ _ hn r.den_pos hno
    have hnear := doubleValue_nearest _ _ hn r.den_pos
    rw [Number.natAbs_div_den] at hnear
    have ha : (0 : ℚ) ≤ (doubleMantissa r.num.natAbs r.den : ℚ) *
        (2 : ℚ) ^ doubleExponent r.num.natAbs r.den := by positivity
    generalize (doubleMantissa r.num.natAbs r.den : ℚ) *
      (2 : ℚ) ^ doubleExponent r.num.natAbs r.den = a at hv hrep hnear ha
    by_cases hneg : r.num < 0
    · have hr : r < 0 := Rat.num_neg.mp hneg
      simp only [hneg, decide_True, if_true] at hv
      rw [abs_of_neg hr] at hnear
      have hva : v = -a := by rw [hv]; ring
      refine ⟨by rw [hva]; exact Number.representable_neg a hrep, ?_, ?_, ?_⟩
      · intro w hw
        have := hnear (-w) (Number.representable_neg w hw)
        rw [hva, show -a - r = -(a - -r) by ring, abs_neg,
          show w - r = -(-w - -r) by ring, abs_neg]
        exact this
      · intro h1
        linarith
      · intro _
        rw [hva]
        linarith
    · have hr : 0 ≤ r := Rat.num_nonneg.mp (by omega)
      simp only [hneg, decide_False, Bool.false_eq_true, if_false, one_mul] at hv
      rw [abs_of_nonneg hr] at hnear
      rw [hv]
      refine ⟨hrep, hnear, fun _ => ha, ?_⟩
      intro h1
      have : r = 0 := le_antisymm h1 hr
      exact absurd this h0

/-- In the normal range the rounding error is at most `2^(-53)` of the
rational. -/
theorem Number.ofRat_error (r v : ℚ) (h : Number.ofRat r = .real v)
    (hr : (2 : ℚ) ^ (-1022 : Int) ≤ |r|) :
    |v - r| ≤ |r| * (2 : ℚ) ^ (-53 : Int) := by
  have h0 : r ≠ 0 := by
    intro hc
    rw [hc, abs_zero] at hr
    exact absurd hr (not_le.mpr (by positivity))
  have hnum : r.num ≠ 0 := fun hc => h0 (Rat.zero_of_num_zero hc)
  have hn : 0 < r.num.natAbs := Int.natAbs_pos.mpr hnum
  rw [Number.ofRat_of_ne_zero r h0] at h
  obtain ⟨hv, _⟩ := roundToDouble_real _ _ _ hn r.den_pos v h
  have herr := doubleValue_error r.num.natAbs r.den r.den_pos
  obtain ⟨e1, e2⟩ := binaryExponent_spec _ _ hn r.den_pos
  obtain ⟨q1, q2, q3⟩ := doubleExponent_le r.num.natAbs r.den
  have hdq : (0 : ℚ) < r.den := by exact_mod_cast r.den_pos
  have hlow : (2 : ℚ) ^ binaryExponent r.num.natAbs r.den ≤ |r| := by
    rw [← Number.natAbs_div_den, le_div_iff₀ hdq]; exact e1
  have hhigh : |r| < (2 : ℚ) ^ (binaryExponent r.num.natAbs r.den + 1) := by
    rw [← Number.natAbs_div_den, div_lt_iff₀ hdq]; exact e2
  have hb : -1022 ≤ binaryExponent r.num.natAbs r.den := by
    have := lt_of_le_of_lt hr hhigh
    have := (zpow_lt_zpow_iff_right₀ (by norm_num : (1 : ℚ) < 2)).mp this
    omega
  rw [Number.natAbs_div_den, q2 hb] at herr
  have hbound : (2 : ℚ) ^ (binaryExponent r.num.natAbs r.den - 52) / 2 ≤
      |r| * (2 : ℚ) ^ (-53 : Int) := by
    calc (2 : ℚ) ^ (binaryExponent r.num.natAbs r.den - 52) / 2
        = (2 : ℚ) ^ binaryExponent r.num.natAbs r.den * (2 : ℚ) ^ (-53 : Int) := by
          rw [show binaryExponent r.num.natAbs r.den - 52 =
            binaryExponent r.num.natAbs r.den + (-53) + 1 by omega,
            zpow_add₀ (by norm_num : (2 : ℚ) ≠ 0), zpow_add₀ (by norm_num : (2 : ℚ) ≠ 0)]
          norm_num
      _ ≤ _ := mul_le_mul_of_nonneg_right hlow (by positivity)
  have hsign : |v - r| = |(doubleMantissa r.num.natAbs r.den : ℚ) *
      (2 : ℚ) ^ (binaryExponent r.num.natAbs r.den - 52) - (|r|)| := by
    rw [hv, q2 hb]
    by_cases hneg : r.num < 0
    · have hr : r < 0 := Rat.num_neg.mp hneg
      simp only [hneg, decide_True, if_true]
      rw [abs_of_neg hr, ← abs_neg]
      congr 1
      ring
    · have hr : 0 ≤ r := Rat.num_nonneg.mp (by omega)
      simp only [hneg, decide_False, Bool.false_eq_true, if_false, one_mul]
      rw [abs_of_nonneg hr]
  rw [hsign]
  exact le_trans herr hbound

theorem roundToDouble_inf (s t : Bool) (n d : Nat) (hn : 0 < n) (hd : 0 < d) :
    roundToDouble s n d = .inf t ↔
      (t = s ∧ (2 : ℚ) ^ (1024 : Int) ≤
        (doubleMantissa n d : ℚ) * (2 : ℚ) ^ doubleExponent n d) := by
  rw [roundToDouble_eq, ← doubleOverflows_iff _ _ (doubleMantissa_le n d hn hd)]
  by_cases hm : doubleMantissa n d = 0
  · rw [if_pos hm, hm, Nat.zero_mul]
    have h1 : ¬ doubleHuge ≤ 0 := by
      have : 0 < doubleHuge := by
        unfold doubleHuge
        positivity
      omega
    constructor
    · intro h
      cases s <;> cases h
    · rintro ⟨_, _, h⟩
      exact absurd h h1
  · rw [if_neg hm]
    by_cases ho : doubleExponent n d ≥ 0 ∧
        doubleHuge ≤ doubleMantissa n d * 2 ^ (doubleExponent n d).toNat
    · rw [if_pos ho]
      constructor
      · intro h
        exact ⟨(Number.inf.inj h).symm, ho⟩
      · rintro ⟨h, _⟩
        rw [h]
    · rw [if_neg ho]
      constructor
      · intro h
        cases h
      · rintro ⟨_, h⟩
        exact absurd h ho

/-- The value that `roundToDouble` builds reaches `2^1024` exactly when the
fraction is `2^1024 - 2^970` or more. -/
theorem doubleValue_overflow_iff (n d : Nat) (hn : 0 < n) (hd : 0 < d) :
    (2 : ℚ) ^ (1024 : Int) ≤ (doubleMantissa n d : ℚ) * (2 : ℚ) ^ doubleExponent n d ↔
      (2 : ℚ) ^ (1024 : Int) - (2 : ℚ) ^ (970 : Int) ≤ (n : ℚ) / d := by
  obtain ⟨q1, q2, q3⟩ := doubleExponent_le n d
  obtain ⟨e1, e2⟩ := binaryExponent_spec n d hn hd
  obtain ⟨r1, r2⟩ := doubleMantissa_range n d hn hd
  have hle := doubleMantissa_le n d hn hd
  have hdq : (0 : ℚ) < d := by exact_mod_cast hd
  have hlow : (2 : ℚ) ^ binaryExponent n d ≤ (n : ℚ) / d := by
    rw [le_div_iff₀ hdq]; exact e1
  have hhigh : (n : ℚ) / d < (2 : ℚ) ^ (binaryExponent n d + 1) := by
    rw [div_lt_iff₀ hdq]; exact e2
  have herr := doubleValue_error n d hd
  have hmq : (doubleMantissa n d : ℚ) ≤ (2 : ℚ) ^ (53 : Int) := by
    have h1 : (doubleMantissa n d : ℚ) ≤ ((2 ^ 53 : Nat) : ℚ) := Nat.cast_le.mpr hle
    rw [← two_zpow_natCast] at h1
    exact h1
  have h2p : (2 : ℚ) ^ (1024 : Int) = (2 : ℚ) ^ (53 : Int) * (2 : ℚ) ^ (971 : Int) := by
    rw [← zpow_add₀ (by norm_num : (2 : ℚ) ≠ 0)]
    norm_num
  have h970 : (2 : ℚ) ^ (971 : Int) = 2 * (2 : ℚ) ^ (970 : Int) := by
    rw [show (971 : Int) = 1 + 970 by norm_num, zpow_add₀ (by norm_num : (2 : ℚ) ≠ 0), zpow_one]
  constructor
  · intro hov
    by_contra hc
    have ha : (n : ℚ) / d < (2 : ℚ) ^ (1024 : Int) := by
      have : (0 : ℚ) < (2 : ℚ) ^ (970 : Int) := by positivity
      linarith
    have hb : binaryExponent n d < 1024 :=
      (zpow_lt_zpow_iff_right₀ (by norm_num : (1 : ℚ) < 2)).mp (lt_of_le_of_lt hlow ha)
    have he : doubleExponent n d ≤ 971 := by
      by_cases hbn : -1022 ≤ binaryExponent n d
      · rw [q2 hbn]; omega
      · rw [q3 (by omega)]; norm_num
    have hP : (2 : ℚ) ^ doubleExponent n d ≤ (2 : ℚ) ^ (971 : Int) :=
      (zpow_le_zpow_iff_right₀ (by norm_num : (1 : ℚ) < 2)).mpr he
    have h3 := (abs_le.mp herr).2
    have : (2 : ℚ) ^ doubleExponent n d / 2 ≤ (2 : ℚ) ^ (970 : Int) := by
      rw [h970] at hP
      linarith
    linarith
  · intro ha
    have hb : 1023 ≤ binaryExponent n d := by
      have h1 : (2 : ℚ) ^ (1023 : Int) ≤ (n : ℚ) / d := by
        have h2 : (2 : ℚ) ^ (1024 : Int) = 2 * (2 : ℚ) ^ (1023 : Int) := by
          rw [show (1024 : Int) = 1 + 1023 by norm_num,
            zpow_add₀ (by norm_num : (2 : ℚ) ≠ 0), zpow_one]
        have h3 : (2 : ℚ) ^ (970 : Int) ≤ (2 : ℚ) ^ (1023 : Int) :=
          (zpow_le_zpow_iff_right₀ (by norm_num : (1 : ℚ) < 2)).mpr (by norm_num)
        linarith
      have := (zpow_lt_zpow_iff_right₀ (by norm_num : (1 : ℚ) < 2)).mp
        (lt_of_le_of_lt h1 hhigh)
      omega
    have hbn : -1022 ≤ binaryExponent n d := by omega
    have he := q2 hbn
    obtain ⟨m1, m2⟩ := r1 hbn
    have hm52 : (2 : ℚ) ^ (52 : Int) ≤ (doubleMantissa n d : ℚ) := by
      have h1 : ((2 ^ 52 : Nat) : ℚ) ≤ (doubleMantissa n d : ℚ) := Nat.cast_le.mpr m1
      rw [← two_zpow_natCast] at h1
      exact h1
    by_cases he2 : 972 ≤ doubleExponent n d
    · have hP : (2 : ℚ) ^ (972 : Int) ≤ (2 : ℚ) ^ doubleExponent n d :=
        (zpow_le_zpow_iff_right₀ (by norm_num : (1 : ℚ) < 2)).mpr he2
      calc (2 : ℚ) ^ (1024 : Int) = (2 : ℚ) ^ (52 : Int) * (2 : ℚ) ^ (972 : Int) := by
            rw [← zpow_add₀ (by norm_num : (2 : ℚ) ≠ 0)]
            norm_num
        _ ≤ _ := mul_le_mul hm52 hP (by positivity) (by positivity)
    · have he3 : doubleExponent n d = 971 := by omega
      by_contra hc
      rw [he3] at hc herr
      have hP : (0 : ℚ) < (2 : ℚ) ^ (971 : Int) := by positivity
      have hmlt : (doubleMantissa n d : ℚ) < (2 : ℚ) ^ (53 : Int) := by
        by_contra hge
        apply hc
        rw [h2p]
        exact mul_le_mul_of_nonneg_right (not_lt.mp hge) (le_of_lt hP)
      have hmnat : doubleMantissa n d < 2 ^ 53 := by
        have h1 : (doubleMantissa n d : ℚ) < ((2 ^ 53 : Nat) : ℚ) := by
          rw [← two_zpow_natCast]
          exact hmlt
        exact Nat.cast_lt.mp h1
      obtain ⟨s1, _, _, s4⟩ := doubleMantissa_spec n d hd
      rw [he3] at s1 s4
      have hSlow : (2 : ℚ) ^ (53 : Int) - 1 / 2 ≤
          (n : ℚ) / d * (2 : ℚ) ^ (-(971 : Int)) := by
        have hinv : (2 : ℚ) ^ (971 : Int) * (2 : ℚ) ^ (-(971 : Int)) = 1 := by
          rw [← zpow_add₀ (by norm_num : (2 : ℚ) ≠ 0), add_neg_cancel, zpow_zero]
        have hpos : (0 : ℚ) < (2 : ℚ) ^ (-(971 : Int)) := by positivity
        calc (2 : ℚ) ^ (53 : Int) - 1 / 2
            = ((2 : ℚ) ^ (1024 : Int) - (2 : ℚ) ^ (970 : Int)) * (2 : ℚ) ^ (-(971 : Int)) := by
              rw [h2p, sub_mul, mul_assoc, hinv, mul_one]
              have : (2 : ℚ) ^ (970 : Int) * (2 : ℚ) ^ (-(971 : Int)) = 1 / 2 := by
                rw [← zpow_add₀ (by norm_num : (2 : ℚ) ≠ 0)]
                norm_num
              rw [this]
          _ ≤ _ := mul_le_mul_of_nonneg_right ha (le_of_lt hpos)
      have hmle : (doubleMantissa n d : ℚ) ≤ (2 : ℚ) ^ (53 : Int) - 1 := by
        have h1 : doubleMantissa n d + 1 ≤ 2 ^ 53 := hmnat
        have h2 : ((doubleMantissa n d + 1 : Nat) : ℚ) ≤ ((2 ^ 53 : Nat) : ℚ) :=
          Nat.cast_le.mpr h1
        rw [← two_zpow_natCast] at h2
        push_cast at h2
        linarith
      have habs := abs_le.mp s1
      have hmeq : (doubleMantissa n d : ℚ) = (2 : ℚ) ^ (53 : Int) - 1 := by
        linarith [habs.1]
      have htie : |(doubleMantissa n d : ℚ) - (n : ℚ) / d * (2 : ℚ) ^ (-(971 : Int))| =
          1 / 2 := by
        rw [abs_of_nonpos (by linarith)]
        linarith [habs.1]
      have hpar := s4 htie
      have hmval : doubleMantissa n d = 2 ^ 53 - 1 := by
        have h1 : ((doubleMantissa n d + 1 : Nat) : ℚ) = ((2 ^ 53 : Nat) : ℚ) := by
          rw [← two_zpow_natCast]
          push_cast
          linarith
        have := Nat.cast_injective h1
        omega
      rw [hmval] at hpar
      norm_num at hpar

/-- Rounding gives an infinity exactly when the rational is `2^1024 - 2^970` or
more in absolute value; the infinity has the sign of the rational. -/
theorem Number.ofRat_inf (r : ℚ) (s : Bool) :
    Number.ofRat r = .inf s ↔
      ((2 : ℚ) ^ (1024 : Int) - (2 : ℚ) ^ (970 : Int) ≤ |r| ∧ s = decide (r < 0)) := by
  by_cases h0 : r = 0
  · rw [h0, abs_zero]
    constructor
    · intro h
      cases h
    · rintro ⟨h, _⟩
      exfalso
      have h1 : (2 : ℚ) ^ (970 : Int) < (2 : ℚ) ^ (1024 : Int) :=
        (zpow_lt_zpow_iff_right₀ (by norm_num : (1 : ℚ) < 2)).mpr (by norm_num)
      linarith
  · have hnum : r.num ≠ 0 := fun hc => h0 (Rat.zero_of_num_zero hc)
    have hn : 0 < r.num.natAbs := Int.natAbs_pos.mpr hnum
    have hdec : decide (r.num < 0) = decide (r < 0) := by
      by_cases h : r.num < 0
      · simp [h, Rat.num_neg.mp h]
      · have : ¬ r < 0 := fun hc => h (Rat.num_neg.mpr hc)
        simp [h, this]
    rw [Number.ofRat_of_ne_zero r h0, roundToDouble_inf _ _ _ _ hn r.den_pos,
      doubleValue_overflow_iff _ _ hn r.den_pos, Number.natAbs_div_den, hdec]
    exact and_comm

/-! ## The binary operators -/

/-- A binary expression evaluates its left operand, then its right operand, and
then applies the operator to the two values. -/
theorem Interpreter.evaluate_binary (fuel : Nat) (l r : Expr) (op : String)
    (st st1 st2 : Interpreter) (a b : Value)
    (hl : Interpreter.evaluate fuel l st = .ok a st1)
    (hr : Interpreter.evaluate fuel r st1 = .ok b st2) :
    Interpreter.evaluate (fuel + 1) (.binary l op r) st =
      Interpreter.visitBinary l op a b st2 := by
  rw [show Interpreter.evaluate (fuel + 1) (.binary l op r) =
      (Interpreter.evaluate fuel l >>= fun x =>
        Interpreter.evaluate fuel r >>= fun y => Interpreter.visitBinary l op x y) from rfl]
  simp only [bind, InterpM.bind, hl, hr]

/-- C13: `+` on two numbers yields their sum as doubles add, on two strings
the concatenation, and on every other pair of values it raises
`Operands must be two numbers or two strings` and leaves the state as it is; a
binary expression with operator `+` applies this to the values of its operands.
The sum of two finite doubles is the double nearest to the sum of their values
(`Number.ofRat`): it is that sum when the sum is a double, otherwise a double
that no other double is nearer to the sum than, and an infinity exactly when
the sum is `2^1024 - 2^970` or more in absolute value.  So `2^53 + 1` is `2^53`,
`(2^53 + 2) + 1` is `2^53 + 4` (ties go to the even mantissa),
`0.1 + 0.2 == 0.3` is false, `-0 + -0` is the negative zero and `-0 + 0` the
positive one.  The example program prints `3` and `abcd` and then fails on
`1 + "a"`. -/
theorem Interpreter.plus_adds_or_concatenates :
    (∀ (leftNode : Expr) (x y : Number) (st : Interpreter),
      Interpreter.visitBinary leftNode "+" (.number x) (.number y) st =
        .ok (.number (Number.add x y)) { st with lastValue := .number (Number.add x y) }) ∧
    (∀ p q : ℚ, Number.add (.real p) (.real q) = Number.ofRat (p + q)) ∧
    (∀ r : ℚ, Number.representable r → Number.ofRat r = .real r) ∧
    (∀ r v : ℚ, Number.ofRat r = .real v →
      Number.representable v ∧ ∀ w, Number.representable w → |v - r| ≤ |w - r|) ∧
    (∀ (r : ℚ) (s : Bool), Number.ofRat r = .inf s ↔
      ((2 : ℚ) ^ (1024 : Int) - (2 : ℚ) ^ (970 : Int) ≤ |r| ∧ s = decide (r < 0))) ∧
    Number.add (Number.ofNat 9007199254740992) (Number.ofNat 1) =
      Number.ofNat 9007199254740992 ∧
    Number.add (Number.ofNat 9007199254740994) (Number.ofNat 1) =
      Number.ofNat 9007199254740996 ∧
    (∀ (leftNode : Expr) (s t : String) (st : Interpreter),
      Interpreter.visitBinary leftNode "+" (.string s) (.string t) st =
        .ok (.string (s ++ t)) { st with lastValue := .string (s ++ t) }) ∧
    (∀ (leftNode : Expr) (a b : Value) (st : Interpreter),
      (¬ ∃ x y, a = .number x ∧ b = .number y) →
      (¬ ∃ s t, a = .string s ∧ b = .string t) →
      Interpreter.visitBinary leftNode "+" a b st =
        .exception (.runtime_error "Operands must be two numbers or two strings") st) ∧
    (∀ (fuel : Nat) (l r : Expr) (st st1 st2 : Interpreter) (a b : Value),
      Interpreter.evaluate fuel l st = .ok a st1 →
      Interpreter.evaluate fuel r st1 = .ok b st2 →
      Interpreter.evaluate (fuel + 1) (.binary l "+" r) st =
        Interpreter.visitBinary l "+" a b st2) ∧
    (Interpreter.interpret 10 plusProgram (Interpreter.new Host.simple)).summary =
      some (["3", "abcd"],
        ["Runtime error: Operands must be two numbers or two strings"], 0) ∧
    (run 40 "print 0.1 + 0.2 == 0.3" (Interpreter.new Host.simple)).summary =
      some (["false"], [], 0) ∧
    (run 40 "print -0 + -0" (Interpreter.new Host.simple)).summary = some (["-0"], [], 0) ∧
    (run 40 "print -0 + 0" (Interpreter.new Host.simple)).summary = some (["0"], [], 0) := by
  refine ⟨?_, Number.add_real, Number.ofRat_of_representable, ?_, Number.ofRat_inf,
    by decide!, by decide!, ?_, ?_, ?_, by decide!, by decide!, by decide!, by decide!⟩
  · intro leftNode x y st
    rfl
  · intro r v h
    exact ⟨(Number.ofRat_real r v h).1, (Number.ofRat_real r v h).2.1⟩
  · intro leftNode s t st
    rfl
  · intro leftNode a b st hn hs
    cases a <;> cases b <;> first
      | exact (hn ⟨_, _, rfl, rfl⟩).elim
      | exact (hs ⟨_, _, rfl, rfl⟩).elim
      | rfl
  · intro fuel l r st st1 st2 a b hl hr
    exact Interpreter.evaluate_binary fuel l r "+" st st1 st2 a b hl hr

/-- C13, on an example: a number and a string, in this order, cannot be added. -/
theorem Interpreter.plus_adds_or_concatenates_witness :
    Interpreter.visitBinary (.literal .nil) "+" (.number (Number.ofNat 1)) (.string "a")
        (Interpreter.new Host.simple) =
      .exception (.runtime_error "Operands must be two numbers or two strings")
        (Interpreter.new Host.simple) :=
  Interpreter.plus_adds_or_concatenates.2.2.2.2.2.2.2.2.1 (.literal .nil)
    (.number (Number.ofNat 1)) (.string "a") (Interpreter.new Host.simple)
    (by rintro ⟨x, y, _, h⟩; cases h) (by rintro ⟨s, t, h, _⟩; cases h)

theorem Number.eq_real (p q : ℚ) : Number.eq (.real p) (.real q) = true ↔ p = q := by
  simp only [Number.eq, Bool.and_eq_true, decide_eq_true_eq]
  constructor
  · rintro ⟨h1, h2⟩
    exact Rat.ext h1 h2
  · rintro rfl
    exact ⟨rfl, rfl⟩

/-- The doubles that `==` finds equal to 0 are the two zeros. -/
theorem Number.eq_zero (y : Number) :
    Number.eq y (Number.ofNat 0) = true ↔ (y = Number.ofNat 0 ∨ y = .negZero) := by
  cases y with
  | nan s => exact ⟨fun h => (by cases h), fun h => (by rcases h with h | h <;> cases h)⟩
  | inf s => exact ⟨fun h => (by cases h), fun h => (by rcases h with h | h <;> cases h)⟩
  | negZero => exact ⟨fun _ => Or.inr rfl, fun _ => rfl⟩
  | real q =>
    unfold Number.ofNat
    rw [Number.eq_real]
    constructor
    · intro h; rw [h]; exact Or.inl rfl
    · intro h
      rcases h with h | h
      · cases h; rfl
      · cases h

/-- C14: for each of the operators `-`, `*`, `/`, `%`, `<`, `<=`, `>`, `>=` and
all operand values `a`, `b`: when `a` or `b` is not a number the operator
raises `Operands must be numbers for <op>`, also when `b` is the number 0;
when both are numbers, `/` with the right operand 0 raises `Division by zero`,
and in every other case a value is produced.  So an error is raised if and only
if an operand is not a number or the operator is `/` and `b` is the number 0.
The number 0 is the double `+0.0` or the double `-0.0`, which `==` does not
tell apart.  An error leaves the state as it is.  A binary expression applies
this to the values of its left and right operand, evaluated in this order. -/
theorem Interpreter.number_operators_raise_iff (op : String)
    (hop : op ∈ Interpreter.numberOperators) (leftNode : Expr) (a b : Value)
    (st : Interpreter) :
    ((¬ ∃ x y, a = .number x ∧ b = .number y) →
      Interpreter.visitBinary leftNode op a b st =
        .exception (.runtime_error ("Operands must be numbers for " ++ op)) st) ∧
    ((∃ x, a = .number x) → (b = .number (Number.ofNat 0) ∨ b = .number .negZero) →
      op = "/" →
      Interpreter.visitBinary leftNode op a b st =
        .exception (.runtime_error "Division by zero") st) ∧
    ((∃ x y, a = .number x ∧ b = .number y) →
      ¬ (op = "/" ∧ (b = .number (Number.ofNat 0) ∨ b = .number .negZero)) →
      ∃ v, Interpreter.visitBinary leftNode op a b st = .ok v { st with lastValue := v }) ∧
    ((∃ e st', Interpreter.visitBinary leftNode op a b st = .exception e st') ↔
      ((¬ ∃ x y, a = .number x ∧ b = .number y) ∨
        (op = "/" ∧ (b = .number (Number.ofNat 0) ∨ b = .number .negZero)))) ∧
    (∀ (fuel : Nat) (r : Expr) (st0 st1 : Interpreter),
      Interpreter.evaluate fuel leftNode st0 = .ok a st1 →
      Interpreter.evaluate fuel r st1 = .ok b st →
      Interpreter.evaluate (fuel + 1) (.binary leftNode op r) st0 =
        Interpreter.visitBinary leftNode op a b st) := by
  have htype : (¬ ∃ x y, a = .number x ∧ b = .number y) →
      Interpreter.visitBinary leftNode op a b st =
        .exception (.runtime_error ("Operands must be numbers for " ++ op)) st := by
    intro hn
    have hcheck : Interpreter.checkNumberOperands op a b st =
        .exception (.runtime_error ("Operands must be numbers for " ++ op)) st := by
      cases a <;> cases b <;> first
        | exact (hn ⟨_, _, rfl, rfl⟩).elim
        | rfl
    simp only [Interpreter.numberOperators, List.mem_cons, List.mem_singleton,
      List.not_mem_nil, or_false] at hop
    rcases hop with h | h | h | h | h | h | h | h <;> subst h <;>
      simp [Interpreter.visitBinary, bind, InterpM.bind, hcheck]
  have hzero : (∃ x, a = .number x) →
      (b = .number (Number.ofNat 0) ∨ b = .number .negZero) → op = "/" →
      Interpreter.visitBinary leftNode op a b st =
        .exception (.runtime_error "Division by zero") st := by
    rintro ⟨x, rfl⟩ hb rfl
    rcases hb with rfl | rfl
    · have h0 : Number.eq (Number.ofNat 0) (Number.ofNat 0) = true :=
        (Number.eq_zero _).mpr (Or.inl rfl)
      simp [Interpreter.visitBinary, bind, InterpM.bind, Interpreter.checkNumberOperands,
        Value.getDouble, h0, InterpM.runtimeError, pure]
    · have h0 : Number.eq .negZero (Number.ofNat 0) = true :=
        (Number.eq_zero _).mpr (Or.inr rfl)
      simp [Interpreter.visitBinary, bind, InterpM.bind, Interpreter.checkNumberOperands,
        Value.getDouble, h0, InterpM.runtimeError, pure]
  have hvalue : (∃ x y, a = .number x ∧ b = .number y) →
      ¬ (op = "/" ∧ (b = .number (Number.ofNat 0) ∨ b = .number .negZero)) →
      ∃ v, Interpreter.visitBinary leftNode op a b st =
        .ok v { st with lastValue := v } := by
    rintro ⟨x, y, rfl, rfl⟩ hnz
    simp only [Interpreter.numberOperators, List.mem_cons, List.mem_singleton,
      List.not_mem_nil, or_false] at hop
    rcases hop with h | h | h | h | h | h | h | h <;> subst h
    case inr.inr.inl =>
      have h0 : Number.eq y (Number.ofNat 0) = false := by
        cases hy : Number.eq y (Number.ofNat 0) with
        | false => rfl
        | true =>
          exfalso
          apply hnz
          rcases (Number.eq_zero y).mp hy with h | h
          · rw [h]; exact ⟨rfl, Or.inl rfl⟩
          · rw [h]; exact ⟨rfl, Or.inr rfl⟩
      have hdiv : Interpreter.visitBinary leftNode "/" (.number x) (.number y) st =
          (if Number.eq y (Number.ofNat 0) then InterpM.runtimeError "Division by zero"
           else Interpreter.setLastValue (.number (Number.div x y))) st := rfl
      rw [hdiv, h0]
      exact ⟨_, rfl⟩
    all_goals
      exact ⟨_, rfl⟩
  refine ⟨htype, hzero, hvalue, ?_, fun fuel r st0 st1 hl hr =>
    Interpreter.evaluate_binary fuel leftNode r op st0 st1 st a b hl hr⟩
  constructor
  · rintro ⟨e, st', herr⟩
    by_cases hn : ∃ x y, a = .number x ∧ b = .number y
    · by_cases hz : op = "/" ∧ (b = .number (Number.ofNat 0) ∨ b = .number .negZero)
      · exact Or.inr hz
      · obtain ⟨v, hv⟩ := hvalue hn hz
        rw [hv] at herr
        cases herr
    · exact Or.inl hn
  · rintro (hn | ⟨hop', hb⟩)
    · exact ⟨_, _, htype hn⟩
    · by_cases hn : ∃ x y, a = .number x ∧ b = .number y
      · obtain ⟨x, y, ha, _⟩ := hn
        exact ⟨_, _, hzero ⟨x, ha⟩ hb hop'⟩
      · exact ⟨_, _, htype hn⟩

/-- C14, on an example: a string divided by the number 0 is a type error, not a
division by zero. -/
theorem Interpreter.number_operators_raise_iff_witness :
    Interpreter.visitBinary (.literal .nil) "/" (.string "a") (.number (Number.ofNat 0))
        (Interpreter.new Host.simple) =
      .exception (.runtime_error "Operands must be numbers for /")
        (Interpreter.new Host.simple) :=
  (Interpreter.number_operators_raise_iff "/" (by decide) (.literal .nil) (.string "a")
    (.number (Number.ofNat 0)) (Interpreter.new Host.simple)).1
    (by rintro ⟨x, y, h, _⟩; cases h)

/-- An exception raised by the right operand is raised by the binary expression,
whatever the operator and the value of the left operand are. -/
theorem Interpreter.evaluate_binary_right_raises (fuel : Nat) (l r : Expr) (op : String)
    (st st1 st2 : Interpreter) (a : Value) (e : Exception)
    (hl : Interpreter.evaluate fuel l st = .ok a st1)
    (hr : Interpreter.evaluate fuel r st1 = .exception e st2) :
    Interpreter.evaluate (fuel + 1) (.binary l op r) st = .exception e st2 := by
  rw [show Interpreter.evaluate (fuel + 1) (.binary l op r) =
      (Interpreter.evaluate fuel l >>= fun x =>
        Interpreter.evaluate fuel r >>= fun y => Interpreter.visitBinary l op x y) from rfl]
  simp only [bind, InterpM.bind, hl, hr]

/-- C15: `l and r` evaluates `l` to `a`, then `r` to `b`, and yields `a` when
`a` is falsy and `b` otherwise; `l or r` yields `a` when `a` is truthy and `b`
otherwise; the result is the operand value itself.  The right operand is always
evaluated: an exception that it raises is raised by the whole expression,
whatever `a` is.  Examples: `nil or "x"` is `"x"`, `0 and "y"` is `"y"`, and
both `true or nope` and `false and nope` raise `Undefined variable 'nope'`. -/
theorem Interpreter.and_or_yield_operand :
    (∀ (fuel : Nat) (l r : Expr) (st st1 st2 : Interpreter) (a b : Value),
      Interpreter.evaluate fuel l st = .ok a st1 →
      Interpreter.evaluate fuel r st1 = .ok b st2 →
      Interpreter.evaluate (fuel + 1) (.binary l "and" r) st =
        .ok (if Interpreter.isTruthy a then b else a)
          { st2 with lastValue := if Interpreter.isTruthy a then b else a }) ∧
    (∀ (fuel : Nat) (l r : Expr) (st st1 st2 : Interpreter) (a b : Value),
      Interpreter.evaluate fuel l st = .ok a st1 →
      Interpreter.evaluate fuel r st1 = .ok b st2 →
      Interpreter.evaluate (fuel + 1) (.binary l "or" r) st =
        .ok (if Interpreter.isTruthy a then a else b)
          { st2 with lastValue := if Interpreter.isTruthy a then a else b }) ∧
    (∀ (fuel : Nat) (l r : Expr) (op : String) (st st1 st2 : Interpreter) (a : Value)
      (e : Exception),
      op = "and" ∨ op = "or" →
      Interpreter.evaluate fuel l st = .ok a st1 →
      Interpreter.evaluate fuel r st1 = .exception e st2 →
      Interpreter.evaluate (fuel + 1) (.binary l op r) st = .exception e st2) ∧
    (Interpreter.evaluate 2 (.binary (.literal .nil) "or" (.literal (.string "x")))
      (Interpreter.new Host.simple)).value? = some (.string "x") ∧
    (Interpreter.evaluate 2
      (.binary (.literal (.number (Number.ofNat 0))) "and" (.literal (.string "y")))
      (Interpreter.new Host.simple)).value? = some (.string "y") ∧
    (Interpreter.evaluate 2 (.binary (.literal (.bool true)) "or" (.identifier "nope"))
      (Interpreter.new Host.simple)).error? = some "Undefined variable 'nope'" ∧
    (Interpreter.evaluate 2 (.binary (.literal (.bool false)) "and" (.identifier "nope"))
      (Interpreter.new Host.simple)).error? = some "Undefined variable 'nope'" := by
  refine ⟨?_, ?_, ?_, ?_, ?_, ?_, ?_⟩
  · intro fuel l r st st1 st2 a b hl hr
    rw [Interpreter.evaluate_binary fuel l r "and" st st1 st2 a b hl hr]
    cases h : Interpreter.isTruthy a <;>
      simp [Interpreter.visitBinary, h, Interpreter.setLastValue]
  · intro fuel l r st st1 st2 a b hl hr
    rw [Interpreter.evaluate_binary fuel l r "or" st st1 st2 a b hl hr]
    cases h : Interpreter.isTruthy a <;>
      simp [Interpreter.visitBinary, h, Interpreter.setLastValue]
  · intro fuel l r op st st1 st2 a e _ hl hr
    exact Interpreter.evaluate_binary_right_raises fuel l r op st st1 st2 a e hl hr
  · decide!
  · decide!
  · decide!
  · decide!

/-- C15, on an example: the left operand `1` is truthy and the right operand
`"z"` evaluates, so `1 and "z"` is `"z"`. -/
theorem Interpreter.and_or_yield_operand_witness :
    Interpreter.evaluate 2
        (.binary (.literal (.number (Number.ofNat 1))) "and" (.literal (.string "z")))
        (Interpreter.new Host.simple) =
      .ok (.string "z") { Interpreter.new Host.simple with lastValue := .string "z" } :=
  Interpreter.and_or_yield_operand.1 1 (.literal (.number (Number.ofNat 1)))
    (.literal (.string "z")) (Interpreter.new Host.simple)
    { Interpreter.new Host.simple with lastValue := .number (Number.ofNat 1) }
    { Interpreter.new Host.simple with lastValue := .string "z" }
    (.number (Number.ofNat 1)) (.string "z") rfl rfl

/-! ## Truthiness and equality -/

/-- C16: `isTruthy` gives every value exactly one of `true` and `false`; it is
`false` exactly for nil and for the boolean `false`, and `true` for every other
value: every number (0 included), every string (the empty one included), the
boolean `true` and every callable. -/
theorem Interpreter.isTruthy_total :
    (∀ v : Value, Interpreter.isTruthy v = false ↔ (v = .nil ∨ v = .bool false)) ∧
    (∀ v : Value, Interpreter.isTruthy v = true ↔ ¬ (v = .nil ∨ v = .bool false)) ∧
    (∀ n : Number, Interpreter.isTruthy (.number n) = true) ∧
    Interpreter.isTruthy (.number (Number.ofNat 0)) = true ∧
    (∀ s : String, Interpreter.isTruthy (.string s) = true) ∧
    Interpreter.isTruthy (.string "") = true ∧
    Interpreter.isTruthy (.bool true) = true ∧
    (∀ ref : Nat, Interpreter.isTruthy (.callable ref) = true) ∧
    (∀ v : Value, Interpreter.isTruthy v = true ∨ Interpreter.isTruthy v = false) ∧
    (∀ v : Value, ¬ (Interpreter.isTruthy v = true ∧ Interpreter.isTruthy v = false)) := by
  refine ⟨?_, ?_, fun _ => rfl, rfl, fun _ => rfl, rfl, rfl, fun _ => rfl, ?_, ?_⟩
  · intro v
    cases v with
    | bool b => cases b <;> simp [Interpreter.isTruthy]
    | _ => simp [Interpreter.isTruthy]
  · intro v
    cases v with
    | bool b => cases b <;> simp [Interpreter.isTruthy]
    | _ => simp [Interpreter.isTruthy]
  · intro v
    cases Interpreter.isTruthy v
    · exact Or.inr rfl
    · exact Or.inl rfl
  · intro v h
    rw [h.1] at h
    exact Bool.noConfusion h.2


/-- C17: values of different cases of the variant are not equal, so `==` on
them yields `false` and `!=` yields `true`, without an error; for every pair of
values `==` yields `isEqual` and `!=` yields its negation, in an expression as
well as on the two values. -/
theorem Interpreter.equality_across_cases :
    (∀ a b : Value, a.index ≠ b.index → Interpreter.isEqual a b = false) ∧
    (∀ (leftNode : Expr) (a b : Value) (st : Interpreter), a.index ≠ b.index →
      Interpreter.visitBinary leftNode "==" a b st =
        .ok (.bool false) { st with lastValue := .bool false } ∧
      Interpreter.visitBinary leftNode "!=" a b st =
        .ok (.bool true) { st with lastValue := .bool true }) ∧
    (∀ (leftNode : Expr) (a b : Value) (st : Interpreter),
      Interpreter.visitBinary leftNode "==" a b st =
        .ok (.bool (Interpreter.isEqual a b))
          { st with lastValue := .bool (Interpreter.isEqual a b) } ∧
      Interpreter.visitBinary leftNode "!=" a b st =
        .ok (.bool (!Interpreter.isEqual a b))
          { st with lastValue := .bool (!Interpreter.isEqual a b) }) ∧
    (∀ (fuel : Nat) (l r : Expr) (st st1 st2 : Interpreter) (a b : Value),
      Interpreter.evaluate fuel l st = .ok a st1 →
      Interpreter.evaluate fuel r st1 = .ok b st2 →
      Interpreter.evaluate (fuel + 1) (.binary l "==" r) st =
        .ok (.bool (Interpreter.isEqual a b))
          { st2 with lastValue := .bool (Interpreter.isEqual a b) } ∧
      Interpreter.evaluate (fuel + 1) (.binary l "!=" r) st =
        .ok (.bool (!Interpreter.isEqual a b))
          { st2 with lastValue := .bool (!Interpreter.isEqual a b) }) := by
  have hcross : ∀ a b : Value, a.index ≠ b.index → Interpreter.isEqual a b = false := by
    intro a b h
    cases a <;> cases b <;> first
      | rfl
      | exact (h rfl).elim
  refine ⟨hcross, ?_, fun _ _ _ _ => ⟨rfl, rfl⟩, ?_⟩
  · intro leftNode a b st h
    have heq : ∀ c : Bool, Interpreter.isEqual a b = c →
        Interpreter.visitBinary leftNode "==" a b st =
          .ok (.bool c) { st with lastValue := .bool c } ∧
        Interpreter.visitBinary leftNode "!=" a b st =
          .ok (.bool (!c)) { st with lastValue := .bool (!c) } := by
      intro c hc
      subst hc
      exact ⟨rfl, rfl⟩
    exact heq false (hcross a b h)
  · intro fuel l r st st1 st2 a b hl hr
    rw [Interpreter.evaluate_binary fuel l r "==" st st1 st2 a b hl hr,
      Interpreter.evaluate_binary fuel l r "!=" st st1 st2 a b hl hr]
    exact ⟨rfl, rfl⟩

/-- C17, on an example: the number 0 and the string `0` are of different cases,
so `==` yields `false` and `!=` yields `true`. -/
theorem Interpreter.equality_across_cases_witness :
    Interpreter.visitBinary (.literal .nil) "==" (.number (Number.ofNat 0)) (.string "0")
        (Interpreter.new Host.simple) =
      .ok (.bool false) { Interpreter.new Host.simple with lastValue := .bool false } ∧
    Interpreter.visitBinary (.literal .nil) "!=" (.number (Number.ofNat 0)) (.string "0")
        (Interpreter.new Host.simple) =
      .ok (.bool true) { Interpreter.new Host.simple with lastValue := .bool true } :=
  Interpreter.equality_across_cases.2.1 (.literal .nil) (.number (Number.ofNat 0))
    (.string "0") (Interpreter.new Host.simple) (by decide)

/-! ## Calls: the callable check and the argument count -/

/-- A call expression evaluates the callee, then all arguments in order, and
then applies the checks and the call to the values. -/
theorem Interpreter.evaluate_call (fuel : Nat) (callee : Expr) (args : List Expr)
    (st st1 st2 : Interpreter) (c : Value) (vals : List Value)
    (hc : Interpreter.evaluate fuel callee st = .ok c st1)
    (ha : Interpreter.evaluateArguments (Interpreter.evaluate fuel) args [] st1 = .ok vals st2) :
    Interpreter.evaluate (fuel + 1) (.call callee args) st =
      Interpreter.visitCall (Interpreter.execute fuel) c vals st2 := by
  rw [show Interpreter.evaluate (fuel + 1) (.call callee args) =
      (Interpreter.evaluate fuel callee >>= fun x =>
        Interpreter.evaluateArguments (Interpreter.evaluate fuel) args [] >>= fun y =>
          Interpreter.visitCall (Interpreter.execute fuel) x y) from rfl]
  simp only [bind, InterpM.bind, hc, ha]

/-- An exception raised while the arguments are evaluated is raised by the call
expression, whatever the value of the callee is. -/
theorem Interpreter.evaluate_call_argument_raises (fuel : Nat) (callee : Expr)
    (args : List Expr) (st st1 st2 : Interpreter) (c : Value) (e : Exception)
    (hc : Interpreter.evaluate fuel callee st = .ok c st1)
    (ha : Interpreter.evaluateArguments (Interpreter.evaluate fuel) args [] st1 =
      .exception e st2) :
    Interpreter.evaluate (fuel + 1) (.call callee args) st = .exception e st2 := by
  rw [show Interpreter.evaluate (fuel + 1) (.call callee args) =
      (Interpreter.evaluate fuel callee >>= fun x =>
        Interpreter.evaluateArguments (Interpreter.evaluate fuel) args [] >>= fun y =>
          Interpreter.visitCall (Interpreter.execute fuel) x y) from rfl]
  simp only [bind, InterpM.bind, hc, ha]

/-- The argument loop stops at the first argument whose evaluation raises an
exception. -/
theorem Interpreter.evaluateArguments_raises (evaluate : Expr → InterpM Value)
    (e : Exception) :
    ∀ (before : List Expr) (arg : Expr) (rest : List Expr) (acc vals : List Value)
      (st st1 st2 : Interpreter),
      Interpreter.evaluateArguments evaluate before acc st = .ok vals st1 →
      evaluate arg st1 = .exception e st2 →
      Interpreter.evaluateArguments evaluate (before ++ arg :: rest) acc st =
        .exception e st2 := by
  intro before
  induction before with
  | nil =>
    intro arg rest acc vals st st1 st2 hb ha
    change Outcome.ok acc st = Outcome.ok vals st1 at hb
    cases hb
    change InterpM.bind _ _ st = _
    unfold InterpM.bind
    rw [ha]
  | cons b bs ih =>
    intro arg rest acc vals st st1 st2 hb ha
    change InterpM.bind _ _ st = _ at hb
    change InterpM.bind _ _ st = _
    unfold InterpM.bind at hb ⊢
    cases hr : evaluate b st with
    | ok v st0 =>
      rw [hr] at hb
      simp only [hr]
      exact ih arg rest _ vals st0 st1 st2 hb ha
    | exception e0 st0 => rw [hr] at hb; cases hb
    | fault => rw [hr] at hb; cases hb
    | timeout => rw [hr] at hb; cases hb

/-- C18, as the code has it: the callable check is made after the callee and
all arguments have been evaluated.  When the callee evaluates to a value that
is not a callable and all arguments evaluate to values, the call raises `Can
only call functions`; when the evaluation of an argument raises an exception,
the call raises that exception, whatever the value of the callee is. -/
theorem Interpreter.call_of_non_callable_raises :
    (∀ (fuel : Nat) (callee : Expr) (args : List Expr) (st st1 st2 : Interpreter)
      (c : Value) (vals : List Value),
      Interpreter.evaluate fuel callee st = .ok c st1 →
      (∀ ref, c ≠ .callable ref) →
      Interpreter.evaluateArguments (Interpreter.evaluate fuel) args [] st1 = .ok vals st2 →
      Interpreter.evaluate (fuel + 1) (.call callee args) st =
        .exception (.runtime_error "Can only call functions") st2) ∧
    (∀ (fuel : Nat) (callee : Expr) (before : List Expr) (arg : Expr) (rest : List Expr)
      (st st1 st2 st3 : Interpreter) (c : Value) (vals : List Value) (e : Exception),
      Interpreter.evaluate fuel callee st = .ok c st1 →
      Interpreter.evaluateArguments (Interpreter.evaluate fuel) before [] st1 = .ok vals st2 →
      Interpreter.evaluate fuel arg st2 = .exception e st3 →
      Interpreter.evaluate (fuel + 1) (.call callee (before ++ arg :: rest)) st =
        .exception e st3) := by
  constructor
  · intro fuel callee args st st1 st2 c vals hc hnot ha
    rw [Interpreter.evaluate_call fuel callee args st st1 st2 c vals hc ha]
    cases c with
    | callable ref => exact (hnot ref rfl).elim
    | _ => rfl
  · intro fuel callee before arg rest st st1 st2 st3 c vals e hc hb ha
    exact Interpreter.evaluate_call_argument_raises fuel callee _ st st1 st3 c e hc
      (Interpreter.evaluateArguments_raises _ e before arg rest [] vals st1 st2 st3 hb ha)

/-- C18, on an example: the number 1 called with the argument nil. -/
theorem Interpreter.call_of_non_callable_raises_witness :
    Interpreter.evaluate 2 (.call (.literal (.number (Number.ofNat 1))) [.literal .nil])
        (Interpreter.new Host.simple) =
      .exception (.runtime_error "Can only call functions")
        { Interpreter.new Host.simple with lastValue := .nil } :=
  Interpreter.call_of_non_callable_raises.1 1 (.literal (.number (Number.ofNat 1)))
    [.literal .nil] (Interpreter.new Host.simple)
    { Interpreter.new Host.simple with lastValue := .number (Number.ofNat 1) }
    { Interpreter.new Host.simple with lastValue := .nil }
    (.number (Number.ofNat 1)) [.nil] rfl (by intro ref h; cases h) rfl

/-- C18, where the claim fails: the callee is the number 1, not a callable, and
the argument is an undefined variable; the call raises the error of the
argument, not `Can only call functions`.  The program `print "f"(1 / 0)`
reports `Division by zero`. -/
theorem Interpreter.argument_error_precedes_callable_check :
    (Interpreter.evaluate 3 (.call (.literal (.number (Number.ofNat 1))) [.identifier "nope"])
      (Interpreter.new Host.simple)).error? = some "Undefined variable 'nope'" ∧
    (Interpreter.evaluate 3 (.call (.literal (.number (Number.ofNat 1))) [.identifier "nope"])
      (Interpreter.new Host.simple)).error? ≠ some "Can only call functions" ∧
    (Interpreter.interpret 10 callStringProgram (Interpreter.new Host.simple)).summary =
      some ([], ["Runtime error: Division by zero"], 0) := by
  refine ⟨?_, ?_, ?_⟩
  · decide!
  · decide!
  · decide!

/-- The argument loop yields one value for every argument expression. -/
theorem Interpreter.evaluateArguments_length (evaluate : Expr → InterpM Value) :
    ∀ (args : List Expr) (acc vals : List Value) (st st1 : Interpreter),
      Interpreter.evaluateArguments evaluate args acc st = .ok vals st1 →
      vals.length = acc.length + args.length := by
  intro args
  induction args with
  | nil =>
    intro acc vals st st1 h
    change Outcome.ok acc st = Outcome.ok vals st1 at h
    cases h
    rfl
  | cons a rest ih =>
    intro acc vals st st1 h
    change InterpM.bind _ _ st = _ at h
    unfold InterpM.bind at h
    cases hr : evaluate a st with
    | ok v st0 =>
      rw [hr] at h
      have := ih _ vals st0 st1 h
      simp at this ⊢
      omega
    | exception e0 st0 => rw [hr] at h; cases h
    | fault => rw [hr] at h; cases h
    | timeout => rw [hr] at h; cases h

/-- C19: when the callee is a callable of arity `N` and the `M` argument values
are not `N` many, the call raises `Expected N arguments but got M`, with `N`
and `M` in decimal, in the state reached after the arguments (the callable is
not invoked: nothing that executes statements is used).  The argument loop
yields one value per argument expression.  A user function is invoked only when
there are exactly as many argument values as parameters, and then the binding
of the parameters reads one argument for each parameter and succeeds.
Examples: `sqrt()` and `clock` with twelve arguments. -/
theorem Interpreter.arity_mismatch_raises :
    (∀ (execute : Stmt → InterpM Unit) (ref : Nat) (callable : FluxCallable)
      (arguments : List Value) (st : Interpreter),
      st.callables[ref]? = some callable → arguments.length ≠ callable.arity →
      Interpreter.visitCall execute (.callable ref) arguments st =
        .exception (.runtime_error ("Expected " ++ toString callable.arity ++
          " arguments but got " ++ toString arguments.length)) st) ∧
    (∀ (fuel : Nat) (callee : Expr) (args : List Expr) (st st1 st2 : Interpreter)
      (ref : Nat) (vals : List Value) (callable : FluxCallable),
      Interpreter.evaluate fuel callee st = .ok (.callable ref) st1 →
      Interpreter.evaluateArguments (Interpreter.evaluate fuel) args [] st1 = .ok vals st2 →
      st2.callables[ref]? = some callable → args.length ≠ callable.arity →
      vals.length = args.length ∧
      Interpreter.evaluate (fuel + 1) (.call callee args) st =
        .exception (.runtime_error ("Expected " ++ toString callable.arity ++
          " arguments but got " ++ toString args.length)) st2) ∧
    (∀ (name : String) (parameters : List String) (body : List Stmt) (closure : Nat),
      (FluxCallable.function name parameters body closure).arity = parameters.length) ∧
    (∀ (execute : Stmt → InterpM Unit) (ref : Nat) (name : String) (parameters : List String)
      (body : List Stmt) (closure : Nat) (arguments : List Value) (st : Interpreter),
      st.callables[ref]? = some (.function name parameters body closure) →
      arguments.length = parameters.length →
      Interpreter.visitCall execute (.callable ref) arguments st =
        (Interpreter.callFunction execute parameters body closure arguments >>=
          Interpreter.setLastValue) st ∧
      (∀ i, i < parameters.length → ∃ value, arguments[i]? = some value) ∧
      Interpreter.bindParameters st.heap.length parameters arguments
          { st with heap := st.heap ++ [{ enclosing := some closure, values := [] }] } =
        .ok () { st with heap := st.heap ++
          [{ enclosing := some closure,
             values := Interpreter.parameterFrame [] parameters arguments }] }) ∧
    (Interpreter.evaluate 3 (.call (.identifier "sqrt") [])
      (Interpreter.new Host.simple)).error? = some "Expected 1 arguments but got 0" ∧
    (Interpreter.evaluate 3 (.call (.identifier "clock") (List.replicate 12 (.literal .nil)))
      (Interpreter.new Host.simple)).error? = some "Expected 0 arguments but got 12" := by
  have hmis : ∀ (execute : Stmt → InterpM Unit) (ref : Nat) (callable : FluxCallable)
      (arguments : List Value) (st : Interpreter),
      st.callables[ref]? = some callable → arguments.length ≠ callable.arity →
      Interpreter.visitCall execute (.callable ref) arguments st =
        .exception (.runtime_error ("Expected " ++ toString callable.arity ++
          " arguments but got " ++ toString arguments.length)) st := by
    intro execute ref callable arguments st hget hne
    simp [Interpreter.visitCall, hget, hne]
  refine ⟨hmis, ?_, fun _ _ _ _ => rfl, ?_, ?_, ?_⟩
  · intro fuel callee args st st1 st2 ref vals callable hc ha hget hne
    have hlen : vals.length = args.length := by
      simpa using Interpreter.evaluateArguments_length _ args [] vals st1 st2 ha
    refine ⟨hlen, ?_⟩
    rw [Interpreter.evaluate_call fuel callee args st st1 st2 (.callable ref) vals hc ha,
      hmis _ ref callable vals st2 hget (by rw [hlen]; exact hne), hlen]
  · intro execute ref name parameters body closure arguments st hget hlen
    refine ⟨?_, ?_, ?_⟩
    · simp [Interpreter.visitCall, hget, FluxCallable.arity, hlen, Interpreter.callCallable]
    · intro i hi
      exact ⟨arguments[i], by simp [List.getElem?_eq_getElem (by omega : i < arguments.length)]⟩
    · exact Interpreter.bindParameters_eq (some closure) parameters arguments [] st.heap
        { st with heap := st.heap ++ [{ enclosing := some closure, values := [] }] } hlen rfl
  · decide!
  · decide!

/-- C19, on an example: `abs`, the callable 2 of a new interpreter, has arity 1
and is applied to two values. -/
theorem Interpreter.arity_mismatch_raises_witness :
    Interpreter.visitCall (Interpreter.execute 0) (.callable 2) [.nil, .nil]
        (Interpreter.new Host.simple) =
      .exception (.runtime_error "Expected 1 arguments but got 2")
        (Interpreter.new Host.simple) :=
  Interpreter.arity_mismatch_raises.1 (Interpreter.execute 0) 2 (.native "abs" 1) [.nil, .nil]
    (Interpreter.new Host.simple) rfl (by decide)

/-! ## The end-of-file token -/

theorem List.lookup_mem_values {α β : Type} [BEq α] (key : α) (value : β) :
    ∀ l : List (α × β), l.lookup key = some value → value ∈ l.map Prod.snd := by
  intro l
  induction l with
  | nil => intro h; simp [List.lookup] at h
  | cons kv rest ih =>
    obtain ⟨k, v⟩ := kv
    intro h
    simp only [List.lookup] at h
    split at h
    · cases h
      simp
    · simp [ih h]

theorem Lexer.keyword_not_eof (s : String) (t : TokenType)
    (h : Lexer.keywords.lookup s = some t) : t ≠ .END_OF_FILE := by
  have hm := List.lookup_mem_values s t Lexer.keywords h
  intro ht
  subst ht
  revert hm
  decide

theorem Lexer.scanOperator_not_eof (lx : Lexer) (two one : TokenType)
    (twoLexeme oneLexeme : String) (h2 : two ≠ .END_OF_FILE) (h1 : one ≠ .END_OF_FILE) :
    (lx.scanOperator two twoLexeme one oneLexeme).2.type ≠ .END_OF_FILE := by
  unfold Lexer.scanOperator
  simp only
  split
  · exact h2
  · exact h1

theorem Lexer.makeString_not_eof (lx : Lexer) : lx.makeString.2.type ≠ .END_OF_FILE := by
  unfold Lexer.makeString
  simp only
  split <;> simp

theorem Lexer.makeIdentifier_not_eof (lx : Lexer) :
    lx.makeIdentifier.2.type ≠ .END_OF_FILE := by
  unfold Lexer.makeIdentifier
  simp only
  split
  · rename_i t h
    exact Lexer.keyword_not_eof _ t h
  · simp

theorem Lexer.noEof_ite (c : Prop) [Decidable c] (a b : Lexer × Option Token)
    (ha : Lexer.NoEof a) (hb : Lexer.NoEof b) : Lexer.NoEof (if c then a else b) := by
  split
  · exact ha
  · exact hb

theorem Lexer.noEof_token (lx : Lexer) (token : Token) (h : token.type ≠ .END_OF_FILE) :
    Lexer.NoEof (lx, some token) := by
  intro t ht
  cases ht
  exact h

/-- No token made by the switch of `tokenize` is an end-of-file token. -/
theorem Lexer.scanToken_not_eof (lx : Lexer) (c : Char) : Lexer.NoEof (lx.scanToken c) := by
  unfold Lexer.scanToken
  repeat' apply Lexer.noEof_ite
  all_goals first
    | (refine Lexer.noEof_token _ _ ?_
       first
         | ((with_reducible refine Lexer.scanOperator_not_eof _ _ _ _ _ ?_ ?_) <;> decide)
         | with_reducible exact Lexer.makeString_not_eof _
         | with_reducible exact Lexer.makeIdentifier_not_eof _
         | (dsimp only [Lexer.makeToken, Lexer.makeNumber]; decide))
    | (intro t ht; cases ht)

theorem Lexer.tokenizeLoop_not_eof :
    ∀ (fuel : Nat) (lx : Lexer) (tokens : List Token),
      (∀ t ∈ tokens, t.type ≠ .END_OF_FILE) →
      ∀ t ∈ (Lexer.tokenizeLoop fuel lx tokens).2, t.type ≠ .END_OF_FILE := by
  intro fuel
  induction fuel with
  | zero => intro lx tokens h; exact h
  | succ fuel ih =>
    intro lx tokens h
    simp only [Lexer.tokenizeLoop]
    split
    · exact h
    · split
      · exact h
      · split
        · exact ih _ tokens h
        · split
          · exact ih _ tokens h
          · rename_i lx2 token hscan
            split
            · apply ih
              intro t ht
              rcases List.mem_append.mp ht with ht | ht
              · exact h t ht
              · simp only [List.mem_singleton] at ht
                subst ht
                exact Lexer.scanToken_not_eof _ _ _ (by rw [hscan])
            · exact ih _ tokens h

/-- C20: for every source string the token list of `Lexer::tokenize` is not
empty, its last token is an end-of-file token, and no token before the last one
is an end-of-file token; so exactly one token of the list is an end-of-file
token.  (The loop of `tokenize` stops with the whole source consumed,
`Lexer.tokenize_consumes_source`.) -/
theorem Lexer.tokenize_ends_with_one_eof (source : String) :
    lex source ≠ [] ∧
    (∃ last, (lex source).getLast? = some last ∧ last.type = .END_OF_FILE) ∧
    (∀ t ∈ (lex source).dropLast, t.type ≠ .END_OF_FILE) ∧
    ((lex source).filter (fun t => t.type == .END_OF_FILE)).length = 1 := by
  have hbefore := Lexer.tokenizeLoop_not_eof ((Lexer.new source).source.length + 1)
    (Lexer.new source) [] (by simp)
  have hshape : lex source =
      (Lexer.tokenizeLoop ((Lexer.new source).source.length + 1) (Lexer.new source) []).2 ++
        [{ type := .END_OF_FILE, lexeme := "",
           line := (Lexer.tokenizeLoop ((Lexer.new source).source.length + 1)
             (Lexer.new source) []).1.line,
           column := (Lexer.tokenizeLoop ((Lexer.new source).source.length + 1)
             (Lexer.new source) []).1.column }] := rfl
  rw [hshape]
  refine ⟨by simp, ⟨_, List.getLast?_concat _, rfl⟩, ?_, ?_⟩
  · simpa using hbefore
  · rw [List.filter_append]
    have : List.filter (fun t => t.type == TokenType.END_OF_FILE)
        (Lexer.tokenizeLoop ((Lexer.new source).source.length + 1) (Lexer.new source) []).2
          = [] := by
      rw [List.filter_eq_nil_iff]
      intro t ht
      simpa using hbefore t ht
    rw [this]
    rfl

/-! ## The scanner consumes the source -/

theorem Lexer.advances_refl (lx : Lexer) : Lexer.Advances lx lx := ⟨rfl, Nat.le_refl _⟩

theorem Lexer.advances_trans (a b c : Lexer) (hab : Lexer.Advances a b)
    (hbc : Lexer.Advances b c) : Lexer.Advances a c :=
  ⟨hbc.1.trans hab.1, Nat.le_trans hab.2 hbc.2⟩

theorem Lexer.advance_advances (lx : Lexer) : Lexer.Advances lx lx.advance.2 := by
  unfold Lexer.advance
  split
  · exact Lexer.advances_refl lx
  · exact ⟨rfl, Nat.le_succ _⟩

theorem Lexer.advance_current (lx : Lexer) (h : lx.isAtEnd = false) :
    lx.advance.2.source = lx.source ∧ lx.advance.2.current = lx.current + 1 := by
  unfold Lexer.advance
  simp [h]

theorem Lexer.skipWhitespaceLoop_advances :
    ∀ (fuel : Nat) (lx : Lexer), Lexer.Advances lx (Lexer.skipWhitespaceLoop fuel lx) := by
  intro fuel
  induction fuel with
  | zero => intro lx; exact Lexer.advances_refl lx
  | succ fuel ih =>
    intro lx
    simp only [Lexer.skipWhitespaceLoop]
    split
    · split
      · exact Lexer.advances_trans _ _ _ (Lexer.advance_advances lx) (ih _)
      · exact Lexer.advances_refl lx
    · exact Lexer.advances_refl lx

theorem Lexer.skipCommentLoop_advances :
    ∀ (fuel : Nat) (lx : Lexer), Lexer.Advances lx (Lexer.skipCommentLoop fuel lx) := by
  intro fuel
  induction fuel with
  | zero => intro lx; exact Lexer.advances_refl lx
  | succ fuel ih =>
    intro lx
    simp only [Lexer.skipCommentLoop]
    split
    · exact Lexer.advances_trans _ _ _ (Lexer.advance_advances lx) (ih _)
    · exact Lexer.advances_refl lx

theorem Lexer.makeNumberLoop_advances :
    ∀ (fuel : Nat) (lx : Lexer) (number : String),
      Lexer.Advances lx (Lexer.makeNumberLoop fuel lx number).1 := by
  intro fuel
  induction fuel with
  | zero => intro lx number; exact Lexer.advances_refl lx
  | succ fuel ih =>
    intro lx number
    simp only [Lexer.makeNumberLoop]
    split
    · exact Lexer.advances_trans _ _ _ (Lexer.advance_advances lx) (ih _ _)
    · exact Lexer.advances_refl lx

theorem Lexer.makeIdentifierLoop_advances :
    ∀ (fuel : Nat) (lx : Lexer) (identifier : String),
      Lexer.Advances lx (Lexer.makeIdentifierLoop fuel lx identifier).1 := by
  intro fuel
  induction fuel with
  | zero => intro lx identifier; exact Lexer.advances_refl lx
  | succ fuel ih =>
    intro lx identifier
    simp only [Lexer.makeIdentifierLoop]
    split
    · exact Lexer.advances_trans _ _ _ (Lexer.advance_advances lx) (ih _ _)
    · exact Lexer.advances_refl lx

theorem Lexer.makeStringLoop_advances :
    ∀ (fuel : Nat) (lx : Lexer) (value : String),
      Lexer.Advances lx (Lexer.makeStringLoop fuel lx value).1 := by
  intro fuel
  induction fuel with
  | zero => intro lx value; exact Lexer.advances_refl lx
  | succ fuel ih =>
    intro lx value
    simp only [Lexer.makeStringLoop]
    split
    · refine Lexer.advances_trans _ _ _ ?_ (ih _ _)
      split
      · exact Lexer.advances_trans lx { lx with line := lx.line + 1, column := 1 } _
          ⟨rfl, Nat.le_refl _⟩ (Lexer.advance_advances _)
      · exact Lexer.advance_advances lx
    · exact Lexer.advances_refl lx


theorem Lexer.length_pos_of_not_atEnd (lx : Lexer) (h : lx.isAtEnd = false) :
    ∃ k, lx.source.length = k + 1 := by
  simp [Lexer.isAtEnd] at h
  exact ⟨lx.source.length - 1, by omega⟩

theorem Lexer.progress_of_advances (lx lx1 : Lexer) (token : Option Token)
    (hend : lx.isAtEnd = false) (h : Lexer.Advances lx.advance.2 lx1) :
    Lexer.Progress lx (lx1, token) := by
  obtain ⟨hs, hc⟩ := Lexer.advance_current lx hend
  refine ⟨h.1.trans hs, ?_⟩
  show lx.current < lx1.current
  have := h.2
  omega

theorem Lexer.progress_ite (lx : Lexer) (c : Prop) [Decidable c] (a b : Lexer × Option Token)
    (ha : c → Lexer.Progress lx a) (hb : ¬c → Lexer.Progress lx b) :
    Lexer.Progress lx (if c then a else b) := by
  split
  · exact ha (by assumption)
  · exact hb (by assumption)

theorem Lexer.scanOperator_progress (lx : Lexer) (hend : lx.isAtEnd = false)
    (two one : TokenType) (twoLexeme oneLexeme : String) :
    Lexer.Progress lx ((lx.scanOperator two twoLexeme one oneLexeme).1,
      some (lx.scanOperator two twoLexeme one oneLexeme).2) := by
  apply Lexer.progress_of_advances lx _ _ hend
  unfold Lexer.scanOperator
  simp only
  split
  · exact Lexer.advance_advances _
  · exact Lexer.advances_refl _

theorem Lexer.makeString_progress (lx : Lexer) (hend : lx.isAtEnd = false) :
    Lexer.Progress lx (lx.makeString.1, some lx.makeString.2) := by
  apply Lexer.progress_of_advances lx _ _ hend
  unfold Lexer.makeString
  simp only
  split
  · exact Lexer.advances_trans _ _ _ (Lexer.makeStringLoop_advances _ _ _) ⟨rfl, Nat.le_refl _⟩
  · exact Lexer.advances_trans _ _ _ (Lexer.makeStringLoop_advances _ _ _)
      (Lexer.advance_advances _)

theorem Lexer.makeNumber_progress (lx : Lexer) (hend : lx.isAtEnd = false)
    (hdigit : lx.peek.isDigit = true) :
    Lexer.Progress lx (lx.makeNumber.1, some lx.makeNumber.2) := by
  apply Lexer.progress_of_advances lx _ _ hend
  obtain ⟨k, hk⟩ := Lexer.length_pos_of_not_atEnd lx hend
  unfold Lexer.makeNumber
  simp only [hk, Lexer.makeNumberLoop, hend, hdigit, Bool.not_false, Bool.true_or,
    Bool.and_self, if_true]
  exact Lexer.makeNumberLoop_advances _ _ _

theorem Lexer.makeIdentifier_progress (lx : Lexer) (hend : lx.isAtEnd = false)
    (hletter : (lx.peek.isAlpha || lx.peek == '_') = true) :
    Lexer.Progress lx (lx.makeIdentifier.1, some lx.makeIdentifier.2) := by
  apply Lexer.progress_of_advances lx _ _ hend
  obtain ⟨k, hk⟩ := Lexer.length_pos_of_not_atEnd lx hend
  have hcond : (lx.peek.isAlphanum || lx.peek == '_') = true := by
    simp only [Bool.or_eq_true] at hletter ⊢
    rcases hletter with h | h
    · exact Or.inl (by simp [Char.isAlphanum, h])
    · exact Or.inr h
  unfold Lexer.makeIdentifier
  simp only [hk, Lexer.makeIdentifierLoop, hend, hcond, Bool.not_false, Bool.and_self, if_true]
  exact Lexer.makeIdentifierLoop_advances _ _ _

/-- Every case of the switch of `tokenize` consumes at least one character. -/
theorem Lexer.scanToken_progress (lx : Lexer) (hend : lx.isAtEnd = false) :
    Lexer.Progress lx (lx.scanToken lx.peek) := by
  unfold Lexer.scanToken
  repeat' (apply Lexer.progress_ite <;> intro _)
  all_goals first
    | with_reducible exact Lexer.scanOperator_progress lx hend _ _ _ _
    | with_reducible exact Lexer.makeString_progress lx hend
    | with_reducible exact Lexer.makeNumber_progress lx hend (by assumption)
    | with_reducible exact Lexer.makeIdentifier_progress lx hend (by assumption)
    | with_reducible exact Lexer.progress_of_advances lx _ _ hend (Lexer.advances_refl _)
    | exact Lexer.progress_of_advances lx _ _ hend ⟨rfl, Nat.le_refl _⟩

theorem Lexer.skipComment_progress (lx : Lexer) (hend : lx.isAtEnd = false)
    (hslash : (lx.peek == '/') = true) :
    lx.skipComment.source = lx.source ∧ lx.current < lx.skipComment.current := by
  obtain ⟨k, hk⟩ := Lexer.length_pos_of_not_atEnd lx hend
  have hpeek : lx.peek = '/' := by simpa using hslash
  have hne : (lx.peek != '\n') = true := by rw [hpeek]; decide
  have h := Lexer.skipCommentLoop_advances k lx.advance.2
  obtain ⟨hs, hc⟩ := Lexer.advance_current lx hend
  unfold Lexer.skipComment
  simp only [hk, Lexer.skipCommentLoop, hend, hne, Bool.not_false, Bool.and_self, if_true]
  exact ⟨h.1.trans hs, by have := h.2; omega⟩

/-- With as much fuel as there are characters left, and one more, the main loop
of `tokenize` stops because the source is consumed, not because the fuel is. -/
theorem Lexer.tokenizeLoop_consumes :
    ∀ (fuel : Nat) (lx : Lexer) (tokens : List Token),
      lx.source.length - lx.current < fuel →
      (Lexer.tokenizeLoop fuel lx tokens).1.isAtEnd = true ∧
      (Lexer.tokenizeLoop fuel lx tokens).1.source = lx.source := by
  intro fuel
  induction fuel with
  | zero => intro lx tokens h; omega
  | succ fuel ih =>
    intro lx tokens hfuel
    simp only [Lexer.tokenizeLoop]
    split
    · exact ⟨by assumption, rfl⟩
    · have hws := Lexer.skipWhitespaceLoop_advances lx.source.length lx
      change Lexer.Advances lx lx.skipWhitespace at hws
      split
      · exact ⟨by assumption, hws.1⟩
      · rename_i hend1
        have hend1' : lx.skipWhitespace.isAtEnd = false := by simpa using hend1
        have hlt : lx.skipWhitespace.current < lx.skipWhitespace.source.length := by
          simpa [Lexer.isAtEnd] using hend1'
        have hstep : ∀ lx2 : Lexer, lx2.source = lx.skipWhitespace.source →
            lx.skipWhitespace.current < lx2.current →
            ∀ tokens2, (Lexer.tokenizeLoop fuel lx2 tokens2).1.isAtEnd = true ∧
              (Lexer.tokenizeLoop fuel lx2 tokens2).1.source = lx.source := by
          intro lx2 hs hc tokens2
          have := ih lx2 tokens2 (by rw [hs, hws.1] at *; have := hws.2; omega)
          exact ⟨this.1, this.2.trans (hs.trans hws.1)⟩
        split
        · rename_i hcomment
          simp only [Bool.and_eq_true] at hcomment
          obtain ⟨hs, hc⟩ := Lexer.skipComment_progress lx.skipWhitespace hend1' hcomment.1
          exact hstep _ hs hc tokens
        · have hp := Lexer.scanToken_progress lx.skipWhitespace hend1'
          split
          · rename_i lx2 hscan
            rw [hscan] at hp
            exact hstep lx2 hp.1 hp.2 tokens
          · rename_i lx2 token hscan
            rw [hscan] at hp
            split
            · exact hstep lx2 hp.1 hp.2 _
            · exact hstep lx2 hp.1 hp.2 _

/-- For every source string, `tokenize` stops with the whole source consumed. -/
theorem Lexer.tokenize_consumes_source (source : String) :
    (Lexer.new source).tokenize.1.isAtEnd = true :=
  (Lexer.tokenizeLoop_consumes ((Lexer.new source).source.length + 1) (Lexer.new source) []
    (by simp [Lexer.new])).1


theorem Lexer.atEnd_of_no_rest (lx : Lexer) (h : lx.source.length - lx.current ≤ 0) :
    lx.isAtEnd = true := by
  simp [Lexer.isAtEnd]
  omega

theorem Lexer.rest_advance (lx : Lexer) (fuel : Nat) (hend : lx.isAtEnd = false)
    (h : lx.source.length - lx.current ≤ fuel + 1) :
    lx.advance.2.source.length - lx.advance.2.current ≤ fuel := by
  obtain ⟨hs, hc⟩ := Lexer.advance_current lx hend
  rw [hs, hc]
  omega

/-- The loop of `skipWhitespace` stops at the end of the source or at a character
that is not a blank, with the fuel that `skipWhitespace` gives it. -/
theorem Lexer.skipWhitespaceLoop_exit :
    ∀ (fuel : Nat) (lx : Lexer), lx.source.length - lx.current ≤ fuel →
      (Lexer.skipWhitespaceLoop fuel lx).isAtEnd = true ∨
      ((Lexer.skipWhitespaceLoop fuel lx).peek == ' ' ||
        (Lexer.skipWhitespaceLoop fuel lx).peek == '\t' ||
        (Lexer.skipWhitespaceLoop fuel lx).peek == '\r') = false := by
  intro fuel
  induction fuel with
  | zero => intro lx h; exact Or.inl (Lexer.atEnd_of_no_rest lx h)
  | succ fuel ih =>
    intro lx h
    simp only [Lexer.skipWhitespaceLoop]
    cases hend : lx.isAtEnd with
    | true => exact Or.inl (by simpa using hend)
    | false =>
      simp only [Bool.not_false, if_true]
      split
      · exact ih _ (Lexer.rest_advance lx fuel hend h)
      · rename_i hc
        exact Or.inr (by simpa using hc)

/-- The loop of `skipComment` stops at the end of the source or at a newline. -/
theorem Lexer.skipCommentLoop_exit :
    ∀ (fuel : Nat) (lx : Lexer), lx.source.length - lx.current ≤ fuel →
      (Lexer.skipCommentLoop fuel lx).isAtEnd = true ∨
      (Lexer.skipCommentLoop fuel lx).peek = '\n' := by
  intro fuel
  induction fuel with
  | zero => intro lx h; exact Or.inl (Lexer.atEnd_of_no_rest lx h)
  | succ fuel ih =>
    intro lx h
    simp only [Lexer.skipCommentLoop]
    cases hend : lx.isAtEnd with
    | true => exact Or.inl (by simpa using hend)
    | false =>
      simp only [Bool.not_false, Bool.true_and]
      split
      · exact ih _ (Lexer.rest_advance lx fuel hend h)
      · rename_i hc
        exact Or.inr (by simpa using hc)

/-- The loop of `makeNumber` stops at the end of the source or at a character
that is neither a digit nor a dot. -/
theorem Lexer.makeNumberLoop_exit :
    ∀ (fuel : Nat) (lx : Lexer) (number : String), lx.source.length - lx.current ≤ fuel →
      (Lexer.makeNumberLoop fuel lx number).1.isAtEnd = true ∨
      ((Lexer.makeNumberLoop fuel lx number).1.peek.isDigit ||
        (Lexer.makeNumberLoop fuel lx number).1.peek == '.') = false := by
  intro fuel
  induction fuel with
  | zero => intro lx number h; exact Or.inl (Lexer.atEnd_of_no_rest lx h)
  | succ fuel ih =>
    intro lx number h
    simp only [Lexer.makeNumberLoop]
    cases hend : lx.isAtEnd with
    | true => exact Or.inl (by simpa using hend)
    | false =>
      simp only [Bool.not_false, Bool.true_and]
      split
      · exact ih _ _ (Lexer.rest_advance lx fuel hend h)
      · rename_i hc
        exact Or.inr (by simpa using hc)

/-- The loop of `makeIdentifier` stops at the end of the source or at a character
that is neither a letter, nor a digit, nor an underscore. -/
theorem Lexer.makeIdentifierLoop_exit :
    ∀ (fuel : Nat) (lx : Lexer) (identifier : String),
      lx.source.length - lx.current ≤ fuel →
      (Lexer.makeIdentifierLoop fuel lx identifier).1.isAtEnd = true ∨
      ((Lexer.makeIdentifierLoop fuel lx identifier).1.peek.isAlphanum ||
        (Lexer.makeIdentifierLoop fuel lx identifier).1.peek == '_') = false := by
  intro fuel
  induction fuel with
  | zero => intro lx identifier h; exact Or.inl (Lexer.atEnd_of_no_rest lx h)
  | succ fuel ih =>
    intro lx identifier h
    simp only [Lexer.makeIdentifierLoop]
    cases hend : lx.isAtEnd with
    | true => exact Or.inl (by simpa using hend)
    | false =>
      simp only [Bool.not_false, Bool.true_and]
      split
      · exact ih _ _ (Lexer.rest_advance lx fuel hend h)
      · rename_i hc
        exact Or.inr (by simpa using hc)

/-- The loop of `makeString` stops at the end of the source or at a double
quote. -/
theorem Lexer.makeStringLoop_exit :
    ∀ (fuel : Nat) (lx : Lexer) (value : String), lx.source.length - lx.current ≤ fuel →
      (Lexer.makeStringLoop fuel lx value).1.isAtEnd = true ∨
      (Lexer.makeStringLoop fuel lx value).1.peek = '"' := by
  intro fuel
  induction fuel with
  | zero => intro lx value h; exact Or.inl (Lexer.atEnd_of_no_rest lx h)
  | succ fuel ih =>
    intro lx value h
    simp only [Lexer.makeStringLoop]
    cases hend : lx.isAtEnd with
    | true => exact Or.inl (by simpa using hend)
    | false =>
      simp only [Bool.not_false, Bool.true_and]
      split
      · apply ih
        split
        · exact Lexer.rest_advance { lx with line := lx.line + 1, column := 1 } fuel hend h
        · exact Lexer.rest_advance lx fuel hend h
      · rename_i hc
        exact Or.inr (by simpa using hc)

/-! ## Tokens that are dropped -/

theorem Lexer.tokenizeLoop_not_invalid :
    ∀ (fuel : Nat) (lx : Lexer) (tokens : List Token),
      (∀ t ∈ tokens, t.type ≠ .INVALID) →
      ∀ t ∈ (Lexer.tokenizeLoop fuel lx tokens).2, t.type ≠ .INVALID := by
  intro fuel
  induction fuel with
  | zero => intro lx tokens h; exact h
  | succ fuel ih =>
    intro lx tokens h
    simp only [Lexer.tokenizeLoop]
    split
    · exact h
    · split
      · exact h
      · split
        · exact ih _ tokens h
        · split
          · exact ih _ tokens h
          · rename_i lx2 token hscan
            split
            · rename_i hvalid
              apply ih
              intro t ht
              rcases List.mem_append.mp ht with ht | ht
              · exact h t ht
              · simp only [List.mem_singleton] at ht
                subst ht
                simpa using hvalid
            · exact ih _ tokens h

/-- The default case of the switch: a character that starts no token is
reported and skipped, and no token is made. -/
theorem Lexer.scanToken_unexpected (lx : Lexer) (c : Char)
    (h : Lexer.startsToken c = false) :
    lx.scanToken c =
      ({ lx.advance.2 with
          cerr := lx.cerr ++
            ["Unexpected character: " ++ c.toString ++ " at line " ++ toString lx.line] },
       none) := by
  simp only [Lexer.startsToken, Bool.or_eq_false_iff] at h
  obtain ⟨⟨⟨⟨⟨⟨⟨⟨⟨⟨⟨⟨⟨⟨⟨⟨⟨⟨h1, h2⟩, h3⟩, h4⟩, h5⟩, h6⟩, h7⟩, h8⟩, h9⟩, h10⟩, h11⟩, h12⟩, h13⟩,
    h14⟩, h15⟩, h16⟩, h17⟩, h18⟩, h19⟩ := h
  unfold Lexer.scanToken
  rw [if_neg (by rw [h1]; exact Bool.false_ne_true), if_neg (by rw [h2]; exact Bool.false_ne_true),
    if_neg (by rw [h3]; exact Bool.false_ne_true), if_neg (by rw [h4]; exact Bool.false_ne_true),
    if_neg (by rw [h5]; exact Bool.false_ne_true), if_neg (by rw [h6]; exact Bool.false_ne_true),
    if_neg (by rw [h7]; exact Bool.false_ne_true), if_neg (by rw [h8]; exact Bool.false_ne_true),
    if_neg (by rw [h9]; exact Bool.false_ne_true), if_neg (by rw [h10]; exact Bool.false_ne_true),
    if_neg (by rw [h11]; exact Bool.false_ne_true), if_neg (by rw [h12]; exact Bool.false_ne_true),
    if_neg (by rw [h13]; exact Bool.false_ne_true), if_neg (by rw [h14]; exact Bool.false_ne_true),
    if_neg (by rw [h15]; exact Bool.false_ne_true), if_neg (by rw [h16]; exact Bool.false_ne_true),
    if_neg (by rw [h17]; exact Bool.false_ne_true), if_neg (by rw [h18]; exact Bool.false_ne_true),
    if_neg (by rw [Bool.or_eq_false_iff.mpr h19]; exact Bool.false_ne_true)]


/-- A string literal without a closing quote: the loop runs to the end of the
source, the token is of kind INVALID and the scanner is at the end. -/
theorem Lexer.makeString_unterminated (lx : Lexer) (hend : lx.isAtEnd = false)
    (hnone : ∀ i, lx.current < i → i < lx.source.length → lx.source.getD i '\x00' ≠ '"') :
    lx.makeString.2.type = .INVALID ∧ lx.makeString.1.isAtEnd = true ∧
    lx.makeString.1.cerr =
      (Lexer.makeStringLoop lx.source.length lx.advance.2 "").1.cerr ++
        ["Unterminated string at line " ++
          toString (Lexer.makeStringLoop lx.source.length lx.advance.2 "").1.line] := by
  have hloop : (Lexer.makeStringLoop lx.source.length lx.advance.2 "").1.isAtEnd = true := by
    obtain ⟨hs, hc⟩ := Lexer.advance_current lx hend
    have hadv := Lexer.makeStringLoop_advances lx.source.length lx.advance.2 ""
    rcases Lexer.makeStringLoop_exit lx.source.length lx.advance.2 ""
        (by rw [hs, hc]; omega) with h | h
    · exact h
    · cases hat : (Lexer.makeStringLoop lx.source.length lx.advance.2 "").1.isAtEnd with
      | true => rfl
      | false =>
        exfalso
        have hlt : (Lexer.makeStringLoop lx.source.length lx.advance.2 "").1.current <
            lx.source.length := by
          have := hat
          simp only [Lexer.isAtEnd, decide_eq_false_iff_not, ge_iff_le, not_le] at this
          rw [hadv.1, hs] at this
          exact this
        have hpeek : lx.source.getD
            (Lexer.makeStringLoop lx.source.length lx.advance.2 "").1.current '\x00' = '"' := by
          simp only [Lexer.peek, hat, Bool.false_eq_true, if_false, hadv.1, hs] at h
          exact h
        exact hnone _ (by have := hadv.2; omega) hlt hpeek
  unfold Lexer.makeString
  simp only [hloop, if_true]
  exact ⟨trivial, hloop, trivial⟩

/-- C21: no token of the list that `Lexer::tokenize` returns is of kind INVALID.
A character that starts no token is reported, exactly that character is
skipped, no token is made, and the loop goes on with the rest of the source.
An opening `"` without a closing `"` makes the scanner run to the end of the
source and adds no token.  Examples: `1 @ 2` gives the two numbers, `1 "ab`
gives the number only. -/
theorem Lexer.tokenize_drops_invalid :
    (∀ source : String, ∀ t ∈ lex source, t.type ≠ .INVALID) ∧
    (∀ (lx : Lexer) (c : Char), Lexer.startsToken c = false →
      lx.scanToken c =
        ({ lx.advance.2 with
            cerr := lx.cerr ++
              ["Unexpected character: " ++ c.toString ++ " at line " ++ toString lx.line] },
         none) ∧
      (lx.isAtEnd = false → lx.advance.2.current = lx.current + 1)) ∧
    (∀ (fuel : Nat) (lx : Lexer) (tokens : List Token),
      lx.isAtEnd = false → lx.skipWhitespace.isAtEnd = false →
      Lexer.startsToken lx.skipWhitespace.peek = false →
      Lexer.tokenizeLoop (fuel + 1) lx tokens =
        Lexer.tokenizeLoop fuel (lx.skipWhitespace.scanToken lx.skipWhitespace.peek).1 tokens) ∧
    (∀ (fuel : Nat) (lx : Lexer) (tokens : List Token),
      lx.isAtEnd = false → lx.skipWhitespace.isAtEnd = false →
      lx.skipWhitespace.peek = '"' →
      (∀ i, lx.skipWhitespace.current < i → i < lx.skipWhitespace.source.length →
        lx.skipWhitespace.source.getD i '\x00' ≠ '"') →
      (Lexer.tokenizeLoop (fuel + 2) lx tokens).2 = tokens ∧
      (Lexer.tokenizeLoop (fuel + 2) lx tokens).1.isAtEnd = true) ∧
    lex "1 @ 2" = [⟨.NUMBER, "1", 1, 1⟩, ⟨.NUMBER, "2", 1, 5⟩, ⟨.END_OF_FILE, "", 1, 6⟩] ∧
    (Lexer.new "1 @ 2").tokenize.1.cerr = ["Unexpected character: @ at line 1"] ∧
    lex "1 \"ab" = [⟨.NUMBER, "1", 1, 1⟩, ⟨.END_OF_FILE, "", 1, 6⟩] ∧
    (Lexer.new "1 \"ab").tokenize.1.cerr = ["Unterminated string at line 1"] := by
  refine ⟨?_, ?_, ?_, ?_, ?_, ?_, ?_, ?_⟩
  · intro source t ht
    have hbefore := Lexer.tokenizeLoop_not_invalid ((Lexer.new source).source.length + 1)
      (Lexer.new source) [] (by simp)
    change t ∈ (Lexer.tokenizeLoop ((Lexer.new source).source.length + 1)
      (Lexer.new source) []).2 ++ [_] at ht
    rcases List.mem_append.mp ht with h | h
    · exact hbefore t h
    · simp only [List.mem_singleton] at h
      subst h
      exact nofun
  · intro lx c hc
    exact ⟨Lexer.scanToken_unexpected lx c hc, fun hend => (Lexer.advance_current lx hend).2⟩
  · intro fuel lx tokens hend hend1 hc
    have hslash : (lx.skipWhitespace.peek == '/') = false := by
      simp only [Lexer.startsToken, Bool.or_eq_false_iff] at hc
      exact hc.1.1.1.1.1.1.1.1.1.2
    simp only [Lexer.tokenizeLoop, hend, hend1, hslash, Bool.false_and, Bool.false_eq_true,
      if_false, Lexer.scanToken_unexpected _ _ hc]
  · intro fuel lx tokens hend hend1 hquote hnone
    obtain ⟨hty, hat, _⟩ := Lexer.makeString_unterminated lx.skipWhitespace hend1 hnone
    have hscan : lx.skipWhitespace.scanToken '"' =
        (lx.skipWhitespace.makeString.1, some lx.skipWhitespace.makeString.2) := by
      unfold Lexer.scanToken
      simp
    have hstep : Lexer.tokenizeLoop (fuel + 2) lx tokens =
        Lexer.tokenizeLoop (fuel + 1) lx.skipWhitespace.makeString.1 tokens := by
      rw [show fuel + 2 = (fuel + 1) + 1 by omega]
      simp only [Lexer.tokenizeLoop, hend, hend1, hquote, hscan, hty]
      simp
    rw [hstep]
    simp only [Lexer.tokenizeLoop, hat, if_true]
    trivial
  · decide!
  · decide!
  · decide!
  · decide!

/-- C21, on an example: `@` starts no token, so the scanner skips it and makes
no token. -/
theorem Lexer.tokenize_drops_invalid_witness :
    (Lexer.new "@").scanToken '@' =
      ({ (Lexer.new "@").advance.2 with
          cerr := (Lexer.new "@").cerr ++
            ["Unexpected character: " ++ '@'.toString ++ " at line " ++
              toString (Lexer.new "@").line] },
       none) ∧
    ((Lexer.new "@").isAtEnd = false →
      (Lexer.new "@").advance.2.current = (Lexer.new "@").current + 1) :=
  Lexer.tokenize_drops_invalid.2.1 (Lexer.new "@") '@' (by decide)

/-! ## Token columns -/

/-- C22, as the code has it: for the cases `=`, `!`, `<` and `>` of the switch
the token is made after the first character has been consumed, so its column is
one more than the column of its first character, for the one-character and for
the two-character operator; the other cases record the column of the first
character.  In `a = 1` the `=` is at column 3 and its token says 4; the same
holds for each of the eight operators.  A newline inside a string literal
sets the column to 1 before the newline is consumed, so in the source
`"a`, newline, `b" x` the identifier `x`, at column 4 of line 2, gets
column 5. -/
theorem Lexer.operator_column_is_one_too_large :
    (∀ (lx : Lexer) (two one : TokenType) (twoLexeme oneLexeme : String),
      lx.isAtEnd = false →
      (lx.scanOperator two twoLexeme one oneLexeme).2.column = lx.column + 1) ∧
    (∀ lx : Lexer, (lx.scanToken '+').2.map Token.column = some lx.column) ∧
    (∀ lx : Lexer, lx.makeNumber.2.column = lx.column ∧ lx.makeIdentifier.2.column = lx.column ∧
      lx.makeString.2.column = lx.column) ∧
    lex "a = 1" =
      [⟨.IDENTIFIER, "a", 1, 1⟩, ⟨.ASSIGN, "=", 1, 4⟩, ⟨.NUMBER, "1", 1, 5⟩,
       ⟨.END_OF_FILE, "", 1, 6⟩] ∧
    sourceColumn "a = 1" 2 = 3 ∧
    lex "a == b != c <= d >= e < f > g ! h" =
      [⟨.IDENTIFIER, "a", 1, 1⟩, ⟨.EQUAL, "==", 1, 4⟩, ⟨.IDENTIFIER, "b", 1, 6⟩,
       ⟨.NOT_EQUAL, "!=", 1, 9⟩, ⟨.IDENTIFIER, "c", 1, 11⟩, ⟨.LESS_EQUAL, "<=", 1, 14⟩,
       ⟨.IDENTIFIER, "d", 1, 16⟩, ⟨.GREATER_EQUAL, ">=", 1, 19⟩, ⟨.IDENTIFIER, "e", 1, 21⟩,
       ⟨.LESS, "<", 1, 24⟩, ⟨.IDENTIFIER, "f", 1, 25⟩, ⟨.GREATER, ">", 1, 28⟩,
       ⟨.IDENTIFIER, "g", 1, 29⟩, ⟨.NOT, "!", 1, 32⟩, ⟨.IDENTIFIER, "h", 1, 33⟩,
       ⟨.END_OF_FILE, "", 1, 34⟩] ∧
    [2, 7, 12, 17, 22, 26, 30].map (sourceColumn "a == b != c <= d >= e < f > g ! h") =
      [3, 8, 13, 18, 23, 27, 31] ∧
    lex "\"a\nb\" x" =
      [⟨.STRING, "a\nb", 2, 1⟩, ⟨.IDENTIFIER, "x", 2, 5⟩, ⟨.END_OF_FILE, "", 2, 6⟩] ∧
    sourceColumn "\"a\nb\" x" 6 = 4 := by
  refine ⟨?_, ?_, ?_, ?_, ?_, ?_, ?_, ?_, ?_⟩
  · intro lx two one twoLexeme oneLexeme hend
    have hcol : lx.advance.2.column = lx.column + 1 := by
      unfold Lexer.advance
      simp [hend]
    unfold Lexer.scanOperator
    simp only
    split <;> exact hcol
  · intro lx
    unfold Lexer.scanToken
    simp [Lexer.makeToken]
  · intro lx
    refine ⟨rfl, rfl, ?_⟩
    unfold Lexer.makeString
    simp only
    split <;> rfl
  · decide!
  · decide!
  · decide!
  · decide!
  · decide!
  · decide!

/-- C22, on an example: the source `=`, whose only character is at column 1,
gets a token with column 2. -/
theorem Lexer.operator_column_is_one_too_large_witness :
    ((Lexer.new "=").scanOperator .EQUAL "==" .ASSIGN "=").2.column = 2 :=
  Lexer.operator_column_is_one_too_large.1 (Lexer.new "=") .EQUAL .ASSIGN "==" "=" (by decide)

/-! ## Number lexemes with several dots -/

theorem String.push_append_mk (s : String) (c : Char) (cs : List Char) :
    s.push c ++ String.mk cs = s ++ String.mk (c :: cs) := by
  apply String.ext
  simp [String.push]

/-- The loop of `makeNumber` takes all the digits and dots that follow. -/
theorem Lexer.makeNumberLoop_all :
    ∀ (rest pre : List Char) (line column : Nat) (cerr : List String) (number : String)
      (fuel : Nat), (∀ ch ∈ rest, ch.isDigit = true ∨ ch = '.') → rest.length ≤ fuel →
      Lexer.makeNumberLoop fuel ⟨pre ++ rest, pre.length, line, column, cerr⟩ number =
        (⟨pre ++ rest, pre.length + rest.length, line, column + rest.length, cerr⟩,
         number ++ String.mk rest) := by
  intro rest
  induction rest with
  | nil =>
    intro pre line column cerr number fuel _ _
    have hs : number ++ String.mk [] = number := by
      apply String.ext
      simp
    cases fuel with
    | zero => simp [Lexer.makeNumberLoop, hs]
    | succ fuel => simp [Lexer.makeNumberLoop, Lexer.isAtEnd, hs]
  | cons ch rest ih =>
    intro pre line column cerr number fuel hall hfuel
    cases fuel with
    | zero => simp at hfuel
    | succ fuel =>
      have hch : (ch.isDigit || ch == '.') = true := by
        rcases hall ch (by simp) with h | h
        · simp [h]
        · simp [h]
      have hend : Lexer.isAtEnd ⟨pre ++ ch :: rest, pre.length, line, column, cerr⟩ = false := by
        simp [Lexer.isAtEnd]
      have hget : (pre ++ ch :: rest).getD pre.length '\x00' = ch := by
        rw [List.getD_eq_getElem?_getD, List.getElem?_append_right (Nat.le_refl _)]
        simp
      have hpeek : Lexer.peek ⟨pre ++ ch :: rest, pre.length, line, column, cerr⟩ = ch := by
        simp only [Lexer.peek, hend, Bool.false_eq_true, if_false, hget]
      have hadv : Lexer.advance ⟨pre ++ ch :: rest, pre.length, line, column, cerr⟩ =
          (ch, ⟨(pre ++ [ch]) ++ rest, (pre ++ [ch]).length, line, column + 1, cerr⟩) := by
        simp only [Lexer.advance, hend, Bool.false_eq_true, if_false, hget]
        simp
      simp only [Lexer.makeNumberLoop, hend, hpeek, hch, Bool.not_false, Bool.and_self, if_true,
        hadv]
      rw [ih (pre ++ [ch]) line (column + 1) cerr (number.push ch) fuel
        (fun x hx => hall x (by simp [hx])) (by simpa using hfuel),
        String.push_append_mk]
      simp only [List.length_append, List.length_cons, List.length_nil, List.append_assoc,
        List.singleton_append]
      congr 2 <;> omega

/-- A digit is none of the other characters of the switch of `tokenize`, and no
blank. -/
theorem Lexer.digit_is_no_other (d : Char) (h : d.isDigit = true) (x : Char)
    (hx : x.isDigit = false) : (d == x) = false := by
  cases hd : d == x with
  | false => rfl
  | true =>
    rw [eq_of_beq hd, hx] at h
    cases h

/-- A source that is a digit followed by digits and dots is one NUMBER token. -/
theorem Lexer.lex_number (d : Char) (rest : List Char) (hd : d.isDigit = true)
    (hall : ∀ ch ∈ rest, ch.isDigit = true ∨ ch = '.') :
    lex (String.mk (d :: rest)) =
      [⟨.NUMBER, String.mk (d :: rest), 1, 1⟩, ⟨.END_OF_FILE, "", 1, rest.length + 2⟩] := by
  have hno : ∀ x : Char, x.isDigit = false → (d == x) = false :=
    fun x hx => Lexer.digit_is_no_other d hd x hx
  have hloop := Lexer.makeNumberLoop_all (d :: rest) [] 1 1 [] "" (rest.length + 1)
    (by
      intro ch hch
      rcases List.mem_cons.mp hch with h | h
      · exact Or.inl (h ▸ hd)
      · exact hall ch h)
    (by simp)
  simp only [List.nil_append, List.length_nil, Nat.zero_add, List.length_cons] at hloop
  have hempty : ("" : String) ++ String.mk (d :: rest) = String.mk (d :: rest) := by
    apply String.ext
    simp
  rw [hempty] at hloop
  have hend : Lexer.isAtEnd ⟨d :: rest, 0, 1, 1, []⟩ = false := by simp [Lexer.isAtEnd]
  have hpeek : Lexer.peek ⟨d :: rest, 0, 1, 1, []⟩ = d := by
    simp [Lexer.peek, hend]
  have hws : Lexer.skipWhitespace ⟨d :: rest, 0, 1, 1, []⟩ = ⟨d :: rest, 0, 1, 1, []⟩ := by
    simp only [Lexer.skipWhitespace, List.length_cons, Lexer.skipWhitespaceLoop, hend, hpeek,
      hno ' ' (by decide), hno '\t' (by decide), hno '\r' (by decide)]
    simp
  have hscan : Lexer.scanToken ⟨d :: rest, 0, 1, 1, []⟩ d =
      (⟨d :: rest, rest.length + 1, 1, 1 + (rest.length + 1), []⟩,
       some ⟨.NUMBER, String.mk (d :: rest), 1, 1⟩) := by
    unfold Lexer.scanToken
    rw [if_neg (by rw [hno '(' (by decide)]; exact Bool.false_ne_true),
      if_neg (by rw [hno ')' (by decide)]; exact Bool.false_ne_true),
      if_neg (by rw [hno '\x7b' (by decide)]; exact Bool.false_ne_true),
      if_neg (by rw [hno '\x7d' (by decide)]; exact Bool.false_ne_true),
      if_neg (by rw [hno ',' (by decide)]; exact Bool.false_ne_true),
      if_neg (by rw [hno ';' (by decide)]; exact Bool.false_ne_true),
      if_neg (by rw [hno '+' (by decide)]; exact Bool.false_ne_true),
      if_neg (by rw [hno '-' (by decide)]; exact Bool.false_ne_true),
      if_neg (by rw [hno '*' (by decide)]; exact Bool.false_ne_true),
      if_neg (by rw [hno '/' (by decide)]; exact Bool.false_ne_true),
      if_neg (by rw [hno '%' (by decide)]; exact Bool.false_ne_true),
      if_neg (by rw [hno '\n' (by decide)]; exact Bool.false_ne_true),
      if_neg (by rw [hno '=' (by decide)]; exact Bool.false_ne_true),
      if_neg (by rw [hno '!' (by decide)]; exact Bool.false_ne_true),
      if_neg (by rw [hno '<' (by decide)]; exact Bool.false_ne_true),
      if_neg (by rw [hno '>' (by decide)]; exact Bool.false_ne_true),
      if_neg (by rw [hno '"' (by decide)]; exact Bool.false_ne_true),
      if_pos hd]
    simp only [Lexer.makeNumber, List.length_cons, hloop]
  have hatEnd : Lexer.isAtEnd ⟨d :: rest, rest.length + 1, 1, 1 + (rest.length + 1), []⟩ =
      true := by simp [Lexer.isAtEnd]
  have hmain : Lexer.tokenizeLoop (rest.length + 1 + 1) ⟨d :: rest, 0, 1, 1, []⟩ [] =
      (⟨d :: rest, rest.length + 1, 1, 1 + (rest.length + 1), []⟩,
       [⟨.NUMBER, String.mk (d :: rest), 1, 1⟩]) := by
    simp only [Lexer.tokenizeLoop, hend, hws, hpeek, hno '/' (by decide), hscan, hatEnd]
    simp
  have hsrc : (String.mk (d :: rest)).toList = d :: rest := rfl
  simp only [lex, Lexer.tokenize, Lexer.new, hsrc, List.length_cons, hmain]
  simp
  omega

theorem ParserM.bind_ok {α β : Type} (m : ParserM α) (f : α → ParserM β) (p p1 : Parser)
    (a : α) (h : m p = .ok a p1) : (m >>= f) p = f a p1 := by
  change ParserM.bind m f p = _
  unfold ParserM.bind
  rw [h]

theorem ParserM.bind_exception {α β : Type} (m : ParserM α) (f : α → ParserM β)
    (p p1 : Parser) (e : ParseException) (h : m p = .exception e p1) :
    (m >>= f) p = .exception e p1 := by
  change ParserM.bind m f p = _
  unfold ParserM.bind
  rw [h]

theorem Parser.isAtEnd_at (ts : List Token) (j : Nat) (cerr : List String) (t : Token)
    (h : ts[j]? = some t) :
    Parser.isAtEnd ⟨ts, j, cerr⟩ = .ok (t.type == .END_OF_FILE) ⟨ts, j, cerr⟩ := by
  unfold Parser.isAtEnd
  rw [ParserM.bind_ok _ _ _ _ _ (Parser.peek_at ts j cerr t h)]
  rfl

/-- The loop of `program` at the end of the input. -/
theorem Parser.programLoop_end (fuel : Nat) (p : Parser) (statements : List Stmt)
    (hend : Parser.isAtEnd p = .ok true p) :
    Parser.programLoop (fuel + 1) statements p = .ok statements p := by
  simp only [Parser.programLoop]
  rw [ParserM.bind_ok _ _ _ _ _ hend]
  rfl

/-- The loop of `program` at a declaration that parses. -/
theorem Parser.programLoop_ok (fuel : Nat) (p p1 : Parser) (statements : List Stmt)
    (stmt : Stmt) (hend : Parser.isAtEnd p = .ok false p)
    (hnl : Parser.match_ [.NEWLINE] p = .ok false p)
    (h : Parser.declaration fuel p = .ok stmt p1) :
    Parser.programLoop (fuel + 1) statements p =
      Parser.programLoop fuel (statements ++ [stmt]) p1 := by
  simp only [Parser.programLoop]
  rw [ParserM.bind_ok _ _ _ _ _ hend]
  simp only [Bool.not_false, if_true]
  rw [ParserM.bind_ok _ _ _ _ _ hnl]
  simp only [Bool.false_eq_true, if_false, h]

/-- The loop of `program` at a declaration that raises a `std::runtime_error`:
the error is reported, `synchronize` runs and the loop goes on with the
statements it had. -/
theorem Parser.programLoop_caught (fuel : Nat) (p p1 : Parser) (statements : List Stmt)
    (what : String) (hend : Parser.isAtEnd p = .ok false p)
    (hnl : Parser.match_ [.NEWLINE] p = .ok false p)
    (h : Parser.declaration fuel p = .exception (.runtime_error what) p1) :
    Parser.programLoop (fuel + 1) statements p =
      (Parser.synchronize fuel >>= fun _ => Parser.programLoop fuel statements)
        { p1 with cerr := p1.cerr ++ ["Parse error: " ++ what] } := by
  simp only [Parser.programLoop]
  rw [ParserM.bind_ok _ _ _ _ _ hend]
  simp only [Bool.not_false, if_true]
  rw [ParserM.bind_ok _ _ _ _ _ hnl]
  simp only [Bool.false_eq_true, if_false, h]

/-- The loop of `program` at a declaration that raises an exception of
`std::stod`: the exception leaves the loop. -/
theorem Parser.programLoop_escapes (fuel : Nat) (p p1 : Parser) (statements : List Stmt)
    (e : ParseException) (hend : Parser.isAtEnd p = .ok false p)
    (hnl : Parser.match_ [.NEWLINE] p = .ok false p)
    (h : Parser.declaration fuel p = .exception e p1)
    (hlogic : ∀ what, e ≠ .runtime_error what) :
    Parser.programLoop (fuel + 1) statements p = .exception e p1 := by
  simp only [Parser.programLoop]
  rw [ParserM.bind_ok _ _ _ _ _ hend]
  simp only [Bool.not_false, if_true]
  rw [ParserM.bind_ok _ _ _ _ _ hnl]
  cases e with
  | runtime_error what => exact (hlogic what rfl).elim
  | invalid_argument what => simp only [Bool.false_eq_true, if_false, h]
  | out_of_range what => simp only [Bool.false_eq_true, if_false, h]

/-- A declaration that starts with neither `let` nor `fun` is a statement. -/
theorem Parser.declaration_statement (fuel : Nat) (p : Parser)
    (hlet : Parser.match_ [.LET] p = .ok false p)
    (hfun : Parser.match_ [.FUN] p = .ok false p) :
    Parser.declaration (fuel + 1) p = Parser.statement fuel p := by
  simp only [Parser.declaration]
  rw [ParserM.bind_ok _ _ _ _ _ hlet]
  simp only [Bool.false_eq_true, if_false]
  rw [ParserM.bind_ok _ _ _ _ _ hfun]
  simp only [Bool.false_eq_true, if_false]

/-- A statement that starts with none of `if`, `while`, `return`, `print` and
`\x7b` is an expression statement. -/
theorem Parser.statement_expression (fuel : Nat) (p : Parser)
    (hif : Parser.match_ [.IF] p = .ok false p)
    (hwhile : Parser.match_ [.WHILE] p = .ok false p)
    (hreturn : Parser.match_ [.RETURN] p = .ok false p)
    (hprint : Parser.match_ [.PRINT] p = .ok false p)
    (hbrace : Parser.match_ [.LEFT_BRACE] p = .ok false p) :
    Parser.statement (fuel + 1) p = Parser.expressionStatement fuel p := by
  simp only [Parser.statement]
  rw [ParserM.bind_ok _ _ _ _ _ hif]
  simp only [Bool.false_eq_true, if_false]
  rw [ParserM.bind_ok _ _ _ _ _ hwhile]
  simp only [Bool.false_eq_true, if_false]
  rw [ParserM.bind_ok _ _ _ _ _ hreturn]
  simp only [Bool.false_eq_true, if_false]
  rw [ParserM.bind_ok _ _ _ _ _ hprint]
  simp only [Bool.false_eq_true, if_false]
  rw [ParserM.bind_ok _ _ _ _ _ hbrace]
  simp only [Bool.false_eq_true, if_false]

/-- An expression statement: the expression, and a `;` or newline if there is
one. -/
theorem Parser.expressionStatement_ok (fuel : Nat) (p p1 p2 : Parser) (e : Expr) (b : Bool)
    (h : Parser.expression fuel p = .ok e p1)
    (hm : Parser.match_ [.SEMICOLON, .NEWLINE] p1 = .ok b p2) :
    Parser.expressionStatement (fuel + 1) p = .ok (.expression e) p2 := by
  simp only [Parser.expressionStatement]
  rw [ParserM.bind_ok _ _ _ _ _ h, ParserM.bind_ok _ _ _ _ _ hm]
  rfl

/-- An exception raised by the expression of an expression statement is raised
by the statement. -/
theorem Parser.expressionStatement_exception (fuel : Nat) (p p1 : Parser)
    (e : ParseException) (h : Parser.expression fuel p = .exception e p1) :
    Parser.expressionStatement (fuel + 1) p = .exception e p1 := by
  simp only [Parser.expressionStatement]
  rw [ParserM.bind_exception _ _ _ _ _ h]

/-- A statement that is an expression, followed by the end of the input, is the
whole program. -/
theorem Parser.parse_expression_program (ts : List Token) (m : Nat) (first eof : Token)
    (e : Expr) (hfirst : ts[0]? = some first) (heof : ts[m]? = some eof)
    (hend : eof.type = .END_OF_FILE)
    (hkind : first.type ∉ [TokenType.END_OF_FILE, .NEWLINE, .LET, .FUN, .IF, .WHILE, .RETURN,
      .PRINT, .LEFT_BRACE])
    (h : Parser.Eventually Parser.expression ⟨ts, 0, []⟩ (.ok e ⟨ts, m, []⟩)) :
    ∃ k, ∀ n, Parser.parse (n + k) ts =
      .ok { statements := [.expression e] } ⟨ts, m, []⟩ := by
  obtain ⟨k, hk⟩ := h
  refine ⟨k + 4, fun n => ?_⟩
  have hmiss : ∀ types : List TokenType, first.type ∉ types →
      Parser.match_ types ⟨ts, 0, []⟩ = .ok false ⟨ts, 0, []⟩ :=
    fun types hn => Parser.match_miss ts 0 [] first hfirst types (Or.inr hn)
  simp only [List.mem_cons, List.mem_singleton, List.not_mem_nil, or_false, not_or] at hkind
  obtain ⟨h0, h1, h2, h3, h4, h5, h6, h7, h8⟩ := hkind
  have hexpr := hk n
  have hstmt : Parser.declaration (n + k + 1 + 1 + 1) ⟨ts, 0, []⟩ =
      .ok (.expression e) ⟨ts, m, []⟩ := by
    rw [Parser.declaration_statement _ _ (hmiss [.LET] (by simpa using h2))
        (hmiss [.FUN] (by simpa using h3)),
      Parser.statement_expression _ _ (hmiss [.IF] (by simpa using h4))
        (hmiss [.WHILE] (by simpa using h5)) (hmiss [.RETURN] (by simpa using h6))
        (hmiss [.PRINT] (by simpa using h7)) (hmiss [.LEFT_BRACE] (by simpa using h8))]
    exact Parser.expressionStatement_ok _ _ _ _ e false hexpr
      (Parser.match_miss ts m [] eof heof [.SEMICOLON, .NEWLINE] (Or.inl hend))
  have hat0 : Parser.isAtEnd ⟨ts, 0, []⟩ = .ok false ⟨ts, 0, []⟩ := by
    rw [Parser.isAtEnd_at ts 0 [] first hfirst]
    simp [h0]
  have hatm : Parser.isAtEnd ⟨ts, m, []⟩ = .ok true ⟨ts, m, []⟩ := by
    rw [Parser.isAtEnd_at ts m [] eof heof]
    simp [hend]
  have hloop : Parser.programLoop (n + k + 1 + 1 + 1 + 1) [] ⟨ts, 0, []⟩ =
      .ok [.expression e] ⟨ts, m, []⟩ :=
    (Parser.programLoop_ok _ _ _ [] _ hat0 (hmiss [.NEWLINE] (by simpa using h1)) hstmt).trans
      (Parser.programLoop_end (n + k + 1 + 1) _ _ hatm)
  rw [show n + (k + 4) = (n + k + 1 + 1 + 1 + 1) by omega]
  unfold Parser.parse Parser.program Parser.new
  rw [ParserM.bind_ok _ _ _ _ _ hloop]
  rfl

theorem List.takeWhile_all_then (p : Char → Bool) (l : List Char) (x : Char) (r : List Char)
    (hl : ∀ c ∈ l, p c = true) (hx : p x = false) :
    (l ++ x :: r).takeWhile p = l ∧ (l ++ x :: r).dropWhile p = x :: r := by
  induction l with
  | nil => simp [List.takeWhile, List.dropWhile, hx]
  | cons c l ih =>
    have hc : p c = true := hl c (List.mem_cons_self _ _)
    have := ih (fun c hc => hl c (List.mem_cons_of_mem _ hc))
    simp [List.takeWhile, List.dropWhile, hc, this.1, this.2]

theorem List.takeWhile_all (p : Char → Bool) (l : List Char) (hl : ∀ c ∈ l, p c = true) :
    l.takeWhile p = l ∧ l.dropWhile p = [] := by
  induction l with
  | nil => simp
  | cons c l ih =>
    have hc : p c = true := hl c (List.mem_cons_self _ _)
    have := ih (fun c hc => hl c (List.mem_cons_of_mem _ hc))
    simp [List.takeWhile, List.dropWhile, hc, this.1, this.2]

/-- The conversion `std::stod` stops at the second dot of a lexeme: what follows
it has no influence on the result. -/
theorem stod_ignores_after_second_dot (ip fp more : List Char)
    (hip : ∀ c ∈ ip, c.isDigit = true) (hfp : ∀ c ∈ fp, c.isDigit = true) :
    stod (String.mk (ip ++ '.' :: (fp ++ '.' :: more))) = stod (String.mk (ip ++ '.' :: fp)) := by
  have hdot : Char.isDigit '.' = false := by decide
  have h1 := List.takeWhile_all_then Char.isDigit ip '.' (fp ++ '.' :: more) hip hdot
  have h2 := List.takeWhile_all_then Char.isDigit ip '.' fp hip hdot
  have h3 := List.takeWhile_all_then Char.isDigit fp '.' more hfp hdot
  have h4 := List.takeWhile_all Char.isDigit fp hfp
  simp only [stod, String.toList, h1.1, h1.2, h2.1, h2.2, h3.1, h4.1]

/-- A lexeme that starts with a digit is never an `invalid_argument`. -/
theorem stod_of_digit_first (d : Char) (rest : List Char) (hd : d.isDigit = true) :
    stod (String.mk (d :: rest)) ≠ .error .invalid_argument := by
  simp only [stod, String.toList, List.takeWhile, hd]
  intro h
  split_ifs at h with hc
  · simp at hc
  all_goals cases h

/-- A program that is one NUMBER token whose lexeme `std::stod` converts is one
expression statement with the literal of the converted value. -/
theorem Parser.parse_number_token (lexeme : String) (line column : Nat) (eof : Token)
    (value : Number) (hend : eof.type = .END_OF_FILE) (hv : stod lexeme = .ok value) :
    ∃ k, ∀ n, Parser.parse (n + k) [⟨.NUMBER, lexeme, line, column⟩, eof] =
      .ok { statements := [.expression (.literal (.number value))] }
        ⟨[⟨.NUMBER, lexeme, line, column⟩, eof], 1, []⟩ := by
  have hu := Parser.unary_of_operand [⟨.NUMBER, lexeme, line, column⟩, eof] 0 []
    ⟨.NUMBER, lexeme, line, column⟩ eof (.literal (.number value)) rfl rfl
    (by rw [hend]; exact nofun) (by simp only [operandExpr, hv])
  have hl := Parser.operand_at_level _ _ 1 [] eof _ rfl hu 2 (Nat.le_refl _) (by omega)
    (fun _ _ _ => Or.inl hend)
  have he := Parser.expression_of_logicalOr _ _ 1 [] eof _ hl rfl (Or.inl hend)
  exact Parser.parse_expression_program _ 1 ⟨.NUMBER, lexeme, line, column⟩ eof _ rfl rfl hend
    (by show TokenType.NUMBER ∉ _; decide) he

/-- A NUMBER token whose lexeme `std::stod` converts is read by `primary` as the
literal of the converted value, wherever it stands. -/
theorem Parser.primary_number (fuel : Nat) (ts : List Token) (i : Nat) (cerr : List String)
    (t : Token) (value : Number) (ht : ts[i]? = some t) (hty : t.type = .NUMBER)
    (hv : stod t.lexeme = .ok value) :
    Parser.primary (fuel + 1) ⟨ts, i, cerr⟩ = .ok (.literal (.number value)) ⟨ts, i + 1, cerr⟩ := by
  have hmiss : ∀ types : List TokenType, TokenType.NUMBER ∉ types →
      Parser.match_ types ⟨ts, i, cerr⟩ = .ok false ⟨ts, i, cerr⟩ :=
    fun types h => Parser.match_miss _ i cerr _ ht types (Or.inr (by rw [hty]; exact h))
  have hhit : Parser.match_ [.NUMBER] ⟨ts, i, cerr⟩ = .ok true ⟨ts, i + 1, cerr⟩ :=
    Parser.match_hit _ i cerr _ ht (by rw [hty]; exact nofun) [.NUMBER] (by simp [hty])
  have hprev := Parser.previous_after ts i cerr t ht
  simp only [Parser.primary]
  rw [ParserM.bind_ok _ _ _ _ _ (hmiss [.TRUE] (by decide))]
  simp only [Bool.false_eq_true, if_false]
  rw [ParserM.bind_ok _ _ _ _ _ (hmiss [.FALSE] (by decide))]
  simp only [Bool.false_eq_true, if_false]
  rw [ParserM.bind_ok _ _ _ _ _ (hmiss [.NIL] (by decide))]
  simp only [Bool.false_eq_true, if_false]
  rw [ParserM.bind_ok _ _ _ _ _ hhit]
  simp only [if_true]
  unfold Parser.numberLiteral
  rw [ParserM.bind_ok _ _ _ _ _ hprev]
  simp only [hv]
  rfl

/-- C23, counterexample: the lexeme of the source text 1.2.3 is one NUMBER
token, its conversion by `std::stod` succeeds with the value of the leading 1.2
(the double nearest to it), and parsing the token list raises no error and yields the program of one
expression statement holding the Literal 1.2; running `print 1.2.3` prints
1.2. -/
theorem Parser.number_with_two_dots_is_accepted :
    lex "1.2.3" = [⟨.NUMBER, "1.2.3", 1, 1⟩, ⟨.END_OF_FILE, "", 1, 6⟩] ∧
    stod "1.2.3" = .ok (Number.ofRat (mkRat 12 10)) ∧
    Number.ofRat (mkRat 12 10) = .real (mkRat 5404319552844595 4503599627370496) ∧
    Parser.parse 30 (lex "1.2.3") =
      .ok { statements := [.expression (.literal (.number (Number.ofRat (mkRat 12 10))))] }
        ⟨lex "1.2.3", 1, []⟩ ∧
    (run 30 "print 1.2.3" (Interpreter.new Host.simple)).summary = some (["1.2"], [], 0) := by
  refine ⟨by decide!, rfl, by decide!, rfl, by decide!⟩

/-- C23 (amended): a numeric lexeme with more than one dot, a digit `d`, digits
`ip`, a dot, digits `fp`, a second dot and any further digits and dots `more`,
is produced by the lexer as a single NUMBER token and is accepted when the
parser converts it to a number: `std::stod` converts the part before the second
dot and ignores the rest, the conversion is never an invalid argument, and
whenever that leading part is in the range of a double, with value `value`,
`primary` reads the token as the Literal `value` wherever it stands in a token
list, and parsing the token list of the lexeme raises no error and yields the
program of one expression statement holding the Literal `value`. -/
theorem Parser.number_with_several_dots (d : Char) (ip fp more : List Char)
    (hd : d.isDigit = true) (hip : ∀ c ∈ ip, c.isDigit = true)
    (hfp : ∀ c ∈ fp, c.isDigit = true) (hmore : ∀ c ∈ more, c.isDigit = true ∨ c = '.') :
    lex (String.mk (d :: (ip ++ '.' :: (fp ++ '.' :: more)))) =
      [⟨.NUMBER, String.mk (d :: (ip ++ '.' :: (fp ++ '.' :: more))), 1, 1⟩,
        ⟨.END_OF_FILE, "", 1, ip.length + fp.length + more.length + 4⟩] ∧
    stod (String.mk (d :: (ip ++ '.' :: (fp ++ '.' :: more)))) =
      stod (String.mk (d :: (ip ++ '.' :: fp))) ∧
    stod (String.mk (d :: (ip ++ '.' :: (fp ++ '.' :: more)))) ≠ .error .invalid_argument ∧
    ∀ value, stod (String.mk (d :: (ip ++ '.' :: fp))) = .ok value →
      (∀ (fuel : Nat) (ts : List Token) (i line column : Nat) (cerr : List String),
        ts[i]? = some ⟨.NUMBER, String.mk (d :: (ip ++ '.' :: (fp ++ '.' :: more))), line,
          column⟩ →
        Parser.primary (fuel + 1) ⟨ts, i, cerr⟩ =
          .ok (.literal (.number value)) ⟨ts, i + 1, cerr⟩) ∧
      ∃ k, ∀ n, Parser.parse (n + k) (lex (String.mk (d :: (ip ++ '.' :: (fp ++ '.' :: more))))) =
        .ok { statements := [.expression (.literal (.number value))] }
          ⟨lex (String.mk (d :: (ip ++ '.' :: (fp ++ '.' :: more)))), 1, []⟩ := by
  have hlex := Lexer.lex_number d (ip ++ '.' :: (fp ++ '.' :: more)) hd (by
    intro ch hch
    simp only [List.mem_append, List.mem_cons] at hch
    rcases hch with h | h | h | h | h
    · exact Or.inl (hip ch h)
    · exact Or.inr h
    · exact Or.inl (hfp ch h)
    · exact Or.inr h
    · exact hmore ch h)
  have hlen : (ip ++ '.' :: (fp ++ '.' :: more)).length + 2 =
      ip.length + fp.length + more.length + 4 := by
    simp only [List.length_append, List.length_cons]
    omega
  rw [hlen] at hlex
  have hstod : stod (String.mk (d :: (ip ++ '.' :: (fp ++ '.' :: more)))) =
      stod (String.mk (d :: (ip ++ '.' :: fp))) :=
    stod_ignores_after_second_dot (d :: ip) fp more (by
    intro c hc
    rcases List.mem_cons.mp hc with h | h
    · exact h ▸ hd
    · exact hip c h) hfp
  refine ⟨hlex, hstod, stod_of_digit_first d _ hd, fun value hv => ⟨?_, ?_⟩⟩
  · intro fuel ts i line column cerr ht
    exact Parser.primary_number fuel ts i cerr _ value ht rfl (hstod.trans hv)
  · rw [hlex]
    exact Parser.parse_number_token _ 1 1 _ value rfl (hstod.trans hv)

/-- C23, on the lexeme 1.2.3, which is converted as 1.2. -/
theorem Parser.number_with_several_dots_witness :
    lex "1.2.3" = [⟨.NUMBER, "1.2.3", 1, 1⟩, ⟨.END_OF_FILE, "", 1, 6⟩] ∧
    stod "1.2.3" = stod "1.2" ∧
    stod "1.2.3" ≠ .error .invalid_argument ∧
    ∀ value, stod "1.2" = .ok value →
      (∀ (fuel : Nat) (ts : List Token) (i line column : Nat) (cerr : List String),
        ts[i]? = some ⟨.NUMBER, "1.2.3", line, column⟩ →
        Parser.primary (fuel + 1) ⟨ts, i, cerr⟩ =
          .ok (.literal (.number value)) ⟨ts, i + 1, cerr⟩) ∧
      ∃ k, ∀ n, Parser.parse (n + k) (lex "1.2.3") =
        .ok { statements := [.expression (.literal (.number value))] }
          ⟨lex "1.2.3", 1, []⟩ :=
  Parser.number_with_several_dots '1' [] ['2'] ['3'] (by decide) (by simp) (by decide)
    (by decide)

/-! ## C24: exceptions that leave `parse` -/

theorem stod_error_of (r : Except StodError Number) (e : StodError)
    (h : stodError? r = some e) : r = .error e := by
  cases r with
  | error e1 => simp only [stodError?, Option.some.injEq] at h; rw [h]
  | ok v => simp [stodError?] at h

theorem ParserM.noThrow_bind {α β : Type} (m : ParserM α) (f : α → ParserM β)
    (hm : ParserM.NoThrow m) (hf : ∀ a, ParserM.NoThrow (f a)) : ParserM.NoThrow (m >>= f) := by
  intro p e p1
  change ParserM.bind m f p ≠ _
  unfold ParserM.bind
  cases h : m p with
  | ok a p2 => exact hf a p2 e p1
  | exception e2 p2 => exact absurd h (hm p e2 p2)
  | fault => exact nofun
  | timeout => exact nofun

theorem ParserM.noThrow_pure {α : Type} (a : α) : ParserM.NoThrow (pure a : ParserM α) :=
  fun _ _ _ => nofun

theorem ParserM.noThrow_ite {α : Type} (c : Prop) [Decidable c] (m1 m2 : ParserM α)
    (h1 : ParserM.NoThrow m1) (h2 : ParserM.NoThrow m2) :
    ParserM.NoThrow (if c then m1 else m2) := by
  split
  · exact h1
  · exact h2

theorem ParserM.catches_of_noThrow {α : Type} (m : ParserM α) (h : ParserM.NoThrow m) :
    ParserM.Catches m :=
  fun p _ p1 => h p _ p1

theorem ParserM.catches_bind {α β : Type} (m : ParserM α) (f : α → ParserM β)
    (hm : ParserM.Catches m) (hf : ∀ a, ParserM.Catches (f a)) : ParserM.Catches (m >>= f) := by
  intro p what p1
  change ParserM.bind m f p ≠ _
  unfold ParserM.bind
  cases h : m p with
  | ok a p2 => exact hf a p2 what p1
  | exception e2 p2 =>
    intro heq
    cases heq
    exact hm p what p1 h
  | fault => exact nofun
  | timeout => exact nofun

theorem Parser.peek_noThrow : ParserM.NoThrow Parser.peek := by
  intro p e p1
  unfold Parser.peek
  split <;> exact nofun

theorem Parser.previous_noThrow : ParserM.NoThrow Parser.previous := by
  intro p e p1
  unfold Parser.previous
  split
  · exact nofun
  · split <;> exact nofun

theorem Parser.isAtEnd_noThrow : ParserM.NoThrow Parser.isAtEnd :=
  ParserM.noThrow_bind _ _ Parser.peek_noThrow (fun _ => ParserM.noThrow_pure _)

theorem Parser.advance_noThrow : ParserM.NoThrow Parser.advance := by
  unfold Parser.advance
  apply ParserM.noThrow_bind _ _ Parser.isAtEnd_noThrow
  intro b
  dsimp only []
  split
  · exact ParserM.noThrow_bind _ _ (fun _ _ _ => nofun) (fun _ => Parser.previous_noThrow)
  · exact ParserM.noThrow_bind _ _ (ParserM.noThrow_pure _) (fun _ => Parser.previous_noThrow)

theorem Parser.check_noThrow (type : TokenType) : ParserM.NoThrow (Parser.check type) := by
  unfold Parser.check
  apply ParserM.noThrow_bind _ _ Parser.isAtEnd_noThrow
  intro b
  apply ParserM.noThrow_ite
  · exact ParserM.noThrow_pure _
  · exact ParserM.noThrow_bind _ _ (ParserM.noThrow_pure _) (fun _ =>
      ParserM.noThrow_bind _ _ Parser.peek_noThrow (fun _ => ParserM.noThrow_pure _))

theorem Parser.match_noThrow (types : List TokenType) : ParserM.NoThrow (Parser.match_ types) := by
  induction types with
  | nil => exact ParserM.noThrow_pure _
  | cons type rest ih =>
    simp only [Parser.match_]
    apply ParserM.noThrow_bind _ _ (Parser.check_noThrow type)
    intro b
    apply ParserM.noThrow_ite
    · exact ParserM.noThrow_bind _ _ Parser.advance_noThrow (fun _ => ParserM.noThrow_pure _)
    · exact ih

theorem Parser.synchronizeLoop_noThrow (fuel : Nat) :
    ParserM.NoThrow (Parser.synchronizeLoop fuel) := by
  induction fuel with
  | zero => exact fun _ _ _ => nofun
  | succ fuel ih =>
    simp only [Parser.synchronizeLoop]
    apply ParserM.noThrow_bind _ _ Parser.isAtEnd_noThrow
    intro b
    apply ParserM.noThrow_ite
    · apply ParserM.noThrow_bind _ _ Parser.previous_noThrow
      intro t
      apply ParserM.noThrow_ite
      · exact ParserM.noThrow_pure _
      · apply ParserM.noThrow_bind _ _ (ParserM.noThrow_pure _)
        intro _
        apply ParserM.noThrow_bind _ _ Parser.peek_noThrow
        intro t1
        split
        all_goals first
          | exact ParserM.noThrow_pure _
          | exact ParserM.noThrow_bind _ _ Parser.advance_noThrow (fun _ => ih)
    · exact ParserM.noThrow_pure _

theorem Parser.synchronize_noThrow (fuel : Nat) : ParserM.NoThrow (Parser.synchronize fuel) :=
  ParserM.noThrow_bind _ _ Parser.advance_noThrow (fun _ => Parser.synchronizeLoop_noThrow fuel)

/-- No `std::runtime_error` leaves the loop of `Parser::program`. -/
theorem Parser.programLoop_catches (fuel : Nat) :
    ∀ statements, ParserM.Catches (Parser.programLoop fuel statements) := by
  induction fuel with
  | zero => exact fun _ _ _ _ => nofun
  | succ fuel ih =>
    intro statements
    simp only [Parser.programLoop]
    apply ParserM.catches_bind _ _ (ParserM.catches_of_noThrow _ Parser.isAtEnd_noThrow)
    intro b
    split
    · apply ParserM.catches_bind _ _ (ParserM.catches_of_noThrow _ (Parser.match_noThrow _))
      intro b1
      split
      · exact ih statements
      · intro p what p1
        show (match Parser.declaration fuel p with
          | .ok stmt p1 => Parser.programLoop fuel (statements ++ [stmt]) p1
          | .exception (.runtime_error what) p1 =>
            (do
              Parser.synchronize fuel
              Parser.programLoop fuel statements)
              { p1 with cerr := p1.cerr ++ ["Parse error: " ++ what] }
          | .exception e p1 => .exception e p1
          | .fault => .fault
          | .timeout => .timeout) ≠ _
        cases h : Parser.declaration fuel p with
        | ok stmt p2 => exact ih _ p2 what p1
        | exception e p2 =>
          cases e with
          | runtime_error w =>
            exact ParserM.catches_bind _ _
              (ParserM.catches_of_noThrow _ (Parser.synchronize_noThrow fuel))
              (fun _ => ih statements) _ what p1
          | invalid_argument w => exact nofun
          | out_of_range w => exact nofun
        | fault => exact nofun
        | timeout => exact nofun
    · exact ParserM.catches_of_noThrow _ (ParserM.noThrow_pure _)

/-- An exception of the next level is an exception of the level. -/
theorem Parser.level_exception (l : Nat) (h2 : 2 ≤ l) (h7 : l ≤ 7) (n : Nat) (p p1 : Parser)
    (e : ParseException) (h : Parser.level (l + 1) n p = .exception e p1) :
    Parser.level l (n + 1) p = .exception e p1 := by
  interval_cases l <;>
    (simp only [Parser.level, Parser.logicalOr, Parser.logicalAnd,
        Parser.equality, Parser.comparison, Parser.term, Parser.factor] at h ⊢
     rw [ParserM.bind_exception _ _ _ _ _ h])

theorem Parser.level_exception_climb (p p1 : Parser) (e : ParseException) :
    ∀ (d lo : Nat), 2 ≤ lo → lo + d ≤ 8 →
      Parser.Eventually (Parser.level (lo + d)) p (.exception e p1) →
      Parser.Eventually (Parser.level lo) p (.exception e p1) := by
  intro d
  induction d with
  | zero => intro lo _ _ h; exact h
  | succ d ih =>
    intro lo h2 h8 h
    have hnext : Parser.Eventually (Parser.level (lo + 1)) p (.exception e p1) := by
      apply ih (lo + 1) (by omega) (by omega)
      rw [show lo + 1 + d = lo + (d + 1) by omega]
      exact h
    obtain ⟨k, hk⟩ := hnext
    refine ⟨k + 1, fun n => ?_⟩
    rw [show n + (k + 1) = (n + k) + 1 by omega]
    exact Parser.level_exception lo h2 (by omega) _ p p1 e (hk n)

/-- An exception of `unary` is an exception of `expression`. -/
theorem Parser.expression_exception (p p1 : Parser) (e : ParseException)
    (h : Parser.Eventually Parser.unary p (.exception e p1)) :
    Parser.Eventually Parser.expression p (.exception e p1) := by
  obtain ⟨k, hk⟩ := Parser.level_exception_climb p p1 e 6 2 (Nat.le_refl _) (by omega) h
  refine ⟨k + 2, fun n => ?_⟩
  have h1 := hk n
  simp only [Parser.level] at h1
  rw [show n + (k + 2) = (n + k) + 1 + 1 by omega]
  simp only [Parser.expression, Parser.assignment]
  rw [ParserM.bind_exception _ _ _ _ _ h1]

/-- A NUMBER token whose lexeme is out of the range of a double makes `unary`
throw the `std::out_of_range` of `std::stod`. -/
theorem Parser.unary_out_of_range (ts : List Token) (i : Nat) (cerr : List String)
    (a : Token) (ha : ts[i]? = some a) (hty : a.type = .NUMBER)
    (hs : stod a.lexeme = .error .out_of_range) :
    Parser.Eventually Parser.unary ⟨ts, i, cerr⟩
      (.exception (.out_of_range "stod") ⟨ts, i + 1, cerr⟩) := by
  refine ⟨4, fun n => ?_⟩
  have hmiss : ∀ types : List TokenType, a.type ∉ types →
      Parser.match_ types ⟨ts, i, cerr⟩ = .ok false ⟨ts, i, cerr⟩ :=
    fun types h => Parser.match_miss _ i cerr _ ha types (Or.inr h)
  have hhit : Parser.match_ [.NUMBER] ⟨ts, i, cerr⟩ = .ok true ⟨ts, i + 1, cerr⟩ :=
    Parser.match_hit _ i cerr _ ha (by rw [hty]; exact nofun) [.NUMBER] (by simp [hty])
  have hprev := Parser.previous_after ts i cerr a ha
  rw [hty] at hmiss
  simp [Parser.unary, Parser.call, Parser.primary, Parser.numberLiteral,
    hmiss, hhit, hprev, hs, bind, ParserM.bind, pure, ParserM.throw]

/-- An exception of the first statement's expression that is not a
`std::runtime_error` is the result of `parse`. -/
theorem Parser.parse_expression_escapes (ts : List Token) (first : Token) (p1 : Parser)
    (e : ParseException) (hfirst : ts[0]? = some first)
    (hkind : first.type ∉ [TokenType.END_OF_FILE, .NEWLINE, .LET, .FUN, .IF, .WHILE, .RETURN,
      .PRINT, .LEFT_BRACE])
    (hlogic : ∀ what, e ≠ .runtime_error what)
    (h : Parser.Eventually Parser.expression ⟨ts, 0, []⟩ (.exception e p1)) :
    ∃ k, ∀ n, Parser.parse (n + k) ts = .exception e p1 := by
  obtain ⟨k, hk⟩ := h
  refine ⟨k + 4, fun n => ?_⟩
  have hmiss : ∀ types, first.type ∉ types →
      Parser.match_ types ⟨ts, 0, []⟩ = .ok false ⟨ts, 0, []⟩ :=
    fun types hn => Parser.match_miss ts 0 [] first hfirst types (Or.inr hn)
  simp only [List.mem_cons, List.mem_singleton, List.not_mem_nil, or_false, not_or] at hkind
  obtain ⟨h0, h1, h2, h3, h4, h5, h6, h7, h8⟩ := hkind
  have hstmt : Parser.declaration (n + k + 1 + 1 + 1) ⟨ts, 0, []⟩ = .exception e p1 := by
    rw [Parser.declaration_statement _ _ (hmiss [.LET] (by simpa using h2))
        (hmiss [.FUN] (by simpa using h3)),
      Parser.statement_expression _ _ (hmiss [.IF] (by simpa using h4))
        (hmiss [.WHILE] (by simpa using h5)) (hmiss [.RETURN] (by simpa using h6))
        (hmiss [.PRINT] (by simpa using h7)) (hmiss [.LEFT_BRACE] (by simpa using h8))]
    exact Parser.expressionStatement_exception _ _ _ e (hk n)
  have hat0 : Parser.isAtEnd ⟨ts, 0, []⟩ = .ok false ⟨ts, 0, []⟩ := by
    rw [Parser.isAtEnd_at ts 0 [] first hfirst]
    simp [h0]
  have hloop : Parser.programLoop (n + k + 1 + 1 + 1 + 1) [] ⟨ts, 0, []⟩ = .exception e p1 :=
    Parser.programLoop_escapes _ _ _ [] e hat0 (hmiss [.NEWLINE] (by simpa using h1)) hstmt
      hlogic
  rw [show n + (k + 4) = (n + k + 1 + 1 + 1 + 1) by omega]
  unfold Parser.parse Parser.program Parser.new
  rw [ParserM.bind_exception _ _ _ _ _ hloop]

/-- C24: the claim fails on a number literal that is out of the range of a
double.  For every NUMBER token whose lexeme `std::stod` rejects as out of range,
followed by the end of the input, `parse` does not return a program: the
`std::out_of_range` leaves `parse`, whatever the fuel from some amount on.  The
source text of 310 nines is such an input, and running it prints only
`Error: stod`.  What the top-level loop does catch is every
`std::runtime_error`: none ever leaves the loop of `program`. -/
theorem Parser.out_of_range_leaves_parse :
    (∀ (lexeme : String) (line column : Nat) (eof : Token),
      eof.type = .END_OF_FILE → stod lexeme = .error .out_of_range →
      ∃ k, ∀ n, Parser.parse (n + k) [⟨.NUMBER, lexeme, line, column⟩, eof] =
        .exception (.out_of_range "stod") ⟨[⟨.NUMBER, lexeme, line, column⟩, eof], 1, []⟩) ∧
    (Parser.parse 30 (lex hugeNumberSource)).escaped? = some (.out_of_range "stod") ∧
    (run 30 hugeNumberSource (Interpreter.new Host.simple)).summary =
      some ([], ["Error: stod"], 0) ∧
    (∀ fuel statements p what p1,
      Parser.programLoop fuel statements p ≠ .exception (.runtime_error what) p1) := by
  refine ⟨fun lexeme line column eof hend hs => ?_, by decide!, by decide!,
    fun fuel statements => Parser.programLoop_catches fuel statements⟩
  apply Parser.parse_expression_escapes _ ⟨.NUMBER, lexeme, line, column⟩ _
    (.out_of_range "stod") rfl
    (by show TokenType.NUMBER ∉ _; decide) (fun _ => nofun)
  exact Parser.expression_exception _ _ _
    (Parser.unary_out_of_range _ 0 [] ⟨.NUMBER, lexeme, line, column⟩ rfl rfl hs)

/-- C24, on the NUMBER token of 310 nines followed by the end of the input. -/
theorem Parser.out_of_range_leaves_parse_witness :
    ∃ k, ∀ n, Parser.parse (n + k)
        [⟨.NUMBER, hugeNumberSource, 1, 1⟩, ⟨.END_OF_FILE, "", 1, 311⟩] =
      .exception (.out_of_range "stod")
        ⟨[⟨.NUMBER, hugeNumberSource, 1, 1⟩, ⟨.END_OF_FILE, "", 1, 311⟩], 1, []⟩ :=
  Parser.out_of_range_leaves_parse.1 hugeNumberSource 1 1 ⟨.END_OF_FILE, "", 1, 311⟩ rfl
    (stod_error_of _ _ (by decide!))

/-! ## C25: operators of one level associate to the left -/

/-- Two operators of the level `l` in a row: the loop of the level folds the
three operands to the left. -/
theorem Parser.level_binary_left (l : Nat) (h2 : 2 ≤ l) (h7 : l ≤ 7) (p : Parser)
    (ts : List Token) (j k m : Nat) (cerr : List String) (o1 o2 t : Token) (e1 e2 e3 : Expr)
    (h1 : Parser.Eventually (Parser.level (l + 1)) p (.ok e1 ⟨ts, j, cerr⟩))
    (ho1 : ts[j]? = some o1) (hop1 : o1.type ∈ Parser.levelOps l)
    (hr2 : Parser.Eventually (Parser.level (l + 1)) ⟨ts, j + 1, cerr⟩ (.ok e2 ⟨ts, k, cerr⟩))
    (ho2 : ts[k]? = some o2) (hop2 : o2.type ∈ Parser.levelOps l)
    (hr3 : Parser.Eventually (Parser.level (l + 1)) ⟨ts, k + 1, cerr⟩ (.ok e3 ⟨ts, m, cerr⟩))
    (ht : ts[m]? = some t) (hmiss : t.type = .END_OF_FILE ∨ t.type ∉ Parser.levelOps l) :
    Parser.Eventually (Parser.level l) p
      (.ok (.binary (.binary e1 o1.lexeme e2) o2.lexeme e3) ⟨ts, m, cerr⟩) := by
  obtain ⟨k1, hk1⟩ := h1
  obtain ⟨k2, hk2⟩ := hr2
  obtain ⟨k3, hk3⟩ := hr3
  refine ⟨k1 + k2 + k3 + 4, fun n => ?_⟩
  have ha := hk1 (n + k2 + k3 + 3)
  rw [show n + k2 + k3 + 3 + k1 = n + k1 + k2 + k3 + 1 + 1 + 1 by omega] at ha
  have hb := hk2 (n + k1 + k3 + 2)
  rw [show n + k1 + k3 + 2 + k2 = n + k1 + k2 + k3 + 1 + 1 by omega] at hb
  have hc := hk3 (n + k1 + k2 + 1)
  rw [show n + k1 + k2 + 1 + k3 = n + k1 + k2 + k3 + 1 by omega] at hc
  rw [show n + (k1 + k2 + k3 + 4) = (n + k1 + k2 + k3 + 1 + 1 + 1) + 1 by omega,
    Parser.level_entry l h2 h7 _ p _ e1 ha,
    Parser.levelLoop_step l h2 h7 _ ts j cerr o1 e1 e2 _ ho1 hop1 hb,
    Parser.levelLoop_step l h2 h7 _ ts k cerr o2 _ e3 _ ho2 hop2 hc,
    Parser.levelLoop_done l h2 h7 (n + k1 + k2 + k3) ts m cerr t _ ht hmiss]

/-- Operands `a`, `b`, `c` read by `unary` and two operators of the same level
in between parse to `Binary(Binary(a, o1, b), o2, c)`. -/
theorem Parser.left_associative_general (ts : List Token) (cerr : List String)
    (i j k m : Nat) (o1 o2 t : Token) (ea eb ec : Expr) (l : Nat)
    (ha : Parser.Eventually Parser.unary ⟨ts, i, cerr⟩ (.ok ea ⟨ts, j, cerr⟩))
    (ho1 : ts[j]? = some o1) (hl1 : binaryLevel o1.type = some l)
    (hb : Parser.Eventually Parser.unary ⟨ts, j + 1, cerr⟩ (.ok eb ⟨ts, k, cerr⟩))
    (ho2 : ts[k]? = some o2) (hl2 : binaryLevel o2.type = some l)
    (hc : Parser.Eventually Parser.unary ⟨ts, k + 1, cerr⟩ (.ok ec ⟨ts, m, cerr⟩))
    (ht : ts[m]? = some t) (hend : t.type = .END_OF_FILE) :
    Parser.Eventually Parser.expression ⟨ts, i, cerr⟩
      (.ok (.binary (.binary ea o1.lexeme eb) o2.lexeme ec) ⟨ts, m, cerr⟩) := by
  obtain ⟨h2, h7⟩ := binaryLevel_range _ _ hl1
  have hop1 : o1.type ∈ Parser.levelOps l := (Parser.mem_levelOps _ l h2 h7).mpr hl1
  have hop2 : o2.type ∈ Parser.levelOps l := (Parser.mem_levelOps _ l h2 h7).mpr hl2
  have ha1 : Parser.Eventually (Parser.level (l + 1)) ⟨ts, i, cerr⟩ (.ok ea ⟨ts, j, cerr⟩) :=
    Parser.operand_at_level _ ts j cerr o1 ea ho1 ha (l + 1) (by omega) (by omega)
      (fun l' hl hl8 => Or.inr
        (Parser.not_mem_levelOps_of_level _ l l' hl1 (by omega) (by omega) (by omega)))
  have hb1 : Parser.Eventually (Parser.level (l + 1)) ⟨ts, j + 1, cerr⟩
      (.ok eb ⟨ts, k, cerr⟩) :=
    Parser.operand_at_level _ ts k cerr o2 eb ho2 hb (l + 1) (by omega) (by omega)
      (fun l' hl hl8 => Or.inr
        (Parser.not_mem_levelOps_of_level _ l l' hl2 (by omega) (by omega) (by omega)))
  have hc1 : Parser.Eventually (Parser.level (l + 1)) ⟨ts, k + 1, cerr⟩
      (.ok ec ⟨ts, m, cerr⟩) :=
    Parser.operand_at_level _ ts m cerr t ec ht hc (l + 1) (by omega) (by omega)
      (fun _ _ _ => Or.inl hend)
  have hall := Parser.level_binary_left l h2 h7 _ ts j k m cerr o1 o2 t ea eb ec ha1 ho1 hop1
    hb1 ho2 hop2 hc1 ht (Or.inl hend)
  have htop : Parser.Eventually (Parser.level 2) ⟨ts, i, cerr⟩
      (.ok (.binary (.binary ea o1.lexeme eb) o2.lexeme ec) ⟨ts, m, cerr⟩) := by
    apply Parser.level_climb _ ts m cerr t _ ht (l - 2) 2 (by omega) (by omega)
    · intro _ _ _
      exact Or.inl hend
    · rw [show 2 + (l - 2) = l by omega]
      exact hall
  exact Parser.expression_of_logicalOr _ ts m cerr t _ htop ht (Or.inl hend)

/-- C25: for all one-token operands `a`, `b`, `c` (literals and identifiers) and
binary operators `o1`, `o2` of the same precedence level (`or`; `and`; `==`
`!=`; `<` `<=` `>` `>=`; `+` `-`; `*` `/` `%`), the tokens `a o1 b o2 c` parse to
`Binary(Binary(a, o1, b), o2, c)`, each node with its operator's lexeme, whenever
the fuel is large enough.  The same holds when the operands are arbitrary token
sequences that `unary` reads.  The source text `print 10 - 4 - 3` runs to the
output `3`. -/
theorem Parser.same_level_associates_left :
    (∀ (a b c o1 o2 eof : Token) (ea eb ec : Expr) (l : Nat) (cerr : List String),
      operandExpr a = some ea → operandExpr b = some eb → operandExpr c = some ec →
      binaryLevel o1.type = some l → binaryLevel o2.type = some l →
      eof.type = .END_OF_FILE →
      Parser.Eventually Parser.expression ⟨[a, o1, b, o2, c, eof], 0, cerr⟩
        (.ok (.binary (.binary ea o1.lexeme eb) o2.lexeme ec)
          ⟨[a, o1, b, o2, c, eof], 5, cerr⟩)) ∧
    (∀ (ts : List Token) (cerr : List String) (i j k m : Nat) (o1 o2 t : Token)
      (ea eb ec : Expr) (l : Nat),
      Parser.Eventually Parser.unary ⟨ts, i, cerr⟩ (.ok ea ⟨ts, j, cerr⟩) →
      ts[j]? = some o1 → binaryLevel o1.type = some l →
      Parser.Eventually Parser.unary ⟨ts, j + 1, cerr⟩ (.ok eb ⟨ts, k, cerr⟩) →
      ts[k]? = some o2 → binaryLevel o2.type = some l →
      Parser.Eventually Parser.unary ⟨ts, k + 1, cerr⟩ (.ok ec ⟨ts, m, cerr⟩) →
      ts[m]? = some t → t.type = .END_OF_FILE →
      Parser.Eventually Parser.expression ⟨ts, i, cerr⟩
        (.ok (.binary (.binary ea o1.lexeme eb) o2.lexeme ec) ⟨ts, m, cerr⟩)) ∧
    (∀ t : TokenType, (∃ l, binaryLevel t = some l) ↔
      t ∈ [TokenType.OR, .AND, .EQUAL, .NOT_EQUAL, .LESS, .LESS_EQUAL, .GREATER,
        .GREATER_EQUAL, .PLUS, .MINUS, .MULTIPLY, .DIVIDE, .MODULO]) ∧
    (run 40 "print 10 - 4 - 3" (Interpreter.new Host.simple)).summary = some (["3"], [], 0) := by
  refine ⟨?_, ?_, ?_, by decide!⟩
  · intro a b c o1 o2 eof ea eb ec l cerr ha hb hc hl1 hl2 heof
    have hp1 : o1.type ≠ .LEFT_PAREN := by
      intro h
      rw [h] at hl1
      simp [binaryLevel] at hl1
    have hp2 : o2.type ≠ .LEFT_PAREN := by
      intro h
      rw [h] at hl2
      simp [binaryLevel] at hl2
    have hp3 : eof.type ≠ .LEFT_PAREN := by
      rw [heof]
      decide
    exact Parser.left_associative_general [a, o1, b, o2, c, eof] cerr 0 1 3 5 o1 o2 eof ea eb ec
      l
      (Parser.unary_of_operand _ 0 cerr a o1 ea rfl rfl hp1 ha) rfl hl1
      (Parser.unary_of_operand _ 2 cerr b o2 eb rfl rfl hp2 hb) rfl hl2
      (Parser.unary_of_operand _ 4 cerr c eof ec rfl rfl hp3 hc) rfl heof
  · intro ts cerr i j k m o1 o2 t ea eb ec l ha ho1 hl1 hb ho2 hl2 hc ht hend
    exact Parser.left_associative_general ts cerr i j k m o1 o2 t ea eb ec l ha ho1 hl1 hb ho2
      hl2 hc ht hend
  · intro t
    cases t <;> simp [binaryLevel]

/-- C25, on the tokens of `10 - 4 + 3`: the parse is `(10 - 4) + 3`. -/
theorem Parser.same_level_associates_left_witness :
    Parser.Eventually Parser.expression
      ⟨[⟨.NUMBER, "10", 1, 1⟩, ⟨.MINUS, "-", 1, 4⟩, ⟨.NUMBER, "4", 1, 6⟩, ⟨.PLUS, "+", 1, 8⟩,
        ⟨.NUMBER, "3", 1, 10⟩, ⟨.END_OF_FILE, "", 1, 11⟩], 0, []⟩
      (.ok (.binary (.binary (.literal (.number (Number.ofNat 10))) "-"
          (.literal (.number (Number.ofNat 4)))) "+" (.literal (.number (Number.ofNat 3))))
        ⟨[⟨.NUMBER, "10", 1, 1⟩, ⟨.MINUS, "-", 1, 4⟩, ⟨.NUMBER, "4", 1, 6⟩, ⟨.PLUS, "+", 1, 8⟩,
          ⟨.NUMBER, "3", 1, 10⟩, ⟨.END_OF_FILE, "", 1, 11⟩], 5, []⟩) :=
  Parser.same_level_associates_left.1
    ⟨.NUMBER, "10", 1, 1⟩ ⟨.NUMBER, "4", 1, 6⟩ ⟨.NUMBER, "3", 1, 10⟩
    ⟨.MINUS, "-", 1, 4⟩ ⟨.PLUS, "+", 1, 8⟩ ⟨.END_OF_FILE, "", 1, 11⟩ _ _ _ 6 []
    rfl rfl rfl rfl rfl rfl

/-! ## C26, C27: assignment -/

/-- One step of `Parser::assignment` at an `=`: the left side is read by
`logicalOr`, the right side by `assignment`, and the left side decides between
the Binary node and the error. -/
theorem Parser.assignment_step (fuel : Nat) (p p2 : Parser) (ts : List Token) (j : Nat)
    (cerr : List String) (o : Token) (expr value : Expr)
    (hl : Parser.logicalOr fuel p = .ok expr ⟨ts, j, cerr⟩)
    (ho : ts[j]? = some o) (hty : o.type = .ASSIGN)
    (hv : Parser.assignment fuel ⟨ts, j + 1, cerr⟩ = .ok value p2) :
    Parser.assignment (fuel + 1) p =
      (match expr with
        | .identifier name => (pure (.binary (.identifier name) "=" value) : ParserM Expr)
        | _ => Parser.error "Invalid assignment target") p2 := by
  have hm : Parser.match_ [.ASSIGN] ⟨ts, j, cerr⟩ = .ok true ⟨ts, j + 1, cerr⟩ :=
    Parser.match_hit ts j cerr o ho (by rw [hty]; exact nofun) [.ASSIGN] (by simp [hty])
  simp only [Parser.assignment]
  rw [ParserM.bind_ok _ _ _ _ _ hl, ParserM.bind_ok _ _ _ _ _ hm]
  simp only [if_true]
  rw [ParserM.bind_ok _ _ _ _ _ hv]

theorem Parser.assign_not_mem_levelOps (l : Nat) (h2 : 2 ≤ l) (h7 : l ≤ 7) :
    TokenType.ASSIGN ∉ Parser.levelOps l := by
  intro h
  have := (Parser.mem_levelOps _ l h2 h7).mp h
  simp [binaryLevel] at this

/-- What `expression` reads is what `assignment` reads. -/
theorem Parser.assignment_of_expression (p : Parser) (r : ParseResult Expr)
    (h : Parser.Eventually Parser.expression p r) : Parser.Eventually Parser.assignment p r := by
  obtain ⟨k, hk⟩ := h
  refine ⟨k, fun n => ?_⟩
  have := hk (n + 1)
  rw [show n + 1 + k = (n + k) + 1 by omega] at this
  simpa only [Parser.expression] using this

theorem Parser.expression_of_assignment (p : Parser) (r : ParseResult Expr)
    (h : Parser.Eventually Parser.assignment p r) : Parser.Eventually Parser.expression p r := by
  obtain ⟨k, hk⟩ := h
  refine ⟨k + 1, fun n => ?_⟩
  rw [show n + (k + 1) = (n + k) + 1 by omega]
  simpa only [Parser.expression] using hk n

/-- An identifier, an `=` and a right side that `assignment` reads are the
Binary node of the assignment. -/
theorem Parser.assignment_to_identifier (ts : List Token) (i : Nat) (cerr : List String)
    (a o : Token) (value : Expr) (p2 : Parser)
    (ha : ts[i]? = some a) (hat : a.type = .IDENTIFIER)
    (ho : ts[i + 1]? = some o) (hty : o.type = .ASSIGN)
    (hv : Parser.Eventually Parser.assignment ⟨ts, i + 1 + 1, cerr⟩ (.ok value p2)) :
    Parser.Eventually Parser.assignment ⟨ts, i, cerr⟩
      (.ok (.binary (.identifier a.lexeme) "=" value) p2) := by
  have hu := Parser.unary_of_operand ts i cerr a o (.identifier a.lexeme) ha ho
    (by rw [hty]; exact nofun) (by simp only [operandExpr, hat])
  have hl := Parser.operand_at_level _ ts (i + 1) cerr o _ ho hu 2 (Nat.le_refl _) (by omega)
    (fun l hl2 hl8 => Or.inr (by rw [hty]; exact Parser.assign_not_mem_levelOps l hl2 (by omega)))
  obtain ⟨k1, hk1⟩ := hl
  obtain ⟨k2, hk2⟩ := hv
  refine ⟨k1 + k2 + 1, fun n => ?_⟩
  have h1 := hk1 (n + k2)
  rw [show n + k2 + k1 = n + k1 + k2 by omega] at h1
  have h2 := hk2 (n + k1)
  rw [show n + k1 + k2 = n + k1 + k2 by omega] at h2
  rw [show n + (k1 + k2 + 1) = (n + k1 + k2) + 1 by omega,
    Parser.assignment_step _ _ p2 ts (i + 1) cerr o _ value h1 ho hty h2]
  rfl

/-- A literal or identifier token followed by the end of the input is an
expression. -/
theorem Parser.expression_of_operand (ts : List Token) (i : Nat) (cerr : List String)
    (a eof : Token) (ea : Expr) (ha : ts[i]? = some a) (hnext : ts[i + 1]? = some eof)
    (hend : eof.type = .END_OF_FILE) (he : operandExpr a = some ea) :
    Parser.Eventually Parser.expression ⟨ts, i, cerr⟩ (.ok ea ⟨ts, i + 1, cerr⟩) :=
  Parser.expression_of_logicalOr _ ts (i + 1) cerr eof ea
    (Parser.operand_at_level _ ts (i + 1) cerr eof ea hnext
      (Parser.unary_of_operand ts i cerr a eof ea ha hnext (by rw [hend]; exact nofun) he)
      2 (Nat.le_refl _) (by omega) (fun _ _ _ => Or.inl hend))
    hnext (Or.inl hend)

/-- C26: for all identifier tokens `a`, `b`, with an `=` after each, and every
expression `e` after the second `=` that `expression` parses to `E`, the tokens
`a = b = e` parse to `Binary(Identifier a, "=", Binary(Identifier b, "=", E))`
once the fuel is large enough, and the parser stops where the parse of `e`
stops.  The right side of an `=` is the whole expression that follows, so the
assignment binds more loosely than every other operator: `a = b = 1 + 2` is
`a = (b = (1 + 2))` and sets both variables to 3. -/
theorem Parser.assignment_is_right_associative :
    (∀ (ts : List Token) (i : Nat) (cerr : List String) (a o1 b o2 : Token) (E : Expr)
      (p2 : Parser),
      ts[i]? = some a → a.type = .IDENTIFIER → ts[i + 1]? = some o1 → o1.type = .ASSIGN →
      ts[i + 2]? = some b → b.type = .IDENTIFIER → ts[i + 3]? = some o2 → o2.type = .ASSIGN →
      Parser.Eventually Parser.expression ⟨ts, i + 4, cerr⟩ (.ok E p2) →
      Parser.Eventually Parser.expression ⟨ts, i, cerr⟩
        (.ok (.binary (.identifier a.lexeme) "=" (.binary (.identifier b.lexeme) "=" E)) p2)) ∧
    Parser.expression 20 ⟨lex "a = b = 1 + 2", 0, []⟩ =
      .ok (.binary (.identifier "a") "=" (.binary (.identifier "b") "="
          (.binary (.literal (.number (Number.ofNat 1))) "+"
            (.literal (.number (Number.ofNat 2))))))
        ⟨lex "a = b = 1 + 2", 7, []⟩ ∧
    (run 40 "let a = 0; let b = 0; a = b = 1 + 2; print a; print b"
      (Interpreter.new Host.simple)).summary = some (["3", "3"], [], 0) := by
  refine ⟨?_, rfl, by decide!⟩
  intro ts i cerr a o1 b o2 E p2 ha hat ho1 hty1 hb hbt ho2 hty2 he
  apply Parser.expression_of_assignment
  apply Parser.assignment_to_identifier ts i cerr a o1 _ p2 ha hat ho1 hty1
  apply Parser.assignment_to_identifier ts (i + 1 + 1) cerr b o2 _ p2 hb hbt ho2 hty2
  exact Parser.assignment_of_expression _ _ he

/-- C26, on the tokens of `a = b = 7`. -/
theorem Parser.assignment_is_right_associative_witness :
    Parser.Eventually Parser.expression
      ⟨[⟨.IDENTIFIER, "a", 1, 1⟩, ⟨.ASSIGN, "=", 1, 4⟩, ⟨.IDENTIFIER, "b", 1, 5⟩,
        ⟨.ASSIGN, "=", 1, 8⟩, ⟨.NUMBER, "7", 1, 9⟩, ⟨.END_OF_FILE, "", 1, 10⟩], 0, []⟩
      (.ok (.binary (.identifier "a") "=" (.binary (.identifier "b") "="
          (.literal (.number (Number.ofNat 7)))))
        ⟨[⟨.IDENTIFIER, "a", 1, 1⟩, ⟨.ASSIGN, "=", 1, 4⟩, ⟨.IDENTIFIER, "b", 1, 5⟩,
          ⟨.ASSIGN, "=", 1, 8⟩, ⟨.NUMBER, "7", 1, 9⟩, ⟨.END_OF_FILE, "", 1, 10⟩], 5, []⟩) :=
  Parser.assignment_is_right_associative.1 _ 0 [] ⟨.IDENTIFIER, "a", 1, 1⟩ ⟨.ASSIGN, "=", 1, 4⟩
    ⟨.IDENTIFIER, "b", 1, 5⟩ ⟨.ASSIGN, "=", 1, 8⟩ _ _ rfl rfl rfl rfl rfl rfl rfl rfl
    (Parser.expression_of_operand _ 4 [] ⟨.NUMBER, "7", 1, 9⟩ ⟨.END_OF_FILE, "", 1, 10⟩ _
      rfl rfl rfl rfl)

/-- The message of `Parser::error` for an `=` after something that is not an
identifier, at a token of line `line`. -/
theorem Parser.error_at (message : String) (p : Parser) (t : Token)
    (ht : p.tokens[p.current]? = some t) :
    (Parser.error message : ParserM Expr) p =
      .exception (.runtime_error ("Parse error at line " ++ toString t.line ++ ": " ++ message))
        p := by
  have hpeek : Parser.peek p = .ok t p := by
    unfold Parser.peek
    rw [ht]
  unfold Parser.error
  rw [ParserM.bind_ok _ _ _ _ _ hpeek]
  rfl

/-- A left side that is not an Identifier node, an `=` and a right side that
`assignment` reads: `assignment` throws at the token after the right side. -/
theorem Parser.assignment_invalid_target (p p2 : Parser) (ts : List Token) (j : Nat)
    (cerr : List String) (o t : Token) (expr value : Expr)
    (hl : Parser.Eventually Parser.logicalOr p (.ok expr ⟨ts, j, cerr⟩))
    (hni : ∀ name, expr ≠ .identifier name)
    (ho : ts[j]? = some o) (hty : o.type = .ASSIGN)
    (hv : Parser.Eventually Parser.assignment ⟨ts, j + 1, cerr⟩ (.ok value p2))
    (ht : p2.tokens[p2.current]? = some t) :
    Parser.Eventually Parser.assignment p
      (.exception (.runtime_error
        ("Parse error at line " ++ toString t.line ++ ": " ++ "Invalid assignment target")) p2) := by
  obtain ⟨k1, hk1⟩ := hl
  obtain ⟨k2, hk2⟩ := hv
  refine ⟨k1 + k2 + 1, fun n => ?_⟩
  have h1 := hk1 (n + k2)
  rw [show n + k2 + k1 = n + k1 + k2 by omega] at h1
  have h2 := hk2 (n + k1)
  rw [show n + (k1 + k2 + 1) = (n + k1 + k2) + 1 by omega,
    Parser.assignment_step _ _ p2 ts j cerr o _ value h1 ho hty h2]
  cases expr with
  | identifier name => exact absurd rfl (hni name)
  | literal v => exact Parser.error_at "Invalid assignment target" p2 t ht
  | binary l op r => exact Parser.error_at "Invalid assignment target" p2 t ht
  | unary op e => exact Parser.error_at "Invalid assignment target" p2 t ht
  | call c args => exact Parser.error_at "Invalid assignment target" p2 t ht

/-- A statement that starts with a token of no other statement kind and whose
expression throws a `std::runtime_error`: the top-level loop reports the error,
synchronizes and goes on with the statements it had. -/
theorem Parser.programLoop_drops_expression (ts : List Token) (i : Nat) (cerr : List String)
    (first : Token) (p1 : Parser) (what : String) (statements : List Stmt)
    (hfirst : ts[i]? = some first)
    (hkind : first.type ∉ [TokenType.END_OF_FILE, .NEWLINE, .LET, .FUN, .IF, .WHILE, .RETURN,
      .PRINT, .LEFT_BRACE])
    (h : Parser.Eventually Parser.expression ⟨ts, i, cerr⟩
      (.exception (.runtime_error what) p1)) :
    ∃ k, ∀ n, Parser.programLoop (n + k + 1) statements ⟨ts, i, cerr⟩ =
      (Parser.synchronize (n + k) >>= fun _ => Parser.programLoop (n + k) statements)
        { p1 with cerr := p1.cerr ++ ["Parse error: " ++ what] } := by
  obtain ⟨k, hk⟩ := h
  refine ⟨k + 3, fun n => ?_⟩
  have hmiss : ∀ types, first.type ∉ types →
      Parser.match_ types ⟨ts, i, cerr⟩ = .ok false ⟨ts, i, cerr⟩ :=
    fun types hn => Parser.match_miss ts i cerr first hfirst types (Or.inr hn)
  simp only [List.mem_cons, List.mem_singleton, List.not_mem_nil, or_false, not_or] at hkind
  obtain ⟨h0, h1, h2, h3, h4, h5, h6, h7, h8⟩ := hkind
  have hstmt : Parser.declaration (n + k + 1 + 1 + 1) ⟨ts, i, cerr⟩ =
      .exception (.runtime_error what) p1 := by
    rw [Parser.declaration_statement _ _ (hmiss [.LET] (by simpa using h2))
        (hmiss [.FUN] (by simpa using h3)),
      Parser.statement_expression _ _ (hmiss [.IF] (by simpa using h4))
        (hmiss [.WHILE] (by simpa using h5)) (hmiss [.RETURN] (by simpa using h6))
        (hmiss [.PRINT] (by simpa using h7)) (hmiss [.LEFT_BRACE] (by simpa using h8))]
    exact Parser.expressionStatement_exception _ _ _ _ (hk n)
  have hat0 : Parser.isAtEnd ⟨ts, i, cerr⟩ = .ok false ⟨ts, i, cerr⟩ := by
    rw [Parser.isAtEnd_at ts i cerr first hfirst]
    simp [h0]
  rw [show n + (k + 3) + 1 = (n + k + 1 + 1 + 1) + 1 by omega,
    show n + (k + 3) = n + k + 1 + 1 + 1 by omega]
  exact Parser.programLoop_caught _ _ _ statements what hat0
    (hmiss [.NEWLINE] (by simpa using h1)) hstmt

/-- C27: whenever `logicalOr` reads a left side that is not an Identifier node
(a literal, a unary or binary expression, or a call), the next token is `=` and
`assignment` reads the right side, the parser raises the parse error
`Parse error at line N: Invalid assignment target`, where `N` is the line of the
token that follows the right side.  When the text is a statement of the program,
the top-level loop reports the error, synchronizes and goes on with the
statements it already had: no statement is added for that text.  The source
`1 = 2; print 3` parses to the program of the one statement `print 3`, with the
diagnostic on `std::cerr`. -/
theorem Parser.invalid_assignment_target_raises :
    (∀ (p p2 : Parser) (ts : List Token) (j : Nat) (cerr : List String) (o t : Token)
      (expr value : Expr),
      Parser.Eventually Parser.logicalOr p (.ok expr ⟨ts, j, cerr⟩) →
      (∀ name, expr ≠ .identifier name) →
      ts[j]? = some o → o.type = .ASSIGN →
      Parser.Eventually Parser.assignment ⟨ts, j + 1, cerr⟩ (.ok value p2) →
      p2.tokens[p2.current]? = some t →
      Parser.Eventually Parser.expression p
        (.exception (.runtime_error
          ("Parse error at line " ++ toString t.line ++ ": " ++ "Invalid assignment target")) p2)) ∧
    (∀ (ts : List Token) (i j : Nat) (cerr : List String) (first o t : Token) (p2 : Parser)
      (expr value : Expr) (statements : List Stmt),
      ts[i]? = some first →
      first.type ∉ [TokenType.END_OF_FILE, .NEWLINE, .LET, .FUN, .IF, .WHILE, .RETURN,
        .PRINT, .LEFT_BRACE] →
      Parser.Eventually Parser.logicalOr ⟨ts, i, cerr⟩ (.ok expr ⟨ts, j, cerr⟩) →
      (∀ name, expr ≠ .identifier name) →
      ts[j]? = some o → o.type = .ASSIGN →
      Parser.Eventually Parser.assignment ⟨ts, j + 1, cerr⟩ (.ok value p2) →
      p2.tokens[p2.current]? = some t →
      ∃ k, ∀ n, Parser.programLoop (n + k + 1) statements ⟨ts, i, cerr⟩ =
        (Parser.synchronize (n + k) >>= fun _ => Parser.programLoop (n + k) statements)
          { p2 with cerr := p2.cerr ++ ["Parse error: " ++ ("Parse error at line " ++
            toString t.line ++ ": " ++ "Invalid assignment target")] }) ∧
    Parser.parse 30 (lex "1 = 2; print 3") =
      .ok { statements := [.print (.literal (.number (Number.ofNat 3)))] }
        ⟨lex "1 = 2; print 3", 6,
          ["Parse error: Parse error at line 1: Invalid assignment target"]⟩ ∧
    (run 30 "1 = 2; print 3" (Interpreter.new Host.simple)).summary =
      some (["3"], ["Parse error: Parse error at line 1: Invalid assignment target"], 0) := by
  refine ⟨?_, ?_, rfl, by decide!⟩
  · intro p p2 ts j cerr o t expr value hl hni ho hty hv ht
    exact Parser.expression_of_assignment _ _
      (Parser.assignment_invalid_target p p2 ts j cerr o t expr value hl hni ho hty hv ht)
  · intro ts i j cerr first o t p2 expr value statements hfirst hkind hl hni ho hty hv ht
    exact Parser.programLoop_drops_expression ts i cerr first p2 _ statements hfirst hkind
      (Parser.expression_of_assignment _ _
        (Parser.assignment_invalid_target _ p2 ts j cerr o t expr value hl hni ho hty hv ht))

/-- C27, on the tokens of `1 = 2`. -/
theorem Parser.invalid_assignment_target_raises_witness :
    Parser.Eventually Parser.expression
      ⟨[⟨.NUMBER, "1", 1, 1⟩, ⟨.ASSIGN, "=", 1, 4⟩, ⟨.NUMBER, "2", 1, 5⟩,
        ⟨.END_OF_FILE, "", 1, 6⟩], 0, []⟩
      (.exception (.runtime_error
        ("Parse error at line " ++ toString 1 ++ ": " ++ "Invalid assignment target"))
        ⟨[⟨.NUMBER, "1", 1, 1⟩, ⟨.ASSIGN, "=", 1, 4⟩, ⟨.NUMBER, "2", 1, 5⟩,
          ⟨.END_OF_FILE, "", 1, 6⟩], 3, []⟩) :=
  Parser.invalid_assignment_target_raises.1 _ _ _ 1 [] ⟨.ASSIGN, "=", 1, 4⟩
    ⟨.END_OF_FILE, "", 1, 6⟩ (.literal (.number (Number.ofNat 1)))
    (.literal (.number (Number.ofNat 2)))
    (Parser.operand_at_level _ _ 1 [] ⟨.ASSIGN, "=", 1, 4⟩ _ rfl
      (Parser.unary_of_operand _ 0 [] ⟨.NUMBER, "1", 1, 1⟩ ⟨.ASSIGN, "=", 1, 4⟩ _ rfl rfl
        (by decide) rfl)
      2 (Nat.le_refl _) (by omega)
      (fun l hl2 hl8 => Or.inr (Parser.assign_not_mem_levelOps l hl2 (by omega))))
    (fun _ => nofun) rfl rfl
    (Parser.assignment_of_expression _ _
      (Parser.expression_of_operand _ 2 [] ⟨.NUMBER, "2", 1, 5⟩ ⟨.END_OF_FILE, "", 1, 6⟩ _
        rfl rfl rfl rfl))
    rfl

/-! ## C28: `return` without a value -/

/-- At a RETURN token `statement` is `returnStatement` after the token. -/
theorem Parser.statement_return (fuel : Nat) (ts : List Token) (i : Nat) (cerr : List String)
    (r : Token) (hr : ts[i]? = some r) (hty : r.type = .RETURN) :
    Parser.statement (fuel + 1) ⟨ts, i, cerr⟩ = Parser.returnStatement fuel ⟨ts, i + 1, cerr⟩ := by
  have hmiss : ∀ types, r.type ∉ types →
      Parser.match_ types ⟨ts, i, cerr⟩ = .ok false ⟨ts, i, cerr⟩ :=
    fun types hn => Parser.match_miss ts i cerr r hr types (Or.inr hn)
  have hhit : Parser.match_ [.RETURN] ⟨ts, i, cerr⟩ = .ok true ⟨ts, i + 1, cerr⟩ :=
    Parser.match_hit ts i cerr r hr (by rw [hty]; exact nofun) [.RETURN] (by simp [hty])
  simp only [Parser.statement]
  rw [ParserM.bind_ok _ _ _ _ _ (hmiss [.IF] (by simp [hty]))]
  simp only [Bool.false_eq_true, if_false]
  rw [ParserM.bind_ok _ _ _ _ _ (hmiss [.WHILE] (by simp [hty]))]
  simp only [Bool.false_eq_true, if_false]
  rw [ParserM.bind_ok _ _ _ _ _ hhit]
  simp only [if_true]

/-- Before `;` or a newline `returnStatement` omits the value and consumes the
terminator. -/
theorem Parser.returnStatement_omitted (fuel : Nat) (ts : List Token) (j : Nat)
    (cerr : List String) (t : Token) (ht : ts[j]? = some t)
    (hty : t.type = .SEMICOLON ∨ t.type = .NEWLINE) :
    Parser.returnStatement (fuel + 1) ⟨ts, j, cerr⟩ =
      .ok (.returnStatement none) ⟨ts, j + 1, cerr⟩ := by
  have hend : t.type ≠ .END_OF_FILE := by
    rcases hty with h | h <;> (rw [h]; exact nofun)
  have hm : Parser.match_ [.SEMICOLON, .NEWLINE] ⟨ts, j, cerr⟩ = .ok true ⟨ts, j + 1, cerr⟩ :=
    Parser.match_hit ts j cerr t ht hend _ (by rcases hty with h | h <;> simp [h])
  simp only [Parser.returnStatement]
  rw [ParserM.bind_ok _ _ _ _ _ (Parser.check_at ts j cerr t ht .SEMICOLON)]
  rw [ParserM.bind_ok _ _ _ _ _ (Parser.check_at ts j cerr t ht .NEWLINE)]
  rcases hty with h | h
  · simp only [h]
    rw [show (if (!(TokenType.SEMICOLON != TokenType.END_OF_FILE &&
        TokenType.SEMICOLON == TokenType.SEMICOLON) &&
        !(TokenType.SEMICOLON != TokenType.END_OF_FILE &&
        TokenType.SEMICOLON == TokenType.NEWLINE)) = true then _ else _) = _ from if_neg (by decide)]
    rw [ParserM.bind_ok _ _ _ _ _ hm]
    rfl
  · simp only [h]
    rw [show (if (!(TokenType.NEWLINE != TokenType.END_OF_FILE &&
        TokenType.NEWLINE == TokenType.SEMICOLON) &&
        !(TokenType.NEWLINE != TokenType.END_OF_FILE &&
        TokenType.NEWLINE == TokenType.NEWLINE)) = true then _ else _) = _ from if_neg (by decide)]
    rw [ParserM.bind_ok _ _ _ _ _ hm]
    rfl

/-- At a token that starts no expression `unary` throws `Expected expression`
with the line of that token. -/
theorem Parser.unary_expected_expression (ts : List Token) (j : Nat) (cerr : List String)
    (t : Token) (ht : ts[j]? = some t)
    (hno : t.type = .END_OF_FILE ∨ t.type ∉ [TokenType.NOT, .MINUS, .TRUE, .FALSE, .NIL,
      .NUMBER, .STRING, .IDENTIFIER, .LEFT_PAREN]) :
    Parser.Eventually Parser.unary ⟨ts, j, cerr⟩
      (.exception (.runtime_error
        ("Parse error at line " ++ toString t.line ++ ": " ++ "Expected expression"))
        ⟨ts, j, cerr⟩) := by
  refine ⟨3, fun n => ?_⟩
  have hmiss : ∀ types : List TokenType, (∀ x ∈ types, x ∈ [TokenType.NOT, .MINUS, .TRUE,
      .FALSE, .NIL, .NUMBER, .STRING, .IDENTIFIER, .LEFT_PAREN]) →
      Parser.match_ types ⟨ts, j, cerr⟩ = .ok false ⟨ts, j, cerr⟩ := by
    intro types hsub
    apply Parser.match_miss ts j cerr t ht
    rcases hno with h | h
    · exact Or.inl h
    · exact Or.inr (fun hm => h (hsub _ hm))
  have herr := Parser.error_at "Expected expression" ⟨ts, j, cerr⟩ t ht
  rw [show n + 3 = n + 1 + 1 + 1 by omega]
  simp only [Parser.unary, Parser.call, Parser.primary]
  rw [ParserM.bind_ok _ _ _ _ _ (hmiss [.NOT, .MINUS] (by decide))]
  simp only [Bool.false_eq_true, if_false]
  apply ParserM.bind_exception
  rw [ParserM.bind_ok _ _ _ _ _ (hmiss [.TRUE] (by decide))]
  simp only [Bool.false_eq_true, if_false]
  rw [ParserM.bind_ok _ _ _ _ _ (hmiss [.FALSE] (by decide))]
  simp only [Bool.false_eq_true, if_false]
  rw [ParserM.bind_ok _ _ _ _ _ (hmiss [.NIL] (by decide))]
  simp only [Bool.false_eq_true, if_false]
  rw [ParserM.bind_ok _ _ _ _ _ (hmiss [.NUMBER] (by decide))]
  simp only [Bool.false_eq_true, if_false]
  rw [ParserM.bind_ok _ _ _ _ _ (hmiss [.STRING] (by decide))]
  simp only [Bool.false_eq_true, if_false]
  rw [ParserM.bind_ok _ _ _ _ _ (hmiss [.IDENTIFIER] (by decide))]
  simp only [Bool.false_eq_true, if_false]
  rw [ParserM.bind_ok _ _ _ _ _ (hmiss [.LEFT_PAREN] (by decide))]
  simp only [Bool.false_eq_true, if_false]
  exact herr

/-- Before a token that is neither `;` nor a newline `returnStatement` reads an
expression, and an exception of the expression is its result. -/
theorem Parser.returnStatement_exception (fuel : Nat) (ts : List Token) (j : Nat)
    (cerr : List String) (t : Token) (e : ParseException) (p1 : Parser) (ht : ts[j]? = some t)
    (hty : t.type = .END_OF_FILE ∨ (t.type ≠ .SEMICOLON ∧ t.type ≠ .NEWLINE))
    (h : Parser.expression fuel ⟨ts, j, cerr⟩ = .exception e p1) :
    Parser.returnStatement (fuel + 1) ⟨ts, j, cerr⟩ = .exception e p1 := by
  have hc : ∀ type, type = TokenType.SEMICOLON ∨ type = TokenType.NEWLINE →
      Parser.check type ⟨ts, j, cerr⟩ = .ok false ⟨ts, j, cerr⟩ := by
    intro type htype
    rw [Parser.check_at ts j cerr t ht type]
    rcases hty with h | ⟨h1, h2⟩
    · simp [h]
    · rcases htype with h | h <;> simp [h, h1, h2]
  simp only [Parser.returnStatement]
  rw [ParserM.bind_ok _ _ _ _ _ (hc .SEMICOLON (Or.inl rfl)),
    ParserM.bind_ok _ _ _ _ _ (hc .NEWLINE (Or.inr rfl))]
  simp only [Bool.not_false, Bool.and_self, if_true]
  rw [ParserM.bind_exception _ _ _ _ _ h]

/-- C28: the claim fails for RIGHT_BRACE and END_OF_FILE.  A RETURN token
followed by `;` or a newline parses to a Return node without a value, the
terminator consumed.  A RETURN token followed by RIGHT_BRACE or END_OF_FILE does
not: `returnStatement` only tests for `;` and newline, so it asks for an
expression and the parser raises `Expected expression` with the line of that
token, whenever the fuel is large enough.  The block `{ return }` parses to the
empty program with that diagnostic, whereas `{ return; }` parses to a block. -/
theorem Parser.return_before_brace_is_rejected :
    (∀ (fuel : Nat) (ts : List Token) (i : Nat) (cerr : List String) (r t : Token),
      ts[i]? = some r → r.type = .RETURN → ts[i + 1]? = some t →
      (t.type = .SEMICOLON ∨ t.type = .NEWLINE) →
      Parser.statement (fuel + 2) ⟨ts, i, cerr⟩ =
        .ok (.returnStatement none) ⟨ts, i + 2, cerr⟩) ∧
    (∀ (ts : List Token) (i : Nat) (cerr : List String) (r t : Token),
      ts[i]? = some r → r.type = .RETURN → ts[i + 1]? = some t →
      (t.type = .RIGHT_BRACE ∨ t.type = .END_OF_FILE) →
      Parser.Eventually Parser.statement ⟨ts, i, cerr⟩
        (.exception (.runtime_error
          ("Parse error at line " ++ toString t.line ++ ": " ++ "Expected expression"))
          ⟨ts, i + 1, cerr⟩)) ∧
    (Parser.parse 30 (lex "\x7b return \x7d")).summary =
      some (0, 3, ["Parse error: Parse error at line 1: Expected expression"]) ∧
    Parser.parse 30 (lex "\x7b return; \x7d") =
      .ok { statements := [.block [.returnStatement none]] } ⟨lex "\x7b return; \x7d", 4, []⟩ := by
  refine ⟨?_, ?_, by decide!, rfl⟩
  · intro fuel ts i cerr r t hr hrt ht hty
    rw [Parser.statement_return _ ts i cerr r hr hrt,
      Parser.returnStatement_omitted _ ts (i + 1) cerr t ht hty]
  · intro ts i cerr r t hr hrt ht hty
    have hu := Parser.unary_expected_expression ts (i + 1) cerr t ht (by
      rcases hty with h | h
      · exact Or.inr (by rw [h]; decide)
      · exact Or.inl h)
    obtain ⟨k, hk⟩ := Parser.expression_exception _ _ _ hu
    refine ⟨k + 2, fun n => ?_⟩
    rw [show n + (k + 2) = (n + k + 1) + 1 by omega,
      Parser.statement_return _ ts i cerr r hr hrt]
    apply Parser.returnStatement_exception _ ts (i + 1) cerr t _ _ ht _ (hk n)
    rcases hty with h | h
    · exact Or.inr (by rw [h]; exact ⟨nofun, nofun⟩)
    · exact Or.inl h

/-- C28, on the tokens of the block with only `return` in it. -/
theorem Parser.return_before_brace_is_rejected_witness :
    Parser.Eventually Parser.statement
      ⟨[⟨.LEFT_BRACE, "\x7b", 1, 1⟩, ⟨.RETURN, "return", 1, 3⟩, ⟨.RIGHT_BRACE, "\x7d", 1, 10⟩,
        ⟨.END_OF_FILE, "", 1, 11⟩], 1, []⟩
      (.exception (.runtime_error
        ("Parse error at line " ++ toString 1 ++ ": " ++ "Expected expression"))
        ⟨[⟨.LEFT_BRACE, "\x7b", 1, 1⟩, ⟨.RETURN, "return", 1, 3⟩,
          ⟨.RIGHT_BRACE, "\x7d", 1, 10⟩, ⟨.END_OF_FILE, "", 1, 11⟩], 2, []⟩) :=
  Parser.return_before_brace_is_rejected.2.1 _ 1 [] ⟨.RETURN, "return", 1, 3⟩
    ⟨.RIGHT_BRACE, "\x7d", 1, 10⟩ rfl rfl rfl (Or.inl rfl)

/-! ## C29: the text of values -/

theorem toDigitsCore_append (f : Nat) :
    ∀ (n : Nat) (ds : List Char),
      Nat.toDigitsCore 10 f n ds = Nat.toDigitsCore 10 f n [] ++ ds := by
  induction f with
  | zero => intro n ds; simp [Nat.toDigitsCore]
  | succ f ih =>
    intro n ds
    simp only [Nat.toDigitsCore]
    split
    · simp
    · rw [ih (n / 10) (Nat.digitChar (n % 10) :: ds), ih (n / 10) [Nat.digitChar (n % 10)]]
      simp

theorem toDigitsCore_fuel (f1 : Nat) :
    ∀ (f2 n : Nat) (ds : List Char), n < f1 → n < f2 →
      Nat.toDigitsCore 10 f1 n ds = Nat.toDigitsCore 10 f2 n ds := by
  induction f1 with
  | zero => intro f2 n ds h; omega
  | succ f1 ih =>
    intro f2 n ds h1 h2
    cases f2 with
    | zero => omega
    | succ f2 =>
      simp only [Nat.toDigitsCore]
      split
      · rfl
      · rename_i hne
        have hlt : n / 10 < n := Nat.div_lt_self (by omega) (by omega)
        exact ih f2 (n / 10) _ (by omega) (by omega)

theorem toDigits_small (n : Nat) (h : n < 10) : Nat.toDigits 10 n = [Nat.digitChar n] := by
  have h0 : n / 10 = 0 := Nat.div_eq_of_lt h
  simp [Nat.toDigits, Nat.toDigitsCore, h0, Nat.mod_eq_of_lt h]

theorem toDigits_step (n : Nat) (h : 10 ≤ n) :
    Nat.toDigits 10 n = Nat.toDigits 10 (n / 10) ++ [Nat.digitChar (n % 10)] := by
  have h0 : n / 10 ≠ 0 := by omega
  have hlt : n / 10 < n := Nat.div_lt_self (by omega) (by omega)
  have hL : Nat.toDigits 10 n = Nat.toDigitsCore 10 n (n / 10) [Nat.digitChar (n % 10)] := by
    simp only [Nat.toDigits, Nat.toDigitsCore, h0, if_false]
  rw [hL, toDigitsCore_append n (n / 10) [_],
    toDigitsCore_fuel n (n / 10 + 1) (n / 10) [] hlt (by omega)]
  rfl

theorem toDigits_mul_pow (n : Nat) (h : 0 < n) (j : Nat) :
    Nat.toDigits 10 (n * 10 ^ j) = Nat.toDigits 10 n ++ List.replicate j '0' := by
  induction j with
  | zero => simp
  | succ j ih =>
    have hpos : 0 < n * 10 ^ j := Nat.mul_pos h (by positivity)
    rw [show n * 10 ^ (j + 1) = n * 10 ^ j * 10 by ring, toDigits_step _ (by omega),
      Nat.mul_div_cancel _ (by omega), Nat.mul_mod_left, ih, List.replicate_succ',
      List.append_assoc]
    rfl

theorem digitCount_of_bounds (k : Nat) :
    ∀ n, 10 ^ k ≤ n → n < 10 ^ (k + 1) → digitCount n = k + 1 := by
  induction k with
  | zero =>
    intro n h1 h2
    simp only [digitCount]
    rw [toDigits_small n (by simpa using h2)]
    rfl
  | succ k ih =>
    intro n h1 h2
    have h10 : 10 ≤ n := by
      have : 10 ^ 1 ≤ 10 ^ (k + 1) := Nat.pow_le_pow_right (by omega) (by omega)
      omega
    have := ih (n / 10) (by rw [Nat.le_div_iff_mul_le (by omega), ← Nat.pow_succ]; exact h1)
      (by rw [Nat.div_lt_iff_lt_mul (by omega), ← Nat.pow_succ]; exact h2)
    simp only [digitCount] at this ⊢
    rw [toDigits_step n h10, List.length_append, this]
    rfl

theorem stripZeros_replicate (j : Nat) : stripZeros (List.replicate j '0') = [] := by
  simp only [stripZeros, List.reverse_replicate]
  induction j with
  | zero => rfl
  | succ j ih =>
    simp only [List.replicate_succ, List.dropWhile]
    simp

theorem toDigits_length_of_bounds (k n : Nat) (h1 : 10 ^ k ≤ n) (h2 : n < 10 ^ (k + 1)) :
    (Nat.toDigits 10 n).length = k + 1 :=
  digitCount_of_bounds k n h1 h2

/-- A positive integer with `k + 1` digits, at most six, is printed by `%g` as
its digits. -/
theorem formatPositive_integer (k n : Nat) (hk : k ≤ 5) (h1 : 10 ^ k ≤ n)
    (h2 : n < 10 ^ (k + 1)) : formatPositive n 1 = String.mk (Nat.toDigits 10 n) := by
  have hpos : 0 < n := Nat.lt_of_lt_of_le (by positivity) h1
  have hdc : digitCount n = k + 1 := digitCount_of_bounds k n h1 h2
  have hd1 : digitCount 1 = 1 := rfl
  have hx : decimalExponent n 1 = (k : Int) := by
    simp only [decimalExponent, hdc, hd1, pow10Le]
    have e1 : ((k + 1 : Nat) : Int) - ((1 : Nat) : Int) = (k : Int) := by push_cast; ring
    rw [e1]
    have hk0 : (k : Int) + 1 ≥ 0 := by omega
    have hk1 : (k : Int) ≥ 0 := by omega
    simp only [hk0, hk1, if_true, Nat.mul_one]
    have t1 : ((k : Int) + 1).toNat = k + 1 := by omega
    have t2 : (k : Int).toNat = k := by omega
    rw [t1, t2]
    simp [Nat.not_le.mpr h2, h1]
  have hsix : sixDigits n 1 (k : Int) = n * 10 ^ (5 - k) := by
    have hk5 : (k : Int) ≤ 5 := by omega
    have t : (5 - (k : Int)).toNat = 5 - k := by omega
    simp only [sixDigits, hk5, if_true, t, Nat.div_one, Nat.mod_one]
    simp
  have hm : n * 10 ^ (5 - k) < 1000000 := by
    calc n * 10 ^ (5 - k) < 10 ^ (k + 1) * 10 ^ (5 - k) :=
          Nat.mul_lt_mul_of_pos_right h2 (by positivity)
      _ = 10 ^ 6 := by rw [← Nat.pow_add]; congr 1; omega
      _ = 1000000 := by norm_num
  have hlen : (Nat.toDigits 10 n).length = k + 1 := hdc
  simp only [formatPositive, hx, hsix, Nat.not_le.mpr hm, ge_iff_le, if_false]
  have c1 : ¬ ((k : Int) < -4 ∨ 6 ≤ (k : Int)) := by omega
  have c2 : (0 : Int) ≤ (k : Int) := by omega
  have t2 : (k : Int).toNat = k := by omega
  simp only [c1, c2, if_true, if_false, t2, toDigits_mul_pow n hpos]
  have hdrop : (Nat.toDigits 10 n ++ List.replicate (5 - k) '0').drop (k + 1) =
      List.replicate (5 - k) '0' := by
    rw [← hlen, List.drop_left]
  have htake : (Nat.toDigits 10 n ++ List.replicate (5 - k) '0').take (k + 1) =
      Nat.toDigits 10 n := by
    rw [← hlen, List.take_left]
  rw [hdrop, htake, stripZeros_replicate]
  rfl

theorem exists_digit_bounds (n : Nat) (h0 : 0 < n) (h : n < 10 ^ 6) :
    ∃ k, k ≤ 5 ∧ 10 ^ k ≤ n ∧ n < 10 ^ (k + 1) := by
  by_cases c1 : n < 10
  · exact ⟨0, by omega, by norm_num; omega, by norm_num; omega⟩
  by_cases c2 : n < 100
  · exact ⟨1, by omega, by norm_num; omega, by norm_num; omega⟩
  by_cases c3 : n < 1000
  · exact ⟨2, by omega, by norm_num; omega, by norm_num; omega⟩
  by_cases c4 : n < 10000
  · exact ⟨3, by omega, by norm_num; omega, by norm_num; omega⟩
  by_cases c5 : n < 100000
  · exact ⟨4, by omega, by norm_num; omega, by norm_num; omega⟩
  · exact ⟨5, by omega, by norm_num; omega, by norm_num at h ⊢; omega⟩

/-- An integral double of magnitude below one million is printed as the decimal
digits of the integer, with a minus sign when it is negative. -/
theorem formatDouble_integer (q : ℚ) (hden : q.den = 1) (hlt : q.num.natAbs < 10 ^ 6) :
    formatDouble (.real q) = toString q.num := by
  simp only [formatDouble, hden]
  by_cases h0 : q.num = 0
  · simp only [h0, if_true]
    rfl
  · have hpos : 0 < q.num.natAbs := Int.natAbs_pos.mpr h0
    obtain ⟨k, hk, h1, h2⟩ := exists_digit_bounds _ hpos hlt
    rw [formatPositive_integer k _ hk h1 h2]
    simp only [h0, if_false]
    cases hq : q.num with
    | ofNat m =>
      have : ¬ (Int.ofNat m < 0) := Int.not_lt.mpr (Int.ofNat_zero_le m)
      simp only [this, if_false]
      rfl
    | negSucc m =>
      have : Int.negSucc m < 0 := Int.negSucc_lt_zero m
      simp only [this, if_true]
      rfl

/-- C29, counterexample: the integral number 1234567 is rendered with a decimal
point, as `1.23457e+06`, and 1000000 as `1e+06`: the stream's default format
keeps six significant digits and switches to the exponent form from a million
on. -/
theorem Interpreter.stringify_large_integer_has_decimal_point :
    Interpreter.stringify (Interpreter.new Host.simple) (.number (Number.ofNat 1234567)) =
      some "1.23457e+06" ∧
    Interpreter.stringify (Interpreter.new Host.simple) (.number (Number.ofNat 1000000)) =
      some "1e+06" ∧
    (run 30 "print 1234567" (Interpreter.new Host.simple)).summary =
      some (["1.23457e+06"], [], 0) := by
  refine ⟨by decide!, by decide!, by decide!⟩

/-- C29 (amended): `stringify` maps nil to `nil`, the booleans to `true` and
`false`, a string to its contents unchanged, a user function to `<fn NAME>` with
`NAME` its declared name and a native function to `<native fn NAME>` with `NAME`
its registered name; a number with an integral value of magnitude below one
million, such as 7 or 55, is rendered as the decimal digits of that integer (with
a minus sign when negative), without a decimal point or trailing zeros; the
negative zero is rendered `-0` (`print -0` prints `-0`). -/
theorem Interpreter.stringify_of_each_value (st : Interpreter) :
    st.stringify .nil = some "nil" ∧
    st.stringify (.bool true) = some "true" ∧
    st.stringify (.bool false) = some "false" ∧
    (∀ s, st.stringify (.string s) = some s) ∧
    (∀ ref name parameters body closure,
      st.callables[ref]? = some (.function name parameters body closure) →
      st.stringify (.callable ref) = some ("<fn " ++ name ++ ">")) ∧
    (∀ ref name paramCount, st.callables[ref]? = some (.native name paramCount) →
      st.stringify (.callable ref) = some ("<native fn " ++ name ++ ">")) ∧
    (∀ q : ℚ, q.den = 1 → q.num.natAbs < 10 ^ 6 →
      st.stringify (.number (.real q)) = some (toString q.num)) ∧
    st.stringify (.number .negZero) = some "-0" ∧
    st.stringify (.number (Number.ofNat 7)) = some "7" ∧
    st.stringify (.number (Number.ofNat 55)) = some "55" ∧
    (Interpreter.interpret 20 printFunctionsProgram (Interpreter.new Host.simple)).summary =
      some (["<fn twice>", "<native fn clock>"], [], 0) ∧
    (run 30 "print -0" (Interpreter.new Host.simple)).summary = some (["-0"], [], 0) := by
  have h7 : formatDouble (Number.ofNat 7) = "7" := by decide!
  have h55 : formatDouble (Number.ofNat 55) = "55" := by decide!
  refine ⟨rfl, rfl, rfl, fun _ => rfl, ?_, ?_, ?_, rfl, congrArg some h7, congrArg some h55,
    by decide!, by decide!⟩
  · intro ref name parameters body closure h
    simp only [Interpreter.stringify, h]
    rfl
  · intro ref name paramCount h
    simp only [Interpreter.stringify, h]
    rfl
  · intro q hden hlt
    simp only [Interpreter.stringify, formatDouble_integer q hden hlt]

/-- C29, on the number -42 in the initial state. -/
theorem Interpreter.stringify_of_each_value_witness :
    Interpreter.stringify (Interpreter.new Host.simple) (.number (.real (-42))) = some "-42" :=
  (Interpreter.stringify_of_each_value (Interpreter.new Host.simple)).2.2.2.2.2.2.1 (-42)
    (by rfl) (by decide)

/-! ## C30: a second evaluation does what the first did -/

theorem Shift.frame_injective (σ : Shift) (i j : Nat) (h : σ.frame i = σ.frame j) : i = j := by
  unfold Shift.frame at h
  split at h <;> split at h <;> omega

theorem Shift.function_injective (σ : Shift) (i j : Nat) (h : σ.function i = σ.function j) :
    i = j := by
  unfold Shift.function at h
  split at h <;> split at h <;> omega

theorem Shift.frame_lt (σ : Shift) (i n : Nat) (hn : σ.frames ≤ n) :
    σ.frame i < n + σ.frameGap ↔ i < n := by
  unfold Shift.frame
  split <;> omega

theorem Shift.frame_length (σ : Shift) (n : Nat) (hn : σ.frames ≤ n) :
    σ.frame n = n + σ.frameGap := by
  unfold Shift.frame
  split <;> omega

theorem Shift.function_length (σ : Shift) (n : Nat) (hn : σ.functions ≤ n) :
    σ.function n = n + σ.functionGap := by
  unfold Shift.function
  split <;> omega

theorem Value.shift_of_inRange (σ : Shift) (v : Value) (h : v.inRange σ.functions = true) :
    v.shift σ = v := by
  cases v <;> simp only [Value.shift]
  simp only [Value.inRange, decide_eq_true_eq] at h
  simp [Shift.function, h]

theorem Interpreter.isEqual_shift (σ : Shift) (a b : Value) :
    Interpreter.isEqual (a.shift σ) (b.shift σ) = Interpreter.isEqual a b := by
  cases a <;> cases b <;> simp only [Value.shift, Interpreter.isEqual]
  rename_i x y
  by_cases h : x = y
  · simp [h]
  · have : σ.function x ≠ σ.function y := fun hc => h (σ.function_injective _ _ hc)
    simp [h, this]

theorem Interpreter.isTruthy_shift (σ : Shift) (a : Value) :
    Interpreter.isTruthy (a.shift σ) = Interpreter.isTruthy a := by
  cases a <;> rfl

theorem Value.getDouble_shift (σ : Shift) (a : Value) : (a.shift σ).getDouble = a.getDouble := by
  cases a <;> rfl

theorem mapFind_shift (σ : Shift) (name : String) :
    ∀ values : List (String × Value),
      mapFind (values.map fun kv => (kv.1, kv.2.shift σ)) name =
        (mapFind values name).map (Value.shift σ) := by
  intro values
  induction values with
  | nil => rfl
  | cons kv rest ih =>
    obtain ⟨k, v⟩ := kv
    simp only [List.map, mapFind]
    split
    · rfl
    · exact ih

theorem mapSet_shift (σ : Shift) (name : String) (value : Value) :
    ∀ values : List (String × Value),
      mapSet (values.map fun kv => (kv.1, kv.2.shift σ)) name (value.shift σ) =
        (mapSet values name value).map fun kv => (kv.1, kv.2.shift σ) := by
  intro values
  induction values with
  | nil => rfl
  | cons kv rest ih =>
    obtain ⟨k, v⟩ := kv
    simp only [List.map, mapSet]
    split
    · rfl
    · simp only [List.map, ih]

/-- Corresponding frames after the same update of corresponding frames. -/
theorem Heap.similar_set (σ : Shift) (heap heap' : Heap) (ref : Nat) (env : Environment)
    (h : Heap.Similar σ heap heap') (href : ref < heap.length) :
    Heap.Similar σ (heap.set ref env) (heap'.set (σ.frame ref) (env.shift σ)) := by
  obtain ⟨hframes, hlen, hn⟩ := h
  refine ⟨fun i => ?_, by simpa using hlen, by simpa using hn⟩
  by_cases hi : i = ref
  · subst hi
    rw [List.getElem?_set_self href,
      List.getElem?_set_self (by rw [hlen]; exact (σ.frame_lt _ _ hn).mpr href)]
    rfl
  · rw [List.getElem?_set_ne (Ne.symm hi),
      List.getElem?_set_ne (fun hc => hi (σ.frame_injective _ _ hc).symm)]
    exact hframes i

/-- Corresponding frames after corresponding new frames. -/
theorem Heap.similar_append (σ : Shift) (heap heap' : Heap) (env : Environment)
    (h : Heap.Similar σ heap heap') :
    Heap.Similar σ (heap ++ [env]) (heap' ++ [env.shift σ]) := by
  obtain ⟨hframes, hlen, hn⟩ := h
  refine ⟨fun i => ?_, by simp; omega, by simp; omega⟩
  rcases Nat.lt_trichotomy i heap.length with h | h | h
  · rw [List.getElem?_append_left h,
      List.getElem?_append_left (by rw [hlen]; exact (σ.frame_lt _ _ hn).mpr h)]
    exact hframes i
  · subst h
    rw [σ.frame_length _ hn, ← hlen]
    simp
  · have h1 : (heap ++ [env])[i]? = none := List.getElem?_eq_none (by simp; omega)
    have h2 : (heap' ++ [env.shift σ])[σ.frame i]? = none := by
      apply List.getElem?_eq_none
      have := (σ.frame_lt i (heap.length + 1) (by omega)).not.mpr (by omega)
      simp
      omega
    rw [h1, h2]
    rfl

theorem Heap.similar_lookup (σ : Shift) (heap heap' : Heap) (h : Heap.Similar σ heap heap')
    (ref : Nat) (env : Environment) (henv : heap[ref]? = some env) :
    heap'[σ.frame ref]? = some (env.shift σ) := by
  rw [h.1 ref, henv]
  rfl

theorem List.lt_length_of_getElem? {α : Type} (l : List α) (i : Nat) (a : α)
    (h : l[i]? = some a) : i < l.length := by
  rcases Nat.lt_or_ge i l.length with h1 | h1
  · exact h1
  · rw [List.getElem?_eq_none h1] at h
    cases h

/-- `Environment::get` finds the corresponding value in the corresponding
frames, whatever the number of frames it may follow. -/
theorem Environment.getFrom_similar (σ : Shift) (heap heap' : Heap)
    (h : Heap.Similar σ heap heap') (name : String) :
    ∀ (fuel fuel' ref : Nat), fuel ≤ fuel' →
      (∀ v, Environment.getFrom heap fuel ref name = .ok v →
        Environment.getFrom heap' fuel' (σ.frame ref) name = .ok (v.shift σ)) ∧
      (∀ what, Environment.getFrom heap fuel ref name = .runtime_error what →
        Environment.getFrom heap' fuel' (σ.frame ref) name = .runtime_error what) := by
  intro fuel
  induction fuel with
  | zero =>
    intro fuel' ref _
    exact ⟨fun v hv => by simp [Environment.getFrom] at hv,
      fun w hw => by simp [Environment.getFrom] at hw⟩
  | succ fuel ih =>
    intro fuel' ref hle
    cases fuel' with
    | zero => omega
    | succ fuel' =>
      simp only [Environment.getFrom]
      cases henv : heap[ref]? with
      | none => exact ⟨fun v hv => by simp at hv, fun w hw => by simp at hw⟩
      | some env =>
        rw [Heap.similar_lookup σ heap heap' h ref env henv]
        simp only [Environment.shift, mapFind_shift]
        cases hfind : mapFind env.values name with
        | some value =>
          simp only [Option.map_some']
          exact ⟨fun v hv => by cases hv; rfl, fun w hw => by cases hw⟩
        | none =>
          simp only [Option.map_none']
          cases hpar : env.enclosing with
          | none =>
            simp only [Option.map_none']
            exact ⟨fun v hv => (nomatch hv), fun w hw => by cases hw; rfl⟩
          | some parent =>
            simp only [Option.map_some']
            exact ih fuel' parent (by omega)

/-- `Environment::assign` updates the corresponding frame in the corresponding
frames. -/
theorem Environment.assignFrom_similar (σ : Shift) (heap heap' : Heap)
    (h : Heap.Similar σ heap heap') (name : String) (value : Value) :
    ∀ (fuel fuel' ref : Nat), fuel ≤ fuel' →
      (∀ heap1, Environment.assignFrom heap fuel ref name value = .ok heap1 →
        ∃ heap1', Environment.assignFrom heap' fuel' (σ.frame ref) name (value.shift σ) =
          .ok heap1' ∧ Heap.Similar σ heap1 heap1') ∧
      (∀ what, Environment.assignFrom heap fuel ref name value = .runtime_error what →
        Environment.assignFrom heap' fuel' (σ.frame ref) name (value.shift σ) =
          .runtime_error what) := by
  intro fuel
  induction fuel with
  | zero =>
    intro fuel' ref _
    exact ⟨fun v hv => by simp [Environment.assignFrom] at hv,
      fun w hw => by simp [Environment.assignFrom] at hw⟩
  | succ fuel ih =>
    intro fuel' ref hle
    cases fuel' with
    | zero => omega
    | succ fuel' =>
      simp only [Environment.assignFrom]
      cases henv : heap[ref]? with
      | none => exact ⟨fun v hv => by simp at hv, fun w hw => by simp at hw⟩
      | some env =>
        rw [Heap.similar_lookup σ heap heap' h ref env henv]
        simp only [Environment.shift, mapFind_shift]
        cases hfind : mapFind env.values name with
        | some old =>
          simp only [Option.map_some']
          refine ⟨fun heap1 hv => ?_, fun w hw => by cases hw⟩
          cases hv
          refine ⟨_, rfl, ?_⟩
          have := Heap.similar_set σ heap heap' ref
            { env with values := mapSet env.values name value } h
            (List.lt_length_of_getElem? _ _ _ henv)
          simpa only [Environment.shift, mapSet_shift] using this
        | none =>
          simp only [Option.map_none']
          cases hpar : env.enclosing with
          | none =>
            simp only [Option.map_none']
            exact ⟨fun v hv => (nomatch hv), fun w hw => by cases hw; rfl⟩
          | some parent =>
            simp only [Option.map_some']
            exact ih fuel' parent (by omega)

/-- `Environment::define` updates the corresponding frame in the corresponding
frames. -/
theorem Environment.define_similar (σ : Shift) (heap heap' : Heap)
    (h : Heap.Similar σ heap heap') (name : String) (value : Value) (ref : Nat) (heap1 : Heap)
    (hd : Environment.define heap ref name value = .ok heap1) :
    ∃ heap1', Environment.define heap' (σ.frame ref) name (value.shift σ) = .ok heap1' ∧
      Heap.Similar σ heap1 heap1' := by
  unfold Environment.define at hd ⊢
  cases henv : heap[ref]? with
  | none => simp [henv] at hd
  | some env =>
    rw [henv] at hd
    cases hd
    rw [Heap.similar_lookup σ heap heap' h ref env henv]
    refine ⟨_, rfl, ?_⟩
    have := Heap.similar_set σ heap heap' ref
      { env with values := mapSet env.values name value } h
      (List.lt_length_of_getElem? _ _ _ henv)
    simpa only [Environment.shift, mapSet_shift] using this

theorem Outcome.similar_ok {α : Type} (σ : Shift) (f : α → α) (a : α) (s : Interpreter)
    (r' : Outcome α) (h : Outcome.Similar σ f (.ok a s) r') :
    ∃ s', r' = .ok (f a) s' ∧ Interpreter.Similar σ s s' := by
  cases r' with
  | ok a' s' => exact ⟨s', by rw [h.1], h.2⟩
  | exception e s' => exact h.elim
  | fault => exact h.elim
  | timeout => exact h.elim

theorem Outcome.similar_exception {α : Type} (σ : Shift) (f : α → α) (e : Exception)
    (s : Interpreter) (r' : Outcome α) (h : Outcome.Similar σ f (.exception e s) r') :
    ∃ s', r' = .exception (e.shift σ) s' ∧ Interpreter.Similar σ s s' := by
  cases r' with
  | ok a' s' => exact h.elim
  | exception e' s' => exact ⟨s', by rw [h.1], h.2⟩
  | fault => exact h.elim
  | timeout => exact h.elim

theorem InterpM.simulates_pure {α : Type} (σ : Shift) (f : α → α) (a : α) :
    InterpM.Simulates σ f (pure a) (pure (f a)) :=
  fun _ _ h => ⟨rfl, h⟩

theorem InterpM.simulates_bind {α β : Type} (σ : Shift) (f : α → α) (g : β → β)
    (m m' : InterpM α) (k k' : α → InterpM β) (hm : InterpM.Simulates σ f m m')
    (hk : ∀ a, InterpM.Simulates σ g (k a) (k' (f a))) :
    InterpM.Simulates σ g (m >>= k) (m' >>= k') := by
  intro s s' h
  have h1 := hm s s' h
  change Outcome.Similar σ g (InterpM.bind m k s) (InterpM.bind m' k' s')
  unfold InterpM.bind
  cases hr : m s with
  | ok a s1 =>
    rw [hr] at h1
    obtain ⟨s1', hr', hs⟩ := Outcome.similar_ok σ f a s1 _ h1
    rw [hr']
    exact hk a s1 s1' hs
  | exception e s1 =>
    rw [hr] at h1
    obtain ⟨s1', hr', hs⟩ := Outcome.similar_exception σ f e s1 _ h1
    rw [hr']
    exact ⟨rfl, hs⟩
  | fault => trivial
  | timeout => trivial

theorem InterpM.simulates_ite {α : Type} (σ : Shift) (f : α → α) (c : Prop) [Decidable c]
    (a b a' b' : InterpM α) (ha : InterpM.Simulates σ f a a') (hb : InterpM.Simulates σ f b b') :
    InterpM.Simulates σ f (if c then a else b) (if c then a' else b') := by
  split
  · exact ha
  · exact hb

theorem InterpM.simulates_runtimeError {α : Type} (σ : Shift) (f : α → α) (what : String) :
    InterpM.Simulates σ f (InterpM.runtimeError what) (InterpM.runtimeError what) :=
  fun _ _ h => ⟨rfl, h⟩

theorem Interpreter.simulates_setLastValue (σ : Shift) (value : Value) :
    InterpM.Simulates σ (Value.shift σ) (Interpreter.setLastValue value)
      (Interpreter.setLastValue (value.shift σ)) :=
  fun _ _ h => ⟨rfl, h⟩

theorem Interpreter.simulates_lookup (σ : Shift) (name : String) :
    InterpM.Simulates σ (Value.shift σ) (Interpreter.lookup name) (Interpreter.lookup name) := by
  intro s s' h
  obtain ⟨hheap, hrest⟩ := h
  have henv : s'.environment = σ.frame s.environment := hrest.2.2.2.1
  have hg := Environment.getFrom_similar σ s.heap s'.heap hheap name s.heap.length
    s'.heap.length s.environment (by rw [hheap.2.1]; omega)
  unfold Interpreter.lookup Environment.get
  rw [henv]
  cases hr : Environment.getFrom s.heap s.heap.length s.environment name with
  | ok v =>
    rw [hg.1 v hr]
    exact ⟨rfl, hheap, hrest⟩
  | runtime_error what =>
    rw [hg.2 what hr]
    exact ⟨rfl, hheap, hrest⟩
  | fault => trivial
  | timeout => trivial

theorem InterpM.simulates_onEnvironment (σ : Shift) (op op' : Heap → Nat → EnvResult Heap)
    (hok : ∀ s s' heap1, Interpreter.Similar σ s s' → op s.heap s.environment = .ok heap1 →
      ∃ heap1', op' s'.heap s'.environment = .ok heap1' ∧ Heap.Similar σ heap1 heap1')
    (herr : ∀ s s' what, Interpreter.Similar σ s s' →
      op s.heap s.environment = .runtime_error what →
      op' s'.heap s'.environment = .runtime_error what) :
    InterpM.Simulates σ id (InterpM.onEnvironment op) (InterpM.onEnvironment op') := by
  intro s s' h
  unfold InterpM.onEnvironment
  cases hr : op s.heap s.environment with
  | ok heap1 =>
    obtain ⟨heap1', hd, hs⟩ := hok s s' heap1 h hr
    simp only [hd]
    exact ⟨rfl, hs, h.2⟩
  | runtime_error what =>
    simp only [herr s s' what h hr]
    exact ⟨rfl, h⟩
  | fault => trivial
  | timeout => trivial

theorem Interpreter.simulates_defineAt (σ : Shift) (ref : Nat) (name : String)
    (value : Value) :
    InterpM.Simulates σ id
      (InterpM.onEnvironment (fun heap _ => Environment.define heap ref name value))
      (InterpM.onEnvironment (fun heap _ =>
        Environment.define heap (σ.frame ref) name (value.shift σ))) := by
  apply InterpM.simulates_onEnvironment
  · intro s s' heap1 h hr
    exact Environment.define_similar σ s.heap s'.heap h.1 name value ref heap1 hr
  · intro s s' what _ hr
    simp only [Environment.define] at hr
    split at hr <;> cases hr

theorem Interpreter.simulates_define (σ : Shift) (name : String) (value : Value) :
    InterpM.Simulates σ id (Interpreter.define name value)
      (Interpreter.define name (value.shift σ)) := by
  apply InterpM.simulates_onEnvironment
  · intro s s' heap1 h hr
    have henv : s'.environment = σ.frame s.environment := h.2.2.2.2.1
    simp only [henv]
    exact Environment.define_similar σ s.heap s'.heap h.1 name value _ heap1 hr
  · intro s s' what _ hr
    simp only [Environment.define] at hr
    split at hr <;> cases hr

theorem Interpreter.simulates_assign (σ : Shift) (name : String) (value : Value) :
    InterpM.Simulates σ id (Interpreter.assign name value)
      (Interpreter.assign name (value.shift σ)) := by
  apply InterpM.simulates_onEnvironment
  · intro s s' heap1 h hr
    have henv : s'.environment = σ.frame s.environment := h.2.2.2.2.1
    simp only [henv]
    exact (Environment.assignFrom_similar σ s.heap s'.heap h.1 name value s.heap.length
      s'.heap.length s.environment (by rw [h.1.2.1]; omega)).1 heap1 hr
  · intro s s' what h hr
    have henv : s'.environment = σ.frame s.environment := h.2.2.2.2.1
    simp only [henv]
    exact (Environment.assignFrom_similar σ s.heap s'.heap h.1 name value s.heap.length
      s'.heap.length s.environment (by rw [h.1.2.1]; omega)).2 what hr

theorem Interpreter.simulates_checkNumberOperand (σ : Shift) (op : String) (value : Value) :
    InterpM.Simulates σ id (Interpreter.checkNumberOperand op value)
      (Interpreter.checkNumberOperand op (value.shift σ)) := by
  cases value <;> first
    | exact InterpM.simulates_pure σ id ()
    | exact InterpM.simulates_runtimeError σ id _

theorem Interpreter.simulates_checkNumberOperands (σ : Shift) (op : String)
    (left right : Value) :
    InterpM.Simulates σ id (Interpreter.checkNumberOperands op left right)
      (Interpreter.checkNumberOperands op (left.shift σ) (right.shift σ)) := by
  cases left <;> cases right <;> first
    | exact InterpM.simulates_pure σ id ()
    | exact InterpM.simulates_runtimeError σ id _

theorem Interpreter.simulates_visitBinary (σ : Shift) (leftNode : Expr) (op : String)
    (left right : Value) :
    InterpM.Simulates σ (Value.shift σ) (Interpreter.visitBinary leftNode op left right)
      (Interpreter.visitBinary leftNode op (left.shift σ) (right.shift σ)) := by
  unfold Interpreter.visitBinary
  simp only [Value.getDouble_shift, Interpreter.isEqual_shift, Interpreter.isTruthy_shift]
  have hplus : InterpM.Simulates σ (Value.shift σ)
      (match left, right with
        | .number a, .number b => Interpreter.setLastValue (.number (Number.add a b))
        | .string a, .string b => Interpreter.setLastValue (.string (a ++ b))
        | _, _ => InterpM.runtimeError "Operands must be two numbers or two strings")
      (match left.shift σ, right.shift σ with
        | .number a, .number b => Interpreter.setLastValue (.number (Number.add a b))
        | .string a, .string b => Interpreter.setLastValue (.string (a ++ b))
        | _, _ => InterpM.runtimeError "Operands must be two numbers or two strings") := by
    cases left <;> cases right <;> first
      | exact Interpreter.simulates_setLastValue σ _
      | exact InterpM.simulates_runtimeError σ _ _
  have hassign : InterpM.Simulates σ (Value.shift σ)
      (match leftNode with
        | .identifier name => do
          Interpreter.assign name right
          Interpreter.setLastValue right
        | _ => InterpM.runtimeError "Invalid assignment target")
      (match leftNode with
        | .identifier name => do
          Interpreter.assign name (right.shift σ)
          Interpreter.setLastValue (right.shift σ)
        | _ => InterpM.runtimeError "Invalid assignment target") := by
    cases leftNode <;> first
      | exact InterpM.simulates_runtimeError σ _ _
      | exact InterpM.simulates_bind σ id _ _ _ _ _ (Interpreter.simulates_assign σ _ _)
          (fun _ => Interpreter.simulates_setLastValue σ _)
  repeat' apply InterpM.simulates_ite
  all_goals first
    | exact hplus
    | exact hassign
    | exact Interpreter.simulates_setLastValue σ _
    | exact InterpM.simulates_runtimeError σ _ _
    | exact InterpM.simulates_bind σ id _ _ _ _ _
        (Interpreter.simulates_checkNumberOperands σ _ _ _)
        (fun _ => Interpreter.simulates_setLastValue σ _)
    | exact InterpM.simulates_bind σ id _ _ _ _ _
        (Interpreter.simulates_checkNumberOperands σ _ _ _)
        (fun _ => InterpM.simulates_ite σ _ _ _ _ _ _ (InterpM.simulates_runtimeError σ _ _)
          (Interpreter.simulates_setLastValue σ _))

theorem Interpreter.simulates_visitUnary (σ : Shift) (op : String) (right : Value) :
    InterpM.Simulates σ (Value.shift σ) (Interpreter.visitUnary op right)
      (Interpreter.visitUnary op (right.shift σ)) := by
  unfold Interpreter.visitUnary
  simp only [Value.getDouble_shift, Interpreter.isTruthy_shift]
  repeat' apply InterpM.simulates_ite
  all_goals first
    | exact Interpreter.simulates_setLastValue σ _
    | exact InterpM.simulates_runtimeError σ _ _
    | exact InterpM.simulates_bind σ id _ _ _ _ _
        (Interpreter.simulates_checkNumberOperand σ _ _)
        (fun _ => Interpreter.simulates_setLastValue σ _)

theorem Interpreter.simulates_callNative (σ : Shift) (name : String) (arguments : List Value) :
    InterpM.Simulates σ (Value.shift σ) (Interpreter.callNative name arguments)
      (Interpreter.callNative name (arguments.map (Value.shift σ))) := by
  intro s s' h
  have hclock : s'.clockReads = s.clockReads := h.2.2.2.2.2.1
  have hhost : s'.host = s.host := h.2.2.2.2.2.2.1
  unfold Interpreter.callNative
  simp only [hclock, hhost, List.head?_map]
  split
  · exact ⟨rfl, h.1, h.2.1, h.2.2.1, h.2.2.2.1, h.2.2.2.2.1, rfl, rfl, h.2.2.2.2.2.2.2⟩
  · split
    · cases hhead : arguments.head? with
      | none => trivial
      | some v => cases v <;> exact ⟨rfl, h⟩
    · split
      · cases hhead : arguments.head? with
        | none => trivial
        | some v => cases v <;> exact ⟨rfl, h⟩
      · trivial

theorem Interpreter.simulates_newEnvironment (σ : Shift) (parent : Nat) :
    InterpM.Simulates σ σ.frame (Interpreter.newEnvironment parent)
      (Interpreter.newEnvironment (σ.frame parent)) := by
  intro s s' h
  refine ⟨?_, ?_, h.2⟩
  · show s'.heap.length = σ.frame s.heap.length
    rw [σ.frame_length _ h.1.2.2, h.1.2.1]
  · exact Heap.similar_append σ s.heap s'.heap { enclosing := some parent, values := [] } h.1

theorem Interpreter.simulates_bindParameters (σ : Shift) (env : Nat) :
    ∀ (parameters : List String) (arguments : List Value),
      InterpM.Simulates σ id (Interpreter.bindParameters env parameters arguments)
        (Interpreter.bindParameters (σ.frame env) parameters
          (arguments.map (Value.shift σ))) := by
  intro parameters
  induction parameters with
  | nil =>
    intro arguments
    cases arguments <;> exact InterpM.simulates_pure σ id ()
  | cons p ps ih =>
    intro arguments
    cases arguments with
    | nil => exact fun _ _ _ => trivial
    | cons a as =>
      exact InterpM.simulates_bind σ id id _ _ _ _ (Interpreter.simulates_defineAt σ _ _ _)
        (fun _ => ih as)

theorem Interpreter.simulates_evaluateArguments (σ : Shift) (evaluate : Expr → InterpM Value) :
    ∀ (args : List Expr) (acc : List Value),
      (∀ e ∈ args, InterpM.Simulates σ (Value.shift σ) (evaluate e) (evaluate e)) →
      InterpM.Simulates σ (List.map (Value.shift σ))
        (Interpreter.evaluateArguments evaluate args acc)
        (Interpreter.evaluateArguments evaluate args (acc.map (Value.shift σ))) := by
  intro args
  induction args with
  | nil => intro acc _; exact InterpM.simulates_pure σ _ acc
  | cons a rest ih =>
    intro acc hev
    refine InterpM.simulates_bind σ (Value.shift σ) _ _ _ _ _
      (hev a (List.mem_cons_self _ _)) (fun v => ?_)
    have := ih (acc ++ [v]) (fun e he => hev e (List.mem_cons_of_mem _ he))
    simpa only [List.map_append, List.map_cons, List.map_nil] using this

theorem Interpreter.simulates_executeStatements (σ : Shift) (execute : Stmt → InterpM Unit) :
    ∀ (statements : List Stmt),
      (∀ s ∈ statements, InterpM.Simulates σ id (execute s) (execute s)) →
      InterpM.Simulates σ id (Interpreter.executeStatements execute statements)
        (Interpreter.executeStatements execute statements) := by
  intro statements
  induction statements with
  | nil => intro _; exact InterpM.simulates_pure σ id ()
  | cons s rest ih =>
    intro hex
    exact InterpM.simulates_bind σ id id _ _ _ _ (hex s (List.mem_cons_self _ _))
      (fun _ => ih (fun s hs => hex s (List.mem_cons_of_mem _ hs)))

theorem Stmt.plain_of_mem_statements (statements : List Stmt) (h : Stmt.plainList statements = true) :
    ∀ s ∈ statements, s.plain = true := by
  induction statements with
  | nil => intro s hs; cases hs
  | cons a rest ih =>
    simp only [Stmt.plainList, Bool.and_eq_true] at h
    intro s hs
    rcases List.mem_cons.mp hs with h1 | h1
    · rw [h1]; exact h.1
    · exact ih h.2 s h1

theorem Expr.plain_of_mem_arguments (es : List Expr) (h : Expr.plainList es = true) :
    ∀ e ∈ es, e.plain = true := by
  induction es with
  | nil => intro s hs; cases hs
  | cons a rest ih =>
    simp only [Expr.plainList, Bool.and_eq_true] at h
    intro s hs
    rcases List.mem_cons.mp hs with h1 | h1
    · rw [h1]; exact h.1
    · exact ih h.2 s h1

theorem Interpreter.similar_environment (σ : Shift) (s s' : Interpreter) (env env' : Nat)
    (h : Interpreter.Similar σ s s') (he : env' = σ.frame env) :
    Interpreter.Similar σ { s with environment := env } { s' with environment := env' } :=
  ⟨h.1, h.2.1, h.2.2.1, h.2.2.2.1, he, h.2.2.2.2.2⟩

theorem Interpreter.simulates_executeBlock (σ : Shift) (execute : Stmt → InterpM Unit)
    (statements : List Stmt) (env : Nat)
    (hex : ∀ s ∈ statements, InterpM.Simulates σ id (execute s) (execute s)) :
    InterpM.Simulates σ id (Interpreter.executeBlock execute statements env)
      (Interpreter.executeBlock execute statements (σ.frame env)) := by
  intro s s' h
  have henv : s'.environment = σ.frame s.environment := h.2.2.2.2.1
  have hin := Interpreter.simulates_executeStatements σ execute statements hex
    { s with environment := env } { s' with environment := σ.frame env }
    (Interpreter.similar_environment σ s s' env _ h rfl)
  unfold Interpreter.executeBlock
  cases hr : Interpreter.executeStatements execute statements { s with environment := env } with
  | ok u s1 =>
    rw [hr] at hin
    obtain ⟨s1', hr', hs⟩ := Outcome.similar_ok σ id u s1 _ hin
    simp only [hr']
    exact ⟨rfl, Interpreter.similar_environment σ s1 s1' _ _ hs henv⟩
  | exception e s1 =>
    rw [hr] at hin
    obtain ⟨s1', hr', hs⟩ := Outcome.similar_exception σ id e s1 _ hin
    simp only [hr']
    exact ⟨rfl, Interpreter.similar_environment σ s1 s1' _ _ hs henv⟩
  | fault => trivial
  | timeout => trivial

theorem Interpreter.simulates_callFunction (σ : Shift) (execute : Stmt → InterpM Unit)
    (parameters : List String) (body : List Stmt) (closure : Nat) (arguments : List Value)
    (hex : ∀ s ∈ body, InterpM.Simulates σ id (execute s) (execute s)) :
    InterpM.Simulates σ (Value.shift σ)
      (Interpreter.callFunction execute parameters body closure arguments)
      (Interpreter.callFunction execute parameters body (σ.frame closure)
        (arguments.map (Value.shift σ))) := by
  have hinner : InterpM.Simulates σ id
      (do
        let environment ← Interpreter.newEnvironment closure
        Interpreter.bindParameters environment parameters arguments
        Interpreter.executeBlock execute body environment : InterpM Unit)
      (do
        let environment ← Interpreter.newEnvironment (σ.frame closure)
        Interpreter.bindParameters environment parameters (arguments.map (Value.shift σ))
        Interpreter.executeBlock execute body environment : InterpM Unit) :=
    InterpM.simulates_bind σ σ.frame id _ _ _ _ (Interpreter.simulates_newEnvironment σ _)
      (fun env => InterpM.simulates_bind σ id id _ _ _ _
        (Interpreter.simulates_bindParameters σ env _ _)
        (fun _ => Interpreter.simulates_executeBlock σ execute body env hex))
  intro s s' h
  have hin := hinner s s' h
  unfold Interpreter.callFunction
  cases hr : (do
        let environment ← Interpreter.newEnvironment closure
        Interpreter.bindParameters environment parameters arguments
        Interpreter.executeBlock execute body environment : InterpM Unit) s with
  | ok u s1 =>
    rw [hr] at hin
    obtain ⟨s1', hr', hs⟩ := Outcome.similar_ok σ id u s1 _ hin
    simp only [hr']
    exact ⟨rfl, hs⟩
  | exception e s1 =>
    rw [hr] at hin
    obtain ⟨s1', hr', hs⟩ := Outcome.similar_exception σ id e s1 _ hin
    simp only [hr']
    cases e with
    | runtime_error what => exact ⟨rfl, hs⟩
    | ReturnException value => exact ⟨rfl, hs⟩
  | fault => trivial
  | timeout => trivial

theorem FluxCallable.arity_shift (σ : Shift) (callable : FluxCallable) :
    (callable.shift σ).arity = callable.arity := by
  cases callable <;> rfl

theorem FluxCallable.toString_shift (σ : Shift) (callable : FluxCallable) :
    (callable.shift σ).toString = callable.toString := by
  cases callable <;> rfl

theorem Interpreter.simulates_visitCall (σ : Shift) (execute : Stmt → InterpM Unit)
    (callee : Value) (arguments : List Value)
    (hex : ∀ s, s.plain = true → InterpM.Simulates σ id (execute s) (execute s)) :
    InterpM.Simulates σ (Value.shift σ) (Interpreter.visitCall execute callee arguments)
      (Interpreter.visitCall execute (callee.shift σ) (arguments.map (Value.shift σ))) := by
  cases callee with
  | callable ref =>
    intro s s' h
    have hfun := h.2.1 ref
    have hplain := h.2.2.2.2.2.2.2 ref
    simp only [Value.shift, Interpreter.visitCall]
    cases hc : s.callables[ref]? with
    | none => trivial
    | some callable =>
      rw [hc] at hfun
      simp only [hfun, Option.map_some', FluxCallable.arity_shift, List.length_map]
      split
      · exact ⟨rfl, h⟩
      · refine InterpM.simulates_bind σ (Value.shift σ) (Value.shift σ) _ _ _ _ ?_
          (fun v => Interpreter.simulates_setLastValue σ v) s s' h
        cases callable with
        | function name parameters body closure =>
          exact Interpreter.simulates_callFunction σ execute parameters body closure arguments
            (fun st hst => hex st (Stmt.plain_of_mem_statements body
              (hplain name parameters body closure hc) st hst))
        | native name paramCount => exact Interpreter.simulates_callNative σ name arguments
  | number n => exact InterpM.simulates_runtimeError σ _ _
  | string s => exact InterpM.simulates_runtimeError σ _ _
  | bool b => exact InterpM.simulates_runtimeError σ _ _
  | nil => exact InterpM.simulates_runtimeError σ _ _

theorem Interpreter.simulates_visitPrint (σ : Shift) (value : Value) :
    InterpM.Simulates σ id (Interpreter.visitPrint value)
      (Interpreter.visitPrint (value.shift σ)) := by
  intro s s' h
  unfold Interpreter.visitPrint
  have hstr : s'.stringify (value.shift σ) = s.stringify value ∨ s.stringify value = none := by
    cases value with
    | callable ref =>
      simp only [Interpreter.stringify, Value.shift, h.2.1 ref]
      cases s.callables[ref]? with
      | none => exact Or.inr rfl
      | some callable => exact Or.inl (by simp [FluxCallable.toString_shift])
    | number n => exact Or.inl rfl
    | string t => exact Or.inl rfl
    | bool b => exact Or.inl rfl
    | nil => exact Or.inl rfl
  rcases hstr with hstr | hstr
  · rw [hstr]
    cases s.stringify value with
    | none => trivial
    | some text => exact ⟨rfl, h⟩
  · rw [hstr]
    trivial

theorem Interpreter.simulates_visitFunctionDeclaration (σ : Shift) (name : String)
    (parameters : List String) (body : List Stmt) (hbody : Stmt.plainList body = true) :
    InterpM.Simulates σ id (Interpreter.visitFunctionDeclaration name parameters body)
      (Interpreter.visitFunctionDeclaration name parameters body) := by
  intro s s' h
  obtain ⟨hheap, hfun, hflen, hfn, henv, hclock, hhost, hplain⟩ := h
  have hnew : Interpreter.Similar σ
      { s with callables := s.callables ++ [.function name parameters body s.environment] }
      { s' with callables := s'.callables ++ [.function name parameters body s'.environment] } := by
    refine ⟨hheap, fun c => ?_, by simp; omega, by simp; omega, henv, hclock, hhost, ?_⟩
    · show (s'.callables ++ [_])[σ.function c]? = ((s.callables ++ [_])[c]?).map _
      rcases Nat.lt_trichotomy c s.callables.length with hc | hc | hc
      · have hc' : σ.function c < s'.callables.length := by
          rw [hflen]
          unfold Shift.function
          split <;> omega
        rw [List.getElem?_append_left hc, List.getElem?_append_left hc']
        exact hfun c
      · subst hc
        rw [σ.function_length _ hfn, ← hflen]
        simp [FluxCallable.shift, henv]
      · have h1 : (s.callables ++ [FluxCallable.function name parameters body s.environment])[c]?
            = none := List.getElem?_eq_none (by simp; omega)
        have h2 : (s'.callables ++
            [FluxCallable.function name parameters body s'.environment])[σ.function c]? = none := by
          apply List.getElem?_eq_none
          simp only [List.length_append, List.length_singleton, hflen]
          unfold Shift.function
          split <;> omega
        rw [h1, h2]
        rfl
    · intro c n ps b cl hc
      rcases Nat.lt_or_ge c s.callables.length with hlt | hge
      · rw [List.getElem?_append_left hlt] at hc
        exact hplain c n ps b cl hc
      · rcases Nat.eq_or_lt_of_le hge with heq | hgt
        · subst heq
          simp at hc
          obtain ⟨_, _, h3, _⟩ := hc
          rw [← h3]
          exact hbody
        · have : (s.callables ++
              [FluxCallable.function name parameters body s.environment])[c]? = none :=
            List.getElem?_eq_none (by simp; omega)
          rw [this] at hc
          cases hc
  have := Interpreter.simulates_define σ name (.callable s.callables.length) _ _ hnew
  unfold Interpreter.visitFunctionDeclaration
  simp only [Value.shift, σ.function_length _ hfn, ← hflen] at this
  exact this

theorem InterpM.simulates_return (σ : Shift) (v : Value) :
    InterpM.Simulates σ id
      (fun st => Outcome.exception (Exception.ReturnException v) st : InterpM Unit)
      (fun st => Outcome.exception (Exception.ReturnException (v.shift σ)) st) :=
  fun _ _ h => ⟨rfl, h⟩

/-- In corresponding states, every evaluation of a plain expression, every
execution of a plain statement and every loop of the second run does what the
first run does, with corresponding results, whenever the first run ends. -/
theorem Interpreter.simulates_all (σ : Shift) :
    ∀ fuel : Nat,
      (∀ e, e.plain = true → InterpM.Simulates σ (Value.shift σ)
        (Interpreter.evaluate fuel e) (Interpreter.evaluate fuel e)) ∧
      (∀ s, s.plain = true → InterpM.Simulates σ id
        (Interpreter.execute fuel s) (Interpreter.execute fuel s)) ∧
      (∀ c b, c.plain = true → b.plain = true → InterpM.Simulates σ id
        (Interpreter.whileLoop fuel c b) (Interpreter.whileLoop fuel c b)) := by
  intro fuel
  induction fuel with
  | zero =>
    refine ⟨?_, ?_, ?_⟩
    · intro e _ s s' _
      simp only [Interpreter.evaluate]
      trivial
    · intro st _ s s' _
      simp only [Interpreter.execute]
      trivial
    · intro c b _ _ s s' _
      simp only [Interpreter.whileLoop]
      trivial
  | succ fuel ih =>
    obtain ⟨ihe, ihs, ihw⟩ := ih
    refine ⟨?_, ?_, ?_⟩
    · intro e hp
      cases e with
      | literal value =>
        simp only [Interpreter.evaluate]
        cases value with
        | callable ref => simp [Expr.plain] at hp
        | number n => exact Interpreter.simulates_setLastValue σ _
        | string t => exact Interpreter.simulates_setLastValue σ _
        | bool b => exact Interpreter.simulates_setLastValue σ _
        | nil => exact Interpreter.simulates_setLastValue σ _
      | identifier name =>
        simp only [Interpreter.evaluate]
        exact InterpM.simulates_bind σ _ _ _ _ _ _ (Interpreter.simulates_lookup σ _)
          (fun _ => Interpreter.simulates_setLastValue σ _)
      | binary left op right =>
        simp only [Expr.plain, Bool.and_eq_true] at hp
        simp only [Interpreter.evaluate]
        exact InterpM.simulates_bind σ _ _ _ _ _ _ (ihe _ hp.1) (fun _ =>
          InterpM.simulates_bind σ _ _ _ _ _ _ (ihe _ hp.2)
            (fun _ => Interpreter.simulates_visitBinary σ _ _ _ _))
      | unary op operand =>
        simp only [Expr.plain] at hp
        simp only [Interpreter.evaluate]
        exact InterpM.simulates_bind σ _ _ _ _ _ _ (ihe _ hp)
          (fun _ => Interpreter.simulates_visitUnary σ _ _)
      | call callee arguments =>
        simp only [Expr.plain, Bool.and_eq_true] at hp
        simp only [Interpreter.evaluate]
        exact InterpM.simulates_bind σ _ _ _ _ _ _ (ihe _ hp.1) (fun _ =>
          InterpM.simulates_bind σ _ _ _ _ _ _
            (Interpreter.simulates_evaluateArguments σ _ arguments []
              (fun e he => ihe e (Expr.plain_of_mem_arguments arguments hp.2 e he)))
            (fun _ => Interpreter.simulates_visitCall σ _ _ _ ihs))
    · intro st hp
      cases st with
      | expression e =>
        simp only [Stmt.plain] at hp
        simp only [Interpreter.execute]
        exact InterpM.simulates_bind σ _ _ _ _ _ _ (ihe _ hp)
          (fun _ => InterpM.simulates_pure σ id ())
      | varDeclaration name init =>
        simp only [Interpreter.execute]
        cases init with
        | none =>
          exact InterpM.simulates_bind σ (Value.shift σ) _ _ _ _ _
            (InterpM.simulates_pure σ (Value.shift σ) Value.nil)
            (fun _ => Interpreter.simulates_define σ _ _)
        | some e =>
          simp only [Stmt.plain] at hp
          exact InterpM.simulates_bind σ _ _ _ _ _ _ (ihe e hp)
            (fun _ => Interpreter.simulates_define σ _ _)
      | block statements =>
        simp only [Stmt.plain] at hp
        simp only [Interpreter.execute]
        refine InterpM.simulates_bind σ σ.frame _ _ _ _ _ ?_ (fun env =>
          Interpreter.simulates_executeBlock σ _ statements env
            (fun st hst => ihs st (Stmt.plain_of_mem_statements statements hp st hst)))
        intro s s' h
        have henv : s'.environment = σ.frame s.environment := h.2.2.2.2.1
        have := Interpreter.simulates_newEnvironment σ s.environment s s' h
        rw [← henv] at this
        exact this
      | ifStatement condition thenBranch elseBranch =>
        simp only [Interpreter.execute]
        cases elseBranch with
        | none =>
          simp only [Stmt.plain, Bool.and_eq_true, and_true] at hp
          refine InterpM.simulates_bind σ (Value.shift σ) _ _ _ _ _ (ihe _ hp.1) (fun c => ?_)
          simp only [Interpreter.isTruthy_shift]
          split
          · exact ihs _ hp.2
          · exact InterpM.simulates_pure σ id ()
        | some st =>
          simp only [Stmt.plain, Bool.and_eq_true] at hp
          refine InterpM.simulates_bind σ (Value.shift σ) _ _ _ _ _ (ihe _ hp.1.1) (fun c => ?_)
          simp only [Interpreter.isTruthy_shift]
          split
          · exact ihs _ hp.1.2
          · exact ihs st hp.2
      | whileStatement condition body =>
        simp only [Stmt.plain, Bool.and_eq_true] at hp
        simp only [Interpreter.execute]
        exact ihw _ _ hp.1 hp.2
      | functionDeclaration name parameters body =>
        simp only [Stmt.plain] at hp
        simp only [Interpreter.execute]
        exact Interpreter.simulates_visitFunctionDeclaration σ _ _ _ hp
      | returnStatement value =>
        simp only [Interpreter.execute]
        cases value with
        | none =>
          exact InterpM.simulates_bind σ (Value.shift σ) _ _ _ _ _
            (InterpM.simulates_pure σ (Value.shift σ) Value.nil)
            (fun v => InterpM.simulates_return σ v)
        | some e =>
          simp only [Stmt.plain] at hp
          exact InterpM.simulates_bind σ _ _ _ _ _ _ (ihe e hp)
            (fun v => InterpM.simulates_return σ v)
      | print e =>
        simp only [Stmt.plain] at hp
        simp only [Interpreter.execute]
        exact InterpM.simulates_bind σ _ _ _ _ _ _ (ihe _ hp)
          (fun _ => Interpreter.simulates_visitPrint σ _)
    · intro c b hc hb
      simp only [Interpreter.whileLoop]
      refine InterpM.simulates_bind σ (Value.shift σ) _ _ _ _ _ (ihe _ hc) (fun v => ?_)
      simp only [Interpreter.isTruthy_shift]
      split
      · exact InterpM.simulates_bind σ id _ _ _ _ _ (ihs _ hb) (fun _ => ihw _ _ hc hb)
      · exact InterpM.simulates_pure σ id ()

/-! ## Function objects are never changed -/

theorem Interpreter.keeps_of_eq (st st' : Interpreter) (hc : st'.callables = st.callables)
    (hh : st'.host = st.host) : Interpreter.Keeps st st' :=
  ⟨⟨[], by simp [hc]⟩, hh⟩

theorem Interpreter.keeps_trans (a b c : Interpreter) (h1 : Interpreter.Keeps a b)
    (h2 : Interpreter.Keeps b c) : Interpreter.Keeps a c := by
  obtain ⟨⟨m1, hm1⟩, hh1⟩ := h1
  obtain ⟨⟨m2, hm2⟩, hh2⟩ := h2
  exact ⟨⟨m1 ++ m2, by rw [hm2, hm1, List.append_assoc]⟩, hh2.trans hh1⟩

theorem InterpM.keeps_pure {α : Type} (a : α) : InterpM.Keeps (pure a : InterpM α) := by
  intro st st' h
  change some st = some st' at h
  cases h
  exact Interpreter.keeps_of_eq _ _ rfl rfl

theorem InterpM.keeps_ite {α : Type} (c : Prop) [Decidable c] (a b : InterpM α)
    (ha : InterpM.Keeps a) (hb : InterpM.Keeps b) :
    InterpM.Keeps (if c then a else b) := by
  split
  · exact ha
  · exact hb

theorem InterpM.keeps_bind {α β : Type} (m : InterpM α) (f : α → InterpM β)
    (hm : InterpM.Keeps m) (hf : ∀ a, InterpM.Keeps (f a)) :
    InterpM.Keeps (m >>= f) := by
  intro st st' h
  have hm' := hm st
  change (InterpM.bind m f st).finalState? = some st' at h
  unfold InterpM.bind at h
  cases hr : m st with
  | ok a st1 =>
    rw [hr] at h hm'
    exact Interpreter.keeps_trans _ _ _ (hm' st1 rfl) (hf a st1 st' h)
  | exception e st1 =>
    rw [hr] at h hm'
    simp only [Outcome.finalState?, Option.some.injEq] at h
    subst h
    exact hm' st1 rfl
  | fault => rw [hr] at h; cases h
  | timeout => rw [hr] at h; cases h

theorem InterpM.keeps_runtimeError {α : Type} (what : String) :
    InterpM.Keeps (InterpM.runtimeError what : InterpM α) := by
  intro st st' h
  change some st = some st' at h
  cases h
  exact Interpreter.keeps_of_eq _ _ rfl rfl

theorem Interpreter.keeps_setLastValue (value : Value) :
    InterpM.Keeps (Interpreter.setLastValue value) := by
  intro st st' h
  change some { st with lastValue := value } = some st' at h
  cases h
  exact Interpreter.keeps_of_eq _ _ rfl rfl

theorem Interpreter.keeps_lookup (name : String) :
    InterpM.Keeps (Interpreter.lookup name) := by
  intro st st' h
  unfold Interpreter.lookup at h
  cases hr : Environment.get st.heap st.environment name <;> rw [hr] at h <;>
    simp [Outcome.finalState?] at h <;> subst h <;> exact Interpreter.keeps_of_eq _ _ rfl rfl

theorem Interpreter.keeps_defineAt (ref : Nat) (name : String) (value : Value) :
    InterpM.Keeps (InterpM.onEnvironment (fun heap _ => Environment.define heap ref name value)) := by
  intro st st' h
  unfold InterpM.onEnvironment Environment.define at h
  cases henv : st.heap[ref]? with
  | none => simp [henv, Outcome.finalState?] at h
  | some env =>
    simp [henv, Outcome.finalState?] at h
    subst h
    exact Interpreter.keeps_of_eq _ _ rfl rfl

theorem Interpreter.keeps_define (name : String) (value : Value) :
    InterpM.Keeps (Interpreter.define name value) := by
  intro st st' h
  exact Interpreter.keeps_defineAt st.environment name value st st' h

theorem Interpreter.keeps_assign (name : String) (value : Value) :
    InterpM.Keeps (Interpreter.assign name value) := by
  intro st st' h
  unfold Interpreter.assign InterpM.onEnvironment Environment.assign at h
  cases hr : Environment.assignFrom st.heap st.heap.length st.environment name value with
  | ok heap' =>
    obtain ⟨i, env, henv, hheap⟩ := Environment.assignFrom_shape _ _ _ _ _ _ hr
    simp [hr, Outcome.finalState?] at h
    subst h
    subst hheap
    exact Interpreter.keeps_of_eq _ _ rfl rfl
  | runtime_error what =>
    simp [hr, Outcome.finalState?] at h
    subst h
    exact Interpreter.keeps_of_eq _ _ rfl rfl
  | fault => simp [hr, Outcome.finalState?] at h
  | timeout => simp [hr, Outcome.finalState?] at h

theorem Interpreter.keeps_checkNumberOperand (op : String) (v : Value) :
    InterpM.Keeps (Interpreter.checkNumberOperand op v) := by
  cases v <;> exact InterpM.keeps_pure ()

theorem Interpreter.keeps_checkNumberOperands (op : String) (l r : Value) :
    InterpM.Keeps (Interpreter.checkNumberOperands op l r) := by
  cases l <;> cases r <;> exact InterpM.keeps_pure ()

theorem Interpreter.keeps_checked (op : String) (l r : Value) (f : Unit → InterpM Value)
    (hf : ∀ u, InterpM.Keeps (f u)) :
    InterpM.Keeps (Interpreter.checkNumberOperands op l r >>= f) :=
  InterpM.keeps_bind _ _ (Interpreter.keeps_checkNumberOperands _ _ _) hf

theorem Interpreter.keeps_visitBinary (leftNode : Expr) (op : String) (l r : Value) :
    InterpM.Keeps (Interpreter.visitBinary leftNode op l r) := by
  unfold Interpreter.visitBinary
  repeat' apply InterpM.keeps_ite
  all_goals first
    | exact Interpreter.keeps_setLastValue _
    | exact InterpM.keeps_runtimeError _
    | exact Interpreter.keeps_checked _ _ _ _ (fun _ => Interpreter.keeps_setLastValue _)
    | exact Interpreter.keeps_checked _ _ _ _ (fun _ =>
        InterpM.keeps_ite _ _ _ (InterpM.keeps_runtimeError _)
          (Interpreter.keeps_setLastValue _))
    | skip
  · cases leftNode <;> first
      | exact InterpM.keeps_runtimeError _
      | exact InterpM.keeps_bind _ _ (Interpreter.keeps_assign _ _)
          (fun _ => Interpreter.keeps_setLastValue _)
  · cases l <;> cases r <;> first
      | exact Interpreter.keeps_setLastValue _
      | exact InterpM.keeps_runtimeError _

theorem Interpreter.keeps_visitUnary (op : String) (r : Value) :
    InterpM.Keeps (Interpreter.visitUnary op r) := by
  unfold Interpreter.visitUnary
  repeat' apply InterpM.keeps_ite
  all_goals first
    | exact Interpreter.keeps_setLastValue _
    | exact InterpM.keeps_runtimeError _
    | exact InterpM.keeps_bind _ _ (Interpreter.keeps_checkNumberOperand _ _)
        (fun _ => Interpreter.keeps_setLastValue _)

theorem Interpreter.keeps_callNative (name : String) (arguments : List Value) :
    InterpM.Keeps (Interpreter.callNative name arguments) := by
  intro st st' h
  unfold Interpreter.callNative at h
  repeat' split at h
  all_goals
    simp [Outcome.finalState?] at h
  all_goals
    subst h
    exact Interpreter.keeps_of_eq _ _ rfl rfl

theorem Interpreter.keeps_visitPrint (value : Value) :
    InterpM.Keeps (Interpreter.visitPrint value) := by
  intro st st' h
  unfold Interpreter.visitPrint at h
  split at h <;> simp [Outcome.finalState?] at h
  subst h
  exact Interpreter.keeps_of_eq _ _ rfl rfl

theorem Interpreter.keeps_newEnvironment (parent : Nat) :
    InterpM.Keeps (Interpreter.newEnvironment parent) := by
  intro st st' h
  simp [Interpreter.newEnvironment, Outcome.finalState?] at h
  subst h
  exact Interpreter.keeps_of_eq _ _ rfl rfl

theorem Interpreter.keeps_visitFunctionDeclaration (name : String)
    (parameters : List String) (body : List Stmt) :
    InterpM.Keeps (Interpreter.visitFunctionDeclaration name parameters body) := by
  intro st st' h
  have h1 := Interpreter.keeps_define name (.callable st.callables.length)
    { st with callables := st.callables ++ [.function name parameters body st.environment] }
    st' h
  exact Interpreter.keeps_trans st
    { st with callables := st.callables ++ [.function name parameters body st.environment] }
    st' ⟨⟨_, rfl⟩, rfl⟩ h1

theorem Interpreter.keeps_bindParameters (env : Nat) :
    ∀ (parameters : List String) (arguments : List Value),
      InterpM.Keeps (Interpreter.bindParameters env parameters arguments) := by
  intro parameters
  induction parameters with
  | nil =>
    intro arguments
    cases arguments <;> exact InterpM.keeps_pure ()
  | cons p ps ih =>
    intro arguments
    cases arguments with
    | nil =>
      intro st st' h
      simp [Interpreter.bindParameters, Outcome.finalState?] at h
    | cons a as =>
      exact InterpM.keeps_bind _ _ (Interpreter.keeps_defineAt _ _ _) (fun _ => ih as)

theorem Interpreter.keeps_evaluateArguments (evaluate : Expr → InterpM Value)
    (hev : ∀ e, InterpM.Keeps (evaluate e)) :
    ∀ (args : List Expr) (acc : List Value),
      InterpM.Keeps (Interpreter.evaluateArguments evaluate args acc) := by
  intro args
  induction args with
  | nil => intro acc; exact InterpM.keeps_pure acc
  | cons a rest ih =>
    intro acc
    exact InterpM.keeps_bind _ _ (hev a) (fun _ => ih _)

theorem Interpreter.keeps_executeStatements (execute : Stmt → InterpM Unit)
    (hex : ∀ s, InterpM.Keeps (execute s)) :
    ∀ (statements : List Stmt),
      InterpM.Keeps (Interpreter.executeStatements execute statements) := by
  intro statements
  induction statements with
  | nil => exact InterpM.keeps_pure ()
  | cons s rest ih => exact InterpM.keeps_bind _ _ (hex s) (fun _ => ih)

theorem Interpreter.keeps_executeBlock (execute : Stmt → InterpM Unit)
    (hex : ∀ s, InterpM.Keeps (execute s)) (statements : List Stmt) (env : Nat) :
    InterpM.Keeps (Interpreter.executeBlock execute statements env) := by
  intro st st' h
  have hin := Interpreter.keeps_executeStatements execute hex statements
    { st with environment := env }
  unfold Interpreter.executeBlock at h
  cases hr : Interpreter.executeStatements execute statements { st with environment := env } with
  | ok u st1 =>
    rw [hr] at hin
    simp [hr, Outcome.finalState?] at h
    subst h
    exact hin st1 rfl
  | exception e st1 =>
    rw [hr] at hin
    simp [hr, Outcome.finalState?] at h
    subst h
    exact hin st1 rfl
  | fault => simp [hr, Outcome.finalState?] at h
  | timeout => simp [hr, Outcome.finalState?] at h

theorem Interpreter.keeps_callFunction (execute : Stmt → InterpM Unit)
    (hex : ∀ s, InterpM.Keeps (execute s)) (parameters : List String) (body : List Stmt)
    (closure : Nat) (arguments : List Value) :
    InterpM.Keeps (Interpreter.callFunction execute parameters body closure arguments) := by
  have hinner : InterpM.Keeps (do
      let environment ← Interpreter.newEnvironment closure
      Interpreter.bindParameters environment parameters arguments
      Interpreter.executeBlock execute body environment : InterpM Unit) :=
    InterpM.keeps_bind _ _ (Interpreter.keeps_newEnvironment _) (fun _ =>
      InterpM.keeps_bind _ _ (Interpreter.keeps_bindParameters _ _ _) (fun _ =>
        Interpreter.keeps_executeBlock execute hex body _))
  intro st st' h
  have hin := hinner st
  unfold Interpreter.callFunction at h
  split at h <;> rename_i heq <;> rw [heq] at hin <;>
    simp [Outcome.finalState?] at h
  all_goals
    subst h
    exact hin _ rfl

theorem Interpreter.keeps_visitCall (execute : Stmt → InterpM Unit)
    (hex : ∀ s, InterpM.Keeps (execute s)) (callee : Value) (arguments : List Value) :
    InterpM.Keeps (Interpreter.visitCall execute callee arguments) := by
  unfold Interpreter.visitCall
  split
  · intro st st' h
    simp only at h
    split at h
    · cases h
    · rename_i callable _
      split at h
      · simp [Outcome.finalState?] at h
        subst h
        exact Interpreter.keeps_of_eq _ _ rfl rfl
      · have hc : InterpM.Keeps (Interpreter.callCallable execute callable arguments) := by
          unfold Interpreter.callCallable
          split
          · exact Interpreter.keeps_callFunction execute hex _ _ _ _
          · exact Interpreter.keeps_callNative _ _
        exact InterpM.keeps_bind _ _ hc (fun _ => Interpreter.keeps_setLastValue _) st st' h
  · exact InterpM.keeps_runtimeError _

/-- Every evaluation of an expression, every execution of a statement and every
loop keeps the function objects that exist, adding new ones after them, and
keeps the host. -/
theorem Interpreter.keeps_all :
    ∀ fuel : Nat,
      (∀ e, InterpM.Keeps (Interpreter.evaluate fuel e)) ∧
      (∀ s, InterpM.Keeps (Interpreter.execute fuel s)) ∧
      (∀ c b, InterpM.Keeps (Interpreter.whileLoop fuel c b)) := by
  intro fuel
  induction fuel with
  | zero =>
    refine ⟨?_, ?_, ?_⟩
    · intro e st st' h
      simp [Interpreter.evaluate, Outcome.finalState?] at h
    · intro s st st' h
      simp [Interpreter.execute, Outcome.finalState?] at h
    · intro c b st st' h
      simp [Interpreter.whileLoop, Outcome.finalState?] at h
  | succ fuel ih =>
    obtain ⟨ihe, ihs, ihw⟩ := ih
    refine ⟨?_, ?_, ?_⟩
    · intro e
      cases e with
      | literal value =>
        simp only [Interpreter.evaluate]
        exact Interpreter.keeps_setLastValue _
      | identifier name =>
        simp only [Interpreter.evaluate]
        exact InterpM.keeps_bind _ _ (Interpreter.keeps_lookup _)
          (fun _ => Interpreter.keeps_setLastValue _)
      | binary left op right =>
        simp only [Interpreter.evaluate]
        exact InterpM.keeps_bind _ _ (ihe _) (fun _ =>
          InterpM.keeps_bind _ _ (ihe _) (fun _ => Interpreter.keeps_visitBinary _ _ _ _))
      | unary op operand =>
        simp only [Interpreter.evaluate]
        exact InterpM.keeps_bind _ _ (ihe _) (fun _ => Interpreter.keeps_visitUnary _ _)
      | call callee arguments =>
        simp only [Interpreter.evaluate]
        exact InterpM.keeps_bind _ _ (ihe _) (fun _ =>
          InterpM.keeps_bind _ _ (Interpreter.keeps_evaluateArguments _ ihe _ _)
            (fun _ => Interpreter.keeps_visitCall _ ihs _ _))
    · intro s
      cases s with
      | expression e =>
        simp only [Interpreter.execute]
        exact InterpM.keeps_bind _ _ (ihe _) (fun _ => InterpM.keeps_pure ())
      | varDeclaration name init =>
        simp only [Interpreter.execute]
        cases init with
        | none =>
          exact InterpM.keeps_bind _ _ (InterpM.keeps_pure _)
            (fun _ => Interpreter.keeps_define _ _)
        | some e =>
          exact InterpM.keeps_bind _ _ (ihe e) (fun _ => Interpreter.keeps_define _ _)
      | block statements =>
        simp only [Interpreter.execute]
        refine InterpM.keeps_bind _ _ ?_ (fun _ =>
          Interpreter.keeps_executeBlock _ ihs _ _)
        intro st
        exact Interpreter.keeps_newEnvironment _ st
      | ifStatement condition thenBranch elseBranch =>
        simp only [Interpreter.execute]
        refine InterpM.keeps_bind _ _ (ihe _) (fun c => ?_)
        split
        · exact ihs _
        · cases elseBranch with
          | none => exact InterpM.keeps_pure ()
          | some s => exact ihs s
      | whileStatement condition body =>
        simp only [Interpreter.execute]
        exact ihw _ _
      | functionDeclaration name parameters body =>
        simp only [Interpreter.execute]
        exact Interpreter.keeps_visitFunctionDeclaration _ _ _
      | returnStatement value =>
        simp only [Interpreter.execute]
        have hthrow : ∀ v : Value, InterpM.Keeps
            (fun st => Outcome.exception (Exception.ReturnException v) st : InterpM Unit) := by
          intro v st st' h
          change some st = some st' at h
          cases h
          exact Interpreter.keeps_of_eq _ _ rfl rfl
        cases value with
        | none => exact InterpM.keeps_bind _ _ (InterpM.keeps_pure _) hthrow
        | some e => exact InterpM.keeps_bind _ _ (ihe e) hthrow
      | print e =>
        simp only [Interpreter.execute]
        exact InterpM.keeps_bind _ _ (ihe _) (fun _ => Interpreter.keeps_visitPrint _)
    · intro c b
      simp only [Interpreter.whileLoop]
      refine InterpM.keeps_bind _ _ (ihe _) (fun v => ?_)
      split
      · exact InterpM.keeps_bind _ _ (ihs _) (fun _ => ihw _ _)
      · exact InterpM.keeps_pure ()

theorem Environment.shift_frame_of_closed (σ : Shift) (env : Environment)
    (h : env.closed σ.frames σ.functions = true) : env.shift σ = env := by
  obtain ⟨enclosing, values⟩ := env
  simp only [Environment.closed, Bool.and_eq_true, List.all_eq_true] at h
  obtain ⟨h1, h2⟩ := h
  have he : enclosing.map σ.frame = enclosing := by
    cases enclosing with
    | none => rfl
    | some parent =>
      simp only [decide_eq_true_eq] at h1
      simp [Shift.frame, h1]
  have hv : values.map (fun kv => (kv.1, kv.2.shift σ)) = values := by
    have : ∀ kv ∈ values, (fun kv : String × Value => (kv.1, kv.2.shift σ)) kv = id kv := by
      intro kv hkv
      simp only [id, Value.shift_of_inRange σ kv.2 (h2 kv hkv)]
    rw [List.map_congr_left this, List.map_id]
  simp only [Environment.shift, he, hv]

theorem FluxCallable.shift_function_of_closed (σ : Shift) (callable : FluxCallable)
    (h : callable.closed σ.frames = true) : callable.shift σ = callable := by
  cases callable with
  | native name paramCount => rfl
  | function name parameters body closure =>
    simp only [FluxCallable.closed, Bool.and_eq_true, decide_eq_true_eq] at h
    simp [FluxCallable.shift, Shift.frame, h.1]

theorem Interpreter.isEqual_self (v : Value) (h : ∀ s, v ≠ .number (.nan s)) :
    Interpreter.isEqual v v = true := by
  cases v with
  | number n =>
    cases n with
    | nan s => exact absurd rfl (h s)
    | inf s => cases s <;> rfl
    | negZero => rfl
    | real q => exact (Number.eq_real q q).mpr rfl
  | string s => simp [Interpreter.isEqual]
  | bool b => simp [Interpreter.isEqual]
  | nil => rfl
  | callable c => simp [Interpreter.isEqual]

/-- A state reached by an evaluation that left the frames and the clock as they
were corresponds to the state before it. -/
theorem Interpreter.similar_after (fuel : Nat) (e : Expr) (st st1 : Interpreter) (v : Value)
    (hclosed : st.closed = true)
    (hev : Interpreter.evaluate fuel e st = .ok v st1)
    (hframes : ∀ i, i < st.heap.length → st1.heap[i]? = st.heap[i]?)
    (hclock : st1.clockReads = st.clockReads) :
    Interpreter.Similar (st.shiftTo st1) st st1 := by
  have hfin : (Interpreter.evaluate fuel e st).finalState? = some st1 := by rw [hev]; rfl
  have hgrow := (Interpreter.grows_all fuel).1 e st st1 hfin
  obtain ⟨⟨more, hmore⟩, hhost⟩ := (Interpreter.keeps_all fuel).1 e st st1 hfin
  have henv := ((Interpreter.preserves_all fuel).1 e st st1 hfin).1
  simp only [Interpreter.closed, Bool.and_eq_true, List.all_eq_true, decide_eq_true_eq]
    at hclosed
  obtain ⟨⟨hheap, hcall⟩, hcur⟩ := hclosed
  have hlen : st.heap.length ≤ st1.heap.length := hgrow.1
  have hclen : st1.callables.length = st.callables.length + more.length := by
    rw [hmore, List.length_append]
  refine ⟨⟨fun i => ?_, ?_, Nat.le_refl _⟩, fun c => ?_, ?_, Nat.le_refl _, ?_, hclock, hhost,
    ?_⟩
  · rcases Nat.lt_or_ge i st.heap.length with hi | hi
    · have h1 : (st.shiftTo st1).frame i = i := by simp [Shift.frame, Interpreter.shiftTo, hi]
      rw [h1, hframes i hi, List.getElem?_eq_getElem hi]
      simp only [Option.map_some', Option.some.injEq]
      exact (Environment.shift_frame_of_closed _ _ (hheap _ (List.getElem_mem _))).symm
    · have h1 : (st.shiftTo st1).frame i = i + (st1.heap.length - st.heap.length) := by
        simp [Shift.frame, Interpreter.shiftTo, Nat.not_lt.mpr hi]
      rw [h1, List.getElem?_eq_none hi, List.getElem?_eq_none (by omega)]
      rfl
  · show st1.heap.length = st.heap.length + (st1.heap.length - st.heap.length)
    omega
  · rcases Nat.lt_or_ge c st.callables.length with hc | hc
    · have h1 : (st.shiftTo st1).function c = c := by
        simp [Shift.function, Interpreter.shiftTo, hc]
      rw [h1, hmore, List.getElem?_append_left hc, List.getElem?_eq_getElem hc]
      simp only [Option.map_some', Option.some.injEq]
      exact (FluxCallable.shift_function_of_closed _ _ (hcall _ (List.getElem_mem _))).symm
    · have h1 : (st.shiftTo st1).function c =
          c + (st1.callables.length - st.callables.length) := by
        simp [Shift.function, Interpreter.shiftTo, Nat.not_lt.mpr hc]
      rw [h1, List.getElem?_eq_none hc, List.getElem?_eq_none (by omega)]
      rfl
  · show st1.callables.length =
      st.callables.length + (st1.callables.length - st.callables.length)
    omega
  · rw [henv]
    simp [Shift.frame, Interpreter.shiftTo, hcur]
  · intro c name parameters body closure hc
    have hmem : FluxCallable.function name parameters body closure ∈ st.callables :=
      List.mem_iff_getElem?.mpr ⟨c, hc⟩
    have := hcall _ hmem
    simp only [FluxCallable.closed, Bool.and_eq_true] at this
    exact this.2

/-! ## Stored function objects exist -/

theorem Value.inRange_mono (v : Value) (n m : Nat) (h : n ≤ m) (hv : v.inRange n = true) :
    v.inRange m = true := by
  cases v <;> simp only [Value.inRange, decide_eq_true_eq] at hv ⊢
  omega

theorem Exception.inRange_of_le (e : Exception) (n m : Nat) (h : n ≤ m)
    (he : e.inRange n = true) : e.inRange m = true := by
  cases e with
  | runtime_error what => rfl
  | ReturnException value => exact Value.inRange_mono value n m h he

theorem Heap.inRange_frames_of_le (heap : Heap) (n m : Nat) (h : n ≤ m) (hh : Heap.InRange n heap) :
    Heap.InRange m heap :=
  fun env henv kv hkv => Value.inRange_mono _ n m h (hh env henv kv hkv)

theorem mapSet_mem (name : String) (value : Value) :
    ∀ (values : List (String × Value)) (kv : String × Value),
      kv ∈ mapSet values name value → kv ∈ values ∨ kv.2 = value := by
  intro values
  induction values with
  | nil =>
    intro kv h
    simp only [mapSet, List.mem_singleton] at h
    exact Or.inr (by rw [h])
  | cons a rest ih =>
    obtain ⟨k, v⟩ := a
    intro kv h
    simp only [mapSet] at h
    split at h
    · rcases List.mem_cons.mp h with h1 | h1
      · exact Or.inr (by rw [h1])
      · exact Or.inl (List.mem_cons_of_mem _ h1)
    · rcases List.mem_cons.mp h with h1 | h1
      · exact Or.inl (by rw [h1]; exact List.mem_cons_self _ _)
      · rcases ih kv h1 with h2 | h2
        · exact Or.inl (List.mem_cons_of_mem _ h2)
        · exact Or.inr h2

theorem mapFind_mem (name : String) (value : Value) :
    ∀ (values : List (String × Value)), mapFind values name = some value →
      ∃ kv ∈ values, kv.2 = value := by
  intro values
  induction values with
  | nil => intro h; simp [mapFind] at h
  | cons a rest ih =>
    obtain ⟨k, v⟩ := a
    intro h
    simp only [mapFind] at h
    split at h
    · cases h
      exact ⟨_, List.mem_cons_self _ _, rfl⟩
    · obtain ⟨kv, hkv, hv⟩ := ih h
      exact ⟨kv, List.mem_cons_of_mem _ hkv, hv⟩

theorem Heap.inRange_set (n : Nat) (heap : Heap) (i : Nat) (env : Environment) (name : String)
    (value : Value) (hh : Heap.InRange n heap) (henv : heap[i]? = some env)
    (hv : value.inRange n = true) :
    Heap.InRange n (heap.set i { env with values := mapSet env.values name value }) := by
  intro e he kv hkv
  rcases List.mem_or_eq_of_mem_set he with h1 | h1
  · exact hh e h1 kv hkv
  · subst h1
    rcases mapSet_mem name value env.values kv hkv with h2 | h2
    · exact hh env (List.mem_iff_getElem?.mpr ⟨i, henv⟩) kv h2
    · rw [h2]
      exact hv

theorem Heap.inRange_append (n : Nat) (heap : Heap) (parent : Option Nat)
    (hh : Heap.InRange n heap) :
    Heap.InRange n (heap ++ [{ enclosing := parent, values := [] }]) := by
  intro e he kv hkv
  rcases List.mem_append.mp he with h1 | h1
  · exact hh e h1 kv hkv
  · simp only [List.mem_singleton] at h1
    subst h1
    cases hkv

theorem Environment.getFrom_inRange (n : Nat) (heap : Heap) (hh : Heap.InRange n heap)
    (name : String) (value : Value) :
    ∀ (fuel ref : Nat), Environment.getFrom heap fuel ref name = .ok value →
      value.inRange n = true := by
  intro fuel
  induction fuel with
  | zero => intro ref h; simp [Environment.getFrom] at h
  | succ fuel ih =>
    intro ref h
    simp only [Environment.getFrom] at h
    cases henv : heap[ref]? with
    | none => simp [henv] at h
    | some env =>
      simp only [henv] at h
      cases hfind : mapFind env.values name with
      | some v =>
        simp only [hfind] at h
        cases h
        obtain ⟨kv, hkv, hv⟩ := mapFind_mem name value env.values hfind
        rw [← hv]
        exact hh env (List.mem_iff_getElem?.mpr ⟨ref, henv⟩) kv hkv
      | none =>
        simp only [hfind] at h
        cases hpar : env.enclosing with
        | none => simp [hpar] at h
        | some parent =>
          simp only [hpar] at h
          exact ih parent h

theorem InterpM.ranged_weaken {α : Type} (pre pre' : Nat → Prop) (post post' : α → Nat → Prop)
    (m : InterpM α) (h : InterpM.Ranged pre post m) (hpre : ∀ n, pre' n → pre n)
    (hpost : ∀ a n, post a n → post' a n) : InterpM.Ranged pre' post' m := by
  intro st hs hp
  have := h st hs (hpre _ hp)
  cases hr : m st with
  | ok a st' => rw [hr] at this; exact ⟨this.1, this.2.1, hpost _ _ this.2.2⟩
  | exception e st' => rw [hr] at this; exact this
  | fault => trivial
  | timeout => trivial

theorem InterpM.ranged_pure {α : Type} (post : α → Nat → Prop) (a : α) :
    InterpM.Ranged (post a) post (pure a) :=
  fun _ hs hp => ⟨hs, Nat.le_refl _, hp⟩

theorem InterpM.ranged_bind {α β : Type} (pre : Nat → Prop) (mid : α → Nat → Prop)
    (post : β → Nat → Prop) (m : InterpM α) (f : α → InterpM β)
    (hmono : ∀ n k, n ≤ k → pre n → pre k)
    (hm : InterpM.Ranged pre mid m)
    (hf : ∀ a, InterpM.Ranged (fun n => pre n ∧ mid a n) post (f a)) :
    InterpM.Ranged pre post (m >>= f) := by
  intro st hs hp
  have h1 := hm st hs hp
  change match InterpM.bind m f st with
    | .ok a st' => _
    | .exception e st' => _
    | .fault => True
    | .timeout => True
  unfold InterpM.bind
  cases hr : m st with
  | ok a st1 =>
    rw [hr] at h1
    obtain ⟨hs1, hle1, hmid⟩ := h1
    have h2 := hf a st1 hs1 ⟨hmono _ _ hle1 hp, hmid⟩
    simp only []
    cases hr2 : f a st1 with
    | ok b st2 =>
      rw [hr2] at h2
      exact ⟨h2.1, Nat.le_trans hle1 h2.2.1, h2.2.2⟩
    | exception e st2 =>
      rw [hr2] at h2
      exact ⟨h2.1, Nat.le_trans hle1 h2.2.1, h2.2.2⟩
    | fault => trivial
    | timeout => trivial
  | exception e st1 =>
    rw [hr] at h1
    exact h1
  | fault => trivial
  | timeout => trivial

theorem InterpM.ranged_then {α β : Type} (pre : Nat → Prop) (mid : α → Nat → Prop)
    (post : β → Nat → Prop) (m : InterpM α) (f : α → InterpM β)
    (hm : InterpM.Ranged pre mid m) (hf : ∀ a, InterpM.Ranged (mid a) post (f a)) :
    InterpM.Ranged pre post (m >>= f) := by
  intro st hs hp
  have h1 := hm st hs hp
  change match InterpM.bind m f st with
    | .ok a st' => _
    | .exception e st' => _
    | .fault => True
    | .timeout => True
  unfold InterpM.bind
  cases hr : m st with
  | ok a st1 =>
    rw [hr] at h1
    obtain ⟨hs1, hle1, hmid⟩ := h1
    have h2 := hf a st1 hs1 hmid
    simp only []
    cases hr2 : f a st1 with
    | ok b st2 =>
      rw [hr2] at h2
      exact ⟨h2.1, Nat.le_trans hle1 h2.2.1, h2.2.2⟩
    | exception e st2 =>
      rw [hr2] at h2
      exact ⟨h2.1, Nat.le_trans hle1 h2.2.1, h2.2.2⟩
    | fault => trivial
    | timeout => trivial
  | exception e st1 =>
    rw [hr] at h1
    exact h1
  | fault => trivial
  | timeout => trivial

theorem InterpM.ranged_ite {α : Type} (pre : Nat → Prop) (post : α → Nat → Prop) (c : Prop)
    [Decidable c] (a b : InterpM α) (ha : InterpM.Ranged pre post a)
    (hb : InterpM.Ranged pre post b) : InterpM.Ranged pre post (if c then a else b) := by
  split
  · exact ha
  · exact hb

theorem InterpM.ranged_runtimeError {α : Type} (pre : Nat → Prop) (post : α → Nat → Prop)
    (what : String) : InterpM.Ranged pre post (InterpM.runtimeError what) :=
  fun _ hs _ => ⟨hs, Nat.le_refl _, rfl⟩

theorem Interpreter.ranged_setLastValue (pre : Nat → Prop) (value : Value)
    (h : ∀ n, pre n → value.inRange n = true) :
    InterpM.Ranged pre (fun v n => v.inRange n = true) (Interpreter.setLastValue value) :=
  fun _ hs hp => ⟨hs, Nat.le_refl _, h _ hp⟩

theorem Interpreter.ranged_lookup (pre : Nat → Prop) (name : String) :
    InterpM.Ranged pre (fun v n => v.inRange n = true) (Interpreter.lookup name) := by
  intro st hs _
  unfold Interpreter.lookup Environment.get
  cases hr : Environment.getFrom st.heap st.heap.length st.environment name with
  | ok v => exact ⟨hs, Nat.le_refl _, Environment.getFrom_inRange _ _ hs.1 name v _ _ hr⟩
  | runtime_error what => exact ⟨hs, Nat.le_refl _, rfl⟩
  | fault => trivial
  | timeout => trivial

theorem InterpM.ranged_onEnvironment (pre : Nat → Prop) (op : Heap → Nat → EnvResult Heap)
    (hop : ∀ st heap1, Interpreter.Stored st → pre st.callables.length →
      op st.heap st.environment = .ok heap1 → Heap.InRange st.callables.length heap1) :
    InterpM.Ranged pre (fun _ _ => True) (InterpM.onEnvironment op) := by
  intro st hs hp
  unfold InterpM.onEnvironment
  cases hr : op st.heap st.environment with
  | ok heap1 => exact ⟨⟨hop st heap1 hs hp hr, hs.2⟩, Nat.le_refl _, trivial⟩
  | runtime_error what => exact ⟨hs, Nat.le_refl _, rfl⟩
  | fault => trivial
  | timeout => trivial

theorem Interpreter.ranged_defineAt (pre : Nat → Prop) (ref : Nat) (name : String)
    (value : Value) (h : ∀ n, pre n → value.inRange n = true) :
    InterpM.Ranged pre (fun _ _ => True)
      (InterpM.onEnvironment (fun heap _ => Environment.define heap ref name value)) := by
  apply InterpM.ranged_onEnvironment
  intro st heap1 hs hp hr
  simp only [Environment.define] at hr
  cases henv : st.heap[ref]? with
  | none => simp [henv] at hr
  | some env =>
    simp only [henv, EnvResult.ok.injEq] at hr
    subst hr
    exact Heap.inRange_set _ _ ref env name value hs.1 henv (h _ hp)

theorem Interpreter.ranged_define (pre : Nat → Prop) (name : String) (value : Value)
    (h : ∀ n, pre n → value.inRange n = true) :
    InterpM.Ranged pre (fun _ _ => True) (Interpreter.define name value) := by
  apply InterpM.ranged_onEnvironment
  intro st heap1 hs hp hr
  simp only [Environment.define] at hr
  cases henv : st.heap[st.environment]? with
  | none => simp [henv] at hr
  | some env =>
    simp only [henv, EnvResult.ok.injEq] at hr
    subst hr
    exact Heap.inRange_set _ _ _ env name value hs.1 henv (h _ hp)

theorem Interpreter.ranged_assign (pre : Nat → Prop) (name : String) (value : Value)
    (h : ∀ n, pre n → value.inRange n = true) :
    InterpM.Ranged pre (fun _ _ => True) (Interpreter.assign name value) := by
  apply InterpM.ranged_onEnvironment
  intro st heap1 hs hp hr
  obtain ⟨i, env, henv, hheap⟩ := Environment.assignFrom_shape _ _ _ _ _ _ hr
  subst hheap
  exact Heap.inRange_set _ _ i env name value hs.1 henv (h _ hp)

theorem Interpreter.ranged_checkNumberOperand (pre : Nat → Prop) (op : String) (value : Value) :
    InterpM.Ranged pre (fun _ _ => True) (Interpreter.checkNumberOperand op value) := by
  cases value <;> first
    | exact fun _ hs _ => ⟨hs, Nat.le_refl _, trivial⟩
    | exact InterpM.ranged_runtimeError _ _ _

theorem Interpreter.ranged_checkNumberOperands (pre : Nat → Prop) (op : String)
    (left right : Value) :
    InterpM.Ranged pre (fun _ _ => True) (Interpreter.checkNumberOperands op left right) := by
  cases left <;> cases right <;> first
    | exact fun _ hs _ => ⟨hs, Nat.le_refl _, trivial⟩
    | exact InterpM.ranged_runtimeError _ _ _

theorem Interpreter.ranged_checked (pre : Nat → Prop) (op : String) (left right value : Value)
    (h : ∀ n, value.inRange n = true) :
    InterpM.Ranged pre (fun v n => v.inRange n = true)
      (Interpreter.checkNumberOperands op left right >>= fun _ =>
        Interpreter.setLastValue value) :=
  InterpM.ranged_then _ _ _ _ _ (Interpreter.ranged_checkNumberOperands pre op left right)
    (fun _ => Interpreter.ranged_setLastValue _ _ (fun n _ => h n))

theorem Interpreter.ranged_visitBinary (leftNode : Expr) (op : String) (left right : Value) :
    InterpM.Ranged (fun n => left.inRange n = true ∧ right.inRange n = true)
      (fun v n => v.inRange n = true) (Interpreter.visitBinary leftNode op left right) := by
  unfold Interpreter.visitBinary
  repeat' apply InterpM.ranged_ite
  all_goals first
    | exact Interpreter.ranged_setLastValue _ _ (fun _ h => h.1)
    | exact Interpreter.ranged_setLastValue _ _ (fun _ h => h.2)
    | exact Interpreter.ranged_setLastValue _ _ (fun _ _ => rfl)
    | exact InterpM.ranged_runtimeError _ _ _
    | exact Interpreter.ranged_checked _ _ _ _ _ (fun _ => rfl)
    | exact InterpM.ranged_then _ _ _ _ _ (Interpreter.ranged_checkNumberOperands _ _ _ _)
        (fun _ => InterpM.ranged_ite _ _ _ _ _ (InterpM.ranged_runtimeError _ _ _)
          (Interpreter.ranged_setLastValue _ _ (fun _ _ => rfl)))
    | skip
  · cases leftNode <;> first
      | exact InterpM.ranged_runtimeError _ _ _
      | exact InterpM.ranged_bind _ _ _ _ _
          (fun n k hnk h => ⟨Value.inRange_mono _ n k hnk h.1, Value.inRange_mono _ n k hnk h.2⟩)
          (Interpreter.ranged_assign _ _ _ (fun _ h => h.2))
          (fun _ => Interpreter.ranged_setLastValue _ _ (fun _ h => h.1.2))
  · cases left <;> cases right <;> first
      | exact Interpreter.ranged_setLastValue _ _ (fun _ _ => rfl)
      | exact InterpM.ranged_runtimeError _ _ _

theorem Interpreter.ranged_visitUnary (pre : Nat → Prop) (op : String) (right : Value) :
    InterpM.Ranged pre (fun v n => v.inRange n = true) (Interpreter.visitUnary op right) := by
  unfold Interpreter.visitUnary
  repeat' apply InterpM.ranged_ite
  all_goals first
    | exact Interpreter.ranged_setLastValue _ _ (fun _ _ => rfl)
    | exact InterpM.ranged_runtimeError _ _ _
    | exact InterpM.ranged_then _ _ _ _ _ (Interpreter.ranged_checkNumberOperand _ _ _)
        (fun _ => Interpreter.ranged_setLastValue _ _ (fun _ _ => rfl))

theorem Interpreter.ranged_callNative (pre : Nat → Prop) (name : String)
    (arguments : List Value) :
    InterpM.Ranged pre (fun v n => v.inRange n = true)
      (Interpreter.callNative name arguments) := by
  intro st hs _
  unfold Interpreter.callNative
  by_cases h1 : name = "clock"
  · rw [if_pos h1]
    exact ⟨hs, Nat.le_refl _, rfl⟩
  · rw [if_neg h1]
    by_cases h2 : name = "sqrt"
    · rw [if_pos h2]
      cases arguments.head? with
      | none => trivial
      | some v => cases v <;> exact ⟨hs, Nat.le_refl _, rfl⟩
    · rw [if_neg h2]
      by_cases h3 : name = "abs"
      · rw [if_pos h3]
        cases arguments.head? with
        | none => trivial
        | some v => cases v <;> exact ⟨hs, Nat.le_refl _, rfl⟩
      · rw [if_neg h3]
        trivial

theorem Interpreter.ranged_visitPrint (pre : Nat → Prop) (value : Value) :
    InterpM.Ranged pre (fun _ _ => True) (Interpreter.visitPrint value) := by
  intro st hs _
  unfold Interpreter.visitPrint
  cases st.stringify value with
  | none => trivial
  | some text => exact ⟨hs, Nat.le_refl _, trivial⟩

theorem Interpreter.ranged_newEnvironment (pre : Nat → Prop) (parent : Nat) :
    InterpM.Ranged pre (fun _ _ => True) (Interpreter.newEnvironment parent) :=
  fun _ hs _ => ⟨⟨Heap.inRange_append _ _ _ hs.1, hs.2⟩, Nat.le_refl _, trivial⟩

theorem Interpreter.ranged_bindParameters (env : Nat) :
    ∀ (parameters : List String) (arguments : List Value) (pre : Nat → Prop),
      (∀ n k, n ≤ k → pre n → pre k) →
      (∀ n, pre n → ∀ v ∈ arguments, v.inRange n = true) →
      InterpM.Ranged pre (fun _ _ => True)
        (Interpreter.bindParameters env parameters arguments) := by
  intro parameters
  induction parameters with
  | nil =>
    intro arguments pre _ _
    cases arguments <;> exact fun _ hs _ => ⟨hs, Nat.le_refl _, trivial⟩
  | cons p ps ih =>
    intro arguments pre hmono hargs
    cases arguments with
    | nil => exact fun _ _ _ => trivial
    | cons a rest =>
      exact InterpM.ranged_bind pre _ _ _ _ hmono
        (Interpreter.ranged_defineAt pre env p a
          (fun n hn => hargs n hn a (List.mem_cons_self _ _)))
        (fun _ => ih rest (fun n => pre n ∧ True) (fun n k hnk h => ⟨hmono n k hnk h.1, trivial⟩)
          (fun n hn v hv => hargs n hn.1 v (List.mem_cons_of_mem _ hv)))

theorem Interpreter.ranged_evaluateArguments (evaluate : Expr → InterpM Value) :
    ∀ (args : List Expr) (acc : List Value) (pre : Nat → Prop),
      (∀ e ∈ args, ∀ pre : Nat → Prop,
        InterpM.Ranged pre (fun v n => v.inRange n = true) (evaluate e)) →
      (∀ n k, n ≤ k → pre n → pre k) →
      (∀ n, pre n → ∀ v ∈ acc, v.inRange n = true) →
      InterpM.Ranged pre (fun vs n => ∀ v ∈ vs, v.inRange n = true)
        (Interpreter.evaluateArguments evaluate args acc) := by
  intro args
  induction args with
  | nil =>
    intro acc pre _ _ hacc
    exact fun _ hs hp => ⟨hs, Nat.le_refl _, hacc _ hp⟩
  | cons a rest ih =>
    intro acc pre hev hmono hacc
    refine InterpM.ranged_bind pre _ _ _ _ hmono (hev a (List.mem_cons_self _ _) pre)
      (fun v => ih (acc ++ [v]) _ (fun e he => hev e (List.mem_cons_of_mem _ he)) ?_ ?_)
    · intro n k hnk h
      exact ⟨hmono n k hnk h.1, Value.inRange_mono v n k hnk h.2⟩
    · intro n h w hw
      rcases List.mem_append.mp hw with h1 | h1
      · exact hacc n h.1 w h1
      · simp only [List.mem_singleton] at h1
        rw [h1]
        exact h.2

theorem Interpreter.ranged_executeStatements (execute : Stmt → InterpM Unit) :
    ∀ (statements : List Stmt),
      (∀ s ∈ statements, ∀ pre : Nat → Prop,
        InterpM.Ranged pre (fun _ _ => True) (execute s)) →
      ∀ pre : Nat → Prop, InterpM.Ranged pre (fun _ _ => True)
        (Interpreter.executeStatements execute statements) := by
  intro statements
  induction statements with
  | nil => intro _ pre; exact fun _ hs _ => ⟨hs, Nat.le_refl _, trivial⟩
  | cons s rest ih =>
    intro hex pre
    exact InterpM.ranged_then pre _ _ _ _ (hex s (List.mem_cons_self _ _) pre)
      (fun _ => ih (fun s hs => hex s (List.mem_cons_of_mem _ hs)) _)

theorem Interpreter.ranged_executeBlock (execute : Stmt → InterpM Unit)
    (statements : List Stmt) (env : Nat)
    (hex : ∀ s ∈ statements, ∀ pre : Nat → Prop,
      InterpM.Ranged pre (fun _ _ => True) (execute s)) (pre : Nat → Prop) :
    InterpM.Ranged pre (fun _ _ => True)
      (Interpreter.executeBlock execute statements env) := by
  intro st hs hp
  have hin := Interpreter.ranged_executeStatements execute statements hex pre
    { st with environment := env } hs hp
  unfold Interpreter.executeBlock
  cases hr : Interpreter.executeStatements execute statements { st with environment := env } with
  | ok u st1 => rw [hr] at hin; exact hin
  | exception e st1 => rw [hr] at hin; exact hin
  | fault => trivial
  | timeout => trivial

theorem Interpreter.ranged_callFunction (execute : Stmt → InterpM Unit)
    (parameters : List String) (body : List Stmt) (closure : Nat) (arguments : List Value)
    (hex : ∀ s ∈ body, ∀ pre : Nat → Prop, InterpM.Ranged pre (fun _ _ => True) (execute s))
    (pre : Nat → Prop) (hmono : ∀ n k, n ≤ k → pre n → pre k)
    (hargs : ∀ n, pre n → ∀ v ∈ arguments, v.inRange n = true) :
    InterpM.Ranged pre (fun v n => v.inRange n = true)
      (Interpreter.callFunction execute parameters body closure arguments) := by
  have hinner : InterpM.Ranged pre (fun _ _ => True)
      (do
        let environment ← Interpreter.newEnvironment closure
        Interpreter.bindParameters environment parameters arguments
        Interpreter.executeBlock execute body environment : InterpM Unit) :=
    InterpM.ranged_bind pre _ _ _ _ hmono (Interpreter.ranged_newEnvironment pre _)
      (fun env => InterpM.ranged_then _ _ _ _ _
        (Interpreter.ranged_bindParameters env parameters arguments _
          (fun n k hnk h => ⟨hmono n k hnk h.1, trivial⟩) (fun n h => hargs n h.1))
        (fun _ => Interpreter.ranged_executeBlock execute body env hex _))
  intro st hs hp
  have hin := hinner st hs hp
  unfold Interpreter.callFunction
  cases hr : (do
        let environment ← Interpreter.newEnvironment closure
        Interpreter.bindParameters environment parameters arguments
        Interpreter.executeBlock execute body environment : InterpM Unit) st with
  | ok u st1 =>
    rw [hr] at hin
    exact ⟨hin.1, hin.2.1, rfl⟩
  | exception e st1 =>
    rw [hr] at hin
    cases e with
    | runtime_error what => exact hin
    | ReturnException value => exact hin
  | fault => trivial
  | timeout => trivial

theorem Interpreter.ranged_visitCall (execute : Stmt → InterpM Unit) (callee : Value)
    (arguments : List Value)
    (hex : ∀ s, s.plain = true → ∀ pre : Nat → Prop,
      InterpM.Ranged pre (fun _ _ => True) (execute s))
    (pre : Nat → Prop) (hmono : ∀ n k, n ≤ k → pre n → pre k)
    (hargs : ∀ n, pre n → ∀ v ∈ arguments, v.inRange n = true) :
    InterpM.Ranged pre (fun v n => v.inRange n = true)
      (Interpreter.visitCall execute callee arguments) := by
  cases callee with
  | callable ref =>
    intro st hs hp
    simp only [Interpreter.visitCall]
    cases hc : st.callables[ref]? with
    | none => trivial
    | some callable =>
      simp only []
      by_cases ha : arguments.length ≠ callable.arity
      · rw [if_pos ha]
        exact ⟨hs, Nat.le_refl _, rfl⟩
      · rw [if_neg ha]
        refine InterpM.ranged_then pre _ _ _ _ ?_
          (fun v => Interpreter.ranged_setLastValue _ v (fun _ h => h)) st hs hp
        cases callable with
        | function name parameters body closure =>
          exact Interpreter.ranged_callFunction execute parameters body closure arguments
            (fun s hsm => hex s (Stmt.plain_of_mem_statements body
              (hs.2 name parameters body closure (List.mem_iff_getElem?.mpr ⟨ref, hc⟩)) s hsm))
            pre hmono hargs
        | native name paramCount => exact Interpreter.ranged_callNative pre name arguments
  | number n => exact InterpM.ranged_runtimeError _ _ _
  | string s => exact InterpM.ranged_runtimeError _ _ _
  | bool b => exact InterpM.ranged_runtimeError _ _ _
  | nil => exact InterpM.ranged_runtimeError _ _ _

theorem Interpreter.ranged_visitFunctionDeclaration (name : String)
    (parameters : List String) (body : List Stmt) (hbody : Stmt.plainList body = true)
    (pre : Nat → Prop) :
    InterpM.Ranged pre (fun _ _ => True)
      (Interpreter.visitFunctionDeclaration name parameters body) := by
  intro st hs _
  have hs2 : Interpreter.Stored
      { st with callables := st.callables ++ [.function name parameters body st.environment] } := by
    refine ⟨Heap.inRange_frames_of_le _ _ _ (by simp) hs.1, ?_⟩
    intro n ps b cl hm
    rcases List.mem_append.mp hm with h1 | h1
    · exact hs.2 n ps b cl h1
    · simp only [List.mem_singleton, FluxCallable.function.injEq] at h1
      rw [h1.2.2.1]
      exact hbody
  have := Interpreter.ranged_define (fun n => st.callables.length < n) name
    (.callable st.callables.length) (fun n h => by simpa [Value.inRange] using h) _ hs2
    (by simp)
  unfold Interpreter.visitFunctionDeclaration
  cases hr : Interpreter.define name (.callable st.callables.length)
      { st with callables := st.callables ++ [.function name parameters body st.environment] } with
  | ok u st1 =>
    rw [hr] at this
    refine ⟨this.1, ?_, trivial⟩
    have := this.2.1
    simp only [List.length_append, List.length_singleton] at this
    omega
  | exception e st1 =>
    rw [hr] at this
    refine ⟨this.1, ?_, this.2.2⟩
    have := this.2.1
    simp only [List.length_append, List.length_singleton] at this
    omega
  | fault => trivial
  | timeout => trivial

/-- Every evaluation of a plain expression, every execution of a plain
statement and every loop leads from states in which the stored function objects
exist to such states, and the value of an expression, if it is a function
object, exists. -/
theorem Interpreter.ranged_all :
    ∀ fuel : Nat,
      (∀ e, e.plain = true → ∀ pre : Nat → Prop,
        InterpM.Ranged pre (fun v n => v.inRange n = true) (Interpreter.evaluate fuel e)) ∧
      (∀ s, s.plain = true → ∀ pre : Nat → Prop,
        InterpM.Ranged pre (fun _ _ => True) (Interpreter.execute fuel s)) ∧
      (∀ c b, c.plain = true → b.plain = true → ∀ pre : Nat → Prop,
        InterpM.Ranged pre (fun _ _ => True) (Interpreter.whileLoop fuel c b)) := by
  intro fuel
  induction fuel with
  | zero =>
    refine ⟨?_, ?_, ?_⟩
    · intro e _ pre st _ _
      simp only [Interpreter.evaluate]
    · intro s _ pre st _ _
      simp only [Interpreter.execute]
    · intro c b _ _ pre st _ _
      simp only [Interpreter.whileLoop]
  | succ fuel ih =>
    obtain ⟨ihe, ihs, ihw⟩ := ih
    have hthrow : ∀ v : Value, InterpM.Ranged (fun n => v.inRange n = true) (fun _ _ => True)
        (fun st => Outcome.exception (Exception.ReturnException v) st : InterpM Unit) :=
      fun v _ hs hp => ⟨hs, Nat.le_refl _, hp⟩
    refine ⟨?_, ?_, ?_⟩
    · intro e hp pre
      cases e with
      | literal value =>
        simp only [Interpreter.evaluate]
        cases value with
        | callable ref => simp [Expr.plain] at hp
        | number n => exact Interpreter.ranged_setLastValue _ _ (fun _ _ => rfl)
        | string t => exact Interpreter.ranged_setLastValue _ _ (fun _ _ => rfl)
        | bool b => exact Interpreter.ranged_setLastValue _ _ (fun _ _ => rfl)
        | nil => exact Interpreter.ranged_setLastValue _ _ (fun _ _ => rfl)
      | identifier name =>
        simp only [Interpreter.evaluate]
        exact InterpM.ranged_then _ _ _ _ _ (Interpreter.ranged_lookup pre _)
          (fun _ => Interpreter.ranged_setLastValue _ _ (fun _ h => h))
      | binary left op right =>
        simp only [Expr.plain, Bool.and_eq_true] at hp
        simp only [Interpreter.evaluate]
        exact InterpM.ranged_then _ _ _ _ _ (ihe _ hp.1 pre) (fun l =>
          InterpM.ranged_bind _ _ _ _ _ (fun n k hnk h => Value.inRange_mono l n k hnk h)
            (ihe _ hp.2 _)
            (fun _ => Interpreter.ranged_visitBinary _ _ _ _))
      | unary op operand =>
        simp only [Expr.plain] at hp
        simp only [Interpreter.evaluate]
        exact InterpM.ranged_then _ _ _ _ _ (ihe _ hp pre)
          (fun _ => Interpreter.ranged_visitUnary _ _ _)
      | call callee arguments =>
        simp only [Expr.plain, Bool.and_eq_true] at hp
        simp only [Interpreter.evaluate]
        exact InterpM.ranged_then _ _ _ _ _ (ihe _ hp.1 pre) (fun c =>
          InterpM.ranged_then _ _ _ _ _
            (Interpreter.ranged_evaluateArguments _ arguments [] _
              (fun e he => ihe e (Expr.plain_of_mem_arguments arguments hp.2 e he))
              (fun n k hnk h => Value.inRange_mono c n k hnk h) (fun _ _ v hv => nomatch hv))
            (fun args => Interpreter.ranged_visitCall _ c args ihs _
              (fun n k hnk h v hv => Value.inRange_mono v n k hnk (h v hv))
              (fun _ h => h)))
    · intro st hp pre
      cases st with
      | expression e =>
        simp only [Stmt.plain] at hp
        simp only [Interpreter.execute]
        exact InterpM.ranged_then _ _ _ _ _ (ihe _ hp pre)
          (fun _ => fun _ hs _ => ⟨hs, Nat.le_refl _, trivial⟩)
      | varDeclaration name init =>
        simp only [Interpreter.execute]
        cases init with
        | none =>
          exact InterpM.ranged_then pre (fun v n => v.inRange n = true) _ _ _
            (fun _ hs _ => ⟨hs, Nat.le_refl _, rfl⟩)
            (fun _ => Interpreter.ranged_define _ _ _ (fun _ h => h))
        | some e =>
          simp only [Stmt.plain] at hp
          exact InterpM.ranged_then _ _ _ _ _ (ihe e hp pre)
            (fun _ => Interpreter.ranged_define _ _ _ (fun _ h => h))
      | block statements =>
        simp only [Stmt.plain] at hp
        simp only [Interpreter.execute]
        refine InterpM.ranged_then pre (fun _ _ => True) _ _ _ ?_ (fun env =>
          Interpreter.ranged_executeBlock _ statements env
            (fun st hst => ihs st (Stmt.plain_of_mem_statements statements hp st hst)) _)
        intro s hs hpre
        exact Interpreter.ranged_newEnvironment pre s.environment s hs hpre
      | ifStatement condition thenBranch elseBranch =>
        simp only [Interpreter.execute]
        cases elseBranch with
        | none =>
          simp only [Stmt.plain, Bool.and_eq_true, and_true] at hp
          refine InterpM.ranged_then _ _ _ _ _ (ihe _ hp.1 pre) (fun c => ?_)
          split
          · exact ihs _ hp.2 _
          · exact fun _ hs _ => ⟨hs, Nat.le_refl _, trivial⟩
        | some st =>
          simp only [Stmt.plain, Bool.and_eq_true] at hp
          refine InterpM.ranged_then _ _ _ _ _ (ihe _ hp.1.1 pre) (fun c => ?_)
          split
          · exact ihs _ hp.1.2 _
          · exact ihs st hp.2 _
      | whileStatement condition body =>
        simp only [Stmt.plain, Bool.and_eq_true] at hp
        simp only [Interpreter.execute]
        exact ihw _ _ hp.1 hp.2 pre
      | functionDeclaration name parameters body =>
        simp only [Stmt.plain] at hp
        simp only [Interpreter.execute]
        exact Interpreter.ranged_visitFunctionDeclaration _ _ _ hp pre
      | returnStatement value =>
        simp only [Interpreter.execute]
        cases value with
        | none =>
          exact InterpM.ranged_then pre (fun v n => v.inRange n = true) _ _ _
            (fun _ hs _ => ⟨hs, Nat.le_refl _, rfl⟩) hthrow
        | some e =>
          simp only [Stmt.plain] at hp
          exact InterpM.ranged_then _ _ _ _ _ (ihe e hp pre) hthrow
      | print e =>
        simp only [Stmt.plain] at hp
        simp only [Interpreter.execute]
        exact InterpM.ranged_then _ _ _ _ _ (ihe _ hp pre)
          (fun _ => Interpreter.ranged_visitPrint _ _)
    · intro c b hc hb pre
      simp only [Interpreter.whileLoop]
      refine InterpM.ranged_then _ _ _ _ _ (ihe _ hc pre) (fun v => ?_)
      split
      · exact InterpM.ranged_then _ _ _ _ _ (ihs _ hb _) (fun _ => ihw _ _ hc hb _)
      · exact fun _ hs _ => ⟨hs, Nat.le_refl _, trivial⟩

/-- A valid state in which the stored function objects exist is closed. -/
theorem Interpreter.closed_of_valid (st : Interpreter) (hv : st.Valid) (hs : st.Stored) :
    st.closed = true := by
  obtain ⟨hwf, henv, hclosure⟩ := hv
  simp only [Interpreter.closed, Bool.and_eq_true, List.all_eq_true, decide_eq_true_eq]
  refine ⟨⟨fun env hmem => ?_, fun callable hmem => ?_⟩, henv⟩
  · simp only [Environment.closed, Bool.and_eq_true, List.all_eq_true]
    refine ⟨?_, fun kv hkv => hs.1 env hmem kv hkv⟩
    cases hpar : env.enclosing with
    | none => rfl
    | some parent =>
      obtain ⟨ref, href⟩ := List.mem_iff_getElem?.mp hmem
      have h1 := hwf ref env href parent hpar
      have h2 := List.lt_length_of_getElem? _ _ _ href
      simp only [decide_eq_true_eq]
      omega
  · cases callable with
    | native name paramCount => rfl
    | function name parameters body closure =>
      simp only [FluxCallable.closed, Bool.and_eq_true, decide_eq_true_eq]
      exact ⟨hclosure name parameters body closure hmem, hs.2 name parameters body closure hmem⟩

theorem Interpreter.stored_new (host : Host) : (Interpreter.new host).Stored := by
  refine ⟨?_, ?_⟩
  · intro env henv kv hkv
    simp only [Interpreter.new, List.mem_singleton] at henv
    subst henv
    simp only [List.mem_cons, List.mem_singleton, List.not_mem_nil, or_false] at hkv
    rcases hkv with h | h | h <;> (rw [h]; rfl)
  · intro name parameters body closure hmem
    simp [Interpreter.new, Interpreter.nativeFunctions] at hmem

/-- Every state that a plain program leads to from the initial state is closed:
the hypothesis of the theorem on the second evaluation holds in all of them. -/
theorem Interpreter.closed_reachable (fuel : Nat) (program : Program) (host : Host)
    (st : Interpreter) (hplain : Stmt.plainList program.statements = true)
    (h : (Interpreter.interpret fuel program (Interpreter.new host)).finalState? = some st) :
    st.closed = true := by
  have hv := (Interpreter.sound_interpret fuel program (Interpreter.new host) st
    (Interpreter.valid_new host) h).1
  have hr := Interpreter.ranged_executeStatements (Interpreter.execute fuel) program.statements
    (fun s hs => (Interpreter.ranged_all fuel).2.1 s
      (Stmt.plain_of_mem_statements _ hplain s hs)) (fun _ => True) (Interpreter.new host)
    (Interpreter.stored_new host) trivial
  unfold Interpreter.interpret Interpreter.visitProgram at h
  cases hrun : Interpreter.executeStatements (Interpreter.execute fuel) program.statements
      (Interpreter.new host) with
  | ok u st1 =>
    rw [hrun] at hr h
    simp only [Outcome.finalState?, Option.some.injEq] at h
    subst h
    exact Interpreter.closed_of_valid _ hv hr.1
  | exception e st1 =>
    rw [hrun] at hr h
    simp only [Outcome.finalState?, Option.some.injEq] at h
    subst h
    exact Interpreter.closed_of_valid _ hv hr.1
  | fault => rw [hrun] at h; cases h
  | timeout => rw [hrun] at h; cases h

/-- C30, counterexamples, in a state where `make` returns a new function each
time, `stamp` reads the clock and `counter` counts its calls in a captured frame.
Each expression is evaluated twice; none contains an assignment or a call of
`clock`, and the frames of the environment are the same after the first
evaluation.  `1 % 0` is NaN both times (the NaN with the sign bit set, written
`-nan`), and NaN is not equal to itself.  `make()` is a function object both
times, but not the same one.  `stamp()` is 0, then 1: the clock is read by the
body of the function.  `counter()` is 1, then 2: the assignment is in the body
of the function and changes a captured frame, which is not on the chain of the
current environment.  The source `print 1 % 0 == 1 % 0` prints `false`. -/
theorem Interpreter.second_evaluation_can_differ :
    Interpreter.evaluateTwice 20
        (.binary (.literal (.number (Number.ofNat 1))) "%" (.literal (.number (Number.ofNat 0))))
        evaluateTwiceState =
      some (.number (.nan true), .number (.nan true), false, true, true, true) ∧
    Interpreter.evaluateTwice 20 (.call (.identifier "make") []) evaluateTwiceState =
      some (.callable 6, .callable 7, false, true, true, true) ∧
    Interpreter.evaluateTwice 20 (.call (.identifier "stamp") []) evaluateTwiceState =
      some (.number (Number.ofNat 0), .number (Number.ofNat 1), false, true, true, false) ∧
    Interpreter.evaluateTwice 20 (.call (.identifier "counter") []) evaluateTwiceState =
      some (.number (Number.ofNat 1), .number (Number.ofNat 2), false, true, false, true) ∧
    (run 30 "print 1 % 0 == 1 % 0" (Interpreter.new Host.simple)).summary =
      some (["false"], [], 0) := by
  refine ⟨by decide!, by decide!, by decide!, by decide!, by decide!⟩

/-- C30 (amended): let the plain expression `e` (as is every expression that
the parser builds, `Parser.parse_plain`) evaluate without error to the
value `v`, from a closed state `st` (one whose references point into it, as in
every state that a plain program leads to, `Interpreter.closed_reachable`), and
let the evaluation leave every frame of `st` as it was (the frames of the
environment and the frames captured by functions) and the clock unread.  Then
evaluating `e` a second time, in the state reached and with the same fuel,
yields the value that corresponds to `v`: `v` itself, or, for a function object
that the first evaluation created, the function object that the second creates
in its place.  That value is equal to `v` under `==` unless `v` is NaN (with
either sign bit) or such a new function object. -/
theorem Interpreter.second_evaluation_repeats (fuel : Nat) (e : Expr) (st st1 : Interpreter)
    (v : Value) (hclosed : st.closed = true) (hplain : e.plain = true)
    (hev : Interpreter.evaluate fuel e st = .ok v st1)
    (hframes : ∀ i, i < st.heap.length → st1.heap[i]? = st.heap[i]?)
    (hclock : st1.clockReads = st.clockReads) :
    ∃ st2, Interpreter.evaluate fuel e st1 = .ok (v.shift (st.shiftTo st1)) st2 ∧
      (v.inRange st.callables.length = true → v.shift (st.shiftTo st1) = v) ∧
      ((∀ s, v ≠ .number (.nan s)) → v.inRange st.callables.length = true →
        Interpreter.isEqual v (v.shift (st.shiftTo st1)) = true) := by
  have hsim := Interpreter.similar_after fuel e st st1 v hclosed hev hframes hclock
  have hout := (Interpreter.simulates_all (st.shiftTo st1) fuel).1 e hplain st st1 hsim
  rw [hev] at hout
  obtain ⟨st2, h2, _⟩ := Outcome.similar_ok _ _ v st1 _ hout
  refine ⟨st2, h2, fun hr => Value.shift_of_inRange _ v hr, fun hnan hr => ?_⟩
  rw [Value.shift_of_inRange _ v hr]
  exact Interpreter.isEqual_self v hnan

/-- C30, on `make()`, where the second evaluation creates the function object 7
in place of the function object 6 of the first, and on `abs(2 - 9) * 3`, which is
21 both times. -/
theorem Interpreter.second_evaluation_repeats_witness :
    (∃ st2, Interpreter.evaluate 6 (.call (.identifier "make") []) evaluateTwiceAfterMake =
      .ok (.callable 7) st2) ∧
    (∃ st2, Interpreter.evaluate 6 absExpression
        { evaluateTwiceState with lastValue := .number (Number.ofNat 21) } =
        .ok (.number (Number.ofNat 21)) st2 ∧
      Interpreter.isEqual (.number (Number.ofNat 21)) (.number (Number.ofNat 21)) = true) :=
  ⟨(Interpreter.second_evaluation_repeats 6 (.call (.identifier "make") []) evaluateTwiceState
      evaluateTwiceAfterMake (.callable 6) (by decide) rfl rfl
      (fun i hi => by
        have : i < 2 := hi
        interval_cases i <;> rfl)
      rfl).imp fun _ h => h.1,
    (Interpreter.second_evaluation_repeats 6 absExpression evaluateTwiceState
      { evaluateTwiceState with lastValue := .number (Number.ofNat 21) }
      (.number (Number.ofNat 21)) (by decide) rfl rfl (fun _ _ => rfl) rfl).imp
      fun _ h => ⟨h.1, h.2.2 (fun _ => nofun) rfl⟩⟩

/-! ## The parser builds plain syntax trees -/

theorem ParserM.yields_any {α : Type} (m : ParserM α) : ParserM.Yields (fun _ => True) m :=
  fun _ _ _ _ => trivial

theorem ParserM.yields_pure {α : Type} (P : α → Prop) (a : α) (h : P a) :
    ParserM.Yields P (pure a) := by
  intro p b p1 hb
  cases hb
  exact h

theorem ParserM.yields_bind {α β : Type} (Q : α → Prop) (P : β → Prop) (m : ParserM α)
    (f : α → ParserM β) (hm : ParserM.Yields Q m) (hf : ∀ a, Q a → ParserM.Yields P (f a)) :
    ParserM.Yields P (m >>= f) := by
  intro p b p1 hb
  change ParserM.bind m f p = _ at hb
  unfold ParserM.bind at hb
  cases hr : m p with
  | ok a p2 =>
    rw [hr] at hb
    exact hf a (hm p a p2 hr) p2 b p1 hb
  | exception e p2 => rw [hr] at hb; cases hb
  | fault => rw [hr] at hb; cases hb
  | timeout => rw [hr] at hb; cases hb

theorem ParserM.yields_ite {α : Type} (P : α → Prop) (c : Prop) [Decidable c]
    (a b : ParserM α) (ha : ParserM.Yields P a) (hb : ParserM.Yields P b) :
    ParserM.Yields P (if c then a else b) := by
  split
  · exact ha
  · exact hb

theorem ParserM.yields_timeout {α : Type} (P : α → Prop) :
    ParserM.Yields P (ParserM.timeout : ParserM α) :=
  fun _ _ _ h => nomatch h

theorem Parser.yields_error {α : Type} (P : α → Prop) (message : String) :
    ParserM.Yields P (Parser.error message : ParserM α) := by
  intro p a p1 h
  unfold Parser.error at h
  change ParserM.bind _ _ p = _ at h
  unfold ParserM.bind at h
  cases hr : Parser.peek p with
  | ok t p2 => rw [hr] at h; cases h
  | exception e p2 => rw [hr] at h; cases h
  | fault => rw [hr] at h; cases h
  | timeout => rw [hr] at h; cases h

theorem Stmt.plainList_append_statement (a : List Stmt) (s : Stmt) (ha : Stmt.plainList a = true)
    (hs : s.plain = true) : Stmt.plainList (a ++ [s]) = true := by
  induction a with
  | nil => simp [Stmt.plainList, hs]
  | cons x rest ih =>
    simp only [Stmt.plainList, Bool.and_eq_true] at ha
    simp only [List.cons_append, Stmt.plainList, Bool.and_eq_true]
    exact ⟨ha.1, ih ha.2⟩

theorem Expr.plainList_append_argument (a : List Expr) (e : Expr) (ha : Expr.plainList a = true)
    (he : e.plain = true) : Expr.plainList (a ++ [e]) = true := by
  induction a with
  | nil => simp [Expr.plainList, he]
  | cons x rest ih =>
    simp only [Expr.plainList, Bool.and_eq_true] at ha
    simp only [List.cons_append, Expr.plainList, Bool.and_eq_true]
    exact ⟨ha.1, ih ha.2⟩

theorem Parser.yields_numberLiteral :
    ParserM.Yields (fun e => e.plain = true) Parser.numberLiteral := by
  unfold Parser.numberLiteral
  refine ParserM.yields_bind _ _ _ _ (ParserM.yields_any _) (fun t _ => ?_)
  split
  · exact ParserM.yields_pure _ _ rfl
  · exact fun _ _ _ h => nomatch h
  · exact fun _ _ _ h => nomatch h

theorem Parser.plainAt_zero : Parser.PlainAt 0 := by
  constructor
  all_goals first
    | exact ParserM.yields_timeout _
    | exact fun _ _ => ParserM.yields_timeout _

theorem Parser.plainAt_succ (fuel : Nat) (ih : Parser.PlainAt fuel) :
    Parser.PlainAt (fuel + 1) := by
  constructor
  all_goals try intro (acc : List Stmt) hacc
  all_goals try intro (acc : List Expr) hacc
  all_goals try intro (e : Expr) he
  all_goals first
    | rw [Parser.declaration]
    | rw [Parser.varDeclaration]
    | rw [Parser.functionDeclaration]
    | rw [Parser.statement]
    | rw [Parser.ifStatement]
    | rw [Parser.whileStatement]
    | rw [Parser.returnStatement]
    | rw [Parser.printStatement]
    | rw [Parser.blockStatement]
    | rw [Parser.blockLoop]
    | rw [Parser.expressionStatement]
    | rw [Parser.expression]
    | rw [Parser.assignment]
    | rw [Parser.logicalOr]
    | rw [Parser.logicalOrLoop]
    | rw [Parser.logicalAnd]
    | rw [Parser.logicalAndLoop]
    | rw [Parser.equality]
    | rw [Parser.equalityLoop]
    | rw [Parser.comparison]
    | rw [Parser.comparisonLoop]
    | rw [Parser.term]
    | rw [Parser.termLoop]
    | rw [Parser.factor]
    | rw [Parser.factorLoop]
    | rw [Parser.unary]
    | rw [Parser.call]
    | rw [Parser.callLoop]
    | rw [Parser.primary]
    | rw [Parser.arguments]
    | rw [Parser.argumentsLoop]
  all_goals
    repeat' first
      | with_reducible exact ih.declaration
      | with_reducible exact ih.varDeclaration
      | with_reducible exact ih.functionDeclaration
      | with_reducible exact ih.statement
      | with_reducible exact ih.ifStatement
      | with_reducible exact ih.whileStatement
      | with_reducible exact ih.returnStatement
      | with_reducible exact ih.printStatement
      | with_reducible exact ih.blockStatement
      | with_reducible exact ih.expressionStatement
      | with_reducible exact ih.expression
      | with_reducible exact ih.assignment
      | with_reducible exact ih.logicalOr
      | with_reducible exact ih.logicalAnd
      | with_reducible exact ih.equality
      | with_reducible exact ih.comparison
      | with_reducible exact ih.term
      | with_reducible exact ih.factor
      | with_reducible exact ih.unary
      | with_reducible exact ih.call
      | with_reducible exact ih.primary
      | with_reducible exact ih.arguments
      | with_reducible exact Parser.yields_numberLiteral
      | with_reducible exact Parser.yields_error _ _
      | with_reducible exact ParserM.yields_pure _ _ (by
          simp [Expr.plain, Stmt.plain, Stmt.plainList, Expr.plainList, *])
      | with_reducible exact ParserM.yields_pure _ _ (Stmt.plainList_append_statement _ _ (by assumption) (by assumption))
      | with_reducible exact ParserM.yields_pure _ _ (Expr.plainList_append_argument _ _ (by assumption) (by assumption))
      | with_reducible exact ih.blockLoop _ (by assumption)
      | with_reducible exact ih.blockLoop _ (Stmt.plainList_append_statement _ _ (by assumption) (by assumption))
      | exact ih.blockLoop [] (by simp [Stmt.plainList])
      | with_reducible exact ih.argumentsLoop _ (Expr.plainList_append_argument _ _ (by assumption) (by assumption))
      | exact ih.argumentsLoop [] (by simp [Expr.plainList])
      | with_reducible exact ih.logicalOrLoop _ (by simp [Expr.plain, *])
      | with_reducible exact ih.logicalAndLoop _ (by simp [Expr.plain, *])
      | with_reducible exact ih.equalityLoop _ (by simp [Expr.plain, *])
      | with_reducible exact ih.comparisonLoop _ (by simp [Expr.plain, *])
      | with_reducible exact ih.termLoop _ (by simp [Expr.plain, *])
      | with_reducible exact ih.factorLoop _ (by simp [Expr.plain, *])
      | with_reducible exact ih.callLoop _ (by simp [Expr.plain, *])
      | with_reducible apply ParserM.yields_ite
      | refine ParserM.yields_bind _ _ _ _ (ih.blockLoop [] (by simp [Stmt.plainList])) (fun _ _ => ?_)
      | with_reducible refine ParserM.yields_bind _ _ _ _ ih.declaration (fun _ _ => ?_)
      | with_reducible refine ParserM.yields_bind _ _ _ _ ih.varDeclaration (fun _ _ => ?_)
      | with_reducible refine ParserM.yields_bind _ _ _ _ ih.functionDeclaration (fun _ _ => ?_)
      | with_reducible refine ParserM.yields_bind _ _ _ _ ih.statement (fun _ _ => ?_)
      | with_reducible refine ParserM.yields_bind _ _ _ _ ih.ifStatement (fun _ _ => ?_)
      | with_reducible refine ParserM.yields_bind _ _ _ _ ih.whileStatement (fun _ _ => ?_)
      | with_reducible refine ParserM.yields_bind _ _ _ _ ih.returnStatement (fun _ _ => ?_)
      | with_reducible refine ParserM.yields_bind _ _ _ _ ih.printStatement (fun _ _ => ?_)
      | with_reducible refine ParserM.yields_bind _ _ _ _ ih.blockStatement (fun _ _ => ?_)
      | with_reducible refine ParserM.yields_bind _ _ _ _ ih.expressionStatement (fun _ _ => ?_)
      | with_reducible refine ParserM.yields_bind _ _ _ _ ih.expression (fun _ _ => ?_)
      | with_reducible refine ParserM.yields_bind _ _ _ _ ih.assignment (fun _ _ => ?_)
      | with_reducible refine ParserM.yields_bind _ _ _ _ ih.logicalOr (fun _ _ => ?_)
      | with_reducible refine ParserM.yields_bind _ _ _ _ ih.logicalAnd (fun _ _ => ?_)
      | with_reducible refine ParserM.yields_bind _ _ _ _ ih.equality (fun _ _ => ?_)
      | with_reducible refine ParserM.yields_bind _ _ _ _ ih.comparison (fun _ _ => ?_)
      | with_reducible refine ParserM.yields_bind _ _ _ _ ih.term (fun _ _ => ?_)
      | with_reducible refine ParserM.yields_bind _ _ _ _ ih.factor (fun _ _ => ?_)
      | with_reducible refine ParserM.yields_bind _ _ _ _ ih.unary (fun _ _ => ?_)
      | with_reducible refine ParserM.yields_bind _ _ _ _ ih.call (fun _ _ => ?_)
      | with_reducible refine ParserM.yields_bind _ _ _ _ ih.primary (fun _ _ => ?_)
      | with_reducible refine ParserM.yields_bind _ _ _ _ ih.arguments (fun _ _ => ?_)
      | with_reducible refine ParserM.yields_bind _ _ _ _ (ParserM.yields_any _) (fun _ _ => ?_)
      | dsimp only []
      | split

theorem Parser.plainAt (fuel : Nat) : Parser.PlainAt fuel := by
  induction fuel with
  | zero => exact Parser.plainAt_zero
  | succ n ih => exact Parser.plainAt_succ n ih

theorem Parser.programLoop_plain (fuel : Nat) (acc : List Stmt)
    (hacc : Stmt.plainList acc = true) :
    ParserM.Yields (fun ss => Stmt.plainList ss = true) (Parser.programLoop fuel acc) := by
  induction fuel generalizing acc with
  | zero => exact ParserM.yields_timeout _
  | succ n ih =>
    rw [Parser.programLoop]
    refine ParserM.yields_bind _ _ _ _ (ParserM.yields_any _) (fun _ _ => ?_)
    split
    · refine ParserM.yields_bind _ _ _ _ (ParserM.yields_any _) (fun _ _ => ?_)
      split
      · exact ih acc hacc
      · intro p a p1 h
        dsimp only [] at h
        cases hd : Parser.declaration n p with
        | ok stmt p2 =>
          rw [hd] at h
          exact ih _ (Stmt.plainList_append_statement _ _ hacc ((Parser.plainAt n).declaration p stmt p2 hd))
            p2 a p1 h
        | exception e p2 =>
          rw [hd] at h
          cases e with
          | runtime_error what =>
            exact ParserM.yields_bind _ _ _ _ (ParserM.yields_any _) (fun _ _ => ih acc hacc)
              _ a p1 h
          | invalid_argument what => cases h
          | out_of_range what => cases h
        | fault => rw [hd] at h; cases h
        | timeout => rw [hd] at h; cases h
    · exact ParserM.yields_pure _ _ hacc

/-- Whatever `Parser::parse` returns is plain: the parser builds no syntax tree
that holds a function value or a frame, so every program that comes from source
text meets the plainness condition. -/
theorem Parser.parse_plain (fuel : Nat) (tokens : List Token) (program : Program) (p : Parser)
    (h : Parser.parse fuel tokens = .ok program p) :
    Stmt.plainList program.statements = true := by
  unfold Parser.parse Parser.program at h
  exact ParserM.yields_bind _ (fun pr : Program => Stmt.plainList pr.statements = true) _ _
    (Parser.programLoop_plain fuel [] (by simp [Stmt.plainList]))
    (fun ss hss => ParserM.yields_pure _ _ hss) _ program p h

/-! ## Token accesses stay within the tokens -/

theorem endsWithEof_next (ts : List Token) (i : Nat) (t : Token) (h : endsWithEof ts = true)
    (ht : ts[i]? = some t) (hne : t.type ≠ .END_OF_FILE) : i + 1 < ts.length := by
  have hi : i < ts.length := by
    rcases Nat.lt_or_ge i ts.length with h1 | h1
    · exact h1
    · rw [List.getElem?_eq_none h1] at ht; cases ht
  by_contra hlt
  have hlast : i = ts.length - 1 := by omega
  unfold endsWithEof at h
  rw [List.getLast?_eq_getElem?, ← hlast, ht] at h
  simp only [beq_iff_eq] at h
  exact hne h

theorem Parser.From.token {ts : List Token} {c : Nat} {p : Parser} (h : Parser.From ts c p) :
    ∃ t, p.tokens[p.current]? = some t := by
  obtain ⟨h1, _, h3, _⟩ := h
  rw [h1]
  exact ⟨ts[p.current], List.getElem?_eq_getElem h3⟩

theorem Parser.From.mono {ts : List Token} {c d : Nat} {p : Parser} (h : Parser.From ts c p)
    (hd : d ≤ c) : Parser.From ts d p :=
  ⟨h.1, Nat.le_trans hd h.2.1, h.2.2⟩

theorem Parser.peek_from {ts : List Token} {c : Nat} {p : Parser} (h : Parser.From ts c p) :
    ∃ t, p.tokens[p.current]? = some t ∧ Parser.peek p = .ok t p := by
  obtain ⟨t, ht⟩ := h.token
  exact ⟨t, ht, by unfold Parser.peek; rw [ht]⟩

theorem Parser.isAtEnd_from {ts : List Token} {c : Nat} {p : Parser} (h : Parser.From ts c p) :
    ∃ t, p.tokens[p.current]? = some t ∧
      Parser.isAtEnd p = .ok (t.type == .END_OF_FILE) p := by
  obtain ⟨t, ht, hp⟩ := Parser.peek_from h
  refine ⟨t, ht, ?_⟩
  unfold Parser.isAtEnd
  rw [ParserM.bind_ok _ _ _ _ _ hp]
  rfl

theorem Parser.check_from {ts : List Token} {c : Nat} {p : Parser} (h : Parser.From ts c p)
    (type : TokenType) :
    ∃ t, p.tokens[p.current]? = some t ∧
      Parser.check type p = .ok (t.type != .END_OF_FILE && t.type == type) p := by
  obtain ⟨t, ht⟩ := h.token
  exact ⟨t, ht, Parser.check_at p.tokens p.current p.cerr t ht type⟩

theorem Parser.previous_from {ts : List Token} {c : Nat} {p : Parser}
    (h : Parser.From ts (c + 1) p) :
    ∃ t, p.tokens[p.current - 1]? = some t ∧ Parser.previous p = .ok t p := by
  obtain ⟨h1, h2, h3, _⟩ := h
  have hlt : p.current - 1 < p.tokens.length := by rw [h1]; omega
  refine ⟨p.tokens[p.current - 1], List.getElem?_eq_getElem hlt, ?_⟩
  unfold Parser.previous
  rw [if_neg (by omega), List.getElem?_eq_getElem hlt]

/-- What `advance` does at a token that is not END_OF_FILE. -/
theorem Parser.advance_hit (p : Parser) (t : Token) (ht : p.tokens[p.current]? = some t)
    (hne : t.type ≠ .END_OF_FILE) :
    Parser.advance p = .ok t { p with current := p.current + 1 } := by
  cases p with
  | mk ts j cerr =>
    simp only at ht
    simp [Parser.advance, Parser.isAtEnd, Parser.peek, Parser.previous, ht, hne, bind,
      ParserM.bind, pure]

/-- What `advance` does at END_OF_FILE, when a token comes before it. -/
theorem Parser.advance_end (p : Parser) (t t0 : Token) (ht : p.tokens[p.current]? = some t)
    (hend : t.type = .END_OF_FILE) (hpos : p.current ≠ 0)
    (ht0 : p.tokens[p.current - 1]? = some t0) :
    Parser.advance p = .ok t0 p := by
  cases p with
  | mk ts j cerr =>
    simp only at ht ht0 hpos
    simp [Parser.advance, Parser.isAtEnd, Parser.peek, Parser.previous, ht, hend, bind,
      ParserM.bind, pure, hpos, ht0]

/-- `match` either leaves the parser where it is and returns false, or moves
over a token that is not END_OF_FILE and returns true. -/
theorem Parser.match_from {ts : List Token} {c : Nat} {p : Parser} (h : Parser.From ts c p)
    (types : List TokenType) :
    Parser.match_ types p = .ok false p ∨
      (Parser.match_ types p = .ok true { p with current := p.current + 1 } ∧
        Parser.From ts (c + 1) { p with current := p.current + 1 }) := by
  obtain ⟨t, ht⟩ := h.token
  by_cases hhit : t.type ≠ .END_OF_FILE ∧ t.type ∈ types
  · right
    refine ⟨Parser.match_hit p.tokens p.current p.cerr t ht hhit.1 types hhit.2, ?_⟩
    have hnext := endsWithEof_next ts p.current t h.2.2.2 (h.1 ▸ ht) hhit.1
    exact ⟨h.1, Nat.succ_le_succ h.2.1, hnext, h.2.2.2⟩
  · left
    refine Parser.match_miss p.tokens p.current p.cerr t ht types ?_
    by_cases hend : t.type = .END_OF_FILE
    · exact Or.inl hend
    · exact Or.inr (fun hm => hhit ⟨hend, hm⟩)

theorem ParserM.bind_timeout {α β : Type} (m : ParserM α) (f : α → ParserM β) (p : Parser)
    (h : m p = .timeout) : (m >>= f) p = .timeout := by
  change ParserM.bind m f p = _
  unfold ParserM.bind
  rw [h]

/-! ### Rules for `Runs` -/

theorem ParserM.runs_mono {α : Type} {T : Prop} {ts : List Token} {c d e d1 e1 : Nat}
    {m : ParserM α} (h : ParserM.Runs T ts c m d1 e1) (hd : d ≤ d1) (he : e ≤ e1) :
    ParserM.Runs T ts c m d e := by
  intro p hp
  have := h p hp
  revert this
  cases m p with
  | ok a p1 => exact fun h1 => h1.mono hd
  | exception x p1 => exact fun h1 => h1.mono he
  | fault => exact id
  | timeout => exact id

theorem ParserM.runs_pure {α : Type} {T : Prop} {ts : List Token} {c d e : Nat} (a : α)
    (hd : d ≤ c) : ParserM.Runs T ts c (pure a : ParserM α) d e :=
  fun _ hp => hp.mono hd

theorem ParserM.runs_throw {α : Type} {T : Prop} {ts : List Token} {c d e : Nat}
    (x : ParseException) (he : e ≤ c) :
    ParserM.Runs T ts c (ParserM.throw x : ParserM α) d e :=
  fun _ hp => hp.mono he

theorem ParserM.runs_timeout {α : Type} {T : Prop} {ts : List Token} {c d e : Nat}
    (h : T ∨ ts.length ≤ c) : ParserM.Runs T ts c (ParserM.timeout : ParserM α) d e := by
  intro p hp
  rcases h with h | h
  · exact h
  · exact absurd (Nat.lt_of_le_of_lt hp.2.1 hp.2.2.1) (Nat.not_lt.mpr h)

theorem ParserM.runs_bind {α β : Type} {T : Prop} {ts : List Token} {c d e d1 : Nat}
    {m : ParserM α} {f : α → ParserM β} (hm : ParserM.Runs T ts c m d1 e)
    (hf : ∀ a, ParserM.Runs T ts d1 (f a) d e) : ParserM.Runs T ts c (m >>= f) d e := by
  intro p hp
  have h1 := hm p hp
  change match ParserM.bind m f p with
    | .ok _ p1 => Parser.From ts d p1
    | .exception _ p1 => Parser.From ts e p1
    | .fault => False
    | .timeout => T
  unfold ParserM.bind
  revert h1
  cases m p with
  | ok a p1 => exact fun h1 => hf a p1 h1
  | exception x p1 => exact id
  | fault => exact id
  | timeout => exact id

/-- Sequencing after a step whose bounds are better than needed. -/
theorem ParserM.runs_bind_mono {α β : Type} {T : Prop} {ts : List Token} {c d e d1 e1 : Nat}
    {m : ParserM α} {f : α → ParserM β} (hm : ParserM.Runs T ts c m d1 e1) (he : e ≤ e1)
    (hf : ∀ a, ParserM.Runs T ts d1 (f a) d e) : ParserM.Runs T ts c (m >>= f) d e :=
  ParserM.runs_bind (ParserM.runs_mono hm (Nat.le_refl _) he) hf

theorem ParserM.runs_ite {α : Type} {T : Prop} {ts : List Token} {c d e : Nat} (cond : Prop)
    [Decidable cond] {a b : ParserM α} (ha : ParserM.Runs T ts c a d e)
    (hb : ParserM.Runs T ts c b d e) : ParserM.Runs T ts c (if cond then a else b) d e := by
  split
  · exact ha
  · exact hb

theorem Parser.runs_peek {T : Prop} {ts : List Token} {c e : Nat} :
    ParserM.Runs T ts c Parser.peek c e := by
  intro p hp
  obtain ⟨t, _, h⟩ := Parser.peek_from hp
  rw [h]
  exact hp

theorem Parser.runs_isAtEnd {T : Prop} {ts : List Token} {c e : Nat} :
    ParserM.Runs T ts c Parser.isAtEnd c e := by
  intro p hp
  obtain ⟨t, _, h⟩ := Parser.isAtEnd_from hp
  rw [h]
  exact hp

theorem Parser.runs_check {T : Prop} {ts : List Token} {c e : Nat} (type : TokenType) :
    ParserM.Runs T ts c (Parser.check type) c e := by
  intro p hp
  obtain ⟨t, _, h⟩ := Parser.check_from hp type
  rw [h]
  exact hp

theorem Parser.runs_previous {T : Prop} {ts : List Token} {c e : Nat} :
    ParserM.Runs T ts (c + 1) Parser.previous (c + 1) e := by
  intro p hp
  obtain ⟨t, _, h⟩ := Parser.previous_from hp
  rw [h]
  exact hp

theorem Parser.runs_advance {T : Prop} {ts : List Token} {c e : Nat} :
    ParserM.Runs T ts (c + 1) Parser.advance (c + 1) e := by
  intro p hp
  obtain ⟨t, ht⟩ := hp.token
  by_cases hend : t.type = .END_OF_FILE
  · obtain ⟨t0, ht0, _⟩ := Parser.previous_from hp
    rw [Parser.advance_end p t t0 ht hend (by have := hp.2.1; omega) ht0]
    exact hp
  · rw [Parser.advance_hit p t ht hend]
    have hnext := endsWithEof_next ts p.current t hp.2.2.2 (hp.1 ▸ ht) hend
    exact ⟨hp.1, Nat.le_succ_of_le hp.2.1, hnext, hp.2.2.2⟩

/-- `match` whose result is not looked at. -/
theorem Parser.runs_match {T : Prop} {ts : List Token} {c e : Nat} (types : List TokenType) :
    ParserM.Runs T ts c (Parser.match_ types) c e := by
  intro p hp
  rcases Parser.match_from hp types with h | ⟨h, h1⟩
  · rw [h]; exact hp
  · rw [h]; exact h1.mono (Nat.le_succ c)

/-- A branch on `match`: where it returned true, a token has been consumed. -/
theorem Parser.runs_match_ite {α : Type} {T : Prop} {ts : List Token} {c d e : Nat}
    (types : List TokenType) {a b : ParserM α} (ha : ParserM.Runs T ts (c + 1) a d e)
    (hb : ParserM.Runs T ts c b d e) :
    ParserM.Runs T ts c (Parser.match_ types >>= fun r => if r = true then a else b) d e := by
  intro p hp
  rcases Parser.match_from hp types with h | ⟨h, h1⟩
  · rw [ParserM.bind_ok _ _ _ _ _ h]
    exact hb p hp
  · rw [ParserM.bind_ok _ _ _ _ _ h]
    exact ha _ h1

/-- A branch on the negation of `match`. -/
theorem Parser.runs_match_not_ite {α : Type} {T : Prop} {ts : List Token} {c d e : Nat}
    (types : List TokenType) {a b : ParserM α} (ha : ParserM.Runs T ts c a d e)
    (hb : ParserM.Runs T ts (c + 1) b d e) :
    ParserM.Runs T ts c (Parser.match_ types >>= fun r => if (!r) = true then a else b)
      d e := by
  intro p hp
  rcases Parser.match_from hp types with h | ⟨h, h1⟩
  · rw [ParserM.bind_ok _ _ _ _ _ h]
    exact ha p hp
  · rw [ParserM.bind_ok _ _ _ _ _ h]
    exact hb _ h1

theorem Parser.runs_error {α : Type} {T : Prop} {ts : List Token} {c d e : Nat}
    (message : String) (he : e ≤ c) :
    ParserM.Runs T ts c (Parser.error message : ParserM α) d e := by
  unfold Parser.error
  exact ParserM.runs_bind (Parser.runs_peek) (fun _ => ParserM.runs_throw _ he)

theorem Parser.runs_numberLiteral {T : Prop} {ts : List Token} {c d e : Nat}
    (hd : d ≤ c + 1) (he : e ≤ c + 1) :
    ParserM.Runs T ts (c + 1) Parser.numberLiteral d e := by
  unfold Parser.numberLiteral
  refine ParserM.runs_bind (Parser.runs_previous) (fun t => ?_)
  split
  · exact ParserM.runs_pure _ hd
  · exact ParserM.runs_throw _ he
  · exact ParserM.runs_throw _ he

theorem Parser.runs_parametersLoop {T : Prop} {ts : List Token} (fuel : Nat) :
    ∀ (c : Nat) (acc : List String), (T ∨ ts.length ≤ fuel + c) →
      ParserM.Runs T ts (c + 1) (Parser.parametersLoop fuel acc) (c + 1) (c + 1) := by
  induction fuel with
  | zero =>
    intro c acc h
    exact ParserM.runs_timeout (Or.imp_right (fun h => by omega) h)
  | succ n ih =>
    intro c acc h
    rw [Parser.parametersLoop]
    refine ParserM.runs_bind (Parser.runs_check _) (fun _ => ?_)
    refine ParserM.runs_ite _ (Parser.runs_error _ (Nat.le_refl _)) ?_
    refine ParserM.runs_bind (Parser.runs_advance) (fun t => ?_)
    refine Parser.runs_match_ite _ ?_ (ParserM.runs_pure _ (Nat.le_refl _))
    exact ParserM.runs_mono (ih (c + 1) _ (Or.imp_right (fun h => by omega) h))
      (Nat.le_succ _) (Nat.le_succ _)

theorem Parser.runsAt_zero (T : Prop) : Parser.RunsAt T 0 := by
  constructor
  all_goals intro ts c hfuel
  all_goals try intro (acc : List Stmt)
  all_goals try intro (acc : List Expr)
  all_goals try intro (acc : Expr)
  all_goals first
    | exact ParserM.runs_timeout (Or.imp_right (fun h => (by omega : ts.length ≤ c)) hfuel)
    | exact ParserM.runs_timeout (Or.imp_right (fun h => (by omega : ts.length ≤ c + 1)) hfuel)

set_option maxHeartbeats 1000000 in
theorem Parser.runsAt_succ (T : Prop) (fuel : Nat) (ih : Parser.RunsAt T fuel) :
    Parser.RunsAt T (fuel + 1) := by
  constructor
  all_goals intro ts c hfuel
  all_goals try intro (acc : List Stmt)
  all_goals try intro (acc : List Expr)
  all_goals try intro (acc : Expr)
  all_goals first
    | rw [Parser.declaration]
    | rw [Parser.varDeclaration]
    | rw [Parser.functionDeclaration]
    | rw [Parser.statement]
    | rw [Parser.ifStatement]
    | rw [Parser.whileStatement]
    | rw [Parser.returnStatement]
    | rw [Parser.printStatement]
    | rw [Parser.blockStatement]
    | rw [Parser.blockLoop]
    | rw [Parser.expressionStatement]
    | rw [Parser.expression]
    | rw [Parser.assignment]
    | rw [Parser.logicalOr]
    | rw [Parser.logicalOrLoop]
    | rw [Parser.logicalAnd]
    | rw [Parser.logicalAndLoop]
    | rw [Parser.equality]
    | rw [Parser.equalityLoop]
    | rw [Parser.comparison]
    | rw [Parser.comparisonLoop]
    | rw [Parser.term]
    | rw [Parser.termLoop]
    | rw [Parser.factor]
    | rw [Parser.factorLoop]
    | rw [Parser.unary]
    | rw [Parser.call]
    | rw [Parser.callLoop]
    | rw [Parser.primary]
    | rw [Parser.arguments]
    | rw [Parser.argumentsLoop]
  all_goals
    repeat' first
      | with_reducible exact ParserM.runs_pure _ (by omega)
      | with_reducible exact Parser.runs_error _ (by omega)
      | with_reducible exact Parser.runs_numberLiteral (by omega) (by omega)
      | with_reducible refine Parser.runs_match_ite _ ?_ ?_
      | with_reducible refine Parser.runs_match_not_ite _ ?_ ?_
      | with_reducible refine ParserM.runs_bind (Parser.runs_match _) (fun _ => ?_)
      | with_reducible refine ParserM.runs_bind (Parser.runs_check _) (fun _ => ?_)
      | with_reducible refine ParserM.runs_bind (Parser.runs_isAtEnd) (fun _ => ?_)
      | with_reducible refine ParserM.runs_bind (Parser.runs_previous) (fun _ => ?_)
      | with_reducible refine ParserM.runs_bind (Parser.runs_advance) (fun _ => ?_)
      | with_reducible refine ParserM.runs_bind (ParserM.runs_pure _ (Nat.le_refl _)) (fun _ => ?_)
      | with_reducible apply ParserM.runs_ite
      | with_reducible refine ParserM.runs_mono (ih.varDeclaration ts _ (Or.imp_right (fun h => by omega) hfuel)) (by omega) (by omega)
      | with_reducible refine ParserM.runs_mono (ih.functionDeclaration ts _ (Or.imp_right (fun h => by omega) hfuel)) (by omega) (by omega)
      | with_reducible refine ParserM.runs_mono (ih.statement ts _ (Or.imp_right (fun h => by omega) hfuel)) (by omega) (by omega)
      | with_reducible refine ParserM.runs_mono (ih.ifStatement ts _ (Or.imp_right (fun h => by omega) hfuel)) (by omega) (by omega)
      | with_reducible refine ParserM.runs_mono (ih.whileStatement ts _ (Or.imp_right (fun h => by omega) hfuel)) (by omega) (by omega)
      | with_reducible refine ParserM.runs_mono (ih.returnStatement ts _ (Or.imp_right (fun h => by omega) hfuel)) (by omega) (by omega)
      | with_reducible refine ParserM.runs_mono (ih.printStatement ts _ (Or.imp_right (fun h => by omega) hfuel)) (by omega) (by omega)
      | with_reducible refine ParserM.runs_mono (ih.blockLoop ts _ (Or.imp_right (fun h => by omega) hfuel) _) (by omega) (by omega)
      | with_reducible refine ParserM.runs_mono (ih.expressionStatement ts _ (Or.imp_right (fun h => by omega) hfuel)) (by omega) (by omega)
      | with_reducible refine ParserM.runs_mono (ih.assignment ts _ (Or.imp_right (fun h => by omega) hfuel)) (by omega) (by omega)
      | with_reducible refine ParserM.runs_mono (ih.logicalOrLoop ts _ (Or.imp_right (fun h => by omega) hfuel) _) (by omega) (by omega)
      | with_reducible refine ParserM.runs_mono (ih.logicalAndLoop ts _ (Or.imp_right (fun h => by omega) hfuel) _) (by omega) (by omega)
      | with_reducible refine ParserM.runs_mono (ih.equalityLoop ts _ (Or.imp_right (fun h => by omega) hfuel) _) (by omega) (by omega)
      | with_reducible refine ParserM.runs_mono (ih.comparisonLoop ts _ (Or.imp_right (fun h => by omega) hfuel) _) (by omega) (by omega)
      | with_reducible refine ParserM.runs_mono (ih.termLoop ts _ (Or.imp_right (fun h => by omega) hfuel) _) (by omega) (by omega)
      | with_reducible refine ParserM.runs_mono (ih.factorLoop ts _ (Or.imp_right (fun h => by omega) hfuel) _) (by omega) (by omega)
      | with_reducible refine ParserM.runs_mono (ih.call ts _ (Or.imp_right (fun h => by omega) hfuel)) (by omega) (by omega)
      | with_reducible refine ParserM.runs_mono (ih.callLoop ts _ (Or.imp_right (fun h => by omega) hfuel) _) (by omega) (by omega)
      | with_reducible refine ParserM.runs_mono (ih.argumentsLoop ts _ (Or.imp_right (fun h => by omega) hfuel) _) (by omega) (by omega)
      | with_reducible refine ParserM.runs_bind_mono (ih.declaration ts _ (Or.imp_right (fun h => by omega) hfuel)) (by omega) (fun _ => ?_)
      | with_reducible refine ParserM.runs_bind_mono (ih.statement ts _ (Or.imp_right (fun h => by omega) hfuel)) (by omega) (fun _ => ?_)
      | with_reducible refine ParserM.runs_bind_mono (ih.blockStatement ts _ (Or.imp_right (fun h => by omega) hfuel)) (by omega) (fun _ => ?_)
      | with_reducible refine ParserM.runs_bind_mono (ih.blockLoop ts _ (Or.imp_right (fun h => by omega) hfuel) _) (by omega) (fun _ => ?_)
      | with_reducible refine ParserM.runs_bind_mono (ih.expression ts _ (Or.imp_right (fun h => by omega) hfuel)) (by omega) (fun _ => ?_)
      | with_reducible refine ParserM.runs_bind_mono (ih.assignment ts _ (Or.imp_right (fun h => by omega) hfuel)) (by omega) (fun _ => ?_)
      | with_reducible refine ParserM.runs_bind_mono (ih.logicalOr ts _ (Or.imp_right (fun h => by omega) hfuel)) (by omega) (fun _ => ?_)
      | with_reducible refine ParserM.runs_bind_mono (ih.logicalAnd ts _ (Or.imp_right (fun h => by omega) hfuel)) (by omega) (fun _ => ?_)
      | with_reducible refine ParserM.runs_bind_mono (ih.equality ts _ (Or.imp_right (fun h => by omega) hfuel)) (by omega) (fun _ => ?_)
      | with_reducible refine ParserM.runs_bind_mono (ih.comparison ts _ (Or.imp_right (fun h => by omega) hfuel)) (by omega) (fun _ => ?_)
      | with_reducible refine ParserM.runs_bind_mono (ih.term ts _ (Or.imp_right (fun h => by omega) hfuel)) (by omega) (fun _ => ?_)
      | with_reducible refine ParserM.runs_bind_mono (ih.factor ts _ (Or.imp_right (fun h => by omega) hfuel)) (by omega) (fun _ => ?_)
      | with_reducible refine ParserM.runs_bind_mono (ih.unary ts _ (Or.imp_right (fun h => by omega) hfuel)) (by omega) (fun _ => ?_)
      | with_reducible refine ParserM.runs_bind_mono (ih.primary ts _ (Or.imp_right (fun h => by omega) hfuel)) (by omega) (fun _ => ?_)
      | with_reducible refine ParserM.runs_bind_mono (ih.arguments ts _ (Or.imp_right (fun h => by omega) hfuel)) (by omega) (fun _ => ?_)
      | with_reducible refine ParserM.runs_bind_mono (Parser.runs_parametersLoop _ _ _ (Or.imp_right (fun h => by omega) hfuel)) (by omega) (fun _ => ?_)
      | dsimp only []
      | split

theorem Parser.runsAt (T : Prop) (fuel : Nat) : Parser.RunsAt T fuel := by
  induction fuel with
  | zero => exact Parser.runsAt_zero T
  | succ n ih => exact Parser.runsAt_succ T n ih

/-! ## More fuel does not change a result -/

theorem ParserM.le_refl {α : Type} (m : ParserM α) : ParserM.Le m m :=
  fun _ => Or.inr rfl

theorem ParserM.le_timeout {α : Type} (m : ParserM α) : ParserM.Le ParserM.timeout m :=
  fun _ => Or.inl rfl

theorem ParserM.le_bind {α β : Type} {m m' : ParserM α} {f f' : α → ParserM β}
    (hm : ParserM.Le m m') (hf : ∀ a, ParserM.Le (f a) (f' a)) :
    ParserM.Le (m >>= f) (m' >>= f') := by
  intro p
  change ParserM.bind m f p = _ ∨ ParserM.bind m' f' p = ParserM.bind m f p
  unfold ParserM.bind
  rcases hm p with h | h
  · left; rw [h]
  · rw [h]
    cases m p with
    | ok a p1 => exact hf a p1
    | exception x p1 => exact Or.inr rfl
    | fault => exact Or.inr rfl
    | timeout => exact Or.inl rfl

theorem ParserM.le_ite {α : Type} (cond : Prop) [Decidable cond] {a a' b b' : ParserM α}
    (ha : ParserM.Le a a') (hb : ParserM.Le b b') :
    ParserM.Le (if cond then a else b) (if cond then a' else b') := by
  split
  · exact ha
  · exact hb

theorem ParserM.le_of_eq {α : Type} {m m' a b : ParserM α} (h1 : m = a) (h2 : m' = b)
    (h : ParserM.Le a b) : ParserM.Le m m' := by
  rw [h1, h2]; exact h

theorem Parser.parametersLoop_le (fuel : Nat) :
    ∀ acc, ParserM.Le (Parser.parametersLoop fuel acc) (Parser.parametersLoop (fuel + 1) acc) := by
  induction fuel with
  | zero => exact fun _ => ParserM.le_timeout _
  | succ n ih =>
    intro acc
    refine ParserM.le_of_eq (Parser.parametersLoop.eq_2 _ _) (Parser.parametersLoop.eq_2 _ _) ?_
    refine ParserM.le_bind (ParserM.le_refl _) (fun _ => ?_)
    refine ParserM.le_ite _ (ParserM.le_refl _) ?_
    refine ParserM.le_bind (ParserM.le_refl _) (fun _ => ?_)
    refine ParserM.le_bind (ParserM.le_refl _) (fun _ => ?_)
    exact ParserM.le_ite _ (ih _) (ParserM.le_refl _)

theorem Parser.synchronizeLoop_le (fuel : Nat) :
    ParserM.Le (Parser.synchronizeLoop fuel) (Parser.synchronizeLoop (fuel + 1)) := by
  induction fuel with
  | zero => exact ParserM.le_timeout _
  | succ n ih =>
    refine ParserM.le_of_eq (Parser.synchronizeLoop.eq_2 _) (Parser.synchronizeLoop.eq_2 _) ?_
    refine ParserM.le_bind (ParserM.le_refl _) (fun _ => ?_)
    refine ParserM.le_ite _ ?_ (ParserM.le_refl _)
    refine ParserM.le_bind (ParserM.le_refl _) (fun _ => ?_)
    refine ParserM.le_ite _ (ParserM.le_refl _) ?_
    refine ParserM.le_bind (ParserM.le_refl _) (fun _ => ?_)
    refine ParserM.le_bind (ParserM.le_refl _) (fun t => ?_)
    cases t.type
    all_goals first
      | exact ParserM.le_refl _
      | exact ParserM.le_bind (ParserM.le_refl _) (fun _ => ih)

theorem Parser.stableAt_zero : Parser.StableAt 0 := by
  constructor
  all_goals first
    | exact ParserM.le_timeout _
    | exact fun _ => ParserM.le_timeout _

theorem Parser.stableAt_succ (fuel : Nat) (ih : Parser.StableAt fuel) :
    Parser.StableAt (fuel + 1) := by
  constructor
  all_goals try intro (acc : List Stmt)
  all_goals try intro (acc : List Expr)
  all_goals try intro (acc : Expr)
  all_goals first
    | with_reducible refine ParserM.le_of_eq (Parser.declaration.eq_2 _) (Parser.declaration.eq_2 _) ?_
    | with_reducible refine ParserM.le_of_eq (Parser.varDeclaration.eq_2 _) (Parser.varDeclaration.eq_2 _) ?_
    | with_reducible refine ParserM.le_of_eq (Parser.functionDeclaration.eq_2 _) (Parser.functionDeclaration.eq_2 _) ?_
    | with_reducible refine ParserM.le_of_eq (Parser.statement.eq_2 _) (Parser.statement.eq_2 _) ?_
    | with_reducible refine ParserM.le_of_eq (Parser.ifStatement.eq_2 _) (Parser.ifStatement.eq_2 _) ?_
    | with_reducible refine ParserM.le_of_eq (Parser.whileStatement.eq_2 _) (Parser.whileStatement.eq_2 _) ?_
    | with_reducible refine ParserM.le_of_eq (Parser.returnStatement.eq_2 _) (Parser.returnStatement.eq_2 _) ?_
    | with_reducible refine ParserM.le_of_eq (Parser.printStatement.eq_2 _) (Parser.printStatement.eq_2 _) ?_
    | with_reducible refine ParserM.le_of_eq (Parser.blockStatement.eq_2 _) (Parser.blockStatement.eq_2 _) ?_
    | with_reducible refine ParserM.le_of_eq (Parser.blockLoop.eq_2 _ _) (Parser.blockLoop.eq_2 _ _) ?_
    | with_reducible refine ParserM.le_of_eq (Parser.expressionStatement.eq_2 _) (Parser.expressionStatement.eq_2 _) ?_
    | with_reducible refine ParserM.le_of_eq (Parser.expression.eq_2 _) (Parser.expression.eq_2 _) ?_
    | with_reducible refine ParserM.le_of_eq (Parser.assignment.eq_2 _) (Parser.assignment.eq_2 _) ?_
    | with_reducible refine ParserM.le_of_eq (Parser.logicalOr.eq_2 _) (Parser.logicalOr.eq_2 _) ?_
    | with_reducible refine ParserM.le_of_eq (Parser.logicalOrLoop.eq_2 _ _) (Parser.logicalOrLoop.eq_2 _ _) ?_
    | with_reducible refine ParserM.le_of_eq (Parser.logicalAnd.eq_2 _) (Parser.logicalAnd.eq_2 _) ?_
    | with_reducible refine ParserM.le_of_eq (Parser.logicalAndLoop.eq_2 _ _) (Parser.logicalAndLoop.eq_2 _ _) ?_
    | with_reducible refine ParserM.le_of_eq (Parser.equality.eq_2 _) (Parser.equality.eq_2 _) ?_
    | with_reducible refine ParserM.le_of_eq (Parser.equalityLoop.eq_2 _ _) (Parser.equalityLoop.eq_2 _ _) ?_
    | with_reducible refine ParserM.le_of_eq (Parser.comparison.eq_2 _) (Parser.comparison.eq_2 _) ?_
    | with_reducible refine ParserM.le_of_eq (Parser.comparisonLoop.eq_2 _ _) (Parser.comparisonLoop.eq_2 _ _) ?_
    | with_reducible refine ParserM.le_of_eq (Parser.term.eq_2 _) (Parser.term.eq_2 _) ?_
    | with_reducible refine ParserM.le_of_eq (Parser.termLoop.eq_2 _ _) (Parser.termLoop.eq_2 _ _) ?_
    | with_reducible refine ParserM.le_of_eq (Parser.factor.eq_2 _) (Parser.factor.eq_2 _) ?_
    | with_reducible refine ParserM.le_of_eq (Parser.factorLoop.eq_2 _ _) (Parser.factorLoop.eq_2 _ _) ?_
    | with_reducible refine ParserM.le_of_eq (Parser.unary.eq_2 _) (Parser.unary.eq_2 _) ?_
    | with_reducible refine ParserM.le_of_eq (Parser.call.eq_2 _) (Parser.call.eq_2 _) ?_
    | with_reducible refine ParserM.le_of_eq (Parser.callLoop.eq_2 _ _) (Parser.callLoop.eq_2 _ _) ?_
    | with_reducible refine ParserM.le_of_eq (Parser.primary.eq_2 _) (Parser.primary.eq_2 _) ?_
    | with_reducible refine ParserM.le_of_eq (Parser.arguments.eq_2 _) (Parser.arguments.eq_2 _) ?_
    | with_reducible refine ParserM.le_of_eq (Parser.argumentsLoop.eq_2 _ _) (Parser.argumentsLoop.eq_2 _ _) ?_
  all_goals
    repeat' first
      | with_reducible exact ParserM.le_refl _
      | with_reducible exact Parser.parametersLoop_le _ _
      | with_reducible exact ih.declaration
      | with_reducible exact ih.varDeclaration
      | with_reducible exact ih.functionDeclaration
      | with_reducible exact ih.statement
      | with_reducible exact ih.ifStatement
      | with_reducible exact ih.whileStatement
      | with_reducible exact ih.returnStatement
      | with_reducible exact ih.printStatement
      | with_reducible exact ih.blockStatement
      | with_reducible exact ih.blockLoop _
      | with_reducible exact ih.expressionStatement
      | with_reducible exact ih.expression
      | with_reducible exact ih.assignment
      | with_reducible exact ih.logicalOr
      | with_reducible exact ih.logicalOrLoop _
      | with_reducible exact ih.logicalAnd
      | with_reducible exact ih.logicalAndLoop _
      | with_reducible exact ih.equality
      | with_reducible exact ih.equalityLoop _
      | with_reducible exact ih.comparison
      | with_reducible exact ih.comparisonLoop _
      | with_reducible exact ih.term
      | with_reducible exact ih.termLoop _
      | with_reducible exact ih.factor
      | with_reducible exact ih.factorLoop _
      | with_reducible exact ih.unary
      | with_reducible exact ih.call
      | with_reducible exact ih.callLoop _
      | with_reducible exact ih.primary
      | with_reducible exact ih.arguments
      | with_reducible exact ih.argumentsLoop _
      | with_reducible refine ParserM.le_bind ?_ (fun _ => ?_)
      | with_reducible apply ParserM.le_ite

theorem Parser.stableAt (fuel : Nat) : Parser.StableAt fuel := by
  induction fuel with
  | zero => exact Parser.stableAt_zero
  | succ n ih => exact Parser.stableAt_succ n ih

theorem Parser.synchronize_le (fuel : Nat) :
    ParserM.Le (Parser.synchronize fuel) (Parser.synchronize (fuel + 1)) :=
  ParserM.le_bind (ParserM.le_refl _) (fun _ => Parser.synchronizeLoop_le fuel)

theorem Parser.programLoop_le (fuel : Nat) :
    ∀ acc, ParserM.Le (Parser.programLoop fuel acc) (Parser.programLoop (fuel + 1) acc) := by
  induction fuel with
  | zero => exact fun _ => ParserM.le_timeout _
  | succ n ih =>
    intro acc
    refine ParserM.le_of_eq (Parser.programLoop.eq_2 _ _) (Parser.programLoop.eq_2 _ _) ?_
    refine ParserM.le_bind (ParserM.le_refl _) (fun _ => ?_)
    refine ParserM.le_ite _ ?_ (ParserM.le_refl _)
    refine ParserM.le_bind (ParserM.le_refl _) (fun _ => ?_)
    refine ParserM.le_ite _ (ih _) ?_
    intro p
    dsimp only []
    rcases (Parser.stableAt n).declaration p with h | h
    · left; rw [h]
    · rw [h]
      cases Parser.declaration n p with
      | ok stmt p1 => exact ih _ p1
      | exception e p1 =>
        cases e with
        | runtime_error what =>
          exact ParserM.le_bind (Parser.synchronize_le n) (fun _ => ih _) _
        | invalid_argument what => exact Or.inr rfl
        | out_of_range what => exact Or.inr rfl
      | fault => exact Or.inr rfl
      | timeout => exact Or.inl rfl

/-- A result of `parse` that is not a timeout is the result with any larger
fuel. -/
theorem Parser.parse_stable (fuel : Nat) (tokens : List Token)
    (h : Parser.parse fuel tokens ≠ .timeout) :
    ∀ n, Parser.parse (fuel + n) tokens = Parser.parse fuel tokens := by
  have hstep : ∀ k, Parser.parse k tokens = .timeout ∨
      Parser.parse (k + 1) tokens = Parser.parse k tokens := fun k =>
    ParserM.le_bind (Parser.programLoop_le k []) (fun _ => ParserM.le_refl _) (Parser.new tokens)
  intro n
  induction n with
  | zero => rfl
  | succ n ih =>
    rcases hstep (fuel + n) with h1 | h1
    · rw [ih] at h1; exact absurd h1 h
    · rw [← Nat.add_assoc, h1, ih]

/-! ## Recovery after a parse error -/

/-- The loop of `synchronize` from the position `j`: it ends at the first
position from `j` on at which its test holds. -/
theorem Parser.synchronizeLoop_from (T : Prop) (ts : List Token) (cerr : List String)
    (hts : endsWithEof ts = true) (fuel : Nat) :
    ∀ j, 1 ≤ j → j < ts.length → (T ∨ ts.length ≤ fuel + j) →
      match Parser.synchronizeLoop fuel ⟨ts, j, cerr⟩ with
      | .ok _ p1 => ∃ q, p1 = ⟨ts, q, cerr⟩ ∧ j ≤ q ∧ q < ts.length ∧
          Parser.synchronizeStops ts q = true ∧
          ∀ i, j ≤ i → i < q → Parser.synchronizeStops ts i = false
      | .exception _ _ => False
      | .fault => False
      | .timeout => T := by
  induction fuel with
  | zero =>
    intro j _ hj h
    rcases h with h | h
    · exact h
    · omega
  | succ n ih =>
    intro j h1 hj h
    have ht : ts[j]? = some ts[j] := List.getElem?_eq_getElem hj
    have ht0 : ts[j - 1]? = some ts[j - 1] := List.getElem?_eq_getElem (by omega)
    have hend := Parser.isAtEnd_at ts j cerr ts[j] ht
    have hprev : Parser.previous ⟨ts, j, cerr⟩ = .ok ts[j - 1] ⟨ts, j, cerr⟩ := by
      unfold Parser.previous
      simp only []
      rw [if_neg (by omega), ht0]
    rw [Parser.synchronizeLoop, ParserM.bind_ok _ _ _ _ _ hend]
    by_cases he : ts[j].type = .END_OF_FILE
    · rw [he]
      refine ⟨j, rfl, Nat.le_refl _, hj, ?_, fun i h2 h3 => by omega⟩
      simp [Parser.synchronizeStops, ht, he]
    · have hb : (ts[j].type == TokenType.END_OF_FILE) = false := by simpa using he
      rw [hb]
      simp only [Bool.not_false, if_true]
      rw [ParserM.bind_ok _ _ _ _ _ hprev]
      by_cases hs : ts[j - 1].type = .SEMICOLON
      · rw [hs]
        refine ⟨j, rfl, Nat.le_refl _, hj, ?_, fun i h2 h3 => by omega⟩
        have hj0 : (j != 0) = true := by simp; omega
        simp [Parser.synchronizeStops, ht, ht0, hs, hj0]
      · have hsb : (ts[j - 1].type == TokenType.SEMICOLON) = false := by simpa using hs
        rw [hsb]
        simp only [Bool.false_eq_true, if_false]
        rw [ParserM.bind_ok _ _ _ _ _ (rfl : (pure PUnit.unit : ParserM PUnit) _ = .ok _ _)]
        rw [ParserM.bind_ok _ _ _ _ _ (Parser.peek_at ts j cerr ts[j] ht)]
        have hnext : j + 1 < ts.length := endsWithEof_next ts j ts[j] hts ht he
        have hadv : Parser.advance ⟨ts, j, cerr⟩ = .ok ts[j] ⟨ts, j + 1, cerr⟩ :=
          Parser.advance_hit ⟨ts, j, cerr⟩ ts[j] ht he
        have hrec := ih (j + 1) (by omega) hnext (Or.imp_right (fun h => by omega) h)
        have hstop : ∀ b : Bool,
            (match ts[j].type with
              | .FUN | .LET | .IF | .WHILE | .RETURN | .PRINT => true
              | _ => false) = b →
            Parser.synchronizeStops ts j = b := by
          intro b hb1
          simp only [Parser.synchronizeStops, ht, ht0, hb, hsb, Bool.and_false, Bool.false_or, hb1]
        cases hty : ts[j].type
        all_goals first
          | (rw [hty] at hstop
             refine ⟨j, rfl, Nat.le_refl _, hj, hstop true rfl, fun i h2 h3 => by omega⟩)
          | (rw [hty] at hstop
             have hj1 := hstop false rfl
             simp only []
             rw [ParserM.bind_ok _ _ _ _ _ hadv]
             revert hrec
             cases Parser.synchronizeLoop n ⟨ts, j + 1, cerr⟩ with
             | ok u p1 =>
               rintro ⟨q, hq1, hq2, hq3, hq4, hq5⟩
               refine ⟨q, hq1, by omega, hq3, hq4, fun i h2 h3 => ?_⟩
               rcases Nat.eq_or_lt_of_le h2 with h4 | h4
               · rw [← h4]; exact hj1
               · exact hq5 i h4 h3
             | exception x p1 => exact id
             | fault => exact id
             | timeout => exact id)

/-- What `synchronize` does at the position `j`: at END_OF_FILE it stays, at
any other token it moves over that token and then to the first position at
which the test of its loop holds. -/
theorem Parser.synchronize_from (T : Prop) (ts : List Token) (cerr : List String)
    (hts : endsWithEof ts = true) (fuel j : Nat) (t : Token) (ht : ts[j]? = some t)
    (hpos : t.type = .END_OF_FILE → 1 ≤ j) (hfuel : T ∨ ts.length ≤ fuel + j) :
    match Parser.synchronize fuel ⟨ts, j, cerr⟩ with
    | .ok _ p1 => ∃ q, p1 = ⟨ts, q, cerr⟩ ∧ q < ts.length ∧
        Parser.synchronizeStops ts q = true ∧ (t.type = .END_OF_FILE → q = j) ∧
        (t.type ≠ .END_OF_FILE →
          j < q ∧ ∀ i, j < i → i < q → Parser.synchronizeStops ts i = false)
    | .exception _ _ => False
    | .fault => False
    | .timeout => T := by
  have hj : j < ts.length := by
    rcases Nat.lt_or_ge j ts.length with h1 | h1
    · exact h1
    · rw [List.getElem?_eq_none h1] at ht; cases ht
  unfold Parser.synchronize
  by_cases he : t.type = .END_OF_FILE
  · have h1 := hpos he
    have ht0 : ts[j - 1]? = some ts[j - 1] := List.getElem?_eq_getElem (by omega)
    rw [ParserM.bind_ok _ _ _ _ _
      (Parser.advance_end ⟨ts, j, cerr⟩ t ts[j - 1] ht he (by show j ≠ 0; omega) ht0)]
    have hl := Parser.synchronizeLoop_from T ts cerr hts fuel j h1 hj hfuel
    revert hl
    cases Parser.synchronizeLoop fuel ⟨ts, j, cerr⟩ with
    | ok u p1 =>
      rintro ⟨q, hq1, hq2, hq3, hq4, hq5⟩
      have hsj : Parser.synchronizeStops ts j = true := by
        simp [Parser.synchronizeStops, ht, he]
      have hqj : q = j := by
        by_contra hne
        have := hq5 j (Nat.le_refl _) (by omega)
        rw [hsj] at this
        cases this
      exact ⟨q, hq1, hq3, hq4, fun _ => hqj, fun h => absurd he h⟩
    | exception x p1 => exact id
    | fault => exact id
    | timeout => exact id
  · rw [ParserM.bind_ok _ _ _ _ _ (Parser.advance_hit ⟨ts, j, cerr⟩ t ht he)]
    have hnext : j + 1 < ts.length := endsWithEof_next ts j t hts ht he
    have hl := Parser.synchronizeLoop_from T ts cerr hts fuel (j + 1) (by omega) hnext
      (Or.imp_right (fun h => by omega) hfuel)
    revert hl
    show (match Parser.synchronizeLoop fuel ⟨ts, j + 1, cerr⟩ with
      | .ok _ p1 => _
      | .exception _ _ => False
      | .fault => False
      | .timeout => T) → _
    cases Parser.synchronizeLoop fuel ⟨ts, j + 1, cerr⟩ with
    | ok u p1 =>
      rintro ⟨q, hq1, hq2, hq3, hq4, hq5⟩
      exact ⟨q, hq1, hq3, hq4, fun h => absurd h he,
        fun _ => ⟨by omega, fun i h2 h3 => hq5 i (by omega) h3⟩⟩
    | exception x p1 => exact id
    | fault => exact id
    | timeout => exact id

/-- The loop of `program` stays within the tokens; it ends when the fuel is at
least twenty times the number of tokens from the position on, plus twenty. -/
theorem Parser.runs_programLoop (T : Prop) (ts : List Token) (fuel : Nat) :
    ∀ (c : Nat) (acc : List Stmt), (T ∨ 20 * ts.length + 20 ≤ fuel + 20 * c) →
      ParserM.Runs T ts c (Parser.programLoop fuel acc) c c := by
  induction fuel with
  | zero =>
    intro c acc h
    exact ParserM.runs_timeout (Or.imp_right (fun h => by omega) h)
  | succ n ih =>
    intro c acc hfuel p hp
    obtain ⟨t, ht, hend⟩ := Parser.isAtEnd_from hp
    rw [Parser.programLoop, ParserM.bind_ok _ _ _ _ _ hend]
    by_cases he : t.type = .END_OF_FILE
    · rw [he]
      exact hp
    · have hb : (t.type == TokenType.END_OF_FILE) = false := by simpa using he
      rw [hb]
      simp only [Bool.not_false, if_true]
      rcases Parser.match_from hp [.NEWLINE] with hm | ⟨hm, hm1⟩
      · rw [ParserM.bind_ok _ _ _ _ _ hm]
        simp only [Bool.false_eq_true, if_false]
        have hp0 : Parser.From ts p.current p := ⟨hp.1, Nat.le_refl _, hp.2.2⟩
        have hc := hp.2.1
        have hd := (Parser.runsAt T n).declaration ts p.current
          (Or.imp_right (fun h => by omega) hfuel) p hp0
        revert hd
        cases Parser.declaration n p with
        | ok stmt p1 =>
          intro hd
          exact ParserM.runs_mono (ih (c + 1) _ (Or.imp_right (fun h => by omega) hfuel))
            (Nat.le_succ c) (Nat.le_succ c) p1 (hd.mono (by omega))
        | exception e p1 =>
          intro hd
          cases e with
          | runtime_error what =>
            dsimp only []
            obtain ⟨t1, ht1⟩ := hd.token
            have hpos : t1.type = .END_OF_FILE → 1 ≤ p1.current := by
              intro h1
              by_contra hlt
              have h0 : p1.current = p.current := by have := hd.2.1; omega
              rw [h0, hd.1, ← hp.1, ht] at ht1
              cases ht1
              exact he h1
            have hs := Parser.synchronize_from T ts (p1.cerr ++ ["Parse error: " ++ what]) hp.2.2.2
              n p1.current t1 (hd.1 ▸ ht1) hpos (Or.imp_right (fun h => by
                have := hd.2.1
                have := hp.2.2.1
                omega) hfuel)
            have hstate : ({ p1 with cerr := p1.cerr ++ ["Parse error: " ++ what] } : Parser) =
                ⟨ts, p1.current, p1.cerr ++ ["Parse error: " ++ what]⟩ := by
              rw [← hd.1]
            rw [hstate]
            cases hsync : Parser.synchronize n
                ⟨ts, p1.current, p1.cerr ++ ["Parse error: " ++ what]⟩ with
            | ok u p2 =>
              rw [hsync] at hs
              obtain ⟨q, hq1, hq2, hq3, hq4, hq5⟩ := hs
              rw [ParserM.bind_ok _ _ _ _ _ hsync]
              refine ParserM.runs_mono (ih (c + 1) _ (Or.imp_right (fun h => by omega) hfuel))
                (Nat.le_succ c) (Nat.le_succ c) p2 ?_
              rw [hq1]
              refine ⟨rfl, ?_, hq2, hp.2.2.2⟩
              show c + 1 ≤ q
              by_cases h1 : t1.type = .END_OF_FILE
              · rw [hq4 h1]
                have := hpos h1
                have := hd.2.1
                by_contra hlt
                have h0 : p1.current = p.current := by omega
                rw [h0, hd.1, ← hp.1, ht] at ht1
                cases ht1
                exact he h1
              · have := (hq5 h1).1; have := hd.2.1; omega
            | exception x p2 => rw [hsync] at hs; exact hs.elim
            | fault => rw [hsync] at hs; exact hs.elim
            | timeout =>
              rw [hsync] at hs
              rw [ParserM.bind_timeout _ _ _ hsync]
              exact hs
          | invalid_argument what => exact hd.mono hc
          | out_of_range what => exact hd.mono hc
        | fault => exact id
        | timeout => exact id
      · rw [ParserM.bind_ok _ _ _ _ _ hm]
        simp only [if_true]
        exact ParserM.runs_mono (ih (c + 1) _ (Or.imp_right (fun h => by omega) hfuel))
          (Nat.le_succ c) (Nat.le_succ c) _ hm1

/-- One turn of the loop of `program` at a token other than END_OF_FILE: the
loop goes on at a later position, or an exception leaves it, or the fuel is
used up. -/
theorem Parser.programLoop_turn (tokens : List Token) (heof : endsWithEof tokens = true)
    (f : Nat) (acc : List Stmt) (p : Parser) (t : Token) (hp : p.tokens = tokens)
    (ht : tokens[p.current]? = some t) (hne : t.type ≠ .END_OF_FILE) :
    (∃ acc1 p1, Parser.programLoop (f + 1) acc p = Parser.programLoop f acc1 p1 ∧
      p1.tokens = tokens ∧ p.current < p1.current) ∨
    (∃ e p1, Parser.programLoop (f + 1) acc p = .exception e p1) ∨
    Parser.programLoop (f + 1) acc p = .timeout := by
  have hin : p.current < tokens.length := by
    rcases Nat.lt_or_ge p.current tokens.length with h1 | h1
    · exact h1
    · rw [List.getElem?_eq_none h1] at ht; cases ht
  have hfrom : Parser.From tokens p.current p := ⟨hp, Nat.le_refl _, hin, heof⟩
  have ht' : p.tokens[p.current]? = some t := by rw [hp]; exact ht
  have hb : (t.type == TokenType.END_OF_FILE) = false := by simpa using hne
  have hend : Parser.isAtEnd p = .ok false p := by
    have := Parser.isAtEnd_at p.tokens p.current p.cerr t ht'
    rw [hb] at this
    exact this
  rcases Parser.match_from hfrom [.NEWLINE] with hm | ⟨hm, hm1⟩
  · have hd := (Parser.runsAt True f).declaration tokens p.current (Or.inl trivial) p hfrom
    cases hdecl : Parser.declaration f p with
    | ok stmt p1 =>
      rw [hdecl] at hd
      exact Or.inl ⟨_, p1, Parser.programLoop_ok f p p1 acc stmt hend hm hdecl, hd.1, hd.2.1⟩
    | exception e p1 =>
      rw [hdecl] at hd
      cases e with
      | runtime_error what =>
        have hloop := Parser.programLoop_caught f p p1 acc what hend hm hdecl
        obtain ⟨t1, ht1⟩ := hd.token
        have ht1' : tokens[p1.current]? = some t1 := by rw [← hd.1]; exact ht1
        have hpos : t1.type = .END_OF_FILE → 1 ≤ p1.current := by
          intro h1
          by_contra hlt
          have h0 : p1.current = p.current := by have := hd.2.1; omega
          rw [h0, ht] at ht1'
          cases ht1'
          exact hne h1
        have hs := Parser.synchronize_from True tokens (p1.cerr ++ ["Parse error: " ++ what])
          heof f p1.current t1 ht1' hpos (Or.inl trivial)
        have hstate : ({ p1 with cerr := p1.cerr ++ ["Parse error: " ++ what] } : Parser) =
            ⟨tokens, p1.current, p1.cerr ++ ["Parse error: " ++ what]⟩ := by
          rw [← hd.1]
        rw [hstate] at hloop
        cases hsync : Parser.synchronize f
            ⟨tokens, p1.current, p1.cerr ++ ["Parse error: " ++ what]⟩ with
        | ok u p2 =>
          rw [hsync] at hs
          obtain ⟨q, hq1, hq2, hq3, hq4, hq5⟩ := hs
          rw [ParserM.bind_ok _ _ _ _ _ hsync, hq1] at hloop
          refine Or.inl ⟨_, _, hloop, rfl, ?_⟩
          show p.current < q
          by_cases h1 : t1.type = .END_OF_FILE
          · rw [hq4 h1]
            have := hpos h1
            have := hd.2.1
            by_contra hlt
            have h0 : p1.current = p.current := by omega
            rw [h0, ht] at ht1'
            cases ht1'
            exact hne h1
          · have := (hq5 h1).1; have := hd.2.1; omega
        | exception x p2 => rw [hsync] at hs; exact hs.elim
        | fault => rw [hsync] at hs; exact hs.elim
        | timeout =>
          rw [ParserM.bind_timeout _ _ _ hsync] at hloop
          exact Or.inr (Or.inr hloop)
      | invalid_argument what =>
        exact Or.inr (Or.inl ⟨_, p1, Parser.programLoop_escapes f p p1 acc _ hend hm hdecl
          (fun _ => nofun)⟩)
      | out_of_range what =>
        exact Or.inr (Or.inl ⟨_, p1, Parser.programLoop_escapes f p p1 acc _ hend hm hdecl
          (fun _ => nofun)⟩)
    | fault => rw [hdecl] at hd; exact hd.elim
    | timeout =>
      refine Or.inr (Or.inr ?_)
      simp only [Parser.programLoop]
      rw [ParserM.bind_ok _ _ _ _ _ hend]
      simp only [Bool.not_false, if_true]
      rw [ParserM.bind_ok _ _ _ _ _ hm]
      simp only [Bool.false_eq_true, if_false, hdecl]
  · refine Or.inl ⟨acc, _, ?_, hm1.1, Nat.lt_succ_self _⟩
    simp only [Parser.programLoop]
    rw [ParserM.bind_ok _ _ _ _ _ hend]
    simp only [Bool.not_false, if_true]
    rw [ParserM.bind_ok _ _ _ _ _ hm]
    simp only [if_true]

/-- One turn of the loop of `blockStatement` at a token other than
END_OF_FILE and `\x7d`: the loop goes on at a later position, or an exception
leaves it, or the fuel is used up. -/
theorem Parser.blockLoop_turn (tokens : List Token) (heof : endsWithEof tokens = true)
    (f : Nat) (acc : List Stmt) (p : Parser) (t : Token) (hp : p.tokens = tokens)
    (ht : tokens[p.current]? = some t) (hne : t.type ≠ .END_OF_FILE)
    (hnb : t.type ≠ .RIGHT_BRACE) :
    (∃ acc1 p1, Parser.blockLoop (f + 1) acc p = Parser.blockLoop f acc1 p1 ∧
      p1.tokens = tokens ∧ p.current < p1.current) ∨
    (∃ e p1, Parser.blockLoop (f + 1) acc p = .exception e p1) ∨
    Parser.blockLoop (f + 1) acc p = .timeout := by
  have hin : p.current < tokens.length := by
    rcases Nat.lt_or_ge p.current tokens.length with h1 | h1
    · exact h1
    · rw [List.getElem?_eq_none h1] at ht; cases ht
  have hfrom : Parser.From tokens p.current p := ⟨hp, Nat.le_refl _, hin, heof⟩
  have ht' : p.tokens[p.current]? = some t := by rw [hp]; exact ht
  have hb : (t.type == TokenType.END_OF_FILE) = false := by simpa using hne
  have hend : Parser.isAtEnd p = .ok false p := by
    have := Parser.isAtEnd_at p.tokens p.current p.cerr t ht'
    rw [hb] at this
    exact this
  have hcheck : Parser.check .RIGHT_BRACE p = .ok false p := by
    have := Parser.check_at p.tokens p.current p.cerr t ht' .RIGHT_BRACE
    have hb2 : (t.type == TokenType.RIGHT_BRACE) = false := by simpa using hnb
    rw [hb2, Bool.and_false] at this
    exact this
  have hunfold : Parser.blockLoop (f + 1) acc p =
      (Parser.match_ [.NEWLINE] >>= fun r =>
        if r = true then Parser.blockLoop f acc
        else Parser.declaration f >>= fun stmt => Parser.blockLoop f (acc ++ [stmt])) p := by
    rw [Parser.blockLoop, ParserM.bind_ok _ _ _ _ _ hcheck, ParserM.bind_ok _ _ _ _ _ hend]
    simp only [Bool.not_false, Bool.and_self, if_true]
  rw [hunfold]
  rcases Parser.match_from hfrom [.NEWLINE] with hm | ⟨hm, hm1⟩
  · rw [ParserM.bind_ok _ _ _ _ _ hm]
    simp only [Bool.false_eq_true, if_false]
    have hd := (Parser.runsAt True f).declaration tokens p.current (Or.inl trivial) p hfrom
    cases hdecl : Parser.declaration f p with
    | ok stmt p1 =>
      rw [hdecl] at hd
      exact Or.inl ⟨_, p1, ParserM.bind_ok _ _ _ _ _ hdecl, hd.1, hd.2.1⟩
    | exception e p1 =>
      exact Or.inr (Or.inl ⟨e, p1, ParserM.bind_exception _ _ _ _ _ hdecl⟩)
    | fault => rw [hdecl] at hd; exact hd.elim
    | timeout => exact Or.inr (Or.inr (ParserM.bind_timeout _ _ _ hdecl))
  · rw [ParserM.bind_ok _ _ _ _ _ hm]
    simp only [if_true]
    exact Or.inl ⟨acc, _, rfl, hm1.1, Nat.lt_succ_self _⟩

theorem ParserM.appends_bind {α β : Type} {acc : List α} (s : ParserM β)
    {f f0 : β → ParserM (List α)} (h : ∀ b, ParserM.Appends acc (f b) (f0 b)) :
    ParserM.Appends acc (s >>= f) (s >>= f0) := by
  intro p
  change ParserM.bind s f p = (ParserM.bind s f0 p).mapOk _
  unfold ParserM.bind
  cases s p with
  | ok b p1 => exact h b p1
  | exception e p1 => rfl
  | fault => rfl
  | timeout => rfl

theorem ParserM.appends_ite {α : Type} {acc : List α} (cond : Prop) [Decidable cond]
    {a a0 b b0 : ParserM (List α)} (ha : ParserM.Appends acc a a0)
    (hb : ParserM.Appends acc b b0) :
    ParserM.Appends acc (if cond then a else b) (if cond then a0 else b0) := by
  split
  · exact ha
  · exact hb

/-- The loop of `program` that starts with the statements `acc` returns `acc`
followed by what the loop returns that starts with no statement. -/
theorem Parser.programLoop_appends (fuel : Nat) :
    ∀ acc, ParserM.Appends acc (Parser.programLoop fuel acc) (Parser.programLoop fuel []) := by
  induction fuel with
  | zero => exact fun _ _ => rfl
  | succ n ih =>
    intro acc
    rw [Parser.programLoop.eq_2 acc n, Parser.programLoop.eq_2 [] n]
    refine ParserM.appends_bind _ (fun _ => ?_)
    refine ParserM.appends_ite _ ?_ (fun p => by simp [ParseResult.mapOk, pure])
    refine ParserM.appends_bind _ (fun _ => ?_)
    refine ParserM.appends_ite _ (ih acc) ?_
    intro p
    dsimp only []
    cases Parser.declaration n p with
    | ok stmt p1 =>
      dsimp only []
      rw [ih (acc ++ [stmt]) p1, ih ([] ++ [stmt]) p1]
      cases Parser.programLoop n [] p1 with
      | ok ss pf => simp [ParseResult.mapOk]
      | exception e pf => rfl
      | fault => rfl
      | timeout => rfl
    | exception e p1 =>
      cases e with
      | runtime_error what => exact ParserM.appends_bind _ (fun _ => ih acc) _
      | invalid_argument what => rfl
      | out_of_range what => rfl
    | fault => rfl
    | timeout => rfl

/-! ## C32: where parsing resumes after an error -/

/-- C32 (counterexample): in `let print 1` the error `Expected variable name`
is detected at position 1, where the token is the keyword `print`, and the
statement `print 1` that starts there is well formed; but `synchronize` moves
over the token at the error position before it looks for a keyword, so parsing
resumes at END_OF_FILE and the Program is empty.  In `let = ; print 1` the
token at the error position is `=`, parsing resumes after the semicolon and the
Program holds the Print statement. -/
theorem Parser.recovery_skips_keyword_at_error :
    lex "let print 1" = skippedPrintTokens ∧
    Parser.declaration 39 ⟨skippedPrintTokens, 0, []⟩ =
      .exception (.runtime_error "Parse error at line 1: Expected variable name")
        ⟨skippedPrintTokens, 1, []⟩ ∧
    skippedPrintTokens[1]? = some ⟨.PRINT, "print", 1, 5⟩ ∧
    Parser.declaration 39 ⟨skippedPrintTokens, 1, []⟩ =
      .ok (.print (.literal (.number (Number.ofNat 1)))) ⟨skippedPrintTokens, 3, []⟩ ∧
    Parser.synchronize 39 ⟨skippedPrintTokens, 1, []⟩ = .ok () ⟨skippedPrintTokens, 3, []⟩ ∧
    Parser.parse 40 skippedPrintTokens =
      .ok { statements := [] }
        ⟨skippedPrintTokens, 3,
          ["Parse error: Parse error at line 1: Expected variable name"]⟩ ∧
    lex "let = ; print 1" = recoveryTokens ∧
    Parser.parse 40 recoveryTokens =
      .ok { statements := [.print (.literal (.number (Number.ofNat 1)))] }
        ⟨recoveryTokens, 5,
          ["Parse error: Parse error at line 1: Expected variable name"]⟩ := by
  refine ⟨by decide!, rfl, rfl, rfl, rfl, rfl, by decide!, rfl⟩

/-- C32 (amended): let `declaration`, called by the loop of `program` at a
token that is neither END_OF_FILE nor NEWLINE, raise a parse error at the
position `p1.current`, with fuel for at least the number of tokens.  Then the
loop reports the error and goes on, with the statements it had, at a position
`q` within the tokens at which the test of `synchronize` holds: END_OF_FILE is
there, or a SEMICOLON is just before, or one of `fun`, `let`, `if`, `while`,
`return`, `print` is there.  If the token at the error position is END_OF_FILE,
`q` is the error position; otherwise `q` is the first such position after the
error position, whose token is skipped whatever it is.  What the loop returns
is the statements parsed before the error followed by what it returns when
started at `q` with no statement; a statement that `declaration` reads at `q`
comes first in that. -/
theorem Parser.recovery_resumes_after_error_token (fuel : Nat) (p0 p1 : Parser)
    (acc : List Stmt) (what : String)
    (heof : endsWithEof p0.tokens = true) (hin : p0.current < p0.tokens.length)
    (hend : Parser.isAtEnd p0 = .ok false p0)
    (hnl : Parser.match_ [.NEWLINE] p0 = .ok false p0)
    (hfuel : p0.tokens.length ≤ fuel)
    (herr : Parser.declaration fuel p0 = .exception (.runtime_error what) p1) :
    ∃ q,
      Parser.programLoop (fuel + 1) acc p0 =
        (Parser.programLoop fuel []
          ⟨p0.tokens, q, p1.cerr ++ ["Parse error: " ++ what]⟩).mapOk
            (fun rest => acc ++ rest) ∧
      q < p0.tokens.length ∧ Parser.synchronizeStops p0.tokens q = true ∧
      (∀ t1, p0.tokens[p1.current]? = some t1 → t1.type = .END_OF_FILE → q = p1.current) ∧
      (∀ t1, p0.tokens[p1.current]? = some t1 → t1.type ≠ .END_OF_FILE →
        p1.current < q ∧
          ∀ i, p1.current < i → i < q → Parser.synchronizeStops p0.tokens i = false) ∧
      (∀ tq f stmt p2, p0.tokens[q]? = some tq → tq.type ≠ .END_OF_FILE →
        tq.type ≠ .NEWLINE → fuel = f + 1 →
        Parser.declaration f ⟨p0.tokens, q, p1.cerr ++ ["Parse error: " ++ what]⟩ =
          .ok stmt p2 →
        Parser.programLoop (fuel + 1) acc p0 =
          (Parser.programLoop f [] p2).mapOk (fun rest => acc ++ stmt :: rest)) := by
  have hp0 : Parser.From p0.tokens p0.current p0 := ⟨rfl, Nat.le_refl _, hin, heof⟩
  have hd := (Parser.runsAt True fuel).declaration p0.tokens p0.current (Or.inl trivial) p0 hp0
  rw [herr] at hd
  obtain ⟨t0, ht0, hend0⟩ := Parser.isAtEnd_from hp0
  have hne0 : t0.type ≠ .END_OF_FILE := by
    rw [hend] at hend0
    intro h
    rw [h] at hend0
    cases hend0
  obtain ⟨t1, ht1⟩ := hd.token
  have ht1' : p0.tokens[p1.current]? = some t1 := by rw [← hd.1]; exact ht1
  have hpos : t1.type = .END_OF_FILE → 1 ≤ p1.current := by
    intro h1
    by_contra hlt
    have h0 : p1.current = p0.current := by have := hd.2.1; omega
    rw [h0, ht0] at ht1'
    cases ht1'
    exact hne0 h1
  have hs := Parser.synchronize_from False p0.tokens (p1.cerr ++ ["Parse error: " ++ what])
    heof fuel p1.current t1 ht1' hpos (Or.inr (by omega))
  have hstate : ({ p1 with cerr := p1.cerr ++ ["Parse error: " ++ what] } : Parser) =
      ⟨p0.tokens, p1.current, p1.cerr ++ ["Parse error: " ++ what]⟩ := by
    rw [← hd.1]
  have hloop := Parser.programLoop_caught fuel p0 p1 acc what hend hnl herr
  rw [hstate] at hloop
  cases hsync : Parser.synchronize fuel
      ⟨p0.tokens, p1.current, p1.cerr ++ ["Parse error: " ++ what]⟩ with
  | ok u p2 =>
    rw [hsync] at hs
    obtain ⟨q, hq1, hq2, hq3, hq4, hq5⟩ := hs
    rw [ParserM.bind_ok _ _ _ _ _ hsync, hq1] at hloop
    refine ⟨q, ?_, hq2, hq3, ?_, ?_, ?_⟩
    · rw [hloop]
      exact Parser.programLoop_appends fuel acc _
    · intro t ht he
      rw [ht1'] at ht
      cases ht
      exact hq4 he
    · intro t ht he
      rw [ht1'] at ht
      cases ht
      exact hq5 he
    · intro tq f stmt p2 htq hqe hqn hf hdecl
      rw [hloop, hf]
      have hend1 := Parser.isAtEnd_at p0.tokens q (p1.cerr ++ ["Parse error: " ++ what]) tq htq
      have hb : (tq.type == TokenType.END_OF_FILE) = false := by simpa using hqe
      rw [hb] at hend1
      have hnl1 := Parser.match_miss p0.tokens q (p1.cerr ++ ["Parse error: " ++ what]) tq htq
        [.NEWLINE] (Or.inr (by simpa using hqn))
      rw [Parser.programLoop_ok f _ p2 acc stmt hend1 hnl1 hdecl,
        Parser.programLoop_appends f (acc ++ [stmt]) p2]
      cases Parser.programLoop f [] p2 with
      | ok ss pf => simp [ParseResult.mapOk]
      | exception e pf => rfl
      | fault => rfl
      | timeout => rfl
  | exception x p2 => rw [hsync] at hs; exact hs.elim
  | fault => rw [hsync] at hs; exact hs.elim
  | timeout => rw [hsync] at hs; exact hs.elim

/-- C32, on `let = ; print 1`: the error is detected at `=`, parsing resumes
after the semicolon, at `print`. -/
theorem Parser.recovery_resumes_after_error_token_witness :
    ∃ q,
      Parser.programLoop 40 [] ⟨recoveryTokens, 0, []⟩ =
        (Parser.programLoop 39 []
          ⟨recoveryTokens, q,
            [] ++ ["Parse error: " ++ "Parse error at line 1: Expected variable name"]⟩).mapOk
            (fun rest => [] ++ rest) ∧
      q < recoveryTokens.length ∧ Parser.synchronizeStops recoveryTokens q = true ∧
      (∀ t1, recoveryTokens[1]? = some t1 → t1.type = .END_OF_FILE → q = 1) ∧
      (∀ t1, recoveryTokens[1]? = some t1 → t1.type ≠ .END_OF_FILE →
        1 < q ∧ ∀ i, 1 < i → i < q → Parser.synchronizeStops recoveryTokens i = false) ∧
      (∀ tq f stmt p2, recoveryTokens[q]? = some tq → tq.type ≠ .END_OF_FILE →
        tq.type ≠ .NEWLINE → 39 = f + 1 →
        Parser.declaration f
            ⟨recoveryTokens, q,
              [] ++ ["Parse error: " ++ "Parse error at line 1: Expected variable name"]⟩ =
          .ok stmt p2 →
        Parser.programLoop 40 [] ⟨recoveryTokens, 0, []⟩ =
          (Parser.programLoop f [] p2).mapOk (fun rest => [] ++ stmt :: rest)) :=
  Parser.recovery_resumes_after_error_token 39 ⟨recoveryTokens, 0, []⟩ ⟨recoveryTokens, 1, []⟩
    [] "Parse error at line 1: Expected variable name" rfl (by decide) rfl rfl (by decide) rfl

/-! ## C33, C34: the parser ends and stays within the tokens -/

theorem endsWithEof_length_pos (ts : List Token) (h : endsWithEof ts = true) :
    0 < ts.length := by
  cases ts with
  | nil => cases h
  | cons t rest => exact Nat.succ_pos _

/-- The tokens of the lexer end with END_OF_FILE. -/
theorem lex_endsWithEof (source : String) : endsWithEof (lex source) = true := by
  have hshape : lex source =
      (Lexer.tokenizeLoop ((Lexer.new source).source.length + 1) (Lexer.new source) []).2 ++
        [{ type := .END_OF_FILE, lexeme := "",
           line := (Lexer.tokenizeLoop ((Lexer.new source).source.length + 1)
             (Lexer.new source) []).1.line,
           column := (Lexer.tokenizeLoop ((Lexer.new source).source.length + 1)
             (Lexer.new source) []).1.column }] := rfl
  unfold endsWithEof
  rw [hshape, List.getLast?_concat]
  rfl

/-- The whole of `parse` stays within the tokens, and ends when the fuel is at
least twenty times the number of tokens plus twenty. -/
theorem Parser.runs_parse (T : Prop) (tokens : List Token) (fuel : Nat)
    (heof : endsWithEof tokens = true) (hfuel : T ∨ 20 * tokens.length + 20 ≤ fuel) :
    match Parser.parse fuel tokens with
    | .ok _ p => Parser.From tokens 0 p
    | .exception _ p => Parser.From tokens 0 p
    | .fault => False
    | .timeout => T := by
  have h : ParserM.Runs T tokens 0 (Parser.program fuel) 0 0 := by
    unfold Parser.program
    exact ParserM.runs_bind
      (Parser.runs_programLoop T tokens fuel 0 [] (Or.imp_right (fun h => by omega) hfuel))
      (fun _ => ParserM.runs_pure _ (Nat.le_refl _))
  have h2 := h (Parser.new tokens)
    ⟨rfl, Nat.le_refl _, endsWithEof_length_pos tokens heof, heof⟩
  unfold Parser.parse
  revert h2
  cases Parser.program fuel (Parser.new tokens) with
  | ok a p1 => exact id
  | exception x p1 => exact id
  | fault => exact id
  | timeout => exact id

theorem Parser.peek_fault_iff (p : Parser) :
    Parser.peek p = .fault ↔ p.tokens.length ≤ p.current := by
  unfold Parser.peek
  constructor
  · intro h
    by_contra hlt
    rw [List.getElem?_eq_getElem (Nat.lt_of_not_le hlt)] at h
    cases h
  · intro h
    rw [List.getElem?_eq_none h]

theorem Parser.previous_fault_iff (p : Parser) :
    Parser.previous p = .fault ↔ p.current = 0 ∨ p.tokens.length < p.current := by
  unfold Parser.previous
  constructor
  · intro h
    by_contra hn
    have h0 : p.current ≠ 0 := fun h0 => hn (Or.inl h0)
    have hlt : p.current - 1 < p.tokens.length := by
      have : ¬ p.tokens.length < p.current := fun h1 => hn (Or.inr h1)
      omega
    rw [if_neg h0, List.getElem?_eq_getElem hlt] at h
    cases h
  · intro h
    by_cases h0 : p.current = 0
    · rw [if_pos h0]
    · rw [if_neg h0]
      rcases h with h | h
      · exact absurd h h0
      · rw [List.getElem?_eq_none (by omega)]

/-- C33: on tokens that end with END_OF_FILE, `parse` ends: its result with
fuel of at least twenty times the number of tokens plus twenty is not a timeout,
and is the same for every such fuel.  On the way, a declaration, a statement
and an expression that are read have consumed at least one token, and
`synchronize` at a token other than END_OF_FILE moves on by at least one token
(with fuel `f`, whatever it is); so a turn of the loop of `program`, and one of
the loop of `blockStatement`, leads to the next turn at a later position, unless
an exception leaves the loop or the fuel is used up.  (In the productions of
expressions a call either follows a consumed token or goes to a production that
comes later in the chain from `expression` to `primary`: that is how the fuel
is counted in `Parser.RunsAt`.) -/
theorem Parser.parse_terminates (tokens : List Token) (heof : endsWithEof tokens = true) :
    (∃ r, r ≠ ParseResult.timeout ∧
      ∀ fuel, 20 * tokens.length + 20 ≤ fuel → Parser.parse fuel tokens = r) ∧
    (∀ f p stmt p1, p.tokens = tokens → p.current < tokens.length →
      Parser.declaration f p = .ok stmt p1 → p.current < p1.current) ∧
    (∀ f p stmt p1, p.tokens = tokens → p.current < tokens.length →
      Parser.statement f p = .ok stmt p1 → p.current < p1.current) ∧
    (∀ f p e p1, p.tokens = tokens → p.current < tokens.length →
      Parser.expression f p = .ok e p1 → p.current < p1.current) ∧
    (∀ f j cerr t p1, tokens[j]? = some t → t.type ≠ .END_OF_FILE →
      Parser.synchronize f ⟨tokens, j, cerr⟩ = .ok () p1 → j < p1.current) ∧
    (∀ f acc p t, p.tokens = tokens → tokens[p.current]? = some t →
      t.type ≠ .END_OF_FILE →
      (∃ acc1 p1, Parser.programLoop (f + 1) acc p = Parser.programLoop f acc1 p1 ∧
        p1.tokens = tokens ∧ p.current < p1.current) ∨
      (∃ e p1, Parser.programLoop (f + 1) acc p = .exception e p1) ∨
      Parser.programLoop (f + 1) acc p = .timeout) ∧
    (∀ f acc p t, p.tokens = tokens → tokens[p.current]? = some t →
      t.type ≠ .END_OF_FILE → t.type ≠ .RIGHT_BRACE →
      (∃ acc1 p1, Parser.blockLoop (f + 1) acc p = Parser.blockLoop f acc1 p1 ∧
        p1.tokens = tokens ∧ p.current < p1.current) ∨
      (∃ e p1, Parser.blockLoop (f + 1) acc p = .exception e p1) ∨
      Parser.blockLoop (f + 1) acc p = .timeout) := by
  refine ⟨⟨Parser.parse (20 * tokens.length + 20) tokens, ?_, ?_⟩, ?_, ?_, ?_, ?_,
    fun f acc p t hp ht hne => Parser.programLoop_turn tokens heof f acc p t hp ht hne,
    fun f acc p t hp ht hne hnb => Parser.blockLoop_turn tokens heof f acc p t hp ht hne hnb⟩
  · intro h
    have := Parser.runs_parse False tokens _ heof (Or.inr (Nat.le_refl _))
    rw [h] at this
    exact this
  · intro fuel hfuel
    have hne : Parser.parse (20 * tokens.length + 20) tokens ≠ .timeout := by
      intro h
      have := Parser.runs_parse False tokens _ heof (Or.inr (Nat.le_refl _))
      rw [h] at this
      exact this
    have := Parser.parse_stable _ tokens hne (fuel - (20 * tokens.length + 20))
    rw [← this]
    congr 1
    omega
  · intro f p stmt p1 hp hin h
    have := (Parser.runsAt True f).declaration tokens p.current (Or.inl trivial) p
      ⟨hp, Nat.le_refl _, hin, heof⟩
    rw [h] at this
    exact this.2.1
  · intro f p stmt p1 hp hin h
    have := (Parser.runsAt True f).statement tokens p.current (Or.inl trivial) p
      ⟨hp, Nat.le_refl _, hin, heof⟩
    rw [h] at this
    exact this.2.1
  · intro f p e p1 hp hin h
    have := (Parser.runsAt True f).expression tokens p.current (Or.inl trivial) p
      ⟨hp, Nat.le_refl _, hin, heof⟩
    rw [h] at this
    exact this.2.1
  · intro f j cerr t p1 ht hne h
    have := Parser.synchronize_from True tokens cerr heof f j t ht (fun h1 => absurd h1 hne)
      (Or.inl trivial)
    rw [h] at this
    obtain ⟨q, hq1, _, _, _, hq5⟩ := this
    rw [hq1]
    exact (hq5 hne).1

/-- C33, on the tokens of `let = ; print 1`. -/
theorem Parser.parse_terminates_witness :
    (∃ r, r ≠ ParseResult.timeout ∧
      ∀ fuel, 20 * recoveryTokens.length + 20 ≤ fuel → Parser.parse fuel recoveryTokens = r) ∧
    (∀ f p stmt p1, p.tokens = recoveryTokens → p.current < recoveryTokens.length →
      Parser.declaration f p = .ok stmt p1 → p.current < p1.current) ∧
    (∀ f p stmt p1, p.tokens = recoveryTokens → p.current < recoveryTokens.length →
      Parser.statement f p = .ok stmt p1 → p.current < p1.current) ∧
    (∀ f p e p1, p.tokens = recoveryTokens → p.current < recoveryTokens.length →
      Parser.expression f p = .ok e p1 → p.current < p1.current) ∧
    (∀ f j cerr t p1, recoveryTokens[j]? = some t → t.type ≠ .END_OF_FILE →
      Parser.synchronize f ⟨recoveryTokens, j, cerr⟩ = .ok () p1 → j < p1.current) ∧
    (∀ f acc p t, p.tokens = recoveryTokens → recoveryTokens[p.current]? = some t →
      t.type ≠ .END_OF_FILE →
      (∃ acc1 p1, Parser.programLoop (f + 1) acc p = Parser.programLoop f acc1 p1 ∧
        p1.tokens = recoveryTokens ∧ p.current < p1.current) ∨
      (∃ e p1, Parser.programLoop (f + 1) acc p = .exception e p1) ∨
      Parser.programLoop (f + 1) acc p = .timeout) ∧
    (∀ f acc p t, p.tokens = recoveryTokens → recoveryTokens[p.current]? = some t →
      t.type ≠ .END_OF_FILE → t.type ≠ .RIGHT_BRACE →
      (∃ acc1 p1, Parser.blockLoop (f + 1) acc p = Parser.blockLoop f acc1 p1 ∧
        p1.tokens = recoveryTokens ∧ p.current < p1.current) ∨
      (∃ e p1, Parser.blockLoop (f + 1) acc p = .exception e p1) ∨
      Parser.blockLoop (f + 1) acc p = .timeout) :=
  Parser.parse_terminates recoveryTokens rfl

/-- C34: on tokens that end with END_OF_FILE, `parse` makes no token access
outside the tokens, whatever the fuel: it does not end in a fault, which is what
`peek` gives at a position that is no index of the tokens and `previous` at the
position 0 or at a position beyond the number of tokens; and the position that
`parse` ends at, when it returns or throws, is an index of the tokens, so it
does not exceed the index of the last token, END_OF_FILE.  The tokens of the
lexer end with END_OF_FILE.  (The tokens may also hold END_OF_FILE before the
end.) -/
theorem Parser.token_accesses_within_bounds (tokens : List Token) (fuel : Nat)
    (heof : endsWithEof tokens = true) :
    Parser.parse fuel tokens ≠ .fault ∧
    (∀ program p, Parser.parse fuel tokens = .ok program p →
      p.tokens = tokens ∧ p.current < tokens.length) ∧
    (∀ e p, Parser.parse fuel tokens = .exception e p →
      p.tokens = tokens ∧ p.current < tokens.length) ∧
    (∀ p : Parser, Parser.peek p = .fault ↔ p.tokens.length ≤ p.current) ∧
    (∀ p : Parser, Parser.previous p = .fault ↔ p.current = 0 ∨ p.tokens.length < p.current) ∧
    (∀ source, endsWithEof (lex source) = true) := by
  have h := Parser.runs_parse True tokens fuel heof (Or.inl trivial)
  refine ⟨?_, ?_, ?_, Parser.peek_fault_iff, Parser.previous_fault_iff, lex_endsWithEof⟩
  · intro hf
    rw [hf] at h
    exact h
  · intro program p hp
    rw [hp] at h
    exact ⟨h.1, h.2.2.1⟩
  · intro e p hp
    rw [hp] at h
    exact ⟨h.1, h.2.2.1⟩

/-- C34, on the tokens of `let print 1`, where `synchronize` runs. -/
theorem Parser.token_accesses_within_bounds_witness :
    Parser.parse 40 skippedPrintTokens ≠ .fault ∧
    (∀ program p, Parser.parse 40 skippedPrintTokens = .ok program p →
      p.tokens = skippedPrintTokens ∧ p.current < skippedPrintTokens.length) ∧
    (∀ e p, Parser.parse 40 skippedPrintTokens = .exception e p →
      p.tokens = skippedPrintTokens ∧ p.current < skippedPrintTokens.length) ∧
    (∀ p : Parser, Parser.peek p = .fault ↔ p.tokens.length ≤ p.current) ∧
    (∀ p : Parser, Parser.previous p = .fault ↔ p.current = 0 ∨ p.tokens.length < p.current) ∧
    (∀ source, endsWithEof (lex source) = true) :=
  Parser.token_accesses_within_bounds skippedPrintTokens 40 rfl

/-! ## C31: the text of a number, read back -/

theorem digitChar_isDigit (k : Nat) (h : k < 10) : (Nat.digitChar k).isDigit = true := by
  interval_cases k <;> decide

theorem digitChar_value (k : Nat) (h : k < 10) : (Nat.digitChar k).toNat - 48 = k := by
  interval_cases k <;> decide

theorem toDigits_isDigit (n : Nat) : ∀ c ∈ Nat.toDigits 10 n, c.isDigit = true := by
  induction n using Nat.strong_induction_on with
  | _ n ih =>
    by_cases h : n < 10
    · rw [toDigits_small n h]
      intro c hc
      rw [List.mem_singleton] at hc
      rw [hc]
      exact digitChar_isDigit n h
    · rw [toDigits_step n (by omega)]
      intro c hc
      rcases List.mem_append.mp hc with h1 | h1
      · exact ih (n / 10) (Nat.div_lt_self (by omega) (by omega)) c h1
      · rw [List.mem_singleton] at h1
        rw [h1]
        exact digitChar_isDigit _ (Nat.mod_lt _ (by omega))

theorem digitsValue_append (l : List Char) (c : Char) :
    digitsValue (l ++ [c]) = digitsValue l * 10 + (c.toNat - 48) := by
  simp [digitsValue, List.foldl_append]

theorem digitsValue_toDigits (n : Nat) : digitsValue (Nat.toDigits 10 n) = n := by
  induction n using Nat.strong_induction_on with
  | _ n ih =>
    by_cases h : n < 10
    · rw [toDigits_small n h]
      show digitsValue ([] ++ [Nat.digitChar n]) = n
      rw [digitsValue_append, digitChar_value n h]
      show 0 * 10 + n = n
      omega
    · rw [toDigits_step n (by omega), digitsValue_append,
        ih (n / 10) (Nat.div_lt_self (by omega) (by omega)),
        digitChar_value _ (Nat.mod_lt _ (by omega))]
      omega

theorem digitsValue_append_zeros (l : List Char) (k : Nat) :
    digitsValue (l ++ List.replicate k '0') = digitsValue l * 10 ^ k := by
  induction k with
  | zero => simp
  | succ k ih =>
    rw [List.replicate_succ', ← List.append_assoc, digitsValue_append, ih]
    have : ('0' : Char).toNat - 48 = 0 := by decide
    rw [this]
    ring

theorem digitsValue_zeros_append (k : Nat) (l : List Char) :
    digitsValue (List.replicate k '0' ++ l) = digitsValue l := by
  induction k with
  | zero => rfl
  | succ k ih =>
    rw [List.replicate_succ, List.cons_append]
    have h0 : ∀ r : List Char, digitsValue ('0' :: r) = digitsValue r := by
      intro r
      simp only [digitsValue, List.foldl_cons]
      rfl
    rw [h0, ih]

/-- A digit string is what `stripZeros` leaves of it, followed by zeros. -/
theorem stripZeros_spec (l : List Char) :
    ∃ k, l = stripZeros l ++ List.replicate k '0' := by
  have h : ∀ r : List Char, ∃ k, r = List.replicate k '0' ++ r.dropWhile (· == '0') := by
    intro r
    induction r with
    | nil => exact ⟨0, rfl⟩
    | cons c r ih =>
      by_cases hc : c = '0'
      · obtain ⟨k, hk⟩ := ih
        refine ⟨k + 1, ?_⟩
        rw [hc, List.dropWhile_cons_of_pos (by decide), List.replicate_succ, List.cons_append,
          ← hk]
      · refine ⟨0, ?_⟩
        rw [List.dropWhile_cons_of_neg (by simpa using hc)]
        rfl
  obtain ⟨k, hk⟩ := h l.reverse
  refine ⟨k, ?_⟩
  have := congrArg List.reverse hk
  rw [List.reverse_reverse, List.reverse_append, List.reverse_replicate] at this
  exact this

theorem stripZeros_subset (l : List Char) : ∀ c ∈ stripZeros l, c ∈ l := by
  intro c hc
  obtain ⟨k, hk⟩ := stripZeros_spec l
  rw [hk]
  exact List.mem_append_left _ hc

theorem pow10Le_iff (e : Int) (n d : Nat) :
    pow10Le e n d = true ↔ (10 : ℚ) ^ e * d ≤ n := by
  unfold pow10Le
  by_cases he : e ≥ 0
  · rw [if_pos he, decide_eq_true_iff]
    obtain ⟨k, rfl⟩ := Int.eq_ofNat_of_zero_le he
    rw [Int.toNat_ofNat, zpow_natCast]
    constructor
    · intro h
      have : ((10 ^ k * d : Nat) : ℚ) ≤ (n : ℚ) := by exact_mod_cast h
      simpa using this
    · intro h
      have : ((10 ^ k * d : Nat) : ℚ) ≤ (n : ℚ) := by simpa using h
      exact_mod_cast this
  · rw [if_neg he, decide_eq_true_iff]
    have hneg : e = -((-e).toNat : Int) := by omega
    generalize (-e).toNat = k at hneg
    rw [hneg, zpow_neg, zpow_natCast]
    have hpos : (0 : ℚ) < 10 ^ k := by positivity
    constructor
    · intro h
      have h1 : (d : ℚ) ≤ (n : ℚ) * 10 ^ k := by exact_mod_cast h
      rw [inv_mul_le_iff₀ hpos]
      linarith
    · intro h
      rw [inv_mul_le_iff₀ hpos] at h
      have h1 : (d : ℚ) ≤ (n : ℚ) * 10 ^ k := by linarith
      exact_mod_cast h1

theorem digitCount_bounds (n : Nat) (h : 0 < n) :
    10 ^ (digitCount n - 1) ≤ n ∧ n < 10 ^ digitCount n ∧ 1 ≤ digitCount n := by
  have h1 : 10 ^ Nat.log 10 n ≤ n := Nat.pow_log_le_self 10 (by omega)
  have h2 : n < 10 ^ (Nat.log 10 n + 1) := Nat.lt_pow_succ_log_self (by omega) n
  have h3 := digitCount_of_bounds (Nat.log 10 n) n h1 h2
  rw [h3]
  exact ⟨h1, h2, by omega⟩

/-- The exponent that `decimalExponent` gives is the decimal exponent. -/
theorem decimalExponent_spec (n d : Nat) (hn : 0 < n) (hd : 0 < d) :
    (10 : ℚ) ^ decimalExponent n d * d ≤ n ∧ (n : ℚ) < (10 : ℚ) ^ (decimalExponent n d + 1) * d := by
  obtain ⟨a1, a2, a3⟩ := digitCount_bounds n hn
  obtain ⟨b1, b2, b3⟩ := digitCount_bounds d hd
  have ha1 : (10 : ℚ) ^ ((digitCount n : Int) - 1) ≤ n := by
    have : ((10 ^ (digitCount n - 1) : Nat) : ℚ) ≤ (n : ℚ) := by exact_mod_cast a1
    rw [show ((digitCount n : Int) - 1) = ((digitCount n - 1 : Nat) : Int) by omega, zpow_natCast]
    simpa using this
  have ha2 : (n : ℚ) < (10 : ℚ) ^ (digitCount n : Int) := by
    have : (n : ℚ) < ((10 ^ digitCount n : Nat) : ℚ) := by exact_mod_cast a2
    rw [zpow_natCast]
    simpa using this
  have hb1 : (10 : ℚ) ^ ((digitCount d : Int) - 1) ≤ d := by
    have : ((10 ^ (digitCount d - 1) : Nat) : ℚ) ≤ (d : ℚ) := by exact_mod_cast b1
    rw [show ((digitCount d : Int) - 1) = ((digitCount d - 1 : Nat) : Int) by omega, zpow_natCast]
    simpa using this
  have hb2 : (d : ℚ) < (10 : ℚ) ^ (digitCount d : Int) := by
    have : (d : ℚ) < ((10 ^ digitCount d : Nat) : ℚ) := by exact_mod_cast b2
    rw [zpow_natCast]
    simpa using this
  have h10 : (0 : ℚ) < 10 := by norm_num
  have hdq : (0 : ℚ) < d := by exact_mod_cast hd
  set g : Int := (digitCount n : Int) - (digitCount d : Int) with hg
  -- the exponent g + 1 is too large, the exponent g - 1 is not
  have hhigh : (n : ℚ) < (10 : ℚ) ^ (g + 1) * d := by
    have e1 : (10 : ℚ) ^ (g + 1) * (10 : ℚ) ^ ((digitCount d : Int) - 1) =
        (10 : ℚ) ^ (digitCount n : Int) := by
      rw [← zpow_add₀ (by norm_num : (10 : ℚ) ≠ 0)]
      congr 1
      omega
    calc (n : ℚ) < (10 : ℚ) ^ (digitCount n : Int) := ha2
      _ = (10 : ℚ) ^ (g + 1) * (10 : ℚ) ^ ((digitCount d : Int) - 1) := e1.symm
      _ ≤ (10 : ℚ) ^ (g + 1) * d := by
        apply mul_le_mul_of_nonneg_left hb1
        positivity
  have hlow : (10 : ℚ) ^ (g - 1) * d ≤ n := by
    have e1 : (10 : ℚ) ^ (g - 1) * (10 : ℚ) ^ (digitCount d : Int) =
        (10 : ℚ) ^ ((digitCount n : Int) - 1) := by
      rw [← zpow_add₀ (by norm_num : (10 : ℚ) ≠ 0)]
      congr 1
      omega
    calc (10 : ℚ) ^ (g - 1) * d ≤ (10 : ℚ) ^ (g - 1) * (10 : ℚ) ^ (digitCount d : Int) := by
          apply mul_le_mul_of_nonneg_left (le_of_lt hb2)
          positivity
      _ = (10 : ℚ) ^ ((digitCount n : Int) - 1) := e1
      _ ≤ n := ha1
  have hno : pow10Le (g + 1) n d = false := by
    rw [Bool.eq_false_iff]
    intro h
    rw [pow10Le_iff] at h
    linarith
  unfold decimalExponent
  simp only []
  rw [← hg, hno]
  simp only [Bool.false_eq_true, if_false]
  by_cases hgp : pow10Le g n d = true
  · rw [if_pos hgp]
    exact ⟨(pow10Le_iff _ _ _).mp hgp, hhigh⟩
  · rw [if_neg hgp]
    refine ⟨hlow, ?_⟩
    rw [pow10Le_iff] at hgp
    rw [show g - 1 + 1 = g by omega]
    linarith

/-- The quotient that `sixDigits` rounds is `n / d` scaled by `10 ^ (5 - x)`. -/
theorem sixDigits_eq (n d : Nat) (hd : 0 < d) (x : Int) :
    ∃ num den : Nat, 0 < den ∧ (num : ℚ) = (n : ℚ) / d * (10 : ℚ) ^ (5 - x) * den ∧
      sixDigits n d x =
        (if 2 * (num % den) > den ∨ (2 * (num % den) = den ∧ num / den % 2 = 1)
          then num / den + 1 else num / den) := by
  have hdq : (d : ℚ) ≠ 0 := by exact_mod_cast (Nat.pos_iff_ne_zero.mp hd)
  by_cases hx : x ≤ 5
  · refine ⟨n * 10 ^ (5 - x).toNat, d, hd, ?_, ?_⟩
    · have e : (5 - x) = (((5 - x).toNat : Nat) : Int) := by omega
      rw [e, zpow_natCast, Int.toNat_ofNat]
      push_cast
      field_simp
    · simp only [sixDigits, if_pos hx]
  · refine ⟨n, d * 10 ^ (x - 5).toNat, Nat.mul_pos hd (by positivity), ?_, ?_⟩
    · have e : (5 - x) = -(((x - 5).toNat : Nat) : Int) := by omega
      rw [e, zpow_neg, zpow_natCast]
      push_cast
      field_simp
    · simp only [sixDigits, if_neg hx]

/-- The six digits are within a half of the scaled quotient, and are the scaled
quotient when that is a whole number. -/
theorem sixDigits_spec (n d : Nat) (hd : 0 < d) (x : Int) :
    (∀ lo hi : Nat, (lo : ℚ) ≤ (n : ℚ) / d * (10 : ℚ) ^ (5 - x) →
      (n : ℚ) / d * (10 : ℚ) ^ (5 - x) < hi → lo ≤ sixDigits n d x ∧ sixDigits n d x ≤ hi) ∧
    (∀ s : Nat, (s : ℚ) = (n : ℚ) / d * (10 : ℚ) ^ (5 - x) → sixDigits n d x = s) ∧
    |(sixDigits n d x : ℚ) - (n : ℚ) / d * (10 : ℚ) ^ (5 - x)| ≤ 1 / 2 := by
  obtain ⟨num, den, hden, hnum, hsix⟩ := sixDigits_eq n d hd x
  have hdenq : (0 : ℚ) < den := by exact_mod_cast hden
  set S : ℚ := (n : ℚ) / d * (10 : ℚ) ^ (5 - x) with hS
  have hdiv : den * (num / den) + num % den = num := Nat.div_add_mod num den
  have hmod : num % den < den := Nat.mod_lt _ hden
  have hdivq : (den : ℚ) * ((num / den : Nat) : ℚ) + ((num % den : Nat) : ℚ) = S * den := by
    rw [← hnum]
    exact_mod_cast hdiv
  have hmodq : ((num % den : Nat) : ℚ) < den := by exact_mod_cast hmod
  have hmod0 : (0 : ℚ) ≤ ((num % den : Nat) : ℚ) := by positivity
  refine ⟨?_, ?_, ?_⟩
  · intro lo hi hlo hhi
    have h1 : lo * den ≤ num := by
      have : ((lo * den : Nat) : ℚ) ≤ (num : ℚ) := by
        rw [hnum]
        push_cast
        exact mul_le_mul_of_nonneg_right hlo (le_of_lt hdenq)
      exact_mod_cast this
    have h2 : num < hi * den := by
      have : (num : ℚ) < ((hi * den : Nat) : ℚ) := by
        rw [hnum]
        push_cast
        exact mul_lt_mul_of_pos_right hhi hdenq
      exact_mod_cast this
    have h3 : lo ≤ num / den := (Nat.le_div_iff_mul_le hden).mpr h1
    have h4 : num / den < hi := (Nat.div_lt_iff_lt_mul hden).mpr h2
    rw [hsix]
    split <;> omega
  · intro s hs
    have h1 : num = s * den := by
      have : (num : ℚ) = ((s * den : Nat) : ℚ) := by
        rw [hnum, ← hs]
        push_cast
        rfl
      exact_mod_cast this
    have h2 : num / den = s := by rw [h1]; exact Nat.mul_div_cancel _ hden
    have h3 : num % den = 0 := by rw [h1]; exact Nat.mul_mod_left _ _
    rw [hsix, h3, h2]
    have : ¬ (2 * 0 > den ∨ 2 * 0 = den ∧ s % 2 = 1) := by omega
    rw [if_neg this]
  · rw [hsix]
    have hq : ((num / den : Nat) : ℚ) = S - ((num % den : Nat) : ℚ) / den := by
      field_simp
      linarith
    split
    · rename_i hc
      have hc2 : den ≤ 2 * (num % den) := by omega
      have hc2q : (den : ℚ) ≤ 2 * ((num % den : Nat) : ℚ) := by exact_mod_cast hc2
      push_cast
      rw [hq, abs_le]
      constructor
      · have : (0 : ℚ) ≤ 1 - ((num % den : Nat) : ℚ) / den := by
          rw [sub_nonneg, div_le_one hdenq]
          exact le_of_lt hmodq
        linarith
      · have : (1 : ℚ) / 2 ≤ ((num % den : Nat) : ℚ) / den := by
          rw [le_div_iff₀ hdenq]
          linarith
        linarith
    · rename_i hc
      have hc2 : 2 * (num % den) ≤ den := by omega
      have hc2q : 2 * ((num % den : Nat) : ℚ) ≤ (den : ℚ) := by exact_mod_cast hc2
      rw [hq, abs_le]
      constructor
      · have : ((num % den : Nat) : ℚ) / den ≤ 1 / 2 := by
          rw [div_le_iff₀ hdenq]
          linarith
        linarith
      · have : (0 : ℚ) ≤ ((num % den : Nat) : ℚ) / den := by positivity
        linarith

theorem formatPositive_eq (n d : Nat) :
    formatPositive n d =
      formatDigits
        (if sixDigits n d (decimalExponent n d) ≥ 1000000 then 100000
          else sixDigits n d (decimalExponent n d))
        (if sixDigits n d (decimalExponent n d) ≥ 1000000 then decimalExponent n d + 1
          else decimalExponent n d) := rfl

/-- A value that is not below the tiny range passes the underflow test of
`stod`. -/
theorem stod_not_tiny (n d : Nat)
    (h : n ≠ 0 → (2 ^ 54 - 1) * d ≤ n * (4 * doubleUnits)) :
    ¬ (n * (4 * doubleUnits) < (2 ^ 54 - 1) * d ∧ (n * doubleUnits) % d ≠ 0) := by
  rintro ⟨h1, h2⟩
  by_cases hn : n = 0
  · rw [hn, Nat.zero_mul, Nat.zero_mod] at h2
    exact h2 rfl
  · exact absurd (h hn) (Nat.not_le.mpr h1)

theorem stod_decimal (ip fp : List Char) (hip : ∀ c ∈ ip, c.isDigit = true)
    (hfp : ∀ c ∈ fp, c.isDigit = true) (hne : ip ≠ [])
    (h1 : digitsValue (ip ++ fp) < doubleOverflow * 10 ^ fp.length)
    (h2 : digitsValue (ip ++ fp) ≠ 0 →
      (2 ^ 54 - 1) * 10 ^ fp.length ≤ digitsValue (ip ++ fp) * (4 * doubleUnits)) :
    stod (String.mk (ip ++ '.' :: fp)) =
      .ok (Number.ofFraction (Int.ofNat (digitsValue (ip ++ fp))) (10 ^ fp.length)) := by
  have hdot : Char.isDigit '.' = false := by decide
  have h3 := List.takeWhile_all_then Char.isDigit ip '.' fp hip hdot
  have h4 := List.takeWhile_all Char.isDigit fp hfp
  have h5 : ip.isEmpty = false := by
    cases ip with
    | nil => exact absurd rfl hne
    | cons c r => rfl
  simp only [stod, String.toList, h3.1, h3.2, h4.1, h5, Bool.false_and, Bool.false_eq_true,
    if_false]
  rw [if_neg (by omega), if_neg (stod_not_tiny _ _ h2)]

theorem stod_digits (ip : List Char) (hip : ∀ c ∈ ip, c.isDigit = true) (hne : ip ≠ [])
    (h1 : digitsValue ip < doubleOverflow)
    (h2 : digitsValue ip ≠ 0 → (2 ^ 54 - 1) * 1 ≤ digitsValue ip * (4 * doubleUnits)) :
    stod (String.mk ip) = .ok (Number.ofFraction (Int.ofNat (digitsValue ip)) 1) := by
  have h4 := List.takeWhile_all Char.isDigit ip hip
  have h5 : ip.isEmpty = false := by
    cases ip with
    | nil => exact absurd rfl hne
    | cons c r => rfl
  simp only [stod, String.toList, h4.1, h4.2, h5, Bool.false_and, Bool.false_eq_true,
    if_false, List.append_nil, List.length_nil, pow_zero]
  rw [if_neg (by omega), if_neg (stod_not_tiny _ _ h2)]

theorem million_le_doubleOverflow : 10 ^ 6 ≤ doubleOverflow := by decide

theorem billion_not_tiny : (2 ^ 54 - 1) * 10 ^ 9 ≤ 4 * doubleUnits := by decide

theorem mkRat_digits_eq (N f k : Nat) (x : Int) (hx : x - 5 = -((f + k : Nat) : Int)) :
    (mkRat (Int.ofNat N) (10 ^ f) : ℚ) = ((N * 10 ^ k : Nat) : ℚ) * (10 : ℚ) ^ (x - 5) := by
  rw [Rat.mkRat_eq_div, hx, zpow_neg, zpow_natCast, pow_add]
  push_cast
  have h1 : (10 : ℚ) ^ f ≠ 0 := by positivity
  have h2 : (10 : ℚ) ^ k ≠ 0 := by positivity
  field_simp
  ring

/-- The text of six digits at an exponent from -4 to 5 is read by `std::stod`
as the value of the digits at that exponent. -/
theorem stod_formatDigits (m : Nat) (x : Int) (hm1 : 10 ^ 5 ≤ m) (hm2 : m < 10 ^ 6)
    (hx1 : -4 ≤ x) (hx2 : x ≤ 5) :
    stod (formatDigits m x) = .ok (Number.ofRat ((m : ℚ) * (10 : ℚ) ^ (x - 5))) := by
  have hlen : (Nat.toDigits 10 m).length = 6 := toDigits_length_of_bounds 5 m hm1 hm2
  have hdig := toDigits_isDigit m
  have hval := digitsValue_toDigits m
  have hO := million_le_doubleOverflow
  have hT := billion_not_tiny
  unfold formatDigits
  simp only []
  rw [if_neg (by omega)]
  by_cases hx0 : x ≥ 0
  · rw [if_pos hx0]
    obtain ⟨j, rfl⟩ := Int.eq_ofNat_of_zero_le hx0
    have hj : j ≤ 5 := by omega
    rw [Int.toNat_ofNat]
    obtain ⟨k, hk⟩ := stripZeros_spec ((Nat.toDigits 10 m).drop (j + 1))
    have hsplit : Nat.toDigits 10 m =
        ((Nat.toDigits 10 m).take (j + 1) ++ stripZeros ((Nat.toDigits 10 m).drop (j + 1))) ++
          List.replicate k '0' := by
      rw [List.append_assoc, ← hk, List.take_append_drop]
    have hip : ∀ c ∈ (Nat.toDigits 10 m).take (j + 1), c.isDigit = true :=
      fun c hc => hdig c (List.mem_of_mem_take hc)
    have hfp : ∀ c ∈ stripZeros ((Nat.toDigits 10 m).drop (j + 1)), c.isDigit = true :=
      fun c hc => hdig c (List.mem_of_mem_drop (stripZeros_subset _ c hc))
    have hne : (Nat.toDigits 10 m).take (j + 1) ≠ [] := by
      intro h
      have := congrArg List.length h
      rw [List.length_take, hlen] at this
      simp at this
    have hm : m = digitsValue ((Nat.toDigits 10 m).take (j + 1) ++
        stripZeros ((Nat.toDigits 10 m).drop (j + 1))) * 10 ^ k := by
      rw [← digitsValue_append_zeros, ← hsplit, hval]
    have hlens : (stripZeros ((Nat.toDigits 10 m).drop (j + 1))).length + k = 5 - j := by
      have := congrArg List.length hk
      rw [List.length_drop, hlen, List.length_append, List.length_replicate] at this
      omega
    have hkpos : 1 ≤ 10 ^ k := Nat.one_le_pow _ _ (by norm_num)
    have hNle : digitsValue ((Nat.toDigits 10 m).take (j + 1) ++
        stripZeros ((Nat.toDigits 10 m).drop (j + 1))) ≤ m := by
      calc _ = _ * 1 := (Nat.mul_one _).symm
        _ ≤ _ * 10 ^ k := Nat.mul_le_mul_left _ hkpos
        _ = m := hm.symm
    have hfpos : 1 ≤ 10 ^ (stripZeros ((Nat.toDigits 10 m).drop (j + 1))).length :=
      Nat.one_le_pow _ _ (by norm_num)
    have hfle : 10 ^ (stripZeros ((Nat.toDigits 10 m).drop (j + 1))).length ≤ 10 ^ 9 :=
      Nat.pow_le_pow_right (by norm_num) (by omega)
    have hr1 : digitsValue ((Nat.toDigits 10 m).take (j + 1) ++
        stripZeros ((Nat.toDigits 10 m).drop (j + 1))) <
        doubleOverflow * 10 ^ (stripZeros ((Nat.toDigits 10 m).drop (j + 1))).length := by
      calc _ ≤ m := hNle
        _ < 10 ^ 6 := hm2
        _ ≤ doubleOverflow := hO
        _ = doubleOverflow * 1 := (Nat.mul_one _).symm
        _ ≤ _ := Nat.mul_le_mul_left _ hfpos
    have hr2 : digitsValue ((Nat.toDigits 10 m).take (j + 1) ++
        stripZeros ((Nat.toDigits 10 m).drop (j + 1))) ≠ 0 →
        (2 ^ 54 - 1) * 10 ^ (stripZeros ((Nat.toDigits 10 m).drop (j + 1))).length ≤
          digitsValue ((Nat.toDigits 10 m).take (j + 1) ++
            stripZeros ((Nat.toDigits 10 m).drop (j + 1))) * (4 * doubleUnits) := by
      intro h0
      calc _ ≤ (2 ^ 54 - 1) * 10 ^ 9 := Nat.mul_le_mul_left _ hfle
        _ ≤ 4 * doubleUnits := hT
        _ = 1 * (4 * doubleUnits) := (Nat.one_mul _).symm
        _ ≤ _ := Nat.mul_le_mul_right _ (Nat.one_le_iff_ne_zero.mpr h0)
    have hq := mkRat_digits_eq (digitsValue ((Nat.toDigits 10 m).take (j + 1) ++
        stripZeros ((Nat.toDigits 10 m).drop (j + 1))))
      (stripZeros ((Nat.toDigits 10 m).drop (j + 1))).length k (j : Int)
      (by rw [hlens]; omega)
    rw [← hm] at hq
    by_cases hfe : (stripZeros ((Nat.toDigits 10 m).drop (j + 1))).isEmpty = true
    · rw [if_pos hfe]
      have hnil : stripZeros ((Nat.toDigits 10 m).drop (j + 1)) = [] :=
        List.isEmpty_iff.mp hfe
      rw [hnil, List.append_nil] at hr1 hr2 hq
      rw [List.length_nil, pow_zero] at hr1 hr2 hq
      rw [stod_digits _ hip hne (by omega) hr2, Number.ofFraction_eq_ofRat _ _ Nat.one_pos, hq]
    · rw [if_neg hfe]
      have hl : (Nat.toDigits 10 m).take (j + 1) ++ ['.'] ++
          stripZeros ((Nat.toDigits 10 m).drop (j + 1)) =
          (Nat.toDigits 10 m).take (j + 1) ++
            '.' :: stripZeros ((Nat.toDigits 10 m).drop (j + 1)) := by simp
      rw [hl, stod_decimal _ _ hip hfp hne hr1 hr2,
        Number.ofFraction_eq_ofRat _ _ (Nat.pos_pow_of_pos _ (by norm_num)), hq]
  · rw [if_neg hx0]
    obtain ⟨k, hk⟩ := stripZeros_spec (Nat.toDigits 10 m)
    have hz : ∃ z : Nat, z ≤ 3 ∧ x = -((z : Int) + 1) ∧ (-x).toNat - 1 = z :=
      ⟨(-x).toNat - 1, by omega, by omega, rfl⟩
    obtain ⟨z, hz3, hxz, hzeq⟩ := hz
    rw [hzeq]
    have hfp : ∀ c ∈ List.replicate z '0' ++ stripZeros (Nat.toDigits 10 m),
        c.isDigit = true := by
      intro c hc
      rcases List.mem_append.mp hc with h | h
      · rw [(List.mem_replicate.mp h).2]; decide
      · exact hdig c (stripZeros_subset _ c h)
    have hip : ∀ c ∈ ['0'], c.isDigit = true := by
      intro c hc
      rw [List.mem_singleton.mp hc]; decide
    have hN : digitsValue (['0'] ++ (List.replicate z '0' ++ stripZeros (Nat.toDigits 10 m))) =
        digitsValue (stripZeros (Nat.toDigits 10 m)) := by
      rw [← List.append_assoc]
      exact digitsValue_zeros_append (z + 1) _
    have hm : m = digitsValue (stripZeros (Nat.toDigits 10 m)) * 10 ^ k := by
      rw [← digitsValue_append_zeros, ← hk, hval]
    have hlens : (stripZeros (Nat.toDigits 10 m)).length + k = 6 := by
      have := congrArg List.length hk
      rw [hlen, List.length_append, List.length_replicate] at this
      omega
    have hflen : (List.replicate z '0' ++ stripZeros (Nat.toDigits 10 m)).length =
        z + (stripZeros (Nat.toDigits 10 m)).length := by
      rw [List.length_append, List.length_replicate]
    have hkpos : 1 ≤ 10 ^ k := Nat.one_le_pow _ _ (by norm_num)
    have hNle : digitsValue (stripZeros (Nat.toDigits 10 m)) ≤ m := by
      calc _ = _ * 1 := (Nat.mul_one _).symm
        _ ≤ _ * 10 ^ k := Nat.mul_le_mul_left _ hkpos
        _ = m := hm.symm
    have hfpos : 1 ≤ 10 ^ (z + (stripZeros (Nat.toDigits 10 m)).length) :=
      Nat.one_le_pow _ _ (by norm_num)
    have hfle : 10 ^ (z + (stripZeros (Nat.toDigits 10 m)).length) ≤ 10 ^ 9 :=
      Nat.pow_le_pow_right (by norm_num) (by omega)
    have hl : ['0', '.'] ++ List.replicate z '0' ++ stripZeros (Nat.toDigits 10 m) =
        ['0'] ++ '.' :: (List.replicate z '0' ++ stripZeros (Nat.toDigits 10 m)) := by simp
    have hq := mkRat_digits_eq (digitsValue (stripZeros (Nat.toDigits 10 m)))
      (z + (stripZeros (Nat.toDigits 10 m)).length) k x
      (by rw [hxz]; push_cast; omega)
    rw [← hm] at hq
    rw [hl, stod_decimal _ _ hip hfp (by simp)
      (by
        rw [hN, hflen]
        calc _ ≤ m := hNle
          _ < 10 ^ 6 := hm2
          _ ≤ doubleOverflow := hO
          _ = doubleOverflow * 1 := (Nat.mul_one _).symm
          _ ≤ _ := Nat.mul_le_mul_left _ hfpos)
      (by
        rw [hN, hflen]
        intro h0
        calc _ ≤ (2 ^ 54 - 1) * 10 ^ 9 := Nat.mul_le_mul_left _ hfle
          _ ≤ 4 * doubleUnits := hT
          _ = 1 * (4 * doubleUnits) := (Nat.one_mul _).symm
          _ ≤ _ := Nat.mul_le_mul_right _ (Nat.one_le_iff_ne_zero.mpr h0)),
      hN, hflen, Number.ofFraction_eq_ofRat _ _ (Nat.pos_pow_of_pos _ (by norm_num)), hq]

theorem validNumberText_of_mem (l : List Char) (c : Char) (hc : c ∈ l)
    (h1 : c.isDigit = false) (h2 : (c == '.') = false) : validNumberText l = false := by
  cases l with
  | nil => rfl
  | cons a r =>
    rcases List.mem_cons.mp hc with h | h
    · simp [validNumberText, ← h, h1]
    · simp only [validNumberText, Bool.and_eq_false_iff]
      right
      rw [List.all_eq_false]
      exact ⟨c, h, by simp [h1, h2]⟩

/-- The exponent form of `%g` is no NUMBER text. -/
theorem formatDigits_exponent_invalid (m : Nat) (x : Int) (hx : x < -4 ∨ x ≥ 6) :
    validNumberText (formatDigits m x).toList = false := by
  unfold formatDigits
  simp only []
  rw [if_pos hx]
  apply validNumberText_of_mem _ 'e' _ (by decide) (by decide)
  simp [String.toList]

theorem roundSix_zero (d : Nat) (hd : 0 < d) : roundSix 0 d = 0 := by
  have h := (sixDigits_spec 0 d hd (decimalExponent 0 d)).2.1 0 (by simp)
  simp [roundSix, h]

/-- The carry of the rounding: the six digits after the step from `1000000` to
`100000` are in range and have the value they had. -/
theorem roundSix_carry (n d : Nat) (hn : 0 < n) (hd : 0 < d) :
    10 ^ 5 ≤ (if sixDigits n d (decimalExponent n d) ≥ 1000000 then 100000
      else sixDigits n d (decimalExponent n d)) ∧
    (if sixDigits n d (decimalExponent n d) ≥ 1000000 then 100000
      else sixDigits n d (decimalExponent n d)) < 10 ^ 6 ∧
    (((if sixDigits n d (decimalExponent n d) ≥ 1000000 then 100000
        else sixDigits n d (decimalExponent n d) : Nat) : ℚ) *
      (10 : ℚ) ^ ((if sixDigits n d (decimalExponent n d) ≥ 1000000 then decimalExponent n d + 1
        else decimalExponent n d) - 5) = roundSix n d) := by
  obtain ⟨e1, e2⟩ := decimalExponent_spec n d hn hd
  have hdq : (0 : ℚ) < d := by exact_mod_cast hd
  have hS1 : ((10 ^ 5 : Nat) : ℚ) ≤ (n : ℚ) / d * (10 : ℚ) ^ (5 - decimalExponent n d) := by
    have h1 : (10 : ℚ) ^ decimalExponent n d ≤ (n : ℚ) / d := by
      rw [le_div_iff₀ hdq]; exact e1
    have h2 : (10 : ℚ) ^ decimalExponent n d * (10 : ℚ) ^ (5 - decimalExponent n d) =
        (10 : ℚ) ^ (5 : Int) := by
      rw [← zpow_add₀ (by norm_num : (10 : ℚ) ≠ 0)]
      congr 1
      omega
    have h3 : (0 : ℚ) ≤ (10 : ℚ) ^ (5 - decimalExponent n d) := by positivity
    calc ((10 ^ 5 : Nat) : ℚ) = (10 : ℚ) ^ (5 : Int) := by norm_num
      _ = (10 : ℚ) ^ decimalExponent n d * (10 : ℚ) ^ (5 - decimalExponent n d) := h2.symm
      _ ≤ _ := mul_le_mul_of_nonneg_right h1 h3
  have hS2 : (n : ℚ) / d * (10 : ℚ) ^ (5 - decimalExponent n d) < ((10 ^ 6 : Nat) : ℚ) := by
    have h1 : (n : ℚ) / d < (10 : ℚ) ^ (decimalExponent n d + 1) := by
      rw [div_lt_iff₀ hdq]; exact e2
    have h2 : (10 : ℚ) ^ (decimalExponent n d + 1) * (10 : ℚ) ^ (5 - decimalExponent n d) =
        (10 : ℚ) ^ (6 : Int) := by
      rw [← zpow_add₀ (by norm_num : (10 : ℚ) ≠ 0)]
      congr 1
      omega
    have h3 : (0 : ℚ) < (10 : ℚ) ^ (5 - decimalExponent n d) := by positivity
    calc _ < (10 : ℚ) ^ (decimalExponent n d + 1) * (10 : ℚ) ^ (5 - decimalExponent n d) :=
          mul_lt_mul_of_pos_right h1 h3
      _ = (10 : ℚ) ^ (6 : Int) := h2
      _ = ((10 ^ 6 : Nat) : ℚ) := by norm_num
  obtain ⟨hlo, hhi⟩ := (sixDigits_spec n d hd (decimalExponent n d)).1 _ _ hS1 hS2
  by_cases hc : sixDigits n d (decimalExponent n d) ≥ 1000000
  · have hm : sixDigits n d (decimalExponent n d) = 1000000 := by
      have : (10 : Nat) ^ 6 = 1000000 := by norm_num
      omega
    simp only [if_pos hc]
    refine ⟨by norm_num, by norm_num, ?_⟩
    unfold roundSix
    rw [hm, show decimalExponent n d + 1 - 5 = (decimalExponent n d - 5) + 1 by omega,
      zpow_add₀ (by norm_num : (10 : ℚ) ≠ 0)]
    push_cast
    ring
  · simp only [if_neg hc]
    refine ⟨hlo, ?_, rfl⟩
    have : (10 : Nat) ^ 6 = 1000000 := by norm_num
    omega

/-- The text of a positive number that is a NUMBER text is read by `std::stod`
as the number rounded to six significant digits. -/
theorem stod_formatPositive (n d : Nat) (hn : 0 < n) (hd : 0 < d)
    (hvalid : validNumberText (formatPositive n d).toList = true) :
    stod (formatPositive n d) = .ok (Number.ofRat (roundSix n d)) := by
  obtain ⟨c1, c2, c3⟩ := roundSix_carry n d hn hd
  rw [formatPositive_eq] at hvalid ⊢
  by_cases hx : (if sixDigits n d (decimalExponent n d) ≥ 1000000 then decimalExponent n d + 1
      else decimalExponent n d) < -4 ∨
      (if sixDigits n d (decimalExponent n d) ≥ 1000000 then decimalExponent n d + 1
        else decimalExponent n d) ≥ 6
  · rw [formatDigits_exponent_invalid _ _ hx] at hvalid
    cases hvalid
  · rw [stod_formatDigits _ _ c1 c2 (by omega) (by omega), c3]

/-- A number whose text is a NUMBER text is finite and not negative (it is
neither `-0.0` nor an infinity nor NaN), and `std::stod` reads the text as the
double nearest to the number rounded to six significant digits. -/
theorem stod_formatDouble (x : Number)
    (hvalid : validNumberText (formatDouble x).toList = true) :
    ∃ q : ℚ, x = .real q ∧ 0 ≤ q ∧
      stod (formatDouble x) = .ok (Number.ofRat (roundSix q.num.natAbs q.den)) := by
  cases x with
  | nan s => cases s <;> exact absurd hvalid (by decide)
  | inf s => cases s <;> exact absurd hvalid (by decide)
  | negZero => exact absurd hvalid (by decide)
  | real q =>
    refine ⟨q, rfl, ?_⟩
    simp only [formatDouble] at hvalid ⊢
    by_cases h0 : q.num = 0
    · rw [if_pos h0]
      have hq : q = 0 := Rat.zero_of_num_zero h0
      refine ⟨by rw [hq], ?_⟩
      rw [h0, Int.natAbs_zero, roundSix_zero _ q.den_pos]
      rfl
    · rw [if_neg h0] at hvalid ⊢
      by_cases hneg : q.num < 0
      · rw [if_pos hneg] at hvalid
        have : validNumberText ("-" ++ formatPositive q.num.natAbs q.den).toList = false := by
          apply validNumberText_of_mem _ '-' _ (by decide) (by decide)
          simp [String.toList]
        rw [this] at hvalid
        cases hvalid
      · rw [if_neg hneg] at hvalid ⊢
        refine ⟨Rat.num_nonneg.mp (by omega), ?_⟩
        exact stod_formatPositive _ _ (Int.natAbs_pos.mpr h0) q.den_pos hvalid

/-- The rounding to six significant digits: the result is within half a unit
of the sixth digit, and it is the number itself exactly when the number has at
most six significant digits, that is, when it is `M * 10 ^ K` for a natural
number `M` below a million and an integer `K`. -/
theorem roundSix_spec (q : ℚ) (hq : 0 < q) :
    (10 : ℚ) ^ decimalExponent q.num.natAbs q.den ≤ q ∧
    q < (10 : ℚ) ^ (decimalExponent q.num.natAbs q.den + 1) ∧
    |roundSix q.num.natAbs q.den - q| ≤
      (10 : ℚ) ^ (decimalExponent q.num.natAbs q.den - 5) / 2 ∧
    (roundSix q.num.natAbs q.den = q ↔
      ∃ (M : Nat) (K : Int), M < 10 ^ 6 ∧ q = (M : ℚ) * (10 : ℚ) ^ K) := by
  have hnum : 0 < q.num := Rat.num_pos.mpr hq
  have hn : 0 < q.num.natAbs := Int.natAbs_pos.mpr (by omega)
  have hd : 0 < q.den := q.den_pos
  have hdq : (0 : ℚ) < q.den := by exact_mod_cast hd
  have hnd : (q.num.natAbs : ℚ) / q.den = q := by
    have h1 : (q.num.natAbs : Int) = q.num := Int.natAbs_of_nonneg (by omega)
    have h2 : (q.num.natAbs : ℚ) = (q.num : ℚ) := by
      rw [← Int.cast_natCast, h1]
    rw [h2]
    exact Rat.num_div_den q
  set n := q.num.natAbs with hn_def
  set d := q.den with hd_def
  set e := decimalExponent n d with he
  obtain ⟨e1, e2⟩ := decimalExponent_spec n d hn hd
  have hlow : (10 : ℚ) ^ e ≤ q := by
    rw [← hnd, le_div_iff₀ hdq]; exact e1
  have hhigh : q < (10 : ℚ) ^ (e + 1) := by
    rw [← hnd, div_lt_iff₀ hdq]; exact e2
  obtain ⟨s1, s2, s3⟩ := sixDigits_spec n d hd e
  rw [hnd] at s1 s2 s3
  have hpow : (0 : ℚ) < (10 : ℚ) ^ (e - 5) := by positivity
  have hinv : (10 : ℚ) ^ (5 - e) * (10 : ℚ) ^ (e - 5) = 1 := by
    rw [← zpow_add₀ (by norm_num : (10 : ℚ) ≠ 0), show 5 - e + (e - 5) = 0 by omega, zpow_zero]
  refine ⟨hlow, hhigh, ?_, ?_⟩
  · have h1 : roundSix n d - q =
        ((sixDigits n d e : ℚ) - q * (10 : ℚ) ^ (5 - e)) * (10 : ℚ) ^ (e - 5) := by
      unfold roundSix
      rw [sub_mul, mul_assoc, hinv, mul_one]
    rw [h1, abs_mul, abs_of_pos hpow]
    calc _ ≤ 1 / 2 * (10 : ℚ) ^ (e - 5) := mul_le_mul_of_nonneg_right s3 (le_of_lt hpow)
      _ = _ := by ring
  · constructor
    · intro h
      obtain ⟨c1, c2, c3⟩ := roundSix_carry n d hn hd
      exact ⟨_, _, c2, by rw [c3, h]⟩
    · rintro ⟨M, K, hM, hMK⟩
      have hMpos : (0 : ℚ) < M := by
        by_contra hle
        have : (M : ℚ) = 0 := le_antisymm (not_lt.mp hle) (by positivity)
        rw [this, zero_mul] at hMK
        rw [hMK] at hq
        exact lt_irrefl _ hq
      have hMlt : (M : ℚ) < (10 : ℚ) ^ (6 : Int) := by
        have : (M : ℚ) < ((10 ^ 6 : Nat) : ℚ) := by exact_mod_cast hM
        calc (M : ℚ) < ((10 ^ 6 : Nat) : ℚ) := this
          _ = (10 : ℚ) ^ (6 : Int) := by norm_num
      have hKpos : (0 : ℚ) < (10 : ℚ) ^ K := by positivity
      have hlt : (10 : ℚ) ^ e < (10 : ℚ) ^ (6 + K) := by
        calc (10 : ℚ) ^ e ≤ q := hlow
          _ = (M : ℚ) * (10 : ℚ) ^ K := hMK
          _ < (10 : ℚ) ^ (6 : Int) * (10 : ℚ) ^ K := mul_lt_mul_of_pos_right hMlt hKpos
          _ = (10 : ℚ) ^ (6 + K) := (zpow_add₀ (by norm_num : (10 : ℚ) ≠ 0) _ _).symm
      have he6 : e < 6 + K := (zpow_lt_zpow_iff_right₀ (by norm_num : (1 : ℚ) < 10)).mp hlt
      obtain ⟨j, hj⟩ : ∃ j : Nat, K + 5 - e = (j : Int) :=
        ⟨(K + 5 - e).toNat, by omega⟩
      have hs : ((M * 10 ^ j : Nat) : ℚ) = q * (10 : ℚ) ^ (5 - e) := by
        rw [hMK, mul_assoc, ← zpow_add₀ (by norm_num : (10 : ℚ) ≠ 0),
          show K + (5 - e) = (j : Int) by omega, zpow_natCast]
        push_cast
        rfl
      have hsix := s2 _ hs
      unfold roundSix
      rw [← he, hsix, hs, mul_assoc, hinv, mul_one]

/-- A positive number whose text is a NUMBER text is at least `10^(-5)`, and
its rounding to six digits is below a million. -/
theorem formatPositive_valid_range (n d : Nat) (hn : 0 < n) (hd : 0 < d)
    (hvalid : validNumberText (formatPositive n d).toList = true) :
    -5 ≤ decimalExponent n d ∧ roundSix n d < (10 : ℚ) ^ (6 : Int) := by
  obtain ⟨c1, c2, c3⟩ := roundSix_carry n d hn hd
  rw [formatPositive_eq] at hvalid
  by_cases hx : (if sixDigits n d (decimalExponent n d) ≥ 1000000 then decimalExponent n d + 1
      else decimalExponent n d) < -4 ∨
      (if sixDigits n d (decimalExponent n d) ≥ 1000000 then decimalExponent n d + 1
        else decimalExponent n d) ≥ 6
  · rw [formatDigits_exponent_invalid _ _ hx] at hvalid
    cases hvalid
  · constructor
    · split at hx <;> omega
    · rw [← c3]
      have h1 : (((if sixDigits n d (decimalExponent n d) ≥ 1000000 then 100000
          else sixDigits n d (decimalExponent n d) : Nat) : ℚ)) < (10 : ℚ) ^ (6 : Int) := by
        have := c2
        have h2 : (((if sixDigits n d (decimalExponent n d) ≥ 1000000 then 100000
          else sixDigits n d (decimalExponent n d) : Nat) : ℚ)) < ((10 ^ 6 : Nat) : ℚ) :=
          Nat.cast_lt.mpr c2
        calc _ < ((10 ^ 6 : Nat) : ℚ) := h2
          _ = (10 : ℚ) ^ (6 : Int) := by norm_num
      have h2 : (10 : ℚ) ^ ((if sixDigits n d (decimalExponent n d) ≥ 1000000 then
          decimalExponent n d + 1 else decimalExponent n d) - 5) ≤ (10 : ℚ) ^ (0 : Int) :=
        (zpow_le_zpow_iff_right₀ (by norm_num : (1 : ℚ) < 10)).mpr (by omega)
      rw [zpow_zero] at h2
      calc _ ≤ (((if sixDigits n d (decimalExponent n d) ≥ 1000000 then 100000
            else sixDigits n d (decimalExponent n d) : Nat) : ℚ)) * 1 :=
            mul_le_mul_of_nonneg_left h2 (by positivity)
        _ < _ := by rw [mul_one]; exact h1

/-- The six digits of a number that is within half a unit of a whole number of
units of the sixth digit are that whole number. -/
theorem sixDigits_of_near (n d : Nat) (hd : 0 < d) (x : Int) (t : Nat)
    (h : |(n : ℚ) / d * (10 : ℚ) ^ (5 - x) - (t : ℚ)| < 1 / 2) : sixDigits n d x = t := by
  have h3 := (sixDigits_spec n d hd x).2.2
  have h4 : |(sixDigits n d x : ℚ) - (t : ℚ)| < 1 := by
    calc |(sixDigits n d x : ℚ) - (t : ℚ)|
        ≤ |(sixDigits n d x : ℚ) - (n : ℚ) / d * (10 : ℚ) ^ (5 - x)| +
          |(n : ℚ) / d * (10 : ℚ) ^ (5 - x) - (t : ℚ)| := abs_sub_le _ _ _
      _ < 1 := by linarith
  by_contra hne
  rcases Nat.lt_or_gt_of_ne hne with h1 | h1
  · have : (sixDigits n d x : ℚ) + 1 ≤ (t : ℚ) := by exact_mod_cast h1
    rw [abs_of_nonpos (by linarith)] at h4
    linarith
  · have : (t : ℚ) + 1 ≤ (sixDigits n d x : ℚ) := by exact_mod_cast h1
    rw [abs_of_nonneg (by linarith)] at h4
    linarith

/-- A positive number that is within `2^(-53)` of a decimal number `D` of at
most six significant digits, relative to `D`, rounds to `D`. -/
theorem roundSix_near (q D : ℚ) (hq : 0 < q) (M : Nat) (K : Int) (hM : M < 10 ^ 6)
    (hD : D = (M : ℚ) * (10 : ℚ) ^ K)
    (hnear : |q - D| ≤ D * (2 : ℚ) ^ (-53 : Int)) :
    roundSix q.num.natAbs q.den = D := by
  have hε : (2 : ℚ) ^ (-53 : Int) = 1 / 9007199254740992 := by
    rw [zpow_neg]
    norm_num
  rw [hε] at hnear
  have hDpos : 0 < D := by
    by_contra hc
    have h1 : D * (1 / 9007199254740992) ≤ 0 :=
      mul_nonpos_of_nonpos_of_nonneg (not_lt.mp hc) (by norm_num)
    have h2 : |q - D| = 0 := le_antisymm (le_trans hnear h1) (abs_nonneg _)
    have h3 : q = D := sub_eq_zero.mp (abs_eq_zero.mp h2)
    rw [h3] at hq
    exact hc hq
  obtain ⟨hlo, hhi⟩ := abs_le.mp hnear
  obtain ⟨hlow, hhigh, _, _⟩ := roundSix_spec q hq
  have hd : 0 < q.den := q.den_pos
  have hdq : (0 : ℚ) < q.den := by exact_mod_cast hd
  have hnd : (q.num.natAbs : ℚ) / q.den = q := by
    have hnum : 0 < q.num := Rat.num_pos.mpr hq
    have h1 : (q.num.natAbs : Int) = q.num := Int.natAbs_of_nonneg (by omega)
    have h2 : (q.num.natAbs : ℚ) = (q.num : ℚ) := by
      rw [← Int.cast_natCast, h1]
    rw [h2]
    exact Rat.num_div_den q
  set e := decimalExponent q.num.natAbs q.den with he
  have hMq : (M : ℚ) ≤ 999999 := by
    have h1 : M ≤ 999999 := by
      have : (10 : Nat) ^ 6 = 1000000 := by norm_num
      omega
    exact_mod_cast h1
  have hKpos : (0 : ℚ) < (10 : ℚ) ^ K := by positivity
  have hDle : D ≤ 999999 * (10 : ℚ) ^ K := by
    rw [hD]
    exact mul_le_mul_of_nonneg_right hMq (le_of_lt hKpos)
  have hqlt : q < (10 : ℚ) ^ (6 + K) := by
    rw [zpow_add₀ (by norm_num : (10 : ℚ) ≠ 0)]
    have : (10 : ℚ) ^ (6 : Int) = 1000000 := by norm_num
    rw [this]
    nlinarith
  have he6 : e < 6 + K :=
    (zpow_lt_zpow_iff_right₀ (by norm_num : (1 : ℚ) < 10)).mp (lt_of_le_of_lt hlow hqlt)
  obtain ⟨j, hj⟩ : ∃ j : Nat, K + 5 - e = (j : Int) := ⟨(K + 5 - e).toNat, by omega⟩
  have hpow : (0 : ℚ) < (10 : ℚ) ^ (5 - e) := by positivity
  have ht : ((M * 10 ^ j : Nat) : ℚ) = D * (10 : ℚ) ^ (5 - e) := by
    rw [hD, mul_assoc, ← zpow_add₀ (by norm_num : (10 : ℚ) ≠ 0),
      show K + (5 - e) = (j : Int) by omega, zpow_natCast]
    push_cast
    rfl
  have htlt : D * (10 : ℚ) ^ (5 - e) < 2000000 := by
    have h1 : D ≤ 2 * q := by linarith
    have h2 : (10 : ℚ) ^ (e + 1) * (10 : ℚ) ^ (5 - e) = 1000000 := by
      rw [← zpow_add₀ (by norm_num : (10 : ℚ) ≠ 0), show e + 1 + (5 - e) = 6 by omega]
      norm_num
    calc D * (10 : ℚ) ^ (5 - e) ≤ 2 * q * (10 : ℚ) ^ (5 - e) :=
          mul_le_mul_of_nonneg_right h1 (le_of_lt hpow)
      _ < 2 * (10 : ℚ) ^ (e + 1) * (10 : ℚ) ^ (5 - e) := by
          apply mul_lt_mul_of_pos_right _ hpow
          linarith
      _ = 2000000 := by rw [mul_assoc, h2]; norm_num
  have hS : |(q.num.natAbs : ℚ) / q.den * (10 : ℚ) ^ (5 - e) - ((M * 10 ^ j : Nat) : ℚ)| <
      1 / 2 := by
    rw [hnd, ht, ← sub_mul, abs_mul, abs_of_pos hpow]
    calc |q - D| * (10 : ℚ) ^ (5 - e)
        ≤ D * (1 / 9007199254740992) * (10 : ℚ) ^ (5 - e) :=
          mul_le_mul_of_nonneg_right hnear (le_of_lt hpow)
      _ = D * (10 : ℚ) ^ (5 - e) * (1 / 9007199254740992) := by ring
      _ < 2000000 * (1 / 9007199254740992) := mul_lt_mul_of_pos_right htlt (by norm_num)
      _ < 1 / 2 := by norm_num
  have hsix := sixDigits_of_near _ _ hd e _ hS
  have hinv : (10 : ℚ) ^ (5 - e) * (10 : ℚ) ^ (e - 5) = 1 := by
    rw [← zpow_add₀ (by norm_num : (10 : ℚ) ≠ 0), show 5 - e + (e - 5) = 0 by omega, zpow_zero]
  unfold roundSix
  rw [← he, hsix, ht, mul_assoc, hinv, mul_one]

/-- Rounding a rational that is not negative and is below the overflow
boundary gives a finite double. -/
theorem Number.ofRat_finite (r : ℚ) (h0 : 0 ≤ r)
    (h : r < (2 : ℚ) ^ (1024 : Int) - (2 : ℚ) ^ (970 : Int)) :
    ∃ v, Number.ofRat r = .real v := by
  cases hx : Number.ofRat r with
  | real v => exact ⟨v, rfl⟩
  | inf s =>
    have := ((Number.ofRat_inf r s).mp hx).1
    rw [abs_of_nonneg h0] at this
    linarith
  | negZero =>
    exfalso
    by_cases hr : r = 0
    · rw [hr] at hx
      cases hx
    · have hnum : ¬ r.num < 0 := fun hc => absurd (Rat.num_neg.mp hc) (not_lt.mpr h0)
      rw [Number.ofRat_of_ne_zero r hr, roundToDouble_eq] at hx
      simp only [hnum, decide_False] at hx
      split at hx
      · cases hx
      · split at hx <;> cases hx
  | nan s =>
    exfalso
    by_cases hr : r = 0
    · rw [hr] at hx
      cases hx
    · rw [Number.ofRat_of_ne_zero r hr, roundToDouble_eq] at hx
      split at hx
      · cases hd : decide (r.num < 0) <;> rw [hd] at hx <;> cases hx
      · split at hx <;> cases hx

theorem tiny_lt_valid : (2 : ℚ) ^ (-1022 : Int) < (10 : ℚ) ^ (-5 : Int) := by
  have h1 : (2 : ℚ) ^ (-1022 : Int) ≤ (2 : ℚ) ^ (-17 : Int) :=
    (zpow_le_zpow_iff_right₀ (by norm_num : (1 : ℚ) < 2)).mpr (by norm_num)
  have h2 : (2 : ℚ) ^ (-17 : Int) < (10 : ℚ) ^ (-5 : Int) := by
    rw [zpow_neg, zpow_neg]
    norm_num
  exact lt_of_le_of_lt h1 h2

theorem million_lt_overflow :
    (10 : ℚ) ^ (6 : Int) < (2 : ℚ) ^ (1024 : Int) - (2 : ℚ) ^ (970 : Int) := by
  have h1 : (2 : ℚ) ^ (1024 : Int) = 2 * (2 : ℚ) ^ (1023 : Int) := by
    rw [show (1024 : Int) = 1 + 1023 by norm_num, zpow_add₀ (by norm_num : (2 : ℚ) ≠ 0),
      zpow_one]
  have h2 : (2 : ℚ) ^ (970 : Int) ≤ (2 : ℚ) ^ (1023 : Int) :=
    (zpow_le_zpow_iff_right₀ (by norm_num : (1 : ℚ) < 2)).mpr (by norm_num)
  have h3 : (2 : ℚ) ^ (20 : Int) ≤ (2 : ℚ) ^ (1023 : Int) :=
    (zpow_le_zpow_iff_right₀ (by norm_num : (1 : ℚ) < 2)).mpr (by norm_num)
  have h4 : (10 : ℚ) ^ (6 : Int) < (2 : ℚ) ^ (20 : Int) := by norm_num
  linarith

/-- C31 (counterexample): the number 1/1024, which is a double, is written
`0.000976562`, a NUMBER token; that text is read as the double nearest to
0.000976562, which is another number, and `==` tells them apart. -/
theorem Interpreter.number_text_loses_digits :
    Number.representable (mkRat 1 1024) ∧
    formatDouble (.real (mkRat 1 1024)) = "0.000976562" ∧
    validNumberText (formatDouble (.real (mkRat 1 1024))).toList = true ∧
    lex "0.000976562" = [⟨.NUMBER, "0.000976562", 1, 1⟩, ⟨.END_OF_FILE, "", 1, 12⟩] ∧
    stod "0.000976562" = .ok (Number.ofRat (mkRat 488281 500000000)) ∧
    Number.ofRat (mkRat 488281 500000000) =
      .real (mkRat 4503597321527487 4611686018427387904) ∧
    Parser.parse 40 [⟨.NUMBER, "0.000976562", 1, 1⟩, ⟨.END_OF_FILE, "", 1, 12⟩] =
      .ok { statements := [.expression (.literal (.number
          (.real (mkRat 4503597321527487 4611686018427387904))))] }
        ⟨[⟨.NUMBER, "0.000976562", 1, 1⟩, ⟨.END_OF_FILE, "", 1, 12⟩], 1, []⟩ ∧
    Number.real (mkRat 4503597321527487 4611686018427387904) ≠ .real (mkRat 1 1024) ∧
    (run 40 "print 1 / 1024" (Interpreter.new Host.simple)).summary =
      some (["0.000976562"], [], 0) ∧
    (run 40 "print 0.000976562 == 1 / 1024" (Interpreter.new Host.simple)).summary =
      some (["false"], [], 0) := by
  refine ⟨⟨1, -10, by norm_num, by norm_num, by norm_num, ?_⟩, by decide!, by decide!,
    by decide!, rfl, by decide!, rfl, by decide!, by decide!, by decide!⟩
  rw [Rat.mkRat_eq_div, zpow_neg]
  norm_num

/-- C31 (amended): let the text that `stringify` gives for the number `x` be a
NUMBER text, a digit followed by digits and dots only.  Then `x` is a finite
number that is not negative, the lexer reads the text as one NUMBER token, and
`std::stod`, `primary` at such a token and `parse` on the text yield the number
(the literal of the number) that is the double nearest to `x` rounded to six
significant decimal digits.  The rounding to six digits differs from `x` by at
most half a unit of the sixth digit, and the double read is a double nearest to
it.  The double read is `x` exactly when `x` is the double nearest to a number
of at most six significant digits, that is, to `M * 10 ^ K` for a natural
number `M` below a million and an integer `K`. -/
theorem Interpreter.number_text_reads_as_six_digits (st : Interpreter) (x : Number)
    (hvalid : validNumberText (formatDouble x).toList = true) :
    ∃ q : ℚ, x = .real q ∧ 0 ≤ q ∧
      Interpreter.stringify st (.number x) = some (formatDouble x) ∧
      lex (formatDouble x) =
        [⟨.NUMBER, formatDouble x, 1, 1⟩,
          ⟨.END_OF_FILE, "", 1, (formatDouble x).length + 1⟩] ∧
      stod (formatDouble x) = .ok (Number.ofRat (roundSix q.num.natAbs q.den)) ∧
      (∀ fuel ts i line column cerr,
        ts[i]? = some ⟨.NUMBER, formatDouble x, line, column⟩ →
        Parser.primary (fuel + 1) ⟨ts, i, cerr⟩ =
          .ok (.literal (.number (Number.ofRat (roundSix q.num.natAbs q.den))))
            ⟨ts, i + 1, cerr⟩) ∧
      (∃ k, ∀ n, Parser.parse (n + k) (lex (formatDouble x)) =
        .ok { statements :=
            [.expression (.literal (.number (Number.ofRat (roundSix q.num.natAbs q.den))))] }
          ⟨lex (formatDouble x), 1, []⟩) ∧
      |roundSix q.num.natAbs q.den - q| ≤
        (10 : ℚ) ^ (decimalExponent q.num.natAbs q.den - 5) / 2 ∧
      (0 < q → (10 : ℚ) ^ decimalExponent q.num.natAbs q.den ≤ q ∧
        q < (10 : ℚ) ^ (decimalExponent q.num.natAbs q.den + 1)) ∧
      (∃ v : ℚ, Number.ofRat (roundSix q.num.natAbs q.den) = .real v ∧
        Number.representable v ∧
        ∀ w, Number.representable w →
          |v - roundSix q.num.natAbs q.den| ≤ |w - roundSix q.num.natAbs q.den|) ∧
      (Number.ofRat (roundSix q.num.natAbs q.den) = x ↔
        ∃ (M : Nat) (K : Int), M < 10 ^ 6 ∧
          x = Number.ofRat ((M : ℚ) * (10 : ℚ) ^ K)) := by
  obtain ⟨q, hx, hq0, hstod⟩ := stod_formatDouble x hvalid
  have hlex : lex (formatDouble x) =
      [⟨.NUMBER, formatDouble x, 1, 1⟩,
        ⟨.END_OF_FILE, "", 1, (formatDouble x).length + 1⟩] := by
    cases hl : (formatDouble x).toList with
    | nil => rw [hl] at hvalid; cases hvalid
    | cons c rest =>
      rw [hl] at hvalid
      simp only [validNumberText, Bool.and_eq_true, List.all_eq_true, Bool.or_eq_true,
        beq_iff_eq] at hvalid
      have hs : formatDouble x = String.mk (c :: rest) := by
        rw [← hl]
        rfl
      have hlen : (formatDouble x).length = rest.length + 1 := by
        rw [hs]; rfl
      rw [hlen, hs]
      exact Lexer.lex_number c rest hvalid.1 hvalid.2
  have hzero : roundSix (0 : ℚ).num.natAbs (0 : ℚ).den = 0 := roundSix_zero _ (0 : ℚ).den_pos
  -- a positive `x` is at least `10^(-5)`, and its six digits are below a million
  have hrange : 0 < q → (10 : ℚ) ^ (-5 : Int) ≤ q ∧
      roundSix q.num.natAbs q.den < (10 : ℚ) ^ (6 : Int) := by
    intro hpos
    have hnum : 0 < q.num := Rat.num_pos.mpr hpos
    have hv : validNumberText (formatPositive q.num.natAbs q.den).toList = true := by
      rw [hx] at hvalid
      simp only [formatDouble] at hvalid
      rw [if_neg (by omega), if_neg (by omega)] at hvalid
      exact hvalid
    obtain ⟨r1, r2⟩ := formatPositive_valid_range _ _ (Int.natAbs_pos.mpr (by omega))
      q.den_pos hv
    refine ⟨?_, r2⟩
    calc (10 : ℚ) ^ (-5 : Int) ≤ (10 : ℚ) ^ decimalExponent q.num.natAbs q.den :=
          (zpow_le_zpow_iff_right₀ (by norm_num : (1 : ℚ) < 10)).mpr r1
      _ ≤ q := (roundSix_spec q hpos).1
  have hnonneg : 0 ≤ roundSix q.num.natAbs q.den := by
    have hp : (0 : ℚ) < (10 : ℚ) ^ (decimalExponent q.num.natAbs q.den - 5) := by positivity
    exact mul_nonneg (Nat.cast_nonneg _) (le_of_lt hp)
  have hbelow : roundSix q.num.natAbs q.den <
      (2 : ℚ) ^ (1024 : Int) - (2 : ℚ) ^ (970 : Int) := by
    rcases eq_or_lt_of_le hq0 with h0 | hpos
    · rw [← h0, hzero]
      exact lt_trans (by positivity) million_lt_overflow
    · exact lt_trans (hrange hpos).2 million_lt_overflow
  refine ⟨q, hx, hq0, by rw [hx]; rfl, hlex, hstod, ?_, ?_, ?_, ?_, ?_, ?_⟩
  · intro fuel ts i line column cerr ht
    exact Parser.primary_number fuel ts i cerr _ _ ht rfl hstod
  · rw [hlex]
    exact Parser.parse_number_token _ 1 1 _ _ rfl hstod
  · rcases eq_or_lt_of_le hq0 with h0 | hpos
    · rw [← h0, hzero, sub_zero, abs_zero]
      positivity
    · exact (roundSix_spec q hpos).2.2.1
  · intro hpos
    exact ⟨(roundSix_spec q hpos).1, (roundSix_spec q hpos).2.1⟩
  · obtain ⟨v, hv⟩ := Number.ofRat_finite _ hnonneg hbelow
    obtain ⟨v1, v2, _, _⟩ := Number.ofRat_real _ v hv
    exact ⟨v, hv, v1, v2⟩
  · rw [hx]
    constructor
    · intro h
      rcases eq_or_lt_of_le hq0 with h0 | hpos
      · refine ⟨0, 0, by norm_num, ?_⟩
        rw [← h0, Nat.cast_zero, zero_mul]
        rfl
      · obtain ⟨c1, c2, c3⟩ := roundSix_carry q.num.natAbs q.den
          (Int.natAbs_pos.mpr (by have := Rat.num_pos.mpr hpos; omega)) q.den_pos
        exact ⟨_, _, c2, by rw [c3, h]⟩
    · rintro ⟨M, K, hM, hMK⟩
      rcases eq_or_lt_of_le hq0 with h0 | hpos
      · rw [← h0, hzero]
        rfl
      · have hD := Number.ofRat_real _ q hMK.symm
        have hDpos : 0 < (M : ℚ) * (10 : ℚ) ^ K := by
          by_contra hc
          exact absurd (hD.2.2.2 (not_lt.mp hc)) (not_le.mpr hpos)
        have hnormal : (2 : ℚ) ^ (-1022 : Int) ≤ |(M : ℚ) * (10 : ℚ) ^ K| := by
          rw [abs_of_pos hDpos]
          by_contra hc
          have hw : Number.representable ((2 : ℚ) ^ (-1022 : Int)) :=
            ⟨1, -1022, by norm_num, by norm_num, by norm_num, by
              rw [abs_of_pos (by positivity), Nat.cast_one, one_mul]⟩
          have h1 := hD.2.1 _ hw
          rw [abs_of_nonneg (a := (2 : ℚ) ^ (-1022 : Int) - (M : ℚ) * (10 : ℚ) ^ K)
            (by linarith)] at h1
          have h2 := (abs_le.mp h1).2
          have h3 := (hrange hpos).1
          have h4 := tiny_lt_valid
          linarith
        have hnear := Number.ofRat_error _ q hMK.symm hnormal
        rw [abs_of_pos hDpos] at hnear
        rw [roundSix_near q _ hpos M K hM rfl hnear]
        exact hMK.symm

/-- C31, on the double nearest to 0.1, which is written `0.1` and read back as
itself, although it is not a decimal number of six digits. -/
theorem Interpreter.number_text_reads_as_six_digits_witness :
    validNumberText
      (formatDouble (.real (mkRat 3602879701896397 36028797018963968))).toList = true ∧
    formatDouble (.real (mkRat 3602879701896397 36028797018963968)) = "0.1" ∧
    stod "0.1" = .ok (Number.ofRat (mkRat 1 10)) ∧
    Number.ofRat (mkRat 1 10) = .real (mkRat 3602879701896397 36028797018963968) ∧
    ∃ q : ℚ, Number.real (mkRat 3602879701896397 36028797018963968) = .real q ∧
      stod (formatDouble (.real (mkRat 3602879701896397 36028797018963968))) =
        .ok (Number.ofRat (roundSix q.num.natAbs q.den)) ∧
      (Number.ofRat (roundSix q.num.natAbs q.den) =
          .real (mkRat 3602879701896397 36028797018963968) ↔
        ∃ (M : Nat) (K : Int), M < 10 ^ 6 ∧
          Number.real (mkRat 3602879701896397 36028797018963968) =
            Number.ofRat ((M : ℚ) * (10 : ℚ) ^ K)) :=
  ⟨by decide!, by decide!, rfl, by decide!,
    (Interpreter.number_text_reads_as_six_digits (Interpreter.new Host.simple)
      (.real (mkRat 3602879701896397 36028797018963968)) (by decide!)).elim
      (fun q h => ⟨q, h.1, h.2.2.2.2.1, h.2.2.2.2.2.2.2.2.2.2⟩)⟩

end Flux
